import Mathlib

/-!
# LaganLighter: graph transformations and the MSF checks of the MASTIFF driver

A shallow embedding of `src/trans.c` (`csr2sym`, `csr2csc`,
`add_4B_weight_to_ll_400_graph`, `copy_ll_400_graph`, `copy_ll_404_graph`,
`copy_ll_404_to_400_graph`), of the reader `get_txt_graph` and the graph records of
`src/graph.c`, and of the calls that `main` of `src/alg3_mastiff.c` makes.  The MSF
functions `msf_mastiff`, `msf_prim_serial` and `msf_validate` of `msf.c`, which is not
among the sources, are modelled from the spec.

Modelling conventions.

* C arrays are `List Nat`; a read `a[i]` is `rd a i` (reads outside the array give `0`),
  a write `a[i] = x` is `a.set i x` (a write outside the array is dropped).  Arrays
  obtained from the allocator hold zeros.  A `NULL` argument or field is `none`.
* Machine integers are natural numbers; a narrowing is written `% 2 ^ 32` or `% 2 ^ 64`
  where the source narrows or wraps (the `unsigned int` degree of the sorting loop, the
  4-byte weight, the 32-bit loop counter, the 64-bit generators).
* `assert` failures are `Except.error` carrying the text of the assertion.  A loop that
  may not end takes a bound `fuel` on its iterations and yields `none` when it has not
  ended by then.
* The loops `#pragma omp parallel for` over the offsets in the copy functions make the
  number of iterations that OpenMP computes before the loop starts, in the 32 bits of
  their counter (`offsets_trip_count`).
* The OpenMP regions are executed by one thread: the dispatcher hands out the
  partitions `0, 1, ..., partitions_count - 1` in this order, and inside a partition
  the vertices are visited in ID order.  Atomic read-modify-write operations become
  plain updates.  Where a statement depends on the schedule, the order of the
  iterations is a parameter.
* The boundaries computed by `parallel_edge_partitioning` (file `partitioning.c`,
  not part of the sources at hand) are a parameter `partitions`.
* The write traces (`csr2sym_writes`, `add_4B_weight_writes`) run the loops of the
  embedding once more and record the indices written.
* Timing, printing, allocation failures and the free-memory test are not modelled.

The definitions come first, the theorems follow.
-/

namespace LaganLighter

/-! ## Data model -/

/-- The record `struct ll_400_graph` (`struct ll_graph` in `graph.c`):
CSR graph with 8-byte offsets and 4-byte neighbour IDs, no weights. -/
structure ll_400_graph where
  vertices_count : Nat
  edges_count : Nat
  offsets_list : List Nat
  edges_list : List Nat
deriving DecidableEq

/-- The record `struct ll_404_graph` (`struct w4_graph` in `graph.c`): each edge has two
4-byte words in `edges_list`, the neighbour at `2 * e` and the weight at `2 * e + 1`. -/
structure ll_404_graph where
  vertices_count : Nat
  edges_count : Nat
  offsets_list : List Nat
  edges_list : List Nat
deriving DecidableEq

/-- The part of `struct par_env` read by the transformations. -/
structure par_env where
  threads_count : Nat
deriving DecidableEq

/-- Array read `a[i]`. -/
def rd (a : List Nat) (i : Nat) : Nat := a.getD i 0

/-- The vertices `partitions[p], ..., partitions[p + 1] - 1` visited by
`for(unsigned int v = partitions[p]; v < partitions[p + 1]; v++)`. -/
def partition_vertices (partitions : List Nat) (p : Nat) : List Nat :=
  List.range' (rd partitions p) (rd partitions (p + 1) - rd partitions p)

/-- The edge indices `offsets_list[v], ..., offsets_list[v + 1] - 1` visited by
`for(unsigned long e = offsets_list[v]; e < offsets_list[v + 1]; e++)`. -/
def edge_slots (offsets_list : List Nat) (v : Nat) : List Nat :=
  List.range' (rd offsets_list v) (rd offsets_list (v + 1) - rd offsets_list v)

/-- The loop nest shared by the steps of `csr2sym`: every partition in the order
given by the dispatcher, every vertex of the partition in ID order. -/
def for_partition_vertices {σ : Type} (partitions : List Nat) (partitions_count : Nat)
    (body : σ → Nat → Except String σ) (s : σ) : Except String σ :=
  (List.range partitions_count).foldlM
    (fun s p => (partition_vertices partitions p).foldlM body s) s

/-! ## Helpers of `aux.c` -/

/-- Loop of `uint_binary_search` on the half-open range `[lo, hi)`. -/
def uint_binary_search_loop (input : List Nat) (val : Nat) : Nat → Nat → Nat → Option Nat
  | 0, _, _ => none
  | fuel + 1, lo, hi =>
    if lo < hi then
      if rd input ((lo + hi) / 2) = val then some ((lo + hi) / 2)
      else if rd input ((lo + hi) / 2) < val then
        uint_binary_search_loop input val fuel ((lo + hi) / 2 + 1) hi
      else uint_binary_search_loop input val fuel lo ((lo + hi) / 2)
    else none

/-- Modelled from the spec: `uint_binary_search` is defined in `aux.c`, which is not among
the sources; `trans.c` documents it as the binary search that checks whether an edge exists
in a sorted neighbour-list.  It searches `val` in `input[in_start .. in_end)` and returns
the index found; `none` stands for the result `-1UL`.  The range shrinks at every
iteration, so `in_end - in_start` iterations always suffice. -/
def uint_binary_search (input : List Nat) (in_start in_end val : Nat) : Option Nat :=
  uint_binary_search_loop input val (in_end - in_start) in_start in_end

/-- Modelled from the spec: `quick_sort_uint` is defined in `aux.c`, which is not among the
sources; `csr2sym` uses it to "sort neighbour-list of the output".  It sorts
`input[start .. end]` (both ends included) in ascending order and leaves the rest of the
array alone.  The ascending arrangement of a range is unique, so every sorting
algorithm computes this function. -/
def quick_sort_uint (input : List Nat) (start stop : Nat) : List Nat :=
  input.take start ++
    ((input.drop start).take (stop + 1 - start)).insertionSort (fun a b => a ≤ b) ++
    input.drop (stop + 1)

/-! ## `csr2sym` -/

/-- Step 1, body of the loop over the edges of `v`: count self-edges out of the
degree and check that the neighbour-list is sorted. -/
def csr2sym_check_edge (csr : ll_400_graph) (flags v : Nat) (degree : Int) (e : Nat) :
    Except String Int :=
  let degree1 : Int :=
    if flags &&& 4 ≠ 0 ∧ rd csr.edges_list e = v then degree - 1 else degree
  if e < rd csr.offsets_list (v + 1) - 1 ∧ rd csr.edges_list e ≥ rd csr.edges_list (e + 1) then
    Except.error "The CSR graph does not have sorted neighbour-lists"
  else Except.ok degree1

/-- Step 1, body of the loop over the vertices; `degree` is a `long`. -/
def csr2sym_check_vertex (csr : ll_400_graph) (flags : Nat) (offsets_list : List Nat) (v : Nat) :
    Except String (List Nat) :=
  match (edge_slots csr.offsets_list v).foldlM (csr2sym_check_edge csr flags v)
      ((rd csr.offsets_list (v + 1) : Int) - (rd csr.offsets_list v : Int)) with
  | Except.error msg => Except.error msg
  | Except.ok degree =>
    if degree < 0 then Except.error "degree >= 0"
    else Except.ok (offsets_list.set v degree.toNat)

/-- Step 2, body of the loop over the edges of `v`.  The state is
`(out_graph->offsets_list, edge_is_symmetric)`. -/
def csr2sym_degree_edge (csr : ll_400_graph) (v : Nat) (st : List Nat × List Nat) (e : Nat) :
    Except String (List Nat × List Nat) :=
  if rd csr.edges_list e = v then Except.ok st
  else if (uint_binary_search csr.edges_list (rd csr.offsets_list (rd csr.edges_list e))
      (rd csr.offsets_list (rd csr.edges_list e + 1)) v).isSome then
    if rd st.2 (e / 8) &&& (1 <<< (e % 8)) ≠ 0 then Except.error "(val2 & val) == 0"
    else Except.ok (st.1, st.2.set (e / 8) (rd st.2 (e / 8) ||| (1 <<< (e % 8))))
  else Except.ok (st.1.set (rd csr.edges_list e) (rd st.1 (rd csr.edges_list e) + 1), st.2)

/-- Step 2, body of the loop over the vertices. -/
def csr2sym_degree_vertex (csr : ll_400_graph) (st : List Nat × List Nat) (v : Nat) :
    Except String (List Nat × List Nat) :=
  (edge_slots csr.offsets_list v).foldlM (csr2sym_degree_edge csr v) st

/-- Step 3: the total of the symmetric degrees of partition `p`. -/
def csr2sym_partition_sum (partitions offsets_list : List Nat) (p : Nat) : Nat :=
  (partition_vertices partitions p).foldl (fun sum v => sum + rd offsets_list v) 0

/-- The partial sum of `partitions_total_edges`; returns the array and the final `sum`. -/
def csr2sym_partial_sum (partitions_count : Nat) (partitions_total_edges : List Nat) :
    List Nat × Nat :=
  (List.range partitions_count).foldl
    (fun st p => (st.1.set p st.2, st.2 + rd st.1 p)) (partitions_total_edges, 0)

/-- Step 4, body of the loop over the edges of `v`.  The state is
`(out_graph->edges_list, last_offset)`. -/
def csr2sym_copy_edge (csr : ll_400_graph) (flags v : Nat) (st : List Nat × Nat) (e : Nat) :
    List Nat × Nat :=
  if flags &&& 4 ≠ 0 ∧ rd csr.edges_list e = v then st
  else (st.1.set st.2 (rd csr.edges_list e), st.2 + 1)

/-- The arrays written by steps 4 and 5. -/
structure sym_state where
  offsets_list : List Nat
  last_offsets : List Nat
  edges_list : List Nat
deriving DecidableEq

/-- Step 4, body of the loop over the vertices.  The state carries `current_offset`. -/
def csr2sym_copy_vertex (csr : ll_400_graph) (flags : Nat) (st : sym_state × Nat) (v : Nat) :
    Except String (sym_state × Nat) :=
  let copied := (edge_slots csr.offsets_list v).foldl (csr2sym_copy_edge csr flags v)
    (st.1.edges_list, st.2)
  if copied.2 ≤ st.2 + rd st.1.offsets_list v then
    Except.ok
      ({ offsets_list := st.1.offsets_list.set v st.2,
         last_offsets := st.1.last_offsets.set v copied.2,
         edges_list := copied.1 }, st.2 + rd st.1.offsets_list v)
  else Except.error "last_offset <= current_offset"

/-- Step 4, body of the loop over the partitions. -/
def csr2sym_copy_partition (csr : ll_400_graph) (flags : Nat) (partitions : List Nat)
    (partitions_count : Nat) (partitions_total_edges : List Nat) (st : sym_state) (p : Nat) :
    Except String sym_state :=
  match (partition_vertices partitions p).foldlM (csr2sym_copy_vertex csr flags)
      (st, rd partitions_total_edges p) with
  | Except.error msg => Except.error msg
  | Except.ok res =>
    if p + 1 < partitions_count ∧ res.2 ≠ rd partitions_total_edges (p + 1) then
      Except.error "current_offset == partitions_total_edges[partition + 1]"
    else Except.ok res.1

/-- Step 5, body of the loop over the edges of `v`. -/
def csr2sym_write_edge (csr : ll_400_graph) (edge_is_symmetric : List Nat) (v : Nat)
    (st : sym_state) (e : Nat) : Except String sym_state :=
  if v = rd csr.edges_list e then Except.ok st
  else if rd edge_is_symmetric (e / 8) &&& (1 <<< (e % 8)) ≠ 0 then Except.ok st
  else if rd st.last_offsets (rd csr.edges_list e) < rd st.offsets_list (rd csr.edges_list e + 1) then
    Except.ok
      { offsets_list := st.offsets_list,
        last_offsets := st.last_offsets.set (rd csr.edges_list e)
          (rd st.last_offsets (rd csr.edges_list e) + 1),
        edges_list := st.edges_list.set (rd st.last_offsets (rd csr.edges_list e)) v }
  else Except.error "prev_offset < out_graph->offsets_list[dest+1]"

/-- Step 5, body of the loop over the vertices. -/
def csr2sym_write_vertex (csr : ll_400_graph) (edge_is_symmetric : List Nat) (st : sym_state)
    (v : Nat) : Except String sym_state :=
  (edge_slots csr.offsets_list v).foldlM (csr2sym_write_edge csr edge_is_symmetric v) st

/-- Sorting, body of the loop over the vertices; `degree` is an `unsigned int`. -/
def csr2sym_sort_vertex (offsets_list : List Nat) (edges_list : List Nat) (v : Nat) : List Nat :=
  if (rd offsets_list (v + 1) - rd offsets_list v) % 2 ^ 32 < 2 then edges_list
  else
    edges_list.take (rd offsets_list v) ++
      quick_sort_uint (edges_list.drop (rd offsets_list v)) 0
        ((rd offsets_list (v + 1) - rd offsets_list v) % 2 ^ 32 - 1)

/-- Step 1 of `csr2sym`: checking if neighbour-lists are sorted and decrease degree for
self-edges.  Returns `out_graph->offsets_list`, which holds degrees for now. -/
def csr2sym_step1 (pe : par_env) (partitions : List Nat) (csr : ll_400_graph) (flags : Nat) :
    Except String (List Nat) :=
  for_partition_vertices partitions (pe.threads_count * 64)
    (csr2sym_check_vertex csr flags) (List.replicate (1 + csr.vertices_count) 0)

/-- Step 2 of `csr2sym`: identifying degree of vertices in the symmetric graph.
Returns `(out_graph->offsets_list, edge_is_symmetric)`. -/
def csr2sym_step2 (pe : par_env) (partitions : List Nat) (csr : ll_400_graph)
    (offsets_list : List Nat) : Except String (List Nat × List Nat) :=
  for_partition_vertices partitions (pe.threads_count * 64)
    (csr2sym_degree_vertex csr) (offsets_list, List.replicate (1 + csr.edges_count / 8) 0)

/-- Step 3 of `csr2sym` and the partial sum that follows it: returns
`(partitions_total_edges, out_graph->edges_count)`. -/
def csr2sym_step3 (pe : par_env) (partitions : List Nat) (offsets_list : List Nat) :
    List Nat × Nat :=
  csr2sym_partial_sum (pe.threads_count * 64)
    ((List.range (pe.threads_count * 64)).map (csr2sym_partition_sum partitions offsets_list))

/-- Step 4 of `csr2sym`: updating the last_offsets and out_graph->offsets_list and copying
csr edges of each vertex.  `sums` is the result of step 3. -/
def csr2sym_step4 (pe : par_env) (partitions : List Nat) (csr : ll_400_graph) (flags : Nat)
    (offsets_list : List Nat) (sums : List Nat × Nat) : Except String sym_state :=
  (List.range (pe.threads_count * 64)).foldlM
    (csr2sym_copy_partition csr flags partitions (pe.threads_count * 64) sums.1)
    { offsets_list := offsets_list.set csr.vertices_count sums.2,
      last_offsets := List.replicate (1 + csr.vertices_count) 0,
      edges_list := List.replicate sums.2 0 }

/-- Step 5 of `csr2sym`: writing edges. -/
def csr2sym_step5 (pe : par_env) (partitions : List Nat) (csr : ll_400_graph)
    (edge_is_symmetric : List Nat) (st : sym_state) : Except String sym_state :=
  for_partition_vertices partitions (pe.threads_count * 64)
    (csr2sym_write_vertex csr edge_is_symmetric) st

/-- The sorting block of `csr2sym` (run when bit 1 of `flags` is set). -/
def csr2sym_sort (vertices_count : Nat) (offsets_list edges_list : List Nat) : List Nat :=
  (List.range vertices_count).foldl (csr2sym_sort_vertex offsets_list) edges_list

/-- Steps 1 to 5 and the sorting of `csr2sym`: the output graph and `last_offsets`. -/
def csr2sym_build (pe : par_env) (partitions : List Nat) (csr : ll_400_graph) (flags : Nat) :
    Except String (ll_400_graph × List Nat) :=
  match csr2sym_step1 pe partitions csr flags with
  | Except.error msg => Except.error msg
  | Except.ok offsets1 =>
  match csr2sym_step2 pe partitions csr offsets1 with
  | Except.error msg => Except.error msg
  | Except.ok degrees =>
  match csr2sym_step4 pe partitions csr flags degrees.1
      (csr2sym_step3 pe partitions degrees.1) with
  | Except.error msg => Except.error msg
  | Except.ok copied =>
  match csr2sym_step5 pe partitions csr degrees.2 copied with
  | Except.error msg => Except.error msg
  | Except.ok written =>
  Except.ok
    ({ vertices_count := csr.vertices_count,
       edges_count := (csr2sym_step3 pe partitions degrees.1).2,
       offsets_list := written.offsets_list,
       edges_list :=
         if flags &&& 2 ≠ 0 then
           csr2sym_sort csr.vertices_count written.offsets_list written.edges_list
         else written.edges_list }, written.last_offsets)

/-- Validation 1, body of the loop over the edges of `v` in the output. -/
def csr2sym_validate1_edge (csr out_graph : ll_400_graph) (flags v : Nat) (_ : Unit) (e : Nat) :
    Except String Unit :=
  if flags &&& 4 ≠ 0 ∧ rd out_graph.edges_list e = v then Except.error "dest != src"
  else if (uint_binary_search csr.edges_list (rd csr.offsets_list (rd out_graph.edges_list e))
      (rd csr.offsets_list (rd out_graph.edges_list e + 1)) v).isSome then Except.ok ()
  else if (uint_binary_search csr.edges_list (rd csr.offsets_list v)
      (rd csr.offsets_list (v + 1)) (rd out_graph.edges_list e)).isSome then Except.ok ()
  else Except.error "found != -1UL"

/-- Validation 1, body of the loop over the vertices. -/
def csr2sym_validate1_vertex (csr out_graph : ll_400_graph) (last_offsets : List Nat)
    (flags : Nat) (_ : Unit) (v : Nat) : Except String Unit :=
  if rd out_graph.offsets_list (v + 1) ≠ rd last_offsets v then
    Except.error "out_graph->offsets_list[v+1] == last_offsets[v]"
  else if rd out_graph.offsets_list (v + 1) < rd out_graph.offsets_list v then
    Except.error "out_graph->offsets_list[v+1] >= out_graph->offsets_list[v]"
  else (edge_slots out_graph.offsets_list v).foldlM
    (csr2sym_validate1_edge csr out_graph flags v) ()

/-- Validation 2, body of the loop over the edges of `v` in the input. -/
def csr2sym_validate2_edge (csr out_graph : ll_400_graph) (flags v : Nat) (_ : Unit) (e : Nat) :
    Except String Unit :=
  if flags &&& 4 ≠ 0 ∧ v = rd csr.edges_list e then Except.ok ()
  else if (uint_binary_search out_graph.edges_list (rd out_graph.offsets_list v)
      (rd out_graph.offsets_list (v + 1)) (rd csr.edges_list e)).isNone then
    Except.error "found != -1UL"
  else if (uint_binary_search out_graph.edges_list
      (rd out_graph.offsets_list (rd csr.edges_list e))
      (rd out_graph.offsets_list (rd csr.edges_list e + 1)) v).isNone then
    Except.error "found != -1UL"
  else Except.ok ()

/-- Validation 2, body of the loop over the vertices. -/
def csr2sym_validate2_vertex (csr out_graph : ll_400_graph) (flags : Nat) (_ : Unit) (v : Nat) :
    Except String Unit :=
  (edge_slots csr.offsets_list v).foldlM (csr2sym_validate2_edge csr out_graph flags v) ()

/-- The validation block of `csr2sym` (run when bit 0 of `flags` is set). -/
def csr2sym_validate (pe : par_env) (partitions : List Nat) (csr out_graph : ll_400_graph)
    (last_offsets : List Nat) (flags : Nat) : Except String Unit :=
  if out_graph.vertices_count ≠ csr.vertices_count then
    Except.error "out_graph->vertices_count == csr->vertices_count"
  else if rd out_graph.offsets_list 0 ≠ 0 then
    Except.error "out_graph->offsets_list[0] == 0"
  else if rd out_graph.offsets_list out_graph.vertices_count ≠ out_graph.edges_count then
    Except.error "out_graph->offsets_list[out_graph->vertices_count] == out_graph->edges_count"
  else
    match for_partition_vertices partitions (pe.threads_count * 64)
        (csr2sym_validate1_vertex csr out_graph last_offsets flags) () with
    | Except.error msg => Except.error msg
    | Except.ok _ =>
      if flags &&& 2 = 0 then
        Except.error "Neighbour-list should be sorted for the second evaluation."
      else
        for_partition_vertices partitions (pe.threads_count * 64)
          (csr2sym_validate2_vertex csr out_graph flags) ()

/-- The function `csr2sym` of `trans.c`.
flags: bit 0 validate results, bit 1 sort neighbour-list of the output,
bit 2 remove self-edges. -/
def csr2sym (pe : par_env) (partitions : List Nat) (csr : ll_400_graph) (flags : Nat) :
    Except String ll_400_graph :=
  match csr2sym_build pe partitions csr flags with
  | Except.error msg => Except.error msg
  | Except.ok built =>
    if flags &&& 1 ≠ 0 then
      match csr2sym_validate pe partitions csr built.1 built.2 flags with
      | Except.error msg => Except.error msg
      | Except.ok _ => Except.ok built.1
    else Except.ok built.1

/-! ## `add_4B_weight_to_ll_400_graph` -/

/-- One step of splitmix64 as written in the seeding loop: the new `x` and the value
stored in `s[si]`, in 64-bit wrapping arithmetic. -/
def splitmix64 (x : Nat) : Nat × Nat :=
  let x1 := (x + 0x9e3779b97f4a7c15) % 2 ^ 64
  let z1 := ((x1 ^^^ (x1 >>> 30)) * 0xbf58476d1ce4e5b9) % 2 ^ 64
  let z2 := ((z1 ^^^ (z1 >>> 27)) * 0x94d049bb133111eb) % 2 ^ 64
  (x1, z2 ^^^ (z2 >>> 31))

/-- The array `unsigned long s[4]` of the xoshiro256++ generator. -/
structure xoshiro256 where
  s0 : Nat
  s1 : Nat
  s2 : Nat
  s3 : Nat
deriving DecidableEq

/-- Preparing the seed for randomization: `x = partition`, then four splitmix64 steps. -/
def seed_partition (partition : Nat) : xoshiro256 :=
  let r0 := splitmix64 partition
  let r1 := splitmix64 r0.1
  let r2 := splitmix64 r1.1
  let r3 := splitmix64 r2.1
  { s0 := r0.2, s1 := r1.2, s2 := r2.2, s3 := r3.2 }

/-- The 64-bit rotation `(x << k) | (x >> (64 - k))`. -/
def rotl64 (x k : Nat) : Nat :=
  ((x <<< k) % 2 ^ 64) ||| (x >>> (64 - k))

/-- Setting the `rand_val` using xoshiro256++: the value drawn and the new state. -/
def xoshiro256_next (s : xoshiro256) : Nat × xoshiro256 :=
  let rand_val := (s.s0 + rotl64 ((s.s0 + s.s3) % 2 ^ 64) 23) % 2 ^ 64
  let t := (s.s1 <<< 17) % 2 ^ 64
  let s2 := s.s2 ^^^ s.s0
  let s3 := s.s3 ^^^ s.s1
  let s1 := s.s1 ^^^ s2
  let s0 := s.s0 ^^^ s3
  (rand_val, { s0 := s0, s1 := s1, s2 := s2 ^^^ t, s3 := rotl64 s3 45 })

/-- Step 1, the loop `for(; e < g->offsets_list[v+1]; e++)` with its `break`: `k` is the
number of iterations left before `e` reaches `offsets_list[v+1]`.  The state is
`(graph->edges_list, s)`; the result carries the final value of `e`.  The weight is
stored in a 4-byte word. -/
def add_4B_weight_assign_edges (g : ll_400_graph) (max_weight v : Nat) :
    Nat → Nat → List Nat × xoshiro256 → Nat × (List Nat × xoshiro256)
  | 0, e, st => (e, st)
  | k + 1, e, st =>
    if rd g.edges_list e > v then (e, st)
    else
      add_4B_weight_assign_edges g max_weight v k (e + 1)
        ((st.1.set (2 * e) (rd g.edges_list e)).set (2 * e + 1)
          ((1 + (xoshiro256_next st.2).1 % max_weight) % 2 ^ 32), (xoshiro256_next st.2).2)

/-- Step 1, body of the loop over the vertices of a partition.  The state is
`((graph->offsets_list, graph->edges_list), s)`. -/
def add_4B_weight_assign_vertex (g : ll_400_graph) (max_weight : Nat)
    (st : (List Nat × List Nat) × xoshiro256) (v : Nat) : (List Nat × List Nat) × xoshiro256 :=
  let r := add_4B_weight_assign_edges g max_weight v
    (rd g.offsets_list (v + 1) - rd g.offsets_list v) (rd g.offsets_list v) (st.1.2, st.2)
  ((st.1.1.set v r.1, r.2.1), r.2.2)

/-- Step 1, body of the loop over the partitions: seed the generator from the partition
index, then visit the vertices of the partition. -/
def add_4B_weight_assign_partition (g : ll_400_graph) (max_weight : Nat) (partitions : List Nat)
    (st : List Nat × List Nat) (p : Nat) : List Nat × List Nat :=
  ((partition_vertices partitions p).foldl (add_4B_weight_assign_vertex g max_weight)
    (st, seed_partition p)).1

/-- Step 1 of `add_4B_weight_to_ll_400_graph`: assigning weights for neighbours of each
vertex with IDs smaller than (or equal to) the ID of that vertex.  Returns
`(graph->offsets_list, graph->edges_list)`. -/
def add_4B_weight_step1 (pe : par_env) (partitions : List Nat) (g : ll_400_graph)
    (max_weight : Nat) : List Nat × List Nat :=
  (List.range (pe.threads_count * 64)).foldl
    (add_4B_weight_assign_partition g max_weight partitions)
    (List.replicate (1 + g.vertices_count) 0, List.replicate (2 * g.edges_count) 0)

/-- Step 2, the loop over the edges of `v` with its `break`: `k` is the number of
iterations left before `e` reaches `offsets_list[v+1]`.  The state is
`(graph->offsets_list, graph->edges_list)`. -/
def add_4B_weight_mirror_edges (g : ll_400_graph) (v : Nat) :
    Nat → Nat → List Nat × List Nat → List Nat × List Nat
  | 0, _, st => st
  | k + 1, e, st =>
    if rd g.edges_list e ≥ v then st
    else
      add_4B_weight_mirror_edges g v k (e + 1)
        (st.1.set (rd g.edges_list e) (rd st.1 (rd g.edges_list e) + 1),
          (st.2.set (2 * rd st.1 (rd g.edges_list e)) v).set
            (2 * rd st.1 (rd g.edges_list e) + 1)
            (rd (st.2.set (2 * rd st.1 (rd g.edges_list e)) v) (2 * e + 1)))

/-- Step 2, body of the loop over the vertices. -/
def add_4B_weight_mirror_vertex (g : ll_400_graph) (st : List Nat × List Nat) (v : Nat) :
    List Nat × List Nat :=
  add_4B_weight_mirror_edges g v (rd g.offsets_list (v + 1) - rd g.offsets_list v)
    (rd g.offsets_list v) st

/-- Step 2 of `add_4B_weight_to_ll_400_graph`: writing the weights for symmetric edges of
each vertex with neighbour ID > vertex ID. -/
def add_4B_weight_step2 (g : ll_400_graph) (st : List Nat × List Nat) : List Nat × List Nat :=
  (List.range g.vertices_count).foldl (add_4B_weight_mirror_vertex g) st

/-- Validation, the search `for(e2 ...)` for the slot of `v` in the list of `neighbour`:
`k` iterations are left; `w` is the weight of the slot `e`.  Returns `found`. -/
def add_4B_weight_find_mirror (edges_list : List Nat) (v w : Nat) :
    Nat → Nat → Except String Bool
  | 0, _ => Except.ok false
  | k + 1, e2 =>
    if rd edges_list (2 * e2) = v then
      if rd edges_list (2 * e2 + 1) = w then Except.ok true
      else Except.error "graph->edges_list[2 * e2 + 1] == graph->edges_list[2 * e + 1]"
    else add_4B_weight_find_mirror edges_list v w k (e2 + 1)

/-- Validation, the loop over the edges of `v` with its `break`. -/
def add_4B_weight_validate_edges (g : ll_400_graph) (edges_list : List Nat) (v : Nat) :
    Nat → Nat → Except String Unit
  | 0, _ => Except.ok ()
  | k + 1, e =>
    if rd g.edges_list e ≥ v then Except.ok ()
    else if rd edges_list (2 * e) ≠ rd g.edges_list e then
      Except.error "graph->edges_list[2 * e] == neighbour"
    else
      match add_4B_weight_find_mirror edges_list v (rd edges_list (2 * e + 1))
          (rd g.offsets_list (rd g.edges_list e + 1) - rd g.offsets_list (rd g.edges_list e))
          (rd g.offsets_list (rd g.edges_list e)) with
      | Except.error msg => Except.error msg
      | Except.ok found =>
        if found then add_4B_weight_validate_edges g edges_list v k (e + 1)
        else Except.error "found == 1"

/-- The validation block of `add_4B_weight_to_ll_400_graph` (run when bit 0 of `flags`
is set). -/
def add_4B_weight_validate (g : ll_400_graph) (st : List Nat × List Nat) : Except String Unit :=
  match (List.range g.vertices_count).foldlM
      (fun (_ : Unit) v =>
        if rd st.1 v = rd g.offsets_list (v + 1) then Except.ok ()
        else Except.error "graph->offsets_list[v] == g->offsets_list[v+1]") () with
  | Except.error msg => Except.error msg
  | Except.ok _ =>
    (List.range g.vertices_count).foldlM
      (fun (_ : Unit) v =>
        add_4B_weight_validate_edges g st.2 v
          (rd g.offsets_list (v + 1) - rd g.offsets_list v) (rd g.offsets_list v)) ()

/-- Setting the offsets at the end of `add_4B_weight_to_ll_400_graph`: the loop
`for(unsigned int v=0; v <= vertices_count; v++)` run by one thread, with its 32-bit
counter.  `none` when the loop has not ended after `fuel` iterations.  For
`vertices_count + 1 < 2^32` the loop ends and writes what the worksharing loop
`copy_offsets_loop` writes; for a larger `vertices_count` the result is `none` whatever
`fuel` is, and the function is described for `vertices_count + 1 < 2^32` only. -/
def set_offsets_loop (vertices_count : Nat) (src : List Nat) :
    Nat → Nat → List Nat → Option (List Nat)
  | 0, _, _ => none
  | fuel + 1, v, dst =>
    if v ≤ vertices_count then
      set_offsets_loop vertices_count src fuel ((v + 1) % 2 ^ 32) (dst.set v (rd src v))
    else some dst

/-- The number of iterations of the loop `#pragma omp parallel for`
`for(unsigned int v=0; v <= vertices_count; v++)`.  The iterations of a worksharing loop
are counted before the loop starts, in the type of the counter `v`: 32 bits, while
`vertices_count` is an `unsigned long`.  The loop makes `(vertices_count + 1) mod 2^32`
iterations, none when `vertices_count = 2^32 - 1`. -/
def offsets_trip_count (vertices_count : Nat) : Nat := (vertices_count + 1) % 2 ^ 32

/-- The loop `#pragma omp parallel for`
`for(unsigned int v=0; v <= out->vertices_count; v++) out->offsets_list[v] = in->offsets_list[v]`
of the copy functions: the iterations `v = 0, 1, ..., offsets_trip_count - 1`, which write
distinct entries. -/
def copy_offsets_loop (vertices_count : Nat) (src dst : List Nat) : List Nat :=
  (List.range (offsets_trip_count vertices_count)).foldl (fun dst v => dst.set v (rd src v)) dst

/-- The function `add_4B_weight_to_ll_400_graph` of `trans.c` (`add_4B_weight_to_graph` in
the driver).  Flags: bit 0 validate.  The final loop that sets the offsets is
`set_offsets_loop`: `fuel` bounds its iterations, and the result is `none` when the loop
has not ended by then, which is the case for every `fuel` when
`vertices_count + 1 >= 2^32`. -/
def add_4B_weight_to_ll_400_graph (fuel : Nat) (pe : par_env) (partitions : List Nat)
    (g : ll_400_graph) (max_weight flags : Nat) : Option (Except String ll_404_graph) :=
  if max_weight = 0 then
    some (Except.error "pe != NULL && g != NULL && max_weight != 0")
  else
    match (if flags &&& 1 ≠ 0 then
        add_4B_weight_validate g
          (add_4B_weight_step2 g (add_4B_weight_step1 pe partitions g max_weight))
      else Except.ok ()) with
    | Except.error msg => some (Except.error msg)
    | Except.ok _ =>
      match set_offsets_loop g.vertices_count g.offsets_list fuel 0
          (add_4B_weight_step2 g (add_4B_weight_step1 pe partitions g max_weight)).1 with
      | none => none
      | some offsets_list =>
        some (Except.ok
          { vertices_count := g.vertices_count,
            edges_count := g.edges_count,
            offsets_list := offsets_list,
            edges_list :=
              (add_4B_weight_step2 g (add_4B_weight_step1 pe partitions g max_weight)).2 })

/-! ## Vocabulary of the statements -/

/-- The neighbour-list of `v`: the entries `edges_list[e]` for
`offsets_list[v] <= e < offsets_list[v + 1]`, in this order. -/
def neighbour_list (g : ll_400_graph) (v : Nat) : List Nat :=
  (edge_slots g.offsets_list v).map (rd g.edges_list)

/-- A well-formed CSR graph: the arrays have the allocated sizes, `offsets_list[0] = 0`,
the offsets are non-decreasing, `offsets_list[vertices_count] = edges_count`, every
neighbour is a vertex, and vertex IDs fit the type `unsigned int`. -/
def well_formed (g : ll_400_graph) : Prop :=
  g.offsets_list.length = g.vertices_count + 1 ∧
  g.edges_list.length = g.edges_count ∧
  rd g.offsets_list 0 = 0 ∧
  (∀ v, v < g.vertices_count → rd g.offsets_list v ≤ rd g.offsets_list (v + 1)) ∧
  rd g.offsets_list g.vertices_count = g.edges_count ∧
  (∀ e, e < g.edges_count → rd g.edges_list e < g.vertices_count) ∧
  g.vertices_count < 2 ^ 32

instance (g : ll_400_graph) : Decidable (well_formed g) := by
  unfold well_formed; infer_instance

/-- Every neighbour-list is strictly increasing. -/
def sorted_neighbour_lists (g : ll_400_graph) : Prop :=
  ∀ v, v < g.vertices_count → (neighbour_list g v).Pairwise (fun a b => a < b)

instance (g : ll_400_graph) : Decidable (sorted_neighbour_lists g) := by
  unfold sorted_neighbour_lists; infer_instance

/-- The boundaries `partitions[0 .. partitions_count]` split the vertices `0 .. n - 1`
into consecutive ranges, as `parallel_edge_partitioning` leaves them. -/
def partitions_cover (partitions : List Nat) (partitions_count n : Nat) : Prop :=
  partitions.length = partitions_count + 1 ∧
  rd partitions 0 = 0 ∧
  rd partitions partitions_count = n ∧
  (∀ p, p < partitions_count → rd partitions p ≤ rd partitions (p + 1))

instance (partitions : List Nat) (partitions_count n : Nat) :
    Decidable (partitions_cover partitions partitions_count n) := by
  unfold partitions_cover; infer_instance

/-- Step 4 copies the neighbour `d` of `v`: it is not a self-edge to be removed. -/
def keeps_neighbour (flags v d : Nat) : Bool :=
  decide (¬ (flags &&& 4 ≠ 0 ∧ d = v))

/-- The part of the neighbour-list of `v` that step 4 of `csr2sym` copies: all of it,
without the self-edges when bit 2 of `flags` is set. -/
def kept_neighbours (csr : ll_400_graph) (flags v : Nat) : List Nat :=
  (neighbour_list csr v).filter (keeps_neighbour flags v)

/-- Two consecutive entries of the neighbour-list of `v` are not in increasing order. -/
def unsorted_at (csr : ll_400_graph) (v : Nat) : Prop :=
  ∃ e, e ∈ edge_slots csr.offsets_list v ∧ e + 1 < rd csr.offsets_list (v + 1) ∧
    rd csr.edges_list e ≥ rd csr.edges_list (e + 1)

/-- All pairs `(v, e)` visited by the loop nests of steps 2 and 5, in visiting order. -/
def all_slots (g : ll_400_graph) : List (Nat × Nat) :=
  (List.range g.vertices_count).flatMap
    (fun v => (edge_slots g.offsets_list v).map (fun e => (v, e)))

/-- Bit `e` of the bit array `edge_is_symmetric` is set. -/
def edge_bit (edge_is_symmetric : List Nat) (e : Nat) : Prop :=
  rd edge_is_symmetric (e / 8) &&& (1 <<< (e % 8)) ≠ 0

instance (edge_is_symmetric : List Nat) (e : Nat) : Decidable (edge_bit edge_is_symmetric e) := by
  unfold edge_bit; infer_instance

/-- The slot `x = (s, e)` holds an edge `s → d`, `s ≠ d`, whose reverse edge `d → s` is
not in the input. -/
def is_reverse_slot (csr : ll_400_graph) (d : Nat) (x : Nat × Nat) : Bool :=
  decide (rd csr.edges_list x.2 = d ∧ x.1 ≠ d ∧ x.1 ∉ neighbour_list csr d)

/-- The sources `s` of the input edges `s → d`, `s ≠ d`, whose reverse edge `d → s` is
not in the input, in visiting order: the entries step 5 appends to the list of `d`. -/
def reverse_sources (csr : ll_400_graph) (d : Nat) : List Nat :=
  ((all_slots csr).filter (is_reverse_slot csr d)).map Prod.fst

/-- The degree of `d` in the symmetric graph. -/
def sym_degree (csr : ll_400_graph) (flags d : Nat) : Nat :=
  (kept_neighbours csr flags d).length + (reverse_sources csr d).length

/-- The sum of the first `b` entries of an array. -/
def prefix_sum (a : List Nat) (b : Nat) : Nat :=
  ((List.range b).map (rd a)).sum

/-- The state of step 4 once the vertices below `b` have been copied; `degs` is the array
of symmetric degrees left by step 2. -/
def copy_invariant (csr : ll_400_graph) (flags : Nat) (degs : List Nat) (b : Nat)
    (st : sym_state) : Prop :=
  st.offsets_list.length = csr.vertices_count + 1 ∧
  st.last_offsets.length = csr.vertices_count + 1 ∧
  st.edges_list.length = prefix_sum degs csr.vertices_count ∧
  (∀ v, v < b → rd st.offsets_list v = prefix_sum degs v) ∧
  (∀ v, b ≤ v → v < csr.vertices_count → rd st.offsets_list v = rd degs v) ∧
  rd st.offsets_list csr.vertices_count = prefix_sum degs csr.vertices_count ∧
  (∀ v, v < b → rd st.last_offsets v = prefix_sum degs v + (kept_neighbours csr flags v).length) ∧
  (∀ v, v < b → ∀ i, i < (kept_neighbours csr flags v).length →
    rd st.edges_list (prefix_sum degs v + i) = rd (kept_neighbours csr flags v) i)

/-- The neighbour-list of `d` in the symmetric graph, as steps 4 and 5 write it:
the copied input neighbours, then the sources of the missing reverse edges. -/
def sym_neighbours (csr : ll_400_graph) (flags d : Nat) : List Nat :=
  kept_neighbours csr flags d ++ reverse_sources csr d

/-- The state of step 5 once the slots of `pre` have been processed; `offsets_list` is
the offsets array left by step 4 and `degs` the degrees left by step 2. -/
def write_invariant (csr : ll_400_graph) (flags : Nat) (degs offsets_list : List Nat)
    (pre : List (Nat × Nat)) (st : sym_state) : Prop :=
  st.offsets_list = offsets_list ∧
  st.last_offsets.length = csr.vertices_count + 1 ∧
  st.edges_list.length = prefix_sum degs csr.vertices_count ∧
  (∀ d, d < csr.vertices_count → rd st.last_offsets d =
    prefix_sum degs d + (kept_neighbours csr flags d).length +
      ((pre.filter (is_reverse_slot csr d)).map Prod.fst).length) ∧
  (∀ d, d < csr.vertices_count → ∀ i, i < (kept_neighbours csr flags d).length →
    rd st.edges_list (prefix_sum degs d + i) = rd (kept_neighbours csr flags d) i) ∧
  (∀ d, d < csr.vertices_count → ∀ i,
    i < ((pre.filter (is_reverse_slot csr d)).map Prod.fst).length →
    rd st.edges_list (prefix_sum degs d + (kept_neighbours csr flags d).length + i) =
      rd ((pre.filter (is_reverse_slot csr d)).map Prod.fst) i)

/-- The offset of `v` in the symmetric graph: the sum of the symmetric degrees of the
vertices below `v`. -/
def sym_offset (csr : ll_400_graph) (flags v : Nat) : Nat :=
  ((List.range v).map (sym_degree csr flags)).sum

/-- The neighbour-list of `d` in the graph returned by `csr2sym`: sorted when bit 1 of
`flags` is set. -/
def out_neighbours (csr : ll_400_graph) (flags d : Nat) : List Nat :=
  if flags &&& 2 ≠ 0 then (sym_neighbours csr flags d).insertionSort (fun a b => a ≤ b)
  else sym_neighbours csr flags d

/-! ## Sample inputs -/

/-- One thread, hence 64 partitions. -/
def sample_pe : par_env := { threads_count := 1 }

/-- Boundaries of 64 partitions of the vertices `0 .. 3`: partitions 0 to 28 are empty,
partition 29 holds the vertices 0 and 1, partition 49 holds the vertices 2 and 3. -/
def sample_partitions : List Nat :=
  List.replicate 30 0 ++ List.replicate 20 2 ++ List.replicate 15 4

/-- The directed graph `0 → 0, 0 → 3, 1 → 1, 1 → 2, 2 → 0, 3 → 1`. -/
def sample_csr : ll_400_graph :=
  { vertices_count := 4, edges_count := 6,
    offsets_list := [0, 2, 4, 5, 6], edges_list := [0, 3, 1, 2, 0, 1] }

/-- Boundaries of 64 partitions of the vertices `0 .. 2`. -/
def small_partitions : List Nat :=
  List.replicate 30 0 ++ List.replicate 20 2 ++ List.replicate 15 3

/-- An input whose offsets decrease at vertex 1 and whose vertex 2 has the unsorted
neighbour-list `edges_list[1 .. 3) = [1, 0]`. -/
def decreasing_csr : ll_400_graph :=
  { vertices_count := 3, edges_count := 3,
    offsets_list := [0, 2, 1, 3], edges_list := [0, 1, 0] }

/-- The number `m` of unordered pairs `{u, v}` of distinct vertices such that the input
contains `u → v` or `v → u`, counted as the pairs with `u < v`. -/
def undirected_edge_count (csr : ll_400_graph) : Nat :=
  ((List.range csr.vertices_count).map (fun u =>
    ((List.range csr.vertices_count).filter (fun v =>
      decide (u < v ∧ (v ∈ neighbour_list csr u ∨ u ∈ neighbour_list csr v)))).length)).sum

/-- A symmetric graph: every edge `u → v` has its reverse `v → u`. -/
def symmetric_graph (g : ll_400_graph) : Prop :=
  ∀ u, u < g.vertices_count → ∀ v, v < g.vertices_count →
    v ∈ neighbour_list g u → u ∈ neighbour_list g v

instance (g : ll_400_graph) : Decidable (symmetric_graph g) := by
  unfold symmetric_graph; infer_instance

/-- The position `c` splits the slots of `u` into those whose neighbour is below `bound`
and those whose neighbour is at least `bound`. -/
def boundary (g : ll_400_graph) (u c bound : Nat) : Prop :=
  rd g.offsets_list u ≤ c ∧ c ≤ rd g.offsets_list (u + 1) ∧
  (∀ i, rd g.offsets_list u ≤ i → i < c → rd g.edges_list i < bound) ∧
  (∀ i, c ≤ i → i < rd g.offsets_list (u + 1) → bound ≤ rd g.edges_list i)

/-- The state of step 1 of `add_4B_weight_to_ll_400_graph` once the vertices below `b`
have been visited: their cursor stands after the neighbours `<= v`, and these slots hold
the neighbour and a weight in `[1, max_weight]`. -/
def assign_invariant (g : ll_400_graph) (max_weight b : Nat) (st : List Nat × List Nat) : Prop :=
  st.1.length = g.vertices_count + 1 ∧
  st.2.length = 2 * g.edges_count ∧
  (∀ v, v < b → boundary g v (rd st.1 v) (v + 1)) ∧
  (∀ v, v < b → ∀ i, rd g.offsets_list v ≤ i → i < rd st.1 v →
    rd st.2 (2 * i) = rd g.edges_list i ∧
    1 ≤ rd st.2 (2 * i + 1) ∧ rd st.2 (2 * i + 1) ≤ max_weight)

/-- The slots of step 2 of `add_4B_weight_to_ll_400_graph` that are settled whatever the
cursors are: `cursor1` and `edges1` are the arrays left by step 1.  The slots below
`cursor1[u]` keep their neighbour and their weight of step 1; the slots from `cursor1[u]`
up to the cursor of `u` hold the neighbour of the input and the weight that step 1 gave
to the reverse slot. -/
def mirror_content (g : ll_400_graph) (cursor1 edges1 : List Nat) (st : List Nat × List Nat) :
    Prop :=
  st.1.length = g.vertices_count + 1 ∧
  st.2.length = 2 * g.edges_count ∧
  (∀ u, u < g.vertices_count → ∀ i, rd g.offsets_list u ≤ i → i < rd cursor1 u →
    rd st.2 (2 * i) = rd g.edges_list i ∧ rd st.2 (2 * i + 1) = rd edges1 (2 * i + 1)) ∧
  (∀ u, u < g.vertices_count → ∀ i, rd cursor1 u ≤ i → i < rd st.1 u →
    rd st.2 (2 * i) = rd g.edges_list i ∧
    ∃ e, rd g.offsets_list (rd g.edges_list i) ≤ e ∧
      e < rd g.offsets_list (rd g.edges_list i + 1) ∧ rd g.edges_list e = u ∧
      rd st.2 (2 * i + 1) = rd edges1 (2 * e + 1))

/-- The state of step 2 before vertex `v` is visited: the cursor of `u` stands after the
neighbours below `max v (u + 1)`. -/
def mirror_outer (g : ll_400_graph) (cursor1 edges1 : List Nat) (v : Nat)
    (st : List Nat × List Nat) : Prop :=
  mirror_content g cursor1 edges1 st ∧
  (∀ u, u < g.vertices_count → boundary g u (rd st.1 u) (max v (u + 1)))

/-- The state of step 2 while vertex `v` is visited, before the slot `e`: the cursors of
the neighbours still to come have not moved yet. -/
def mirror_inner (g : ll_400_graph) (cursor1 edges1 : List Nat) (v e : Nat)
    (st : List Nat × List Nat) : Prop :=
  mirror_content g cursor1 edges1 st ∧
  (∀ u, u < g.vertices_count →
    (∃ i, e ≤ i ∧ i < rd g.offsets_list (v + 1) ∧ rd g.edges_list i = u ∧ u < v) →
    boundary g u (rd st.1 u) (max v (u + 1))) ∧
  (∀ u, u < g.vertices_count →
    (¬ ∃ i, e ≤ i ∧ i < rd g.offsets_list (v + 1) ∧ rd g.edges_list i = u ∧ u < v) →
    boundary g u (rd st.1 u) (max (v + 1) (u + 1)))

/-- The symmetric graph with the edges `0 - 2, 0 - 3, 1 - 2, 1 - 3`: what `csr2sym` returns
on `sample_csr` with flags `2 + 4`. -/
def sample_sym : ll_400_graph :=
  { vertices_count := 4, edges_count := 8,
    offsets_list := [0, 2, 4, 6, 8], edges_list := [2, 3, 2, 3, 0, 1, 0, 1] }

/-! ## `copy_ll_404_to_400_graph` -/

/-- The loop `for(unsigned long e = 0; e < out->edges_count; e++)
out->edges_list[e] = in->edges_list[2 * e]` of `copy_ll_404_to_400_graph`. -/
def copy_neighbour_words (edges_count : Nat) (src dst : List Nat) : List Nat :=
  (List.range edges_count).foldl (fun dst e => dst.set e (rd src (2 * e))) dst

/-- The function `copy_ll_404_to_400_graph` of `trans.c`, which removes the weights.
`out = none` is the call with `out == NULL`: the result is allocated; `out = some o` is
the call with a graph supplied by the caller, whose counts are asserted to match. -/
def copy_ll_404_to_400_graph (_pe : par_env) (inp : ll_404_graph)
    (out : Option ll_400_graph) : Except String ll_400_graph :=
  match (match out with
      | none =>
        Except.ok
          ({ vertices_count := inp.vertices_count,
             edges_count := inp.edges_count,
             offsets_list := List.replicate (1 + inp.vertices_count) 0,
             edges_list := List.replicate inp.edges_count 0 } : ll_400_graph)
      | some o =>
        if o.vertices_count ≠ inp.vertices_count then
          Except.error "out->vertices_count == in->vertices_count && out->offsets_list != NULL"
        else if o.edges_count ≠ inp.edges_count then
          Except.error "out->edges_count == in->edges_count && out->edges_list != NULL"
        else Except.ok o) with
  | Except.error msg => Except.error msg
  | Except.ok o =>
    Except.ok
      { vertices_count := o.vertices_count,
        edges_count := o.edges_count,
        offsets_list := copy_offsets_loop o.vertices_count inp.offsets_list o.offsets_list,
        edges_list := copy_neighbour_words o.edges_count inp.edges_list o.edges_list }

/-! ## Step 2 of `add_4B_weight_to_ll_400_graph` under another schedule -/

/-- Step 2 of `add_4B_weight_to_ll_400_graph` when the iterations of its
`#pragma omp for nowait schedule(static, 8)` loop take effect in the order `order`
instead of the ID order: each thread owns chunks of 8 consecutive vertices, and the
threads are not synchronised, so a later chunk may run before an earlier one.
`add_4B_weight_step2 g` is the case `order = List.range g.vertices_count`. -/
def add_4B_weight_step2_in_order (g : ll_400_graph) (order : List Nat)
    (st : List Nat × List Nat) : List Nat × List Nat :=
  order.foldl (add_4B_weight_mirror_vertex g) st

/-- The neighbour words of the slots of `v` in a weighted graph: the entries
`edges_list[2 * e]` for `offsets_list[v] <= e < offsets_list[v + 1]`, in this order. -/
def neighbour_words (offsets_list edges_list : List Nat) (v : Nat) : List Nat :=
  (edge_slots offsets_list v).map (fun e => rd edges_list (2 * e))

/-- The symmetric graph on 9 vertices with the edges `0 - 1` and `0 - 8`. -/
def fork_sym : ll_400_graph :=
  { vertices_count := 9, edges_count := 4,
    offsets_list := [0, 2, 3, 3, 3, 3, 3, 3, 3, 4], edges_list := [1, 8, 0, 0] }

/-- Two threads. -/
def two_threads : par_env := { threads_count := 2 }

/-- Boundaries of 128 partitions of the 9 vertices of `fork_sym`. -/
def fork_partitions : List Nat :=
  List.replicate 64 0 ++ List.replicate 64 1 ++ [9]

/-- A schedule of step 2 with two threads on 9 vertices: thread 1 runs its chunk
(vertex 8) before thread 0 runs its chunk (vertices 0 to 7). -/
def late_first_chunk : List Nat := [8, 0, 1, 2, 3, 4, 5, 6, 7]

/-! ## Vocabulary of the weight generation -/

/-- The state `s` of the generator after `k` draws. -/
def xoshiro256_state (s : xoshiro256) : Nat → xoshiro256
  | 0 => s
  | k + 1 => (xoshiro256_next (xoshiro256_state s k)).2

/-- The value of the draw number `k` (counted from `0`) of the generator started in `s`. -/
def xoshiro256_output (s : xoshiro256) (k : Nat) : Nat :=
  (xoshiro256_next (xoshiro256_state s k)).1

/-- The slot `e` of `v` holds a neighbour `<= v`: step 1 draws its weight. -/
def is_lower_slot (g : ll_400_graph) (v e : Nat) : Bool :=
  decide (rd g.edges_list e ≤ v)

/-- The slots of `v` whose neighbour is `<= v`, in list order. -/
def lower_slots (g : ll_400_graph) (v : Nat) : List Nat :=
  (edge_slots g.offsets_list v).filter (is_lower_slot g v)

/-- The slots of partition `p` whose neighbour is `<=` its vertex: vertices in ID order,
slots in list order. -/
def partition_lower_slots (g : ll_400_graph) (partitions : List Nat) (p : Nat) : List Nat :=
  (partition_vertices partitions p).flatMap (lower_slots g)

/-- Output number `i` (counted from `0`) of the documented splitmix64 generator started
from `x`: the state advances by the constant `0x9e3779b97f4a7c15` before each output,
which is the mixed state; 64-bit wrapping arithmetic. -/
def splitmix64_reference (x i : Nat) : Nat :=
  let z0 := (x + (i + 1) * 0x9e3779b97f4a7c15) % 2 ^ 64
  let z1 := ((z0 ^^^ (z0 / 2 ^ 30)) * 0xbf58476d1ce4e5b9) % 2 ^ 64
  let z2 := ((z1 ^^^ (z1 / 2 ^ 27)) * 0x94d049bb133111eb) % 2 ^ 64
  z2 ^^^ (z2 / 2 ^ 31)

/-- Rotation to the left by `k` of a 64-bit word, arithmetically: the low `64 - k` bits
move up, the high `k` bits come back at the bottom. -/
def rotl_reference (x k : Nat) : Nat :=
  (x * 2 ^ k) % 2 ^ 64 + x / 2 ^ (64 - k)

/-- One call of the documented xoshiro256++ generator: the result
`s0 + rotl(s0 + s3, 23)` and the state after the standard update (shift 17,
rotation 45). -/
def xoshiro256pp_reference (s : xoshiro256) : Nat × xoshiro256 :=
  let result := (s.s0 + rotl_reference ((s.s0 + s.s3) % 2 ^ 64) 23) % 2 ^ 64
  let t := (s.s1 * 2 ^ 17) % 2 ^ 64
  let s2 := s.s2 ^^^ s.s0
  let s3 := s.s3 ^^^ s.s1
  let s1 := s.s1 ^^^ s2
  let s0 := s.s0 ^^^ s3
  (result, { s0 := s0, s1 := s1, s2 := s2 ^^^ t, s3 := rotl_reference s3 45 })

/-- Output number `k` (counted from `0`) of the documented xoshiro256++ generator
started in the state `s`. -/
def xoshiro256pp_stream (s : xoshiro256) : Nat → Nat
  | 0 => (xoshiro256pp_reference s).1
  | k + 1 => xoshiro256pp_stream (xoshiro256pp_reference s).2 k

/-- The state documented for partition `p`: the first four outputs of splitmix64 started
from `x = p`. -/
def seed_reference (p : Nat) : xoshiro256 :=
  { s0 := splitmix64_reference p 0, s1 := splitmix64_reference p 1,
    s2 := splitmix64_reference p 2, s3 := splitmix64_reference p 3 }

/-- The components of the state are 64-bit words. -/
def is_state64 (s : xoshiro256) : Prop :=
  s.s0 < 2 ^ 64 ∧ s.s1 < 2 ^ 64 ∧ s.s2 < 2 ^ 64 ∧ s.s3 < 2 ^ 64

/-- Boundaries of 128 partitions of the 4 vertices of `sample_sym`, for two threads. -/
def sample_partitions_two_threads : List Nat :=
  List.replicate 60 0 ++ List.replicate 40 2 ++ List.replicate 29 4

/-- The boundaries `sample_partitions` followed by 64 empty partitions: 128 partitions of
the 4 vertices of `sample_sym` whose non-empty partitions are those of `sample_partitions`. -/
def sample_partitions_padded : List Nat :=
  sample_partitions ++ List.replicate 64 4

/-! ## `get_txt_graph`

The text file is a list of bytes.  The counts that `get_txt_graph` reads with `fscanf`
from the output of `head` are the parameters `vertices_count` and `edges_count`; a failing
`read` is not modelled.  The counters `vl_count` and `el_count` (8 bytes) cannot wrap on a
file; `val_length` and `status` (4 bytes) are kept modulo `2 ^ 32`. -/

/-- The variables `vl_count`, `el_count` and the two arrays of the graph being read. -/
structure txt_store where
  vl_count : Nat
  el_count : Nat
  offsets_list : List Nat
  edges_list : List Nat
deriving DecidableEq

/-- The variables `val`, `val_length`, `status` of the reading loop, with the store. -/
structure txt_state where
  val : Nat
  val_length : Nat
  status : Nat
  store : txt_store
deriving DecidableEq

/-- The `switch(status)` of `get_txt_graph`, run when a value ends.  The neighbour ID is
stored in a 4-byte word. -/
def get_txt_graph_value (vertices_count edges_count status val : Nat) (g : txt_store) :
    Except String txt_store :=
  if status = 0 then
    if vertices_count = val then Except.ok g else Except.error "vertices_count == val"
  else if status = 1 then
    if edges_count = val then Except.ok g else Except.error "edges_count == val"
  else if status = 2 then
    Except.ok
      { vl_count := g.vl_count + 1, el_count := g.el_count,
        offsets_list := g.offsets_list.set g.vl_count val, edges_list := g.edges_list }
  else if status = 3 then
    if val < 2 ^ 32 then
      Except.ok
        { vl_count := g.vl_count, el_count := g.el_count + 1,
          offsets_list := g.offsets_list,
          edges_list := g.edges_list.set g.el_count (val % 2 ^ 32) }
    else Except.error "val < (1UL<<32)"
  else Except.ok g

/-- The value `buf[i] - '0'` once converted to `unsigned long` for the addition to `val`.
The byte `b` is read as a signed `char` (`b - 256` from 128 on) and the difference is an
`int`: it is `b - 48` for the bytes from `'0'` to 127, and negative otherwise, hence
`2 ^ 64` minus its absolute value after the conversion. -/
def char_minus_zero (b : Nat) : Nat :=
  if b < 48 then 2 ^ 64 - (48 - b)
  else if b < 128 then b - 48
  else 2 ^ 64 - (304 - b)

/-- Body of the loop `while(i<count)` of `get_txt_graph` for the byte `b = buf[i]`;
newline is 10, space is 32. -/
def get_txt_graph_byte (vertices_count edges_count : Nat) (st : txt_state) (b : Nat) :
    Except String txt_state :=
  match (if b ≠ 10 ∧ b ≠ 32 then
      Except.ok
        ({ val := (st.val * 10 + char_minus_zero b) % 2 ^ 64,
           val_length := (st.val_length + 1) % 2 ^ 32,
           status := st.status, store := st.store } : txt_state)
    else if st.val_length ≠ 0 then
      match get_txt_graph_value vertices_count edges_count st.status st.val st.store with
      | Except.error msg => Except.error msg
      | Except.ok g => Except.ok { val := 0, val_length := 0, status := st.status, store := g }
    else Except.ok st) with
  | Except.error msg => Except.error msg
  | Except.ok st1 =>
    Except.ok
      (if b = 10 then
        { val := st1.val, val_length := st1.val_length,
          status := (st1.status + 1) % 2 ^ 32, store := st1.store }
      else st1)

/-- The variables before the first byte is read; the arrays come from the allocator. -/
def get_txt_graph_start (vertices_count edges_count : Nat) : txt_state :=
  { val := 0, val_length := 0, status := 0,
    store :=
      { vl_count := 0, el_count := 0,
        offsets_list := List.replicate (1 + vertices_count) 0,
        edges_list := List.replicate edges_count 0 } }

/-- The function `get_txt_graph` of `graph.c` on a file with the content `text`, from the
allocation of the graph on: the reading loop, the asserts on the counts and the write of
`offsets_list[vertices_count]`. -/
def get_txt_graph (vertices_count edges_count : Nat) (text : List Nat) :
    Except String ll_400_graph :=
  match text.foldlM (get_txt_graph_byte vertices_count edges_count)
      (get_txt_graph_start vertices_count edges_count) with
  | Except.error msg => Except.error msg
  | Except.ok st =>
    if st.store.el_count ≠ edges_count then Except.error "el_count == edges_count"
    else if st.store.vl_count ≠ vertices_count then Except.error "vl_count == vertices_count"
    else
      Except.ok
        { vertices_count := vertices_count,
          edges_count := edges_count,
          offsets_list := st.store.offsets_list.set vertices_count edges_count,
          edges_list := st.store.edges_list }

/-! ## Vocabulary of the text format -/

/-- The decimal digits of `x` as bytes, most significant first; `fuel` bounds the number
of digits. -/
def decimal_digits : Nat → Nat → List Nat
  | 0, _ => []
  | fuel + 1, x =>
    if x < 10 then [48 + x] else decimal_digits fuel (x / 10) ++ [48 + x % 10]

/-- The decimal numeral of `x`. -/
def decimal (x : Nat) : List Nat :=
  decimal_digits (x + 1) x

/-- A newline-terminated line holding the decimal numerals of `xs` separated by spaces. -/
def txt_line : List Nat → List Nat
  | [] => [10]
  | [x] => decimal x ++ [10]
  | x :: y :: t => decimal x ++ 32 :: txt_line (y :: t)

/-- The text of a graph: four newline-terminated lines holding `n`, `m`, the offsets and
the neighbour IDs. -/
def txt_graph_text (n m : Nat) (offsets ids : List Nat) : List Nat :=
  txt_line [n] ++ txt_line [m] ++ txt_line offsets ++ txt_line ids

/-- The values of a text that are followed by a space or a newline, each with the number
of newlines before it (its line, counted from 0), in reading order.  `line` and `cur` are
the line and the bytes of the value being read at the start of the text. -/
def txt_values_from : Nat → List Nat → List Nat → List (Nat × List Nat)
  | _, _, [] => []
  | line, cur, b :: t =>
    if b = 10 ∨ b = 32 then
      (if cur = [] then [] else [(line, cur)]) ++
        txt_values_from (if b = 10 then line + 1 else line) [] t
    else txt_values_from line (cur ++ [b]) t

/-- The value tokens of a text, each with its line: the maximal runs of bytes other than
space and newline, the run at the end of the text included. -/
def txt_values (text : List Nat) : List (Nat × List Nat) :=
  txt_values_from 0 [] (text ++ [10])

/-- The value `t` lies on line `k`. -/
def on_line (k : Nat) (t : Nat × List Nat) : Bool :=
  decide (t.1 = k)

/-- The value tokens on line `k` (counted from 0) of a text. -/
def line_values (text : List Nat) (k : Nat) : List (List Nat) :=
  ((txt_values text).filter (on_line k)).map Prod.snd

/-- The number that the reading loop computes for a token: decimal positional value in
64-bit wrapping arithmetic. -/
def token_value (tok : List Nat) : Nat :=
  tok.foldl (fun v b => (v * 10 + char_minus_zero b) % 2 ^ 64) 0

/-- The token is a decimal numeral: each of its bytes is one of the digits `'0'` to
`'9'`. -/
def is_numeral (tok : List Nat) : Prop :=
  ∀ b, b ∈ tok → 48 ≤ b ∧ b ≤ 57

instance (tok : List Nat) : Decidable (is_numeral tok) := by
  unfold is_numeral; infer_instance

/-- The value of a decimal numeral, as a natural number. -/
def numeral_value (tok : List Nat) : Nat :=
  tok.foldl (fun v b => v * 10 + (b - 48)) 0

/-- The text is empty or ends with a space or a newline. -/
def ends_with_separator (text : List Nat) : Prop :=
  text.getLast? = none ∨ text.getLast? = some 10 ∨ text.getLast? = some 32

instance (text : List Nat) : Decidable (ends_with_separator text) := by
  unfold ends_with_separator; infer_instance

/-- Every value token of the text is shorter than `2 ^ 32` bytes and lies on a line below
`2 ^ 32`: the 4-byte variables `val_length` and `status` do not wrap. -/
def within_counters (text : List Nat) : Prop :=
  ∀ t, t ∈ txt_values text → t.1 < 2 ^ 32 ∧ t.2.length < 2 ^ 32

instance (text : List Nat) : Decidable (within_counters text) := by
  unfold within_counters; infer_instance

/-- The text `3\n2\n0 1 2\n1 2\n`: 3 vertices, 2 edges. -/
def sample_text : List Nat :=
  [51, 10, 50, 10, 48, 32, 49, 32, 50, 10, 49, 32, 50, 10]

/-- The text `3\n2\n0 1 2\n1 2 7` without a newline at its end: the fourth line has three
value tokens. -/
def unterminated_text : List Nat :=
  [51, 10, 50, 10, 48, 32, 49, 32, 50, 10, 49, 32, 50, 32, 55]

/-- The text `1\n1\n0\n0 4294967296` without a newline at its end. -/
def unterminated_wide_text : List Nat :=
  [49, 10, 49, 10, 48, 10, 48, 32, 52, 50, 57, 52, 57, 54, 55, 50, 57, 54]

/-- The text `1\n1\n0\n4294967296\n`. -/
def wide_text : List Nat :=
  [49, 10, 49, 10, 48, 10, 52, 50, 57, 52, 57, 54, 55, 50, 57, 54, 10]

/-- The text `1\n1\n0\n18446744073709551616\n`: the fourth line holds the numeral of
`2^64`. -/
def wrapped_text : List Nat :=
  [49, 10, 49, 10, 48, 10, 49, 56, 52, 52, 54, 55, 52, 52, 48, 55,
    51, 55, 48, 57, 53, 53, 49, 54, 49, 54, 10]

/-- The text `1 2\n1\n0\n4294967296\n`: the first line holds two values. -/
def two_headers_text : List Nat :=
  [49, 32, 50, 10, 49, 10, 48, 10, 52, 50, 57, 52, 57, 54, 55, 50, 57, 54, 10]

/-- The effect of the reading loop on the store: the `switch(status)` run on every value
followed by a space or a newline, with the status and the number it has at that time. -/
def txt_store_values (vertices_count edges_count : Nat) (ts : List (Nat × List Nat))
    (g : txt_store) : Except String txt_store :=
  ts.foldlM
    (fun g t => get_txt_graph_value vertices_count edges_count (t.1 % 2 ^ 32)
      (token_value t.2) g) g

/-- The numbers of the values that carry the line `k`, in reading order. -/
def values_of_line (ts : List (Nat × List Nat)) (k : Nat) : List Nat :=
  (ts.filter (on_line k)).map (fun t => token_value t.2)

/-- The text `3\n2\n0 1 2\n1\n`: the fourth line has one value. -/
def short_text : List Nat :=
  [51, 10, 50, 10, 48, 32, 49, 32, 50, 10, 49, 10]

/-- The values of a text that are followed by a space or a newline, each with its line:
the values that the reading loop brings to an end. -/
def ended_values (text : List Nat) : List (Nat × List Nat) :=
  txt_values_from 0 [] text

/-! ## `csr2csc`

The second array of boundaries, which `csr2csc` obtains from `parallel_edge_partitioning`
on the output graph, is the parameter `csc_partitions`.  The counter `self_edges` is only
printed and is left out. -/

/-- The record `struct ll_400_graph` as `csr2csc` returns it: the pointer `edges_list`
stays NULL (`none`) when only the offsets are created. -/
structure ll_400_graph_ptr where
  vertices_count : Nat
  edges_count : Nat
  offsets_list : List Nat
  edges_list : Option (List Nat)
deriving DecidableEq

/-- The loop nest of the steps of `csr2csc` that have no assertion: every partition in
the order given by the dispatcher, every vertex of the partition in ID order. -/
def each_partition_vertex {σ : Type} (partitions : List Nat) (partitions_count : Nat)
    (body : σ → Nat → σ) (s : σ) : σ :=
  (List.range partitions_count).foldl
    (fun s p => (partition_vertices partitions p).foldl body s) s

/-- Step 1, body of the loop over the edges of `v`: increment the degree of `dest`,
unless the edge is a self-edge to be removed. -/
def csr2csc_degree_edge (csr : ll_400_graph) (flags v : Nat) (offsets_list : List Nat)
    (e : Nat) : List Nat :=
  if rd csr.edges_list e = v ∧ flags &&& 4 ≠ 0 then offsets_list
  else offsets_list.set (rd csr.edges_list e) (rd offsets_list (rd csr.edges_list e) + 1)

/-- Step 1, body of the loop over the vertices. -/
def csr2csc_degree_vertex (csr : ll_400_graph) (flags : Nat) (offsets_list : List Nat)
    (v : Nat) : List Nat :=
  (edge_slots csr.offsets_list v).foldl (csr2csc_degree_edge csr flags v) offsets_list

/-- Step 1 of `csr2csc`: identifying degree of vertices in the CSC graph.  Returns
`out_graph->offsets_list`, which holds degrees for now. -/
def csr2csc_step1 (pe : par_env) (partitions : List Nat) (csr : ll_400_graph) (flags : Nat) :
    List Nat :=
  each_partition_vertex partitions (pe.threads_count * 64) (csr2csc_degree_vertex csr flags)
    (List.replicate (1 + csr.vertices_count) 0)

/-- Step 2 of `csr2csc` and the partial sum that follows it, the same loops as in
`csr2sym`: returns `(partitions_total_edges, out_graph->edges_count)`. -/
def csr2csc_step2 (pe : par_env) (partitions : List Nat) (offsets_list : List Nat) :
    List Nat × Nat :=
  csr2sym_partial_sum (pe.threads_count * 64)
    ((List.range (pe.threads_count * 64)).map (csr2sym_partition_sum partitions offsets_list))

/-- Step 3, body of the loop over the vertices.  The state is
`(out_graph->offsets_list, current_offset)`. -/
def csr2csc_offset_vertex (st : List Nat × Nat) (v : Nat) : List Nat × Nat :=
  (st.1.set v st.2, st.2 + rd st.1 v)

/-- The two assertions that end the body of the loop over the partitions in steps 3
and 5. -/
def csr2csc_check_partition (partitions_count : Nat) (partitions_total_edges : List Nat)
    (edges_count p : Nat) (res : List Nat × Nat) : Except String (List Nat) :=
  if p + 1 < partitions_count then
    if res.2 = rd partitions_total_edges (p + 1) then Except.ok res.1
    else Except.error "current_offset == partitions_total_edges[partition + 1]"
  else
    if res.2 = edges_count then Except.ok res.1
    else Except.error "current_offset == out_graph->edges_count"

/-- Step 3, body of the loop over the partitions. -/
def csr2csc_offset_partition (partitions : List Nat) (partitions_count : Nat)
    (partitions_total_edges : List Nat) (edges_count : Nat) (offsets_list : List Nat)
    (p : Nat) : Except String (List Nat) :=
  csr2csc_check_partition partitions_count partitions_total_edges edges_count p
    ((partition_vertices partitions p).foldl csr2csc_offset_vertex
      (offsets_list, rd partitions_total_edges p))

/-- Step 3 of `csr2csc`: updating the out_graph->offsets_list.  `sums` is the result of
step 2. -/
def csr2csc_step3 (pe : par_env) (partitions : List Nat) (sums : List Nat × Nat)
    (offsets_list : List Nat) : Except String (List Nat) :=
  (List.range (pe.threads_count * 64)).foldlM
    (csr2csc_offset_partition partitions (pe.threads_count * 64) sums.1 sums.2) offsets_list

/-- Step 4, body of the loop over the edges of `v`: the offset of `dest` is the write
cursor.  The state is `(out_graph->offsets_list, out_graph->edges_list)`. -/
def csr2csc_write_edge (csr : ll_400_graph) (flags v : Nat) (st : List Nat × List Nat)
    (e : Nat) : Except String (List Nat × List Nat) :=
  if v = rd csr.edges_list e ∧ flags &&& 4 ≠ 0 then Except.ok st
  else if rd st.1 (rd csr.edges_list e) <
      rd (st.1.set (rd csr.edges_list e) (rd st.1 (rd csr.edges_list e) + 1))
        (rd csr.edges_list e + 1) then
    Except.ok
      (st.1.set (rd csr.edges_list e) (rd st.1 (rd csr.edges_list e) + 1),
        st.2.set (rd st.1 (rd csr.edges_list e)) v)
  else Except.error "prev_offset < out_graph->offsets_list[dest+1]"

/-- Step 4, body of the loop over the vertices. -/
def csr2csc_write_vertex (csr : ll_400_graph) (flags : Nat) (st : List Nat × List Nat)
    (v : Nat) : Except String (List Nat × List Nat) :=
  (edge_slots csr.offsets_list v).foldlM (csr2csc_write_edge csr flags v) st

/-- Step 4 of `csr2csc`: writing edges. -/
def csr2csc_step4 (pe : par_env) (partitions : List Nat) (csr : ll_400_graph) (flags : Nat)
    (st : List Nat × List Nat) : Except String (List Nat × List Nat) :=
  for_partition_vertices partitions (pe.threads_count * 64) (csr2csc_write_vertex csr flags) st

/-- Step 5, body of the loop over the vertices.  The state is
`(out_graph->offsets_list, current_offset)`. -/
def csr2csc_restore_vertex (st : List Nat × Nat) (v : Nat) : List Nat × Nat :=
  (st.1.set v st.2, rd st.1 v)

/-- Step 5, body of the loop over the partitions. -/
def csr2csc_restore_partition (partitions : List Nat) (partitions_count : Nat)
    (partitions_total_edges : List Nat) (edges_count : Nat) (offsets_list : List Nat)
    (p : Nat) : Except String (List Nat) :=
  csr2csc_check_partition partitions_count partitions_total_edges edges_count p
    ((partition_vertices partitions p).foldl csr2csc_restore_vertex
      (offsets_list, rd partitions_total_edges p))

/-- Step 5 of `csr2csc`: updating the out_graph->offsets_list. -/
def csr2csc_step5 (pe : par_env) (partitions : List Nat) (sums : List Nat × Nat)
    (offsets_list : List Nat) : Except String (List Nat) :=
  (List.range (pe.threads_count * 64)).foldlM
    (csr2csc_restore_partition partitions (pe.threads_count * 64) sums.1 sums.2) offsets_list

/-- Step 6, body of the loop over the vertices; `degree` is an `unsigned int`. -/
def csr2csc_sort_vertex (offsets_list : List Nat) (edges_list : List Nat) (v : Nat) : List Nat :=
  if (rd offsets_list (v + 1) - rd offsets_list v) % 2 ^ 32 < 2 then edges_list
  else
    edges_list.take (rd offsets_list v) ++
      quick_sort_uint (edges_list.drop (rd offsets_list v)) 0
        ((rd offsets_list (v + 1) - rd offsets_list v) % 2 ^ 32 - 1)

/-- Step 6 of `csr2csc`: sorting, over the partitions of the output graph. -/
def csr2csc_sort (pe : par_env) (csc_partitions : List Nat) (offsets_list edges_list : List Nat) :
    List Nat :=
  each_partition_vertex csc_partitions (pe.threads_count * 64)
    (csr2csc_sort_vertex offsets_list) edges_list

/-- Validation, "check if csr is sorted", body of the loop over the edges of `v`. -/
def csr2csc_check_sorted_edge (csr : ll_400_graph) (v : Nat) (_ : Unit) (e : Nat) :
    Except String Unit :=
  if e < rd csr.offsets_list (v + 1) - 1 ∧ rd csr.edges_list e ≥ rd csr.edges_list (e + 1) then
    Except.error "The CSR graph does not have sorted neighbour-lists"
  else Except.ok ()

/-- Validation, "check if csr is sorted", body of the loop over the vertices. -/
def csr2csc_check_sorted_vertex (csr : ll_400_graph) (_ : Unit) (v : Nat) :
    Except String Unit :=
  (edge_slots csr.offsets_list v).foldlM (csr2csc_check_sorted_edge csr v) ()

/-- Validation 1, body of the loop over the edges of `v` in the output: the edge
`src → v` should be in `csr`. -/
def csr2csc_validate1_edge (csr : ll_400_graph) (out_edges : List Nat) (flags v : Nat)
    (_ : Unit) (e : Nat) : Except String Unit :=
  if flags &&& 4 ≠ 0 ∧ rd out_edges e = v then Except.error "dest != src"
  else if (uint_binary_search csr.edges_list (rd csr.offsets_list (rd out_edges e))
      (rd csr.offsets_list (rd out_edges e + 1)) v).isNone then
    Except.error "found != -1UL"
  else Except.ok ()

/-- Validation 1, body of the loop over the vertices. -/
def csr2csc_validate1_vertex (csr : ll_400_graph) (out_offsets out_edges : List Nat)
    (flags : Nat) (_ : Unit) (v : Nat) : Except String Unit :=
  if rd out_offsets (v + 1) < rd out_offsets v then
    Except.error "out_graph->offsets_list[v+1] >= out_graph->offsets_list[v]"
  else (edge_slots out_offsets v).foldlM (csr2csc_validate1_edge csr out_edges flags v) ()

/-- Validation 2, body of the loop over the edges of `v` in the input: the edge
`v → dest` should be in the list of `dest` in the output. -/
def csr2csc_validate2_edge (csr : ll_400_graph) (out_offsets out_edges : List Nat)
    (flags v : Nat) (_ : Unit) (e : Nat) : Except String Unit :=
  if flags &&& 4 ≠ 0 ∧ v = rd csr.edges_list e then Except.ok ()
  else if (uint_binary_search out_edges (rd out_offsets (rd csr.edges_list e))
      (rd out_offsets (rd csr.edges_list e + 1)) v).isNone then
    Except.error "found != -1UL"
  else Except.ok ()

/-- Validation 2, body of the loop over the vertices. -/
def csr2csc_validate2_vertex (csr : ll_400_graph) (out_offsets out_edges : List Nat)
    (flags : Nat) (_ : Unit) (v : Nat) : Except String Unit :=
  (edge_slots csr.offsets_list v).foldlM
    (csr2csc_validate2_edge csr out_offsets out_edges flags v) ()

/-- The validation block of `csr2csc` (run when bit 0 of `flags` is set and bit 3 is
not); the output graph has the vertices count of `csr`. -/
def csr2csc_validate (pe : par_env) (partitions csc_partitions : List Nat)
    (csr : ll_400_graph) (edges_count : Nat) (out_offsets out_edges : List Nat) (flags : Nat) :
    Except String Unit :=
  if rd out_offsets 0 ≠ 0 then
    Except.error "out_graph->offsets_list[0] == 0"
  else if rd out_offsets csr.vertices_count ≠ edges_count then
    Except.error "out_graph->offsets_list[out_graph->vertices_count] == out_graph->edges_count"
  else if csr.edges_count < edges_count then
    Except.error "out_graph->edges_count <= csr->edges_count"
  else
    match for_partition_vertices partitions (pe.threads_count * 64)
        (csr2csc_check_sorted_vertex csr) () with
    | Except.error msg => Except.error msg
    | Except.ok _ =>
      match for_partition_vertices csc_partitions (pe.threads_count * 64)
          (csr2csc_validate1_vertex csr out_offsets out_edges flags) () with
      | Except.error msg => Except.error msg
      | Except.ok _ =>
        if flags &&& 2 = 0 then
          Except.error "Neighbour-list should be sorted for the second evaluation."
        else
          for_partition_vertices partitions (pe.threads_count * 64)
            (csr2csc_validate2_vertex csr out_offsets out_edges flags) ()

/-- Steps 4 to 6 and the validation of `csr2csc`, run when bit 3 of `flags` is not set:
returns `(out_graph->offsets_list, out_graph->edges_list)`. -/
def csr2csc_edges (pe : par_env) (partitions csc_partitions : List Nat) (csr : ll_400_graph)
    (flags : Nat) (sums : List Nat × Nat) (offsets_list : List Nat) :
    Except String (List Nat × List Nat) :=
  match csr2csc_step4 pe partitions csr flags (offsets_list, List.replicate sums.2 0) with
  | Except.error msg => Except.error msg
  | Except.ok written =>
    match csr2csc_step5 pe partitions sums written.1 with
    | Except.error msg => Except.error msg
    | Except.ok offsets5 =>
      match (if flags &&& 1 ≠ 0 then
          csr2csc_validate pe partitions csc_partitions csr sums.2 offsets5
            (if flags &&& 2 ≠ 0 then csr2csc_sort pe csc_partitions offsets5 written.2
              else written.2) flags
        else Except.ok ()) with
      | Except.error msg => Except.error msg
      | Except.ok _ =>
        Except.ok
          (offsets5,
            if flags &&& 2 ≠ 0 then csr2csc_sort pe csc_partitions offsets5 written.2
            else written.2)

/-- The function `csr2csc` of `trans.c`.
flags: bit 0 validate results, bit 1 sort neighbour-list of the output,
bit 2 remove self-edges, bit 3 only create offsets_list of the out_graph. -/
def csr2csc (pe : par_env) (partitions csc_partitions : List Nat) (csr : ll_400_graph)
    (flags : Nat) : Except String ll_400_graph_ptr :=
  match csr2csc_step3 pe partitions
      (csr2csc_step2 pe partitions (csr2csc_step1 pe partitions csr flags))
      ((csr2csc_step1 pe partitions csr flags).set csr.vertices_count
        (csr2csc_step2 pe partitions (csr2csc_step1 pe partitions csr flags)).2) with
  | Except.error msg => Except.error msg
  | Except.ok offsets3 =>
    if flags &&& 8 ≠ 0 then
      Except.ok
        { vertices_count := csr.vertices_count,
          edges_count := (csr2csc_step2 pe partitions (csr2csc_step1 pe partitions csr flags)).2,
          offsets_list := offsets3,
          edges_list := none }
    else
      match csr2csc_edges pe partitions csc_partitions csr flags
          (csr2csc_step2 pe partitions (csr2csc_step1 pe partitions csr flags)) offsets3 with
      | Except.error msg => Except.error msg
      | Except.ok res =>
        Except.ok
          { vertices_count := csr.vertices_count,
            edges_count :=
              (csr2csc_step2 pe partitions (csr2csc_step1 pe partitions csr flags)).2,
            offsets_list := res.1,
            edges_list := some res.2 }

/-! ## Vocabulary of the transposition -/

/-- The slot `x = (v, e)` holds an edge `v → d` that `csr2csc` keeps: it is not a
self-edge to be removed. -/
def is_incoming_slot (csr : ll_400_graph) (flags d : Nat) (x : Nat × Nat) : Bool :=
  decide (rd csr.edges_list x.2 = d ∧ ¬ (x.1 = d ∧ flags &&& 4 ≠ 0))

/-- The sources of the edges into `d` that `csr2csc` keeps, in visiting order. -/
def csc_sources (csr : ll_400_graph) (flags d : Nat) : List Nat :=
  ((all_slots csr).filter (is_incoming_slot csr flags d)).map Prod.fst

/-- The offset of `v` in the transposed graph: the number of kept edges into the
vertices below `v`. -/
def csc_offset (csr : ll_400_graph) (flags v : Nat) : Nat :=
  ((List.range v).map (fun d => (csc_sources csr flags d).length)).sum

/-- The slot `x = (v, e)` holds a self-edge. -/
def is_self_slot (csr : ll_400_graph) (x : Nat × Nat) : Bool :=
  decide (rd csr.edges_list x.2 = x.1)

/-- The number of self-edges that `csr2csc` removes: all of them when bit 2 of `flags`
is set, none otherwise. -/
def removed_self_edges (csr : ll_400_graph) (flags : Nat) : Nat :=
  if flags &&& 4 ≠ 0 then ((all_slots csr).filter (is_self_slot csr)).length else 0

/-- The state of step 4 of `csr2csc` once the slots of `pre` have been processed: the
offset of `d` stands after the sources already written, which fill the start of the
list of `d`. -/
def csc_write_invariant (csr : ll_400_graph) (flags : Nat) (pre : List (Nat × Nat))
    (st : List Nat × List Nat) : Prop :=
  st.1.length = csr.vertices_count + 1 ∧
  st.2.length = csc_offset csr flags csr.vertices_count ∧
  (∀ d, d < csr.vertices_count → rd st.1 d =
    csc_offset csr flags d + ((pre.filter (is_incoming_slot csr flags d)).map Prod.fst).length) ∧
  rd st.1 csr.vertices_count = csc_offset csr flags csr.vertices_count ∧
  (∀ d, d < csr.vertices_count → ∀ i,
    i < ((pre.filter (is_incoming_slot csr flags d)).map Prod.fst).length →
    rd st.2 (csc_offset csr flags d + i) =
      rd ((pre.filter (is_incoming_slot csr flags d)).map Prod.fst) i)

/-- The offsets array of the transposed graph. -/
def csc_offsets (csr : ll_400_graph) (flags : Nat) : List Nat :=
  (List.range (csr.vertices_count + 1)).map (csc_offset csr flags)

/-! ## `copy_ll_400_graph` and `copy_ll_404_graph` -/

/-- The loop `for(unsigned long e=0; e < count; e++) out->edges_list[e] = in->edges_list[e]`
of `copy_ll_400_graph` (`count = out->edges_count`) and of `copy_ll_404_graph`
(`count = 2 * out->edges_count`). -/
def copy_words (count : Nat) (src dst : List Nat) : List Nat :=
  (List.range count).foldl (fun dst e => dst.set e (rd src e)) dst

/-- The function `copy_ll_400_graph` of `trans.c`.  `out = none` is the call with
`out == NULL`: the result is allocated; `out = some o` is the call with a graph supplied
by the caller, whose counts are asserted to match.  The source writes through `out` only. -/
def copy_ll_400_graph (_pe : par_env) (inp : ll_400_graph)
    (out : Option ll_400_graph) : Except String ll_400_graph :=
  match (match out with
      | none =>
        Except.ok
          ({ vertices_count := inp.vertices_count,
             edges_count := inp.edges_count,
             offsets_list := List.replicate (1 + inp.vertices_count) 0,
             edges_list := List.replicate inp.edges_count 0 } : ll_400_graph)
      | some o =>
        if o.vertices_count ≠ inp.vertices_count then
          Except.error "out->vertices_count == in->vertices_count && out->offsets_list != NULL"
        else if o.edges_count ≠ inp.edges_count then
          Except.error "out->edges_count == in->edges_count && out->edges_list != NULL"
        else Except.ok o) with
  | Except.error msg => Except.error msg
  | Except.ok o =>
    Except.ok
      { vertices_count := o.vertices_count,
        edges_count := o.edges_count,
        offsets_list := copy_offsets_loop o.vertices_count inp.offsets_list o.offsets_list,
        edges_list := copy_words o.edges_count inp.edges_list o.edges_list }

/-- The function `copy_ll_404_graph` of `trans.c` (`copy_w4_graph` in the driver): as
`copy_ll_400_graph`, with two words per edge. -/
def copy_ll_404_graph (_pe : par_env) (inp : ll_404_graph)
    (out : Option ll_404_graph) : Except String ll_404_graph :=
  match (match out with
      | none =>
        Except.ok
          ({ vertices_count := inp.vertices_count,
             edges_count := inp.edges_count,
             offsets_list := List.replicate (1 + inp.vertices_count) 0,
             edges_list := List.replicate (2 * inp.edges_count) 0 } : ll_404_graph)
      | some o =>
        if o.vertices_count ≠ inp.vertices_count then
          Except.error "out->vertices_count == in->vertices_count && out->offsets_list != NULL"
        else if o.edges_count ≠ inp.edges_count then
          Except.error "out->edges_count == in->edges_count && out->edges_list != NULL"
        else Except.ok o) with
  | Except.error msg => Except.error msg
  | Except.ok o =>
    Except.ok
      { vertices_count := o.vertices_count,
        edges_count := o.edges_count,
        offsets_list := copy_offsets_loop o.vertices_count inp.offsets_list o.offsets_list,
        edges_list := copy_words (2 * o.edges_count) inp.edges_list o.edges_list }

/-- Sizes of the arrays of a graph record, as its allocation gives them. -/
def allocated_400 (g : ll_400_graph) : Prop :=
  g.offsets_list.length = g.vertices_count + 1 ∧ g.edges_list.length = g.edges_count

instance (g : ll_400_graph) : Decidable (allocated_400 g) := by
  unfold allocated_400; infer_instance

/-- Sizes of the arrays of a weighted graph record, as its allocation gives them. -/
def allocated_404 (g : ll_404_graph) : Prop :=
  g.offsets_list.length = g.vertices_count + 1 ∧ g.edges_list.length = 2 * g.edges_count

instance (g : ll_404_graph) : Decidable (allocated_404 g) := by
  unfold allocated_404; infer_instance

/-- A weighted graph with the edges `0 - 1` (weight 7) and `1 - 2` (weight 5). -/
def sample_weighted : ll_404_graph :=
  { vertices_count := 3, edges_count := 4,
    offsets_list := [0, 1, 3, 4], edges_list := [1, 7, 0, 7, 2, 5, 1, 5] }

/-- A graph record holding other values, with the counts of `sample_sym`. -/
def stale_400 : ll_400_graph :=
  { vertices_count := 4, edges_count := 8,
    offsets_list := [9, 9, 9, 9, 9], edges_list := [7, 7, 7, 7, 7, 7, 7, 7] }

/-- A weighted graph record holding other values, with the counts of `sample_weighted`. -/
def stale_404 : ll_404_graph :=
  { vertices_count := 3, edges_count := 4,
    offsets_list := [9, 9, 9, 9], edges_list := [7, 7, 7, 7, 7, 7, 7, 7] }

/-! ## Step 5 of `csr2sym` with the search instead of the bit array -/

/-- Step 5, body of the loop over the edges of `v`, with the test of the bit replaced by
the commented-out line
`if(uint_binary_search(csr->edges_list, csr->offsets_list[dest], csr->offsets_list[dest + 1], src) != -1UL)`. -/
def csr2sym_write_edge_search (csr : ll_400_graph) (v : Nat) (st : sym_state) (e : Nat) :
    Except String sym_state :=
  if v = rd csr.edges_list e then Except.ok st
  else if (uint_binary_search csr.edges_list (rd csr.offsets_list (rd csr.edges_list e))
      (rd csr.offsets_list (rd csr.edges_list e + 1)) v).isSome then Except.ok st
  else if rd st.last_offsets (rd csr.edges_list e) < rd st.offsets_list (rd csr.edges_list e + 1) then
    Except.ok
      { offsets_list := st.offsets_list,
        last_offsets := st.last_offsets.set (rd csr.edges_list e)
          (rd st.last_offsets (rd csr.edges_list e) + 1),
        edges_list := st.edges_list.set (rd st.last_offsets (rd csr.edges_list e)) v }
  else Except.error "prev_offset < out_graph->offsets_list[dest+1]"

/-- Step 5 with the search, body of the loop over the vertices. -/
def csr2sym_write_vertex_search (csr : ll_400_graph) (st : sym_state) (v : Nat) :
    Except String sym_state :=
  (edge_slots csr.offsets_list v).foldlM (csr2sym_write_edge_search csr v) st

/-- Step 5 of `csr2sym` with the search instead of the bit array. -/
def csr2sym_step5_search (pe : par_env) (partitions : List Nat) (csr : ll_400_graph)
    (st : sym_state) : Except String sym_state :=
  for_partition_vertices partitions (pe.threads_count * 64)
    (csr2sym_write_vertex_search csr) st

/-- A graph of `2^32 - 1` vertices with the single edge `0 → 1`: `offsets_list[0] = 0` and
`offsets_list[v] = 1` for `1 <= v <= 2^32 - 1`. -/
def wide_400 : ll_400_graph :=
  { vertices_count := 2 ^ 32 - 1, edges_count := 1,
    offsets_list := 0 :: List.replicate (2 ^ 32 - 1) 1, edges_list := [1] }

/-- A weighted graph of `2^32 - 1` vertices with the single edge `0 → 1` of weight 7. -/
def wide_404 : ll_404_graph :=
  { vertices_count := 2 ^ 32 - 1, edges_count := 1,
    offsets_list := 0 :: List.replicate (2 ^ 32 - 1) 1, edges_list := [1, 7] }

/-- A graph record of `2^32 - 1` vertices and one edge holding other values. -/
def wide_stale_400 : ll_400_graph :=
  { vertices_count := 2 ^ 32 - 1, edges_count := 1,
    offsets_list := List.replicate (2 ^ 32) 9, edges_list := [5] }

/-- A weighted graph record of `2^32 - 1` vertices and one edge holding other values. -/
def wide_stale_404 : ll_404_graph :=
  { vertices_count := 2 ^ 32 - 1, edges_count := 1,
    offsets_list := List.replicate (2 ^ 32) 9, edges_list := [5, 5] }

/-! ## The writes into `out_graph->edges_list` made by steps 4 and 5 of `csr2sym` -/

/-- The indices written while a loop whose body may fail runs over `l` from the state
`s`, in execution order: `writes s a` are the indices written by the iteration on `a`
started in state `s`, and the loop stops at a failed assertion. -/
def loop_writes {σ α : Type} (body : σ → α → Except String σ) (writes : σ → α → List Nat) :
    σ → List α → List Nat
  | _, [] => []
  | s, a :: l =>
    writes s a ++
      (match body s a with
       | Except.error _ => []
       | Except.ok s' => loop_writes body writes s' l)

/-- The indices written while a loop whose body cannot fail runs over `l` from `s`. -/
def pure_loop_writes {σ α : Type} (body : σ → α → σ) (writes : σ → α → List Nat) :
    σ → List α → List Nat
  | _, [] => []
  | s, a :: l => writes s a ++ pure_loop_writes body writes (body s a) l

/-- Step 4, loop over the edges of `v`: the iteration on `e` writes
`out_graph->edges_list[last_offset]` unless it skips a self-edge. -/
def csr2sym_copy_edge_writes (csr : ll_400_graph) (flags v : Nat) (st : List Nat × Nat)
    (e : Nat) : List Nat :=
  if flags &&& 4 ≠ 0 ∧ rd csr.edges_list e = v then [] else [st.2]

/-- Step 4: the indices written by the iteration on the vertex `v`. -/
def csr2sym_copy_vertex_writes (csr : ll_400_graph) (flags : Nat) (st : sym_state × Nat)
    (v : Nat) : List Nat :=
  pure_loop_writes (csr2sym_copy_edge csr flags v) (csr2sym_copy_edge_writes csr flags v)
    (st.1.edges_list, st.2) (edge_slots csr.offsets_list v)

/-- Step 4: the indices written by the iteration on the partition `p`. -/
def csr2sym_copy_partition_writes (csr : ll_400_graph) (flags : Nat) (partitions : List Nat)
    (partitions_total_edges : List Nat) (st : sym_state) (p : Nat) : List Nat :=
  loop_writes (csr2sym_copy_vertex csr flags) (csr2sym_copy_vertex_writes csr flags)
    (st, rd partitions_total_edges p) (partition_vertices partitions p)

/-- Step 4 of `csr2sym`: the indices of `out_graph->edges_list` it writes, in execution
order. -/
def csr2sym_step4_writes (pe : par_env) (partitions : List Nat) (csr : ll_400_graph)
    (flags : Nat) (offsets_list : List Nat) (sums : List Nat × Nat) : List Nat :=
  loop_writes (csr2sym_copy_partition csr flags partitions (pe.threads_count * 64) sums.1)
    (csr2sym_copy_partition_writes csr flags partitions sums.1)
    { offsets_list := offsets_list.set csr.vertices_count sums.2,
      last_offsets := List.replicate (1 + csr.vertices_count) 0,
      edges_list := List.replicate sums.2 0 }
    (List.range (pe.threads_count * 64))

/-- Step 5, loop over the edges of `v`: the iteration on `e` writes
`out_graph->edges_list[prev_offset]`, `prev_offset` being the value of
`last_offsets[dest]` it fetches, unless it skips the edge or its assertion fails. -/
def csr2sym_write_edge_writes (csr : ll_400_graph) (edge_is_symmetric : List Nat) (v : Nat)
    (st : sym_state) (e : Nat) : List Nat :=
  if v = rd csr.edges_list e then []
  else if rd edge_is_symmetric (e / 8) &&& (1 <<< (e % 8)) ≠ 0 then []
  else if rd st.last_offsets (rd csr.edges_list e) < rd st.offsets_list (rd csr.edges_list e + 1) then
    [rd st.last_offsets (rd csr.edges_list e)]
  else []

/-- Step 5: the indices written by the iteration on the vertex `v`. -/
def csr2sym_write_vertex_writes (csr : ll_400_graph) (edge_is_symmetric : List Nat)
    (st : sym_state) (v : Nat) : List Nat :=
  loop_writes (csr2sym_write_edge csr edge_is_symmetric v)
    (csr2sym_write_edge_writes csr edge_is_symmetric v) st (edge_slots csr.offsets_list v)

/-- Step 5 of `csr2sym`: the indices of `out_graph->edges_list` it writes, in execution
order. -/
def csr2sym_step5_writes (pe : par_env) (partitions : List Nat) (csr : ll_400_graph)
    (edge_is_symmetric : List Nat) (st : sym_state) : List Nat :=
  loop_writes
    (fun s p => (partition_vertices partitions p).foldlM
      (csr2sym_write_vertex csr edge_is_symmetric) s)
    (fun s p => loop_writes (csr2sym_write_vertex csr edge_is_symmetric)
      (csr2sym_write_vertex_writes csr edge_is_symmetric) s (partition_vertices partitions p))
    st (List.range (pe.threads_count * 64))

/-- The indices of `out_graph->edges_list` written by `csr2sym`, steps 4 and 5 (the
sorting block permutes entries in place), in execution order. -/
def csr2sym_writes (pe : par_env) (partitions : List Nat) (csr : ll_400_graph) (flags : Nat) :
    List Nat :=
  match csr2sym_step1 pe partitions csr flags with
  | Except.error _ => []
  | Except.ok offsets1 =>
  match csr2sym_step2 pe partitions csr offsets1 with
  | Except.error _ => []
  | Except.ok degrees =>
  csr2sym_step4_writes pe partitions csr flags degrees.1
      (csr2sym_step3 pe partitions degrees.1) ++
    (match csr2sym_step4 pe partitions csr flags degrees.1
        (csr2sym_step3 pe partitions degrees.1) with
     | Except.error _ => []
     | Except.ok copied => csr2sym_step5_writes pe partitions csr degrees.2 copied)

/-! ## The slots written by steps 1 and 2 of `add_4B_weight_to_ll_400_graph` -/

/-- Step 1, loop over the edges of `v`: the pairs `(v, e)` of the iterations that write
the slot `e` (words `2 * e` and `2 * e + 1`) of the list of `v`, up to the `break`. -/
def add_4B_weight_assign_edges_writes (g : ll_400_graph) (v : Nat) :
    Nat → Nat → List (Nat × Nat)
  | 0, _ => []
  | k + 1, e =>
    if rd g.edges_list e > v then []
    else (v, e) :: add_4B_weight_assign_edges_writes g v k (e + 1)

/-- Step 1 of `add_4B_weight_to_ll_400_graph`: the slots it writes, each with the vertex
in whose list the source means to write, in execution order. -/
def add_4B_weight_step1_writes (pe : par_env) (partitions : List Nat) (g : ll_400_graph) :
    List (Nat × Nat) :=
  (List.range (pe.threads_count * 64)).flatMap (fun p =>
    (partition_vertices partitions p).flatMap (fun v =>
      add_4B_weight_assign_edges_writes g v
        (rd g.offsets_list (v + 1) - rd g.offsets_list v) (rd g.offsets_list v)))

/-- Step 2, one iteration of the loop over the edges of `v` that does not `break`: the
state `(graph->offsets_list, graph->edges_list)` it leaves. -/
def add_4B_weight_mirror_edge (g : ll_400_graph) (v e : Nat) (st : List Nat × List Nat) :
    List Nat × List Nat :=
  (st.1.set (rd g.edges_list e) (rd st.1 (rd g.edges_list e) + 1),
    (st.2.set (2 * rd st.1 (rd g.edges_list e)) v).set
      (2 * rd st.1 (rd g.edges_list e) + 1)
      (rd (st.2.set (2 * rd st.1 (rd g.edges_list e)) v) (2 * e + 1)))

/-- Step 2, loop over the edges of `v`: the pairs `(neighbour, neighbour_offset)` of the
iterations, `neighbour_offset` being the slot written, fetched from the cursor of
`neighbour`, in whose list the source means to write. -/
def add_4B_weight_mirror_edges_writes (g : ll_400_graph) (v : Nat) :
    Nat → Nat → List Nat × List Nat → List (Nat × Nat)
  | 0, _, _ => []
  | k + 1, e, st =>
    if rd g.edges_list e ≥ v then []
    else
      (rd g.edges_list e, rd st.1 (rd g.edges_list e)) ::
        add_4B_weight_mirror_edges_writes g v k (e + 1) (add_4B_weight_mirror_edge g v e st)

/-- Step 2, loop over the vertices: the state and the slots written so far. -/
def add_4B_weight_mirror_vertex_logged (g : ll_400_graph)
    (acc : (List Nat × List Nat) × List (Nat × Nat)) (v : Nat) :
    (List Nat × List Nat) × List (Nat × Nat) :=
  (add_4B_weight_mirror_vertex g acc.1 v,
    acc.2 ++ add_4B_weight_mirror_edges_writes g v
      (rd g.offsets_list (v + 1) - rd g.offsets_list v) (rd g.offsets_list v) acc.1)

/-- Step 2 of `add_4B_weight_to_ll_400_graph`: the slots it writes, each with the vertex
in whose list the source means to write, in execution order. -/
def add_4B_weight_step2_writes (g : ll_400_graph) (st : List Nat × List Nat) :
    List (Nat × Nat) :=
  ((List.range g.vertices_count).foldl (add_4B_weight_mirror_vertex_logged g) (st, [])).2

/-- The slots written by steps 1 and 2 of `add_4B_weight_to_ll_400_graph`. -/
def add_4B_weight_writes (pe : par_env) (partitions : List Nat) (g : ll_400_graph)
    (max_weight : Nat) : List (Nat × Nat) :=
  add_4B_weight_step1_writes pe partitions g ++
    add_4B_weight_step2_writes g (add_4B_weight_step1 pe partitions g max_weight)

/-! ## Step 2 of `add_4B_weight_to_ll_400_graph` run by several threads -/

/-- Step 2, loop over the edges of `v`: the iterations `(v, e)` made up to the `break`, in
order; `k` is the number of iterations left before `e` reaches `offsets_list[v+1]`. -/
def add_4B_weight_mirror_iterations (g : ll_400_graph) (v : Nat) : Nat → Nat → List (Nat × Nat)
  | 0, _ => []
  | k + 1, e =>
    if rd g.edges_list e ≥ v then []
    else (v, e) :: add_4B_weight_mirror_iterations g v k (e + 1)

/-- The iterations `(v, e)` of step 2 of `add_4B_weight_to_ll_400_graph`, in the order of
a run with one thread. -/
def add_4B_weight_step2_iterations (g : ll_400_graph) : List (Nat × Nat) :=
  (List.range g.vertices_count).flatMap (fun v =>
    add_4B_weight_mirror_iterations g v (rd g.offsets_list (v + 1) - rd g.offsets_list v)
      (rd g.offsets_list v))

/-- Step 2 of `add_4B_weight_to_ll_400_graph` run by several threads.  An iteration
`(v, e)` takes its slot with one `__atomic_fetch_add` on the cursor of its neighbour,
writes the two words of that slot, which the cursor gives to no other iteration, and reads
the weight word of the slot `e`.  A run is settled by the order in which the iterations
make their `__atomic_fetch_add`: the iterations take effect one after the other in the
order `schedule`, a permutation of `add_4B_weight_step2_iterations g`.
`add_4B_weight_step2 g` is the case `schedule = add_4B_weight_step2_iterations g`. -/
def add_4B_weight_step2_interleaved (g : ll_400_graph) (schedule : List (Nat × Nat))
    (st : List Nat × List Nat) : List Nat × List Nat :=
  schedule.foldl (fun st it => add_4B_weight_mirror_edge g it.1 it.2 st) st

/-- The state of step 2 of `add_4B_weight_to_ll_400_graph` once the iterations `done` have
taken effect, in any order: `cursor1` and `edges1` are the arrays left by step 1.  The
cursor of `u` stands between its place after step 1 and the end of the list of `u`; the
slots below `cursor1[u]` are those of step 1; each slot from `cursor1[u]` up to the cursor
of `u` holds the vertex `v` of an iteration `(v, e)` of `done` on the neighbour `u`, with
the weight of slot `e` after step 1; each iteration of `done` has such a slot, and no two
of these slots of `u` hold the same vertex. -/
def interleaved_invariant (g : ll_400_graph) (cursor1 edges1 : List Nat)
    (done : List (Nat × Nat)) (st : List Nat × List Nat) : Prop :=
  st.1.length = g.vertices_count + 1 ∧
  st.2.length = 2 * g.edges_count ∧
  (∀ u, u < g.vertices_count →
    rd cursor1 u ≤ rd st.1 u ∧ rd st.1 u ≤ rd g.offsets_list (u + 1)) ∧
  (∀ u, u < g.vertices_count → ∀ i, rd g.offsets_list u ≤ i → i < rd cursor1 u →
    rd st.2 (2 * i) = rd edges1 (2 * i) ∧ rd st.2 (2 * i + 1) = rd edges1 (2 * i + 1)) ∧
  (∀ u, u < g.vertices_count → ∀ i, rd cursor1 u ≤ i → i < rd st.1 u →
    ∃ e, (rd st.2 (2 * i), e) ∈ done ∧ rd g.edges_list e = u ∧
      rd st.2 (2 * i + 1) = rd edges1 (2 * e + 1)) ∧
  (∀ it, it ∈ done → ∃ i, rd cursor1 (rd g.edges_list it.2) ≤ i ∧
    i < rd st.1 (rd g.edges_list it.2) ∧ rd st.2 (2 * i) = it.1) ∧
  (∀ u, u < g.vertices_count → ∀ i j, rd cursor1 u ≤ i → i < rd st.1 u →
    rd cursor1 u ≤ j → j < rd st.1 u → rd st.2 (2 * i) = rd st.2 (2 * j) → i = j)

/-- The slots written by step 2 of `add_4B_weight_to_ll_400_graph` once the vertices
below `b` have been visited: each slot of a vertex `u` whose neighbour is above `u` and
below `b`, once. -/
def mirror_writes_outer (g : ll_400_graph) (b : Nat) (w : List (Nat × Nat)) : Prop :=
  w.Nodup ∧
  ∀ u p, (u, p) ∈ w ↔
    u < g.vertices_count ∧ rd g.offsets_list u ≤ p ∧ p < rd g.offsets_list (u + 1) ∧
      u < rd g.edges_list p ∧ rd g.edges_list p < b

/-- The slots written by step 2 while the vertex `v` is visited, before its slot `e`. -/
def mirror_writes_inner (g : ll_400_graph) (v e : Nat) (w : List (Nat × Nat)) : Prop :=
  w.Nodup ∧
  ∀ u p, (u, p) ∈ w ↔
    u < g.vertices_count ∧ rd g.offsets_list u ≤ p ∧ p < rd g.offsets_list (u + 1) ∧
      u < rd g.edges_list p ∧
      (rd g.edges_list p < v ∨
        (rd g.edges_list p = v ∧
          ∃ i, rd g.offsets_list v ≤ i ∧ i < e ∧ rd g.edges_list i = u))

/-! ## The MSF core, modelled from the spec

The functions `msf_mastiff`, `msf_prim_serial` and `msf_validate` that `main` calls are
defined in `msf.c`, which is not among the sources.  The definitions of this section and
of the next follow the spec (sections 3 and 4), run by one thread: the selector visits
the vertices in ID order, the contraction engine the components in ID order. -/

/-- Modelled from the spec: the mutable state of the MSF computation `msf_mastiff` (file
`msf.c`, not among the sources), section 3 of the spec.  `component[v]` is the root that
`find(v)` returns in the union-find (the parent pointers and their compression are not
represented), `rank_or_size` is the tie-break of `link`, `dead` is the liveness bitset
with one entry per edge slot, `cursor` the per-vertex frontier pointer, `edges` and
`total_weight` the MSF accumulator. -/
structure msf_state where
  component : List Nat
  rank_or_size : List Nat
  dead : List Bool
  cursor : List Nat
  edges : List (Nat × Nat × Nat)
  total_weight : Nat
deriving DecidableEq

/-- Modelled from the spec: an entry `best[c]` of the minimum-edge selector (section 4.4),
a candidate edge `src → dest` of weight `weight` in slot `edge`, found from the component
`comp` towards the component `other`. -/
structure msf_candidate where
  edge : Nat
  src : Nat
  dest : Nat
  weight : Nat
  comp : Nat
  other : Nat
deriving DecidableEq

/-- Modelled from the spec: `a` comes before `b` in the order of the tie-break rule of
section 4.4, the lexicographic key `(w, min(c,cd), max(c,cd))`. -/
def msf_key_lt (a b : msf_candidate) : Bool :=
  decide (a.weight < b.weight ∨
    (a.weight = b.weight ∧
      (min a.comp a.other < min b.comp b.other ∨
        (min a.comp a.other = min b.comp b.other ∧
          max a.comp a.other < max b.comp b.other))))

/-- Modelled from the spec: the arrays that the selector updates (section 4.4), the
liveness bitset, the cursors and `best`. -/
structure msf_selection where
  dead : List Bool
  cursor : List Nat
  best : List (Option msf_candidate)
deriving DecidableEq

/-- Modelled from the spec: the candidate that the slot `e` of the vertex `v` makes
(section 4.4), the edge `v → d` of weight `w` with `c = find(v)` and `cd = find(d)`. -/
def msf_slot_candidate (g : ll_404_graph) (component : List Nat) (v e : Nat) : msf_candidate :=
  { edge := e, src := v, dest := rd g.edges_list (2 * e),
    weight := rd g.edges_list (2 * e + 1), comp := rd component v,
    other := rd component (rd g.edges_list (2 * e)) }

/-- Modelled from the spec: the selector on one slot `e` of the vertex `v` (section 4.4,
step 1): "If dead, advance.  Compute `cd = find(d)`.  If `cd == c`, mark the slot dead,
advance `cursor[v]`, continue.  Otherwise treat as a candidate.  Track the minimum-weight
candidate per component `c`", under the key of the tie-break rule.  The cursor advances
over a slot that stands at the cursor, which keeps the slots before it dead or
intra-component. -/
def msf_scan_slot (g : ll_404_graph) (component : List Nat) (v : Nat) (s : msf_selection)
    (e : Nat) : msf_selection :=
  if s.dead.getD e false then
    { s with cursor := if rd s.cursor v = e then s.cursor.set v (e + 1) else s.cursor }
  else if rd component (rd g.edges_list (2 * e)) = rd component v then
    { s with
      dead := s.dead.set e true,
      cursor := if rd s.cursor v = e then s.cursor.set v (e + 1) else s.cursor }
  else
    match s.best.getD (rd component v) none with
    | none =>
      { s with best := s.best.set (rd component v) (some (msf_slot_candidate g component v e)) }
    | some b =>
      if msf_key_lt (msf_slot_candidate g component v e) b then
        { s with
          best := s.best.set (rd component v) (some (msf_slot_candidate g component v e)) }
      else s

/-- Modelled from the spec: the selector on the vertex `v`, which scans "its neighbor
list starting at `cursor[v]`". -/
def msf_scan_vertex (g : ll_404_graph) (component : List Nat) (s : msf_selection) (v : Nat) :
    msf_selection :=
  (List.range' (rd s.cursor v) (rd g.offsets_list (v + 1) - rd s.cursor v)).foldl
    (msf_scan_slot g component v) s

/-- Modelled from the spec: one pass of the minimum-edge selector over all vertices
(section 4.4); `best` starts with the sentinel "no outgoing edge" everywhere. -/
def msf_select (g : ll_404_graph) (st : msf_state) : msf_selection :=
  (List.range g.vertices_count).foldl (msf_scan_vertex g st.component)
    { dead := st.dead, cursor := st.cursor, best := List.replicate g.vertices_count none }

/-- Modelled from the spec: the effect of making the root `b` the parent of the root `a`
on the results of `find`: every vertex whose root was `a` has the root `b`. -/
def msf_relabel (labels : List Nat) (a b : Nat) : List Nat :=
  labels.map (fun r => if r = a then b else r)

/-- Modelled from the spec: `link(a, b)` on two distinct roots (section 4.2), which
"deterministically orders the two roots by (rank, id)" and makes the winner the parent of
the loser: every vertex whose root was the loser now has the winner as root. -/
def msf_link (st : msf_state) (a b : Nat) : msf_state :=
  if rd st.rank_or_size a < rd st.rank_or_size b ∨
      (rd st.rank_or_size a = rd st.rank_or_size b ∧ a < b) then
    { st with component := msf_relabel st.component a b }
  else
    { st with component := msf_relabel st.component b a }

/-- Modelled from the spec: `union(u, v)` (section 4.2): `find` both endpoints, `link`
the roots unless they coincide; "returns true iff a merge occurred". -/
def msf_union (st : msf_state) (u v : Nat) : msf_state × Bool :=
  if rd st.component u = rd st.component v then (st, false)
  else (msf_link st (rd st.component u) (rd st.component v), true)

/-- Modelled from the spec: the slot of the edge `v → u`, the reverse of a selected edge
`u → v`, which the data model guarantees to exist (section 3). -/
def msf_reverse_slot (g : ll_404_graph) (u v : Nat) : Option Nat :=
  (edge_slots g.offsets_list v).find? (fun e => decide (rd g.edges_list (2 * e) = u))

/-- Modelled from the spec: "Mark the selected edge dead in both directions" (section 4.5):
the slot of the selected edge and the slot of the reverse edge. -/
def msf_mark_dead (g : ll_404_graph) (dead : List Bool) (cand : msf_candidate) : List Bool :=
  match msf_reverse_slot g cand.src cand.dest with
  | none => dead.set cand.edge true
  | some e => (dead.set cand.edge true).set e true

/-- Modelled from the spec: the contraction engine on the component `c` (section 4.5):
"Attempt `union(u, v)`.  If it succeeds, append `(u, v, w)` to the MSF and add `w` to
`total_weight`.  Mark the selected edge dead in both directions." -/
def msf_contract_component (g : ll_404_graph) (best : List (Option msf_candidate))
    (st : msf_state) (c : Nat) : msf_state :=
  match best.getD c none with
  | none => st
  | some cand =>
    let merged := msf_union st cand.src cand.dest
    let st1 : msf_state :=
      if merged.2 then
        { merged.1 with
          edges := merged.1.edges ++ [(cand.src, cand.dest, cand.weight)],
          total_weight := merged.1.total_weight + cand.weight }
      else merged.1
    { st1 with dead := msf_mark_dead g st1.dead cand }

/-- Modelled from the spec: one round, the selector followed by the contraction engine;
`none` when the round "finds no candidate edges (every active component's `best` entry is
a sentinel)". -/
def msf_round (g : ll_404_graph) (st : msf_state) : Option msf_state :=
  if (msf_select g st).best.all (fun b => b.isNone) then none
  else
    some ((List.range g.vertices_count).foldl
      (msf_contract_component g (msf_select g st).best)
      { st with dead := (msf_select g st).dead, cursor := (msf_select g st).cursor })

/-- Modelled from the spec: the loop of rounds, which "repeats until no cross-component
edges remain"; `fuel` bounds the number of rounds, and the result is `none` when the loop
has not ended by then. -/
def msf_rounds (g : ll_404_graph) : Nat → msf_state → Option msf_state
  | 0, _ => none
  | fuel + 1, st =>
    match msf_round g st with
    | none => some st
    | some st' => msf_rounds g fuel st'

/-- Modelled from the spec: the record `struct msf` (declared with `msf.c`, not among the
sources), the MSF accumulator of section 3: the selected edges `(u, v, w)` and their
total weight. -/
structure msf where
  edges : List (Nat × Nat × Nat)
  total_weight : Nat
deriving DecidableEq

/-- Modelled from the spec: the state at the start of the MSF computation: every vertex
is its own component, every slot is live, every cursor stands at the start of its list,
the accumulator is empty. -/
def msf_start (g : ll_404_graph) : msf_state :=
  { component := List.range g.vertices_count,
    rank_or_size := List.replicate g.vertices_count 0,
    dead := List.replicate g.edges_count false,
    cursor := (List.range g.vertices_count).map (rd g.offsets_list),
    edges := [],
    total_weight := 0 }

/-- Modelled from the spec: `msf_mastiff` (file `msf.c`, not among the sources), the
Boruvka-style contraction loop of sections 4.4 and 4.5 run by one thread: rounds are
repeated from the start state and the accumulator is reported. -/
def msf_mastiff (fuel : Nat) (_pe : par_env) (g : ll_404_graph) (_exec_info : List Nat)
    (_flags : Nat) : Option msf :=
  match msf_rounds g fuel (msf_start g) with
  | none => none
  | some st => some { edges := st.edges, total_weight := st.total_weight }


/-! ## The Prim oracle and the validator, modelled from the spec -/

/-- Modelled from the spec: the state of the serial Prim oracle, the vertices reached so
far and the accumulator. -/
structure prim_state where
  visited : List Bool
  edges : List (Nat × Nat × Nat)
  total_weight : Nat
deriving DecidableEq

/-- Modelled from the spec: the oracle looks at the slot `e` of a reached vertex `v` and
keeps the lightest edge seen so far that leads to a vertex not reached yet. -/
def prim_scan_slot (g : ll_404_graph) (visited : List Bool) (v : Nat)
    (best : Option (Nat × Nat × Nat)) (e : Nat) : Option (Nat × Nat × Nat) :=
  if visited.getD (rd g.edges_list (2 * e)) false then best
  else
    match best with
    | none => some (v, rd g.edges_list (2 * e), rd g.edges_list (2 * e + 1))
    | some b =>
      if rd g.edges_list (2 * e + 1) < b.2.2 then
        some (v, rd g.edges_list (2 * e), rd g.edges_list (2 * e + 1))
      else some b

/-- Modelled from the spec: the slots of the vertex `v` are looked at when `v` has been
reached. -/
def prim_scan_vertex (g : ll_404_graph) (visited : List Bool)
    (best : Option (Nat × Nat × Nat)) (v : Nat) : Option (Nat × Nat × Nat) :=
  if visited.getD v false then
    (edge_slots g.offsets_list v).foldl (prim_scan_slot g visited v) best
  else best

/-- Modelled from the spec: a lightest edge from a reached vertex to a vertex not reached
yet, the choice of Prim's algorithm. -/
def prim_lightest (g : ll_404_graph) (visited : List Bool) : Option (Nat × Nat × Nat) :=
  (List.range g.vertices_count).foldl (prim_scan_vertex g visited) none

/-- Modelled from the spec: one step of the serial Prim oracle.  A lightest edge leaving
the reached vertices is added to the tree; when there is none, the tree of this connected
component is complete and the lowest vertex not reached yet starts the next tree; `none`
when every vertex has been reached. -/
def prim_step (g : ll_404_graph) (st : prim_state) : Option prim_state :=
  match prim_lightest g st.visited with
  | some f =>
    some { visited := st.visited.set f.2.1 true,
           edges := st.edges ++ [f],
           total_weight := st.total_weight + f.2.2 }
  | none =>
    match (List.range g.vertices_count).find? (fun v => !(st.visited.getD v false)) with
    | some s => some { st with visited := st.visited.set s true }
    | none => none

/-- Modelled from the spec: the loop of the serial Prim oracle; `fuel` bounds the number
of steps, and the result is `none` when the loop has not ended by then. -/
def prim_steps (g : ll_404_graph) : Nat → prim_state → Option prim_state
  | 0, _ => none
  | fuel + 1, st =>
    match prim_step g st with
    | none => some st
    | some st' => prim_steps g fuel st'

/-- Modelled from the spec: `msf_prim_serial` (file `msf.c`, not among the sources), the
"reference serial Prim implementation used only as an oracle": Prim's algorithm, started
again in every connected component. -/
def msf_prim_serial (fuel : Nat) (_pe : par_env) (g : ll_404_graph) (_flags : Nat) :
    Option msf :=
  match prim_steps g fuel
      { visited := List.replicate g.vertices_count false, edges := [], total_weight := 0 } with
  | none => none
  | some st => some { edges := st.edges, total_weight := st.total_weight }

/-- Modelled from the spec: one step of the "disjoint-set replay" of the forest property
(P2): the edge joins two different sets, which are merged, or the replay fails. -/
def msf_replay_edge (labels : Option (List Nat)) (f : Nat × Nat × Nat) : Option (List Nat) :=
  match labels with
  | none => none
  | some l =>
    if rd l f.1 = rd l f.2.1 then none
    else some (msf_relabel l (rd l f.1) (rd l f.2.1))

/-- Modelled from the spec: the disjoint-set replay of an edge list over the vertices
`0 .. n - 1`, every vertex a set of its own at the start. -/
def msf_replay (n : Nat) (edges : List (Nat × Nat × Nat)) : Option (List Nat) :=
  edges.foldl msf_replay_edge (some (List.range n))

/-- Modelled from the spec: `msf_validate` (file `msf.c`, not among the sources), which
"takes the unweighted symmetric graph and an MSF" and "returns true iff all MSF edges exist
in G, form an acyclic subgraph, and cover every non-isolated vertex". -/
def msf_validate (_pe : par_env) (g : ll_400_graph) (m : msf) (_flags : Nat) : Nat :=
  if (∀ f ∈ m.edges, f.1 < g.vertices_count ∧ f.2.1 ∈ neighbour_list g f.1) ∧
      (msf_replay g.vertices_count m.edges).isSome = true ∧
      (∀ v, v < g.vertices_count → neighbour_list g v ≠ [] →
        ∃ f ∈ m.edges, f.1 = v ∨ f.2.1 = v) then 1
  else 0

/-! ## Vocabulary of the statements on spanning forests -/

/-- The directed edges `(u, v, w)` of a weighted graph, one for every slot. -/
def weighted_edges (g : ll_404_graph) : List (Nat × Nat × Nat) :=
  (List.range g.vertices_count).flatMap (fun u =>
    (edge_slots g.offsets_list u).map (fun e =>
      (u, rd g.edges_list (2 * e), rd g.edges_list (2 * e + 1))))

/-- A well-formed weighted CSR graph: as `well_formed`, with two words per slot. -/
def well_formed_weighted (g : ll_404_graph) : Prop :=
  g.offsets_list.length = g.vertices_count + 1 ∧
  g.edges_list.length = 2 * g.edges_count ∧
  rd g.offsets_list 0 = 0 ∧
  (∀ v, v < g.vertices_count → rd g.offsets_list v ≤ rd g.offsets_list (v + 1)) ∧
  rd g.offsets_list g.vertices_count = g.edges_count ∧
  (∀ e, e < g.edges_count → rd g.edges_list (2 * e) < g.vertices_count)

instance (g : ll_404_graph) : Decidable (well_formed_weighted g) := by
  unfold well_formed_weighted; infer_instance

/-- The invariant of the data model (section 3): "for every slot of (u→v,w) there exists a
matching slot (v→u,w)". -/
def symmetric_weights (g : ll_404_graph) : Prop :=
  ∀ f ∈ weighted_edges g, (f.2.1, f.1, f.2.2) ∈ weighted_edges g

instance (g : ll_404_graph) : Decidable (symmetric_weights g) := by
  unfold symmetric_weights; infer_instance

/-- The weighted graph `w` has the topology of the unweighted graph `g`: the same counts
and offsets, and the neighbour of every slot. -/
def weighting_of (g : ll_400_graph) (w : ll_404_graph) : Prop :=
  w.vertices_count = g.vertices_count ∧ w.edges_count = g.edges_count ∧
  w.offsets_list = g.offsets_list ∧ w.edges_list.length = 2 * g.edges_count ∧
  ∀ e, e < g.edges_count → rd w.edges_list (2 * e) = rd g.edges_list e

instance (g : ll_400_graph) (w : ll_404_graph) : Decidable (weighting_of g w) := by
  unfold weighting_of; infer_instance

/-- No vertex is its own neighbour ("self-loops removed"). -/
def no_self_edges (g : ll_400_graph) : Prop :=
  ∀ v, v < g.vertices_count → v ∉ neighbour_list g v

instance (g : ll_400_graph) : Decidable (no_self_edges g) := by
  unfold no_self_edges; infer_instance

/-- The edge list `L` has an edge between `x` and `y`, in one of the two directions. -/
def msf_adjacent (L : List (Nat × Nat × Nat)) (x y : Nat) : Prop :=
  ∃ w, (x, y, w) ∈ L ∨ (y, x, w) ∈ L

/-- The vertices `x` and `y` are joined by a path of edges of `L`. -/
def msf_connected (L : List (Nat × Nat × Nat)) (x y : Nat) : Prop :=
  Relation.ReflTransGen (msf_adjacent L) x y

/-- The edges of `L` of weight at most `t`. -/
def msf_light (L : List (Nat × Nat × Nat)) (t : Nat) : List (Nat × Nat × Nat) :=
  L.filter (fun f => decide (f.2.2 ≤ t))

/-- An edge list without a cycle: every edge joins two vertices that the edges before it
do not connect. -/
def msf_forest (L : List (Nat × Nat × Nat)) : Prop :=
  ∀ pre f post, L = pre ++ f :: post → ¬ msf_connected pre f.1 f.2.1

/-- The total weight of an edge list. -/
def msf_weight (L : List (Nat × Nat × Nat)) : Nat :=
  (L.map (fun f => f.2.2)).sum

/-- A bottleneck-optimal edge list for the graph edges `G`: the endpoints of every edge of
`G` are joined in `T` by edges that are not heavier. -/
def msf_bottleneck (G T : List (Nat × Nat × Nat)) : Prop :=
  ∀ f ∈ G, msf_connected (msf_light T f.2.2) f.1 f.2.1

/-- The roots of a label array: the vertices that are their own label. -/
def msf_roots (n : Nat) (labels : List Nat) : List Nat :=
  (List.range n).filter (fun x => decide (rd labels x = x))

/-- The label array `labels` names the connected components of the edge list `L` on the
vertices `0 .. n - 1`: every label is a vertex and its own label, and two vertices have
the same label exactly when `L` connects them. -/
def msf_labels (n : Nat) (L : List (Nat × Nat × Nat)) (labels : List Nat) : Prop :=
  labels.length = n ∧ (∀ x, x < n → rd labels x < n) ∧
  (∀ x, x < n → rd labels (rd labels x) = rd labels x) ∧
  (∀ x y, x < n → y < n → (rd labels x = rd labels y ↔ msf_connected L x y))

/-- The invariant of the liveness bitset and the cursors (section 3): the cursor of a
vertex stands in or at the end of its neighbour-list, and a slot that is dead or before
the cursor joins two vertices of one component. -/
def msf_live (g : ll_404_graph) (component : List Nat) (dead : List Bool)
    (cursor : List Nat) : Prop :=
  ∀ v, v < g.vertices_count →
    rd g.offsets_list v ≤ rd cursor v ∧
    ∀ e, e ∈ edge_slots g.offsets_list v →
      (dead.getD e false = true ∨ e < rd cursor v) →
      rd component (rd g.edges_list (2 * e)) = rd component v

/-- Every entry of `best` is a slot that leaves the component it is published for. -/
def msf_best_valid (g : ll_404_graph) (component : List Nat)
    (best : List (Option msf_candidate)) : Prop :=
  best.length = g.vertices_count ∧
  ∀ c cand, best.getD c none = some cand →
    cand.src < g.vertices_count ∧ cand.edge ∈ edge_slots g.offsets_list cand.src ∧
    cand = msf_slot_candidate g component cand.src cand.edge ∧
    cand.comp = c ∧ cand.other ≠ c

/-- The slot `e` of the vertex `v` has been taken into account by `best`: when it leaves
the component of `v`, the entry of this component is a candidate that the slot is not
below in the order of the tie-break rule. -/
def msf_best_covers (g : ll_404_graph) (component : List Nat)
    (best : List (Option msf_candidate)) (v e : Nat) : Prop :=
  rd component (rd g.edges_list (2 * e)) ≠ rd component v →
    ∃ cand, best.getD (rd component v) none = some cand ∧
      msf_key_lt (msf_slot_candidate g component v e) cand = false

/-- The invariant of the MSF computation: the component labels are those of the selected
edges, which form a forest of graph edges with the accumulated weight, and the liveness
bitset and the cursors satisfy their invariant. -/
def msf_invariant (g : ll_404_graph) (st : msf_state) : Prop :=
  msf_labels g.vertices_count st.edges st.component ∧
  msf_forest st.edges ∧
  (msf_roots g.vertices_count st.component).length + st.edges.length = g.vertices_count ∧
  (∀ f ∈ st.edges, f ∈ weighted_edges g) ∧
  st.total_weight = msf_weight st.edges ∧
  msf_live g st.component st.dead st.cursor ∧
  st.cursor.length = g.vertices_count

/-- The labels `later` merge components of the labels `earlier` (P8): vertices with the
same label keep the same label. -/
def msf_coarser (n : Nat) (earlier later : List Nat) : Prop :=
  ∀ x y, x < n → y < n → rd earlier x = rd earlier y → rd later x = rd later y

/-- The edge `a` is below the edge `b` in the order of the tie-break rule, the
lexicographic order of the keys `(w, min(c,cd), max(c,cd))` under the labels `snap`. -/
def msf_below (snap : List Nat) (a b : Nat × Nat × Nat) : Prop :=
  a.2.2 < b.2.2 ∨
    (a.2.2 = b.2.2 ∧
      (min (rd snap a.1) (rd snap a.2.1) < min (rd snap b.1) (rd snap b.2.1) ∨
        (min (rd snap a.1) (rd snap a.2.1) = min (rd snap b.1) (rd snap b.2.1) ∧
          max (rd snap a.1) (rd snap a.2.1) < max (rd snap b.1) (rd snap b.2.1))))

/-- The unordered pair of components that an edge joins under the labels `snap`. -/
def msf_pair (snap : List Nat) (f : Nat × Nat × Nat) : Nat × Nat :=
  (min (rd snap f.1) (rd snap f.2.1), max (rd snap f.1) (rd snap f.2.1))

/-- The graph edge `f` leaves the component of its first end under the labels `snap`, and
no graph edge that leaves this component is below it. -/
def msf_cut_lightest (G : List (Nat × Nat × Nat)) (snap : List Nat)
    (f : Nat × Nat × Nat) : Prop :=
  f ∈ G ∧ rd snap f.1 ≠ rd snap f.2.1 ∧
  ∀ k ∈ G, rd snap k.1 = rd snap f.1 → rd snap k.2.1 ≠ rd snap f.1 → ¬ msf_below snap k f


/-- The edges `new` selected in a round that starts with the labels `snap`: each is a
graph edge that leaves the component of its first end and that no graph edge leaving this
component is below, and no two of them join the same pair of components. -/
def msf_round_edges (G : List (Nat × Nat × Nat)) (snap : List Nat)
    (new : List (Nat × Nat × Nat)) : Prop :=
  (∀ f ∈ new, msf_cut_lightest G snap f) ∧
  new.Pairwise (fun x y => msf_pair snap x ≠ msf_pair snap y)

/-- The history of the rounds: every selected edge with the labels at the start of its
round and the number of the round.  Every entry is a lightest edge across the cut of its
round, its labels have only been merged since, and the entries are in the order of the
rounds: an edge of an earlier round lies inside a component of a later round, and two
edges of one round join different pairs of components. -/
def msf_history (g : ll_404_graph) (st : msf_state)
    (A : List ((Nat × Nat × Nat) × List Nat × Nat)) (r : Nat) : Prop :=
  A.map (fun x => x.1) = st.edges ∧
  (∀ x ∈ A, x.2.2 < r ∧ msf_cut_lightest (weighted_edges g) x.2.1 x.1 ∧
    msf_coarser g.vertices_count x.2.1 st.component) ∧
  A.Pairwise (fun x y => x.2.2 ≤ y.2.2 ∧
    (x.2.2 < y.2.2 → rd y.2.1 x.1.1 = rd y.2.1 x.1.2.1) ∧
    (x.2.2 = y.2.2 → x.2.1 = y.2.1 ∧ msf_pair x.2.1 x.1 ≠ msf_pair y.2.1 y.1))

/-- The order in which the selected edges are compared: by weight, then by round, then by
the pair of components joined. -/
def msf_rank_le (x y : (Nat × Nat × Nat) × List Nat × Nat) : Prop :=
  x.1.2.2 < y.1.2.2 ∨
    (x.1.2.2 = y.1.2.2 ∧
      (x.2.2 < y.2.2 ∨
        (x.2.2 = y.2.2 ∧
          ((msf_pair x.2.1 x.1).1 < (msf_pair y.2.1 y.1).1 ∨
            ((msf_pair x.2.1 x.1).1 = (msf_pair y.2.1 y.1).1 ∧
              (msf_pair x.2.1 x.1).2 ≤ (msf_pair y.2.1 y.1).2)))))

instance : DecidableRel msf_rank_le := by
  intro x y; unfold msf_rank_le; infer_instance

instance : IsTotal ((Nat × Nat × Nat) × List Nat × Nat) msf_rank_le :=
  ⟨fun x y => by unfold msf_rank_le; omega⟩

instance : IsTrans ((Nat × Nat × Nat) × List Nat × Nat) msf_rank_le :=
  ⟨fun x y z => by unfold msf_rank_le; omega⟩

/-- A weighting of `sample_sym`, the cycle 0 - 2 - 1 - 3 - 0 with the weights 5, 3, 7, 7. -/
def sample_sym_weighted : ll_404_graph :=
  { vertices_count := 4, edges_count := 8, offsets_list := [0, 2, 4, 6, 8],
    edges_list := [2, 5, 3, 7, 2, 3, 3, 7, 0, 5, 1, 3, 0, 7, 1, 7] }

/-- The invariant of the serial Prim oracle: the selected edges form a forest of graph
edges between reached vertices with the accumulated weight, and two reached vertices that
the graph joins by edges of weight at most `t` are joined by selected edges of weight at
most `t`. -/
def prim_invariant (g : ll_404_graph) (st : prim_state) : Prop :=
  st.visited.length = g.vertices_count ∧
  msf_forest st.edges ∧
  (∀ f ∈ st.edges, f ∈ weighted_edges g) ∧
  st.total_weight = msf_weight st.edges ∧
  (∀ f ∈ st.edges, st.visited.getD f.1 false = true ∧ st.visited.getD f.2.1 false = true) ∧
  (∀ a b t, st.visited.getD a false = true → st.visited.getD b false = true →
    msf_connected (msf_light (weighted_edges g) t) a b →
    msf_connected (msf_light st.edges t) a b)

/-- The vertices that the oracle has not reached. -/
def prim_unvisited (n : Nat) (visited : List Bool) : List Nat :=
  (List.range n).filter (fun x => !(visited.getD x false))

/-- Scenario 1 of the spec: four vertices, no edge. -/
def scenario_empty : ll_404_graph :=
  { vertices_count := 4, edges_count := 0, offsets_list := [0, 0, 0, 0, 0], edges_list := [] }

/-- Scenario 2 of the spec: the single edge 0 - 1 of weight 7. -/
def scenario_single_edge : ll_404_graph :=
  { vertices_count := 2, edges_count := 2, offsets_list := [0, 1, 2],
    edges_list := [1, 7, 0, 7] }

/-- Scenario 3 of the spec: the triangle with the weights 2 (0 - 1), 5 (1 - 2), 3 (0 - 2). -/
def scenario_triangle : ll_404_graph :=
  { vertices_count := 3, edges_count := 6, offsets_list := [0, 2, 4, 6],
    edges_list := [1, 2, 2, 3, 0, 2, 2, 5, 0, 3, 1, 5] }

/-- Scenario 4 of the spec: the square 0 - 1 - 2 - 3 - 0 with the weights 1, 2, 3, 4 and
the diagonal 0 - 2 of weight 10. -/
def scenario_square : ll_404_graph :=
  { vertices_count := 4, edges_count := 10, offsets_list := [0, 3, 5, 8, 10],
    edges_list := [1, 1, 2, 10, 3, 4, 0, 1, 2, 2, 0, 10, 1, 2, 3, 3, 0, 4, 2, 3] }

/-- Scenario 5 of the spec: two triangles, with the weights 1, 2, 3 and 4, 5, 6. -/
def scenario_two_triangles : ll_404_graph :=
  { vertices_count := 6, edges_count := 12, offsets_list := [0, 2, 4, 6, 8, 10, 12],
    edges_list := [1, 1, 2, 3, 0, 1, 2, 2, 0, 3, 1, 2, 4, 4, 5, 6, 3, 4, 5, 5, 3, 6, 4, 5] }

/-- Scenario 6 of the spec: four vertices, all six edges of weight 1. -/
def scenario_ties : ll_404_graph :=
  { vertices_count := 4, edges_count := 12, offsets_list := [0, 3, 6, 9, 12],
    edges_list := [1, 1, 2, 1, 3, 1, 0, 1, 2, 1, 3, 1, 0, 1, 1, 1, 3, 1, 0, 1, 1, 1, 2, 1] }

/-! ## Arrays -/

theorem rd_set (l : List Nat) (i j a : Nat) :
    rd (l.set i a) j = if i = j ∧ i < l.length then a else rd l j := by
  unfold rd
  simp only [List.getD_eq_getElem?_getD, List.getElem?_set]
  by_cases h : i = j
  · subst h
    by_cases h2 : i < l.length
    · simp [h2]
    · have h3 : l.length ≤ i := by omega
      simp [h2, List.getElem?_eq_none h3]
  · simp [h]

theorem rd_set_eq (l : List Nat) (i a : Nat) (h : i < l.length) : rd (l.set i a) i = a := by
  simp [rd_set, h]

theorem rd_set_ne (l : List Nat) (i j a : Nat) (h : i ≠ j) : rd (l.set i a) j = rd l j := by
  simp [rd_set, h]

theorem rd_replicate (n i : Nat) : rd (List.replicate n 0) i = 0 := by
  unfold rd
  by_cases h : i < n
  · simp [List.getD_eq_getElem?_getD, List.getElem?_replicate, h]
  · simp [List.getD_eq_getElem?_getD, List.getElem?_replicate, h]

theorem rd_of_le (l : List Nat) (i : Nat) (h : l.length ≤ i) : rd l i = 0 := by
  unfold rd
  simp [List.getD_eq_getElem?_getD, List.getElem?_eq_none h]

theorem rd_eq_getElem (l : List Nat) (i : Nat) (h : i < l.length) : rd l i = l[i] := by
  unfold rd
  simp [List.getD_eq_getElem?_getD, List.getElem?_eq_getElem h]

theorem rd_append_left (l r : List Nat) (i : Nat) (h : i < l.length) :
    rd (l ++ r) i = rd l i := by
  unfold rd
  simp [List.getD_eq_getElem?_getD, List.getElem?_append_left h]

theorem rd_append_right (l r : List Nat) (i : Nat) (h : l.length ≤ i) :
    rd (l ++ r) i = rd r (i - l.length) := by
  unfold rd
  simp [List.getD_eq_getElem?_getD, List.getElem?_append_right h]

theorem rd_take (l : List Nat) (k i : Nat) (h : i < k) : rd (l.take k) i = rd l i := by
  unfold rd
  simp [List.getD_eq_getElem?_getD, List.getElem?_take, h]

theorem rd_drop (l : List Nat) (k i : Nat) : rd (l.drop k) i = rd l (k + i) := by
  unfold rd
  simp [List.getD_eq_getElem?_getD, List.getElem?_drop]

/-- Two lists of the same length with the same reads are equal. -/
theorem ext_rd (l r : List Nat) (hlen : l.length = r.length)
    (h : ∀ i, i < l.length → rd l i = rd r i) : l = r := by
  apply List.ext_getElem hlen
  intro i h1 h2
  have := h i h1
  rwa [rd_eq_getElem l i h1, rd_eq_getElem r i h2] at this

theorem map_rd_range' (l : List Nat) (a k : Nat) (h : a + k ≤ l.length) :
    (List.range' a k).map (rd l) = (l.drop a).take k := by
  apply List.ext_getElem
  · simp; omega
  · intro i h1 h2
    simp at h1
    simp [rd_eq_getElem l (a + i) (by omega)]

/-! ## Loop nests -/

theorem foldlM_flatMap {α β σ : Type} (f : σ → β → Except String σ) (g : α → List β)
    (l : List α) (s : σ) :
    (l.flatMap g).foldlM f s = l.foldlM (fun s a => (g a).foldlM f s) s := by
  induction l generalizing s with
  | nil => simp
  | cons a t ih =>
    simp only [List.flatMap_cons, List.foldlM_append, List.foldlM_cons]
    congr 1
    funext s1
    exact ih s1

/-- Consecutive ranges with non-decreasing boundaries starting at `0` tile an initial
segment of the natural numbers. -/
theorem flatMap_boundaries (b : Nat → Nat) (k : Nat) (h0 : b 0 = 0)
    (hmono : ∀ p, p < k → b p ≤ b (p + 1)) :
    (List.range k).flatMap (fun p => List.range' (b p) (b (p + 1) - b p)) = List.range (b k) := by
  induction k with
  | zero => simp [h0]
  | succ k ih =>
    rw [List.range_succ, List.flatMap_append, ih (fun p hp => hmono p (by omega))]
    simp only [List.flatMap_cons, List.flatMap_nil, List.append_nil]
    have h := hmono k (by omega)
    rw [List.range_eq_range', List.range_eq_range']
    have := List.range'_append 0 (b k) (b (k + 1) - b k) 1
    simp only [Nat.zero_add, Nat.one_mul] at this
    rw [this]
    congr 1
    omega

theorem boundaries_mono (b : Nat → Nat) (k : Nat) (hmono : ∀ p, p < k → b p ≤ b (p + 1))
    (i j : Nat) (hij : i ≤ j) (hj : j ≤ k) : b i ≤ b j := by
  induction j with
  | zero =>
    have : i = 0 := by omega
    subst this
    exact Nat.le_refl _
  | succ j ih =>
    by_cases h : i = j + 1
    · subst h
      exact Nat.le_refl _
    · exact Nat.le_trans (ih (by omega) (by omega)) (hmono j (by omega))

theorem for_partition_vertices_eq {σ : Type} (partitions : List Nat) (partitions_count n : Nat)
    (hcover : partitions_cover partitions partitions_count n)
    (body : σ → Nat → Except String σ) (s : σ) :
    for_partition_vertices partitions partitions_count body s = (List.range n).foldlM body s := by
  obtain ⟨_, h0, hn, hmono⟩ := hcover
  unfold for_partition_vertices
  rw [← foldlM_flatMap]
  unfold partition_vertices
  rw [flatMap_boundaries (fun p => rd partitions p) partitions_count h0 hmono, hn]

/-! ## Step 1 of `csr2sym` -/

theorem check_edge_fold (csr : ll_400_graph) (flags v : Nat) (L : List Nat) (d0 : Int) :
    ((∃ e, e ∈ L ∧ e + 1 < rd csr.offsets_list (v + 1) ∧
        rd csr.edges_list e ≥ rd csr.edges_list (e + 1)) ∧
      L.foldlM (csr2sym_check_edge csr flags v) d0 =
        Except.error "The CSR graph does not have sorted neighbour-lists") ∨
    ((¬ ∃ e, e ∈ L ∧ e + 1 < rd csr.offsets_list (v + 1) ∧
        rd csr.edges_list e ≥ rd csr.edges_list (e + 1)) ∧
      L.foldlM (csr2sym_check_edge csr flags v) d0 =
        Except.ok (d0 - ((L.map (rd csr.edges_list)).filter
          (fun d => decide (flags &&& 4 ≠ 0 ∧ d = v))).length)) := by
  induction L generalizing d0 with
  | nil => right; simp [pure, Except.pure]
  | cons e t ih =>
    by_cases hv : e + 1 < rd csr.offsets_list (v + 1) ∧
        rd csr.edges_list e ≥ rd csr.edges_list (e + 1)
    · left
      refine ⟨⟨e, by simp, hv.1, hv.2⟩, ?_⟩
      have hlt : e < rd csr.offsets_list (v + 1) - 1 := by omega
      simp [List.foldlM_cons, csr2sym_check_edge, hlt, hv.2, bind, Except.bind]
    · have hstep : ∀ d : Int, csr2sym_check_edge csr flags v d e = Except.ok
          (if flags &&& 4 ≠ 0 ∧ rd csr.edges_list e = v then d - 1 else d) := by
        intro d
        unfold csr2sym_check_edge
        have : ¬ (e < rd csr.offsets_list (v + 1) - 1 ∧
            rd csr.edges_list e ≥ rd csr.edges_list (e + 1)) := by
          intro h; exact hv ⟨by omega, h.2⟩
        simp only [this, if_false]
      rw [List.foldlM_cons, hstep]
      simp only [bind, Except.bind]
      rcases ih (if flags &&& 4 ≠ 0 ∧ rd csr.edges_list e = v then d0 - 1 else d0) with h | h
      · left
        obtain ⟨⟨e', he', h1, h2⟩, h3⟩ := h
        exact ⟨⟨e', by simp [he'], h1, h2⟩, h3⟩
      · right
        obtain ⟨h1, h2⟩ := h
        refine ⟨?_, ?_⟩
        · rintro ⟨e', he', h3, h4⟩
          simp only [List.mem_cons] at he'
          rcases he' with rfl | he'
          · exact hv ⟨h3, h4⟩
          · exact h1 ⟨e', he', h3, h4⟩
        · rw [h2]
          by_cases hs : flags &&& 4 ≠ 0 ∧ rd csr.edges_list e = v
          · simp only [hs, and_self, if_true, List.map_cons, ne_eq, not_false_eq_true,
              decide_True, List.filter_cons_of_pos, List.length_cons]
            congr 1
            push_cast
            ring
          · simp only [hs, if_false, List.map_cons]
            rw [List.filter_cons_of_neg (by simpa using hs)]

theorem length_filter_add (l : List Nat) (p : Nat → Prop) [DecidablePred p] :
    (l.filter (fun d => decide (p d))).length + (l.filter (fun d => decide (¬ p d))).length
      = l.length := by
  induction l with
  | nil => simp
  | cons a t ih =>
    by_cases h : p a
    · rw [List.filter_cons_of_pos (by simpa using h), List.filter_cons_of_neg (by simpa using h)]
      simp only [List.length_cons]
      omega
    · rw [List.filter_cons_of_neg (by simpa using h), List.filter_cons_of_pos (by simpa using h)]
      simp only [List.length_cons]
      omega

theorem length_edge_slots (offs : List Nat) (v : Nat) :
    (edge_slots offs v).length = rd offs (v + 1) - rd offs v := by
  simp [edge_slots]

theorem mem_edge_slots (offs : List Nat) (v e : Nat) :
    e ∈ edge_slots offs v ↔ rd offs v ≤ e ∧ e < rd offs (v + 1) := by
  simp only [edge_slots, List.mem_range'_1]
  omega

theorem length_neighbour_list (g : ll_400_graph) (v : Nat) :
    (neighbour_list g v).length = rd g.offsets_list (v + 1) - rd g.offsets_list v := by
  simp [neighbour_list, length_edge_slots]

/-- What one iteration of step 1 does for a vertex whose offsets are in order. -/
theorem check_vertex_spec (csr : ll_400_graph) (flags : Nat) (offs : List Nat) (v : Nat)
    (hle : rd csr.offsets_list v ≤ rd csr.offsets_list (v + 1)) :
    (unsorted_at csr v ∧ csr2sym_check_vertex csr flags offs v =
        Except.error "The CSR graph does not have sorted neighbour-lists") ∨
    (¬ unsorted_at csr v ∧ csr2sym_check_vertex csr flags offs v =
        Except.ok (offs.set v (kept_neighbours csr flags v).length)) := by
  unfold csr2sym_check_vertex unsorted_at
  rcases check_edge_fold csr flags v (edge_slots csr.offsets_list v)
      ((rd csr.offsets_list (v + 1) : Int) - (rd csr.offsets_list v : Int)) with h | h
  · left
    refine ⟨h.1, ?_⟩
    rw [h.2]
  · right
    refine ⟨h.1, ?_⟩
    rw [h.2]
    have hsum := length_filter_add (neighbour_list csr v) (fun d => flags &&& 4 ≠ 0 ∧ d = v)
    rw [length_neighbour_list] at hsum
    have hk : (kept_neighbours csr flags v).length =
        ((neighbour_list csr v).filter (fun d => decide (¬ (flags &&& 4 ≠ 0 ∧ d = v)))).length := rfl
    have hn : (edge_slots csr.offsets_list v).map (rd csr.edges_list) = neighbour_list csr v := rfl
    rw [hn]
    have hd : ((rd csr.offsets_list (v + 1) : Int) - (rd csr.offsets_list v : Int)) -
        (((neighbour_list csr v).filter (fun d => decide (flags &&& 4 ≠ 0 ∧ d = v))).length : Int)
        = ((kept_neighbours csr flags v).length : Int) := by
      rw [hk]; omega
    rw [hd]
    simp



theorem step1_range (csr : ll_400_graph) (flags : Nat) (offs0 : List Nat) (b : Nat)
    (hmono : ∀ v, v < b → rd csr.offsets_list v ≤ rd csr.offsets_list (v + 1)) :
    ((∃ v, v < b ∧ unsorted_at csr v) ∧
      (List.range b).foldlM (csr2sym_check_vertex csr flags) offs0 =
        Except.error "The CSR graph does not have sorted neighbour-lists") ∨
    ((¬ ∃ v, v < b ∧ unsorted_at csr v) ∧
      ∃ offs, (List.range b).foldlM (csr2sym_check_vertex csr flags) offs0 = Except.ok offs ∧
        offs.length = offs0.length ∧
        (∀ v, v < b → v < offs0.length → rd offs v = (kept_neighbours csr flags v).length) ∧
        (∀ v, b ≤ v → rd offs v = rd offs0 v)) := by
  induction b with
  | zero =>
    right
    refine ⟨by simp, offs0, by simp [pure, Except.pure], rfl, ?_, ?_⟩
    · intro v hv; omega
    · intro v _; rfl
  | succ b ih =>
    rw [List.range_succ, List.foldlM_append]
    rcases ih (fun v hv => hmono v (by omega)) with h | h
    · left
      obtain ⟨⟨v, hv, hu⟩, hres⟩ := h
      refine ⟨⟨v, by omega, hu⟩, ?_⟩
      rw [hres]
      rfl
    · obtain ⟨hno, offs, hres, hlen, hlow, hhigh⟩ := h
      rw [hres]
      simp only [bind, Except.bind, List.foldlM_cons, List.foldlM_nil]
      rcases check_vertex_spec csr flags offs b (hmono b (by omega)) with h | h
      · left
        refine ⟨⟨b, by omega, h.1⟩, ?_⟩
        rw [h.2]
      · right
        refine ⟨?_, offs.set b (kept_neighbours csr flags b).length, ?_, ?_, ?_, ?_⟩
        · rintro ⟨v, hv, hu⟩
          by_cases hvb : v = b
          · subst hvb; exact h.1 hu
          · exact hno ⟨v, by omega, hu⟩
        · rw [h.2]; rfl
        · simp [hlen]
        · intro v hv hvl
          by_cases hvb : b = v
          · subst hvb
            rw [rd_set_eq _ _ _ (by omega)]
          · rw [rd_set_ne _ _ _ _ hvb]
            exact hlow v (by omega) hvl
        · intro v hv
          rw [rd_set_ne _ _ _ _ (by omega)]
          exact hhigh v (by omega)

/-! ## Sorted neighbour-lists and the binary search -/

theorem getElem_neighbour_list (g : ll_400_graph) (v i : Nat)
    (hi : i < (neighbour_list g v).length) :
    (neighbour_list g v)[i] = rd g.edges_list (rd g.offsets_list v + i) := by
  simp [neighbour_list, edge_slots]

theorem mem_neighbour_list (g : ll_400_graph) (v x : Nat) :
    x ∈ neighbour_list g v ↔
      ∃ e, rd g.offsets_list v ≤ e ∧ e < rd g.offsets_list (v + 1) ∧ rd g.edges_list e = x := by
  simp only [neighbour_list, List.mem_map, mem_edge_slots]
  constructor
  · rintro ⟨e, ⟨h1, h2⟩, h3⟩; exact ⟨e, h1, h2, h3⟩
  · rintro ⟨e, h1, h2, h3⟩; exact ⟨e, ⟨h1, h2⟩, h3⟩

theorem sorted_pointwise (g : ll_400_graph) (v : Nat)
    (h : (neighbour_list g v).Pairwise (fun a b => a < b)) (i j : Nat)
    (hi : rd g.offsets_list v ≤ i) (hij : i < j) (hj : j < rd g.offsets_list (v + 1)) :
    rd g.edges_list i < rd g.edges_list j := by
  rw [List.pairwise_iff_getElem] at h
  have hlen := length_neighbour_list g v
  have := h (i - rd g.offsets_list v) (j - rd g.offsets_list v) (by omega) (by omega) (by omega)
  rw [getElem_neighbour_list, getElem_neighbour_list] at this
  have e1 : rd g.offsets_list v + (i - rd g.offsets_list v) = i := by omega
  have e2 : rd g.offsets_list v + (j - rd g.offsets_list v) = j := by omega
  rwa [e1, e2] at this

theorem not_unsorted_of_sorted (g : ll_400_graph) (v : Nat)
    (h : (neighbour_list g v).Pairwise (fun a b => a < b)) : ¬ unsorted_at g v := by
  rintro ⟨e, he, h1, h2⟩
  rw [mem_edge_slots] at he
  have := sorted_pointwise g v h e (e + 1) he.1 (by omega) h1
  omega

theorem uint_binary_search_loop_spec (input : List Nat) (val : Nat) (fuel lo hi : Nat)
    (hf : hi - lo ≤ fuel)
    (hs : ∀ i j, lo ≤ i → i < j → j < hi → rd input i < rd input j) :
    (∃ i, uint_binary_search_loop input val fuel lo hi = some i ∧ lo ≤ i ∧ i < hi ∧
        rd input i = val) ∨
    (uint_binary_search_loop input val fuel lo hi = none ∧
        ∀ i, lo ≤ i → i < hi → rd input i ≠ val) := by
  induction fuel generalizing lo hi with
  | zero =>
    right
    refine ⟨rfl, ?_⟩
    intro i h1 h2; omega
  | succ fuel ih =>
    unfold uint_binary_search_loop
    by_cases hlt : lo < hi
    · simp only [hlt, if_true]
      have hm1 : lo ≤ (lo + hi) / 2 := by omega
      have hm2 : (lo + hi) / 2 < hi := by omega
      by_cases heq : rd input ((lo + hi) / 2) = val
      · left
        exact ⟨(lo + hi) / 2, by simp [heq], hm1, hm2, heq⟩
      · simp only [heq, if_false]
        by_cases hless : rd input ((lo + hi) / 2) < val
        · simp only [hless, if_true]
          rcases ih ((lo + hi) / 2 + 1) hi (by omega)
              (fun i j h1 h2 h3 => hs i j (by omega) h2 h3) with h | h
          · left
            obtain ⟨i, h1, h2, h3, h4⟩ := h
            exact ⟨i, h1, by omega, h3, h4⟩
          · right
            refine ⟨h.1, ?_⟩
            intro i h1 h2
            by_cases hc : (lo + hi) / 2 + 1 ≤ i
            · exact h.2 i hc h2
            · by_cases hc2 : i = (lo + hi) / 2
              · subst hc2; exact heq
              · have := hs i ((lo + hi) / 2) h1 (by omega) hm2
                omega
        · simp only [hless, if_false]
          rcases ih lo ((lo + hi) / 2) (by omega)
              (fun i j h1 h2 h3 => hs i j h1 h2 (by omega)) with h | h
          · left
            obtain ⟨i, h1, h2, h3, h4⟩ := h
            exact ⟨i, h1, h2, by omega, h4⟩
          · right
            refine ⟨h.1, ?_⟩
            intro i h1 h2
            by_cases hc : i < (lo + hi) / 2
            · exact h.2 i h1 hc
            · by_cases hc2 : i = (lo + hi) / 2
              · subst hc2; exact heq
              · have := hs ((lo + hi) / 2) i hm1 (by omega) h2
                omega
    · right
      simp only [hlt, if_false, true_and]
      intro i h1 h2; omega

/-- On a strictly increasing neighbour-list the binary search finds exactly the members. -/
theorem uint_binary_search_isSome (g : ll_400_graph) (d x : Nat)
    (h : (neighbour_list g d).Pairwise (fun a b => a < b)) :
    (uint_binary_search g.edges_list (rd g.offsets_list d) (rd g.offsets_list (d + 1)) x).isSome
      = true ↔ x ∈ neighbour_list g d := by
  unfold uint_binary_search
  rw [mem_neighbour_list]
  rcases uint_binary_search_loop_spec g.edges_list x
      (rd g.offsets_list (d + 1) - rd g.offsets_list d) (rd g.offsets_list d)
      (rd g.offsets_list (d + 1)) (Nat.le_refl _)
      (fun i j h1 h2 h3 => sorted_pointwise g d h i j h1 h2 h3) with hr | hr
  · obtain ⟨i, h1, h2, h3, h4⟩ := hr
    rw [h1]
    simp only [Option.isSome_some, true_iff]
    exact ⟨i, h2, h3, h4⟩
  · rw [hr.1]
    simp only [Option.isSome_none, Bool.false_eq_true, false_iff]
    rintro ⟨e, h1, h2, h3⟩
    exact hr.2 e h1 h2 h3

/-! ## Loops with an invariant -/

/-- A loop that keeps an invariant of the processed prefix runs to its end. -/
theorem foldlM_invariant {α σ : Type} (f : σ → α → Except String σ) (l : List α)
    (I : List α → σ → Prop) (s0 : σ) (h0 : I [] s0)
    (hstep : ∀ pre x rest s, l = pre ++ x :: rest → I pre s →
      ∃ s', f s x = Except.ok s' ∧ I (pre ++ [x]) s') :
    ∃ s', l.foldlM f s0 = Except.ok s' ∧ I l s' := by
  have key : ∀ rest pre s, l = pre ++ rest → I pre s →
      ∃ s', rest.foldlM f s = Except.ok s' ∧ I l s' := by
    intro rest
    induction rest with
    | nil =>
      intro pre s hl hI
      refine ⟨s, rfl, ?_⟩
      rw [hl, List.append_nil]
      exact hI
    | cons x t ih =>
      intro pre s hl hI
      obtain ⟨s1, hs1, hI1⟩ := hstep pre x t s hl hI
      obtain ⟨s2, hs2, hI2⟩ := ih (pre ++ [x]) s1 (by simp [hl]) hI1
      refine ⟨s2, ?_, hI2⟩
      rw [List.foldlM_cons, hs1]
      exact hs2
  exact key l [] s0 rfl h0

theorem foldlM_all_slots {σ : Type} (g : ll_400_graph) (f : Nat → σ → Nat → Except String σ)
    (s : σ) :
    (List.range g.vertices_count).foldlM
        (fun s v => (edge_slots g.offsets_list v).foldlM (f v) s) s =
      (all_slots g).foldlM (fun s x => f x.1 s x.2) s := by
  unfold all_slots
  rw [foldlM_flatMap]
  congr 1
  funext s v
  rw [List.foldlM_map]

/-! ## The slots of a well-formed graph -/

theorem mem_all_slots (g : ll_400_graph) (v e : Nat) :
    (v, e) ∈ all_slots g ↔
      v < g.vertices_count ∧ rd g.offsets_list v ≤ e ∧ e < rd g.offsets_list (v + 1) := by
  unfold all_slots
  simp only [List.mem_flatMap, List.mem_range, List.mem_map, mem_edge_slots, Prod.mk.injEq]
  constructor
  · rintro ⟨v', hv', e', ⟨h1, h2⟩, rfl, rfl⟩
    exact ⟨hv', h1, h2⟩
  · rintro ⟨hv, h1, h2⟩
    exact ⟨v, hv, e, ⟨h1, h2⟩, rfl, rfl⟩

theorem map_snd_all_slots (g : ll_400_graph) (hwf : well_formed g) :
    (all_slots g).map Prod.snd = List.range g.edges_count := by
  obtain ⟨_, _, h0, hmono, hn, _, _⟩ := hwf
  unfold all_slots
  rw [List.map_flatMap]
  have : (fun v => List.map Prod.snd ((edge_slots g.offsets_list v).map (fun e => (v, e)))) =
      (fun v => List.range' (rd g.offsets_list v)
        (rd g.offsets_list (v + 1) - rd g.offsets_list v)) := by
    funext v
    simp [edge_slots]
  rw [this, flatMap_boundaries (fun v => rd g.offsets_list v) g.vertices_count h0 hmono, hn]

theorem offsets_mono (g : ll_400_graph) (hwf : well_formed g) (i j : Nat) (hij : i ≤ j)
    (hj : j ≤ g.vertices_count) : rd g.offsets_list i ≤ rd g.offsets_list j :=
  boundaries_mono (fun v => rd g.offsets_list v) g.vertices_count hwf.2.2.2.1 i j hij hj

theorem slot_lt_edges_count (g : ll_400_graph) (hwf : well_formed g) (v e : Nat)
    (h : (v, e) ∈ all_slots g) : e < g.edges_count := by
  rw [mem_all_slots] at h
  have := offsets_mono g hwf (v + 1) g.vertices_count (by omega) (Nat.le_refl _)
  have hn := hwf.2.2.2.2.1
  omega

theorem slot_dest_lt (g : ll_400_graph) (hwf : well_formed g) (v e : Nat)
    (h : (v, e) ∈ all_slots g) : rd g.edges_list e < g.vertices_count :=
  hwf.2.2.2.2.2.1 e (slot_lt_edges_count g hwf v e h)

theorem mem_neighbour_list_lt (g : ll_400_graph) (hwf : well_formed g) (v x : Nat)
    (hv : v < g.vertices_count) (h : x ∈ neighbour_list g v) : x < g.vertices_count := by
  rw [mem_neighbour_list] at h
  obtain ⟨e, h1, h2, rfl⟩ := h
  exact slot_dest_lt g hwf v e ((mem_all_slots g v e).2 ⟨hv, h1, h2⟩)

theorem neighbour_list_of_ge (g : ll_400_graph) (hwf : well_formed g) (v : Nat)
    (hv : g.vertices_count ≤ v) : neighbour_list g v = [] := by
  have h1 : rd g.offsets_list (v + 1) = 0 := rd_of_le _ _ (by have := hwf.1; omega)
  simp [neighbour_list, edge_slots, h1]

theorem slot_unique (g : ll_400_graph) (hwf : well_formed g) (pre rest : List (Nat × Nat))
    (x : Nat × Nat) (h : all_slots g = pre ++ x :: rest) (v : Nat) : (v, x.2) ∉ pre := by
  have hnd : ((all_slots g).map Prod.snd).Nodup := by
    rw [map_snd_all_slots g hwf]; exact List.nodup_range _
  rw [h, List.map_append, List.map_cons] at hnd
  have := (List.nodup_append.1 hnd).2.2
  intro hmem
  exact this (List.mem_map_of_mem Prod.snd hmem) (by simp) 

theorem slot_source_unique (g : ll_400_graph) (hwf : well_formed g) (v v' e : Nat)
    (h : (v, e) ∈ all_slots g) (h' : (v', e) ∈ all_slots g) : v = v' := by
  rw [mem_all_slots] at h h'
  by_contra hne
  rcases Nat.lt_or_gt_of_ne hne with hlt | hlt
  · have := offsets_mono g hwf (v + 1) v' (by omega) (by omega)
    omega
  · have := offsets_mono g hwf (v' + 1) v (by omega) (by omega)
    omega

/-! ## The bit array -/

theorem and_shift_ne_zero (x k : Nat) : x &&& (1 <<< k) ≠ 0 ↔ x.testBit k = true := by
  rw [Nat.one_shiftLeft, Nat.and_two_pow]
  cases h : x.testBit k
  · simp
  · simp

theorem edge_bit_set (bits : List Nat) (e e' : Nat) (he : e / 8 < bits.length) :
    edge_bit (bits.set (e / 8) (rd bits (e / 8) ||| (1 <<< (e % 8)))) e' ↔
      e' = e ∨ edge_bit bits e' := by
  unfold edge_bit
  rw [and_shift_ne_zero, and_shift_ne_zero]
  by_cases h8 : e / 8 = e' / 8
  · rw [← h8, rd_set_eq _ _ _ he, Nat.testBit_or, Nat.one_shiftLeft, Nat.testBit_two_pow]
    simp only [Bool.or_eq_true, decide_eq_true_eq]
    constructor
    · rintro (h | h)
      · right; exact h
      · left; omega
    · rintro (h | h)
      · right; omega
      · left; exact h
  · rw [rd_set_ne _ _ _ _ h8]
    constructor
    · intro h; right; exact h
    · rintro (h | h)
      · subst h; exact absurd rfl h8
      · exact h

theorem edge_bit_replicate (k e : Nat) : ¬ edge_bit (List.replicate k 0) e := by
  unfold edge_bit
  rw [rd_replicate]
  simp

/-! ## Step 2 of `csr2sym` -/

theorem length_filter_snoc {α β : Type} (p : α → Bool) (f : α → β) (pre : List α) (x : α) :
    (((pre ++ [x]).filter p).map f).length =
      ((pre.filter p).map f).length + (if p x = true then 1 else 0) := by
  rw [List.filter_append, List.map_append, List.length_append]
  by_cases h : p x = true
  · rw [List.filter_cons_of_pos h]; simp [h]
  · rw [List.filter_cons_of_neg h]; simp [h]

theorem degree_edge_spec (csr : ll_400_graph) (hwf : well_formed csr)
    (hsorted : sorted_neighbour_lists csr) (v e : Nat) (hslot : (v, e) ∈ all_slots csr)
    (st : List Nat × List Nat) (hbit : ¬ edge_bit st.2 e) :
    csr2sym_degree_edge csr v st e = Except.ok
      (if rd csr.edges_list e = v then st
       else if v ∈ neighbour_list csr (rd csr.edges_list e) then
         (st.1, st.2.set (e / 8) (rd st.2 (e / 8) ||| (1 <<< (e % 8))))
       else (st.1.set (rd csr.edges_list e) (rd st.1 (rd csr.edges_list e) + 1), st.2)) := by
  unfold csr2sym_degree_edge
  by_cases h1 : rd csr.edges_list e = v
  · simp only [h1, if_true]
  · simp only [h1, if_false]
    have hd := slot_dest_lt csr hwf v e hslot
    have hbs := uint_binary_search_isSome csr (rd csr.edges_list e) v (hsorted _ hd)
    by_cases h2 : v ∈ neighbour_list csr (rd csr.edges_list e)
    · have hb : ¬ (rd st.2 (e / 8) &&& (1 <<< (e % 8)) ≠ 0) := hbit
      simp only [hbs.2 h2, h2, if_true, hb, if_false]
    · have : ¬ ((uint_binary_search csr.edges_list (rd csr.offsets_list (rd csr.edges_list e))
          (rd csr.offsets_list (rd csr.edges_list e + 1)) v).isSome = true) :=
        fun h => h2 (hbs.1 h)
      rw [if_neg this, if_neg h2]

theorem step2_slots (csr : ll_400_graph) (hwf : well_formed csr)
    (hsorted : sorted_neighbour_lists csr) (offs1 : List Nat)
    (hlen : offs1.length = csr.vertices_count + 1) :
    ∃ st, (all_slots csr).foldlM (fun s x => csr2sym_degree_edge csr x.1 s x.2)
        (offs1, List.replicate (1 + csr.edges_count / 8) 0) = Except.ok st ∧
      st.1.length = csr.vertices_count + 1 ∧
      (∀ d, rd st.1 d = rd offs1 d + (reverse_sources csr d).length) ∧
      (∀ e, edge_bit st.2 e ↔ ∃ v, (v, e) ∈ all_slots csr ∧ rd csr.edges_list e ≠ v ∧
        v ∈ neighbour_list csr (rd csr.edges_list e)) := by
  have h := foldlM_invariant (fun s x => csr2sym_degree_edge csr x.1 s x.2) (all_slots csr)
    (fun pre st =>
      st.1.length = csr.vertices_count + 1 ∧
      st.2.length = 1 + csr.edges_count / 8 ∧
      (∀ d, rd st.1 d = rd offs1 d + ((pre.filter (is_reverse_slot csr d)).map Prod.fst).length) ∧
      (∀ e, edge_bit st.2 e ↔ ∃ v, (v, e) ∈ pre ∧ rd csr.edges_list e ≠ v ∧
        v ∈ neighbour_list csr (rd csr.edges_list e)))
    (offs1, List.replicate (1 + csr.edges_count / 8) 0)
    ⟨hlen, by simp, by simp, fun e => by
      simp only [List.not_mem_nil, false_and, exists_false, iff_false]
      exact edge_bit_replicate _ e⟩
    (by
      rintro pre ⟨v, e⟩ rest st hl ⟨hl1, hl2, hdeg, hbits⟩
      have hslot : (v, e) ∈ all_slots csr := by rw [hl]; simp
      have hnotin : ∀ v', (v', e) ∉ pre := fun v' => slot_unique csr hwf pre rest (v, e) hl v'
      have hbit : ¬ edge_bit st.2 e := by
        rw [hbits]
        rintro ⟨v', hv', _⟩
        exact hnotin v' hv'
      have hec := slot_lt_edges_count csr hwf v e hslot
      have hd := slot_dest_lt csr hwf v e hslot
      refine ⟨_, degree_edge_spec csr hwf hsorted v e hslot st hbit, ?_⟩
      by_cases h1 : rd csr.edges_list e = v
      · simp only [h1, if_true]
        refine ⟨hl1, hl2, ?_, ?_⟩
        · intro d
          rw [hdeg d, length_filter_snoc]
          have : ¬ (rd csr.edges_list e = d ∧ v ≠ d ∧ v ∉ neighbour_list csr d) := by
            rintro ⟨h2, h3, _⟩; exact h3 (h1 ▸ h2)
          rw [if_neg (by simpa [is_reverse_slot] using this)]
          rfl
        · intro e'
          rw [hbits e']
          constructor
          · rintro ⟨v', h2, h3⟩; exact ⟨v', by simp [h2], h3⟩
          · rintro ⟨v', h2, h3, h4⟩
            simp only [List.mem_append, List.mem_singleton, Prod.mk.injEq] at h2
            rcases h2 with h2 | ⟨rfl, rfl⟩
            · exact ⟨v', h2, h3, h4⟩
            · exact absurd h1 h3
      · simp only [h1, if_false]
        by_cases h2 : v ∈ neighbour_list csr (rd csr.edges_list e)
        · simp only [h2, if_true]
          refine ⟨hl1, by simp [hl2], ?_, ?_⟩
          · intro d
            rw [hdeg d, length_filter_snoc]
            have : ¬ (rd csr.edges_list e = d ∧ v ≠ d ∧ v ∉ neighbour_list csr d) := by
              rintro ⟨h3, _, h5⟩; exact h5 (h3 ▸ h2)
            rw [if_neg (by simpa [is_reverse_slot] using this)]
            rfl
          · intro e'
            rw [edge_bit_set _ _ _ (by rw [hl2]; omega), hbits e']
            constructor
            · rintro (rfl | ⟨v', h3, h4⟩)
              · exact ⟨v, by simp, h1, h2⟩
              · exact ⟨v', by simp [h3], h4⟩
            · rintro ⟨v', h3, h4, h5⟩
              simp only [List.mem_append, List.mem_singleton, Prod.mk.injEq] at h3
              rcases h3 with h3 | ⟨rfl, rfl⟩
              · right; exact ⟨v', h3, h4, h5⟩
              · left; rfl
        · simp only [h2, if_false]
          refine ⟨by simp [hl1], hl2, ?_, ?_⟩
          · intro d
            rw [length_filter_snoc]
            by_cases h3 : rd csr.edges_list e = d
            · subst h3
              have hv : v ≠ rd csr.edges_list e := fun h => h1 h.symm
              have : (rd csr.edges_list e = rd csr.edges_list e ∧ v ≠ rd csr.edges_list e ∧
                  v ∉ neighbour_list csr (rd csr.edges_list e)) := ⟨rfl, hv, h2⟩
              rw [if_pos (by simpa [is_reverse_slot] using this), rd_set_eq _ _ _ (by omega), hdeg]
              omega
            · have : ¬ (rd csr.edges_list e = d ∧ v ≠ d ∧ v ∉ neighbour_list csr d) := by
                rintro ⟨h4, _, _⟩; exact h3 h4
              rw [if_neg (by simpa [is_reverse_slot] using this), rd_set_ne _ _ _ _ h3, hdeg]
              rfl
          · intro e'
            rw [hbits e']
            constructor
            · rintro ⟨v', h3, h4⟩; exact ⟨v', by simp [h3], h4⟩
            · rintro ⟨v', h3, h4, h5⟩
              simp only [List.mem_append, List.mem_singleton, Prod.mk.injEq] at h3
              rcases h3 with h3 | ⟨rfl, rfl⟩
              · exact ⟨v', h3, h4, h5⟩
              · exact absurd h5 h2)
  obtain ⟨st, hst, h1, _, h3, h4⟩ := h
  exact ⟨st, hst, h1, h3, h4⟩

/-! ## Step 3 of `csr2sym` -/

theorem prefix_sum_succ (a : List Nat) (b : Nat) :
    prefix_sum a (b + 1) = prefix_sum a b + rd a b := by
  simp [prefix_sum, List.range_succ]

theorem prefix_sum_mono (a : List Nat) (i j : Nat) (h : i ≤ j) :
    prefix_sum a i ≤ prefix_sum a j := by
  induction j with
  | zero =>
    have : i = 0 := by omega
    subst this; exact Nat.le_refl _
  | succ j ih =>
    by_cases hij : i = j + 1
    · subst hij; exact Nat.le_refl _
    · rw [prefix_sum_succ]
      have := ih (by omega)
      omega

theorem foldl_add_range' (a : List Nat) (s k acc : Nat) :
    (List.range' s k).foldl (fun sum v => sum + rd a v) acc + prefix_sum a s
      = acc + prefix_sum a (s + k) := by
  induction k generalizing s acc with
  | zero => simp
  | succ k ih =>
    rw [List.range'_succ, List.foldl_cons]
    have h1 := ih (s + 1) (acc + rd a s)
    have h2 := prefix_sum_succ a s
    have h3 : s + 1 + k = s + (k + 1) := by omega
    rw [h3] at h1
    omega

theorem partition_sum_spec (partitions degs : List Nat) (p : Nat)
    (h : rd partitions p ≤ rd partitions (p + 1)) :
    prefix_sum degs (rd partitions p) + csr2sym_partition_sum partitions degs p =
      prefix_sum degs (rd partitions (p + 1)) := by
  unfold csr2sym_partition_sum partition_vertices
  have := foldl_add_range' degs (rd partitions p) (rd partitions (p + 1) - rd partitions p) 0
  have e : rd partitions p + (rd partitions (p + 1) - rd partitions p) = rd partitions (p + 1) := by
    omega
  rw [e] at this
  omega

theorem partial_sum_range (partitions degs : List Nat) (count : Nat) (pte : List Nat)
    (hlen : pte.length = count)
    (hmono : ∀ p, p < count → rd partitions p ≤ rd partitions (p + 1))
    (h0 : rd partitions 0 = 0)
    (hpte : ∀ q, q < count → rd pte q = csr2sym_partition_sum partitions degs q)
    (j : Nat) (hj : j ≤ count) :
    ((List.range j).foldl (fun st p => (st.1.set p st.2, st.2 + rd st.1 p)) (pte, 0)).2 =
        prefix_sum degs (rd partitions j) ∧
    ((List.range j).foldl (fun st p => (st.1.set p st.2, st.2 + rd st.1 p)) (pte, 0)).1.length =
        count ∧
    (∀ q, q < j → rd ((List.range j).foldl
        (fun st p => (st.1.set p st.2, st.2 + rd st.1 p)) (pte, 0)).1 q =
        prefix_sum degs (rd partitions q)) ∧
    (∀ q, j ≤ q → rd ((List.range j).foldl
        (fun st p => (st.1.set p st.2, st.2 + rd st.1 p)) (pte, 0)).1 q = rd pte q) := by
  induction j with
  | zero =>
    refine ⟨by simp [h0, prefix_sum], by simpa using hlen, ?_, ?_⟩
    · intro q hq; omega
    · intro q _; rfl
  | succ j ih =>
    obtain ⟨i1, i2, i3, i4⟩ := ih (by omega)
    rw [List.range_succ, List.foldl_append]
    simp only [List.foldl_cons, List.foldl_nil]
    refine ⟨?_, ?_, ?_, ?_⟩
    · rw [i1, i4 j (Nat.le_refl _), hpte j (by omega)]
      exact partition_sum_spec partitions degs j (hmono j (by omega))
    · simp [i2]
    · intro q hq
      by_cases hqj : j = q
      · subst hqj
        rw [rd_set_eq _ _ _ (by omega), i1]
      · rw [rd_set_ne _ _ _ _ hqj]
        exact i3 q (by omega)
    · intro q hq
      rw [rd_set_ne _ _ _ _ (by omega)]
      exact i4 q (by omega)

theorem step3_spec (pe : par_env) (partitions degs : List Nat) (n : Nat)
    (hcover : partitions_cover partitions (pe.threads_count * 64) n) :
    (csr2sym_step3 pe partitions degs).2 = prefix_sum degs n ∧
    (∀ q, q < pe.threads_count * 64 →
      rd (csr2sym_step3 pe partitions degs).1 q = prefix_sum degs (rd partitions q)) := by
  obtain ⟨_, h0, hn, hmono⟩ := hcover
  have h := partial_sum_range partitions degs (pe.threads_count * 64)
    ((List.range (pe.threads_count * 64)).map (csr2sym_partition_sum partitions degs))
    (by simp) hmono h0
    (by
      intro q hq
      rw [rd_eq_getElem _ _ (by simpa using hq)]
      simp)
    (pe.threads_count * 64) (Nat.le_refl _)
  unfold csr2sym_step3 csr2sym_partial_sum
  refine ⟨?_, ?_⟩
  · rw [h.1, hn]
  · intro q hq
    exact h.2.2.1 q hq

/-! ## Step 4 of `csr2sym` -/

theorem rd_cons_succ (a : Nat) (l : List Nat) (i : Nat) : rd (a :: l) (i + 1) = rd l i := by
  simp [rd]

theorem rd_cons_zero (a : Nat) (l : List Nat) : rd (a :: l) 0 = a := by
  simp [rd]

theorem copy_edge_fold (csr : ll_400_graph) (flags v : Nat) (L : List Nat) (edges : List Nat)
    (pos : Nat)
    (hb : pos + ((L.map (rd csr.edges_list)).filter
      (keeps_neighbour flags v)).length ≤ edges.length) :
    (L.foldl (csr2sym_copy_edge csr flags v) (edges, pos)).2 =
      pos + ((L.map (rd csr.edges_list)).filter
        (keeps_neighbour flags v)).length ∧
    (L.foldl (csr2sym_copy_edge csr flags v) (edges, pos)).1.length = edges.length ∧
    (∀ i, i < ((L.map (rd csr.edges_list)).filter
        (keeps_neighbour flags v)).length →
      rd (L.foldl (csr2sym_copy_edge csr flags v) (edges, pos)).1 (pos + i) =
        rd ((L.map (rd csr.edges_list)).filter
          (keeps_neighbour flags v)) i) ∧
    (∀ j, j < pos ∨ pos + ((L.map (rd csr.edges_list)).filter
        (keeps_neighbour flags v)).length ≤ j →
      rd (L.foldl (csr2sym_copy_edge csr flags v) (edges, pos)).1 j = rd edges j) := by
  induction L generalizing edges pos with
  | nil =>
    refine ⟨by simp, by simp, ?_, ?_⟩
    · intro i hi; simp at hi
    · intro j _; rfl
  | cons e t ih =>
    rw [List.foldl_cons, List.map_cons]
    by_cases hs : flags &&& 4 ≠ 0 ∧ rd csr.edges_list e = v
    · have hstep : csr2sym_copy_edge csr flags v (edges, pos) e = (edges, pos) := by
        unfold csr2sym_copy_edge; rw [if_pos hs]
      have hp : ¬ (keeps_neighbour flags v (rd csr.edges_list e) = true) :=
        fun h => (of_decide_eq_true h) hs
      rw [hstep, List.filter_cons_of_neg hp]
      rw [List.map_cons, List.filter_cons_of_neg hp] at hb
      exact ih edges pos hb
    · have hstep : csr2sym_copy_edge csr flags v (edges, pos) e =
          (edges.set pos (rd csr.edges_list e), pos + 1) := by
        unfold csr2sym_copy_edge; rw [if_neg hs]
      have hp : keeps_neighbour flags v (rd csr.edges_list e) = true :=
        decide_eq_true hs
      rw [hstep, List.filter_cons_of_pos hp]
      rw [List.map_cons, List.filter_cons_of_pos hp, List.length_cons] at hb
      obtain ⟨i1, i2, i3, i4⟩ := ih (edges.set pos (rd csr.edges_list e)) (pos + 1)
        (by rw [List.length_set]; omega)
      refine ⟨?_, ?_, ?_, ?_⟩
      · rw [i1, List.length_cons]; omega
      · rw [i2, List.length_set]
      · intro i hi
        rw [List.length_cons] at hi
        cases i with
        | zero =>
          rw [rd_cons_zero, i4 (pos + 0) (by left; omega), Nat.add_zero,
            rd_set_eq _ _ _ (by omega)]
        | succ i =>
          rw [rd_cons_succ]
          have := i3 i (by omega)
          rw [← this]
          congr 1
          omega
      · intro j hj
        rw [List.length_cons] at hj
        rw [i4 j (by omega), rd_set_ne _ _ _ _ (by omega)]

theorem copy_vertex_spec (csr : ll_400_graph) (flags : Nat) (degs : List Nat)
    (hkept : ∀ v, v < csr.vertices_count → (kept_neighbours csr flags v).length ≤ rd degs v)
    (v : Nat) (hv : v < csr.vertices_count) (st : sym_state)
    (hinv : copy_invariant csr flags degs v st) :
    ∃ st', csr2sym_copy_vertex csr flags (st, prefix_sum degs v) v =
        Except.ok (st', prefix_sum degs (v + 1)) ∧
      copy_invariant csr flags degs (v + 1) st' := by
  obtain ⟨l1, l2, l3, i1, i2, i3, i4, i5⟩ := hinv
  have hdeg : rd st.offsets_list v = rd degs v := i2 v (Nat.le_refl _) hv
  have hk := hkept v hv
  have hps := prefix_sum_succ degs v
  have hmono := prefix_sum_mono degs (v + 1) csr.vertices_count (by omega)
  have hkeq : ((edge_slots csr.offsets_list v).map (rd csr.edges_list)).filter
      (keeps_neighbour flags v) = kept_neighbours csr flags v := rfl
  have hfold := copy_edge_fold csr flags v (edge_slots csr.offsets_list v) st.edges_list
    (prefix_sum degs v) (by rw [hkeq]; omega)
  rw [hkeq] at hfold
  obtain ⟨f1, f2, f3, f4⟩ := hfold
  refine ⟨{ offsets_list := st.offsets_list.set v (prefix_sum degs v),
            last_offsets := st.last_offsets.set v
              ((edge_slots csr.offsets_list v).foldl (csr2sym_copy_edge csr flags v)
                (st.edges_list, prefix_sum degs v)).2,
            edges_list := ((edge_slots csr.offsets_list v).foldl (csr2sym_copy_edge csr flags v)
                (st.edges_list, prefix_sum degs v)).1 }, ?_, ?_⟩
  · unfold csr2sym_copy_vertex
    simp only []
    rw [if_pos (by rw [f1, hdeg]; omega), hdeg, hps]
  · refine ⟨by simp [l1], by simp [l2], by rw [f2, l3], ?_, ?_, ?_, ?_, ?_⟩
    · intro u hu
      by_cases huv : v = u
      · subst huv
        rw [rd_set_eq _ _ _ (by omega)]
      · rw [rd_set_ne _ _ _ _ huv]
        exact i1 u (by omega)
    · intro u hu hun
      rw [rd_set_ne _ _ _ _ (by omega)]
      exact i2 u (by omega) hun
    · rw [rd_set_ne _ _ _ _ (by omega)]
      exact i3
    · intro u hu
      by_cases huv : v = u
      · subst huv
        rw [rd_set_eq _ _ _ (by omega), f1]
      · rw [rd_set_ne _ _ _ _ huv]
        exact i4 u (by omega)
    · intro u hu i hi
      by_cases huv : v = u
      · subst huv
        exact f3 i hi
      · have hult : u < v := by omega
        have h1 := prefix_sum_mono degs (u + 1) v (by omega)
        have h2 := prefix_sum_succ degs u
        have h3 := hkept u (by omega)
        rw [f4 _ (by left; omega)]
        exact i5 u hult i hi

theorem copy_vertices_spec (csr : ll_400_graph) (flags : Nat) (degs : List Nat)
    (hkept : ∀ v, v < csr.vertices_count → (kept_neighbours csr flags v).length ≤ rd degs v)
    (a k : Nat) (hak : a + k ≤ csr.vertices_count) (st : sym_state)
    (hinv : copy_invariant csr flags degs a st) :
    ∃ st', (List.range' a k).foldlM (csr2sym_copy_vertex csr flags) (st, prefix_sum degs a) =
        Except.ok (st', prefix_sum degs (a + k)) ∧
      copy_invariant csr flags degs (a + k) st' := by
  induction k generalizing a st with
  | zero => exact ⟨st, rfl, hinv⟩
  | succ k ih =>
    obtain ⟨st1, h1, hinv1⟩ := copy_vertex_spec csr flags degs hkept a (by omega) st hinv
    obtain ⟨st2, h2, hinv2⟩ := ih (a + 1) (by omega) st1 hinv1
    have e : a + 1 + k = a + (k + 1) := by omega
    rw [e] at h2 hinv2
    refine ⟨st2, ?_, hinv2⟩
    rw [List.range'_succ, List.foldlM_cons, h1]
    exact h2

theorem copy_partition_spec (csr : ll_400_graph) (flags : Nat) (degs partitions : List Nat)
    (count : Nat) (pte : List Nat)
    (hkept : ∀ v, v < csr.vertices_count → (kept_neighbours csr flags v).length ≤ rd degs v)
    (hcover : partitions_cover partitions count csr.vertices_count)
    (hpte : ∀ q, q < count → rd pte q = prefix_sum degs (rd partitions q))
    (p : Nat) (hp : p < count) (st : sym_state)
    (hinv : copy_invariant csr flags degs (rd partitions p) st) :
    ∃ st', csr2sym_copy_partition csr flags partitions count pte st p = Except.ok st' ∧
      copy_invariant csr flags degs (rd partitions (p + 1)) st' := by
  obtain ⟨_, h0, hn, hmono⟩ := hcover
  have hle := hmono p hp
  have hlen : rd partitions (p + 1) ≤ csr.vertices_count := by
    rw [← hn]
    exact boundaries_mono (fun q => rd partitions q) count hmono (p + 1) count (by omega)
      (Nat.le_refl _)
  have e : rd partitions p + (rd partitions (p + 1) - rd partitions p) = rd partitions (p + 1) := by
    omega
  obtain ⟨st', h1, hinv'⟩ := copy_vertices_spec csr flags degs hkept (rd partitions p)
    (rd partitions (p + 1) - rd partitions p) (by omega) st hinv
  rw [e] at h1 hinv'
  refine ⟨st', ?_, hinv'⟩
  unfold csr2sym_copy_partition partition_vertices
  rw [hpte p hp, h1]
  simp only []
  rw [if_neg]
  rintro ⟨h2, h3⟩
  exact h3 (hpte (p + 1) h2).symm

theorem copy_partitions_spec (csr : ll_400_graph) (flags : Nat) (degs partitions : List Nat)
    (count : Nat) (pte : List Nat)
    (hkept : ∀ v, v < csr.vertices_count → (kept_neighbours csr flags v).length ≤ rd degs v)
    (hcover : partitions_cover partitions count csr.vertices_count)
    (hpte : ∀ q, q < count → rd pte q = prefix_sum degs (rd partitions q))
    (st : sym_state) (hinv : copy_invariant csr flags degs 0 st) (j : Nat) (hj : j ≤ count) :
    ∃ st', (List.range j).foldlM (csr2sym_copy_partition csr flags partitions count pte) st =
        Except.ok st' ∧
      copy_invariant csr flags degs (rd partitions j) st' := by
  induction j with
  | zero =>
    refine ⟨st, rfl, ?_⟩
    rw [hcover.2.1]
    exact hinv
  | succ j ih =>
    obtain ⟨st1, h1, hinv1⟩ := ih (by omega)
    obtain ⟨st2, h2, hinv2⟩ := copy_partition_spec csr flags degs partitions count pte hkept
      hcover hpte j (by omega) st1 hinv1
    refine ⟨st2, ?_, hinv2⟩
    rw [List.range_succ, List.foldlM_append, h1]
    simp only [bind, Except.bind, List.foldlM_cons, List.foldlM_nil]
    rw [h2]
    rfl

theorem step4_spec (pe : par_env) (partitions : List Nat) (csr : ll_400_graph) (flags : Nat)
    (degs : List Nat) (hlen : degs.length = csr.vertices_count + 1)
    (hkept : ∀ v, v < csr.vertices_count → (kept_neighbours csr flags v).length ≤ rd degs v)
    (hcover : partitions_cover partitions (pe.threads_count * 64) csr.vertices_count) :
    ∃ st, csr2sym_step4 pe partitions csr flags degs (csr2sym_step3 pe partitions degs) =
        Except.ok st ∧
      copy_invariant csr flags degs csr.vertices_count st := by
  obtain ⟨s1, s2⟩ := step3_spec pe partitions degs csr.vertices_count hcover
  have h := copy_partitions_spec csr flags degs partitions (pe.threads_count * 64)
    (csr2sym_step3 pe partitions degs).1 hkept hcover s2
    { offsets_list := degs.set csr.vertices_count (csr2sym_step3 pe partitions degs).2,
      last_offsets := List.replicate (1 + csr.vertices_count) 0,
      edges_list := List.replicate (csr2sym_step3 pe partitions degs).2 0 }
    (by
      refine ⟨by simp [hlen], by simp; omega, by simp [s1], ?_, ?_, ?_, ?_, ?_⟩
      · intro v hv; omega
      · intro v _ hv
        show rd (degs.set _ _) v = _
        rw [rd_set_ne _ _ _ _ (by omega)]
      · show rd (degs.set _ _) _ = _
        rw [rd_set_eq _ _ _ (by omega), s1]
      · intro v hv; omega
      · intro v hv; omega)
    (pe.threads_count * 64) (Nat.le_refl _)
  rw [hcover.2.2.1] at h
  exact h

/-! ## Step 5 of `csr2sym` -/

theorem length_filter_prefix {α β : Type} (p : α → Bool) (f : α → β) (l pre rest : List α)
    (x : α) (h : l = pre ++ x :: rest) :
    ((pre.filter p).map f).length + (if p x = true then 1 else 0) ≤ ((l.filter p).map f).length := by
  subst h
  simp only [List.filter_append, List.map_append, List.length_append, List.length_map]
  by_cases hx : p x = true
  · rw [List.filter_cons_of_pos hx]; simp [hx]
  · rw [List.filter_cons_of_neg hx]; simp [hx]

theorem is_reverse_slot_iff (csr : ll_400_graph) (d v e : Nat) :
    is_reverse_slot csr d (v, e) = true ↔
      rd csr.edges_list e = d ∧ v ≠ d ∧ v ∉ neighbour_list csr d := by
  simp [is_reverse_slot]

theorem write_edge_spec (csr : ll_400_graph) (flags : Nat) (hwf : well_formed csr)
    (degs bits offsets_list : List Nat)
    (hdegs : ∀ d, d < csr.vertices_count → rd degs d =
      (kept_neighbours csr flags d).length + (reverse_sources csr d).length)
    (hbits : ∀ v e, (v, e) ∈ all_slots csr → (edge_bit bits e ↔
      rd csr.edges_list e ≠ v ∧ v ∈ neighbour_list csr (rd csr.edges_list e)))
    (hoffs : ∀ d, d ≤ csr.vertices_count → rd offsets_list d = prefix_sum degs d)
    (pre rest : List (Nat × Nat)) (x : Nat × Nat) (hl : all_slots csr = pre ++ x :: rest)
    (st : sym_state) (hinv : write_invariant csr flags degs offsets_list pre st) :
    ∃ st', csr2sym_write_edge csr bits x.1 st x.2 = Except.ok st' ∧
      write_invariant csr flags degs offsets_list (pre ++ [x]) st' := by
  obtain ⟨v, e⟩ := x
  dsimp only
  obtain ⟨i0, l1, l2, i1, i2, i3⟩ := hinv
  have hslot : (v, e) ∈ all_slots csr := by rw [hl]; simp
  have hd := slot_dest_lt csr hwf v e hslot
  have hpre : ∀ d, ((pre.filter (is_reverse_slot csr d)).map Prod.fst).length +
      (if is_reverse_slot csr d (v, e) = true then 1 else 0) ≤ (reverse_sources csr d).length :=
    fun d => length_filter_prefix (is_reverse_slot csr d) Prod.fst (all_slots csr) pre rest
      (v, e) hl
  by_cases hw : is_reverse_slot csr (rd csr.edges_list e) (v, e) = true
  · -- the reverse edge is written
    have hw' := (is_reverse_slot_iff csr _ v e).1 hw
    have h1 : ¬ (v = rd csr.edges_list e) := hw'.2.1
    have h2 : ¬ (rd bits (e / 8) &&& (1 <<< (e % 8)) ≠ 0) := by
      intro hb
      exact hw'.2.2 ((hbits v e hslot).1 hb).2
    have hp := hpre (rd csr.edges_list e)
    rw [if_pos hw] at hp
    have hsucc := prefix_sum_succ degs (rd csr.edges_list e)
    have hlast := i1 _ hd
    have h3 : rd st.last_offsets (rd csr.edges_list e) <
        rd st.offsets_list (rd csr.edges_list e + 1) := by
      rw [i0, hoffs _ (by omega), hsucc, hdegs _ hd, hlast]; omega
    have htot := prefix_sum_mono degs (rd csr.edges_list e + 1) csr.vertices_count (by omega)
    have hdeg0 := hdegs _ hd
    refine ⟨_, by unfold csr2sym_write_edge; rw [if_neg h1, if_neg h2, if_pos h3], ?_⟩
    refine ⟨i0, by simp [l1], by simp [l2], ?_, ?_, ?_⟩
    · intro d hdn
      rw [length_filter_snoc]
      by_cases hdd : rd csr.edges_list e = d
      · subst hdd
        rw [rd_set_eq _ _ _ (by omega), if_pos hw, hlast]
        omega
      · have : ¬ (is_reverse_slot csr d (v, e) = true) := by
          rw [is_reverse_slot_iff]; exact fun h => hdd h.1
        rw [rd_set_ne _ _ _ _ hdd, if_neg this, i1 d hdn]
        rfl
    · intro d hdn i hi
      have hne : rd st.last_offsets (rd csr.edges_list e) ≠ prefix_sum degs d + i := by
        rw [hlast]
        rcases Nat.lt_trichotomy d (rd csr.edges_list e) with hlt | heq | hgt
        · have := prefix_sum_mono degs (d + 1) (rd csr.edges_list e) (by omega)
          have := prefix_sum_succ degs d
          have := hdegs d hdn
          omega
        · subst heq; omega
        · have := prefix_sum_mono degs (rd csr.edges_list e + 1) d (by omega)
          have := hdegs _ hd
          omega
      rw [rd_set_ne _ _ _ _ hne]
      exact i2 d hdn i hi
    · intro d hdn i hi
      rw [length_filter_snoc] at hi
      by_cases hdd : rd csr.edges_list e = d
      · subst hdd
        rw [if_pos hw] at hi
        rw [List.filter_append, List.map_append, List.filter_cons_of_pos hw]
        simp only [List.filter_nil, List.map_cons, List.map_nil]
        by_cases hil : i < ((pre.filter (is_reverse_slot csr (rd csr.edges_list e))).map
            Prod.fst).length
        · rw [rd_append_left _ _ _ hil, rd_set_ne _ _ _ _ (by rw [hlast]; omega)]
          exact i3 _ hdn i hil
        · have hie : i = ((pre.filter (is_reverse_slot csr (rd csr.edges_list e))).map
              Prod.fst).length := by omega
          rw [rd_append_right _ _ _ (by omega), hie, ← hlast, rd_set_eq _ _ _ (by
            rw [l2, hlast]; omega)]
          simp [rd]
      · have hnot : ¬ (is_reverse_slot csr d (v, e) = true) := by
          rw [is_reverse_slot_iff]; exact fun h => hdd h.1
        rw [if_neg hnot] at hi
        have hpd := hpre d
        rw [if_neg hnot] at hpd
        have hne : rd st.last_offsets (rd csr.edges_list e) ≠
            prefix_sum degs d + (kept_neighbours csr flags d).length + i := by
          rw [hlast]
          rcases Nat.lt_or_gt_of_ne hdd with hlt | hgt
          · have := prefix_sum_mono degs (rd csr.edges_list e + 1) d (by omega)
            have := hdegs _ hd
            omega
          · have := prefix_sum_mono degs (d + 1) (rd csr.edges_list e) (by omega)
            have := prefix_sum_succ degs d
            have := hdegs d hdn
            omega
        rw [rd_set_ne _ _ _ _ hne, List.filter_append, List.filter_cons_of_neg hnot,
          List.filter_nil, List.append_nil]
        exact i3 d hdn i hi
  · -- nothing is written
    have hstep : csr2sym_write_edge csr bits v st e = Except.ok st := by
      unfold csr2sym_write_edge
      by_cases h1 : v = rd csr.edges_list e
      · rw [if_pos h1]
      · rw [if_neg h1]
        have : rd bits (e / 8) &&& (1 <<< (e % 8)) ≠ 0 := by
          intro hb0
          have hb : ¬ edge_bit bits e := fun h => h hb0
          apply hw
          rw [is_reverse_slot_iff]
          refine ⟨rfl, h1, ?_⟩
          intro hmem
          exact hb ((hbits v e hslot).2 ⟨fun h => h1 h.symm, hmem⟩)
        rw [if_pos this]
    have hnone : ∀ d, ¬ (is_reverse_slot csr d (v, e) = true) := by
      intro d hdr
      have := (is_reverse_slot_iff csr d v e).1 hdr
      apply hw
      rw [is_reverse_slot_iff]
      exact ⟨rfl, this.1 ▸ this.2.1, this.1 ▸ this.2.2⟩
    refine ⟨st, hstep, i0, l1, l2, ?_, i2, ?_⟩
    · intro d hdn
      rw [List.filter_append, List.filter_cons_of_neg (hnone d), List.filter_nil,
        List.append_nil]
      exact i1 d hdn
    · intro d hdn i hi
      rw [List.filter_append, List.filter_cons_of_neg (hnone d), List.filter_nil,
        List.append_nil] at hi ⊢
      exact i3 d hdn i hi

theorem step5_spec (pe : par_env) (partitions : List Nat) (csr : ll_400_graph) (flags : Nat)
    (hwf : well_formed csr)
    (hcover : partitions_cover partitions (pe.threads_count * 64) csr.vertices_count)
    (degs bits : List Nat)
    (hdegs : ∀ d, d < csr.vertices_count → rd degs d = sym_degree csr flags d)
    (hbits : ∀ v e, (v, e) ∈ all_slots csr → (edge_bit bits e ↔
      rd csr.edges_list e ≠ v ∧ v ∈ neighbour_list csr (rd csr.edges_list e)))
    (st0 : sym_state) (hinv : copy_invariant csr flags degs csr.vertices_count st0) :
    ∃ st, csr2sym_step5 pe partitions csr bits st0 = Except.ok st ∧
      st.offsets_list = st0.offsets_list ∧
      st.edges_list.length = prefix_sum degs csr.vertices_count ∧
      (∀ d, d < csr.vertices_count → rd st.last_offsets d = prefix_sum degs (d + 1)) ∧
      (∀ d, d < csr.vertices_count → ∀ i, i < (sym_neighbours csr flags d).length →
        rd st.edges_list (prefix_sum degs d + i) = rd (sym_neighbours csr flags d) i) := by
  obtain ⟨l1, l2, l3, i1, i2, i3, i4, i5⟩ := hinv
  have hoffs : ∀ d, d ≤ csr.vertices_count → rd st0.offsets_list d = prefix_sum degs d := by
    intro d hd
    by_cases hdn : d = csr.vertices_count
    · subst hdn; exact i3
    · exact i1 d (by omega)
  have h := foldlM_invariant (fun s x => csr2sym_write_edge csr bits x.1 s x.2) (all_slots csr)
    (write_invariant csr flags degs st0.offsets_list) st0
    ⟨rfl, l2, l3, fun d hd => by simpa using i4 d hd, i5, fun d hd i hi => by simp at hi⟩
    (fun pre x rest s hl hI =>
      write_edge_spec csr flags hwf degs bits st0.offsets_list hdegs hbits hoffs pre rest x hl
        s hI)
  obtain ⟨st, hst, j0, j1, j2, j3, j4, j5⟩ := h
  refine ⟨st, ?_, j0, j2, ?_, ?_⟩
  · unfold csr2sym_step5
    rw [for_partition_vertices_eq partitions _ _ hcover]
    unfold csr2sym_write_vertex
    rw [foldlM_all_slots csr (fun v => csr2sym_write_edge csr bits v)]
    exact hst
  · intro d hd
    rw [j3 d hd, prefix_sum_succ, hdegs d hd]
    unfold sym_degree reverse_sources
    omega
  · intro d hd i hi
    unfold sym_neighbours at hi ⊢
    rw [List.length_append] at hi
    by_cases hik : i < (kept_neighbours csr flags d).length
    · rw [rd_append_left _ _ _ hik]
      exact j4 d hd i hik
    · rw [rd_append_right _ _ _ (by omega)]
      have := j5 d hd (i - (kept_neighbours csr flags d).length) (by
        unfold reverse_sources at hi; omega)
      show _ = rd ((List.filter (is_reverse_slot csr d) (all_slots csr)).map Prod.fst) _
      rw [← this]
      congr 1
      omega

/-- Steps 1 to 5 on a well-formed graph with sorted neighbour-lists: every step runs to
its end, the offsets are the prefix sums of the symmetric degrees, and the list of `d`
holds `sym_neighbours d`. -/
theorem steps_spec (pe : par_env) (partitions : List Nat) (csr : ll_400_graph) (flags : Nat)
    (hwf : well_formed csr) (hsorted : sorted_neighbour_lists csr)
    (hcover : partitions_cover partitions (pe.threads_count * 64) csr.vertices_count) :
    ∃ offs1 degs st0 st,
      csr2sym_step1 pe partitions csr flags = Except.ok offs1 ∧
      csr2sym_step2 pe partitions csr offs1 = Except.ok degs ∧
      csr2sym_step4 pe partitions csr flags degs.1 (csr2sym_step3 pe partitions degs.1) =
        Except.ok st0 ∧
      csr2sym_step5 pe partitions csr degs.2 st0 = Except.ok st ∧
      (∀ d, d < csr.vertices_count → rd degs.1 d = sym_degree csr flags d) ∧
      (∀ v e, (v, e) ∈ all_slots csr → (edge_bit degs.2 e ↔
        rd csr.edges_list e ≠ v ∧ v ∈ neighbour_list csr (rd csr.edges_list e))) ∧
      (csr2sym_step3 pe partitions degs.1).2 = prefix_sum degs.1 csr.vertices_count ∧
      st.offsets_list.length = csr.vertices_count + 1 ∧
      st.edges_list.length = prefix_sum degs.1 csr.vertices_count ∧
      (∀ d, d ≤ csr.vertices_count → rd st.offsets_list d = prefix_sum degs.1 d) ∧
      (∀ d, d < csr.vertices_count → rd st.last_offsets d = rd st.offsets_list (d + 1)) ∧
      (∀ d, d < csr.vertices_count → ∀ i, i < (sym_neighbours csr flags d).length →
        rd st.edges_list (prefix_sum degs.1 d + i) = rd (sym_neighbours csr flags d) i) := by
  -- step 1
  have h1 := step1_range csr flags (List.replicate (1 + csr.vertices_count) 0)
    csr.vertices_count hwf.2.2.2.1
  rcases h1 with h1 | h1
  · obtain ⟨⟨v, hv, hu⟩, _⟩ := h1
    exact absurd hu (not_unsorted_of_sorted csr v (hsorted v hv))
  obtain ⟨_, offs1, hs1, hlen1, hlow1, hhigh1⟩ := h1
  -- step 2
  obtain ⟨degs, hs2, hlen2, hdeg2, hbit2⟩ := step2_slots csr hwf hsorted offs1
    (by rw [hlen1]; simp; omega)
  have hdegs : ∀ d, d < csr.vertices_count → rd degs.1 d = sym_degree csr flags d := by
    intro d hd
    rw [hdeg2 d, hlow1 d hd (by simp; omega)]
    rfl
  have hbits : ∀ v e, (v, e) ∈ all_slots csr → (edge_bit degs.2 e ↔
      rd csr.edges_list e ≠ v ∧ v ∈ neighbour_list csr (rd csr.edges_list e)) := by
    intro v e hslot
    rw [hbit2 e]
    constructor
    · rintro ⟨v', h1, h2⟩
      have := slot_source_unique csr hwf v v' e hslot h1
      subst this
      exact h2
    · intro h
      exact ⟨v, hslot, h⟩
  have hkept : ∀ v, v < csr.vertices_count →
      (kept_neighbours csr flags v).length ≤ rd degs.1 v := by
    intro v hv
    rw [hdegs v hv]
    unfold sym_degree
    omega
  -- steps 3 and 4
  obtain ⟨st0, hs4, hinv4⟩ := step4_spec pe partitions csr flags degs.1 hlen2 hkept hcover
  -- step 5
  obtain ⟨st, hs5, k0, k1, k2, k3⟩ := step5_spec pe partitions csr flags hwf hcover degs.1
    degs.2 hdegs hbits st0 hinv4
  obtain ⟨l1, l2, l3, i1, i2, i3, i4, i5⟩ := hinv4
  have hoffs : ∀ d, d ≤ csr.vertices_count → rd st.offsets_list d = prefix_sum degs.1 d := by
    intro d hd
    rw [k0]
    by_cases hdn : d = csr.vertices_count
    · subst hdn; exact i3
    · exact i1 d (by omega)
  refine ⟨offs1, degs, st0, st, ?_, ?_, hs4, hs5, hdegs, hbits,
    (step3_spec pe partitions degs.1 csr.vertices_count hcover).1, by rw [k0, l1], k1, hoffs,
    ?_, k3⟩
  · unfold csr2sym_step1
    rw [for_partition_vertices_eq partitions _ _ hcover]
    exact hs1
  · unfold csr2sym_step2
    rw [for_partition_vertices_eq partitions _ _ hcover]
    unfold csr2sym_degree_vertex
    rw [foldlM_all_slots csr (fun v => csr2sym_degree_edge csr v)]
    exact hs2
  · intro d hd
    rw [k2 d hd, hoffs (d + 1) (by omega)]

/-! ## The neighbour-lists of the symmetric graph -/

theorem mem_kept_neighbours (csr : ll_400_graph) (flags d x : Nat) :
    x ∈ kept_neighbours csr flags d ↔
      x ∈ neighbour_list csr d ∧ ¬ (flags &&& 4 ≠ 0 ∧ x = d) := by
  unfold kept_neighbours keeps_neighbour
  rw [List.mem_filter, decide_eq_true_iff]

theorem mem_reverse_sources (csr : ll_400_graph) (d s : Nat) :
    s ∈ reverse_sources csr d ↔
      s < csr.vertices_count ∧ d ∈ neighbour_list csr s ∧ s ≠ d ∧ s ∉ neighbour_list csr d := by
  unfold reverse_sources
  simp only [List.mem_map, List.mem_filter, Prod.exists, exists_and_right, exists_eq_right,
    is_reverse_slot_iff, mem_all_slots, mem_neighbour_list]
  constructor
  · rintro ⟨e, ⟨hs, h1, h2⟩, h3, h4, h5⟩
    exact ⟨hs, ⟨e, h1, h2, h3⟩, h4, h5⟩
  · rintro ⟨hs, ⟨e, h1, h2, h3⟩, h4, h5⟩
    exact ⟨e, ⟨hs, h1, h2⟩, h3, h4, h5⟩

/-- Membership in the output list: an input edge in either direction, self-edges left out
when bit 2 of `flags` is set. -/
theorem mem_sym_neighbours (csr : ll_400_graph) (hwf : well_formed csr) (flags d s : Nat) :
    s ∈ sym_neighbours csr flags d ↔
      (s ∈ neighbour_list csr d ∨ d ∈ neighbour_list csr s) ∧ ¬ (flags &&& 4 ≠ 0 ∧ s = d) := by
  unfold sym_neighbours
  rw [List.mem_append, mem_kept_neighbours, mem_reverse_sources]
  constructor
  · rintro (⟨h1, h2⟩ | ⟨_, h2, h3, _⟩)
    · exact ⟨Or.inl h1, h2⟩
    · exact ⟨Or.inr h2, fun h => h3 h.2⟩
  · rintro ⟨h1 | h1, h2⟩
    · left; exact ⟨h1, h2⟩
    · by_cases h3 : s ∈ neighbour_list csr d
      · left; exact ⟨h3, h2⟩
      · right
        refine ⟨?_, h1, ?_, h3⟩
        · by_contra hs
          rw [neighbour_list_of_ge csr hwf s (by omega)] at h1
          simp at h1
        · rintro rfl
          exact h3 h1

theorem all_slots_nodup (csr : ll_400_graph) (hwf : well_formed csr) : (all_slots csr).Nodup := by
  apply List.Nodup.of_map Prod.snd
  rw [map_snd_all_slots csr hwf]
  exact List.nodup_range _

theorem reverse_sources_nodup (csr : ll_400_graph) (hwf : well_formed csr)
    (hsorted : sorted_neighbour_lists csr) (d : Nat) : (reverse_sources csr d).Nodup := by
  unfold reverse_sources
  apply List.Nodup.map_on
  · rintro ⟨s, e⟩ hx ⟨s', e'⟩ hy hfst
    simp only at hfst
    subst hfst
    rw [List.mem_filter, is_reverse_slot_iff] at hx hy
    obtain ⟨hx1, hx2, _⟩ := hx
    obtain ⟨hy1, hy2, _⟩ := hy
    rw [mem_all_slots] at hx1 hy1
    have hs := hsorted s hx1.1
    congr 1
    by_contra hne
    rcases Nat.lt_or_gt_of_ne hne with hlt | hlt
    · have := sorted_pointwise csr s hs e e' hx1.2.1 hlt hy1.2.2
      omega
    · have := sorted_pointwise csr s hs e' e hy1.2.1 hlt hx1.2.2
      omega
  · exact (all_slots_nodup csr hwf).filter _

theorem neighbour_list_nodup (csr : ll_400_graph) (hsorted : sorted_neighbour_lists csr)
    (d : Nat) (hd : d < csr.vertices_count) : (neighbour_list csr d).Nodup :=
  (hsorted d hd).imp (fun h => Nat.ne_of_lt h)

theorem sym_neighbours_nodup (csr : ll_400_graph) (hwf : well_formed csr)
    (hsorted : sorted_neighbour_lists csr) (flags d : Nat) (hd : d < csr.vertices_count) :
    (sym_neighbours csr flags d).Nodup := by
  unfold sym_neighbours
  rw [List.nodup_append]
  refine ⟨(neighbour_list_nodup csr hsorted d hd).filter _, reverse_sources_nodup csr hwf hsorted d,
    ?_⟩
  intro x hx hy
  rw [mem_kept_neighbours] at hx
  rw [mem_reverse_sources] at hy
  exact hy.2.2.2 hx.1

theorem mem_sym_neighbours_lt (csr : ll_400_graph) (hwf : well_formed csr) (flags d s : Nat)
    (hd : d < csr.vertices_count) (h : s ∈ sym_neighbours csr flags d) :
    s < csr.vertices_count := by
  rw [mem_sym_neighbours csr hwf] at h
  rcases h.1 with h1 | h1
  · exact mem_neighbour_list_lt csr hwf d s hd h1
  · by_contra hs
    rw [neighbour_list_of_ge csr hwf s (by omega)] at h1
    simp at h1

theorem length_sym_neighbours_le (csr : ll_400_graph) (hwf : well_formed csr)
    (hsorted : sorted_neighbour_lists csr) (flags d : Nat) (hd : d < csr.vertices_count) :
    (sym_neighbours csr flags d).length ≤ csr.vertices_count := by
  have hsub : sym_neighbours csr flags d ⊆ List.range csr.vertices_count := by
    intro x hx
    rw [List.mem_range]
    exact mem_sym_neighbours_lt csr hwf flags d x hd hx
  have := (List.subperm_of_subset (sym_neighbours_nodup csr hwf hsorted flags d hd) hsub).length_le
  simpa using this

theorem length_sym_neighbours (csr : ll_400_graph) (flags d : Nat) :
    (sym_neighbours csr flags d).length = sym_degree csr flags d := by
  simp [sym_neighbours, sym_degree]

/-! ## The sorting block of `csr2sym` -/

theorem rd_map_range' (f : Nat → Nat) (a k i : Nat) (hi : i < k) :
    rd ((List.range' a k).map f) i = f (a + i) := by
  rw [rd_eq_getElem _ _ (by simpa using hi)]
  simp

theorem insertionSort_short (l : List Nat) (h : l.length < 2) :
    l.insertionSort (fun a b => a ≤ b) = l := by
  match l, h with
  | [], _ => rfl
  | [a], _ => rfl

theorem length_insertionSort' (l : List Nat) :
    (l.insertionSort (fun a b => a ≤ b)).length = l.length :=
  (List.perm_insertionSort _ l).length_eq

theorem sort_vertex_spec (offs edges : List Nat) (v : Nat)
    (hle : rd offs v ≤ rd offs (v + 1)) (hlen : rd offs (v + 1) ≤ edges.length)
    (hdeg : rd offs (v + 1) - rd offs v < 2 ^ 32) :
    (csr2sym_sort_vertex offs edges v).length = edges.length ∧
    (∀ j, j < rd offs v ∨ rd offs (v + 1) ≤ j →
      rd (csr2sym_sort_vertex offs edges v) j = rd edges j) ∧
    (edge_slots offs v).map (rd (csr2sym_sort_vertex offs edges v)) =
      ((edge_slots offs v).map (rd edges)).insertionSort (fun a b => a ≤ b) := by
  unfold csr2sym_sort_vertex
  rw [Nat.mod_eq_of_lt hdeg]
  by_cases hs : rd offs (v + 1) - rd offs v < 2
  · rw [if_pos hs]
    refine ⟨rfl, fun _ _ => rfl, ?_⟩
    rw [insertionSort_short]
    simpa [edge_slots] using hs
  · rw [if_neg hs]
    unfold quick_sort_uint
    have e1 : rd offs (v + 1) - rd offs v - 1 + 1 - 0 = rd offs (v + 1) - rd offs v := by omega
    have e2 : rd offs (v + 1) - rd offs v - 1 + 1 = rd offs (v + 1) - rd offs v := by omega
    rw [e1, e2]
    have e3 : rd offs v + (rd offs (v + 1) - rd offs v) = rd offs (v + 1) := by omega
    simp only [List.take_zero, List.drop_zero, List.nil_append, List.drop_drop, Nat.add_zero, e3]
    have hslice : (List.drop (rd offs v) edges).take (rd offs (v + 1) - rd offs v) =
        (edge_slots offs v).map (rd edges) := by
      unfold edge_slots
      rw [map_rd_range' edges _ _ (by omega)]
    rw [hslice]
    have hSlen : (((edge_slots offs v).map (rd edges)).insertionSort (fun a b => a ≤ b)).length =
        rd offs (v + 1) - rd offs v := by
      rw [length_insertionSort', List.length_map, length_edge_slots]
    have htake : (List.take (rd offs v) edges).length = rd offs v := by
      rw [List.length_take]; omega
    refine ⟨?_, ?_, ?_⟩
    · simp only [List.length_append, hSlen, htake, List.length_drop]
      omega
    · intro j hj
      rcases hj with hj | hj
      · rw [rd_append_left _ _ _ (by omega), rd_take _ _ _ hj]
      · rw [rd_append_right _ _ _ (by omega), rd_append_right _ _ _ (by omega), rd_drop, htake,
          hSlen]
        congr 1
        omega
    · apply ext_rd
      · rw [hSlen, List.length_map, length_edge_slots]
      · intro i hi
        rw [List.length_map, length_edge_slots] at hi
        have : edge_slots offs v = List.range' (rd offs v) (rd offs (v + 1) - rd offs v) := rfl
        rw [this, rd_map_range' _ _ _ _ hi, rd_append_right _ _ _ (by omega), htake,
          rd_append_left _ _ _ (by rw [length_insertionSort']; simp; omega)]
        congr 1
        omega

theorem sort_range (n : Nat) (offs edges : List Nat)
    (hmono : ∀ v, v < n → rd offs v ≤ rd offs (v + 1))
    (hlen : rd offs n ≤ edges.length)
    (hdeg : ∀ v, v < n → rd offs (v + 1) - rd offs v < 2 ^ 32)
    (b : Nat) (hb : b ≤ n) :
    ((List.range b).foldl (csr2sym_sort_vertex offs) edges).length = edges.length ∧
    (∀ v, v < b → (edge_slots offs v).map
        (rd ((List.range b).foldl (csr2sym_sort_vertex offs) edges)) =
      ((edge_slots offs v).map (rd edges)).insertionSort (fun a b => a ≤ b)) ∧
    (∀ j, rd offs b ≤ j →
      rd ((List.range b).foldl (csr2sym_sort_vertex offs) edges) j = rd edges j) := by
  induction b with
  | zero =>
    refine ⟨rfl, ?_, fun _ _ => rfl⟩
    intro v hv; omega
  | succ b ih =>
    obtain ⟨i1, i2, i3⟩ := ih (by omega)
    rw [List.range_succ, List.foldl_append]
    simp only [List.foldl_cons, List.foldl_nil]
    have hbn : rd offs (b + 1) ≤ rd offs n :=
      boundaries_mono (fun v => rd offs v) n hmono (b + 1) n (by omega) (Nat.le_refl _)
    obtain ⟨s1, s2, s3⟩ := sort_vertex_spec offs
      ((List.range b).foldl (csr2sym_sort_vertex offs) edges) b (hmono b (by omega))
      (by rw [i1]; omega) (hdeg b (by omega))
    refine ⟨by rw [s1, i1], ?_, ?_⟩
    · intro v hv
      by_cases hvb : v = b
      · subst hvb
        rw [s3]
        congr 1
        apply List.map_congr_left
        intro e he
        rw [mem_edge_slots] at he
        exact i3 e he.1
      · rw [← i2 v (by omega)]
        apply List.map_congr_left
        intro e he
        rw [mem_edge_slots] at he
        have := boundaries_mono (fun v => rd offs v) n hmono (v + 1) b (by omega) (by omega)
        exact s2 e (by left; simp only at this; omega)
    · intro j hj
      have := hmono b (by omega)
      rw [s2 j (by right; exact hj), i3 j (by omega)]

theorem sort_spec (n : Nat) (offs edges : List Nat)
    (hmono : ∀ v, v < n → rd offs v ≤ rd offs (v + 1))
    (hlen : rd offs n ≤ edges.length)
    (hdeg : ∀ v, v < n → rd offs (v + 1) - rd offs v < 2 ^ 32) :
    (csr2sym_sort n offs edges).length = edges.length ∧
    (∀ v, v < n → (edge_slots offs v).map (rd (csr2sym_sort n offs edges)) =
      ((edge_slots offs v).map (rd edges)).insertionSort (fun a b => a ≤ b)) := by
  have h := sort_range n offs edges hmono hlen hdeg n (Nat.le_refl _)
  exact ⟨h.1, h.2.1⟩

/-! ## The graph built by `csr2sym` -/

theorem prefix_sum_eq_sym_offset (csr : ll_400_graph) (flags : Nat) (degs : List Nat)
    (hdegs : ∀ d, d < csr.vertices_count → rd degs d = sym_degree csr flags d)
    (b : Nat) (hb : b ≤ csr.vertices_count) : prefix_sum degs b = sym_offset csr flags b := by
  unfold prefix_sum sym_offset
  congr 1
  apply List.map_congr_left
  intro v hv
  rw [List.mem_range] at hv
  exact hdegs v (by omega)

theorem sym_offset_succ (csr : ll_400_graph) (flags v : Nat) :
    sym_offset csr flags (v + 1) = sym_offset csr flags v + sym_degree csr flags v := by
  simp [sym_offset, List.range_succ]

theorem mem_out_neighbours (csr : ll_400_graph) (flags d s : Nat) :
    s ∈ out_neighbours csr flags d ↔ s ∈ sym_neighbours csr flags d := by
  unfold out_neighbours
  by_cases h : flags &&& 2 ≠ 0
  · rw [if_pos h, List.mem_insertionSort]
  · rw [if_neg h]

theorem build_spec (pe : par_env) (partitions : List Nat) (csr : ll_400_graph) (flags : Nat)
    (hwf : well_formed csr) (hsorted : sorted_neighbour_lists csr)
    (hcover : partitions_cover partitions (pe.threads_count * 64) csr.vertices_count) :
    ∃ offs1 degs out last,
      csr2sym_step1 pe partitions csr flags = Except.ok offs1 ∧
      csr2sym_step2 pe partitions csr offs1 = Except.ok degs ∧
      csr2sym_build pe partitions csr flags = Except.ok (out, last) ∧
      out.edges_count = prefix_sum degs.1 csr.vertices_count ∧
      out.vertices_count = csr.vertices_count ∧
      out.edges_count = sym_offset csr flags csr.vertices_count ∧
      out.offsets_list.length = csr.vertices_count + 1 ∧
      out.edges_list.length = out.edges_count ∧
      (∀ d, d ≤ csr.vertices_count → rd out.offsets_list d = sym_offset csr flags d) ∧
      (∀ d, d < csr.vertices_count → rd last d = rd out.offsets_list (d + 1)) ∧
      (∀ d, d < csr.vertices_count → neighbour_list out d = out_neighbours csr flags d) := by
  obtain ⟨offs1, degs, st0, st, h1, h2, h4, h5, hdegs, _, h3, l1, l2, hoffs, hlast, hedges⟩ :=
    steps_spec pe partitions csr flags hwf hsorted hcover
  have hps := prefix_sum_eq_sym_offset csr flags degs.1 hdegs
  have hoffs' : ∀ d, d ≤ csr.vertices_count → rd st.offsets_list d = sym_offset csr flags d :=
    fun d hd => by rw [hoffs d hd, hps d hd]
  have hslice : ∀ d, d < csr.vertices_count →
      (edge_slots st.offsets_list d).map (rd st.edges_list) = sym_neighbours csr flags d := by
    intro d hd
    have e1 : rd st.offsets_list (d + 1) - rd st.offsets_list d =
        (sym_neighbours csr flags d).length := by
      rw [hoffs' d (by omega), hoffs' (d + 1) (by omega), sym_offset_succ,
        length_sym_neighbours]
      omega
    apply ext_rd
    · rw [List.length_map, length_edge_slots, e1]
    · intro i hi
      rw [List.length_map, length_edge_slots] at hi
      have : edge_slots st.offsets_list d = List.range' (rd st.offsets_list d)
        (rd st.offsets_list (d + 1) - rd st.offsets_list d) := rfl
      rw [this, rd_map_range' _ _ _ _ hi, hoffs d (by omega)]
      exact hedges d hd i (by omega)
  have hmono : ∀ v, v < csr.vertices_count →
      rd st.offsets_list v ≤ rd st.offsets_list (v + 1) := by
    intro v hv
    rw [hoffs' v (by omega), hoffs' (v + 1) (by omega), sym_offset_succ]
    omega
  have hdeglt : ∀ v, v < csr.vertices_count →
      rd st.offsets_list (v + 1) - rd st.offsets_list v < 2 ^ 32 := by
    intro v hv
    rw [hoffs' v (by omega), hoffs' (v + 1) (by omega), sym_offset_succ,
      ← length_sym_neighbours]
    have := length_sym_neighbours_le csr hwf hsorted flags v hv
    have := hwf.2.2.2.2.2.2
    omega
  have hsort := sort_spec csr.vertices_count st.offsets_list st.edges_list hmono
    (by rw [hoffs _ (Nat.le_refl _), l2]) hdeglt
  refine ⟨offs1, degs,
    { vertices_count := csr.vertices_count,
      edges_count := (csr2sym_step3 pe partitions degs.1).2,
      offsets_list := st.offsets_list,
      edges_list :=
        if flags &&& 2 ≠ 0 then
          csr2sym_sort csr.vertices_count st.offsets_list st.edges_list
        else st.edges_list }, st.last_offsets, h1, h2, ?_, ?_, ?_, ?_, ?_, ?_, ?_, ?_, ?_⟩
  · unfold csr2sym_build
    rw [h1]
    simp only []
    rw [h2]
    simp only []
    rw [h4]
    simp only []
    rw [h5]
  · exact h3
  · rfl
  · show (csr2sym_step3 pe partitions degs.1).2 = _
    rw [h3, hps _ (Nat.le_refl _)]
  · exact l1
  · show (if flags &&& 2 ≠ 0 then _ else _ : List Nat).length = (csr2sym_step3 pe partitions degs.1).2
    rw [h3]
    by_cases hf : flags &&& 2 ≠ 0
    · rw [if_pos hf, hsort.1, l2]
    · rw [if_neg hf, l2]
  · exact hoffs'
  · exact hlast
  · intro d hd
    show (edge_slots st.offsets_list d).map (rd (if flags &&& 2 ≠ 0 then _ else _)) = _
    unfold out_neighbours
    by_cases hf : flags &&& 2 ≠ 0
    · rw [if_pos hf, if_pos hf, hsort.2 d hd, hslice d hd]
    · rw [if_neg hf, if_neg hf, hslice d hd]

/-! ## The validation block of `csr2sym` -/

theorem foldlM_unit_ok {α : Type} (f : Unit → α → Except String Unit) (l : List α)
    (h : ∀ x, x ∈ l → f () x = Except.ok ()) : l.foldlM f () = Except.ok () := by
  induction l with
  | nil => rfl
  | cons a t ih =>
    rw [List.foldlM_cons, h a (by simp)]
    exact ih (fun x hx => h x (by simp [hx]))

theorem out_neighbours_sorted (csr : ll_400_graph) (hwf : well_formed csr)
    (hsorted : sorted_neighbour_lists csr) (flags d : Nat) (hd : d < csr.vertices_count)
    (hf : flags &&& 2 ≠ 0) :
    (out_neighbours csr flags d).Pairwise (fun a b => a < b) := by
  unfold out_neighbours
  rw [if_pos hf]
  have h1 : ((sym_neighbours csr flags d).insertionSort (fun a b => a ≤ b)).Sorted
      (fun a b => a ≤ b) := List.sorted_insertionSort _ _
  have h2 : ((sym_neighbours csr flags d).insertionSort (fun a b => a ≤ b)).Nodup :=
    (List.perm_insertionSort _ _).nodup_iff.2 (sym_neighbours_nodup csr hwf hsorted flags d hd)
  exact h1.lt_of_le h2

theorem validate_spec (pe : par_env) (partitions : List Nat) (csr : ll_400_graph) (flags : Nat)
    (hwf : well_formed csr) (hsorted : sorted_neighbour_lists csr)
    (hcover : partitions_cover partitions (pe.threads_count * 64) csr.vertices_count)
    (hf : flags &&& 2 ≠ 0) (out : ll_400_graph) (last : List Nat)
    (hn : out.vertices_count = csr.vertices_count)
    (hec : out.edges_count = sym_offset csr flags csr.vertices_count)
    (hoffs : ∀ d, d ≤ csr.vertices_count → rd out.offsets_list d = sym_offset csr flags d)
    (hlast : ∀ d, d < csr.vertices_count → rd last d = rd out.offsets_list (d + 1))
    (hnl : ∀ d, d < csr.vertices_count → neighbour_list out d = out_neighbours csr flags d) :
    csr2sym_validate pe partitions csr out last flags = Except.ok () := by
  have hmem : ∀ d s, d < csr.vertices_count → (s ∈ neighbour_list out d ↔
      (s ∈ neighbour_list csr d ∨ d ∈ neighbour_list csr s) ∧ ¬ (flags &&& 4 ≠ 0 ∧ s = d)) := by
    intro d s hd
    rw [hnl d hd, mem_out_neighbours, mem_sym_neighbours csr hwf]
  have hv1 : for_partition_vertices partitions (pe.threads_count * 64)
      (csr2sym_validate1_vertex csr out last flags) () = Except.ok () := by
    rw [for_partition_vertices_eq partitions _ _ hcover]
    apply foldlM_unit_ok
    intro v hv
    rw [List.mem_range] at hv
    unfold csr2sym_validate1_vertex
    rw [if_neg (by rw [hlast v hv]; simp), if_neg (by
      rw [hoffs v (by omega), hoffs (v + 1) (by omega), sym_offset_succ]; omega)]
    apply foldlM_unit_ok
    intro e he
    have hsrc : rd out.edges_list e ∈ neighbour_list out v := List.mem_map_of_mem _ he
    have hsrcn : rd out.edges_list e < csr.vertices_count := by
      rw [hnl v hv, mem_out_neighbours] at hsrc
      exact mem_sym_neighbours_lt csr hwf flags v _ hv hsrc
    rw [hmem v _ hv] at hsrc
    unfold csr2sym_validate1_edge
    rw [if_neg hsrc.2]
    have hb1 := uint_binary_search_isSome csr (rd out.edges_list e) v (hsorted _ hsrcn)
    have hb2 := uint_binary_search_isSome csr v (rd out.edges_list e) (hsorted _ hv)
    by_cases h1 : v ∈ neighbour_list csr (rd out.edges_list e)
    · rw [if_pos (hb1.2 h1)]
    · rw [if_neg (fun h => h1 (hb1.1 h))]
      rcases hsrc.1 with h2 | h2
      · rw [if_pos (hb2.2 h2)]
      · exact absurd h2 h1
  have hv2 : for_partition_vertices partitions (pe.threads_count * 64)
      (csr2sym_validate2_vertex csr out flags) () = Except.ok () := by
    rw [for_partition_vertices_eq partitions _ _ hcover]
    apply foldlM_unit_ok
    intro v hv
    rw [List.mem_range] at hv
    unfold csr2sym_validate2_vertex
    apply foldlM_unit_ok
    intro e he
    have hdest : rd csr.edges_list e ∈ neighbour_list csr v := List.mem_map_of_mem _ he
    have hdn := mem_neighbour_list_lt csr hwf v _ hv hdest
    unfold csr2sym_validate2_edge
    by_cases h1 : flags &&& 4 ≠ 0 ∧ v = rd csr.edges_list e
    · rw [if_pos h1]
    · rw [if_neg h1]
      have hs1 : ∀ d, d < csr.vertices_count →
          (neighbour_list out d).Pairwise (fun a b => a < b) := by
        intro d hd
        rw [hnl d hd]
        exact out_neighbours_sorted csr hwf hsorted flags d hd hf
      have hb1 := (uint_binary_search_isSome out v (rd csr.edges_list e) (hs1 v hv)).2
        ((hmem v _ hv).2 ⟨Or.inl hdest, fun h => h1 ⟨h.1, h.2.symm⟩⟩)
      have hb2 := (uint_binary_search_isSome out (rd csr.edges_list e) v (hs1 _ hdn)).2
        ((hmem _ v hdn).2 ⟨Or.inr hdest, h1⟩)
      rw [Option.isSome_iff_exists] at hb1 hb2
      obtain ⟨i1, hi1⟩ := hb1
      obtain ⟨i2, hi2⟩ := hb2
      rw [hi1, hi2]
      rfl
  unfold csr2sym_validate
  rw [if_neg (by rw [hn]; simp), if_neg (by rw [hoffs 0 (by omega)]; simp [sym_offset]),
    if_neg (by rw [hn, hoffs _ (Nat.le_refl _), hec]; simp), hv1]
  simp only []
  rw [if_neg hf, hv2]

/-! ## `csr2sym` -/

theorem csr2sym_of_build (pe : par_env) (partitions : List Nat) (csr : ll_400_graph)
    (flags : Nat) (out : ll_400_graph) (h : csr2sym pe partitions csr flags = Except.ok out) :
    ∃ last, csr2sym_build pe partitions csr flags = Except.ok (out, last) := by
  unfold csr2sym at h
  cases hb : csr2sym_build pe partitions csr flags with
  | error msg => rw [hb] at h; simp at h
  | ok built =>
    rw [hb] at h
    simp only [] at h
    by_cases hf : flags &&& 1 ≠ 0
    · rw [if_pos hf] at h
      cases hv : csr2sym_validate pe partitions csr built.1 built.2 flags with
      | error msg => rw [hv] at h; simp at h
      | ok u =>
        rw [hv] at h
        simp only [Except.ok.injEq] at h
        exact ⟨built.2, by rw [← h]⟩
    · rw [if_neg hf] at h
      simp only [Except.ok.injEq] at h
      exact ⟨built.2, by rw [← h]⟩

/-- What `csr2sym` returns on a well-formed graph with sorted neighbour-lists. -/
theorem csr2sym_facts (pe : par_env) (partitions : List Nat) (csr : ll_400_graph) (flags : Nat)
    (hwf : well_formed csr) (hsorted : sorted_neighbour_lists csr)
    (hcover : partitions_cover partitions (pe.threads_count * 64) csr.vertices_count)
    (out : ll_400_graph) (h : csr2sym pe partitions csr flags = Except.ok out) :
    out.vertices_count = csr.vertices_count ∧
    out.edges_count = sym_offset csr flags csr.vertices_count ∧
    out.offsets_list.length = csr.vertices_count + 1 ∧
    out.edges_list.length = out.edges_count ∧
    (∀ d, d ≤ csr.vertices_count → rd out.offsets_list d = sym_offset csr flags d) ∧
    (∀ d, d < csr.vertices_count → neighbour_list out d = out_neighbours csr flags d) := by
  obtain ⟨last, hb⟩ := csr2sym_of_build pe partitions csr flags out h
  obtain ⟨_, _, out', last', _, _, hb', _, f1, f2, f3, f4, f5, _, f7⟩ :=
    build_spec pe partitions csr flags hwf hsorted hcover
  rw [hb] at hb'
  simp only [Except.ok.injEq, Prod.mk.injEq] at hb'
  obtain ⟨rfl, rfl⟩ := hb'
  exact ⟨f1, f2, f3, f4, f5, f7⟩

/-- `csr2sym` returns a graph unless validation is requested without sorting. -/
theorem csr2sym_returns (pe : par_env) (partitions : List Nat) (csr : ll_400_graph) (flags : Nat)
    (hwf : well_formed csr) (hsorted : sorted_neighbour_lists csr)
    (hcover : partitions_cover partitions (pe.threads_count * 64) csr.vertices_count)
    (hflags : flags &&& 1 = 0 ∨ flags &&& 2 ≠ 0) :
    ∃ out, csr2sym pe partitions csr flags = Except.ok out := by
  obtain ⟨_, _, out, last, _, _, hb, _, f1, f2, f3, f4, f5, f6, f7⟩ :=
    build_spec pe partitions csr flags hwf hsorted hcover
  refine ⟨out, ?_⟩
  unfold csr2sym
  rw [hb]
  simp only []
  by_cases hf : flags &&& 1 ≠ 0
  · rw [if_pos hf]
    have hf2 : flags &&& 2 ≠ 0 := by
      rcases hflags with h | h
      · exact absurd h hf
      · exact h
    rw [validate_spec pe partitions csr flags hwf hsorted hcover hf2 out last f1 f2 f5 f6 f7]
  · rw [if_neg hf]

/-! ## Claims on `csr2sym` -/

/-- C1: for every well-formed CSR graph with strictly increasing neighbour-lists and every
flags value, a graph returned by `csr2sym` is symmetric: `u` occurs in the output
neighbour-list of `v` if and only if `v` occurs in the output neighbour-list of `u`.
A graph is returned unless validation (bit 0) is requested without sorting (bit 1). -/
theorem csr2sym_symmetric (pe : par_env) (partitions : List Nat) (csr : ll_400_graph)
    (flags : Nat) (hwf : well_formed csr) (hsorted : sorted_neighbour_lists csr)
    (hcover : partitions_cover partitions (pe.threads_count * 64) csr.vertices_count) :
    (∀ out, csr2sym pe partitions csr flags = Except.ok out →
      ∀ u v, u < out.vertices_count → v < out.vertices_count →
        (u ∈ neighbour_list out v ↔ v ∈ neighbour_list out u)) ∧
    ((flags &&& 1 = 0 ∨ flags &&& 2 ≠ 0) →
      ∃ out, csr2sym pe partitions csr flags = Except.ok out) := by
  refine ⟨?_, csr2sym_returns pe partitions csr flags hwf hsorted hcover⟩
  intro out hout u v hu hv
  obtain ⟨hn, _, _, _, _, hnl⟩ := csr2sym_facts pe partitions csr flags hwf hsorted hcover out hout
  rw [hn] at hu hv
  rw [hnl v hv, hnl u hu, mem_out_neighbours, mem_out_neighbours,
    mem_sym_neighbours csr hwf, mem_sym_neighbours csr hwf]
  constructor
  · rintro ⟨h1, h2⟩
    exact ⟨h1.symm, fun h => h2 ⟨h.1, h.2.symm⟩⟩
  · rintro ⟨h1, h2⟩
    exact ⟨h1.symm, fun h => h2 ⟨h.1, h.2.symm⟩⟩

theorem csr2sym_symmetric_witness :
    well_formed sample_csr ∧ sorted_neighbour_lists sample_csr ∧
    partitions_cover sample_partitions (sample_pe.threads_count * 64) sample_csr.vertices_count ∧
    ((∀ out, csr2sym sample_pe sample_partitions sample_csr 6 = Except.ok out →
      ∀ u v, u < out.vertices_count → v < out.vertices_count →
        (u ∈ neighbour_list out v ↔ v ∈ neighbour_list out u)) ∧
    (((6 : Nat) &&& 1 = 0 ∨ (6 : Nat) &&& 2 ≠ 0) →
      ∃ out, csr2sym sample_pe sample_partitions sample_csr 6 = Except.ok out)) :=
  ⟨by decide, by decide, by decide,
    csr2sym_symmetric sample_pe sample_partitions sample_csr 6 (by decide) (by decide)
      (by decide)⟩

/-- C2: for every well-formed CSR graph with strictly increasing neighbour-lists, every
input edge `v → d` (self-edges excepted when bit 2 of `flags` is set) is present in a
graph returned by `csr2sym` at both endpoints: `d` is in the output list of `v` and `v` is
in the output list of `d`. -/
theorem csr2sym_keeps_input_edges (pe : par_env) (partitions : List Nat) (csr : ll_400_graph)
    (flags : Nat) (hwf : well_formed csr) (hsorted : sorted_neighbour_lists csr)
    (hcover : partitions_cover partitions (pe.threads_count * 64) csr.vertices_count) :
    (∀ out, csr2sym pe partitions csr flags = Except.ok out →
      ∀ v d, v < csr.vertices_count → d ∈ neighbour_list csr v →
        ¬ (flags &&& 4 ≠ 0 ∧ v = d) →
        d ∈ neighbour_list out v ∧ v ∈ neighbour_list out d) ∧
    ((flags &&& 1 = 0 ∨ flags &&& 2 ≠ 0) →
      ∃ out, csr2sym pe partitions csr flags = Except.ok out) := by
  refine ⟨?_, csr2sym_returns pe partitions csr flags hwf hsorted hcover⟩
  intro out hout v d hv hd hself
  obtain ⟨_, _, _, _, _, hnl⟩ := csr2sym_facts pe partitions csr flags hwf hsorted hcover out hout
  have hdn := mem_neighbour_list_lt csr hwf v d hv hd
  rw [hnl v hv, hnl d hdn, mem_out_neighbours, mem_out_neighbours,
    mem_sym_neighbours csr hwf, mem_sym_neighbours csr hwf]
  exact ⟨⟨Or.inl hd, fun h => hself ⟨h.1, h.2.symm⟩⟩, ⟨Or.inr hd, hself⟩⟩

theorem csr2sym_keeps_input_edges_witness :
    well_formed sample_csr ∧ sorted_neighbour_lists sample_csr ∧
    partitions_cover sample_partitions (sample_pe.threads_count * 64) sample_csr.vertices_count ∧
    ((∀ out, csr2sym sample_pe sample_partitions sample_csr 4 = Except.ok out →
      ∀ v d, v < sample_csr.vertices_count → d ∈ neighbour_list sample_csr v →
        ¬ ((4 : Nat) &&& 4 ≠ 0 ∧ v = d) →
        d ∈ neighbour_list out v ∧ v ∈ neighbour_list out d) ∧
    (((4 : Nat) &&& 1 = 0 ∨ (4 : Nat) &&& 2 ≠ 0) →
      ∃ out, csr2sym sample_pe sample_partitions sample_csr 4 = Except.ok out)) :=
  ⟨by decide, by decide, by decide,
    csr2sym_keeps_input_edges sample_pe sample_partitions sample_csr 4 (by decide) (by decide)
      (by decide)⟩

/-- C3: for every well-formed CSR graph with strictly increasing neighbour-lists, every
entry `s` of the output neighbour-list of a vertex `v` comes from the input: the input
contains the edge `s → v` or the edge `v → s`. -/
theorem csr2sym_invents_no_edge (pe : par_env) (partitions : List Nat) (csr : ll_400_graph)
    (flags : Nat) (hwf : well_formed csr) (hsorted : sorted_neighbour_lists csr)
    (hcover : partitions_cover partitions (pe.threads_count * 64) csr.vertices_count) :
    (∀ out, csr2sym pe partitions csr flags = Except.ok out →
      ∀ v s, v < csr.vertices_count → s ∈ neighbour_list out v →
        v ∈ neighbour_list csr s ∨ s ∈ neighbour_list csr v) ∧
    ((flags &&& 1 = 0 ∨ flags &&& 2 ≠ 0) →
      ∃ out, csr2sym pe partitions csr flags = Except.ok out) := by
  refine ⟨?_, csr2sym_returns pe partitions csr flags hwf hsorted hcover⟩
  intro out hout v s hv hs
  obtain ⟨_, _, _, _, _, hnl⟩ := csr2sym_facts pe partitions csr flags hwf hsorted hcover out hout
  rw [hnl v hv, mem_out_neighbours, mem_sym_neighbours csr hwf] at hs
  exact hs.1.symm

theorem csr2sym_invents_no_edge_witness :
    well_formed sample_csr ∧ sorted_neighbour_lists sample_csr ∧
    partitions_cover sample_partitions (sample_pe.threads_count * 64) sample_csr.vertices_count ∧
    ((∀ out, csr2sym sample_pe sample_partitions sample_csr 0 = Except.ok out →
      ∀ v s, v < sample_csr.vertices_count → s ∈ neighbour_list out v →
        v ∈ neighbour_list sample_csr s ∨ s ∈ neighbour_list sample_csr v) ∧
    (((0 : Nat) &&& 1 = 0 ∨ (0 : Nat) &&& 2 ≠ 0) →
      ∃ out, csr2sym sample_pe sample_partitions sample_csr 0 = Except.ok out)) :=
  ⟨by decide, by decide, by decide,
    csr2sym_invents_no_edge sample_pe sample_partitions sample_csr 0 (by decide) (by decide)
      (by decide)⟩

/-- C4: when bit 2 of `flags` (value 4) is set, a graph returned by `csr2sym` has no
self-loop: no vertex `v` occurs in its own output neighbour-list, whatever self-edges
the input had. -/
theorem csr2sym_no_self_loop (pe : par_env) (partitions : List Nat) (csr : ll_400_graph)
    (flags : Nat) (hwf : well_formed csr) (hsorted : sorted_neighbour_lists csr)
    (hcover : partitions_cover partitions (pe.threads_count * 64) csr.vertices_count)
    (hbit : flags &&& 4 ≠ 0) :
    (∀ out, csr2sym pe partitions csr flags = Except.ok out →
      ∀ v, v < out.vertices_count → v ∉ neighbour_list out v) ∧
    ((flags &&& 1 = 0 ∨ flags &&& 2 ≠ 0) →
      ∃ out, csr2sym pe partitions csr flags = Except.ok out) := by
  refine ⟨?_, csr2sym_returns pe partitions csr flags hwf hsorted hcover⟩
  intro out hout v hv hmem
  obtain ⟨hn, _, _, _, _, hnl⟩ := csr2sym_facts pe partitions csr flags hwf hsorted hcover out hout
  rw [hn] at hv
  rw [hnl v hv, mem_out_neighbours, mem_sym_neighbours csr hwf] at hmem
  exact hmem.2 ⟨hbit, rfl⟩

theorem csr2sym_no_self_loop_witness :
    well_formed sample_csr ∧ sorted_neighbour_lists sample_csr ∧
    partitions_cover sample_partitions (sample_pe.threads_count * 64) sample_csr.vertices_count ∧
    (7 : Nat) &&& 4 ≠ 0 ∧
    ((∀ out, csr2sym sample_pe sample_partitions sample_csr 7 = Except.ok out →
      ∀ v, v < out.vertices_count → v ∉ neighbour_list out v) ∧
    (((7 : Nat) &&& 1 = 0 ∨ (7 : Nat) &&& 2 ≠ 0) →
      ∃ out, csr2sym sample_pe sample_partitions sample_csr 7 = Except.ok out)) :=
  ⟨by decide, by decide, by decide, by decide,
    csr2sym_no_self_loop sample_pe sample_partitions sample_csr 7 (by decide) (by decide)
      (by decide) (by decide)⟩

/-- C5: when bit 1 of `flags` (value 2) is set, every neighbour-list of the graph returned
by `csr2sym` is sorted by neighbour ID and strictly increasing, for every well-formed input
with strictly increasing neighbour-lists; with this bit set a graph is always returned. -/
theorem csr2sym_sorted_output (pe : par_env) (partitions : List Nat) (csr : ll_400_graph)
    (flags : Nat) (hwf : well_formed csr) (hsorted : sorted_neighbour_lists csr)
    (hcover : partitions_cover partitions (pe.threads_count * 64) csr.vertices_count)
    (hbit : flags &&& 2 ≠ 0) :
    ∃ out, csr2sym pe partitions csr flags = Except.ok out ∧
      ∀ v, v < out.vertices_count →
        (neighbour_list out v).Pairwise (fun a b => a < b) := by
  obtain ⟨out, hout⟩ := csr2sym_returns pe partitions csr flags hwf hsorted hcover (Or.inr hbit)
  refine ⟨out, hout, ?_⟩
  intro v hv
  obtain ⟨hn, _, _, _, _, hnl⟩ := csr2sym_facts pe partitions csr flags hwf hsorted hcover out hout
  rw [hn] at hv
  rw [hnl v hv]
  exact out_neighbours_sorted csr hwf hsorted flags v hv hbit

theorem csr2sym_sorted_output_witness :
    well_formed sample_csr ∧ sorted_neighbour_lists sample_csr ∧
    partitions_cover sample_partitions (sample_pe.threads_count * 64) sample_csr.vertices_count ∧
    (3 : Nat) &&& 2 ≠ 0 ∧
    ∃ out, csr2sym sample_pe sample_partitions sample_csr 3 = Except.ok out ∧
      ∀ v, v < out.vertices_count →
        (neighbour_list out v).Pairwise (fun a b => a < b) :=
  ⟨by decide, by decide, by decide, by decide,
    csr2sym_sorted_output sample_pe sample_partitions sample_csr 3 (by decide) (by decide)
      (by decide) (by decide)⟩

/-- C6: the graph returned by `csr2sym` has a well-formed offsets array: `vertices_count`
equals the input's, `offsets_list[0] = 0`, `offsets_list[v] <= offsets_list[v+1]` for every
`v < n`, and `offsets_list[n] = edges_count`, where `edges_count` is the sum of the
symmetric degrees that steps 1 and 2 leave in `offsets_list[0 .. n)`. -/
theorem csr2sym_offsets_well_formed (pe : par_env) (partitions : List Nat) (csr : ll_400_graph)
    (flags : Nat) (hwf : well_formed csr) (hsorted : sorted_neighbour_lists csr)
    (hcover : partitions_cover partitions (pe.threads_count * 64) csr.vertices_count) :
    (∀ out, csr2sym pe partitions csr flags = Except.ok out →
      out.vertices_count = csr.vertices_count ∧
      rd out.offsets_list 0 = 0 ∧
      (∀ v, v < out.vertices_count → rd out.offsets_list v ≤ rd out.offsets_list (v + 1)) ∧
      rd out.offsets_list out.vertices_count = out.edges_count ∧
      ∃ offsets1 degrees,
        csr2sym_step1 pe partitions csr flags = Except.ok offsets1 ∧
        csr2sym_step2 pe partitions csr offsets1 = Except.ok degrees ∧
        out.edges_count = ((List.range csr.vertices_count).map (rd degrees.1)).sum) ∧
    ((flags &&& 1 = 0 ∨ flags &&& 2 ≠ 0) →
      ∃ out, csr2sym pe partitions csr flags = Except.ok out) := by
  refine ⟨?_, csr2sym_returns pe partitions csr flags hwf hsorted hcover⟩
  intro out hout
  obtain ⟨last, hb⟩ := csr2sym_of_build pe partitions csr flags out hout
  obtain ⟨offs1, degs, out', last', h1, h2, hb', hsum, f1, f2, _, _, f5, _, _⟩ :=
    build_spec pe partitions csr flags hwf hsorted hcover
  rw [hb] at hb'
  simp only [Except.ok.injEq, Prod.mk.injEq] at hb'
  obtain ⟨rfl, rfl⟩ := hb'
  refine ⟨f1, ?_, ?_, ?_, offs1, degs, h1, h2, hsum⟩
  · rw [f5 0 (by omega)]; simp [sym_offset]
  · intro v hv
    rw [f1] at hv
    rw [f5 v (by omega), f5 (v + 1) (by omega), sym_offset_succ]
    omega
  · rw [f1, f5 _ (Nat.le_refl _), f2]

theorem csr2sym_offsets_well_formed_witness :
    well_formed sample_csr ∧ sorted_neighbour_lists sample_csr ∧
    partitions_cover sample_partitions (sample_pe.threads_count * 64) sample_csr.vertices_count ∧
    ((∀ out, csr2sym sample_pe sample_partitions sample_csr 2 = Except.ok out →
      out.vertices_count = sample_csr.vertices_count ∧
      rd out.offsets_list 0 = 0 ∧
      (∀ v, v < out.vertices_count → rd out.offsets_list v ≤ rd out.offsets_list (v + 1)) ∧
      rd out.offsets_list out.vertices_count = out.edges_count ∧
      ∃ offsets1 degrees,
        csr2sym_step1 sample_pe sample_partitions sample_csr 2 = Except.ok offsets1 ∧
        csr2sym_step2 sample_pe sample_partitions sample_csr offsets1 = Except.ok degrees ∧
        out.edges_count = ((List.range sample_csr.vertices_count).map (rd degrees.1)).sum) ∧
    (((2 : Nat) &&& 1 = 0 ∨ (2 : Nat) &&& 2 ≠ 0) →
      ∃ out, csr2sym sample_pe sample_partitions sample_csr 2 = Except.ok out)) :=
  ⟨by decide, by decide, by decide,
    csr2sym_offsets_well_formed sample_pe sample_partitions sample_csr 2 (by decide) (by decide)
      (by decide)⟩

/-- C8 (amended): for every input whose offsets are non-decreasing and every flags value,
step 1 of `csr2sym` stops with the assertion "The CSR graph does not have sorted
neighbour-lists" if and only if some vertex has two consecutive neighbour-list entries
`edges[e] >= edges[e+1]`; otherwise step 1 completes; and when step 1 stops with this
assertion so does `csr2sym`. -/
theorem csr2sym_sorted_assertion (pe : par_env) (partitions : List Nat) (csr : ll_400_graph)
    (flags : Nat)
    (hmono : ∀ v, v < csr.vertices_count → rd csr.offsets_list v ≤ rd csr.offsets_list (v + 1))
    (hcover : partitions_cover partitions (pe.threads_count * 64) csr.vertices_count) :
    (csr2sym_step1 pe partitions csr flags =
        Except.error "The CSR graph does not have sorted neighbour-lists" ↔
      ∃ v, v < csr.vertices_count ∧ unsorted_at csr v) ∧
    ((¬ ∃ v, v < csr.vertices_count ∧ unsorted_at csr v) →
      ∃ offsets1, csr2sym_step1 pe partitions csr flags = Except.ok offsets1) ∧
    (csr2sym_step1 pe partitions csr flags =
        Except.error "The CSR graph does not have sorted neighbour-lists" →
      csr2sym pe partitions csr flags =
        Except.error "The CSR graph does not have sorted neighbour-lists") := by
  have hstep : csr2sym_step1 pe partitions csr flags =
      (List.range csr.vertices_count).foldlM (csr2sym_check_vertex csr flags)
        (List.replicate (1 + csr.vertices_count) 0) := by
    unfold csr2sym_step1
    rw [for_partition_vertices_eq partitions _ _ hcover]
  have h := step1_range csr flags (List.replicate (1 + csr.vertices_count) 0)
    csr.vertices_count hmono
  rw [← hstep] at h
  refine ⟨?_, ?_, ?_⟩
  · constructor
    · intro herr
      rcases h with h | h
      · exact h.1
      · obtain ⟨_, offs, hok, _⟩ := h
        rw [hok] at herr
        simp at herr
    · intro hv
      rcases h with h | h
      · exact h.2
      · exact absurd hv h.1
  · intro hno
    rcases h with h | h
    · exact absurd h.1 hno
    · obtain ⟨_, offs, hok, _⟩ := h
      exact ⟨offs, hok⟩
  · intro herr
    unfold csr2sym csr2sym_build
    rw [herr]

theorem csr2sym_sorted_assertion_witness :
    (∀ v, v < sample_csr.vertices_count →
      rd sample_csr.offsets_list v ≤ rd sample_csr.offsets_list (v + 1)) ∧
    partitions_cover sample_partitions (sample_pe.threads_count * 64) sample_csr.vertices_count ∧
    ((csr2sym_step1 sample_pe sample_partitions sample_csr 5 =
        Except.error "The CSR graph does not have sorted neighbour-lists" ↔
      ∃ v, v < sample_csr.vertices_count ∧ unsorted_at sample_csr v) ∧
    ((¬ ∃ v, v < sample_csr.vertices_count ∧ unsorted_at sample_csr v) →
      ∃ offsets1, csr2sym_step1 sample_pe sample_partitions sample_csr 5 = Except.ok offsets1) ∧
    (csr2sym_step1 sample_pe sample_partitions sample_csr 5 =
        Except.error "The CSR graph does not have sorted neighbour-lists" →
      csr2sym sample_pe sample_partitions sample_csr 5 =
        Except.error "The CSR graph does not have sorted neighbour-lists")) :=
  ⟨by decide, by decide,
    csr2sym_sorted_assertion sample_pe sample_partitions sample_csr 5 (by decide) (by decide)⟩

/-- C8 as stated fails: on `decreasing_csr` (offsets `[0, 2, 1, 3]`) vertex 2 has the
unsorted neighbour-list `[1, 0]`, yet step 1 stops at vertex 1 with the assertion
`degree >= 0`, not with the assertion on sorted neighbour-lists. -/
theorem csr2sym_sorted_assertion_counterexample :
    (∃ v, v < decreasing_csr.vertices_count ∧ unsorted_at decreasing_csr v) ∧
    csr2sym_step1 sample_pe small_partitions decreasing_csr 0 = Except.error "degree >= 0" ∧
    csr2sym sample_pe small_partitions decreasing_csr 0 = Except.error "degree >= 0" ∧
    ¬ (csr2sym_step1 sample_pe small_partitions decreasing_csr 0 =
          Except.error "The CSR graph does not have sorted neighbour-lists" ↔
        ∃ v, v < decreasing_csr.vertices_count ∧ unsorted_at decreasing_csr v) := by
  have hv : ∃ v, v < decreasing_csr.vertices_count ∧ unsorted_at decreasing_csr v :=
    ⟨2, by decide, 1, by decide, by decide, by decide⟩
  have h1 : csr2sym_step1 sample_pe small_partitions decreasing_csr 0 =
      Except.error "degree >= 0" := rfl
  refine ⟨hv, h1, rfl, ?_⟩
  intro h
  have h2 := h.2 hv
  rw [h1] at h2
  injection h2 with h3
  exact absurd h3 (by decide)

/-! ## Counting the edges of the symmetric graph -/

theorem list_sum_range_eq (f : Nat → Nat) (n : Nat) :
    ((List.range n).map f).sum = ∑ i ∈ Finset.range n, f i := by
  induction n with
  | zero => simp
  | succ n ih =>
    rw [List.range_succ, List.map_append, List.sum_append, ih, Finset.sum_range_succ]
    simp

theorem length_filter_eq_sum (p : Nat → Prop) [DecidablePred p] (l : List Nat) :
    (l.filter (fun a => decide (p a))).length = (l.map (fun a => if p a then 1 else 0)).sum := by
  induction l with
  | nil => rfl
  | cons a t ih =>
    by_cases h : p a
    · rw [List.filter_cons_of_pos (by simpa using h), List.length_cons, ih, List.map_cons,
        List.sum_cons, if_pos h]
      omega
    · rw [List.filter_cons_of_neg (by simpa using h), ih, List.map_cons, List.sum_cons,
        if_neg h]
      omega

theorem length_filter_range_eq (p : Nat → Prop) [DecidablePred p] (n : Nat) :
    ((List.range n).filter (fun a => decide (p a))).length =
      ∑ i ∈ Finset.range n, (if p i then 1 else 0) := by
  rw [length_filter_eq_sum, list_sum_range_eq]

theorem length_sym_neighbours_eq (csr : ll_400_graph) (hwf : well_formed csr)
    (hsorted : sorted_neighbour_lists csr) (flags d : Nat) (hd : d < csr.vertices_count)
    (hbit : flags &&& 4 ≠ 0) :
    (sym_neighbours csr flags d).length =
      ∑ s ∈ Finset.range csr.vertices_count,
        (if s ≠ d ∧ (s ∈ neighbour_list csr d ∨ d ∈ neighbour_list csr s) then 1 else 0) := by
  rw [← length_filter_range_eq]
  apply List.Perm.length_eq
  rw [List.perm_ext_iff_of_nodup (sym_neighbours_nodup csr hwf hsorted flags d hd)
    ((List.nodup_range _).filter _)]
  intro s
  rw [List.mem_filter, List.mem_range, decide_eq_true_iff, mem_sym_neighbours csr hwf]
  constructor
  · intro h
    refine ⟨?_, fun hs => h.2 ⟨hbit, hs⟩, h.1⟩
    exact mem_sym_neighbours_lt csr hwf flags d s hd ((mem_sym_neighbours csr hwf flags d s).2 h)
  · rintro ⟨_, h1, h2⟩
    exact ⟨h2, fun h => h1 h.2⟩

theorem double_count (n : Nat) (A : Nat → Nat → Prop) [∀ u v, Decidable (A u v)]
    (hA : ∀ u v, A u v ↔ A v u) :
    (∑ d ∈ Finset.range n, ∑ s ∈ Finset.range n, (if s ≠ d ∧ A d s then 1 else 0)) =
      2 * ∑ u ∈ Finset.range n, ∑ v ∈ Finset.range n, (if u < v ∧ A u v then 1 else 0) := by
  have hsplit : ∀ d s : Nat, (if s ≠ d ∧ A d s then 1 else 0) =
      (if d < s ∧ A d s then 1 else 0) + (if s < d ∧ A s d then 1 else 0) := by
    intro d s
    by_cases hA1 : A d s
    · have hA2 : A s d := (hA d s).1 hA1
      rcases Nat.lt_trichotomy d s with h | h | h
      · rw [if_pos ⟨by omega, hA1⟩, if_pos ⟨h, hA1⟩, if_neg (fun hh => by omega)]
      · subst h
        simp
      · rw [if_pos ⟨by omega, hA1⟩, if_neg (fun hh => by omega), if_pos ⟨h, hA2⟩]
    · have hA2 : ¬ A s d := fun h => hA1 ((hA s d).1 h)
      rw [if_neg (fun hh => hA1 hh.2), if_neg (fun hh => hA1 hh.2), if_neg (fun hh => hA2 hh.2)]
  simp only [hsplit, Finset.sum_add_distrib]
  rw [Finset.sum_comm (s := Finset.range n) (t := Finset.range n)
    (f := fun d s => if s < d ∧ A s d then 1 else 0)]
  omega



theorem sym_offset_eq_twice (csr : ll_400_graph) (hwf : well_formed csr)
    (hsorted : sorted_neighbour_lists csr) (flags : Nat) (hbit : flags &&& 4 ≠ 0) :
    sym_offset csr flags csr.vertices_count = 2 * undirected_edge_count csr := by
  unfold sym_offset undirected_edge_count
  rw [list_sum_range_eq, list_sum_range_eq]
  have h1 : ∀ d, d ∈ Finset.range csr.vertices_count → sym_degree csr flags d =
      ∑ s ∈ Finset.range csr.vertices_count,
        (if s ≠ d ∧ (s ∈ neighbour_list csr d ∨ d ∈ neighbour_list csr s) then 1 else 0) := by
    intro d hd
    rw [Finset.mem_range] at hd
    rw [← length_sym_neighbours, length_sym_neighbours_eq csr hwf hsorted flags d hd hbit]
  rw [Finset.sum_congr rfl h1]
  have h2 : ∀ u, u ∈ Finset.range csr.vertices_count →
      ((List.range csr.vertices_count).filter (fun v =>
        decide (u < v ∧ (v ∈ neighbour_list csr u ∨ u ∈ neighbour_list csr v)))).length =
      ∑ v ∈ Finset.range csr.vertices_count,
        (if u < v ∧ (v ∈ neighbour_list csr u ∨ u ∈ neighbour_list csr v) then 1 else 0) := by
    intro u _
    rw [length_filter_range_eq]
  rw [Finset.sum_congr rfl h2]
  exact double_count csr.vertices_count
    (fun u v => v ∈ neighbour_list csr u ∨ u ∈ neighbour_list csr v)
    (fun u v => Or.comm)

/-- C7: when bit 2 of `flags` (remove self-edges) is set, the `edges_count` of the graph
returned by `csr2sym` is exactly `2 * m`, where `m` is the number of unordered pairs
`{u, v}`, `u ≠ v`, such that the input contains `u → v` or `v → u`; in particular it is even
and an edge present in both directions is counted once. -/
theorem csr2sym_edges_count (pe : par_env) (partitions : List Nat) (csr : ll_400_graph)
    (flags : Nat) (hwf : well_formed csr) (hsorted : sorted_neighbour_lists csr)
    (hcover : partitions_cover partitions (pe.threads_count * 64) csr.vertices_count)
    (hbit : flags &&& 4 ≠ 0) :
    (∀ out, csr2sym pe partitions csr flags = Except.ok out →
      out.edges_count = 2 * undirected_edge_count csr) ∧
    ((flags &&& 1 = 0 ∨ flags &&& 2 ≠ 0) →
      ∃ out, csr2sym pe partitions csr flags = Except.ok out) := by
  refine ⟨?_, csr2sym_returns pe partitions csr flags hwf hsorted hcover⟩
  intro out hout
  obtain ⟨_, hec, _⟩ := csr2sym_facts pe partitions csr flags hwf hsorted hcover out hout
  rw [hec]
  exact sym_offset_eq_twice csr hwf hsorted flags hbit

theorem csr2sym_edges_count_witness :
    well_formed sample_csr ∧ sorted_neighbour_lists sample_csr ∧
    partitions_cover sample_partitions (sample_pe.threads_count * 64) sample_csr.vertices_count ∧
    (6 : Nat) &&& 4 ≠ 0 ∧
    ((∀ out, csr2sym sample_pe sample_partitions sample_csr 6 = Except.ok out →
      out.edges_count = 2 * undirected_edge_count sample_csr) ∧
    (((6 : Nat) &&& 1 = 0 ∨ (6 : Nat) &&& 2 ≠ 0) →
      ∃ out, csr2sym sample_pe sample_partitions sample_csr 6 = Except.ok out)) :=
  ⟨by decide, by decide, by decide, by decide,
    csr2sym_edges_count sample_pe sample_partitions sample_csr 6 (by decide) (by decide)
      (by decide) (by decide)⟩

/-! ## Step 1 of `add_4B_weight_to_ll_400_graph` -/

theorem weight_no_wrap (rand_val max_weight : Nat) (h1 : 1 ≤ max_weight)
    (h2 : max_weight < 2 ^ 32) :
    (1 + rand_val % max_weight) % 2 ^ 32 = 1 + rand_val % max_weight ∧
    1 ≤ 1 + rand_val % max_weight ∧ 1 + rand_val % max_weight ≤ max_weight := by
  have := Nat.mod_lt rand_val (by omega : max_weight > 0)
  refine ⟨Nat.mod_eq_of_lt (by omega), by omega, by omega⟩

theorem assign_edges_spec (g : ll_400_graph) (max_weight v : Nat) (h1 : 1 ≤ max_weight)
    (h2 : max_weight < 2 ^ 32) (k e : Nat) (st : List Nat × xoshiro256)
    (hlen : 2 * (e + k) ≤ st.1.length) :
    e ≤ (add_4B_weight_assign_edges g max_weight v k e st).1 ∧
    (add_4B_weight_assign_edges g max_weight v k e st).1 ≤ e + k ∧
    (add_4B_weight_assign_edges g max_weight v k e st).2.1.length = st.1.length ∧
    (∀ i, e ≤ i → i < (add_4B_weight_assign_edges g max_weight v k e st).1 →
      rd g.edges_list i ≤ v ∧
      rd (add_4B_weight_assign_edges g max_weight v k e st).2.1 (2 * i) = rd g.edges_list i ∧
      1 ≤ rd (add_4B_weight_assign_edges g max_weight v k e st).2.1 (2 * i + 1) ∧
      rd (add_4B_weight_assign_edges g max_weight v k e st).2.1 (2 * i + 1) ≤ max_weight) ∧
    ((add_4B_weight_assign_edges g max_weight v k e st).1 < e + k →
      rd g.edges_list (add_4B_weight_assign_edges g max_weight v k e st).1 > v) ∧
    (∀ j, j < 2 * e ∨ 2 * (e + k) ≤ j →
      rd (add_4B_weight_assign_edges g max_weight v k e st).2.1 j = rd st.1 j) := by
  induction k generalizing e st with
  | zero =>
    unfold add_4B_weight_assign_edges
    refine ⟨Nat.le_refl _, Nat.le_refl _, rfl, ?_, ?_, fun _ _ => rfl⟩
    · intro i h3 h4; omega
    · intro h; simp at h
  | succ k ih =>
    unfold add_4B_weight_assign_edges
    by_cases hbreak : rd g.edges_list e > v
    · rw [if_pos hbreak]
      refine ⟨Nat.le_refl _, by omega, rfl, ?_, fun _ => hbreak, fun _ _ => rfl⟩
      intro i h3 h4; omega
    · rw [if_neg hbreak]
      obtain ⟨w1, w2, w3⟩ := weight_no_wrap (xoshiro256_next st.2).1 max_weight h1 h2
      rw [w1]
      have hl : ((st.1.set (2 * e) (rd g.edges_list e)).set (2 * e + 1)
          (1 + (xoshiro256_next st.2).1 % max_weight)).length = st.1.length := by simp
      obtain ⟨i1, i2, i3, i4, i5, i6⟩ := ih (e + 1)
        ((st.1.set (2 * e) (rd g.edges_list e)).set (2 * e + 1)
          (1 + (xoshiro256_next st.2).1 % max_weight), (xoshiro256_next st.2).2)
        (by rw [hl]; omega)
      refine ⟨by omega, by omega, by rw [i3, hl], ?_, ?_, ?_⟩
      · intro i h3 h4
        by_cases hie : i = e
        · subst hie
          refine ⟨by omega, ?_, ?_, ?_⟩
          · rw [i6 (2 * i) (by omega), rd_set_ne _ _ _ _ (by omega),
              rd_set_eq _ _ _ (by omega)]
          · rw [i6 (2 * i + 1) (by omega), rd_set_eq _ _ _ (by simp; omega)]
            exact w2
          · rw [i6 (2 * i + 1) (by omega), rd_set_eq _ _ _ (by simp; omega)]
            exact w3
        · exact i4 i (by omega) h4
      · intro h
        exact i5 (by omega)
      · intro j hj
        rw [i6 j (by omega), rd_set_ne _ _ _ _ (by omega), rd_set_ne _ _ _ _ (by omega)]

theorem assign_vertex_spec (g : ll_400_graph) (hwf : well_formed g)
    (hsorted : sorted_neighbour_lists g) (max_weight : Nat) (h1 : 1 ≤ max_weight)
    (h2 : max_weight < 2 ^ 32) (v : Nat) (hv : v < g.vertices_count)
    (st : List Nat × List Nat) (s : xoshiro256)
    (hinv : assign_invariant g max_weight v st) :
    assign_invariant g max_weight (v + 1)
      (add_4B_weight_assign_vertex g max_weight (st, s) v).1 := by
  obtain ⟨l1, l2, b1, b2⟩ := hinv
  have hmono := hwf.2.2.2.1 v hv
  have hend : rd g.offsets_list (v + 1) ≤ g.edges_count := by
    have := offsets_mono g hwf (v + 1) g.vertices_count (by omega) (Nat.le_refl _)
    rw [hwf.2.2.2.2.1] at this
    exact this
  have hk : rd g.offsets_list v + (rd g.offsets_list (v + 1) - rd g.offsets_list v) =
      rd g.offsets_list (v + 1) := by omega
  obtain ⟨a1, a2, a3, a4, a5, a6⟩ := assign_edges_spec g max_weight v h1 h2
    (rd g.offsets_list (v + 1) - rd g.offsets_list v) (rd g.offsets_list v) (st.2, s)
    (by rw [hk]; show _ ≤ st.2.length; rw [l2]; omega)
  rw [hk] at a2 a5 a6
  unfold add_4B_weight_assign_vertex
  dsimp only at a1 a2 a3 a4 a5 a6 ⊢
  refine ⟨by simp [l1], by rw [← l2]; exact a3, ?_, ?_⟩
  · intro u hu
    by_cases huv : v = u
    · subst huv
      show boundary g v (rd (st.1.set v _) v) (v + 1)
      rw [rd_set_eq _ _ _ (by omega)]
      refine ⟨a1, a2, ?_, ?_⟩
      · intro i h3 h4
        have := (a4 i h3 h4).1
        omega
      · intro i h3 h4
        have hfirst := a5 (by omega)
        by_cases hi : i = (add_4B_weight_assign_edges g max_weight v
            (rd g.offsets_list (v + 1) - rd g.offsets_list v) (rd g.offsets_list v) (st.2, s)).1
        · rw [hi]; omega
        · have := sorted_pointwise g v (hsorted v hv) _ i a1 (by omega) h4
          omega
    · show boundary g u (rd (st.1.set v _) u) (u + 1)
      rw [rd_set_ne _ _ _ _ huv]
      exact b1 u (by omega)
  · intro u hu i h3 h4
    by_cases huv : v = u
    · subst huv
      show rd _ (2 * i) = _ ∧ 1 ≤ rd _ (2 * i + 1) ∧ rd _ (2 * i + 1) ≤ _
      have h4' : i < (add_4B_weight_assign_edges g max_weight v
          (rd g.offsets_list (v + 1) - rd g.offsets_list v) (rd g.offsets_list v) (st.2, s)).1 := by
        have : rd (st.1.set v (add_4B_weight_assign_edges g max_weight v
          (rd g.offsets_list (v + 1) - rd g.offsets_list v) (rd g.offsets_list v) (st.2, s)).1) v
            = (add_4B_weight_assign_edges g max_weight v
          (rd g.offsets_list (v + 1) - rd g.offsets_list v) (rd g.offsets_list v) (st.2, s)).1 :=
          rd_set_eq _ _ _ (by omega)
        rw [← this]; exact h4
      exact (a4 i h3 h4').2
    · have hult : u < v := by omega
      have h4' : i < rd st.1 u := by
        have : rd (st.1.set v (add_4B_weight_assign_edges g max_weight v
          (rd g.offsets_list (v + 1) - rd g.offsets_list v) (rd g.offsets_list v) (st.2, s)).1) u
            = rd st.1 u := rd_set_ne _ _ _ _ huv
        rw [← this]; exact h4
      have hb := b1 u hult
      have hle := offsets_mono g hwf (u + 1) v (by omega) (by omega)
      have := b2 u hult i h3 h4'
      show rd _ (2 * i) = _ ∧ 1 ≤ rd _ (2 * i + 1) ∧ rd _ (2 * i + 1) ≤ _
      rw [a6 (2 * i) (by left; have := hb.2.1; omega),
        a6 (2 * i + 1) (by left; have := hb.2.1; omega)]
      exact this



theorem assign_vertices_spec (g : ll_400_graph) (hwf : well_formed g)
    (hsorted : sorted_neighbour_lists g) (max_weight : Nat) (h1 : 1 ≤ max_weight)
    (h2 : max_weight < 2 ^ 32) (k a : Nat) (hak : a + k ≤ g.vertices_count)
    (st : List Nat × List Nat) (s : xoshiro256)
    (hinv : assign_invariant g max_weight a st) :
    assign_invariant g max_weight (a + k)
      ((List.range' a k).foldl (add_4B_weight_assign_vertex g max_weight) (st, s)).1 := by
  induction k generalizing a st s with
  | zero => exact hinv
  | succ k ih =>
    rw [List.range'_succ, List.foldl_cons]
    have hstep := assign_vertex_spec g hwf hsorted max_weight h1 h2 a (by omega) st s hinv
    have := ih (a + 1) (by omega) (add_4B_weight_assign_vertex g max_weight (st, s) a).1
      (add_4B_weight_assign_vertex g max_weight (st, s) a).2 hstep
    have e : a + 1 + k = a + (k + 1) := by omega
    rw [e] at this
    exact this

theorem assign_partitions_spec (g : ll_400_graph) (hwf : well_formed g)
    (hsorted : sorted_neighbour_lists g) (max_weight : Nat) (h1 : 1 ≤ max_weight)
    (h2 : max_weight < 2 ^ 32) (partitions : List Nat) (count : Nat)
    (hcover : partitions_cover partitions count g.vertices_count)
    (st : List Nat × List Nat) (hinv : assign_invariant g max_weight 0 st)
    (j : Nat) (hj : j ≤ count) :
    assign_invariant g max_weight (rd partitions j)
      ((List.range j).foldl (add_4B_weight_assign_partition g max_weight partitions) st) := by
  induction j with
  | zero =>
    rw [hcover.2.1]
    exact hinv
  | succ j ih =>
    rw [List.range_succ, List.foldl_append]
    simp only [List.foldl_cons, List.foldl_nil]
    obtain ⟨_, h0, hn, hmono⟩ := hcover
    have hle := hmono j (by omega)
    have hlen : rd partitions (j + 1) ≤ g.vertices_count := by
      rw [← hn]
      exact boundaries_mono (fun q => rd partitions q) count hmono (j + 1) count (by omega)
        (Nat.le_refl _)
    have := assign_vertices_spec g hwf hsorted max_weight h1 h2
      (rd partitions (j + 1) - rd partitions j) (rd partitions j) (by omega)
      ((List.range j).foldl (add_4B_weight_assign_partition g max_weight partitions) st)
      (seed_partition j) (ih (by omega))
    have e : rd partitions j + (rd partitions (j + 1) - rd partitions j) =
        rd partitions (j + 1) := by omega
    rw [e] at this
    exact this

theorem add_4B_weight_step1_spec (pe : par_env) (partitions : List Nat) (g : ll_400_graph)
    (hwf : well_formed g) (hsorted : sorted_neighbour_lists g)
    (hcover : partitions_cover partitions (pe.threads_count * 64) g.vertices_count)
    (max_weight : Nat) (h1 : 1 ≤ max_weight) (h2 : max_weight < 2 ^ 32) :
    assign_invariant g max_weight g.vertices_count
      (add_4B_weight_step1 pe partitions g max_weight) := by
  have := assign_partitions_spec g hwf hsorted max_weight h1 h2 partitions
    (pe.threads_count * 64) hcover
    (List.replicate (1 + g.vertices_count) 0, List.replicate (2 * g.edges_count) 0)
    ⟨by simp; omega, by simp, fun v hv => by omega, fun v hv => by omega⟩
    (pe.threads_count * 64) (Nat.le_refl _)
  rw [hcover.2.2.1] at this
  exact this

/-! ## Step 2 of `add_4B_weight_to_ll_400_graph` -/

theorem boundary_le (g : ll_400_graph) (u c1 c2 b1 b2 : Nat) (hb : b1 ≤ b2)
    (h1 : boundary g u c1 b1) (h2 : boundary g u c2 b2) : c1 ≤ c2 := by
  by_contra hlt
  have hlt : c2 < c1 := by omega
  have := h1.2.2.1 c2 h2.1 hlt
  have := h2.2.2.2 c2 (Nat.le_refl _) (by have := h1.2.1; omega)
  omega

/-- In a strictly increasing list the slot of `v` is where the cursor of bound `v`
stands. -/
theorem boundary_slot (g : ll_400_graph) (u c v p : Nat)
    (hs : (neighbour_list g u).Pairwise (fun a b => a < b))
    (hb : boundary g u c v) (hp1 : rd g.offsets_list u ≤ p) (hp2 : p < rd g.offsets_list (u + 1))
    (hp : rd g.edges_list p = v) : p = c := by
  obtain ⟨b1, b2, b3, b4⟩ := hb
  by_contra hne
  rcases Nat.lt_or_gt_of_ne hne with h | h
  · have := b3 p hp1 h
    omega
  · have h1 := b4 c (Nat.le_refl _) (by omega)
    have h2 := sorted_pointwise g u hs c p b1 h hp2
    omega

theorem slots_disjoint (g : ll_400_graph) (hwf : well_formed g) (u u' i : Nat)
    (hu : u < g.vertices_count) (hu' : u' < g.vertices_count)
    (h1 : rd g.offsets_list u ≤ i) (h2 : i < rd g.offsets_list (u + 1))
    (h3 : rd g.offsets_list u' ≤ i) (h4 : i < rd g.offsets_list (u' + 1)) : u = u' :=
  slot_source_unique g hwf u u' i ((mem_all_slots g u i).2 ⟨hu, h1, h2⟩)
    ((mem_all_slots g u' i).2 ⟨hu', h3, h4⟩)

theorem mirror_inner_of_outer (g : ll_400_graph)
    (hsym : symmetric_graph g) (cursor1 edges1 : List Nat) (v : Nat)
    (hv : v < g.vertices_count) (st : List Nat × List Nat)
    (h : mirror_outer g cursor1 edges1 v st) :
    mirror_inner g cursor1 edges1 v (rd g.offsets_list v) st := by
  obtain ⟨hc, hb⟩ := h
  refine ⟨hc, fun u hu _ => hb u hu, ?_⟩
  intro u hu hnp
  have hbu := hb u hu
  by_cases huv : v ≤ u
  · have e1 : max v (u + 1) = u + 1 := by omega
    have e2 : max (v + 1) (u + 1) = u + 1 := by omega
    rw [e2]; rw [e1] at hbu; exact hbu
  · have e1 : max v (u + 1) = v := by omega
    have e2 : max (v + 1) (u + 1) = v + 1 := by omega
    rw [e2]; rw [e1] at hbu
    have hnot : v ∉ neighbour_list g u := by
      intro hmem
      have := hsym u hu v hv hmem
      rw [mem_neighbour_list] at this
      obtain ⟨i, i1, i2, i3⟩ := this
      exact hnp ⟨i, i1, i2, i3, by omega⟩
    obtain ⟨b1, b2, b3, b4⟩ := hbu
    refine ⟨b1, b2, fun i h1 h2 => by have := b3 i h1 h2; omega, ?_⟩
    intro i h1 h2
    have h3 := b4 i h1 h2
    have h4 : rd g.edges_list i ≠ v := by
      intro heq
      exact hnot ((mem_neighbour_list g u v).2 ⟨i, by omega, h2, heq⟩)
    omega

theorem mirror_edges_spec (g : ll_400_graph) (hwf : well_formed g)
    (hsorted : sorted_neighbour_lists g) (hsym : symmetric_graph g)
    (cursor1 edges1 : List Nat)
    (hc1 : ∀ u, u < g.vertices_count → boundary g u (rd cursor1 u) (u + 1))
    (v : Nat) (hv : v < g.vertices_count) (k e : Nat)
    (he1 : rd g.offsets_list v ≤ e) (he2 : e + k = rd g.offsets_list (v + 1))
    (st : List Nat × List Nat) (h : mirror_inner g cursor1 edges1 v e st) :
    mirror_outer g cursor1 edges1 (v + 1) (add_4B_weight_mirror_edges g v k e st) := by
  induction k generalizing e st with
  | zero =>
    unfold add_4B_weight_mirror_edges
    obtain ⟨hc, _, hb⟩ := h
    refine ⟨hc, fun u hu => hb u hu ?_⟩
    rintro ⟨i, i1, i2, _⟩
    omega
  | succ k ih =>
    unfold add_4B_weight_mirror_edges
    have hsv := hsorted v hv
    by_cases hbreak : rd g.edges_list e ≥ v
    · rw [if_pos hbreak]
      obtain ⟨hc, _, hb⟩ := h
      refine ⟨hc, fun u hu => hb u hu ?_⟩
      rintro ⟨i, i1, i2, i3, i4⟩
      by_cases hie : i = e
      · subst hie; omega
      · have := sorted_pointwise g v hsv e i he1 (by omega) i2
        omega
    · rw [if_neg hbreak]
      apply ih (e + 1) (by omega) (by omega)
      -- one iteration of the loop
      obtain ⟨⟨l1, l2, k1, k2⟩, hb1, hb2⟩ := h
      have hu : rd g.edges_list e < g.vertices_count :=
        slot_dest_lt g hwf v e ((mem_all_slots g v e).2 ⟨hv, he1, by omega⟩)
      have hsu := hsorted _ hu
      have huv : rd g.edges_list e < v := by omega
      have hbu := hb1 _ hu ⟨e, Nat.le_refl _, by omega, rfl, huv⟩
      have emax : max v (rd g.edges_list e + 1) = v := by omega
      rw [emax] at hbu
      -- the slot of `v` in the list of the neighbour is where its cursor stands
      have hmem : v ∈ neighbour_list g (rd g.edges_list e) :=
        hsym v hv _ hu ((mem_neighbour_list g v _).2 ⟨e, he1, by omega, rfl⟩)
      rw [mem_neighbour_list] at hmem
      obtain ⟨p, p1, p2, p3⟩ := hmem
      have hpc := boundary_slot g _ _ v p hsu hbu p1 p2 p3
      rw [← hpc] at hbu ⊢
      have hc1u := hc1 _ hu
      have hc1le := boundary_le g _ _ _ _ _ (by omega) hc1u hbu
      have hpec : p < g.edges_count := by
        have := offsets_mono g hwf (rd g.edges_list e + 1) g.vertices_count (by omega)
          (Nat.le_refl _)
        rw [hwf.2.2.2.2.1] at this
        omega
      -- the slot `e` is below the cursor that step 1 left for `v`
      have helow : e < rd cursor1 v := by
        by_contra hge
        have := (hc1 v hv).2.2.2 e (by omega) (by omega)
        omega
      have hread : rd (st.2.set (2 * p) v) (2 * e + 1) = rd edges1 (2 * e + 1) := by
        rw [rd_set_ne _ _ _ _ (by omega)]
        exact (k1 v hv e he1 helow).2
      rw [hread]
      have hkeep : ∀ i, i ≠ p →
          rd ((st.2.set (2 * p) v).set (2 * p + 1) (rd edges1 (2 * e + 1))) (2 * i) =
            rd st.2 (2 * i) ∧
          rd ((st.2.set (2 * p) v).set (2 * p + 1) (rd edges1 (2 * e + 1))) (2 * i + 1) =
            rd st.2 (2 * i + 1) := by
        intro i hi
        rw [rd_set_ne _ _ _ _ (by omega), rd_set_ne _ _ _ _ (by omega),
          rd_set_ne _ _ _ _ (by omega), rd_set_ne _ _ _ _ (by omega)]
        exact ⟨rfl, rfl⟩
      refine ⟨⟨by simp [l1], by simp [l2], ?_, ?_⟩, ?_, ?_⟩
      · -- the slots settled by step 1
        intro u' hu' i i1 i2
        have hne : i ≠ p := by
          rintro rfl
          have hb' := hc1 u' hu'
          have := slots_disjoint g hwf u' (rd g.edges_list e) i hu' hu i1
            (by have := hb'.2.1; omega) p1 p2
          subst this
          omega
        show rd _ (2 * i) = _ ∧ rd _ (2 * i + 1) = _
        rw [(hkeep i hne).1, (hkeep i hne).2]
        exact k1 u' hu' i i1 i2
      · -- the slots settled by step 2
        intro u' hu' i i1 i2
        show rd _ (2 * i) = _ ∧ ∃ e', _ ∧ _ ∧ _ ∧ rd _ (2 * i + 1) = _
        by_cases hip : i = p
        · rw [hip] at i1 i2 ⊢
          have huu : u' = rd g.edges_list e := by
            have hb' := hc1 u' hu'
            by_contra hne
            have hcur : rd (st.1.set (rd g.edges_list e) (p + 1)) u'
                = rd st.1 u' := rd_set_ne _ _ _ _ (fun h => hne h.symm)
            rw [hcur] at i2
            have hbnd : boundary g u' (rd st.1 u') (max (v + 1) (u' + 1)) ∨
                boundary g u' (rd st.1 u') (max v (u' + 1)) := by
              by_cases hp : ∃ i, e ≤ i ∧ i < rd g.offsets_list (v + 1) ∧
                  rd g.edges_list i = u' ∧ u' < v
              · right; exact hb1 u' hu' hp
              · left; exact hb2 u' hu' hp
            have hle : rd st.1 u' ≤ rd g.offsets_list (u' + 1) := by
              rcases hbnd with hh | hh <;> exact hh.2.1
            exact hne (slots_disjoint g hwf u' (rd g.edges_list e) p hu' hu
              (by have := hb'.1; omega) (by omega) p1 p2)
          subst huu
          refine ⟨?_, e, ?_, ?_, rfl, ?_⟩
          · rw [rd_set_ne _ _ _ _ (by omega), rd_set_eq _ _ _ (by rw [l2]; omega), p3]
          · rw [p3]; exact he1
          · rw [p3]; omega
          · rw [rd_set_eq _ _ _ (by simp; rw [l2]; omega)]
        · have hcur : i < rd st.1 u' := by
            by_cases huu : rd g.edges_list e = u'
            · subst huu
              have : rd (st.1.set (rd g.edges_list e) (p + 1))
                  (rd g.edges_list e) = p + 1 :=
                rd_set_eq _ _ _ (by omega)
              rw [this] at i2
              omega
            · have : rd (st.1.set (rd g.edges_list e) (p + 1)) u'
                  = rd st.1 u' := rd_set_ne _ _ _ _ huu
              rw [this] at i2
              exact i2
          rw [(hkeep i hip).1, (hkeep i hip).2]
          exact k2 u' hu' i i1 hcur
      · -- the cursors of the neighbours still to come
        intro u' hu' hpend
        obtain ⟨i, i1, i2, i3, i4⟩ := hpend
        have hne : rd g.edges_list e ≠ u' := by
          intro heq
          have := sorted_pointwise g v hsv e i he1 (by omega) i2
          omega
        show boundary g u' (rd (st.1.set _ _) u') _
        rw [rd_set_ne _ _ _ _ hne]
        exact hb1 u' hu' ⟨i, by omega, i2, i3, i4⟩
      · -- the cursors that are final for `v`
        intro u' hu' hnp
        show boundary g u' (rd (st.1.set _ _) u') _
        by_cases huu : rd g.edges_list e = u'
        · subst huu
          rw [rd_set_eq _ _ _ (by omega)]
          have emax' : max (v + 1) (rd g.edges_list e + 1) = v + 1 := by omega
          rw [emax']
          obtain ⟨b1, b2, b3, b4⟩ := hbu
          refine ⟨by omega, by omega, ?_, ?_⟩
          · intro i i1 i2
            by_cases hip : i = p
            · rw [hip, p3]; omega
            · have := b3 i i1 (by omega)
              omega
          · intro i i1 i2
            have := sorted_pointwise g _ hsu p i p1 (by omega) i2
            omega
        · rw [rd_set_ne _ _ _ _ huu]
          apply hb2 u' hu'
          rintro ⟨i, i1, i2, i3, i4⟩
          by_cases hie : i = e
          · subst hie; exact huu i3
          · exact hnp ⟨i, by omega, i2, i3, i4⟩

theorem mirror_vertices_spec (g : ll_400_graph) (hwf : well_formed g)
    (hsorted : sorted_neighbour_lists g) (hsym : symmetric_graph g)
    (cursor1 edges1 : List Nat)
    (hc1 : ∀ u, u < g.vertices_count → boundary g u (rd cursor1 u) (u + 1))
    (st : List Nat × List Nat) (h : mirror_outer g cursor1 edges1 0 st)
    (b : Nat) (hb : b ≤ g.vertices_count) :
    mirror_outer g cursor1 edges1 b
      ((List.range b).foldl (add_4B_weight_mirror_vertex g) st) := by
  induction b with
  | zero => exact h
  | succ b ih =>
    rw [List.range_succ, List.foldl_append]
    simp only [List.foldl_cons, List.foldl_nil]
    unfold add_4B_weight_mirror_vertex
    have hmono := hwf.2.2.2.1 b (by omega)
    exact mirror_edges_spec g hwf hsorted hsym cursor1 edges1 hc1 b (by omega) _ _
      (Nat.le_refl _) (by omega) _
      (mirror_inner_of_outer g hsym cursor1 edges1 b (by omega) _ (ih (by omega)))

theorem slot_value_unique (g : ll_400_graph) (u i j : Nat)
    (hs : (neighbour_list g u).Pairwise (fun a b => a < b))
    (hi1 : rd g.offsets_list u ≤ i) (hi2 : i < rd g.offsets_list (u + 1))
    (hj1 : rd g.offsets_list u ≤ j) (hj2 : j < rd g.offsets_list (u + 1))
    (h : rd g.edges_list i = rd g.edges_list j) : i = j := by
  by_contra hne
  rcases Nat.lt_or_gt_of_ne hne with hlt | hlt
  · have := sorted_pointwise g u hs i j hi1 hlt hj2
    omega
  · have := sorted_pointwise g u hs j i hj1 hlt hi2
    omega

theorem exists_slot_of_lt (g : ll_400_graph) (hwf : well_formed g) (i : Nat)
    (hi : i < g.edges_count) :
    ∃ u, u < g.vertices_count ∧ rd g.offsets_list u ≤ i ∧ i < rd g.offsets_list (u + 1) := by
  have hmem : i ∈ (all_slots g).map Prod.snd := by
    rw [map_snd_all_slots g hwf, List.mem_range]
    exact hi
  rw [List.mem_map] at hmem
  obtain ⟨⟨u, i'⟩, hx, rfl⟩ := hmem
  rw [mem_all_slots] at hx
  exact ⟨u, hx⟩

/-- The arrays after steps 1 and 2 of `add_4B_weight_to_ll_400_graph` on a symmetric
graph with strictly increasing neighbour-lists. -/
theorem add_4B_weight_steps_spec (pe : par_env) (partitions : List Nat) (g : ll_400_graph)
    (hwf : well_formed g) (hsorted : sorted_neighbour_lists g) (hsym : symmetric_graph g)
    (hcover : partitions_cover partitions (pe.threads_count * 64) g.vertices_count)
    (max_weight : Nat) (h1 : 1 ≤ max_weight) (h2 : max_weight < 2 ^ 32) :
    (add_4B_weight_step2 g (add_4B_weight_step1 pe partitions g max_weight)).1.length =
      g.vertices_count + 1 ∧
    (add_4B_weight_step2 g (add_4B_weight_step1 pe partitions g max_weight)).2.length =
      2 * g.edges_count ∧
    (∀ u, u < g.vertices_count →
      rd (add_4B_weight_step2 g (add_4B_weight_step1 pe partitions g max_weight)).1 u =
        rd g.offsets_list (u + 1)) ∧
    (∀ i, i < g.edges_count →
      rd (add_4B_weight_step2 g (add_4B_weight_step1 pe partitions g max_weight)).2 (2 * i) =
        rd g.edges_list i) ∧
    (∀ i, i < g.edges_count →
      1 ≤ rd (add_4B_weight_step2 g (add_4B_weight_step1 pe partitions g max_weight)).2
        (2 * i + 1) ∧
      rd (add_4B_weight_step2 g (add_4B_weight_step1 pe partitions g max_weight)).2
        (2 * i + 1) ≤ max_weight) ∧
    (∀ u, u < g.vertices_count → ∀ i, rd g.offsets_list u ≤ i → i < rd g.offsets_list (u + 1) →
      rd g.edges_list i ≠ u →
      ∃ j, rd g.offsets_list (rd g.edges_list i) ≤ j ∧
        j < rd g.offsets_list (rd g.edges_list i + 1) ∧ rd g.edges_list j = u ∧
        rd (add_4B_weight_step2 g (add_4B_weight_step1 pe partitions g max_weight)).2
          (2 * j + 1) =
        rd (add_4B_weight_step2 g (add_4B_weight_step1 pe partitions g max_weight)).2
          (2 * i + 1)) := by
  obtain ⟨a1, a2, a3, a4⟩ := add_4B_weight_step1_spec pe partitions g hwf hsorted hcover
    max_weight h1 h2
  generalize add_4B_weight_step1 pe partitions g max_weight = st1 at a1 a2 a3 a4 ⊢
  have hout0 : mirror_outer g st1.1 st1.2 0 st1 := by
    refine ⟨⟨a1, a2, ?_, ?_⟩, ?_⟩
    · intro u hu i i1 i2
      exact ⟨(a4 u hu i i1 i2).1, rfl⟩
    · intro u hu i i1 i2
      omega
    · intro u hu
      have e : max 0 (u + 1) = u + 1 := by omega
      rw [e]
      exact a3 u hu
  have hout := mirror_vertices_spec g hwf hsorted hsym st1.1 st1.2 a3 st1 hout0
    g.vertices_count (Nat.le_refl _)
  have hst2 : add_4B_weight_step2 g st1 =
      (List.range g.vertices_count).foldl (add_4B_weight_mirror_vertex g) st1 := rfl
  rw [← hst2] at hout
  generalize add_4B_weight_step2 g st1 = st2 at hout ⊢
  obtain ⟨⟨l1, l2, k1, k2⟩, hb⟩ := hout
  -- every cursor has reached the end of its list
  have hcur : ∀ u, u < g.vertices_count → rd st2.1 u = rd g.offsets_list (u + 1) := by
    intro u hu
    have hbu := hb u hu
    have e : max g.vertices_count (u + 1) = g.vertices_count := by omega
    rw [e] at hbu
    obtain ⟨b1, b2, b3, b4⟩ := hbu
    by_contra hne
    have hlt : rd st2.1 u < rd g.offsets_list (u + 1) := by omega
    have := b4 _ (Nat.le_refl _) hlt
    have := slot_dest_lt g hwf u _ ((mem_all_slots g u _).2 ⟨hu, b1, hlt⟩)
    omega
  -- a slot at or after the cursor of step 1 has a neighbour above its vertex
  have hupper : ∀ u, u < g.vertices_count → ∀ i, rd st1.1 u ≤ i →
      i < rd g.offsets_list (u + 1) → u < rd g.edges_list i := by
    intro u hu i i1 i2
    have := (a3 u hu).2.2.2 i i1 i2
    omega
  have hlower : ∀ u, u < g.vertices_count → ∀ i, rd g.offsets_list u ≤ i →
      i < rd g.offsets_list (u + 1) → rd g.edges_list i ≤ u → i < rd st1.1 u := by
    intro u hu i i1 i2 i3
    by_contra hge
    have := hupper u hu i (by omega) i2
    omega
  refine ⟨l1, l2, hcur, ?_, ?_, ?_⟩
  · intro i hi
    obtain ⟨u, hu, i1, i2⟩ := exists_slot_of_lt g hwf i hi
    by_cases hlow : i < rd st1.1 u
    · exact (k1 u hu i i1 hlow).1
    · exact (k2 u hu i (by omega) (by rw [hcur u hu]; exact i2)).1
  · intro i hi
    obtain ⟨u, hu, i1, i2⟩ := exists_slot_of_lt g hwf i hi
    by_cases hlow : i < rd st1.1 u
    · rw [(k1 u hu i i1 hlow).2]
      exact (a4 u hu i i1 hlow).2
    · obtain ⟨_, e, e1, e2, e3, e4⟩ := k2 u hu i (by omega) (by rw [hcur u hu]; exact i2)
      rw [e4]
      have hx : rd g.edges_list i < g.vertices_count :=
        slot_dest_lt g hwf u i ((mem_all_slots g u i).2 ⟨hu, i1, i2⟩)
      have hux := hupper u hu i (by omega) i2
      have he := hlower _ hx e e1 e2 (by omega)
      exact (a4 _ hx e e1 he).2
  · intro u hu i i1 i2 hne
    have hx : rd g.edges_list i < g.vertices_count :=
      slot_dest_lt g hwf u i ((mem_all_slots g u i).2 ⟨hu, i1, i2⟩)
    by_cases hlow : i < rd st1.1 u
    · -- the neighbour is below `u`: its list holds `u` in a slot written by step 2
      have hxu : rd g.edges_list i < u := by
        have := (a3 u hu).2.2.1 i i1 hlow
        omega
      have hmem := hsym u hu _ hx ((mem_neighbour_list g u _).2 ⟨i, i1, i2, rfl⟩)
      rw [mem_neighbour_list] at hmem
      obtain ⟨j, j1, j2, j3⟩ := hmem
      have hj : rd st1.1 (rd g.edges_list i) ≤ j := by
        by_contra hlt
        have := (a3 _ hx).2.2.1 j j1 (by omega)
        omega
      obtain ⟨_, e, e1, e2, e3, e4⟩ := k2 _ hx j hj (by rw [hcur _ hx]; exact j2)
      rw [j3] at e1 e2
      have hei := slot_value_unique g u e i (hsorted u hu) e1 e2 i1 i2 e3
      subst hei
      refine ⟨j, j1, j2, j3, ?_⟩
      rw [e4, (k1 u hu e i1 hlow).2]
    · -- the neighbour is above `u`: this slot was written by step 2 from the reverse slot
      obtain ⟨_, e, e1, e2, e3, e4⟩ := k2 u hu i (by omega) (by rw [hcur u hu]; exact i2)
      have hux := hupper u hu i (by omega) i2
      have he := hlower _ hx e e1 e2 (by omega)
      refine ⟨e, e1, e2, e3, ?_⟩
      rw [e4, (k1 _ hx e e1 he).2]

/-! ## Validation and the final loop of `add_4B_weight_to_ll_400_graph` -/

theorem find_mirror_spec (edges_list : List Nat) (v w k e2 : Nat)
    (hex : ∃ j, e2 ≤ j ∧ j < e2 + k ∧ rd edges_list (2 * j) = v)
    (hw : ∀ j, e2 ≤ j → j < e2 + k → rd edges_list (2 * j) = v →
      rd edges_list (2 * j + 1) = w) :
    add_4B_weight_find_mirror edges_list v w k e2 = Except.ok true := by
  induction k generalizing e2 with
  | zero =>
    obtain ⟨j, j1, j2, _⟩ := hex
    omega
  | succ k ih =>
    unfold add_4B_weight_find_mirror
    by_cases hv : rd edges_list (2 * e2) = v
    · rw [if_pos hv, if_pos (hw e2 (Nat.le_refl _) (by omega) hv)]
    · rw [if_neg hv]
      apply ih
      · obtain ⟨j, j1, j2, j3⟩ := hex
        refine ⟨j, ?_, by omega, j3⟩
        by_contra hlt
        have : j = e2 := by omega
        subst this
        exact hv j3
      · intro j j1 j2 j3
        exact hw j (by omega) (by omega) j3

theorem validate_edges_spec (g : ll_400_graph) (hwf : well_formed g)
    (hsorted : sorted_neighbour_lists g) (edges_list : List Nat)
    (hnb : ∀ i, i < g.edges_count → rd edges_list (2 * i) = rd g.edges_list i)
    (hmirror : ∀ u, u < g.vertices_count → ∀ i, rd g.offsets_list u ≤ i →
      i < rd g.offsets_list (u + 1) → rd g.edges_list i ≠ u →
      ∃ j, rd g.offsets_list (rd g.edges_list i) ≤ j ∧
        j < rd g.offsets_list (rd g.edges_list i + 1) ∧ rd g.edges_list j = u ∧
        rd edges_list (2 * j + 1) = rd edges_list (2 * i + 1))
    (v : Nat) (hv : v < g.vertices_count) (k e : Nat) (he1 : rd g.offsets_list v ≤ e)
    (he2 : e + k = rd g.offsets_list (v + 1)) :
    add_4B_weight_validate_edges g edges_list v k e = Except.ok () := by
  induction k generalizing e with
  | zero => rfl
  | succ k ih =>
    unfold add_4B_weight_validate_edges
    by_cases hbreak : rd g.edges_list e ≥ v
    · rw [if_pos hbreak]
    · rw [if_neg hbreak]
      have hslot : (v, e) ∈ all_slots g := (mem_all_slots g v e).2 ⟨hv, he1, by omega⟩
      have hec := slot_lt_edges_count g hwf v e hslot
      have hu := slot_dest_lt g hwf v e hslot
      rw [if_neg (by rw [hnb e hec]; simp)]
      obtain ⟨j, j1, j2, j3, j4⟩ := hmirror v hv e he1 (by omega) (by omega)
      have hle := hwf.2.2.2.1 _ hu
      have hend : rd g.offsets_list (rd g.edges_list e + 1) ≤ g.edges_count := by
        have := offsets_mono g hwf (rd g.edges_list e + 1) g.vertices_count (by omega)
          (Nat.le_refl _)
        rw [hwf.2.2.2.2.1] at this
        exact this
      have hk : rd g.offsets_list (rd g.edges_list e) +
          (rd g.offsets_list (rd g.edges_list e + 1) - rd g.offsets_list (rd g.edges_list e)) =
          rd g.offsets_list (rd g.edges_list e + 1) := by omega
      rw [find_mirror_spec edges_list v (rd edges_list (2 * e + 1)) _ _
        ⟨j, j1, by rw [hk]; exact j2, by rw [hnb j (by omega)]; exact j3⟩
        (by
          intro j' h1 h2 h3
          rw [hk] at h2
          rw [hnb j' (by omega)] at h3
          have := slot_value_unique g _ j' j (hsorted _ hu) h1 h2 j1 j2 (by rw [h3, j3])
          rw [this]
          exact j4)]
      simp only [if_true]
      exact ih (e + 1) (by omega) (by omega)

theorem add_4B_weight_validate_spec (g : ll_400_graph) (hwf : well_formed g)
    (hsorted : sorted_neighbour_lists g) (st : List Nat × List Nat)
    (hcur : ∀ u, u < g.vertices_count → rd st.1 u = rd g.offsets_list (u + 1))
    (hnb : ∀ i, i < g.edges_count → rd st.2 (2 * i) = rd g.edges_list i)
    (hmirror : ∀ u, u < g.vertices_count → ∀ i, rd g.offsets_list u ≤ i →
      i < rd g.offsets_list (u + 1) → rd g.edges_list i ≠ u →
      ∃ j, rd g.offsets_list (rd g.edges_list i) ≤ j ∧
        j < rd g.offsets_list (rd g.edges_list i + 1) ∧ rd g.edges_list j = u ∧
        rd st.2 (2 * j + 1) = rd st.2 (2 * i + 1)) :
    add_4B_weight_validate g st = Except.ok () := by
  unfold add_4B_weight_validate
  rw [foldlM_unit_ok _ _ (by
    intro v hv
    rw [List.mem_range] at hv
    rw [if_pos (hcur v hv)])]
  simp only []
  apply foldlM_unit_ok
  intro v hv
  rw [List.mem_range] at hv
  have := hwf.2.2.2.1 v hv
  exact validate_edges_spec g hwf hsorted st.2 hnb hmirror v hv _ _ (Nat.le_refl _) (by omega)

theorem set_offsets_loop_some (n : Nat) (src : List Nat) (hn : n + 1 < 2 ^ 32) (fuel v : Nat)
    (hv : v ≤ n + 1) (dst dst' : List Nat) (hlen : dst.length = n + 1)
    (h : set_offsets_loop n src fuel v dst = some dst') :
    dst'.length = n + 1 ∧
    ∀ j, rd dst' j = if v ≤ j ∧ j ≤ n then rd src j else rd dst j := by
  induction fuel generalizing v dst with
  | zero => simp [set_offsets_loop] at h
  | succ fuel ih =>
    unfold set_offsets_loop at h
    by_cases hle : v ≤ n
    · rw [if_pos hle, Nat.mod_eq_of_lt (by omega)] at h
      obtain ⟨i1, i2⟩ := ih (v + 1) (by omega) (dst.set v (rd src v)) (by simp [hlen]) h
      refine ⟨i1, ?_⟩
      intro j
      rw [i2 j]
      by_cases hj : v + 1 ≤ j ∧ j ≤ n
      · rw [if_pos hj, if_pos ⟨by omega, hj.2⟩]
      · rw [if_neg hj]
        by_cases hjv : v = j
        · subst hjv
          rw [rd_set_eq _ _ _ (by omega), if_pos ⟨Nat.le_refl _, hle⟩]
        · rw [rd_set_ne _ _ _ _ hjv, if_neg (by omega)]
    · rw [if_neg hle] at h
      simp only [Option.some.injEq] at h
      subst h
      refine ⟨hlen, ?_⟩
      intro j
      rw [if_neg (by omega)]

theorem set_offsets_loop_runs (n : Nat) (src : List Nat) (hn : n + 1 < 2 ^ 32) (fuel v : Nat)
    (hv : v ≤ n + 1) (hfuel : n + 2 ≤ fuel + v) (dst : List Nat) :
    ∃ dst', set_offsets_loop n src fuel v dst = some dst' := by
  induction fuel generalizing v dst with
  | zero =>
    unfold set_offsets_loop
    omega
  | succ fuel ih =>
    unfold set_offsets_loop
    by_cases hle : v ≤ n
    · rw [if_pos hle, Nat.mod_eq_of_lt (by omega)]
      exact ih (v + 1) (by omega) (by omega) _
    · rw [if_neg hle]
      exact ⟨dst, rfl⟩

theorem set_offsets_loop_none (n : Nat) (src : List Nat) (hn : 2 ^ 32 ≤ n + 1) (fuel v : Nat)
    (hv : v < 2 ^ 32) (dst : List Nat) : set_offsets_loop n src fuel v dst = none := by
  induction fuel generalizing v dst with
  | zero => rfl
  | succ fuel ih =>
    unfold set_offsets_loop
    rw [if_pos (by omega)]
    exact ih _ (Nat.mod_lt _ (by omega)) _

theorem copy_range_spec (src : List Nat) (k : Nat) (dst : List Nat) :
    ((List.range k).foldl (fun dst v => dst.set v (rd src v)) dst).length = dst.length ∧
    ∀ j, rd ((List.range k).foldl (fun dst v => dst.set v (rd src v)) dst) j =
      if j < k ∧ j < dst.length then rd src j else rd dst j := by
  induction k with
  | zero => simp
  | succ k ih =>
    rw [List.range_succ, List.foldl_append]
    simp only [List.foldl_cons, List.foldl_nil]
    obtain ⟨i1, i2⟩ := ih
    refine ⟨by rw [List.length_set, i1], ?_⟩
    intro j
    rw [rd_set, i1, i2 j]
    by_cases hj : j = k
    · subst hj
      by_cases hlt : j < dst.length
      · rw [if_pos ⟨rfl, hlt⟩, if_pos ⟨by omega, hlt⟩]
      · rw [if_neg (by omega), if_neg (by omega), if_neg (by omega)]
    · rw [if_neg (by omega)]
      by_cases hlt : j < k ∧ j < dst.length
      · rw [if_pos hlt, if_pos ⟨by omega, hlt.2⟩]
      · rw [if_neg hlt, if_neg (by omega)]

theorem offsets_trip_count_small (n : Nat) (hn : n + 1 < 2 ^ 32) :
    offsets_trip_count n = n + 1 := by
  unfold offsets_trip_count
  exact Nat.mod_eq_of_lt hn

theorem offsets_trip_count_wrap : offsets_trip_count (2 ^ 32 - 1) = 0 := by
  unfold offsets_trip_count
  norm_num

/-- What the offsets loop of the copy functions writes: the entries below its number of
iterations. -/
theorem copy_offsets_loop_spec (n : Nat) (src dst : List Nat) :
    (copy_offsets_loop n src dst).length = dst.length ∧
    ∀ j, rd (copy_offsets_loop n src dst) j =
      if j < offsets_trip_count n ∧ j < dst.length then rd src j else rd dst j := by
  unfold copy_offsets_loop
  exact copy_range_spec src (offsets_trip_count n) dst

/-- With `2^32 - 1` vertices the offsets loop of the copy functions writes nothing. -/
theorem copy_offsets_loop_wrap (src dst : List Nat) :
    copy_offsets_loop (2 ^ 32 - 1) src dst = dst := by
  unfold copy_offsets_loop
  rw [offsets_trip_count_wrap]
  rfl

/-- Copying an array onto itself leaves it as it is. -/
theorem copy_offsets_loop_self (n : Nat) (src : List Nat) :
    copy_offsets_loop n src src = src := by
  obtain ⟨l1, l2⟩ := copy_offsets_loop_spec n src src
  apply ext_rd _ _ l1
  intro j _
  rw [l2 j]
  simp

theorem set_offsets_loop_from (n : Nat) (src : List Nat) (hn : n + 1 < 2 ^ 32) (fuel v : Nat)
    (hv : v ≤ n + 1) (hfuel : n + 2 ≤ fuel + v) (dst : List Nat) :
    set_offsets_loop n src fuel v dst =
      some ((List.range' v (n + 1 - v)).foldl (fun dst v => dst.set v (rd src v)) dst) := by
  induction fuel generalizing v dst with
  | zero => omega
  | succ fuel ih =>
    unfold set_offsets_loop
    by_cases hle : v ≤ n
    · rw [if_pos hle, Nat.mod_eq_of_lt (by omega), ih (v + 1) (by omega) (by omega)]
      have e : n + 1 - v = (n + 1 - (v + 1)) + 1 := by omega
      rw [e, List.range'_succ, List.foldl_cons]
    · rw [if_neg hle]
      have e : n + 1 - v = 0 := by omega
      rw [e]
      rfl

/-- For `vertices_count + 1 < 2^32` the loop run by one thread with its 32-bit counter
ends and writes what the worksharing loop writes. -/
theorem set_offsets_loop_eq (n : Nat) (src : List Nat) (hn : n + 1 < 2 ^ 32) (fuel : Nat)
    (hfuel : n + 2 ≤ fuel) (dst : List Nat) :
    set_offsets_loop n src fuel 0 dst = some (copy_offsets_loop n src dst) := by
  rw [set_offsets_loop_from n src hn fuel 0 (by omega) (by omega) dst]
  unfold copy_offsets_loop
  rw [offsets_trip_count_small n hn, List.range_eq_range']
  rfl

/-- A call of `add_4B_weight_to_ll_400_graph` that returns was made with
`vertices_count + 1 < 2^32`. -/
theorem add_4B_weight_bound (fuel : Nat) (pe : par_env) (partitions : List Nat)
    (g : ll_400_graph) (max_weight flags : Nat) (res : Except String ll_404_graph)
    (h : add_4B_weight_to_ll_400_graph fuel pe partitions g max_weight flags = some res)
    (hok : ∃ out, res = Except.ok out) : g.vertices_count + 1 < 2 ^ 32 := by
  by_contra hcon
  obtain ⟨out, rfl⟩ := hok
  unfold add_4B_weight_to_ll_400_graph at h
  rw [set_offsets_loop_none g.vertices_count g.offsets_list (by omega) fuel 0 (by omega)] at h
  by_cases hm : max_weight = 0
  · rw [if_pos hm] at h
    simp at h
  · rw [if_neg hm] at h
    split at h <;> simp at h

/-! ## Claims on `add_4B_weight_to_ll_400_graph` -/

theorem add_4B_weight_validation_passes (pe : par_env) (partitions : List Nat)
    (g : ll_400_graph) (max_weight flags : Nat) (hwf : well_formed g)
    (hsorted : sorted_neighbour_lists g) (hsym : symmetric_graph g)
    (hcover : partitions_cover partitions (pe.threads_count * 64) g.vertices_count)
    (h1 : 1 ≤ max_weight) (h2 : max_weight < 2 ^ 32) :
    (if flags &&& 1 ≠ 0 then
        add_4B_weight_validate g
          (add_4B_weight_step2 g (add_4B_weight_step1 pe partitions g max_weight))
      else Except.ok ()) = Except.ok () := by
  obtain ⟨_, _, f3, f4, _, f6⟩ := add_4B_weight_steps_spec pe partitions g hwf hsorted hsym
    hcover max_weight h1 h2
  by_cases hf : flags &&& 1 ≠ 0
  · rw [if_pos hf]
    exact add_4B_weight_validate_spec g hwf hsorted _ f3 f4 f6
  · rw [if_neg hf]

/-- What `add_4B_weight_to_ll_400_graph` returns on a symmetric graph with strictly
increasing neighbour-lists: the counts and the offsets of the input, and the edges array
left by step 2. -/
theorem add_4B_weight_facts (pe : par_env) (partitions : List Nat) (g : ll_400_graph)
    (max_weight flags : Nat) (hwf : well_formed g) (hsorted : sorted_neighbour_lists g)
    (hsym : symmetric_graph g)
    (hcover : partitions_cover partitions (pe.threads_count * 64) g.vertices_count)
    (h1 : 1 ≤ max_weight) (h2 : max_weight < 2 ^ 32) (fuel : Nat) (out : ll_404_graph)
    (h : add_4B_weight_to_ll_400_graph fuel pe partitions g max_weight flags =
      some (Except.ok out)) :
    out.vertices_count = g.vertices_count ∧ out.edges_count = g.edges_count ∧
    out.offsets_list = g.offsets_list ∧
    out.edges_list =
      (add_4B_weight_step2 g (add_4B_weight_step1 pe partitions g max_weight)).2 := by
  obtain ⟨f1, _, _, _, _, _⟩ := add_4B_weight_steps_spec pe partitions g hwf hsorted hsym
    hcover max_weight h1 h2
  unfold add_4B_weight_to_ll_400_graph at h
  rw [if_neg (by omega), add_4B_weight_validation_passes pe partitions g max_weight flags hwf
    hsorted hsym hcover h1 h2] at h
  simp only [] at h
  cases hloop : set_offsets_loop g.vertices_count g.offsets_list fuel 0
      (add_4B_weight_step2 g (add_4B_weight_step1 pe partitions g max_weight)).1 with
  | none => rw [hloop] at h; simp at h
  | some offs =>
    rw [hloop] at h
    simp only [Option.some.injEq, Except.ok.injEq] at h
    subst h
    refine ⟨rfl, rfl, ?_, rfl⟩
    show offs = g.offsets_list
    by_cases hn : g.vertices_count + 1 < 2 ^ 32
    · obtain ⟨l1, l2⟩ := set_offsets_loop_some g.vertices_count g.offsets_list hn fuel 0
        (by omega) _ offs f1 hloop
      apply ext_rd
      · rw [l1, hwf.1]
      · intro j hj
        rw [l2 j, if_pos (by omega)]
    · rw [set_offsets_loop_none g.vertices_count g.offsets_list (by omega) fuel 0
        (by omega)] at hloop
      simp at hloop

/-- With fewer than `2^32 - 1` vertices the final loop ends and a graph is returned. -/
theorem add_4B_weight_returns (pe : par_env) (partitions : List Nat) (g : ll_400_graph)
    (max_weight flags : Nat) (hwf : well_formed g) (hsorted : sorted_neighbour_lists g)
    (hsym : symmetric_graph g)
    (hcover : partitions_cover partitions (pe.threads_count * 64) g.vertices_count)
    (h1 : 1 ≤ max_weight) (h2 : max_weight < 2 ^ 32) (hn : g.vertices_count + 1 < 2 ^ 32) :
    ∃ out, add_4B_weight_to_ll_400_graph (g.vertices_count + 2) pe partitions g max_weight
      flags = some (Except.ok out) := by
  obtain ⟨offs, hloop⟩ := set_offsets_loop_runs g.vertices_count g.offsets_list hn
    (g.vertices_count + 2) 0 (by omega) (by omega)
    (add_4B_weight_step2 g (add_4B_weight_step1 pe partitions g max_weight)).1
  unfold add_4B_weight_to_ll_400_graph
  rw [if_neg (by omega), add_4B_weight_validation_passes pe partitions g max_weight flags hwf
    hsorted hsym hcover h1 h2]
  simp only []
  rw [hloop]
  exact ⟨_, rfl⟩

/-- C9: for every `max_weight` with `1 <= max_weight <= 2^32 - 1` and every symmetric input
graph with sorted (strictly increasing) neighbour-lists, every weight stored by
`add_4B_weight_to_ll_400_graph` (word `2e+1` of every slot `e`) lies in `[1, max_weight]`,
in the array left by step 2 and in the graph returned; the value
`1 + (rand_val mod max_weight)` does not wrap when stored in 32 bits. -/
theorem add_4B_weight_in_range (pe : par_env) (partitions : List Nat) (g : ll_400_graph)
    (max_weight flags : Nat) (hwf : well_formed g) (hsorted : sorted_neighbour_lists g)
    (hsym : symmetric_graph g)
    (hcover : partitions_cover partitions (pe.threads_count * 64) g.vertices_count)
    (h1 : 1 ≤ max_weight) (h2 : max_weight ≤ 2 ^ 32 - 1) :
    (∀ e, e < g.edges_count →
      1 ≤ rd (add_4B_weight_step2 g (add_4B_weight_step1 pe partitions g max_weight)).2
        (2 * e + 1) ∧
      rd (add_4B_weight_step2 g (add_4B_weight_step1 pe partitions g max_weight)).2
        (2 * e + 1) ≤ max_weight) ∧
    (∀ rand_val, (1 + rand_val % max_weight) % 2 ^ 32 = 1 + rand_val % max_weight) ∧
    (∀ fuel out, add_4B_weight_to_ll_400_graph fuel pe partitions g max_weight flags =
        some (Except.ok out) →
      ∀ e, e < out.edges_count →
        1 ≤ rd out.edges_list (2 * e + 1) ∧ rd out.edges_list (2 * e + 1) ≤ max_weight) ∧
    (g.vertices_count + 1 < 2 ^ 32 →
      ∃ out, add_4B_weight_to_ll_400_graph (g.vertices_count + 2) pe partitions g max_weight
        flags = some (Except.ok out)) := by
  have h2' : max_weight < 2 ^ 32 := by omega
  obtain ⟨_, _, _, _, f5, _⟩ := add_4B_weight_steps_spec pe partitions g hwf hsorted hsym
    hcover max_weight h1 h2'
  refine ⟨f5, fun r => (weight_no_wrap r max_weight h1 h2').1, ?_,
    add_4B_weight_returns pe partitions g max_weight flags hwf hsorted hsym hcover h1 h2'⟩
  intro fuel out hout e he
  obtain ⟨_, o2, _, o4⟩ := add_4B_weight_facts pe partitions g max_weight flags hwf hsorted
    hsym hcover h1 h2' fuel out hout
  rw [o4]
  exact f5 e (by omega)

theorem add_4B_weight_in_range_witness :
    well_formed sample_sym ∧ sorted_neighbour_lists sample_sym ∧ symmetric_graph sample_sym ∧
    partitions_cover sample_partitions (sample_pe.threads_count * 64) sample_sym.vertices_count ∧
    1 ≤ 102400 ∧ 102400 ≤ 2 ^ 32 - 1 ∧
    ((∀ e, e < sample_sym.edges_count →
      1 ≤ rd (add_4B_weight_step2 sample_sym
        (add_4B_weight_step1 sample_pe sample_partitions sample_sym 102400)).2 (2 * e + 1) ∧
      rd (add_4B_weight_step2 sample_sym
        (add_4B_weight_step1 sample_pe sample_partitions sample_sym 102400)).2 (2 * e + 1)
          ≤ 102400) ∧
    (∀ rand_val, (1 + rand_val % 102400) % 2 ^ 32 = 1 + rand_val % 102400) ∧
    (∀ fuel out, add_4B_weight_to_ll_400_graph fuel sample_pe sample_partitions sample_sym
        102400 0 = some (Except.ok out) →
      ∀ e, e < out.edges_count →
        1 ≤ rd out.edges_list (2 * e + 1) ∧ rd out.edges_list (2 * e + 1) ≤ 102400) ∧
    (sample_sym.vertices_count + 1 < 2 ^ 32 →
      ∃ out, add_4B_weight_to_ll_400_graph (sample_sym.vertices_count + 2) sample_pe
        sample_partitions sample_sym 102400 0 = some (Except.ok out))) :=
  ⟨by decide, by decide, by decide, by decide, by decide, by decide,
    add_4B_weight_in_range sample_pe sample_partitions sample_sym 102400 0 (by decide)
      (by decide) (by decide) (by decide) (by decide) (by decide)⟩

/-- C10: for every symmetric input graph with strictly increasing neighbour-lists, the
weighted graph returned by `add_4B_weight_to_ll_400_graph` has symmetric weights: for
every slot (neighbour `v`, weight `w`) in the list of `u` with `u ≠ v` there is a slot
(neighbour `u`, weight `w`) in the list of `v`. -/
theorem add_4B_weight_symmetric_weights (pe : par_env) (partitions : List Nat)
    (g : ll_400_graph) (max_weight flags : Nat) (hwf : well_formed g)
    (hsorted : sorted_neighbour_lists g) (hsym : symmetric_graph g)
    (hcover : partitions_cover partitions (pe.threads_count * 64) g.vertices_count)
    (h1 : 1 ≤ max_weight) (h2 : max_weight ≤ 2 ^ 32 - 1) :
    (∀ fuel out, add_4B_weight_to_ll_400_graph fuel pe partitions g max_weight flags =
        some (Except.ok out) →
      ∀ u, u < out.vertices_count → ∀ e, e ∈ edge_slots out.offsets_list u →
        rd out.edges_list (2 * e) ≠ u →
        ∃ e', e' ∈ edge_slots out.offsets_list (rd out.edges_list (2 * e)) ∧
          rd out.edges_list (2 * e') = u ∧
          rd out.edges_list (2 * e' + 1) = rd out.edges_list (2 * e + 1)) ∧
    (g.vertices_count + 1 < 2 ^ 32 →
      ∃ out, add_4B_weight_to_ll_400_graph (g.vertices_count + 2) pe partitions g max_weight
        flags = some (Except.ok out)) := by
  have h2' : max_weight < 2 ^ 32 := by omega
  obtain ⟨_, _, _, f4, _, f6⟩ := add_4B_weight_steps_spec pe partitions g hwf hsorted hsym
    hcover max_weight h1 h2'
  refine ⟨?_,
    add_4B_weight_returns pe partitions g max_weight flags hwf hsorted hsym hcover h1 h2'⟩
  intro fuel out hout u hu e he hne
  obtain ⟨o1, _, o3, o4⟩ := add_4B_weight_facts pe partitions g max_weight flags hwf hsorted
    hsym hcover h1 h2' fuel out hout
  rw [o1] at hu
  rw [o3, mem_edge_slots] at he
  have hec := slot_lt_edges_count g hwf u e ((mem_all_slots g u e).2 ⟨hu, he.1, he.2⟩)
  rw [o4, f4 e hec] at hne ⊢
  obtain ⟨j, j1, j2, j3, j4⟩ := f6 u hu e he.1 he.2 hne
  have hx := slot_dest_lt g hwf u e ((mem_all_slots g u e).2 ⟨hu, he.1, he.2⟩)
  have hjc := slot_lt_edges_count g hwf _ j ((mem_all_slots g _ j).2 ⟨hx, j1, j2⟩)
  refine ⟨j, ?_, ?_, ?_⟩
  · rw [o3, mem_edge_slots]; exact ⟨j1, j2⟩
  · rw [f4 j hjc]; exact j3
  · exact j4

theorem add_4B_weight_symmetric_weights_witness :
    well_formed sample_sym ∧ sorted_neighbour_lists sample_sym ∧ symmetric_graph sample_sym ∧
    partitions_cover sample_partitions (sample_pe.threads_count * 64) sample_sym.vertices_count ∧
    1 ≤ 102400 ∧ 102400 ≤ 2 ^ 32 - 1 ∧
    ((∀ fuel out, add_4B_weight_to_ll_400_graph fuel sample_pe sample_partitions sample_sym
        102400 1 = some (Except.ok out) →
      ∀ u, u < out.vertices_count → ∀ e, e ∈ edge_slots out.offsets_list u →
        rd out.edges_list (2 * e) ≠ u →
        ∃ e', e' ∈ edge_slots out.offsets_list (rd out.edges_list (2 * e)) ∧
          rd out.edges_list (2 * e') = u ∧
          rd out.edges_list (2 * e' + 1) = rd out.edges_list (2 * e + 1)) ∧
    (sample_sym.vertices_count + 1 < 2 ^ 32 →
      ∃ out, add_4B_weight_to_ll_400_graph (sample_sym.vertices_count + 2) sample_pe
        sample_partitions sample_sym 102400 1 = some (Except.ok out))) :=
  ⟨by decide, by decide, by decide, by decide, by decide, by decide,
    add_4B_weight_symmetric_weights sample_pe sample_partitions sample_sym 102400 1 (by decide)
      (by decide) (by decide) (by decide) (by decide) (by decide)⟩

/-! ## `copy_ll_404_to_400_graph` -/

theorem copy_neighbour_words_spec (src : List Nat) (k : Nat) (dst : List Nat) :
    (copy_neighbour_words k src dst).length = dst.length ∧
    ∀ j, rd (copy_neighbour_words k src dst) j =
      if j < k ∧ j < dst.length then rd src (2 * j) else rd dst j := by
  unfold copy_neighbour_words
  induction k with
  | zero => simp
  | succ k ih =>
    rw [List.range_succ, List.foldl_append]
    simp only [List.foldl_cons, List.foldl_nil]
    obtain ⟨i1, i2⟩ := ih
    refine ⟨by rw [List.length_set, i1], ?_⟩
    intro j
    rw [rd_set, i1, i2 j]
    by_cases hj : j = k
    · subst hj
      by_cases hlt : j < dst.length
      · rw [if_pos ⟨rfl, hlt⟩, if_pos ⟨by omega, hlt⟩]
      · rw [if_neg (by omega), if_neg (by omega), if_neg (by omega)]
    · rw [if_neg (by omega)]
      by_cases hlt : j < k ∧ j < dst.length
      · rw [if_pos hlt, if_pos ⟨by omega, hlt.2⟩]
      · rw [if_neg hlt, if_neg (by omega)]

/-- What `copy_ll_404_to_400_graph` returns when it allocates the result, for
`vertices_count + 1 < 2^32`. -/
theorem copy_ll_404_to_400_graph_facts (pe : par_env) (inp : ll_404_graph)
    (hn : inp.vertices_count + 1 < 2 ^ 32) (out : ll_400_graph)
    (h : copy_ll_404_to_400_graph pe inp none = Except.ok out) :
    out.vertices_count = inp.vertices_count ∧ out.edges_count = inp.edges_count ∧
    out.offsets_list.length = inp.vertices_count + 1 ∧
    out.edges_list.length = inp.edges_count ∧
    (∀ v, v ≤ inp.vertices_count → rd out.offsets_list v = rd inp.offsets_list v) ∧
    (∀ e, e < inp.edges_count → rd out.edges_list e = rd inp.edges_list (2 * e)) := by
  unfold copy_ll_404_to_400_graph at h
  simp only [Except.ok.injEq] at h
  subst h
  obtain ⟨c1, c2⟩ := copy_neighbour_words_spec inp.edges_list inp.edges_count
    (List.replicate inp.edges_count 0)
  obtain ⟨l1, l2⟩ := copy_offsets_loop_spec inp.vertices_count inp.offsets_list
    (List.replicate (1 + inp.vertices_count) 0)
  refine ⟨rfl, rfl, ?_, by simpa using c1, ?_, ?_⟩
  · show (copy_offsets_loop inp.vertices_count inp.offsets_list
      (List.replicate (1 + inp.vertices_count) 0)).length = _
    rw [l1, List.length_replicate]
    omega
  · intro v hv
    show rd (copy_offsets_loop inp.vertices_count inp.offsets_list
      (List.replicate (1 + inp.vertices_count) 0)) v = _
    rw [l2 v, offsets_trip_count_small _ hn, List.length_replicate,
      if_pos ⟨by omega, by omega⟩]
  · intro e he
    show rd (copy_neighbour_words inp.edges_count inp.edges_list
      (List.replicate inp.edges_count 0)) e = _
    rw [c2 e, if_pos ⟨he, by simpa using he⟩]

theorem copy_ll_404_to_400_graph_returns (pe : par_env) (inp : ll_404_graph) :
    ∃ out, copy_ll_404_to_400_graph pe inp none = Except.ok out :=
  ⟨_, rfl⟩

/-! ## Claims on the removal of the weights -/

/-- C11: removing the weights undoes adding them.  For every symmetric graph `g` with
strictly increasing neighbour-lists (loops over the vertices taken in ID order), every graph
returned by `copy_ll_404_to_400_graph(add_4B_weight_to_ll_400_graph(g, max_weight, flags),
NULL)` equals `g` in `vertices_count`, `edges_count`, every `offsets_list` entry and every
`edges_list` entry; and the two calls do return when the 32-bit counter of the offsets
loop of `add_4B_weight_to_ll_400_graph` can pass `vertices_count`. -/
theorem copy_undoes_add_4B_weight (pe : par_env) (partitions : List Nat) (g : ll_400_graph)
    (max_weight flags : Nat) (hwf : well_formed g) (hsorted : sorted_neighbour_lists g)
    (hsym : symmetric_graph g)
    (hcover : partitions_cover partitions (pe.threads_count * 64) g.vertices_count)
    (h1 : 1 ≤ max_weight) (h2 : max_weight ≤ 2 ^ 32 - 1) :
    (∀ fuel w out,
      add_4B_weight_to_ll_400_graph fuel pe partitions g max_weight flags =
        some (Except.ok w) →
      copy_ll_404_to_400_graph pe w none = Except.ok out →
      out.vertices_count = g.vertices_count ∧ out.edges_count = g.edges_count ∧
      (∀ v, v ≤ g.vertices_count → rd out.offsets_list v = rd g.offsets_list v) ∧
      (∀ e, e < g.edges_count → rd out.edges_list e = rd g.edges_list e) ∧
      out = g) ∧
    (g.vertices_count + 1 < 2 ^ 32 →
      ∃ w out, add_4B_weight_to_ll_400_graph (g.vertices_count + 2) pe partitions g max_weight
          flags = some (Except.ok w) ∧
        copy_ll_404_to_400_graph pe w none = Except.ok out) := by
  have h2' : max_weight < 2 ^ 32 := by omega
  obtain ⟨_, _, _, f4, _, _⟩ := add_4B_weight_steps_spec pe partitions g hwf hsorted hsym
    hcover max_weight h1 h2'
  constructor
  · intro fuel w out hw hout
    obtain ⟨o1, o2, o3, o4⟩ := add_4B_weight_facts pe partitions g max_weight flags hwf
      hsorted hsym hcover h1 h2' fuel w hw
    have hn := add_4B_weight_bound fuel pe partitions g max_weight flags _ hw ⟨w, rfl⟩
    obtain ⟨c1, c2, c3, c4, c5, c6⟩ := copy_ll_404_to_400_graph_facts pe w
      (by rw [o1]; exact hn) out hout
    rw [o1] at c1 c3 c5
    rw [o2] at c2 c4 c6
    rw [o3] at c5
    have e1 : ∀ e, e < g.edges_count → rd out.edges_list e = rd g.edges_list e := by
      intro e he
      rw [c6 e he, o4]
      exact f4 e he
    refine ⟨c1, c2, c5, e1, ?_⟩
    have e2 : out.offsets_list = g.offsets_list := by
      apply ext_rd
      · rw [c3, hwf.1]
      · intro j hj
        exact c5 j (by omega)
    have e3 : out.edges_list = g.edges_list := by
      apply ext_rd
      · rw [c4, hwf.2.1]
      · intro j hj
        exact e1 j (by omega)
    cases out
    cases g
    simp only [ll_400_graph.mk.injEq]
    exact ⟨c1, c2, e2, e3⟩
  · intro hn
    obtain ⟨w, hw⟩ := add_4B_weight_returns pe partitions g max_weight flags hwf hsorted hsym
      hcover h1 h2' hn
    obtain ⟨out, hout⟩ := copy_ll_404_to_400_graph_returns pe w
    exact ⟨w, out, hw, hout⟩

theorem copy_undoes_add_4B_weight_witness :
    well_formed sample_sym ∧ sorted_neighbour_lists sample_sym ∧ symmetric_graph sample_sym ∧
    partitions_cover sample_partitions (sample_pe.threads_count * 64) sample_sym.vertices_count ∧
    1 ≤ 102400 ∧ 102400 ≤ 2 ^ 32 - 1 ∧
    ((∀ fuel w out,
      add_4B_weight_to_ll_400_graph fuel sample_pe sample_partitions sample_sym 102400 0 =
        some (Except.ok w) →
      copy_ll_404_to_400_graph sample_pe w none = Except.ok out →
      out.vertices_count = sample_sym.vertices_count ∧
      out.edges_count = sample_sym.edges_count ∧
      (∀ v, v ≤ sample_sym.vertices_count →
        rd out.offsets_list v = rd sample_sym.offsets_list v) ∧
      (∀ e, e < sample_sym.edges_count → rd out.edges_list e = rd sample_sym.edges_list e) ∧
      out = sample_sym) ∧
    (sample_sym.vertices_count + 1 < 2 ^ 32 →
      ∃ w out, add_4B_weight_to_ll_400_graph (sample_sym.vertices_count + 2) sample_pe
          sample_partitions sample_sym 102400 0 = some (Except.ok w) ∧
        copy_ll_404_to_400_graph sample_pe w none = Except.ok out)) :=
  ⟨by decide, by decide, by decide, by decide, by decide, by decide,
    copy_undoes_add_4B_weight sample_pe sample_partitions sample_sym 102400 0 (by decide)
      (by decide) (by decide) (by decide) (by decide) (by decide)⟩

/-! ## Claims on the order of the weighted neighbour-lists -/

theorem neighbour_words_eq (g : ll_400_graph) (hwf : well_formed g) (edges_list : List Nat)
    (h : ∀ i, i < g.edges_count → rd edges_list (2 * i) = rd g.edges_list i) (v : Nat)
    (hv : v < g.vertices_count) :
    neighbour_words g.offsets_list edges_list v = neighbour_list g v := by
  unfold neighbour_words neighbour_list
  apply List.map_congr_left
  intro e he
  rw [mem_edge_slots] at he
  exact h e (slot_lt_edges_count g hwf v e ((mem_all_slots g v e).2 ⟨hv, he.1, he.2⟩))

/-- C12 (amended): for every symmetric input graph with strictly increasing
neighbour-lists, when the iterations of step 2 take effect in increasing vertex order (a
run with one thread), the neighbour words of every vertex's slots are in strictly
increasing order in the array left by step 2 and in every graph returned by
`add_4B_weight_to_ll_400_graph`; and a graph is returned when the 32-bit counter of the
last loop can pass `vertices_count`. -/
theorem add_4B_weight_sorted_output (pe : par_env) (partitions : List Nat)
    (g : ll_400_graph) (max_weight flags : Nat) (hwf : well_formed g)
    (hsorted : sorted_neighbour_lists g) (hsym : symmetric_graph g)
    (hcover : partitions_cover partitions (pe.threads_count * 64) g.vertices_count)
    (h1 : 1 ≤ max_weight) (h2 : max_weight ≤ 2 ^ 32 - 1) :
    (∀ v, v < g.vertices_count →
      (neighbour_words g.offsets_list
        (add_4B_weight_step2_in_order g (List.range g.vertices_count)
          (add_4B_weight_step1 pe partitions g max_weight)).2 v).Pairwise
        (fun a b => a < b)) ∧
    (∀ fuel out, add_4B_weight_to_ll_400_graph fuel pe partitions g max_weight flags =
        some (Except.ok out) →
      ∀ v, v < out.vertices_count →
        (neighbour_words out.offsets_list out.edges_list v).Pairwise (fun a b => a < b)) ∧
    (g.vertices_count + 1 < 2 ^ 32 →
      ∃ out, add_4B_weight_to_ll_400_graph (g.vertices_count + 2) pe partitions g max_weight
        flags = some (Except.ok out)) := by
  have h2' : max_weight < 2 ^ 32 := by omega
  obtain ⟨_, _, _, f4, _, _⟩ := add_4B_weight_steps_spec pe partitions g hwf hsorted hsym
    hcover max_weight h1 h2'
  refine ⟨?_, ?_,
    add_4B_weight_returns pe partitions g max_weight flags hwf hsorted hsym hcover h1 h2'⟩
  · intro v hv
    show (neighbour_words g.offsets_list
      (add_4B_weight_step2 g (add_4B_weight_step1 pe partitions g max_weight)).2 v).Pairwise _
    rw [neighbour_words_eq g hwf _ f4 v hv]
    exact hsorted v hv
  · intro fuel out hout v hv
    obtain ⟨o1, _, o3, o4⟩ := add_4B_weight_facts pe partitions g max_weight flags hwf hsorted
      hsym hcover h1 h2' fuel out hout
    rw [o3, o4, neighbour_words_eq g hwf _ f4 v (by omega)]
    exact hsorted v (by omega)

theorem add_4B_weight_sorted_output_witness :
    well_formed sample_sym ∧ sorted_neighbour_lists sample_sym ∧ symmetric_graph sample_sym ∧
    partitions_cover sample_partitions (sample_pe.threads_count * 64) sample_sym.vertices_count ∧
    1 ≤ 102400 ∧ 102400 ≤ 2 ^ 32 - 1 ∧
    ((∀ v, v < sample_sym.vertices_count →
      (neighbour_words sample_sym.offsets_list
        (add_4B_weight_step2_in_order sample_sym (List.range sample_sym.vertices_count)
          (add_4B_weight_step1 sample_pe sample_partitions sample_sym 102400)).2 v).Pairwise
        (fun a b => a < b)) ∧
    (∀ fuel out, add_4B_weight_to_ll_400_graph fuel sample_pe sample_partitions sample_sym
        102400 0 = some (Except.ok out) →
      ∀ v, v < out.vertices_count →
        (neighbour_words out.offsets_list out.edges_list v).Pairwise (fun a b => a < b)) ∧
    (sample_sym.vertices_count + 1 < 2 ^ 32 →
      ∃ out, add_4B_weight_to_ll_400_graph (sample_sym.vertices_count + 2) sample_pe
        sample_partitions sample_sym 102400 0 = some (Except.ok out))) :=
  ⟨by decide, by decide, by decide, by decide, by decide, by decide,
    add_4B_weight_sorted_output sample_pe sample_partitions sample_sym 102400 0 (by decide)
      (by decide) (by decide) (by decide) (by decide) (by decide)⟩

/-- C12, as stated, fails when the threads of step 2 interleave: on the graph with the
edges `0 - 1` and `0 - 8`, thread 1 (vertex 8) writes into the list of vertex 0 before
thread 0 (vertex 1) does, and the neighbour words of vertex 0 become `8, 1`. -/
theorem add_4B_weight_sorted_output_counterexample :
    well_formed fork_sym ∧ sorted_neighbour_lists fork_sym ∧ symmetric_graph fork_sym ∧
    partitions_cover fork_partitions (two_threads.threads_count * 64) fork_sym.vertices_count ∧
    neighbour_words fork_sym.offsets_list
      (add_4B_weight_step2_in_order fork_sym late_first_chunk
        (add_4B_weight_step1 two_threads fork_partitions fork_sym 102400)).2 0 = [8, 1] ∧
    ¬ (neighbour_words fork_sym.offsets_list
      (add_4B_weight_step2_in_order fork_sym late_first_chunk
        (add_4B_weight_step1 two_threads fork_partitions fork_sym 102400)).2 0).Pairwise
        (fun a b => a < b) := by
  set_option maxRecDepth 8000 in
  refine ⟨by decide, by decide, by decide, by decide, by decide, by decide⟩

/-! ## The generators -/

theorem splitmix64_reference_succ (x i : Nat) :
    splitmix64_reference x (i + 1) =
      splitmix64_reference ((x + 0x9e3779b97f4a7c15) % 2 ^ 64) i := by
  have h : (x + (i + 1 + 1) * 0x9e3779b97f4a7c15) % 2 ^ 64 =
      ((x + 0x9e3779b97f4a7c15) % 2 ^ 64 + (i + 1) * 0x9e3779b97f4a7c15) % 2 ^ 64 := by
    omega
  simp only [splitmix64_reference, h]

theorem splitmix64_eq_reference (x : Nat) :
    splitmix64 x = ((x + 0x9e3779b97f4a7c15) % 2 ^ 64, splitmix64_reference x 0) := by
  simp only [splitmix64, splitmix64_reference, Nat.shiftRight_eq_div_pow, Nat.zero_add,
    Nat.one_mul]

theorem seed_partition_eq_reference (p : Nat) : seed_partition p = seed_reference p := by
  simp only [seed_partition, seed_reference, splitmix64_eq_reference,
    splitmix64_reference_succ]

theorem splitmix64_reference_lt (x i : Nat) : splitmix64_reference x i < 2 ^ 64 := by
  simp only [splitmix64_reference]
  apply Nat.xor_lt_two_pow
  · exact Nat.mod_lt _ (by norm_num)
  · exact Nat.lt_of_le_of_lt (Nat.div_le_self _ _) (Nat.mod_lt _ (by norm_num))

theorem seed_reference_state64 (p : Nat) : is_state64 (seed_reference p) :=
  ⟨splitmix64_reference_lt p 0, splitmix64_reference_lt p 1, splitmix64_reference_lt p 2,
    splitmix64_reference_lt p 3⟩

theorem rotl64_eq_reference (x k : Nat) (hx : x < 2 ^ 64) (hk : k ≤ 64) :
    rotl64 x k = rotl_reference x k := by
  unfold rotl64 rotl_reference
  rw [Nat.shiftLeft_eq, Nat.shiftRight_eq_div_pow]
  have e1 : (2 : Nat) ^ 64 = 2 ^ (64 - k) * 2 ^ k := by
    rw [← Nat.pow_add]
    congr 1
    omega
  have e2 : x * 2 ^ k % 2 ^ 64 = 2 ^ k * (x % 2 ^ (64 - k)) := by
    rw [e1, Nat.mul_mod_mul_right, Nat.mul_comm]
  have e3 : x / 2 ^ (64 - k) < 2 ^ k := by
    rw [Nat.div_lt_iff_lt_mul (Nat.two_pow_pos _)]
    rw [Nat.mul_comm, ← e1]
    exact hx
  rw [e2, ← Nat.mul_add_lt_is_or e3]

theorem rotl_reference_lt (x k : Nat) (hx : x < 2 ^ 64) (hk : k ≤ 64) :
    rotl_reference x k < 2 ^ 64 := by
  rw [← rotl64_eq_reference x k hx hk]
  unfold rotl64
  apply Nat.or_lt_two_pow
  · exact Nat.mod_lt _ (by norm_num)
  · rw [Nat.shiftRight_eq_div_pow]
    exact Nat.lt_of_le_of_lt (Nat.div_le_self _ _) hx

theorem xoshiro256_next_eq_reference (s : xoshiro256) (hs : is_state64 s) :
    xoshiro256_next s = xoshiro256pp_reference s ∧ is_state64 (xoshiro256_next s).2 := by
  obtain ⟨h0, h1, h2, h3⟩ := hs
  have e1 : s.s3 ^^^ s.s1 < 2 ^ 64 := Nat.xor_lt_two_pow h3 h1
  have e2 : s.s2 ^^^ s.s0 < 2 ^ 64 := Nat.xor_lt_two_pow h2 h0
  have hnext : xoshiro256_next s = xoshiro256pp_reference s := by
    simp only [xoshiro256_next, xoshiro256pp_reference, Nat.shiftLeft_eq]
    rw [rotl64_eq_reference _ 23 (Nat.mod_lt _ (by norm_num)) (by norm_num),
      rotl64_eq_reference _ 45 e1 (by norm_num)]
  refine ⟨hnext, ?_⟩
  simp only [xoshiro256_next]
  refine ⟨Nat.xor_lt_two_pow h0 e1, Nat.xor_lt_two_pow h1 e2,
    Nat.xor_lt_two_pow e2 (Nat.mod_lt _ (by norm_num)), ?_⟩
  rw [rotl64_eq_reference _ 45 e1 (by norm_num)]
  exact rotl_reference_lt _ 45 e1 (by norm_num)

theorem xoshiro256_state_shift (s : xoshiro256) (k : Nat) :
    xoshiro256_state (xoshiro256_next s).2 k = xoshiro256_state s (k + 1) := by
  induction k with
  | zero => rfl
  | succ k ih =>
    show (xoshiro256_next (xoshiro256_state (xoshiro256_next s).2 k)).2 = _
    rw [ih]
    rfl

theorem xoshiro256_state_add (s : xoshiro256) (j k : Nat) :
    xoshiro256_state (xoshiro256_state s j) k = xoshiro256_state s (j + k) := by
  induction k with
  | zero => rfl
  | succ k ih =>
    show (xoshiro256_next (xoshiro256_state (xoshiro256_state s j) k)).2 = _
    rw [ih]
    rfl

theorem xoshiro256_output_add (s : xoshiro256) (j k : Nat) :
    xoshiro256_output (xoshiro256_state s j) k = xoshiro256_output s (j + k) := by
  unfold xoshiro256_output
  rw [xoshiro256_state_add]

theorem xoshiro256_output_eq_stream (s : xoshiro256) (hs : is_state64 s) (k : Nat) :
    xoshiro256_output s k = xoshiro256pp_stream s k := by
  induction k generalizing s with
  | zero =>
    show (xoshiro256_next s).1 = (xoshiro256pp_reference s).1
    rw [(xoshiro256_next_eq_reference s hs).1]
  | succ k ih =>
    obtain ⟨e1, e2⟩ := xoshiro256_next_eq_reference s hs
    show _ = xoshiro256pp_stream (xoshiro256pp_reference s).2 k
    rw [← e1, ← ih _ e2]
    unfold xoshiro256_output
    rw [xoshiro256_state_shift]

/-- Known first output of splitmix64 started from `0`, and the first draw of
xoshiro256++ from the state seeded with it. -/
theorem generators_test_vector :
    splitmix64_reference 0 0 = 0xe220a8397b1dcdaf ∧
    xoshiro256pp_stream (seed_reference 0) 0 = 5987356902031041503 := by
  decide

/-! ## Step 1 of `add_4B_weight_to_ll_400_graph`: the draws -/

theorem assign_edges_draws (g : ll_400_graph) (max_weight v : Nat) (h1 : 1 ≤ max_weight)
    (h2 : max_weight < 2 ^ 32) (k e : Nat) (st : List Nat × xoshiro256)
    (hlen : 2 * (e + k) ≤ st.1.length) :
    (add_4B_weight_assign_edges g max_weight v k e st).2.2 =
      xoshiro256_state st.2 ((add_4B_weight_assign_edges g max_weight v k e st).1 - e) ∧
    (∀ i, e ≤ i → i < (add_4B_weight_assign_edges g max_weight v k e st).1 →
      rd (add_4B_weight_assign_edges g max_weight v k e st).2.1 (2 * i + 1) =
        1 + xoshiro256_output st.2 (i - e) % max_weight) := by
  induction k generalizing e st with
  | zero =>
    unfold add_4B_weight_assign_edges
    refine ⟨by simp [xoshiro256_state], ?_⟩
    intro i h3 h4; omega
  | succ k ih =>
    unfold add_4B_weight_assign_edges
    by_cases hbreak : rd g.edges_list e > v
    · rw [if_pos hbreak]
      refine ⟨by simp [xoshiro256_state], ?_⟩
      intro i h3 h4; omega
    · rw [if_neg hbreak]
      obtain ⟨w1, w2, w3⟩ := weight_no_wrap (xoshiro256_next st.2).1 max_weight h1 h2
      rw [w1]
      have hl : ((st.1.set (2 * e) (rd g.edges_list e)).set (2 * e + 1)
          (1 + (xoshiro256_next st.2).1 % max_weight)).length = st.1.length := by simp
      obtain ⟨i1, i2⟩ := ih (e + 1)
        ((st.1.set (2 * e) (rd g.edges_list e)).set (2 * e + 1)
          (1 + (xoshiro256_next st.2).1 % max_weight), (xoshiro256_next st.2).2)
        (by rw [hl]; omega)
      obtain ⟨a1, _, _, _, _, a6⟩ := assign_edges_spec g max_weight v h1 h2 k (e + 1)
        ((st.1.set (2 * e) (rd g.edges_list e)).set (2 * e + 1)
          (1 + (xoshiro256_next st.2).1 % max_weight), (xoshiro256_next st.2).2)
        (by rw [hl]; omega)
      constructor
      · rw [i1]
        dsimp only
        rw [xoshiro256_state_shift]
        congr 1
        omega
      · intro i h3 h4
        by_cases hie : i = e
        · subst hie
          rw [a6 (2 * i + 1) (by omega), rd_set_eq _ _ _ (by simp; omega)]
          simp [xoshiro256_output, xoshiro256_state]
        · rw [i2 i (by omega) h4]
          dsimp only
          unfold xoshiro256_output
          rw [xoshiro256_state_shift]
          have : i - (e + 1) + 1 = i - e := by omega
          rw [this]

theorem filter_range'_split (p : Nat → Bool) (a c k : Nat) (h1 : a ≤ c) (h2 : c ≤ a + k)
    (hlow : ∀ i, a ≤ i → i < c → p i = true)
    (hhigh : ∀ i, c ≤ i → i < a + k → p i = false) :
    (List.range' a k).filter p = List.range' a (c - a) := by
  have e : List.range' a k = List.range' a (c - a) ++ List.range' c (a + k - c) := by
    have := List.range'_append a (c - a) (a + k - c) 1
    simp only [Nat.one_mul] at this
    have e1 : a + (c - a) = c := by omega
    have e2 : a + k - c + (c - a) = k := by omega
    rw [e1, e2] at this
    exact this.symm
  rw [e, List.filter_append]
  have f1 : (List.range' a (c - a)).filter p = List.range' a (c - a) := by
    rw [List.filter_eq_self]
    intro i hi
    rw [List.mem_range'_1] at hi
    exact hlow i hi.1 (by omega)
  have f2 : (List.range' c (a + k - c)).filter p = [] := by
    rw [List.filter_eq_nil_iff]
    intro i hi
    rw [List.mem_range'_1] at hi
    rw [hhigh i hi.1 (by omega)]
    simp
  rw [f1, f2, List.append_nil]

theorem lower_slots_eq (g : ll_400_graph) (v c : Nat) (hb : boundary g v c (v + 1)) :
    lower_slots g v = List.range' (rd g.offsets_list v) (c - rd g.offsets_list v) := by
  obtain ⟨b1, b2, b3, b4⟩ := hb
  unfold lower_slots edge_slots
  apply filter_range'_split _ _ c _ b1 (by omega)
  · intro i i1 i2
    have := b3 i i1 i2
    simp only [is_lower_slot, decide_eq_true_eq]
    omega
  · intro i i1 i2
    have := b4 i i1 (by omega)
    simp only [is_lower_slot, decide_eq_false_iff_not]
    omega

theorem mem_lower_slots (g : ll_400_graph) (v e : Nat) :
    e ∈ lower_slots g v ↔
      rd g.offsets_list v ≤ e ∧ e < rd g.offsets_list (v + 1) ∧ rd g.edges_list e ≤ v := by
  unfold lower_slots
  rw [List.mem_filter, mem_edge_slots]
  simp only [is_lower_slot, decide_eq_true_eq]
  tauto

theorem assign_vertex_draws (g : ll_400_graph) (hwf : well_formed g)
    (hsorted : sorted_neighbour_lists g) (max_weight : Nat) (h1 : 1 ≤ max_weight)
    (h2 : max_weight < 2 ^ 32) (v : Nat) (hv : v < g.vertices_count)
    (st : List Nat × List Nat) (s : xoshiro256)
    (hinv : assign_invariant g max_weight v st) :
    lower_slots g v = List.range' (rd g.offsets_list v) (lower_slots g v).length ∧
    (add_4B_weight_assign_vertex g max_weight (st, s) v).2 =
      xoshiro256_state s (lower_slots g v).length ∧
    (∀ j, j < (lower_slots g v).length →
      rd (add_4B_weight_assign_vertex g max_weight (st, s) v).1.2
        (2 * (rd g.offsets_list v + j) + 1) = 1 + xoshiro256_output s j % max_weight) ∧
    (∀ idx, idx < 2 * rd g.offsets_list v ∨ 2 * rd g.offsets_list (v + 1) ≤ idx →
      rd (add_4B_weight_assign_vertex g max_weight (st, s) v).1.2 idx = rd st.2 idx) := by
  have hnext := assign_vertex_spec g hwf hsorted max_weight h1 h2 v hv st s hinv
  obtain ⟨l1, l2, _, _⟩ := hinv
  have hmono := hwf.2.2.2.1 v hv
  have hend : rd g.offsets_list (v + 1) ≤ g.edges_count := by
    have := offsets_mono g hwf (v + 1) g.vertices_count (by omega) (Nat.le_refl _)
    rw [hwf.2.2.2.2.1] at this
    exact this
  have hk : rd g.offsets_list v + (rd g.offsets_list (v + 1) - rd g.offsets_list v) =
      rd g.offsets_list (v + 1) := by omega
  have hlen : 2 * (rd g.offsets_list v + (rd g.offsets_list (v + 1) - rd g.offsets_list v)) ≤
      st.2.length := by rw [hk, l2]; omega
  obtain ⟨a1, a2, a3, a4, a5, a6⟩ := assign_edges_spec g max_weight v h1 h2
    (rd g.offsets_list (v + 1) - rd g.offsets_list v) (rd g.offsets_list v) (st.2, s) hlen
  obtain ⟨d1, d2⟩ := assign_edges_draws g max_weight v h1 h2
    (rd g.offsets_list (v + 1) - rd g.offsets_list v) (rd g.offsets_list v) (st.2, s) hlen
  rw [hk] at a2 a5 a6
  have hb := hnext.2.2.1 v (by omega)
  unfold add_4B_weight_assign_vertex at hb ⊢
  dsimp only at a1 a2 a3 a4 a5 a6 d1 d2 hb ⊢
  rw [rd_set_eq _ _ _ (by omega)] at hb
  have hls := lower_slots_eq g v _ hb
  have hll : (lower_slots g v).length = (add_4B_weight_assign_edges g max_weight v
      (rd g.offsets_list (v + 1) - rd g.offsets_list v) (rd g.offsets_list v) (st.2, s)).1 -
        rd g.offsets_list v := by
    rw [hls, List.length_range']
  refine ⟨by rw [hll]; exact hls, by rw [hll]; exact d1, ?_, a6⟩
  intro j hj
  rw [d2 _ (by omega) (by omega)]
  congr 3
  omega

theorem mem_flatMap_lower_slots (g : ll_400_graph) (hwf : well_formed g) (a k e : Nat)
    (hak : a + k ≤ g.vertices_count)
    (h : e ∈ (List.range' a k).flatMap (lower_slots g)) :
    rd g.offsets_list a ≤ e ∧ e < rd g.offsets_list (a + k) := by
  rw [List.mem_flatMap] at h
  obtain ⟨u, hu, he⟩ := h
  rw [List.mem_range'_1] at hu
  rw [mem_lower_slots] at he
  have m1 := offsets_mono g hwf a u hu.1 (by omega)
  have m2 := offsets_mono g hwf (u + 1) (a + k) (by omega) hak
  omega

theorem rd_range' (a k j : Nat) (hj : j < k) : rd (List.range' a k) j = a + j := by
  rw [rd_eq_getElem _ _ (by simpa using hj)]
  simp

theorem rd_mem (l : List Nat) (j : Nat) (hj : j < l.length) : rd l j ∈ l := by
  rw [rd_eq_getElem l j hj]
  exact List.getElem_mem hj

theorem assign_vertices_draws (g : ll_400_graph) (hwf : well_formed g)
    (hsorted : sorted_neighbour_lists g) (max_weight : Nat) (h1 : 1 ≤ max_weight)
    (h2 : max_weight < 2 ^ 32) (k a : Nat) (hak : a + k ≤ g.vertices_count)
    (st : List Nat × List Nat) (s : xoshiro256)
    (hinv : assign_invariant g max_weight a st) :
    ((List.range' a k).foldl (add_4B_weight_assign_vertex g max_weight) (st, s)).2 =
      xoshiro256_state s ((List.range' a k).flatMap (lower_slots g)).length ∧
    (∀ j, j < ((List.range' a k).flatMap (lower_slots g)).length →
      rd ((List.range' a k).foldl (add_4B_weight_assign_vertex g max_weight) (st, s)).1.2
        (2 * rd ((List.range' a k).flatMap (lower_slots g)) j + 1) =
        1 + xoshiro256_output s j % max_weight) ∧
    (∀ idx, idx < 2 * rd g.offsets_list a ∨ 2 * rd g.offsets_list (a + k) ≤ idx →
      rd ((List.range' a k).foldl (add_4B_weight_assign_vertex g max_weight) (st, s)).1.2 idx =
        rd st.2 idx) := by
  induction k generalizing a st s with
  | zero =>
    refine ⟨rfl, ?_, fun _ _ => rfl⟩
    intro j hj
    simp at hj
  | succ k ih =>
    rw [List.range'_succ, List.foldl_cons, List.flatMap_cons]
    have hstep := assign_vertex_spec g hwf hsorted max_weight h1 h2 a (by omega) st s hinv
    obtain ⟨v1, v2, v3, v4⟩ := assign_vertex_draws g hwf hsorted max_weight h1 h2 a (by omega)
      st s hinv
    obtain ⟨i1, i2, i3⟩ := ih (a + 1) (by omega)
      (add_4B_weight_assign_vertex g max_weight (st, s) a).1
      (add_4B_weight_assign_vertex g max_weight (st, s) a).2 hstep
    have hmono := hwf.2.2.2.1 a (by omega)
    have hmono2 := offsets_mono g hwf (a + 1) (a + 1 + k) (by omega) (by omega)
    have e : a + 1 + k = a + (k + 1) := by omega
    rw [e] at i3 hmono2
    have hlow : ∀ j, j < (lower_slots g a).length →
        rd (lower_slots g a) j = rd g.offsets_list a + j ∧
        rd g.offsets_list a + j < rd g.offsets_list (a + 1) := by
      intro j hj
      have hm := rd_mem _ j hj
      rw [mem_lower_slots] at hm
      have : rd (lower_slots g a) j = rd g.offsets_list a + j := by
        rw [v1]
        exact rd_range' _ _ _ (by simpa using hj)
      rw [this] at hm
      exact ⟨this, hm.2.1⟩
    refine ⟨?_, ?_, ?_⟩
    · rw [i1, v2, xoshiro256_state_add, List.length_append]
    · intro j hj
      rw [List.length_append] at hj
      by_cases hjl : j < (lower_slots g a).length
      · rw [rd_append_left _ _ _ hjl, (hlow j hjl).1,
          i3 _ (by left; have := (hlow j hjl).2; omega)]
        exact v3 j hjl
      · rw [rd_append_right _ _ _ (by omega), i2 _ (by omega), v2, xoshiro256_output_add]
        congr 3
        omega
    · intro idx hidx
      rw [i3 idx (by omega), v4 idx (by omega)]

theorem partition_lower_slot_lt (g : ll_400_graph) (hwf : well_formed g)
    (partitions : List Nat) (count : Nat)
    (hcover : partitions_cover partitions count g.vertices_count) (p : Nat) (hp : p < count)
    (e : Nat) (he : e ∈ partition_lower_slots g partitions p) :
    rd g.offsets_list (rd partitions p) ≤ e ∧ e < rd g.offsets_list (rd partitions (p + 1)) := by
  obtain ⟨_, h0, hn, hmono⟩ := hcover
  have hle := hmono p hp
  have hlen : rd partitions (p + 1) ≤ g.vertices_count := by
    rw [← hn]
    exact boundaries_mono (fun q => rd partitions q) count hmono (p + 1) count (by omega)
      (Nat.le_refl _)
  have := mem_flatMap_lower_slots g hwf (rd partitions p)
    (rd partitions (p + 1) - rd partitions p) e (by omega) he
  have e1 : rd partitions p + (rd partitions (p + 1) - rd partitions p) =
      rd partitions (p + 1) := by omega
  rw [e1] at this
  exact this

theorem assign_partitions_draws (g : ll_400_graph) (hwf : well_formed g)
    (hsorted : sorted_neighbour_lists g) (max_weight : Nat) (h1 : 1 ≤ max_weight)
    (h2 : max_weight < 2 ^ 32) (partitions : List Nat) (count : Nat)
    (hcover : partitions_cover partitions count g.vertices_count)
    (st : List Nat × List Nat) (hinv : assign_invariant g max_weight 0 st)
    (j : Nat) (hj : j ≤ count) :
    ∀ p, p < j → ∀ k, k < (partition_lower_slots g partitions p).length →
      rd ((List.range j).foldl (add_4B_weight_assign_partition g max_weight partitions) st).2
        (2 * rd (partition_lower_slots g partitions p) k + 1) =
        1 + xoshiro256_output (seed_partition p) k % max_weight := by
  induction j with
  | zero =>
    intro p hp
    omega
  | succ j ih =>
    rw [List.range_succ, List.foldl_append]
    simp only [List.foldl_cons, List.foldl_nil]
    have hprev := assign_partitions_spec g hwf hsorted max_weight h1 h2 partitions count hcover
      st hinv j (by omega)
    have hcover' := hcover
    obtain ⟨_, h0, hn, hmono⟩ := hcover
    have hle := hmono j (by omega)
    have hlen : rd partitions (j + 1) ≤ g.vertices_count := by
      rw [← hn]
      exact boundaries_mono (fun q => rd partitions q) count hmono (j + 1) count (by omega)
        (Nat.le_refl _)
    obtain ⟨_, d2, d3⟩ := assign_vertices_draws g hwf hsorted max_weight h1 h2
      (rd partitions (j + 1) - rd partitions j) (rd partitions j) (by omega)
      ((List.range j).foldl (add_4B_weight_assign_partition g max_weight partitions) st)
      (seed_partition j) hprev
    intro p hp k hk
    by_cases hpj : p = j
    · rw [hpj] at hk ⊢
      exact d2 k hk
    · have hmem := partition_lower_slot_lt g hwf partitions count hcover' p (by omega) _
        (rd_mem _ k hk)
      have hpp : rd partitions (p + 1) ≤ rd partitions j :=
        boundaries_mono (fun q => rd partitions q) count hmono (p + 1) j (by omega) (by omega)
      have hoff := offsets_mono g hwf _ _ hpp (by omega)
      show rd ((partition_vertices partitions j).foldl (add_4B_weight_assign_vertex g max_weight)
        ((List.range j).foldl (add_4B_weight_assign_partition g max_weight partitions) st,
          seed_partition j)).1.2 _ = _
      unfold partition_vertices
      rw [d3 _ (by omega)]
      exact ih (by omega) p (by omega) k hk

/-- The weights drawn by step 1 of `add_4B_weight_to_ll_400_graph`: slot number `k` of
partition `p` among the slots whose neighbour is `<=` its vertex holds
`1 + (r mod max_weight)` for the draw `r` number `k` of the generator seeded for `p`. -/
theorem add_4B_weight_step1_draws (pe : par_env) (partitions : List Nat) (g : ll_400_graph)
    (hwf : well_formed g) (hsorted : sorted_neighbour_lists g)
    (hcover : partitions_cover partitions (pe.threads_count * 64) g.vertices_count)
    (max_weight : Nat) (h1 : 1 ≤ max_weight) (h2 : max_weight < 2 ^ 32) (p : Nat)
    (hp : p < pe.threads_count * 64) (k : Nat)
    (hk : k < (partition_lower_slots g partitions p).length) :
    rd (add_4B_weight_step1 pe partitions g max_weight).2
      (2 * rd (partition_lower_slots g partitions p) k + 1) =
      1 + xoshiro256_output (seed_partition p) k % max_weight :=
  assign_partitions_draws g hwf hsorted max_weight h1 h2 partitions
    (pe.threads_count * 64) hcover
    (List.replicate (1 + g.vertices_count) 0, List.replicate (2 * g.edges_count) 0)
    ⟨by simp; omega, by simp, fun v hv => by omega, fun v hv => by omega⟩
    (pe.threads_count * 64) (Nat.le_refl _) p hp k hk

/-- The weights after step 2 of `add_4B_weight_to_ll_400_graph` in terms of the weights
drawn by step 1: a slot whose neighbour is `<=` its vertex keeps its weight, a slot whose
neighbour is above its vertex holds the weight of the reverse slot. -/
theorem add_4B_weight_weights_of_step1 (pe : par_env) (partitions : List Nat)
    (g : ll_400_graph) (hwf : well_formed g) (hsorted : sorted_neighbour_lists g)
    (hsym : symmetric_graph g)
    (hcover : partitions_cover partitions (pe.threads_count * 64) g.vertices_count)
    (max_weight : Nat) (h1 : 1 ≤ max_weight) (h2 : max_weight < 2 ^ 32) :
    (∀ u, u < g.vertices_count → ∀ i, rd g.offsets_list u ≤ i → i < rd g.offsets_list (u + 1) →
      rd g.edges_list i ≤ u →
      rd (add_4B_weight_step2 g (add_4B_weight_step1 pe partitions g max_weight)).2
        (2 * i + 1) = rd (add_4B_weight_step1 pe partitions g max_weight).2 (2 * i + 1)) ∧
    (∀ u, u < g.vertices_count → ∀ i, rd g.offsets_list u ≤ i → i < rd g.offsets_list (u + 1) →
      u < rd g.edges_list i →
      ∃ e, rd g.offsets_list (rd g.edges_list i) ≤ e ∧
        e < rd g.offsets_list (rd g.edges_list i + 1) ∧ rd g.edges_list e = u ∧
        rd (add_4B_weight_step2 g (add_4B_weight_step1 pe partitions g max_weight)).2
          (2 * i + 1) = rd (add_4B_weight_step1 pe partitions g max_weight).2 (2 * e + 1)) := by
  obtain ⟨_, _, hcur, _, _, _⟩ := add_4B_weight_steps_spec pe partitions g hwf hsorted hsym
    hcover max_weight h1 h2
  obtain ⟨a1, a2, a3, a4⟩ := add_4B_weight_step1_spec pe partitions g hwf hsorted hcover
    max_weight h1 h2
  generalize add_4B_weight_step1 pe partitions g max_weight = st1 at a1 a2 a3 a4 hcur ⊢
  have hout0 : mirror_outer g st1.1 st1.2 0 st1 := by
    refine ⟨⟨a1, a2, ?_, ?_⟩, ?_⟩
    · intro u hu i i1 i2
      exact ⟨(a4 u hu i i1 i2).1, rfl⟩
    · intro u hu i i1 i2
      omega
    · intro u hu
      have e : max 0 (u + 1) = u + 1 := by omega
      rw [e]
      exact a3 u hu
  have hout := mirror_vertices_spec g hwf hsorted hsym st1.1 st1.2 a3 st1 hout0
    g.vertices_count (Nat.le_refl _)
  have hst2 : add_4B_weight_step2 g st1 =
      (List.range g.vertices_count).foldl (add_4B_weight_mirror_vertex g) st1 := rfl
  rw [← hst2] at hout
  generalize add_4B_weight_step2 g st1 = st2 at hout hcur ⊢
  obtain ⟨⟨l1, l2, k1, k2⟩, hb⟩ := hout
  constructor
  · intro u hu i i1 i2 i3
    have hlow : i < rd st1.1 u := by
      by_contra hge
      have := (a3 u hu).2.2.2 i (by omega) i2
      omega
    exact (k1 u hu i i1 hlow).2
  · intro u hu i i1 i2 i3
    have hup : rd st1.1 u ≤ i := by
      by_contra hlt
      have := (a3 u hu).2.2.1 i i1 (by omega)
      omega
    obtain ⟨_, e, e1, e2, e3, e4⟩ := k2 u hu i hup (by rw [hcur u hu]; exact i2)
    exact ⟨e, e1, e2, e3, e4⟩

theorem partition_lower_slot_vertex (g : ll_400_graph) (partitions : List Nat) (count : Nat)
    (hcover : partitions_cover partitions count g.vertices_count) (p : Nat) (hp : p < count)
    (e : Nat) (he : e ∈ partition_lower_slots g partitions p) :
    ∃ u, u < g.vertices_count ∧ rd partitions p ≤ u ∧ u < rd partitions (p + 1) ∧
      rd g.offsets_list u ≤ e ∧ e < rd g.offsets_list (u + 1) ∧ rd g.edges_list e ≤ u := by
  obtain ⟨_, h0, hn, hmono⟩ := hcover
  have hlen : rd partitions (p + 1) ≤ g.vertices_count := by
    rw [← hn]
    exact boundaries_mono (fun q => rd partitions q) count hmono (p + 1) count (by omega)
      (Nat.le_refl _)
  unfold partition_lower_slots partition_vertices at he
  rw [List.mem_flatMap] at he
  obtain ⟨u, hu, he⟩ := he
  rw [List.mem_range'_1] at hu
  rw [mem_lower_slots] at he
  exact ⟨u, by omega, hu.1, by omega, he.1, he.2.1, he.2.2⟩

/-! ## Claims on the weight generation -/

/-- C13: weight generation follows the documented generators, in 64-bit wrapping
arithmetic.  For every partition index `p` the state seeded in the code is made of the
first four outputs of splitmix64 started from `x = p`, one draw of the code is one call of
xoshiro256++ (result `s0 + rotl(s0 + s3, 23)`, state update with shift 17 and rotation 45),
and slot number `k` of partition `p` (vertices in ID order, slots in list order) among
the slots whose neighbour is `<=` its vertex holds the weight `1 + (r_k mod max_weight)`,
`r_k` being output number `k` of xoshiro256++ from that state: after step 1, after step 2
and in every graph returned; a graph is returned when the 32-bit counter of the last loop
can pass `vertices_count`. -/
theorem add_4B_weight_follows_generators (pe : par_env) (partitions : List Nat)
    (g : ll_400_graph) (max_weight flags : Nat) (hwf : well_formed g)
    (hsorted : sorted_neighbour_lists g) (hsym : symmetric_graph g)
    (hcover : partitions_cover partitions (pe.threads_count * 64) g.vertices_count)
    (h1 : 1 ≤ max_weight) (h2 : max_weight ≤ 2 ^ 32 - 1) :
    (∀ p, seed_partition p = seed_reference p) ∧
    (∀ p k, xoshiro256_next (xoshiro256_state (seed_partition p) k) =
      xoshiro256pp_reference (xoshiro256_state (seed_partition p) k)) ∧
    (∀ p, p < pe.threads_count * 64 →
      ∀ k, k < (partition_lower_slots g partitions p).length →
        rd (add_4B_weight_step1 pe partitions g max_weight).2
          (2 * rd (partition_lower_slots g partitions p) k + 1) =
          1 + xoshiro256pp_stream (seed_reference p) k % max_weight ∧
        rd (add_4B_weight_step2 g (add_4B_weight_step1 pe partitions g max_weight)).2
          (2 * rd (partition_lower_slots g partitions p) k + 1) =
          1 + xoshiro256pp_stream (seed_reference p) k % max_weight) ∧
    (∀ fuel out, add_4B_weight_to_ll_400_graph fuel pe partitions g max_weight flags =
        some (Except.ok out) →
      ∀ p, p < pe.threads_count * 64 →
        ∀ k, k < (partition_lower_slots g partitions p).length →
          rd out.edges_list (2 * rd (partition_lower_slots g partitions p) k + 1) =
            1 + xoshiro256pp_stream (seed_reference p) k % max_weight) ∧
    (g.vertices_count + 1 < 2 ^ 32 →
      ∃ out, add_4B_weight_to_ll_400_graph (g.vertices_count + 2) pe partitions g max_weight
        flags = some (Except.ok out)) := by
  have h2' : max_weight < 2 ^ 32 := by omega
  have hstate : ∀ p k, is_state64 (xoshiro256_state (seed_partition p) k) := by
    intro p k
    induction k with
    | zero =>
      rw [seed_partition_eq_reference]
      exact seed_reference_state64 p
    | succ k ih => exact (xoshiro256_next_eq_reference _ ih).2
  have hboth : ∀ p, p < pe.threads_count * 64 →
      ∀ k, k < (partition_lower_slots g partitions p).length →
        rd (add_4B_weight_step1 pe partitions g max_weight).2
          (2 * rd (partition_lower_slots g partitions p) k + 1) =
          1 + xoshiro256pp_stream (seed_reference p) k % max_weight ∧
        rd (add_4B_weight_step2 g (add_4B_weight_step1 pe partitions g max_weight)).2
          (2 * rd (partition_lower_slots g partitions p) k + 1) =
          1 + xoshiro256pp_stream (seed_reference p) k % max_weight := by
    intro p hp k hk
    have hd := add_4B_weight_step1_draws pe partitions g hwf hsorted hcover max_weight h1 h2'
      p hp k hk
    have hs0 : is_state64 (seed_partition p) := hstate p 0
    rw [xoshiro256_output_eq_stream _ hs0, seed_partition_eq_reference] at hd
    refine ⟨hd, ?_⟩
    obtain ⟨u, u1, _, _, u4, u5, u6⟩ := partition_lower_slot_vertex g partitions _ hcover p hp _
      (rd_mem _ k hk)
    rw [(add_4B_weight_weights_of_step1 pe partitions g hwf hsorted hsym hcover max_weight h1
      h2').1 u u1 _ u4 u5 u6]
    exact hd
  refine ⟨seed_partition_eq_reference, fun p k => (xoshiro256_next_eq_reference _ (hstate p k)).1,
    hboth, ?_,
    add_4B_weight_returns pe partitions g max_weight flags hwf hsorted hsym hcover h1 h2'⟩
  intro fuel out hout p hp k hk
  obtain ⟨_, _, _, o4⟩ := add_4B_weight_facts pe partitions g max_weight flags hwf hsorted
    hsym hcover h1 h2' fuel out hout
  rw [o4]
  exact (hboth p hp k hk).2

theorem add_4B_weight_follows_generators_witness :
    well_formed sample_sym ∧ sorted_neighbour_lists sample_sym ∧ symmetric_graph sample_sym ∧
    partitions_cover sample_partitions (sample_pe.threads_count * 64) sample_sym.vertices_count ∧
    1 ≤ 102400 ∧ 102400 ≤ 2 ^ 32 - 1 ∧
    ((∀ p, seed_partition p = seed_reference p) ∧
    (∀ p k, xoshiro256_next (xoshiro256_state (seed_partition p) k) =
      xoshiro256pp_reference (xoshiro256_state (seed_partition p) k)) ∧
    (∀ p, p < sample_pe.threads_count * 64 →
      ∀ k, k < (partition_lower_slots sample_sym sample_partitions p).length →
        rd (add_4B_weight_step1 sample_pe sample_partitions sample_sym 102400).2
          (2 * rd (partition_lower_slots sample_sym sample_partitions p) k + 1) =
          1 + xoshiro256pp_stream (seed_reference p) k % 102400 ∧
        rd (add_4B_weight_step2 sample_sym
            (add_4B_weight_step1 sample_pe sample_partitions sample_sym 102400)).2
          (2 * rd (partition_lower_slots sample_sym sample_partitions p) k + 1) =
          1 + xoshiro256pp_stream (seed_reference p) k % 102400) ∧
    (∀ fuel out, add_4B_weight_to_ll_400_graph fuel sample_pe sample_partitions sample_sym
        102400 0 = some (Except.ok out) →
      ∀ p, p < sample_pe.threads_count * 64 →
        ∀ k, k < (partition_lower_slots sample_sym sample_partitions p).length →
          rd out.edges_list (2 * rd (partition_lower_slots sample_sym sample_partitions p) k + 1) =
            1 + xoshiro256pp_stream (seed_reference p) k % 102400) ∧
    (sample_sym.vertices_count + 1 < 2 ^ 32 →
      ∃ out, add_4B_weight_to_ll_400_graph (sample_sym.vertices_count + 2) sample_pe
        sample_partitions sample_sym 102400 0 = some (Except.ok out))) :=
  ⟨by decide, by decide, by decide, by decide, by decide, by decide,
    add_4B_weight_follows_generators sample_pe sample_partitions sample_sym 102400 0
      (by decide) (by decide) (by decide) (by decide) (by decide) (by decide)⟩

/-! ## Claims on the determinism of the weights -/

theorem exists_partition (partitions : List Nat) (count n : Nat)
    (hcover : partitions_cover partitions count n) (v : Nat) (hv : v < n) :
    ∃ p, p < count ∧ rd partitions p ≤ v ∧ v < rd partitions (p + 1) := by
  obtain ⟨_, h0, hn, hmono⟩ := hcover
  have hmem : v ∈ (List.range count).flatMap
      (fun p => List.range' (rd partitions p) (rd partitions (p + 1) - rd partitions p)) := by
    rw [flatMap_boundaries (fun p => rd partitions p) count h0 hmono, hn, List.mem_range]
    exact hv
  rw [List.mem_flatMap] at hmem
  obtain ⟨p, hp, hvp⟩ := hmem
  rw [List.mem_range] at hp
  rw [List.mem_range'_1] at hvp
  exact ⟨p, hp, hvp.1, by omega⟩

theorem exists_rd_of_mem (l : List Nat) (x : Nat) (h : x ∈ l) :
    ∃ k, k < l.length ∧ rd l k = x := by
  obtain ⟨k, hk, hx⟩ := List.mem_iff_getElem.1 h
  exact ⟨k, hk, by rw [rd_eq_getElem l k hk]; exact hx⟩

/-- Two runs of step 1 in which every non-empty partition of the first run is the
partition of the same index of the second run draw the same weights. -/
theorem add_4B_weight_step1_same (pe1 pe2 : par_env) (partitions1 partitions2 : List Nat)
    (g : ll_400_graph) (hwf : well_formed g) (hsorted : sorted_neighbour_lists g)
    (hcover1 : partitions_cover partitions1 (pe1.threads_count * 64) g.vertices_count)
    (hcover2 : partitions_cover partitions2 (pe2.threads_count * 64) g.vertices_count)
    (max_weight : Nat) (h1 : 1 ≤ max_weight) (h2 : max_weight < 2 ^ 32)
    (hsame : ∀ p, p < pe1.threads_count * 64 → rd partitions1 p < rd partitions1 (p + 1) →
      p < pe2.threads_count * 64 ∧ rd partitions2 p = rd partitions1 p ∧
      rd partitions2 (p + 1) = rd partitions1 (p + 1))
    (u : Nat) (hu : u < g.vertices_count) (i : Nat) (i1 : rd g.offsets_list u ≤ i)
    (i2 : i < rd g.offsets_list (u + 1)) (i3 : rd g.edges_list i ≤ u) :
    rd (add_4B_weight_step1 pe1 partitions1 g max_weight).2 (2 * i + 1) =
      rd (add_4B_weight_step1 pe2 partitions2 g max_weight).2 (2 * i + 1) := by
  obtain ⟨p, hp, p1, p2⟩ := exists_partition partitions1 _ _ hcover1 u hu
  obtain ⟨hp2, q1, q2⟩ := hsame p hp (by omega)
  have hmem : i ∈ partition_lower_slots g partitions1 p := by
    unfold partition_lower_slots partition_vertices
    rw [List.mem_flatMap]
    exact ⟨u, by rw [List.mem_range'_1]; omega, (mem_lower_slots g u i).2 ⟨i1, i2, i3⟩⟩
  have heq : partition_lower_slots g partitions2 p = partition_lower_slots g partitions1 p := by
    unfold partition_lower_slots partition_vertices
    rw [q1, q2]
  obtain ⟨k, hk, hki⟩ := exists_rd_of_mem _ _ hmem
  have d1 := add_4B_weight_step1_draws pe1 partitions1 g hwf hsorted hcover1 max_weight h1 h2
    p hp k hk
  have d2 := add_4B_weight_step1_draws pe2 partitions2 g hwf hsorted hcover2 max_weight h1 h2
    p hp2 k (by rw [heq]; exact hk)
  rw [heq] at d2
  rw [hki] at d1 d2
  rw [d1, d2]

/-- Two runs of steps 1 and 2 in which every non-empty partition of the first run is the
partition of the same index of the second run leave the same array of edges. -/
theorem add_4B_weight_steps_same (pe1 pe2 : par_env) (partitions1 partitions2 : List Nat)
    (g : ll_400_graph) (hwf : well_formed g) (hsorted : sorted_neighbour_lists g)
    (hsym : symmetric_graph g)
    (hcover1 : partitions_cover partitions1 (pe1.threads_count * 64) g.vertices_count)
    (hcover2 : partitions_cover partitions2 (pe2.threads_count * 64) g.vertices_count)
    (max_weight : Nat) (h1 : 1 ≤ max_weight) (h2 : max_weight < 2 ^ 32)
    (hsame : ∀ p, p < pe1.threads_count * 64 → rd partitions1 p < rd partitions1 (p + 1) →
      p < pe2.threads_count * 64 ∧ rd partitions2 p = rd partitions1 p ∧
      rd partitions2 (p + 1) = rd partitions1 (p + 1)) :
    (add_4B_weight_step2 g (add_4B_weight_step1 pe1 partitions1 g max_weight)).2 =
      (add_4B_weight_step2 g (add_4B_weight_step1 pe2 partitions2 g max_weight)).2 := by
  obtain ⟨_, l1, _, n1, _, _⟩ := add_4B_weight_steps_spec pe1 partitions1 g hwf hsorted hsym
    hcover1 max_weight h1 h2
  obtain ⟨_, l2, _, n2, _, _⟩ := add_4B_weight_steps_spec pe2 partitions2 g hwf hsorted hsym
    hcover2 max_weight h1 h2
  obtain ⟨k1, m1⟩ := add_4B_weight_weights_of_step1 pe1 partitions1 g hwf hsorted hsym
    hcover1 max_weight h1 h2
  obtain ⟨k2, m2⟩ := add_4B_weight_weights_of_step1 pe2 partitions2 g hwf hsorted hsym
    hcover2 max_weight h1 h2
  have hlow := add_4B_weight_step1_same pe1 pe2 partitions1 partitions2 g hwf hsorted hcover1
    hcover2 max_weight h1 h2 hsame
  apply ext_rd
  · rw [l1, l2]
  · intro j hj
    rw [l1] at hj
    have hi : j / 2 < g.edges_count := by omega
    obtain ⟨u, hu, i1, i2⟩ := exists_slot_of_lt g hwf (j / 2) hi
    rcases Nat.mod_two_eq_zero_or_one j with hpar | hpar
    · have e : j = 2 * (j / 2) := by omega
      rw [e, n1 _ hi, n2 _ hi]
    · have e : j = 2 * (j / 2) + 1 := by omega
      rw [e]
      by_cases hle : rd g.edges_list (j / 2) ≤ u
      · rw [k1 u hu _ i1 i2 hle, k2 u hu _ i1 i2 hle]
        exact hlow u hu _ i1 i2 hle
      · obtain ⟨e1, a1, a2, a3, a4⟩ := m1 u hu _ i1 i2 (by omega)
        obtain ⟨e2, b1, b2, b3, b4⟩ := m2 u hu _ i1 i2 (by omega)
        have hx : rd g.edges_list (j / 2) < g.vertices_count :=
          slot_dest_lt g hwf u _ ((mem_all_slots g u _).2 ⟨hu, i1, i2⟩)
        have hee := slot_value_unique g _ e1 e2 (hsorted _ hx) a1 a2 b1 b2 (by rw [a3, b3])
        rw [a4, b4, ← hee]
        exact hlow _ hx e1 a1 a2 (by omega)

/-- C14, as stated, fails: on the graph with the edges `0 - 2, 0 - 3, 1 - 2, 1 - 3` and
`max_weight = 102400`, a run with one thread (64 partitions) gives the edge `0 - 2` the
weight 65854, a run with two threads (128 partitions, other boundaries) gives it the
weight 48773. -/
theorem add_4B_weight_thread_counts_counterexample :
    partitions_cover sample_partitions (sample_pe.threads_count * 64) sample_sym.vertices_count ∧
    partitions_cover sample_partitions_two_threads (two_threads.threads_count * 64)
      sample_sym.vertices_count ∧
    add_4B_weight_to_ll_400_graph 6 sample_pe sample_partitions sample_sym 102400 0 =
      some (Except.ok
        { vertices_count := 4, edges_count := 8, offsets_list := [0, 2, 4, 6, 8],
          edges_list := [2, 65854, 3, 36884, 2, 102196, 3, 43104,
            0, 65854, 1, 102196, 0, 36884, 1, 43104] }) ∧
    add_4B_weight_to_ll_400_graph 6 two_threads sample_partitions_two_threads sample_sym
        102400 0 =
      some (Except.ok
        { vertices_count := 4, edges_count := 8, offsets_list := [0, 2, 4, 6, 8],
          edges_list := [2, 48773, 3, 95941, 2, 45575, 3, 43782,
            0, 48773, 1, 45575, 0, 95941, 1, 43782] }) ∧
    ¬ (∀ e, e < sample_sym.edges_count →
      rd (add_4B_weight_step2 sample_sym
          (add_4B_weight_step1 sample_pe sample_partitions sample_sym 102400)).2 (2 * e + 1) =
        rd (add_4B_weight_step2 sample_sym
          (add_4B_weight_step1 two_threads sample_partitions_two_threads sample_sym
            102400)).2 (2 * e + 1)) := by
  set_option maxRecDepth 8000 in
  exact ⟨(by decide), (by decide), rfl, rfl, (by decide)⟩

/-! ## The graph returned by `csr2sym` as an input of `add_4B_weight_to_ll_400_graph` -/

theorem exists_slot_of_offsets (offs : List Nat) (n : Nat) (h0 : rd offs 0 = 0) (i : Nat)
    (hi : i < rd offs n) : ∃ u, u < n ∧ rd offs u ≤ i ∧ i < rd offs (u + 1) := by
  induction n with
  | zero => omega
  | succ n ih =>
    by_cases hlt : i < rd offs n
    · obtain ⟨u, hu, h1, h2⟩ := ih hlt
      exact ⟨u, by omega, h1, h2⟩
    · exact ⟨n, by omega, by omega, hi⟩

theorem csr2sym_output_well_formed (pe : par_env) (partitions : List Nat) (csr : ll_400_graph)
    (flags : Nat) (hwf : well_formed csr) (hsorted : sorted_neighbour_lists csr)
    (hcover : partitions_cover partitions (pe.threads_count * 64) csr.vertices_count)
    (out : ll_400_graph) (h : csr2sym pe partitions csr flags = Except.ok out) :
    well_formed out ∧ symmetric_graph out ∧
    (flags &&& 2 ≠ 0 → sorted_neighbour_lists out) ∧
    (flags &&& 4 ≠ 0 → ∀ v, v < out.vertices_count → v ∉ neighbour_list out v) := by
  obtain ⟨o1, o2, o3, o4, o5, o6⟩ := csr2sym_facts pe partitions csr flags hwf hsorted hcover
    out h
  have h0 : rd out.offsets_list 0 = 0 := by
    rw [o5 0 (by omega)]
    rfl
  have hn : rd out.offsets_list out.vertices_count = out.edges_count := by
    rw [o1, o5 _ (Nat.le_refl _), o2]
  refine ⟨⟨by rw [o3, o1], o4, h0, ?_, hn, ?_, by rw [o1]; exact hwf.2.2.2.2.2.2⟩, ?_, ?_, ?_⟩
  · intro v hv
    rw [o1] at hv
    rw [o5 v (by omega), o5 (v + 1) (by omega), sym_offset_succ]
    omega
  · intro e he
    rw [← hn] at he
    obtain ⟨u, hu, u1, u2⟩ := exists_slot_of_offsets out.offsets_list out.vertices_count h0 e he
    rw [o1] at hu ⊢
    have hmem : rd out.edges_list e ∈ neighbour_list out u :=
      (mem_neighbour_list out u _).2 ⟨e, u1, u2, rfl⟩
    rw [o6 u hu, mem_out_neighbours] at hmem
    exact mem_sym_neighbours_lt csr hwf flags u _ hu hmem
  · intro u hu v hv hmem
    rw [o1] at hu hv
    rw [o6 u hu, mem_out_neighbours, mem_sym_neighbours csr hwf] at hmem
    rw [o6 v hv, mem_out_neighbours, mem_sym_neighbours csr hwf]
    exact ⟨hmem.1.symm, fun hc => hmem.2 ⟨hc.1, hc.2.symm⟩⟩
  · intro hf v hv
    rw [o1] at hv
    rw [o6 v hv]
    exact out_neighbours_sorted csr hwf hsorted flags v hv hf
  · intro hf v hv hmem
    rw [o1] at hv
    rw [o6 v hv, mem_out_neighbours, mem_sym_neighbours csr hwf] at hmem
    exact hmem.2 ⟨hf, rfl⟩

/-! ## Claims on the preprocessing of the driver -/

/-- C15: the preprocessing of the driver establishes the input preconditions of the core.
For every well-formed CSR graph `csr` with strictly increasing neighbour-lists, every
graph `add_4B_weight_to_ll_400_graph(csr2sym(csr, 2 + 4), 102400, 0)` that `main` passes
to `msf_mastiff` is symmetric, has no self-loop, has every weight in `[1, 102400]`, and
carries the same weight on the two slots `u → v` and `v → u` of each undirected edge; the
two calls do return such a graph when the 32-bit counter of the last loop can pass
`vertices_count`. -/
theorem driver_preprocessing_preconditions (pe : par_env)
    (partitions sym_partitions : List Nat) (csr : ll_400_graph) (hwf : well_formed csr)
    (hsorted : sorted_neighbour_lists csr)
    (hcover : partitions_cover partitions (pe.threads_count * 64) csr.vertices_count)
    (hcover2 : partitions_cover sym_partitions (pe.threads_count * 64) csr.vertices_count) :
    (∀ sym fuel w, csr2sym pe partitions csr (2 + 4) = Except.ok sym →
      add_4B_weight_to_ll_400_graph fuel pe sym_partitions sym (1024 * 100) 0 =
        some (Except.ok w) →
      (∀ u, u < w.vertices_count → ∀ v, v < w.vertices_count →
        (v ∈ neighbour_words w.offsets_list w.edges_list u ↔
          u ∈ neighbour_words w.offsets_list w.edges_list v)) ∧
      (∀ u, u < w.vertices_count → u ∉ neighbour_words w.offsets_list w.edges_list u) ∧
      (∀ e, e < w.edges_count →
        1 ≤ rd w.edges_list (2 * e + 1) ∧ rd w.edges_list (2 * e + 1) ≤ 102400) ∧
      (∀ u, u < w.vertices_count → ∀ e, e ∈ edge_slots w.offsets_list u →
        ∃ e', e' ∈ edge_slots w.offsets_list (rd w.edges_list (2 * e)) ∧
          rd w.edges_list (2 * e') = u ∧
          rd w.edges_list (2 * e' + 1) = rd w.edges_list (2 * e + 1))) ∧
    (csr.vertices_count + 1 < 2 ^ 32 →
      ∃ sym w, csr2sym pe partitions csr (2 + 4) = Except.ok sym ∧
        add_4B_weight_to_ll_400_graph (csr.vertices_count + 2) pe sym_partitions sym
          (1024 * 100) 0 = some (Except.ok w)) := by
  have hfacts : ∀ sym, csr2sym pe partitions csr (2 + 4) = Except.ok sym →
      sym.vertices_count = csr.vertices_count ∧ well_formed sym ∧ symmetric_graph sym ∧
      sorted_neighbour_lists sym ∧
      (∀ v, v < sym.vertices_count → v ∉ neighbour_list sym v) := by
    intro sym hs
    obtain ⟨w1, w2, w3, w4⟩ := csr2sym_output_well_formed pe partitions csr (2 + 4) hwf hsorted
      hcover sym hs
    exact ⟨(csr2sym_facts pe partitions csr (2 + 4) hwf hsorted hcover sym hs).1, w1, w2,
      w3 (by decide), w4 (by decide)⟩
  constructor
  · intro sym fuel w hs hw
    obtain ⟨s1, s2, s3, s4, s5⟩ := hfacts sym hs
    have hc : partitions_cover sym_partitions (pe.threads_count * 64) sym.vertices_count := by
      rw [s1]; exact hcover2
    obtain ⟨_, _, _, f4, f5, f6⟩ := add_4B_weight_steps_spec pe sym_partitions sym s2 s4 s3
      hc (1024 * 100) (by norm_num) (by norm_num)
    obtain ⟨o1, o2, o3, o4⟩ := add_4B_weight_facts pe sym_partitions sym (1024 * 100) 0 s2 s4
      s3 hc (by norm_num) (by norm_num) fuel w hw
    rw [o1, o2, o3, o4]
    refine ⟨?_, ?_, ?_, ?_⟩
    · intro u hu v hv
      rw [neighbour_words_eq sym s2 _ f4 u hu, neighbour_words_eq sym s2 _ f4 v hv]
      exact ⟨s3 u hu v hv, s3 v hv u hu⟩
    · intro u hu
      rw [neighbour_words_eq sym s2 _ f4 u hu]
      exact s5 u hu
    · intro e he
      exact f5 e he
    · intro u hu e he
      rw [mem_edge_slots] at he
      have hec := slot_lt_edges_count sym s2 u e ((mem_all_slots sym u e).2 ⟨hu, he.1, he.2⟩)
      have hne : rd sym.edges_list e ≠ u := by
        intro heq
        exact s5 u hu ((mem_neighbour_list sym u u).2 ⟨e, he.1, he.2, heq⟩)
      rw [f4 e hec]
      obtain ⟨j, j1, j2, j3, j4⟩ := f6 u hu e he.1 he.2 hne
      have hx := slot_dest_lt sym s2 u e ((mem_all_slots sym u e).2 ⟨hu, he.1, he.2⟩)
      have hjc := slot_lt_edges_count sym s2 _ j ((mem_all_slots sym _ j).2 ⟨hx, j1, j2⟩)
      refine ⟨j, ?_, ?_, j4⟩
      · rw [mem_edge_slots]; exact ⟨j1, j2⟩
      · rw [f4 j hjc]; exact j3
  · intro hn
    obtain ⟨sym, hs⟩ := csr2sym_returns pe partitions csr (2 + 4) hwf hsorted hcover
      (by right; decide)
    obtain ⟨s1, s2, s3, s4, s5⟩ := hfacts sym hs
    have hc : partitions_cover sym_partitions (pe.threads_count * 64) sym.vertices_count := by
      rw [s1]; exact hcover2
    obtain ⟨w, hw⟩ := add_4B_weight_returns pe sym_partitions sym (1024 * 100) 0 s2 s4 s3 hc
      (by norm_num) (by norm_num) (by rw [s1]; exact hn)
    rw [s1] at hw
    exact ⟨sym, w, hs, hw⟩

theorem driver_preprocessing_preconditions_witness :
    well_formed sample_csr ∧ sorted_neighbour_lists sample_csr ∧
    partitions_cover sample_partitions (sample_pe.threads_count * 64) sample_csr.vertices_count ∧
    ((∀ sym fuel w, csr2sym sample_pe sample_partitions sample_csr (2 + 4) = Except.ok sym →
      add_4B_weight_to_ll_400_graph fuel sample_pe sample_partitions sym (1024 * 100) 0 =
        some (Except.ok w) →
      (∀ u, u < w.vertices_count → ∀ v, v < w.vertices_count →
        (v ∈ neighbour_words w.offsets_list w.edges_list u ↔
          u ∈ neighbour_words w.offsets_list w.edges_list v)) ∧
      (∀ u, u < w.vertices_count → u ∉ neighbour_words w.offsets_list w.edges_list u) ∧
      (∀ e, e < w.edges_count →
        1 ≤ rd w.edges_list (2 * e + 1) ∧ rd w.edges_list (2 * e + 1) ≤ 102400) ∧
      (∀ u, u < w.vertices_count → ∀ e, e ∈ edge_slots w.offsets_list u →
        ∃ e', e' ∈ edge_slots w.offsets_list (rd w.edges_list (2 * e)) ∧
          rd w.edges_list (2 * e') = u ∧
          rd w.edges_list (2 * e' + 1) = rd w.edges_list (2 * e + 1))) ∧
    (sample_csr.vertices_count + 1 < 2 ^ 32 →
      ∃ sym w, csr2sym sample_pe sample_partitions sample_csr (2 + 4) = Except.ok sym ∧
        add_4B_weight_to_ll_400_graph (sample_csr.vertices_count + 2) sample_pe
          sample_partitions sym (1024 * 100) 0 = some (Except.ok w))) :=
  ⟨by decide, by decide, by decide,
    driver_preprocessing_preconditions sample_pe sample_partitions sample_partitions sample_csr
      (by decide) (by decide) (by decide) (by decide)⟩

/-! ## The reading loop of `get_txt_graph` -/

theorem token_value_snoc (cur : List Nat) (b : Nat) :
    token_value (cur ++ [b]) = (token_value cur * 10 + char_minus_zero b) % 2 ^ 64 := by
  unfold token_value
  rw [List.foldl_append, List.foldl_cons, List.foldl_nil]

theorem txt_store_values_cons (n m : Nat) (t : Nat × List Nat) (ts : List (Nat × List Nat))
    (g : txt_store) :
    txt_store_values n m (t :: ts) g =
      match get_txt_graph_value n m (t.1 % 2 ^ 32) (token_value t.2) g with
      | Except.error msg => Except.error msg
      | Except.ok g1 => txt_store_values n m ts g1 := by
  unfold txt_store_values
  rw [List.foldlM_cons]
  cases get_txt_graph_value n m (t.1 % 2 ^ 32) (token_value t.2) g <;> rfl

theorem foldlM_cons_except {σ β : Type} (f : σ → β → Except String σ) (b : β) (t : List β)
    (s : σ) :
    (b :: t).foldlM f s =
      match f s b with
      | Except.error msg => Except.error msg
      | Except.ok s1 => t.foldlM f s1 := by
  rw [List.foldlM_cons]
  cases f s b <;> rfl

theorem txt_values_from_cons (line : Nat) (cur : List Nat) (b : Nat) (t : List Nat) :
    txt_values_from line cur (b :: t) =
      if b = 10 ∨ b = 32 then
        (if cur = [] then [] else [(line, cur)]) ++
          txt_values_from (if b = 10 then line + 1 else line) [] t
      else txt_values_from line (cur ++ [b]) t := by
  rw [txt_values_from]

/-- The reading loop acts on the store as the `switch` run on the values that the text
brings to an end. -/
theorem reading_loop_store (n m : Nat) (text : List Nat) (line : Nat) (cur : List Nat)
    (st : txt_state) (hs : st.status = line % 2 ^ 32)
    (hl : st.val_length = cur.length % 2 ^ 32) (hv : st.val = token_value cur)
    (hshort : ∀ t, t ∈ txt_values_from line cur text → t.2.length < 2 ^ 32) :
    Except.map (fun st1 => st1.store) (text.foldlM (get_txt_graph_byte n m) st) =
      txt_store_values n m (txt_values_from line cur text) st.store := by
  induction text generalizing line cur st with
  | nil => rfl
  | cons b t ih =>
    rw [foldlM_cons_except]
    rw [txt_values_from_cons] at hshort ⊢
    by_cases hsep : b = 10 ∨ b = 32
    · have hnot : ¬ (b ≠ 10 ∧ b ≠ 32) := by omega
      rw [if_pos hsep] at hshort ⊢
      by_cases hcur : cur = []
      · subst hcur
        have hl0 : st.val_length = 0 := by simpa using hl
        have hv0 : st.val = 0 := by simpa [token_value] using hv
        simp only [get_txt_graph_byte, if_neg hnot, hl0, ne_eq, not_true_eq_false, if_false,
          if_true, List.nil_append]
        simp only [if_true, List.nil_append] at hshort
        by_cases hnl : b = 10
        · rw [if_pos hnl] at hshort ⊢
          rw [if_pos hnl]
          exact ih (line + 1) [] _ (by simp [hs]) (by simp [hl0]) (by simp [hv0, token_value])
            hshort
        · rw [if_neg hnl] at hshort ⊢
          rw [if_neg hnl]
          exact ih line [] st hs (by simp [hl0]) (by simp [hv0, token_value]) hshort
      · rw [if_neg hcur] at hshort ⊢
        have hlen : cur.length < 2 ^ 32 := hshort (line, cur) (by simp)
        have hpos : 0 < cur.length := List.length_pos.2 hcur
        have hl1 : st.val_length ≠ 0 := by
          rw [hl]
          omega
        simp only [get_txt_graph_byte, if_neg hnot, hl1, ne_eq, not_false_eq_true, if_true]
        rw [List.singleton_append, txt_store_values_cons]
        dsimp only
        rw [hs, hv]
        cases hval : get_txt_graph_value n m (line % 2 ^ 32) (token_value cur) st.store with
        | error msg => rfl
        | ok g =>
          dsimp only
          by_cases hnl : b = 10
          · rw [if_pos hnl] at hshort ⊢
            rw [if_pos hnl]
            exact ih (line + 1) [] _ (by simp [hs]) (by simp) (by simp [token_value])
              (fun x hx => hshort x (by simp [hx]))
          · rw [if_neg hnl] at hshort ⊢
            rw [if_neg hnl]
            exact ih line [] _ rfl (by simp) (by simp [token_value])
              (fun x hx => hshort x (by simp [hx]))
    · have hyes : b ≠ 10 ∧ b ≠ 32 := by omega
      rw [if_neg hsep] at hshort ⊢
      simp only [get_txt_graph_byte, if_pos hyes]
      have hnl : ¬ b = 10 := by omega
      rw [if_neg hnl]
      exact ih line (cur ++ [b]) _ hs
        (by simp only [List.length_append, List.length_singleton]; rw [hl]; omega)
        (by rw [token_value_snoc, hv]) hshort

theorem txt_values_from_append_mem (text rest : List Nat) (line : Nat) (cur : List Nat)
    (t : Nat × List Nat) (h : t ∈ txt_values_from line cur text) :
    t ∈ txt_values_from line cur (text ++ rest) := by
  induction text generalizing line cur with
  | nil => simp [txt_values_from] at h
  | cons b tl ih =>
    rw [List.cons_append, txt_values_from_cons]
    rw [txt_values_from_cons] at h
    by_cases hsep : b = 10 ∨ b = 32
    · rw [if_pos hsep] at h ⊢
      rw [List.mem_append] at h ⊢
      rcases h with h | h
      · exact Or.inl h
      · exact Or.inr (ih _ _ h)
    · rw [if_neg hsep] at h ⊢
      exact ih _ _ h

theorem txt_values_from_terminated (text : List Nat) (line : Nat) (cur : List Nat)
    (h : (text = [] ∧ cur = []) ∨
      (text ≠ [] ∧ (text.getLast? = some 10 ∨ text.getLast? = some 32))) :
    txt_values_from line cur (text ++ [10]) = txt_values_from line cur text := by
  induction text generalizing line cur with
  | nil =>
    rcases h with ⟨_, hc⟩ | ⟨hne, _⟩
    · subst hc
      simp [txt_values_from]
    · exact absurd rfl hne
  | cons b tl ih =>
    rw [List.cons_append, txt_values_from_cons, txt_values_from_cons]
    rcases h with ⟨hnil, _⟩ | ⟨_, hlast⟩
    · exact absurd hnil (by simp)
    · by_cases htl : tl = []
      · subst htl
        have hb : b = 10 ∨ b = 32 := by simpa using hlast
        rw [if_pos hb, if_pos hb, ih _ [] (Or.inl ⟨rfl, rfl⟩)]
      · have hlast' : tl.getLast? = some 10 ∨ tl.getLast? = some 32 := by
          cases tl with
          | nil => exact absurd rfl htl
          | cons c tl2 =>
            rw [List.getLast?_cons_cons] at hlast
            exact hlast
        by_cases hsep : b = 10 ∨ b = 32
        · rw [if_pos hsep, if_pos hsep, ih _ _ (Or.inr ⟨htl, hlast'⟩)]
        · rw [if_neg hsep, if_neg hsep, ih _ _ (Or.inr ⟨htl, hlast'⟩)]

theorem txt_values_of_terminated (text : List Nat) (h : ends_with_separator text) :
    txt_values text = txt_values_from 0 [] text := by
  unfold txt_values
  apply txt_values_from_terminated
  unfold ends_with_separator at h
  by_cases hnil : text = []
  · exact Or.inl ⟨hnil, rfl⟩
  · right
    refine ⟨hnil, ?_⟩
    rcases h with h | h
    · rw [List.getLast?_eq_none_iff] at h
      exact absurd h hnil
    · exact h

/-- The function `get_txt_graph` in terms of the values that the text brings to an end. -/
theorem get_txt_graph_eq (n m : Nat) (text : List Nat)
    (hshort : ∀ t, t ∈ txt_values_from 0 [] text → t.2.length < 2 ^ 32) :
    get_txt_graph n m text =
      match txt_store_values n m (txt_values_from 0 [] text)
          (get_txt_graph_start n m).store with
      | Except.error msg => Except.error msg
      | Except.ok g =>
        if g.el_count ≠ m then Except.error "el_count == edges_count"
        else if g.vl_count ≠ n then Except.error "vl_count == vertices_count"
        else
          Except.ok
            { vertices_count := n, edges_count := m,
              offsets_list := g.offsets_list.set n m, edges_list := g.edges_list } := by
  have h := reading_loop_store n m text 0 [] (get_txt_graph_start n m) rfl rfl rfl hshort
  rw [← h]
  unfold get_txt_graph
  cases text.foldlM (get_txt_graph_byte n m) (get_txt_graph_start n m) <;> rfl

/-! ## The `switch` of `get_txt_graph` run on a list of values -/

theorem values_of_line_cons (t : Nat × List Nat) (ts : List (Nat × List Nat)) (k : Nat) :
    values_of_line (t :: ts) k =
      if t.1 = k then token_value t.2 :: values_of_line ts k else values_of_line ts k := by
  unfold values_of_line
  by_cases h : t.1 = k
  · rw [if_pos h, List.filter_cons_of_pos (by simpa [on_line] using h), List.map_cons]
  · rw [if_neg h, List.filter_cons_of_neg (by simpa [on_line] using h)]

theorem get_txt_graph_value_ok (n m s v : Nat) (g g1 : txt_store)
    (h : get_txt_graph_value n m s v g = Except.ok g1) :
    (s = 0 → v = n ∧ g1 = g) ∧ (s = 1 → v = m ∧ g1 = g) ∧
    (s = 2 → g1 = ⟨g.vl_count + 1, g.el_count, g.offsets_list.set g.vl_count v, g.edges_list⟩) ∧
    (s = 3 → v < 2 ^ 32 ∧
      g1 = ⟨g.vl_count, g.el_count + 1, g.offsets_list, g.edges_list.set g.el_count v⟩) ∧
    (4 ≤ s → g1 = g) := by
  unfold get_txt_graph_value at h
  by_cases h0 : s = 0
  · rw [if_pos h0] at h
    by_cases hv : n = v
    · rw [if_pos hv] at h
      simp only [Except.ok.injEq] at h
      refine ⟨fun _ => ⟨hv.symm, h.symm⟩, ?_, ?_, ?_, ?_⟩ <;> intro hc <;> omega
    · rw [if_neg hv] at h
      simp at h
  · rw [if_neg h0] at h
    by_cases h1 : s = 1
    · rw [if_pos h1] at h
      by_cases hv : m = v
      · rw [if_pos hv] at h
        simp only [Except.ok.injEq] at h
        refine ⟨?_, fun _ => ⟨hv.symm, h.symm⟩, ?_, ?_, ?_⟩ <;> intro hc <;> omega
      · rw [if_neg hv] at h
        simp at h
    · rw [if_neg h1] at h
      by_cases h2 : s = 2
      · rw [if_pos h2] at h
        simp only [Except.ok.injEq] at h
        refine ⟨?_, ?_, fun _ => h.symm, ?_, ?_⟩ <;> intro hc <;> omega
      · rw [if_neg h2] at h
        by_cases h3 : s = 3
        · rw [if_pos h3] at h
          by_cases hv : v < 2 ^ 32
          · rw [if_pos hv, Nat.mod_eq_of_lt hv] at h
            simp only [Except.ok.injEq] at h
            refine ⟨?_, ?_, ?_, fun _ => ⟨hv, h.symm⟩, ?_⟩ <;> intro hc <;> omega
          · rw [if_neg hv] at h
            simp at h
        · rw [if_neg h3] at h
          simp only [Except.ok.injEq] at h
          refine ⟨?_, ?_, ?_, ?_, fun _ => h.symm⟩ <;> intro hc <;> omega

/-- What a run of the `switch` over the values `ts` that ends without a failed assertion
says about the values and leaves in the store. -/
theorem store_values_ok (n m : Nat) (ts : List (Nat × List Nat))
    (hline : ∀ t, t ∈ ts → t.1 < 2 ^ 32) (g g1 : txt_store)
    (h : txt_store_values n m ts g = Except.ok g1) :
    (∀ t, t ∈ ts → t.1 = 0 → token_value t.2 = n) ∧
    (∀ t, t ∈ ts → t.1 = 1 → token_value t.2 = m) ∧
    (∀ t, t ∈ ts → t.1 = 3 → token_value t.2 < 2 ^ 32) ∧
    g1.vl_count = g.vl_count + (values_of_line ts 2).length ∧
    g1.el_count = g.el_count + (values_of_line ts 3).length ∧
    g1.offsets_list.length = g.offsets_list.length ∧
    g1.edges_list.length = g.edges_list.length ∧
    (∀ j, rd g1.offsets_list j =
      if g.vl_count ≤ j ∧ j < g.vl_count + (values_of_line ts 2).length ∧
          j < g.offsets_list.length then
        rd (values_of_line ts 2) (j - g.vl_count)
      else rd g.offsets_list j) ∧
    (∀ j, rd g1.edges_list j =
      if g.el_count ≤ j ∧ j < g.el_count + (values_of_line ts 3).length ∧
          j < g.edges_list.length then
        rd (values_of_line ts 3) (j - g.el_count)
      else rd g.edges_list j) := by
  induction ts generalizing g with
  | nil =>
    have hg : g1 = g := by
      simp only [txt_store_values, List.foldlM_nil] at h
      exact (Except.ok.inj h).symm
    subst hg
    refine ⟨by simp, by simp, by simp, by simp [values_of_line], by simp [values_of_line],
      rfl, rfl, ?_, ?_⟩
    · intro j
      have e : (values_of_line ([] : List (Nat × List Nat)) 2).length = 0 := rfl
      rw [e, if_neg (by omega)]
    · intro j
      have e : (values_of_line ([] : List (Nat × List Nat)) 3).length = 0 := rfl
      rw [e, if_neg (by omega)]
  | cons t ts ih =>
    rw [txt_store_values_cons] at h
    have ht := hline t (by simp)
    rw [Nat.mod_eq_of_lt ht] at h
    cases hval : get_txt_graph_value n m t.1 (token_value t.2) g with
    | error msg => rw [hval] at h; simp at h
    | ok g2 =>
      rw [hval] at h
      dsimp only at h
      obtain ⟨v0, v1, v2, v3, v4⟩ := get_txt_graph_value_ok n m t.1 (token_value t.2) g g2 hval
      obtain ⟨i0, i1, i3, ivl, iel, iol, iell, ioff, iedg⟩ :=
        ih (fun x hx => hline x (by simp [hx])) g2 h
      have hmem : ∀ (P : Nat × List Nat → Prop), (P t) → (∀ x, x ∈ ts → P x) →
          ∀ x, x ∈ t :: ts → P x := by
        intro P p1 p2 x hx
        rcases List.mem_cons.1 hx with hx | hx
        · rw [hx]; exact p1
        · exact p2 x hx
      rw [values_of_line_cons, values_of_line_cons]
      by_cases s2 : t.1 = 2
      · have hg2 := v2 s2
        rw [if_pos s2, if_neg (by omega)]
        rw [hg2] at ivl iel iol iell ioff iedg
        dsimp only at ivl iel iol iell ioff iedg
        refine ⟨hmem _ (by omega) i0, hmem _ (by omega) i1, hmem _ (by omega) i3,
          by rw [ivl, List.length_cons]; omega, iel, by rw [iol, List.length_set], iell,
          ?_, iedg⟩
        intro j
        rw [ioff j, List.length_set, List.length_cons]
        by_cases hj : j = g.vl_count
        · subst hj
          rw [if_neg (by omega)]
          by_cases hlen : g.vl_count < g.offsets_list.length
          · rw [rd_set_eq _ _ _ hlen, if_pos ⟨Nat.le_refl _, by omega, hlen⟩, Nat.sub_self,
              rd_cons_zero]
          · rw [if_neg (by omega), rd_set]
            rw [if_neg (by omega)]
        · rw [rd_set_ne _ _ _ _ (fun hc => hj hc.symm)]
          by_cases hin : g.vl_count + 1 ≤ j ∧ j < g.vl_count + 1 + (values_of_line ts 2).length ∧
              j < g.offsets_list.length
          · rw [if_pos hin, if_pos ⟨by omega, by omega, hin.2.2⟩]
            have e : j - g.vl_count = (j - (g.vl_count + 1)) + 1 := by omega
            rw [e, rd_cons_succ]
          · rw [if_neg hin, if_neg (by omega)]
      · by_cases s3 : t.1 = 3
        · obtain ⟨hlt, hg2⟩ := v3 s3
          rw [if_neg s2, if_pos s3]
          rw [hg2] at ivl iel iol iell ioff iedg
          dsimp only at ivl iel iol iell ioff iedg
          refine ⟨hmem _ (by omega) i0, hmem _ (by omega) i1, hmem _ (fun _ => hlt) i3,
            ivl, by rw [iel, List.length_cons]; omega, iol, by rw [iell, List.length_set],
            ioff, ?_⟩
          intro j
          rw [iedg j, List.length_set, List.length_cons]
          by_cases hj : j = g.el_count
          · subst hj
            rw [if_neg (by omega)]
            by_cases hlen : g.el_count < g.edges_list.length
            · rw [rd_set_eq _ _ _ hlen, if_pos ⟨Nat.le_refl _, by omega, hlen⟩, Nat.sub_self,
                rd_cons_zero]
            · rw [if_neg (by omega), rd_set]
              rw [if_neg (by omega)]
          · rw [rd_set_ne _ _ _ _ (fun hc => hj hc.symm)]
            by_cases hin : g.el_count + 1 ≤ j ∧
                j < g.el_count + 1 + (values_of_line ts 3).length ∧ j < g.edges_list.length
            · rw [if_pos hin, if_pos ⟨by omega, by omega, hin.2.2⟩]
              have e : j - g.el_count = (j - (g.el_count + 1)) + 1 := by omega
              rw [e, rd_cons_succ]
            · rw [if_neg hin, if_neg (by omega)]
        · have hg2 : g2 = g := by
            by_cases s0 : t.1 = 0
            · exact (v0 s0).2
            · by_cases s1 : t.1 = 1
              · exact (v1 s1).2
              · exact v4 (by omega)
          rw [if_neg s2, if_neg s3]
          rw [hg2] at ivl iel iol iell ioff iedg
          refine ⟨hmem _ (fun s0 => (v0 s0).1) i0, hmem _ (fun s1 => (v1 s1).1) i1,
            hmem _ (by omega) i3, ivl, iel, iol, iell, ioff, iedg⟩

theorem mem_line_values (text : List Nat) (k : Nat) (tok : List Nat) :
    tok ∈ line_values text k ↔ (k, tok) ∈ txt_values text := by
  unfold line_values
  rw [List.mem_map]
  constructor
  · rintro ⟨t, ht, rfl⟩
    rw [List.mem_filter] at ht
    have hk : t.1 = k := by simpa [on_line] using ht.2
    rw [← hk]
    exact ht.1
  · intro h
    exact ⟨(k, tok), List.mem_filter.2 ⟨h, by simp [on_line]⟩, rfl⟩

theorem length_line_values (text : List Nat) (k : Nat) :
    (line_values text k).length = (values_of_line (txt_values text) k).length := by
  unfold line_values values_of_line
  rw [List.length_map, List.length_map]

theorem map_line_values (text : List Nat) (k : Nat) :
    (line_values text k).map token_value = values_of_line (txt_values text) k := by
  unfold line_values values_of_line
  rw [List.map_map]
  rfl

/-! ## Claims on `get_txt_graph` -/

/-- C17 (amended): `get_txt_graph` returns a graph only when the declared counts match
the content, for a text that ends with a space or a newline (so that every value is
brought to an end) and whose values are shorter than `2 ^ 32` bytes and lie on lines
below `2 ^ 32`: if a value on line 1 differs from `vertices_count`, or a value on line 2
differs from `edges_count`, or the number of values on line 3 differs from
`vertices_count`, or the number of values on line 4 differs from `edges_count`, an
assertion fails instead of a graph being returned. -/
theorem get_txt_graph_rejects_mismatch (vertices_count edges_count : Nat) (text : List Nat)
    (hend : ends_with_separator text) (hcnt : within_counters text)
    (hmis : (∃ tok, tok ∈ line_values text 0 ∧ token_value tok ≠ vertices_count) ∨
      (∃ tok, tok ∈ line_values text 1 ∧ token_value tok ≠ edges_count) ∨
      (line_values text 2).length ≠ vertices_count ∨
      (line_values text 3).length ≠ edges_count) :
    ∃ msg, get_txt_graph vertices_count edges_count text = Except.error msg := by
  have hv := txt_values_of_terminated text hend
  have hshort : ∀ t, t ∈ txt_values_from 0 [] text → t.2.length < 2 ^ 32 := by
    intro t ht
    rw [← hv] at ht
    exact (hcnt t ht).2
  rw [get_txt_graph_eq vertices_count edges_count text hshort]
  cases hfold : txt_store_values vertices_count edges_count (txt_values_from 0 [] text)
      (get_txt_graph_start vertices_count edges_count).store with
  | error msg => exact ⟨msg, rfl⟩
  | ok g =>
    dsimp only
    obtain ⟨f0, f1, _, fvl, fel, _, _, _, _⟩ := store_values_ok vertices_count edges_count
      (txt_values_from 0 [] text) (fun t ht => by rw [← hv] at ht; exact (hcnt t ht).1) _ g hfold
    rw [← hv] at f0 f1 fvl fel
    rw [← length_line_values] at fvl fel
    have s1 : (get_txt_graph_start vertices_count edges_count).store.vl_count = 0 := rfl
    have s2 : (get_txt_graph_start vertices_count edges_count).store.el_count = 0 := rfl
    rw [s1] at fvl
    rw [s2] at fel
    by_cases hel : g.el_count ≠ edges_count
    · rw [if_pos hel]
      exact ⟨_, rfl⟩
    · rw [if_neg hel]
      by_cases hvl : g.vl_count ≠ vertices_count
      · rw [if_pos hvl]
        exact ⟨_, rfl⟩
      · exfalso
        rcases hmis with ⟨tok, h1, h2⟩ | ⟨tok, h1, h2⟩ | h | h
        · exact h2 (f0 (0, tok) ((mem_line_values text 0 tok).1 h1) rfl)
        · exact h2 (f1 (1, tok) ((mem_line_values text 1 tok).1 h1) rfl)
        · omega
        · omega

theorem get_txt_graph_rejects_mismatch_witness :
    ends_with_separator short_text ∧ within_counters short_text ∧
    (line_values short_text 3).length ≠ 2 ∧
    ∃ msg, get_txt_graph 3 2 short_text = Except.error msg :=
  ⟨by decide, by decide, by decide,
    get_txt_graph_rejects_mismatch 3 2 short_text (by decide) (by decide)
      (Or.inr (Or.inr (Or.inr (by decide))))⟩

/-- C17, as stated, fails on a text without a newline at its end: in
`3\n2\n0 1 2\n1 2 7` the fourth line has three values while `edges_count` is 2, yet no
assertion fails and a graph with the edges `1, 2` is returned: the value `7` is never
brought to an end, so it is not counted. -/
theorem get_txt_graph_mismatch_counterexample :
    within_counters unterminated_text ∧
    line_values unterminated_text 0 = [[51]] ∧ token_value [51] = 3 ∧
    line_values unterminated_text 1 = [[50]] ∧ token_value [50] = 2 ∧
    (line_values unterminated_text 2).length = 3 ∧
    (line_values unterminated_text 3).length = 3 ∧
    (line_values unterminated_text 3).length ≠ 2 ∧
    get_txt_graph 3 2 unterminated_text =
      Except.ok
        { vertices_count := 3, edges_count := 2,
          offsets_list := [0, 1, 2, 2], edges_list := [1, 2] } :=
  ⟨by decide, by decide, by decide, by decide, by decide, by decide, by decide, by decide, rfl⟩

theorem get_txt_graph_value_error (n m s v : Nat) (g : txt_store) (msg : String)
    (h0 : s = 0 → v = n) (h1 : s = 1 → v = m)
    (h : get_txt_graph_value n m s v g = Except.error msg) :
    msg = "val < (1UL<<32)" := by
  unfold get_txt_graph_value at h
  by_cases s0 : s = 0
  · rw [if_pos s0, if_pos (h0 s0).symm] at h
    simp at h
  · rw [if_neg s0] at h
    by_cases s1 : s = 1
    · rw [if_pos s1, if_pos (h1 s1).symm] at h
      simp at h
    · rw [if_neg s1] at h
      by_cases s2 : s = 2
      · rw [if_pos s2] at h
        simp at h
      · rw [if_neg s2] at h
        by_cases s3 : s = 3
        · rw [if_pos s3] at h
          by_cases hv : v < 2 ^ 32
          · rw [if_pos hv] at h
            simp at h
          · rw [if_neg hv] at h
            exact (Except.error.inj h).symm
        · rw [if_neg s3] at h
          simp at h

theorem store_values_error (n m : Nat) (ts : List (Nat × List Nat))
    (hline : ∀ t, t ∈ ts → t.1 < 2 ^ 32)
    (h0 : ∀ t, t ∈ ts → t.1 = 0 → token_value t.2 = n)
    (h1 : ∀ t, t ∈ ts → t.1 = 1 → token_value t.2 = m) (g : txt_store) (msg : String)
    (h : txt_store_values n m ts g = Except.error msg) :
    msg = "val < (1UL<<32)" := by
  induction ts generalizing g with
  | nil =>
    have : (Except.ok g : Except String txt_store) = Except.error msg := h
    simp at this
  | cons t ts ih =>
    rw [txt_store_values_cons, Nat.mod_eq_of_lt (hline t (by simp))] at h
    cases hval : get_txt_graph_value n m t.1 (token_value t.2) g with
    | error msg1 =>
      rw [hval] at h
      have := get_txt_graph_value_error n m _ _ g msg1 (h0 t (by simp)) (h1 t (by simp)) hval
      rw [← Except.error.inj h]
      exact this
    | ok g2 =>
      rw [hval] at h
      exact ih (fun x hx => hline x (by simp [hx])) (fun x hx => h0 x (by simp [hx]))
        (fun x hx => h1 x (by simp [hx])) g2 h

theorem mem_ended_values (text : List Nat) (t : Nat × List Nat) (h : t ∈ ended_values text) :
    t ∈ txt_values text :=
  txt_values_from_append_mem text [10] 0 [] t h

theorem token_value_append (tok : List Nat) (b : Nat) :
    token_value (tok ++ [b]) = (token_value tok * 10 + char_minus_zero b) % 2 ^ 64 := by
  unfold token_value
  rw [List.foldl_append]
  rfl

theorem numeral_value_append (tok : List Nat) (b : Nat) :
    numeral_value (tok ++ [b]) = numeral_value tok * 10 + (b - 48) := by
  unfold numeral_value
  rw [List.foldl_append]
  rfl

/-- The number that the reading loop computes for a decimal numeral is its value modulo
`2^64`. -/
theorem token_value_numeral (tok : List Nat) (h : is_numeral tok) :
    token_value tok = numeral_value tok % 2 ^ 64 := by
  induction tok using List.reverseRecOn with
  | nil => rfl
  | append_singleton tok b ih =>
    have hb := h b (by simp)
    have htok : is_numeral tok := fun c hc => h c (by simp [hc])
    rw [token_value_append, numeral_value_append, ih htok]
    have hc : char_minus_zero b = b - 48 := by
      unfold char_minus_zero
      rw [if_neg (by omega), if_pos (by omega)]
    rw [hc]
    omega

/-- C18 (amended): `get_txt_graph` rejects neighbour IDs that do not fit 32 bits, for a
text whose values are shorter than `2 ^ 32` bytes and lie on lines below `2 ^ 32`.  If the
fourth line holds a decimal numeral with value `v`, `2^32 <= v < 2^64`, that is followed
by a space or a newline, no graph is returned, and the assertion that fails is
`val < (1UL<<32)` when the numbers read on the first two lines equal the declared counts;
the same holds for every value of the fourth line whose number read in the 64-bit `val`
is `>= 2^32`.  When a graph is returned, every numeral below `2^64` of the fourth line
that is followed by a space or a newline is below `2^32`, and `edges_list` holds exactly
the numbers read for the values of the fourth line brought to an end - the values of the
numerals, when they are numerals below `2^64`: no ID below `2^64` is truncated.  The
number read for a numeral is its value modulo `2^64`. -/
theorem get_txt_graph_rejects_wide_id (vertices_count edges_count : Nat) (text : List Nat)
    (hcnt : within_counters text) :
    ((∃ tok, (3, tok) ∈ ended_values text ∧ is_numeral tok ∧ 2 ^ 32 ≤ numeral_value tok ∧
        numeral_value tok < 2 ^ 64) →
      (∃ msg, get_txt_graph vertices_count edges_count text = Except.error msg) ∧
      ((∀ tok, (0, tok) ∈ ended_values text → token_value tok = vertices_count) →
        (∀ tok, (1, tok) ∈ ended_values text → token_value tok = edges_count) →
        get_txt_graph vertices_count edges_count text = Except.error "val < (1UL<<32)")) ∧
    ((∃ tok, (3, tok) ∈ ended_values text ∧ 2 ^ 32 ≤ token_value tok) →
      (∃ msg, get_txt_graph vertices_count edges_count text = Except.error msg) ∧
      ((∀ tok, (0, tok) ∈ ended_values text → token_value tok = vertices_count) →
        (∀ tok, (1, tok) ∈ ended_values text → token_value tok = edges_count) →
        get_txt_graph vertices_count edges_count text = Except.error "val < (1UL<<32)")) ∧
    (∀ g, get_txt_graph vertices_count edges_count text = Except.ok g →
      (∀ tok, (3, tok) ∈ ended_values text → is_numeral tok → numeral_value tok < 2 ^ 64 →
        numeral_value tok < 2 ^ 32) ∧
      (∀ tok, (3, tok) ∈ ended_values text → token_value tok < 2 ^ 32) ∧
      g.edges_list = values_of_line (ended_values text) 3 ∧
      ((∀ tok, (3, tok) ∈ ended_values text → is_numeral tok ∧ numeral_value tok < 2 ^ 64) →
        g.edges_list =
          ((ended_values text).filter (on_line 3)).map (fun t => numeral_value t.2))) ∧
    (∀ tok, is_numeral tok → token_value tok = numeral_value tok % 2 ^ 64) := by
  have hshort : ∀ t, t ∈ txt_values_from 0 [] text → t.2.length < 2 ^ 32 :=
    fun t ht => (hcnt t (mem_ended_values text t ht)).2
  have hline : ∀ t, t ∈ ended_values text → t.1 < 2 ^ 32 :=
    fun t ht => (hcnt t (mem_ended_values text t ht)).1
  have heq := get_txt_graph_eq vertices_count edges_count text hshort
  have hwide : (∃ tok, (3, tok) ∈ ended_values text ∧ 2 ^ 32 ≤ token_value tok) →
      (∃ msg, get_txt_graph vertices_count edges_count text = Except.error msg) ∧
      ((∀ tok, (0, tok) ∈ ended_values text → token_value tok = vertices_count) →
        (∀ tok, (1, tok) ∈ ended_values text → token_value tok = edges_count) →
        get_txt_graph vertices_count edges_count text = Except.error "val < (1UL<<32)") := by
    rintro ⟨tok, hmem, hbig⟩
    cases hfold : txt_store_values vertices_count edges_count (txt_values_from 0 [] text)
        (get_txt_graph_start vertices_count edges_count).store with
    | error msg =>
      rw [hfold] at heq
      refine ⟨⟨msg, heq⟩, ?_⟩
      intro h0 h1
      rw [heq, store_values_error vertices_count edges_count (ended_values text) hline
        (fun t ht hs => h0 t.2 (by rw [← hs]; exact ht))
        (fun t ht hs => h1 t.2 (by rw [← hs]; exact ht)) _ msg hfold]
    | ok g =>
      exfalso
      obtain ⟨_, _, f3, _⟩ := store_values_ok vertices_count edges_count
        (ended_values text) hline _ g hfold
      have := f3 (3, tok) hmem rfl
      dsimp only at this
      omega
  have hok : ∀ g, get_txt_graph vertices_count edges_count text = Except.ok g →
      (∀ tok, (3, tok) ∈ ended_values text → token_value tok < 2 ^ 32) ∧
      g.edges_list = values_of_line (ended_values text) 3 := by
    intro g hg
    rw [heq] at hg
    cases hfold : txt_store_values vertices_count edges_count (txt_values_from 0 [] text)
        (get_txt_graph_start vertices_count edges_count).store with
    | error msg =>
      rw [hfold] at hg
      simp at hg
    | ok g1 =>
      rw [hfold] at hg
      dsimp only at hg
      obtain ⟨_, _, f3, _, fel, _, fell, _, fedg⟩ := store_values_ok vertices_count edges_count
        (ended_values text) hline _ g1 hfold
      have s2 : (get_txt_graph_start vertices_count edges_count).store.el_count = 0 := rfl
      have s3 : (get_txt_graph_start vertices_count edges_count).store.edges_list =
        List.replicate edges_count 0 := rfl
      rw [s2] at fel fedg
      rw [s3] at fell fedg
      by_cases hel : g1.el_count ≠ edges_count
      · rw [if_pos hel] at hg
        simp at hg
      · rw [if_neg hel] at hg
        by_cases hvl : g1.vl_count ≠ vertices_count
        · rw [if_pos hvl] at hg
          simp at hg
        · rw [if_neg hvl] at hg
          have hg' := Except.ok.inj hg
          refine ⟨fun tok ht => f3 (3, tok) ht rfl, ?_⟩
          rw [← hg']
          show g1.edges_list = _
          apply ext_rd
          · rw [fell, List.length_replicate]
            omega
          · intro j hj
            rw [fell, List.length_replicate] at hj
            rw [fedg j, List.length_replicate, if_pos ⟨by omega, by omega, hj⟩, Nat.sub_zero]
  have hnum : ∀ tok, is_numeral tok → numeral_value tok < 2 ^ 64 →
      token_value tok = numeral_value tok := by
    intro tok h1 h2
    rw [token_value_numeral tok h1, Nat.mod_eq_of_lt h2]
  refine ⟨?_, hwide, ?_, token_value_numeral⟩
  · rintro ⟨tok, hmem, hnumeral, hbig, hlt⟩
    exact hwide ⟨tok, hmem, by rw [hnum tok hnumeral hlt]; exact hbig⟩
  · intro g hg
    obtain ⟨k1, k2⟩ := hok g hg
    refine ⟨?_, k1, k2, ?_⟩
    · intro tok hmem hnumeral hlt
      rw [← hnum tok hnumeral hlt]
      exact k1 tok hmem
    · intro hall
      rw [k2]
      unfold values_of_line
      apply List.map_congr_left
      intro t ht
      rw [List.mem_filter] at ht
      have h3 : t.1 = 3 := by
        have := ht.2
        unfold on_line at this
        exact of_decide_eq_true this
      have hmem : (3, t.2) ∈ ended_values text := by
        rw [← h3]
        exact ht.1
      exact hnum t.2 (hall t.2 hmem).1 (hall t.2 hmem).2

theorem get_txt_graph_rejects_wide_id_witness :
    within_counters wide_text ∧
    (3, [52, 50, 57, 52, 57, 54, 55, 50, 57, 54]) ∈ ended_values wide_text ∧
    is_numeral [52, 50, 57, 52, 57, 54, 55, 50, 57, 54] ∧
    numeral_value [52, 50, 57, 52, 57, 54, 55, 50, 57, 54] = 2 ^ 32 ∧
    (∀ tok, (0, tok) ∈ ended_values wide_text → token_value tok = 1) ∧
    (∀ tok, (1, tok) ∈ ended_values wide_text → token_value tok = 1) ∧
    get_txt_graph 1 1 wide_text = Except.error "val < (1UL<<32)" :=
  have h0 : ∀ tok, (0, tok) ∈ ended_values wide_text → token_value tok = 1 := by
    intro tok h
    have e : ended_values wide_text =
        [(0, [49]), (1, [49]), (2, [48]), (3, [52, 50, 57, 52, 57, 54, 55, 50, 57, 54])] := by
      decide
    rw [e] at h
    simp at h
    subst h
    decide
  have h1 : ∀ tok, (1, tok) ∈ ended_values wide_text → token_value tok = 1 := by
    intro tok h
    have e : ended_values wide_text =
        [(0, [49]), (1, [49]), (2, [48]), (3, [52, 50, 57, 52, 57, 54, 55, 50, 57, 54])] := by
      decide
    rw [e] at h
    simp at h
    subst h
    decide
  ⟨by decide, by decide, by decide, by decide, h0, h1,
    ((get_txt_graph_rejects_wide_id 1 1 wide_text (by decide)).1
      ⟨[52, 50, 57, 52, 57, 54, 55, 50, 57, 54], by decide, by decide, by decide,
        by decide⟩).2 h0 h1⟩

/-- C18, as stated, fails.  On a text without a newline at its end: in
`1\n1\n0\n0 4294967296` the fourth line holds the value `4294967296 = 2^32`, yet no
assertion fails and a graph with the edge `0` is returned, since the last value is never
brought to an end.  In `1 2\n1\n0\n4294967296\n` the assertion that fails is
`vertices_count == val`, at the second value of the first line.  And an ID is truncated
without an assertion failing: in `1\n1\n0\n18446744073709551616\n` the fourth line holds
the numeral of `2^64`, the number read in the 64-bit `val` is `0`, and a graph with the
edge `0` is returned. -/
theorem get_txt_graph_wide_id_counterexample :
    within_counters unterminated_wide_text ∧
    line_values unterminated_wide_text 3 = [[48], [52, 50, 57, 52, 57, 54, 55, 50, 57, 54]] ∧
    token_value [52, 50, 57, 52, 57, 54, 55, 50, 57, 54] = 2 ^ 32 ∧
    get_txt_graph 1 1 unterminated_wide_text =
      Except.ok
        { vertices_count := 1, edges_count := 1, offsets_list := [0, 1], edges_list := [0] } ∧
    within_counters two_headers_text ∧ ends_with_separator two_headers_text ∧
    line_values two_headers_text 3 = [[52, 50, 57, 52, 57, 54, 55, 50, 57, 54]] ∧
    get_txt_graph 1 1 two_headers_text = Except.error "vertices_count == val" ∧
    within_counters wrapped_text ∧ ends_with_separator wrapped_text ∧
    line_values wrapped_text 3 =
      [[49, 56, 52, 52, 54, 55, 52, 52, 48, 55, 51, 55, 48, 57, 53, 53, 49, 54, 49, 54]] ∧
    is_numeral [49, 56, 52, 52, 54, 55, 52, 52, 48, 55, 51, 55, 48, 57, 53, 53, 49, 54, 49, 54] ∧
    numeral_value [49, 56, 52, 52, 54, 55, 52, 52, 48, 55, 51, 55, 48, 57, 53, 53, 49, 54, 49, 54] = 2 ^ 64 ∧
    token_value [49, 56, 52, 52, 54, 55, 52, 52, 48, 55, 51, 55, 48, 57, 53, 53, 49, 54, 49, 54] = 0 ∧
    get_txt_graph 1 1 wrapped_text =
      Except.ok
        { vertices_count := 1, edges_count := 1, offsets_list := [0, 1], edges_list := [0] } :=
  ⟨by decide, by decide, by decide, rfl, by decide, by decide, by decide, rfl,
    by decide, by decide, by decide, by decide, by decide, by decide, rfl⟩

/-! ## Decimal numerals -/

theorem char_minus_zero_digit (d : Nat) (hd : d < 10) : char_minus_zero (48 + d) = d := by
  unfold char_minus_zero
  rw [if_neg (by omega), if_pos (by omega)]
  omega

theorem decimal_digits_spec (fuel x : Nat) (hx : x < fuel) :
    decimal_digits fuel x ≠ [] ∧
    (∀ c, c ∈ decimal_digits fuel x → c ≠ 10 ∧ c ≠ 32) ∧
    (x < 2 ^ 64 → token_value (decimal_digits fuel x) = x) ∧
    (∀ k, 0 < k → x < 10 ^ k → (decimal_digits fuel x).length ≤ k) := by
  induction fuel generalizing x with
  | zero => omega
  | succ fuel ih =>
    unfold decimal_digits
    by_cases hlt : x < 10
    · rw [if_pos hlt]
      refine ⟨by simp, ?_, ?_, ?_⟩
      · intro c hc
        rw [List.mem_singleton] at hc
        omega
      · intro _
        have e : ([48 + x] : List Nat) = [] ++ [48 + x] := rfl
        rw [e, token_value_snoc, char_minus_zero_digit x hlt]
        have e0 : token_value [] = 0 := rfl
        rw [e0]
        omega
      · intro k hk _
        rw [List.length_singleton]
        omega
    · rw [if_neg hlt]
      obtain ⟨i1, i2, i3, i4⟩ := ih (x / 10) (by omega)
      refine ⟨by simp, ?_, ?_, ?_⟩
      · intro c hc
        rw [List.mem_append, List.mem_singleton] at hc
        rcases hc with hc | hc
        · exact i2 c hc
        · omega
      · intro h64
        rw [token_value_snoc, i3 (by omega), char_minus_zero_digit _ (by omega)]
        omega
      · intro k hk hpow
        rw [List.length_append, List.length_singleton]
        have hk2 : 2 ≤ k := by
          by_contra hc
          have : k = 1 := by omega
          subst this
          omega
        have hdiv : x / 10 < 10 ^ (k - 1) := by
          have e : 10 ^ k = 10 ^ (k - 1) * 10 := by
            rw [← Nat.pow_succ]
            congr 1
            omega
          rw [e] at hpow
          exact Nat.div_lt_of_lt_mul (by rw [Nat.mul_comm]; exact hpow)
        have := i4 (k - 1) (by omega) hdiv
        omega

theorem decimal_spec (x : Nat) (hx : x < 2 ^ 64) :
    decimal x ≠ [] ∧ (∀ c, c ∈ decimal x → c ≠ 10 ∧ c ≠ 32) ∧
    token_value (decimal x) = x ∧ (decimal x).length < 2 ^ 32 := by
  obtain ⟨d1, d2, d3, d4⟩ := decimal_digits_spec (x + 1) x (by omega)
  refine ⟨d1, d2, d3 hx, ?_⟩
  have := d4 20 (by omega) (by
    have : (2 : Nat) ^ 64 < 10 ^ 20 := by norm_num
    omega)
  unfold decimal
  have h : (20 : Nat) < 2 ^ 32 := by norm_num
  omega

/-! ## The values of a text made of lines of numerals -/

theorem txt_values_from_run (tok : List Nat) (hsep : ∀ c, c ∈ tok → c ≠ 10 ∧ c ≠ 32)
    (line : Nat) (cur rest : List Nat) :
    txt_values_from line cur (tok ++ rest) = txt_values_from line (cur ++ tok) rest := by
  induction tok generalizing cur with
  | nil => simp
  | cons c tl ih =>
    have hc := hsep c (by simp)
    rw [List.cons_append, txt_values_from_cons, if_neg (by omega),
      ih (fun x hx => hsep x (by simp [hx]))]
    congr 1
    simp

theorem txt_values_from_value (tok : List Nat) (hne : tok ≠ [])
    (hsep : ∀ c, c ∈ tok → c ≠ 10 ∧ c ≠ 32) (line d : Nat) (hd : d = 10 ∨ d = 32)
    (rest : List Nat) :
    txt_values_from line [] (tok ++ d :: rest) =
      (line, tok) :: txt_values_from (if d = 10 then line + 1 else line) [] rest := by
  rw [txt_values_from_run tok hsep, List.nil_append, txt_values_from_cons, if_pos hd,
    if_neg hne, List.singleton_append]

theorem txt_values_from_line (xs : List Nat) (hxs : ∀ x, x ∈ xs → x < 2 ^ 64) (line : Nat)
    (rest : List Nat) :
    txt_values_from line [] (txt_line xs ++ rest) =
      xs.map (fun x => (line, decimal x)) ++ txt_values_from (line + 1) [] rest := by
  induction xs with
  | nil =>
    show txt_values_from line [] (10 :: rest) = _
    rw [txt_values_from_cons, if_pos (by omega), if_pos rfl, if_pos rfl]
    rfl
  | cons x tl ih =>
    obtain ⟨d1, d2, _, _⟩ := decimal_spec x (hxs x (by simp))
    cases tl with
    | nil =>
      show txt_values_from line [] ((decimal x ++ [10]) ++ rest) = _
      rw [List.append_assoc, List.singleton_append,
        txt_values_from_value _ d1 d2 line 10 (by omega), if_pos rfl]
      rfl
    | cons y t =>
      show txt_values_from line [] ((decimal x ++ 32 :: txt_line (y :: t)) ++ rest) = _
      rw [List.append_assoc, List.cons_append,
        txt_values_from_value _ d1 d2 line 32 (by omega), if_neg (by omega),
        ih (fun z hz => hxs z (by simp [hz]))]
      rfl

theorem values_of_line_append (a b : List (Nat × List Nat)) (k : Nat) :
    values_of_line (a ++ b) k = values_of_line a k ++ values_of_line b k := by
  unfold values_of_line
  rw [List.filter_append, List.map_append]

theorem values_of_line_numerals (xs : List Nat) (hxs : ∀ x, x ∈ xs → x < 2 ^ 64)
    (line k : Nat) :
    values_of_line (xs.map (fun x => (line, decimal x))) k = if line = k then xs else [] := by
  induction xs with
  | nil =>
    by_cases h : line = k
    · rw [if_pos h]; rfl
    · rw [if_neg h]; rfl
  | cons x tl ih =>
    rw [List.map_cons, values_of_line_cons, ih (fun z hz => hxs z (by simp [hz]))]
    dsimp only
    by_cases h : line = k
    · rw [if_pos h, if_pos h, if_pos h, (decimal_spec x (hxs x (by simp))).2.2.1]
    · rw [if_neg h, if_neg h, if_neg h]

/-- The values of the text of a graph, each with its line. -/
theorem ended_values_graph_text (n m : Nat) (offsets ids : List Nat) (hn : n < 2 ^ 64)
    (hm : m < 2 ^ 64) (ho : ∀ x, x ∈ offsets → x < 2 ^ 64) (hi : ∀ x, x ∈ ids → x < 2 ^ 64) :
    txt_values_from 0 [] (txt_graph_text n m offsets ids) =
      [(0, decimal n)] ++ ([(1, decimal m)] ++ (offsets.map (fun x => (2, decimal x)) ++
        ids.map (fun x => (3, decimal x)))) := by
  unfold txt_graph_text
  rw [List.append_assoc, List.append_assoc,
    txt_values_from_line [n] (by intro x hx; rw [List.mem_singleton] at hx; omega),
    txt_values_from_line [m] (by intro x hx; rw [List.mem_singleton] at hx; omega),
    txt_values_from_line offsets ho]
  have e := txt_values_from_line ids hi 3 []
  rw [List.append_nil] at e
  rw [e]
  simp [txt_values_from]

theorem get_txt_graph_value_runs (n m s v : Nat) (g : txt_store) (h0 : s = 0 → v = n)
    (h1 : s = 1 → v = m) (h3 : s = 3 → v < 2 ^ 32) :
    ∃ g1, get_txt_graph_value n m s v g = Except.ok g1 := by
  unfold get_txt_graph_value
  by_cases s0 : s = 0
  · rw [if_pos s0, if_pos (h0 s0).symm]
    exact ⟨_, rfl⟩
  · rw [if_neg s0]
    by_cases s1 : s = 1
    · rw [if_pos s1, if_pos (h1 s1).symm]
      exact ⟨_, rfl⟩
    · rw [if_neg s1]
      by_cases s2 : s = 2
      · rw [if_pos s2]
        exact ⟨_, rfl⟩
      · rw [if_neg s2]
        by_cases s3 : s = 3
        · rw [if_pos s3, if_pos (h3 s3)]
          exact ⟨_, rfl⟩
        · rw [if_neg s3]
          exact ⟨_, rfl⟩

theorem store_values_runs (n m : Nat) (ts : List (Nat × List Nat))
    (hline : ∀ t, t ∈ ts → t.1 < 2 ^ 32)
    (h0 : ∀ t, t ∈ ts → t.1 = 0 → token_value t.2 = n)
    (h1 : ∀ t, t ∈ ts → t.1 = 1 → token_value t.2 = m)
    (h3 : ∀ t, t ∈ ts → t.1 = 3 → token_value t.2 < 2 ^ 32) (g : txt_store) :
    ∃ g1, txt_store_values n m ts g = Except.ok g1 := by
  induction ts generalizing g with
  | nil => exact ⟨g, rfl⟩
  | cons t ts ih =>
    rw [txt_store_values_cons, Nat.mod_eq_of_lt (hline t (by simp))]
    obtain ⟨g2, hg2⟩ := get_txt_graph_value_runs n m t.1 (token_value t.2) g (h0 t (by simp))
      (h1 t (by simp)) (h3 t (by simp))
    rw [hg2]
    exact ih (fun x hx => hline x (by simp [hx])) (fun x hx => h0 x (by simp [hx]))
      (fun x hx => h1 x (by simp [hx])) (fun x hx => h3 x (by simp [hx])) g2

/-- C16: text format parsing.  For every text made of four newline-terminated lines -
`n`, `m`, exactly `n` decimal offsets, exactly `m` decimal neighbour IDs each `< 2^32`,
tokens separated by spaces (the counts and the offsets being 64-bit numbers) - the
reading loop of `get_txt_graph`, given the declared counts `n` and `m`, passes all its
assertions and yields `vertices_count = n`, `edges_count = m`, `offsets_list[i]` = the
`i`-th offset for `i < n`, `edges_list[j]` = the `j`-th ID for `j < m`, and
`offsets_list[n] = m`, which the function sets itself. -/
theorem get_txt_graph_reads_text (n m : Nat) (offsets ids : List Nat) (hn : n < 2 ^ 64)
    (hm : m < 2 ^ 64) (hlo : offsets.length = n) (hli : ids.length = m)
    (ho : ∀ x, x ∈ offsets → x < 2 ^ 64) (hi : ∀ x, x ∈ ids → x < 2 ^ 32) :
    get_txt_graph n m (txt_graph_text n m offsets ids) =
      Except.ok
        { vertices_count := n, edges_count := m,
          offsets_list := offsets ++ [m], edges_list := ids } ∧
    (∀ g, get_txt_graph n m (txt_graph_text n m offsets ids) = Except.ok g →
      g.vertices_count = n ∧ g.edges_count = m ∧
      (∀ i, i < n → rd g.offsets_list i = rd offsets i) ∧
      (∀ j, j < m → rd g.edges_list j = rd ids j) ∧
      rd g.offsets_list n = m) := by
  have hi64 : ∀ x, x ∈ ids → x < 2 ^ 64 := by
    intro x hx
    have := hi x hx
    have h : (2 : Nat) ^ 32 < 2 ^ 64 := by norm_num
    omega
  have hvals := ended_values_graph_text n m offsets ids hn hm ho hi64
  have hmem : ∀ t, t ∈ txt_values_from 0 [] (txt_graph_text n m offsets ids) →
      t.1 < 4 ∧ ∃ x, x < 2 ^ 64 ∧ t.2 = decimal x ∧ (t.1 = 0 → x = n) ∧ (t.1 = 1 → x = m) ∧
        (t.1 = 3 → x < 2 ^ 32) := by
    intro t ht
    rw [hvals] at ht
    simp only [List.mem_append, List.mem_singleton, List.mem_map] at ht
    rcases ht with ht | ht | ⟨x, hx, ht⟩ | ⟨x, hx, ht⟩
    · rw [ht]
      exact ⟨by omega, n, hn, rfl, fun _ => rfl, fun h => by simp at h, fun h => by simp at h⟩
    · rw [ht]
      exact ⟨by omega, m, hm, rfl, fun h => by simp at h, fun _ => rfl, fun h => by simp at h⟩
    · rw [← ht]
      exact ⟨by omega, x, ho x hx, rfl, fun h => by simp at h, fun h => by simp at h,
        fun h => by simp at h⟩
    · rw [← ht]
      exact ⟨by omega, x, hi64 x hx, rfl, fun h => by simp at h, fun h => by simp at h,
        fun _ => hi x hx⟩
  have hval : ∀ t, t ∈ txt_values_from 0 [] (txt_graph_text n m offsets ids) →
      ∃ x, token_value t.2 = x ∧ (t.1 = 0 → x = n) ∧ (t.1 = 1 → x = m) ∧
        (t.1 = 3 → x < 2 ^ 32) := by
    intro t ht
    obtain ⟨_, x, x1, x2, x3, x4, x5⟩ := hmem t ht
    exact ⟨x, by rw [x2]; exact (decimal_spec x x1).2.2.1, x3, x4, x5⟩
  have hshort : ∀ t, t ∈ txt_values_from 0 [] (txt_graph_text n m offsets ids) →
      t.2.length < 2 ^ 32 := by
    intro t ht
    obtain ⟨_, x, x1, x2, _⟩ := hmem t ht
    rw [x2]
    exact (decimal_spec x x1).2.2.2
  have hline : ∀ t, t ∈ txt_values_from 0 [] (txt_graph_text n m offsets ids) →
      t.1 < 2 ^ 32 := by
    intro t ht
    have := (hmem t ht).1
    have h : (4 : Nat) < 2 ^ 32 := by norm_num
    omega
  have heq := get_txt_graph_eq n m (txt_graph_text n m offsets ids) hshort
  obtain ⟨g1, hg1⟩ := store_values_runs n m _ hline
    (fun t ht hs => by obtain ⟨x, x1, x2, _⟩ := hval t ht; rw [x1]; exact x2 hs)
    (fun t ht hs => by obtain ⟨x, x1, _, x3, _⟩ := hval t ht; rw [x1]; exact x3 hs)
    (fun t ht hs => by obtain ⟨x, x1, _, _, x4⟩ := hval t ht; rw [x1]; exact x4 hs)
    (get_txt_graph_start n m).store
  obtain ⟨_, _, _, fvl, fel, fol, fell, foff, fedg⟩ := store_values_ok n m _ hline _ g1 hg1
  have v2 : values_of_line (txt_values_from 0 [] (txt_graph_text n m offsets ids)) 2 =
      offsets := by
    rw [hvals, values_of_line_append, values_of_line_append, values_of_line_append,
      values_of_line_numerals offsets ho, values_of_line_numerals ids hi64,
      values_of_line_cons, values_of_line_cons, if_neg (by simp), if_neg (by simp),
      if_pos rfl, if_neg (by simp)]
    show [] ++ ([] ++ (offsets ++ [])) = offsets
    simp
  have v3 : values_of_line (txt_values_from 0 [] (txt_graph_text n m offsets ids)) 3 =
      ids := by
    rw [hvals, values_of_line_append, values_of_line_append, values_of_line_append,
      values_of_line_numerals offsets ho, values_of_line_numerals ids hi64,
      values_of_line_cons, values_of_line_cons, if_neg (by simp), if_neg (by simp),
      if_neg (by simp), if_pos rfl]
    show [] ++ ([] ++ ([] ++ ids)) = ids
    simp
  have s1 : (get_txt_graph_start n m).store.vl_count = 0 := rfl
  have s2 : (get_txt_graph_start n m).store.el_count = 0 := rfl
  have s3 : (get_txt_graph_start n m).store.edges_list = List.replicate m 0 := rfl
  have s4 : (get_txt_graph_start n m).store.offsets_list = List.replicate (1 + n) 0 := rfl
  simp only [v2, v3, s1, s2, s3, s4, List.length_replicate] at fvl fel fol fell foff fedg
  have hmain : get_txt_graph n m (txt_graph_text n m offsets ids) =
      Except.ok
        { vertices_count := n, edges_count := m,
          offsets_list := offsets ++ [m], edges_list := ids } := by
    rw [heq, hg1]
    dsimp only
    rw [if_neg (by omega), if_neg (by omega)]
    have e1 : g1.offsets_list.set n m = offsets ++ [m] := by
      apply ext_rd
      · rw [List.length_set, fol, List.length_append, List.length_singleton]
        omega
      · intro j hj
        rw [List.length_set, fol] at hj
        by_cases hjn : j = n
        · subst hjn
          rw [rd_set_eq _ _ _ (by omega), rd_append_right _ _ _ (by omega), hlo, Nat.sub_self,
            rd_cons_zero]
        · rw [rd_set_ne _ _ _ _ (fun hc => hjn hc.symm), foff j,
            if_pos ⟨by omega, by omega, by omega⟩, rd_append_left _ _ _ (by omega),
            Nat.sub_zero]
    have e2 : g1.edges_list = ids := by
      apply ext_rd
      · rw [fell]
        omega
      · intro j hj
        rw [fell] at hj
        rw [fedg j, if_pos ⟨by omega, by omega, hj⟩, Nat.sub_zero]
    rw [e1, e2]
  refine ⟨hmain, ?_⟩
  intro g hg
  rw [hmain] at hg
  have hg' := (Except.ok.inj hg).symm
  rw [hg']
  dsimp only
  refine ⟨rfl, rfl, ?_, ?_, ?_⟩
  · intro i hi2
    rw [rd_append_left _ _ _ (by omega)]
  · intro j _
    rfl
  · rw [rd_append_right _ _ _ (by omega), hlo, Nat.sub_self, rd_cons_zero]

theorem get_txt_graph_reads_text_witness :
    (3 : Nat) < 2 ^ 64 ∧ (2 : Nat) < 2 ^ 64 ∧ [0, 1, 2].length = 3 ∧ [1, 2].length = 2 ∧
    (∀ x, x ∈ [0, 1, 2] → x < 2 ^ 64) ∧ (∀ x, x ∈ [1, 2] → x < 2 ^ 32) ∧
    txt_graph_text 3 2 [0, 1, 2] [1, 2] = sample_text ∧
    (get_txt_graph 3 2 (txt_graph_text 3 2 [0, 1, 2] [1, 2]) =
      Except.ok
        { vertices_count := 3, edges_count := 2,
          offsets_list := [0, 1, 2] ++ [2], edges_list := [1, 2] } ∧
    (∀ g, get_txt_graph 3 2 (txt_graph_text 3 2 [0, 1, 2] [1, 2]) = Except.ok g →
      g.vertices_count = 3 ∧ g.edges_count = 2 ∧
      (∀ i, i < 3 → rd g.offsets_list i = rd [0, 1, 2] i) ∧
      (∀ j, j < 2 → rd g.edges_list j = rd [1, 2] j) ∧
      rd g.offsets_list 3 = 2)) :=
  ⟨by decide, by decide, by decide, by decide, by decide, by decide, by decide,
    get_txt_graph_reads_text 3 2 [0, 1, 2] [1, 2] (by decide) (by decide) (by decide)
      (by decide) (by decide) (by decide)⟩

/-! ## Loops without assertions -/

theorem foldl_flatMap_eq {α β σ : Type} (f : σ → β → σ) (g : α → List β) (l : List α) (s : σ) :
    (l.flatMap g).foldl f s = l.foldl (fun s a => (g a).foldl f s) s := by
  induction l generalizing s with
  | nil => rfl
  | cons a t ih =>
    simp only [List.flatMap_cons, List.foldl_append, List.foldl_cons]
    exact ih _

theorem each_partition_vertex_eq {σ : Type} (partitions : List Nat) (partitions_count n : Nat)
    (hcover : partitions_cover partitions partitions_count n) (body : σ → Nat → σ) (s : σ) :
    each_partition_vertex partitions partitions_count body s = (List.range n).foldl body s := by
  obtain ⟨_, h0, hn, hmono⟩ := hcover
  unfold each_partition_vertex
  rw [← foldl_flatMap_eq]
  unfold partition_vertices
  rw [flatMap_boundaries (fun p => rd partitions p) partitions_count h0 hmono, hn]

theorem foldl_all_slots {σ : Type} (g : ll_400_graph) (f : Nat → σ → Nat → σ) (s : σ) :
    (List.range g.vertices_count).foldl
        (fun s v => (edge_slots g.offsets_list v).foldl (f v) s) s =
      (all_slots g).foldl (fun s x => f x.1 s x.2) s := by
  unfold all_slots
  rw [foldl_flatMap_eq]
  congr 1
  funext s v
  rw [List.foldl_map]

theorem foldl_invariant {α σ : Type} (f : σ → α → σ) (l : List α)
    (I : List α → σ → Prop) (s0 : σ) (h0 : I [] s0)
    (hstep : ∀ pre x rest s, l = pre ++ x :: rest → I pre s → I (pre ++ [x]) (f s x)) :
    I l (l.foldl f s0) := by
  have key : ∀ rest pre s, l = pre ++ rest → I pre s → I l (rest.foldl f s) := by
    intro rest
    induction rest with
    | nil =>
      intro pre s hl hI
      rw [hl, List.append_nil]
      exact hI
    | cons x t ih =>
      intro pre s hl hI
      exact ih (pre ++ [x]) (f s x) (by simp [hl]) (hstep pre x t s hl hI)
  exact key l [] s0 rfl h0

/-! ## Step 1 of `csr2csc` -/

theorem csr2csc_step1_spec (pe : par_env) (partitions : List Nat) (csr : ll_400_graph)
    (flags : Nat) (hwf : well_formed csr)
    (hcover : partitions_cover partitions (pe.threads_count * 64) csr.vertices_count) :
    (csr2csc_step1 pe partitions csr flags).length = csr.vertices_count + 1 ∧
    ∀ d, rd (csr2csc_step1 pe partitions csr flags) d = (csc_sources csr flags d).length := by
  unfold csr2csc_step1
  rw [each_partition_vertex_eq partitions _ _ hcover]
  have e : (List.range csr.vertices_count).foldl (csr2csc_degree_vertex csr flags)
      (List.replicate (1 + csr.vertices_count) 0) =
      (all_slots csr).foldl (fun s x => csr2csc_degree_edge csr flags x.1 s x.2)
        (List.replicate (1 + csr.vertices_count) 0) :=
    foldl_all_slots csr (fun v s e => csr2csc_degree_edge csr flags v s e) _
  rw [e]
  apply foldl_invariant (fun s x => csr2csc_degree_edge csr flags x.1 s x.2) (all_slots csr)
    (fun pre offs => offs.length = csr.vertices_count + 1 ∧
      ∀ d, rd offs d = ((pre.filter (is_incoming_slot csr flags d)).map Prod.fst).length)
  · refine ⟨by simp; omega, ?_⟩
    intro d
    rw [rd_replicate]
    rfl
  · intro pre x rest offs hl ⟨hlen, hI⟩
    have hx : x ∈ all_slots csr := by rw [hl]; simp
    obtain ⟨v, e⟩ := x
    have hdest := slot_dest_lt csr hwf v e hx
    dsimp only
    unfold csr2csc_degree_edge
    by_cases hrem : rd csr.edges_list e = v ∧ flags &&& 4 ≠ 0
    · rw [if_pos hrem]
      refine ⟨hlen, ?_⟩
      intro d
      rw [length_filter_snoc, hI d]
      have : is_incoming_slot csr flags d (v, e) = false := by
        simp only [is_incoming_slot, decide_eq_false_iff_not]
        rintro ⟨h1, h2⟩
        exact h2 ⟨by omega, hrem.2⟩
      rw [this]
      simp
    · rw [if_neg hrem]
      refine ⟨by rw [List.length_set]; exact hlen, ?_⟩
      intro d
      rw [length_filter_snoc, rd_set, hlen]
      by_cases hd : rd csr.edges_list e = d
      · have : is_incoming_slot csr flags d (v, e) = true := by
          simp only [is_incoming_slot, decide_eq_true_eq]
          refine ⟨hd, ?_⟩
          rintro ⟨h1, h2⟩
          exact hrem ⟨by omega, h2⟩
        rw [this, if_pos ⟨hd, by omega⟩, if_pos rfl, hd, hI d]
      · have : is_incoming_slot csr flags d (v, e) = false := by
          simp only [is_incoming_slot, decide_eq_false_iff_not]
          rintro ⟨h1, _⟩
          exact hd h1
        rw [this, if_neg (by omega), hI d]
        simp

/-! ## Steps 2, 3 and 5 of `csr2csc` -/

theorem csr2csc_step2_spec (pe : par_env) (partitions : List Nat) (csr : ll_400_graph)
    (flags : Nat) (degs : List Nat)
    (hcover : partitions_cover partitions (pe.threads_count * 64) csr.vertices_count)
    (hdegs : ∀ d, rd degs d = (csc_sources csr flags d).length) :
    (csr2csc_step2 pe partitions degs).2 = csc_offset csr flags csr.vertices_count ∧
    (∀ q, q < pe.threads_count * 64 →
      rd (csr2csc_step2 pe partitions degs).1 q = csc_offset csr flags (rd partitions q)) := by
  have hpre : ∀ b, prefix_sum degs b = csc_offset csr flags b := by
    intro b
    unfold prefix_sum csc_offset
    congr 1
    apply List.map_congr_left
    intro d _
    exact hdegs d
  obtain ⟨s1, s2⟩ := step3_spec pe partitions degs csr.vertices_count hcover
  refine ⟨?_, ?_⟩
  · rw [← hpre]
    exact s1
  · intro q hq
    rw [← hpre]
    exact s2 q hq

theorem csc_offset_succ (csr : ll_400_graph) (flags v : Nat) :
    csc_offset csr flags (v + 1) = csc_offset csr flags v + (csc_sources csr flags v).length := by
  unfold csc_offset
  rw [List.range_succ, List.map_append, List.sum_append]
  simp

theorem offset_vertices_spec (off deg : Nat → Nat) (hoff : ∀ v, off (v + 1) = off v + deg v)
    (k a : Nat) (offs : List Nat) (hlen : a + k ≤ offs.length)
    (hdeg : ∀ v, a ≤ v → v < a + k → rd offs v = deg v) :
    ((List.range' a k).foldl csr2csc_offset_vertex (offs, off a)).2 = off (a + k) ∧
    ((List.range' a k).foldl csr2csc_offset_vertex (offs, off a)).1.length = offs.length ∧
    (∀ v, a ≤ v → v < a + k →
      rd ((List.range' a k).foldl csr2csc_offset_vertex (offs, off a)).1 v = off v) ∧
    (∀ v, v < a ∨ a + k ≤ v →
      rd ((List.range' a k).foldl csr2csc_offset_vertex (offs, off a)).1 v = rd offs v) := by
  induction k generalizing a offs with
  | zero =>
    refine ⟨rfl, rfl, ?_, fun _ _ => rfl⟩
    intro v h1 h2
    omega
  | succ k ih =>
    rw [List.range'_succ, List.foldl_cons]
    have hstep : csr2csc_offset_vertex (offs, off a) a = (offs.set a (off a), off (a + 1)) := by
      unfold csr2csc_offset_vertex
      dsimp only
      rw [hoff a, hdeg a (Nat.le_refl _) (by omega)]
    rw [hstep]
    obtain ⟨i1, i2, i3, i4⟩ := ih (a + 1) (offs.set a (off a))
      (by rw [List.length_set]; omega)
      (fun v h1 h2 => by rw [rd_set_ne _ _ _ _ (by omega)]; exact hdeg v (by omega) (by omega))
    have e : a + 1 + k = a + (k + 1) := by omega
    rw [e] at i1 i3 i4
    refine ⟨i1, by rw [i2, List.length_set], ?_, ?_⟩
    · intro v h1 h2
      by_cases hv : v = a
      · subst hv
        rw [i4 v (by omega), rd_set_eq _ _ _ (by omega)]
      · exact i3 v (by omega) h2
    · intro v hv
      rw [i4 v (by omega), rd_set_ne _ _ _ _ (by omega)]

theorem restore_vertices_spec (off : Nat → Nat) (k a : Nat) (offs : List Nat)
    (hlen : a + k ≤ offs.length)
    (hnext : ∀ v, a ≤ v → v < a + k → rd offs v = off (v + 1)) :
    ((List.range' a k).foldl csr2csc_restore_vertex (offs, off a)).2 = off (a + k) ∧
    ((List.range' a k).foldl csr2csc_restore_vertex (offs, off a)).1.length = offs.length ∧
    (∀ v, a ≤ v → v < a + k →
      rd ((List.range' a k).foldl csr2csc_restore_vertex (offs, off a)).1 v = off v) ∧
    (∀ v, v < a ∨ a + k ≤ v →
      rd ((List.range' a k).foldl csr2csc_restore_vertex (offs, off a)).1 v = rd offs v) := by
  induction k generalizing a offs with
  | zero =>
    refine ⟨rfl, rfl, ?_, fun _ _ => rfl⟩
    intro v h1 h2
    omega
  | succ k ih =>
    rw [List.range'_succ, List.foldl_cons]
    have hstep : csr2csc_restore_vertex (offs, off a) a = (offs.set a (off a), off (a + 1)) := by
      unfold csr2csc_restore_vertex
      dsimp only
      rw [hnext a (Nat.le_refl _) (by omega)]
    rw [hstep]
    obtain ⟨i1, i2, i3, i4⟩ := ih (a + 1) (offs.set a (off a))
      (by rw [List.length_set]; omega)
      (fun v h1 h2 => by rw [rd_set_ne _ _ _ _ (by omega)]; exact hnext v (by omega) (by omega))
    have e : a + 1 + k = a + (k + 1) := by omega
    rw [e] at i1 i3 i4
    refine ⟨i1, by rw [i2, List.length_set], ?_, ?_⟩
    · intro v h1 h2
      by_cases hv : v = a
      · subst hv
        rw [i4 v (by omega), rd_set_eq _ _ _ (by omega)]
      · exact i3 v (by omega) h2
    · intro v hv
      rw [i4 v (by omega), rd_set_ne _ _ _ _ (by omega)]

theorem check_partition_ok (partitions : List Nat) (count n : Nat)
    (hcover : partitions_cover partitions count n) (off : Nat → Nat) (pte : List Nat)
    (hpte : ∀ q, q < count → rd pte q = off (rd partitions q)) (p : Nat) (hp : p < count)
    (res : List Nat × Nat) (hres : res.2 = off (rd partitions (p + 1))) :
    csr2csc_check_partition count pte (off n) p res = Except.ok res.1 := by
  unfold csr2csc_check_partition
  by_cases hlast : p + 1 < count
  · rw [if_pos hlast, if_pos (by rw [hres, hpte _ hlast])]
  · have e : p + 1 = count := by omega
    rw [if_neg hlast, if_pos (by rw [hres, e, hcover.2.2.1])]

theorem csr2csc_step3_spec (pe : par_env) (partitions : List Nat) (n : Nat)
    (hcover : partitions_cover partitions (pe.threads_count * 64) n)
    (off deg : Nat → Nat) (hoff : ∀ v, off (v + 1) = off v + deg v) (pte : List Nat)
    (hpte : ∀ q, q < pe.threads_count * 64 → rd pte q = off (rd partitions q))
    (offs0 : List Nat) (hlen : offs0.length = n + 1)
    (hdeg : ∀ v, v < n → rd offs0 v = deg v) (hn : rd offs0 n = off n) :
    ∃ offs3, csr2csc_step3 pe partitions (pte, off n) offs0 = Except.ok offs3 ∧
      offs3.length = n + 1 ∧ ∀ v, v ≤ n → rd offs3 v = off v := by
  have key : ∀ j, j ≤ pe.threads_count * 64 →
      ∃ offs, (List.range j).foldlM
          (csr2csc_offset_partition partitions (pe.threads_count * 64) pte (off n)) offs0 =
          Except.ok offs ∧
        offs.length = n + 1 ∧ (∀ v, v < rd partitions j → rd offs v = off v) ∧
        (∀ v, rd partitions j ≤ v → v < n → rd offs v = deg v) ∧ rd offs n = off n := by
    intro j
    induction j with
    | zero =>
      intro _
      refine ⟨offs0, rfl, hlen, ?_, fun v _ hv => hdeg v hv, hn⟩
      intro v hv
      rw [hcover.2.1] at hv
      omega
    | succ j ih =>
      intro hj
      obtain ⟨offs, h1, l1, a1, b1, c1⟩ := ih (by omega)
      have hle := hcover.2.2.2 j (by omega)
      have hup : rd partitions (j + 1) ≤ n := by
        rw [← hcover.2.2.1]
        exact boundaries_mono (fun q => rd partitions q) _ hcover.2.2.2 (j + 1) _ (by omega)
          (Nat.le_refl _)
      have e : rd partitions j + (rd partitions (j + 1) - rd partitions j) =
          rd partitions (j + 1) := by omega
      obtain ⟨i1, i2, i3, i4⟩ := offset_vertices_spec off deg hoff
        (rd partitions (j + 1) - rd partitions j) (rd partitions j) offs (by omega)
        (fun v h1 h2 => b1 v h1 (by omega))
      rw [e] at i1 i3 i4
      have hpart : csr2csc_offset_partition partitions (pe.threads_count * 64) pte (off n)
          offs j = Except.ok ((List.range' (rd partitions j)
            (rd partitions (j + 1) - rd partitions j)).foldl csr2csc_offset_vertex
              (offs, off (rd partitions j))).1 := by
        unfold csr2csc_offset_partition partition_vertices
        rw [hpte j (by omega)]
        exact check_partition_ok partitions _ n hcover off pte hpte j (by omega) _ i1
      refine ⟨_, ?_, by rw [i2, l1], ?_, ?_, ?_⟩
      · rw [List.range_succ, List.foldlM_append, h1]
        simp only [bind, Except.bind, List.foldlM_cons, List.foldlM_nil]
        rw [hpart]
        rfl
      · intro v hv
        by_cases hlow : v < rd partitions j
        · rw [i4 v (by omega)]
          exact a1 v hlow
        · exact i3 v (by omega) hv
      · intro v h1 h2
        rw [i4 v (by omega)]
        exact b1 v (by omega) h2
      · rw [i4 n (by omega)]
        exact c1
  obtain ⟨offs, h1, l1, a1, _, c1⟩ := key _ (Nat.le_refl _)
  refine ⟨offs, h1, l1, ?_⟩
  intro v hv
  by_cases hvn : v = n
  · rw [hvn]; exact c1
  · exact a1 v (by rw [hcover.2.2.1]; omega)

theorem csr2csc_step5_spec (pe : par_env) (partitions : List Nat) (n : Nat)
    (hcover : partitions_cover partitions (pe.threads_count * 64) n)
    (off : Nat → Nat) (pte : List Nat)
    (hpte : ∀ q, q < pe.threads_count * 64 → rd pte q = off (rd partitions q))
    (offs0 : List Nat) (hlen : offs0.length = n + 1)
    (hnext : ∀ v, v < n → rd offs0 v = off (v + 1)) (hn : rd offs0 n = off n) :
    ∃ offs5, csr2csc_step5 pe partitions (pte, off n) offs0 = Except.ok offs5 ∧
      offs5.length = n + 1 ∧ ∀ v, v ≤ n → rd offs5 v = off v := by
  have key : ∀ j, j ≤ pe.threads_count * 64 →
      ∃ offs, (List.range j).foldlM
          (csr2csc_restore_partition partitions (pe.threads_count * 64) pte (off n)) offs0 =
          Except.ok offs ∧
        offs.length = n + 1 ∧ (∀ v, v < rd partitions j → rd offs v = off v) ∧
        (∀ v, rd partitions j ≤ v → v < n → rd offs v = off (v + 1)) ∧ rd offs n = off n := by
    intro j
    induction j with
    | zero =>
      intro _
      refine ⟨offs0, rfl, hlen, ?_, fun v _ hv => hnext v hv, hn⟩
      intro v hv
      rw [hcover.2.1] at hv
      omega
    | succ j ih =>
      intro hj
      obtain ⟨offs, h1, l1, a1, b1, c1⟩ := ih (by omega)
      have hle := hcover.2.2.2 j (by omega)
      have hup : rd partitions (j + 1) ≤ n := by
        rw [← hcover.2.2.1]
        exact boundaries_mono (fun q => rd partitions q) _ hcover.2.2.2 (j + 1) _ (by omega)
          (Nat.le_refl _)
      have e : rd partitions j + (rd partitions (j + 1) - rd partitions j) =
          rd partitions (j + 1) := by omega
      obtain ⟨i1, i2, i3, i4⟩ := restore_vertices_spec off
        (rd partitions (j + 1) - rd partitions j) (rd partitions j) offs (by omega)
        (fun v h1 h2 => b1 v h1 (by omega))
      rw [e] at i1 i3 i4
      have hpart : csr2csc_restore_partition partitions (pe.threads_count * 64) pte (off n)
          offs j = Except.ok ((List.range' (rd partitions j)
            (rd partitions (j + 1) - rd partitions j)).foldl csr2csc_restore_vertex
              (offs, off (rd partitions j))).1 := by
        unfold csr2csc_restore_partition partition_vertices
        rw [hpte j (by omega)]
        exact check_partition_ok partitions _ n hcover off pte hpte j (by omega) _ i1
      refine ⟨_, ?_, by rw [i2, l1], ?_, ?_, ?_⟩
      · rw [List.range_succ, List.foldlM_append, h1]
        simp only [bind, Except.bind, List.foldlM_cons, List.foldlM_nil]
        rw [hpart]
        rfl
      · intro v hv
        by_cases hlow : v < rd partitions j
        · rw [i4 v (by omega)]
          exact a1 v hlow
        · exact i3 v (by omega) hv
      · intro v h1 h2
        rw [i4 v (by omega)]
        exact b1 v (by omega) h2
      · rw [i4 n (by omega)]
        exact c1
  obtain ⟨offs, h1, l1, a1, _, c1⟩ := key _ (Nat.le_refl _)
  refine ⟨offs, h1, l1, ?_⟩
  intro v hv
  by_cases hvn : v = n
  · rw [hvn]; exact c1
  · exact a1 v (by rw [hcover.2.2.1]; omega)

/-! ## Step 4 of `csr2csc` -/

theorem csc_offset_mono (csr : ll_400_graph) (flags i j : Nat) (h : i ≤ j) :
    csc_offset csr flags i ≤ csc_offset csr flags j := by
  induction j with
  | zero =>
    have : i = 0 := by omega
    subst this
    exact Nat.le_refl _
  | succ j ih =>
    by_cases hij : i = j + 1
    · subst hij
      exact Nat.le_refl _
    · have := ih (by omega)
      rw [csc_offset_succ]
      omega

theorem is_incoming_slot_iff (csr : ll_400_graph) (flags d v e : Nat) :
    is_incoming_slot csr flags d (v, e) = true ↔
      rd csr.edges_list e = d ∧ ¬ (v = d ∧ flags &&& 4 ≠ 0) := by
  simp only [is_incoming_slot, decide_eq_true_eq]

theorem csc_write_edge_spec (csr : ll_400_graph) (flags : Nat) (hwf : well_formed csr)
    (pre rest : List (Nat × Nat)) (x : Nat × Nat) (hl : all_slots csr = pre ++ x :: rest)
    (st : List Nat × List Nat) (hinv : csc_write_invariant csr flags pre st) :
    ∃ st', csr2csc_write_edge csr flags x.1 st x.2 = Except.ok st' ∧
      csc_write_invariant csr flags (pre ++ [x]) st' := by
  obtain ⟨v, e⟩ := x
  dsimp only
  obtain ⟨l1, l2, i1, i2, i3⟩ := hinv
  have hslot : (v, e) ∈ all_slots csr := by rw [hl]; simp
  have hd := slot_dest_lt csr hwf v e hslot
  have hpre : ∀ d, ((pre.filter (is_incoming_slot csr flags d)).map Prod.fst).length +
      (if is_incoming_slot csr flags d (v, e) = true then 1 else 0) ≤
        (csc_sources csr flags d).length :=
    fun d => length_filter_prefix (is_incoming_slot csr flags d) Prod.fst (all_slots csr) pre
      rest (v, e) hl
  by_cases hw : is_incoming_slot csr flags (rd csr.edges_list e) (v, e) = true
  · -- the source is written
    have hw' := (is_incoming_slot_iff csr flags _ v e).1 hw
    have h1 : ¬ (v = rd csr.edges_list e ∧ flags &&& 4 ≠ 0) := hw'.2
    have hp := hpre (rd csr.edges_list e)
    rw [if_pos hw] at hp
    have hsucc := csc_offset_succ csr flags (rd csr.edges_list e)
    have hlast := i1 _ hd
    have htot := csc_offset_mono csr flags (rd csr.edges_list e + 1) csr.vertices_count
      (by omega)
    have hnext : csc_offset csr flags (rd csr.edges_list e + 1) ≤
        rd st.1 (rd csr.edges_list e + 1) := by
      by_cases hlastv : rd csr.edges_list e + 1 = csr.vertices_count
      · rw [hlastv, i2]
      · rw [i1 _ (by omega)]
        omega
    have h3 : rd st.1 (rd csr.edges_list e) <
        rd (st.1.set (rd csr.edges_list e) (rd st.1 (rd csr.edges_list e) + 1))
          (rd csr.edges_list e + 1) := by
      rw [rd_set_ne _ _ _ _ (by omega)]
      omega
    refine ⟨_, by unfold csr2csc_write_edge; rw [if_neg h1, if_pos h3], ?_⟩
    refine ⟨by simp [l1], by simp [l2], ?_, ?_, ?_⟩
    · intro d hdn
      rw [length_filter_snoc]
      by_cases hdd : rd csr.edges_list e = d
      · subst hdd
        rw [rd_set_eq _ _ _ (by omega), if_pos hw, hlast]
        omega
      · have : ¬ (is_incoming_slot csr flags d (v, e) = true) := by
          rw [is_incoming_slot_iff]; exact fun h => hdd h.1
        rw [rd_set_ne _ _ _ _ hdd, if_neg this, i1 d hdn]
        rfl
    · show rd (st.1.set _ _) csr.vertices_count = _
      rw [rd_set_ne _ _ _ _ (by omega)]
      exact i2
    · intro d hdn i hi
      rw [length_filter_snoc] at hi
      by_cases hdd : rd csr.edges_list e = d
      · subst hdd
        rw [if_pos hw] at hi
        rw [List.filter_append, List.map_append, List.filter_cons_of_pos hw]
        simp only [List.filter_nil, List.map_cons, List.map_nil]
        by_cases hil : i < ((pre.filter (is_incoming_slot csr flags (rd csr.edges_list e))).map
            Prod.fst).length
        · rw [rd_append_left _ _ _ hil]
          show rd (st.2.set _ _) _ = _
          rw [rd_set_ne _ _ _ _ (by rw [hlast]; omega)]
          exact i3 _ hdn i hil
        · have hie : i = ((pre.filter (is_incoming_slot csr flags (rd csr.edges_list e))).map
              Prod.fst).length := by omega
          rw [rd_append_right _ _ _ (by omega), hie, ← hlast]
          show rd (st.2.set _ _) _ = _
          rw [rd_set_eq _ _ _ (by rw [l2, hlast]; omega)]
          simp [rd]
      · have hnot : ¬ (is_incoming_slot csr flags d (v, e) = true) := by
          rw [is_incoming_slot_iff]; exact fun h => hdd h.1
        rw [if_neg hnot] at hi
        have hpd := hpre d
        rw [if_neg hnot] at hpd
        have hne : rd st.1 (rd csr.edges_list e) ≠ csc_offset csr flags d + i := by
          rw [hlast]
          rcases Nat.lt_or_gt_of_ne hdd with hlt | hgt
          · have := csc_offset_mono csr flags (rd csr.edges_list e + 1) d (by omega)
            omega
          · have := csc_offset_mono csr flags (d + 1) (rd csr.edges_list e) (by omega)
            have := csc_offset_succ csr flags d
            omega
        show rd (st.2.set _ _) _ = _
        rw [rd_set_ne _ _ _ _ hne, List.filter_append, List.filter_cons_of_neg hnot,
          List.filter_nil, List.append_nil]
        exact i3 d hdn i hi
  · -- a self-edge to be removed: nothing is written
    have hrem : v = rd csr.edges_list e ∧ flags &&& 4 ≠ 0 := by
      by_contra hc
      exact hw ((is_incoming_slot_iff csr flags _ v e).2 ⟨rfl, hc⟩)
    have hstep : csr2csc_write_edge csr flags v st e = Except.ok st := by
      unfold csr2csc_write_edge
      rw [if_pos hrem]
    have hnone : ∀ d, ¬ (is_incoming_slot csr flags d (v, e) = true) := by
      intro d hdr
      have := (is_incoming_slot_iff csr flags d v e).1 hdr
      exact this.2 ⟨by rw [hrem.1]; exact this.1, hrem.2⟩
    refine ⟨st, hstep, l1, l2, ?_, i2, ?_⟩
    · intro d hdn
      rw [List.filter_append, List.filter_cons_of_neg (hnone d), List.filter_nil,
        List.append_nil]
      exact i1 d hdn
    · intro d hdn i hi
      rw [List.filter_append, List.filter_cons_of_neg (hnone d), List.filter_nil,
        List.append_nil] at hi ⊢
      exact i3 d hdn i hi

theorem csr2csc_step4_spec (pe : par_env) (partitions : List Nat) (csr : ll_400_graph)
    (flags : Nat) (hwf : well_formed csr)
    (hcover : partitions_cover partitions (pe.threads_count * 64) csr.vertices_count)
    (offs3 : List Nat) (hlen : offs3.length = csr.vertices_count + 1)
    (hoffs : ∀ v, v ≤ csr.vertices_count → rd offs3 v = csc_offset csr flags v) :
    ∃ st, csr2csc_step4 pe partitions csr flags
        (offs3, List.replicate (csc_offset csr flags csr.vertices_count) 0) = Except.ok st ∧
      st.1.length = csr.vertices_count + 1 ∧
      st.2.length = csc_offset csr flags csr.vertices_count ∧
      (∀ d, d < csr.vertices_count → rd st.1 d = csc_offset csr flags (d + 1)) ∧
      rd st.1 csr.vertices_count = csc_offset csr flags csr.vertices_count ∧
      (∀ d, d < csr.vertices_count → ∀ i, i < (csc_sources csr flags d).length →
        rd st.2 (csc_offset csr flags d + i) = rd (csc_sources csr flags d) i) := by
  unfold csr2csc_step4
  rw [for_partition_vertices_eq partitions _ _ hcover]
  have e := foldlM_all_slots csr (fun v s e => csr2csc_write_edge csr flags v s e)
    (offs3, List.replicate (csc_offset csr flags csr.vertices_count) 0)
  have e' : (List.range csr.vertices_count).foldlM (csr2csc_write_vertex csr flags)
      (offs3, List.replicate (csc_offset csr flags csr.vertices_count) 0) =
      (all_slots csr).foldlM (fun s x => csr2csc_write_edge csr flags x.1 s x.2)
        (offs3, List.replicate (csc_offset csr flags csr.vertices_count) 0) := e
  rw [e']
  obtain ⟨st, hst, l1, l2, i1, i2, i3⟩ := foldlM_invariant
    (fun s x => csr2csc_write_edge csr flags x.1 s x.2) (all_slots csr)
    (fun pre st => csc_write_invariant csr flags pre st)
    (offs3, List.replicate (csc_offset csr flags csr.vertices_count) 0)
    ⟨hlen, by simp, fun d hd => by simp [hoffs d (by omega)], hoffs _ (Nat.le_refl _),
      fun d hd i hi => by simp at hi⟩
    (fun pre x rest s hl hI => csc_write_edge_spec csr flags hwf pre rest x hl s hI)
  refine ⟨st, hst, l1, l2, ?_, i2, i3⟩
  intro d hd
  rw [i1 d hd, csc_offset_succ]
  rfl

/-! ## Step 6 of `csr2csc` -/

/-- Two arrays that differ only inside the window `[a, a + k)`, where one is a
rearrangement of the other: a range that contains the window is rearranged, a range that
does not meet it is unchanged. -/
theorem window_perm (l r : List Nat) (a k : Nat)
    (hout : ∀ j, j < a ∨ a + k ≤ j → rd r j = rd l j)
    (hin : ((List.range' a k).map (rd r)).Perm ((List.range' a k).map (rd l))) (b m : Nat) :
    (b ≤ a ∧ a + k ≤ b + m →
      ((List.range' b m).map (rd r)).Perm ((List.range' b m).map (rd l))) ∧
    (b + m ≤ a ∨ a + k ≤ b → (List.range' b m).map (rd r) = (List.range' b m).map (rd l)) := by
  constructor
  · rintro ⟨h1, h2⟩
    have e : List.range' b m =
        List.range' b (a - b) ++ (List.range' a k ++ List.range' (a + k) (b + m - (a + k))) := by
      have s1 := List.range'_append a k (b + m - (a + k)) 1
      simp only [Nat.one_mul] at s1
      rw [s1]
      have s2 := List.range'_append b (a - b) (b + m - (a + k) + k) 1
      simp only [Nat.one_mul] at s2
      have e1 : b + (a - b) = a := by omega
      rw [e1] at s2
      rw [s2]
      congr 1
      omega
    rw [e, List.map_append, List.map_append, List.map_append, List.map_append]
    have o1 : (List.range' b (a - b)).map (rd r) = (List.range' b (a - b)).map (rd l) := by
      apply List.map_congr_left
      intro j hj
      rw [List.mem_range'_1] at hj
      exact hout j (by omega)
    have o2 : (List.range' (a + k) (b + m - (a + k))).map (rd r) =
        (List.range' (a + k) (b + m - (a + k))).map (rd l) := by
      apply List.map_congr_left
      intro j hj
      rw [List.mem_range'_1] at hj
      exact hout j (by omega)
    rw [o1, o2]
    exact List.Perm.append_left _ (List.Perm.append_right _ hin)
  · intro h
    apply List.map_congr_left
    intro j hj
    rw [List.mem_range'_1] at hj
    exact hout j (by omega)

theorem csc_sort_vertex_spec (offs edges : List Nat) (v : Nat)
    (hle : rd offs v ≤ rd offs (v + 1)) (hlen : rd offs (v + 1) ≤ edges.length) :
    (csr2csc_sort_vertex offs edges v).length = edges.length ∧
    ∃ k, k ≤ rd offs (v + 1) - rd offs v ∧
      (∀ j, j < rd offs v ∨ rd offs v + k ≤ j →
        rd (csr2csc_sort_vertex offs edges v) j = rd edges j) ∧
      ((List.range' (rd offs v) k).map (rd (csr2csc_sort_vertex offs edges v))).Perm
        ((List.range' (rd offs v) k).map (rd edges)) ∧
      (rd offs (v + 1) - rd offs v < 2 ^ 32 →
        (edge_slots offs v).map (rd (csr2csc_sort_vertex offs edges v)) =
          ((edge_slots offs v).map (rd edges)).insertionSort (fun a b => a ≤ b)) := by
  unfold csr2csc_sort_vertex
  by_cases hs : (rd offs (v + 1) - rd offs v) % 2 ^ 32 < 2
  · rw [if_pos hs]
    refine ⟨rfl, 0, by omega, fun _ _ => rfl, List.Perm.refl _, ?_⟩
    intro hdeg
    rw [Nat.mod_eq_of_lt hdeg] at hs
    rw [insertionSort_short]
    simpa [edge_slots] using hs
  · rw [if_neg hs]
    have hk : (rd offs (v + 1) - rd offs v) % 2 ^ 32 ≤ rd offs (v + 1) - rd offs v :=
      Nat.mod_le _ _
    generalize hkdef : (rd offs (v + 1) - rd offs v) % 2 ^ 32 = k at hs hk
    unfold quick_sort_uint
    have e1 : k - 1 + 1 - 0 = k := by omega
    have e2 : k - 1 + 1 = k := by omega
    rw [e1, e2]
    simp only [List.take_zero, List.drop_zero, List.nil_append, List.drop_drop, Nat.add_zero]
    have hslice : (List.drop (rd offs v) edges).take k =
        (List.range' (rd offs v) k).map (rd edges) := by
      rw [map_rd_range' edges _ _ (by omega)]
    rw [hslice]
    have hSlen : (((List.range' (rd offs v) k).map (rd edges)).insertionSort
        (fun a b => a ≤ b)).length = k := by
      rw [length_insertionSort', List.length_map, List.length_range']
    have htake : (List.take (rd offs v) edges).length = rd offs v := by
      rw [List.length_take]; omega
    have hout : ∀ j, j < rd offs v ∨ rd offs v + k ≤ j →
        rd (List.take (rd offs v) edges ++
          (((List.range' (rd offs v) k).map (rd edges)).insertionSort (fun a b => a ≤ b) ++
            List.drop (rd offs v + k) edges)) j = rd edges j := by
      intro j hj
      rcases hj with hj | hj
      · rw [rd_append_left _ _ _ (by omega), rd_take _ _ _ hj]
      · rw [rd_append_right _ _ _ (by omega), rd_append_right _ _ _ (by omega), rd_drop, htake,
          hSlen]
        congr 1
        omega
    have hwin : (List.range' (rd offs v) k).map
        (rd (List.take (rd offs v) edges ++
          (((List.range' (rd offs v) k).map (rd edges)).insertionSort (fun a b => a ≤ b) ++
            List.drop (rd offs v + k) edges))) =
        ((List.range' (rd offs v) k).map (rd edges)).insertionSort (fun a b => a ≤ b) := by
      apply ext_rd
      · rw [hSlen, List.length_map, List.length_range']
      · intro i hi
        rw [List.length_map, List.length_range'] at hi
        rw [rd_map_range' _ _ _ _ hi, rd_append_right _ _ _ (by omega), htake,
          rd_append_left _ _ _ (by rw [hSlen]; omega)]
        congr 1
        omega
    refine ⟨?_, k, hk, hout, ?_, ?_⟩
    · simp only [List.length_append, hSlen, htake, List.length_drop]
      omega
    · rw [hwin]
      exact List.perm_insertionSort _ _
    · intro hdeg
      have hkD : k = rd offs (v + 1) - rd offs v := by
        rw [← hkdef, Nat.mod_eq_of_lt hdeg]
      have : edge_slots offs v = List.range' (rd offs v) k := by
        unfold edge_slots
        rw [hkD]
      rw [this]
      exact hwin

theorem csc_sort_range (n : Nat) (offs edges : List Nat)
    (hmono : ∀ v, v < n → rd offs v ≤ rd offs (v + 1))
    (hlen : rd offs n ≤ edges.length) (b : Nat) (hb : b ≤ n) :
    ((List.range b).foldl (csr2csc_sort_vertex offs) edges).length = edges.length ∧
    (∀ d, d < n → ((edge_slots offs d).map
        (rd ((List.range b).foldl (csr2csc_sort_vertex offs) edges))).Perm
      ((edge_slots offs d).map (rd edges))) ∧
    (∀ j, rd offs b ≤ j →
      rd ((List.range b).foldl (csr2csc_sort_vertex offs) edges) j = rd edges j) ∧
    ((∀ v, v < n → rd offs (v + 1) - rd offs v < 2 ^ 32) →
      ∀ d, d < b → (edge_slots offs d).map
          (rd ((List.range b).foldl (csr2csc_sort_vertex offs) edges)) =
        ((edge_slots offs d).map (rd edges)).insertionSort (fun a b => a ≤ b)) := by
  induction b with
  | zero =>
    refine ⟨rfl, fun d _ => List.Perm.refl _, fun _ _ => rfl, ?_⟩
    intro _ d hd
    omega
  | succ b ih =>
    obtain ⟨i1, i2, i3, i4⟩ := ih (by omega)
    rw [List.range_succ, List.foldl_append]
    simp only [List.foldl_cons, List.foldl_nil]
    have hmb := hmono b (by omega)
    have hup := boundaries_mono (fun v => rd offs v) n hmono (b + 1) n (by omega) (Nat.le_refl _)
    dsimp only at hup
    obtain ⟨s1, k, hk, sout, sperm, ssort⟩ := csc_sort_vertex_spec offs
      ((List.range b).foldl (csr2csc_sort_vertex offs) edges) b hmb (by rw [i1]; omega)
    have hwin := window_perm ((List.range b).foldl (csr2csc_sort_vertex offs) edges)
      (csr2csc_sort_vertex offs ((List.range b).foldl (csr2csc_sort_vertex offs) edges) b)
      (rd offs b) k sout sperm
    have hseg : (edge_slots offs b).map
        (rd ((List.range b).foldl (csr2csc_sort_vertex offs) edges)) =
        (edge_slots offs b).map (rd edges) := by
      apply List.map_congr_left
      intro j hj
      rw [mem_edge_slots] at hj
      exact i3 j hj.1
    refine ⟨by rw [s1, i1], ?_, ?_, ?_⟩
    · intro d hd
      rcases Nat.lt_trichotomy d b with hlt | heq | hgt
      · have hle := boundaries_mono (fun v => rd offs v) n hmono (d + 1) b (by omega) (by omega)
        dsimp only at hle
        have hmd := hmono d hd
        have := (hwin (rd offs d) (rd offs (d + 1) - rd offs d)).2 (by left; omega)
        unfold edge_slots
        rw [this]
        exact i2 d hd
      · subst heq
        have := (hwin (rd offs d) (rd offs (d + 1) - rd offs d)).1 ⟨Nat.le_refl _, by omega⟩
        exact List.Perm.trans this (i2 d hd)
      · have hle := boundaries_mono (fun v => rd offs v) n hmono (b + 1) d (by omega) (by omega)
        dsimp only at hle
        have := (hwin (rd offs d) (rd offs (d + 1) - rd offs d)).2 (by right; omega)
        unfold edge_slots
        rw [this]
        exact i2 d hd
    · intro j hj
      rw [sout j (by omega)]
      exact i3 j (by omega)
    · intro hdeg d hd
      by_cases hdb : d = b
      · subst hdb
        rw [ssort (hdeg d (by omega)), hseg]
      · have hle := boundaries_mono (fun v => rd offs v) n hmono (d + 1) b (by omega) (by omega)
        dsimp only at hle
        have hmd := hmono d (by omega)
        have := (hwin (rd offs d) (rd offs (d + 1) - rd offs d)).2 (by left; omega)
        unfold edge_slots
        rw [this]
        exact i4 hdeg d (by omega)

theorem csr2csc_sort_spec (pe : par_env) (csc_partitions : List Nat) (n : Nat)
    (hcover : partitions_cover csc_partitions (pe.threads_count * 64) n)
    (offs edges : List Nat) (hmono : ∀ v, v < n → rd offs v ≤ rd offs (v + 1))
    (hlen : rd offs n ≤ edges.length) :
    (csr2csc_sort pe csc_partitions offs edges).length = edges.length ∧
    (∀ d, d < n → ((edge_slots offs d).map
        (rd (csr2csc_sort pe csc_partitions offs edges))).Perm
      ((edge_slots offs d).map (rd edges))) ∧
    ((∀ v, v < n → rd offs (v + 1) - rd offs v < 2 ^ 32) →
      ∀ d, d < n → (edge_slots offs d).map (rd (csr2csc_sort pe csc_partitions offs edges)) =
        ((edge_slots offs d).map (rd edges)).insertionSort (fun a b => a ≤ b)) := by
  unfold csr2csc_sort
  rw [each_partition_vertex_eq csc_partitions _ n hcover]
  obtain ⟨a1, a2, _, a4⟩ := csc_sort_range n offs edges hmono hlen n (Nat.le_refl _)
  exact ⟨a1, a2, a4⟩

/-! ## The steps of `csr2csc` together -/

theorem rd_csc_offsets (csr : ll_400_graph) (flags v : Nat) (hv : v ≤ csr.vertices_count) :
    rd (csc_offsets csr flags) v = csc_offset csr flags v := by
  unfold csc_offsets
  rw [List.range_eq_range', rd_map_range' _ _ _ _ (by omega)]
  congr 1
  omega

theorem eq_csc_offsets (csr : ll_400_graph) (flags : Nat) (offs : List Nat)
    (hlen : offs.length = csr.vertices_count + 1)
    (h : ∀ v, v ≤ csr.vertices_count → rd offs v = csc_offset csr flags v) :
    offs = csc_offsets csr flags := by
  apply ext_rd
  · rw [hlen]
    simp [csc_offsets]
  · intro i hi
    rw [hlen] at hi
    rw [h i (by omega), rd_csc_offsets csr flags i (by omega)]

/-- The function `csr2csc` on a well-formed graph: the offsets are those of the
transposed graph, and steps 4 to 6 fill the list of every vertex `d` with the sources of
the kept edges into `d`. -/
theorem csr2csc_eq (pe : par_env) (partitions csc_partitions : List Nat) (csr : ll_400_graph)
    (flags : Nat) (hwf : well_formed csr)
    (hcover : partitions_cover partitions (pe.threads_count * 64) csr.vertices_count) :
    ∃ written : List Nat,
      written.length = csc_offset csr flags csr.vertices_count ∧
      (∀ d, d < csr.vertices_count →
        (edge_slots (csc_offsets csr flags) d).map (rd written) = csc_sources csr flags d) ∧
      csr2csc pe partitions csc_partitions csr flags =
        if flags &&& 8 ≠ 0 then
          Except.ok
            { vertices_count := csr.vertices_count,
              edges_count := csc_offset csr flags csr.vertices_count,
              offsets_list := csc_offsets csr flags,
              edges_list := none }
        else
          match (if flags &&& 1 ≠ 0 then
              csr2csc_validate pe partitions csc_partitions csr
                (csc_offset csr flags csr.vertices_count) (csc_offsets csr flags)
                (if flags &&& 2 ≠ 0 then
                  csr2csc_sort pe csc_partitions (csc_offsets csr flags) written
                else written) flags
            else Except.ok ()) with
          | Except.error msg => Except.error msg
          | Except.ok _ =>
            Except.ok
              { vertices_count := csr.vertices_count,
                edges_count := csc_offset csr flags csr.vertices_count,
                offsets_list := csc_offsets csr flags,
                edges_list :=
                  some (if flags &&& 2 ≠ 0 then
                    csr2csc_sort pe csc_partitions (csc_offsets csr flags) written
                  else written) } := by
  obtain ⟨d1, d2⟩ := csr2csc_step1_spec pe partitions csr flags hwf hcover
  obtain ⟨s1, s2⟩ := csr2csc_step2_spec pe partitions csr flags _ hcover d2
  have hsums : csr2csc_step2 pe partitions (csr2csc_step1 pe partitions csr flags) =
      ((csr2csc_step2 pe partitions (csr2csc_step1 pe partitions csr flags)).1,
        csc_offset csr flags csr.vertices_count) := by
    rw [← s1]
  obtain ⟨offs3, h3, l3, o3⟩ := csr2csc_step3_spec pe partitions csr.vertices_count hcover
    (csc_offset csr flags) (fun d => (csc_sources csr flags d).length)
    (csc_offset_succ csr flags) _ s2
    ((csr2csc_step1 pe partitions csr flags).set csr.vertices_count
      (csc_offset csr flags csr.vertices_count))
    (by rw [List.length_set, d1])
    (fun v hv => by rw [rd_set_ne _ _ _ _ (by omega), d2 v])
    (by rw [rd_set_eq _ _ _ (by omega)])
  have e3 := eq_csc_offsets csr flags offs3 l3 o3
  rw [e3] at h3
  obtain ⟨st, h4, l4, m4, c4, n4, w4⟩ := csr2csc_step4_spec pe partitions csr flags hwf hcover
    (csc_offsets csr flags) (by simp [csc_offsets])
    (fun v hv => rd_csc_offsets csr flags v hv)
  obtain ⟨offs5, h5, l5, o5⟩ := csr2csc_step5_spec pe partitions csr.vertices_count hcover
    (csc_offset csr flags) _ s2 st.1 l4 c4 n4
  have e5 := eq_csc_offsets csr flags offs5 l5 o5
  rw [e5] at h5
  refine ⟨st.2, m4, ?_, ?_⟩
  · intro d hd
    apply ext_rd
    · rw [List.length_map, length_edge_slots, rd_csc_offsets csr flags _ (by omega),
        rd_csc_offsets csr flags _ (by omega), csc_offset_succ]
      omega
    · intro i hi
      rw [List.length_map, length_edge_slots, rd_csc_offsets csr flags _ (by omega),
        rd_csc_offsets csr flags _ (by omega), csc_offset_succ] at hi
      have : edge_slots (csc_offsets csr flags) d =
          List.range' (rd (csc_offsets csr flags) d)
            (rd (csc_offsets csr flags) (d + 1) - rd (csc_offsets csr flags) d) := rfl
      rw [this, rd_map_range' _ _ _ _ (by
        rw [rd_csc_offsets csr flags _ (by omega), rd_csc_offsets csr flags _ (by omega),
          csc_offset_succ]
        omega), rd_csc_offsets csr flags _ (by omega)]
      exact w4 d hd i (by omega)
  · unfold csr2csc
    rw [hsums]
    dsimp only
    rw [h3]
    dsimp only
    by_cases h8 : flags &&& 8 ≠ 0
    · rw [if_pos h8, if_pos h8]
    · rw [if_neg h8, if_neg h8]
      unfold csr2csc_edges
      dsimp only
      rw [h4]
      dsimp only
      rw [h5]
      dsimp only
      generalize (if flags &&& 1 ≠ 0 then
        csr2csc_validate pe partitions csc_partitions csr
          (csc_offset csr flags csr.vertices_count) (csc_offsets csr flags)
          (if flags &&& 2 ≠ 0 then csr2csc_sort pe csc_partitions (csc_offsets csr flags) st.2
            else st.2) flags
        else Except.ok ()) = r
      cases r <;> rfl

/-! ## The neighbour-lists of the transposed graph -/

theorem mem_csc_sources (csr : ll_400_graph) (flags d s : Nat) :
    s ∈ csc_sources csr flags d ↔
      s < csr.vertices_count ∧ d ∈ neighbour_list csr s ∧ ¬ (s = d ∧ flags &&& 4 ≠ 0) := by
  unfold csc_sources
  simp only [List.mem_map, List.mem_filter, Prod.exists, exists_and_right, exists_eq_right,
    is_incoming_slot_iff, mem_all_slots, mem_neighbour_list]
  constructor
  · rintro ⟨e, ⟨hs, h1, h2⟩, h3, h4⟩
    exact ⟨hs, ⟨e, h1, h2, h3⟩, h4⟩
  · rintro ⟨hs, ⟨e, h1, h2, h3⟩, h4⟩
    exact ⟨e, ⟨hs, h1, h2⟩, h3, h4⟩

theorem csc_sources_nodup (csr : ll_400_graph) (hwf : well_formed csr)
    (hsorted : sorted_neighbour_lists csr) (flags d : Nat) : (csc_sources csr flags d).Nodup := by
  unfold csc_sources
  apply List.Nodup.map_on
  · rintro ⟨s, e⟩ hx ⟨s', e'⟩ hy hfst
    simp only at hfst
    subst hfst
    rw [List.mem_filter, is_incoming_slot_iff] at hx hy
    obtain ⟨hx1, hx2, _⟩ := hx
    obtain ⟨hy1, hy2, _⟩ := hy
    rw [mem_all_slots] at hx1 hy1
    have hs := hsorted s hx1.1
    congr 1
    by_contra hne
    rcases Nat.lt_or_gt_of_ne hne with hlt | hlt
    · have := sorted_pointwise csr s hs e e' hx1.2.1 hlt hy1.2.2
      omega
    · have := sorted_pointwise csr s hs e' e hy1.2.1 hlt hx1.2.2
      omega
  · exact (all_slots_nodup csr hwf).filter _

theorem length_csc_sources_le (csr : ll_400_graph) (hwf : well_formed csr)
    (hsorted : sorted_neighbour_lists csr) (flags d : Nat) :
    (csc_sources csr flags d).length ≤ csr.vertices_count := by
  have hsub : csc_sources csr flags d ⊆ List.range csr.vertices_count := by
    intro x hx
    rw [List.mem_range]
    exact ((mem_csc_sources csr flags d x).1 hx).1
  have := (List.subperm_of_subset (csc_sources_nodup csr hwf hsorted flags d) hsub).length_le
  simpa using this

theorem count_incoming_slots (csr : ll_400_graph) (flags d s v : Nat) (l : List Nat) :
    List.count s (((l.map (fun e => (v, e))).filter (is_incoming_slot csr flags d)).map Prod.fst) =
      if v = s then
        (if s = d ∧ flags &&& 4 ≠ 0 then 0 else List.count d (l.map (rd csr.edges_list)))
      else 0 := by
  induction l with
  | nil => simp
  | cons e t ih =>
    rw [List.map_cons, List.map_cons, List.count_cons]
    by_cases hin : is_incoming_slot csr flags d (v, e) = true
    · rw [List.filter_cons_of_pos hin, List.map_cons, List.count_cons, ih]
      rw [is_incoming_slot_iff] at hin
      by_cases hv : v = s
      · subst hv
        rw [if_pos rfl, if_pos rfl, if_neg hin.2, if_neg hin.2]
        simp [hin.1]
      · rw [if_neg hv, if_neg hv]
        simp [hv]
    · rw [List.filter_cons_of_neg hin, ih]
      rw [is_incoming_slot_iff] at hin
      by_cases hv : v = s
      · subst hv
        rw [if_pos rfl, if_pos rfl]
        by_cases hself : v = d ∧ flags &&& 4 ≠ 0
        · rw [if_pos hself, if_pos hself]
        · rw [if_neg hself, if_neg hself]
          have : rd csr.edges_list e ≠ d := fun h => hin ⟨h, hself⟩
          simp [this]
      · rw [if_neg hv, if_neg hv]

theorem count_flatMap_slots (csr : ll_400_graph) (flags d s : Nat) (vs : List Nat) :
    List.count s (((vs.flatMap (fun v => (edge_slots csr.offsets_list v).map
        (fun e => (v, e)))).filter (is_incoming_slot csr flags d)).map Prod.fst) =
      List.count s vs *
        (if s = d ∧ flags &&& 4 ≠ 0 then 0 else List.count d (neighbour_list csr s)) := by
  induction vs with
  | nil => simp
  | cons v t ih =>
    rw [List.flatMap_cons, List.filter_append, List.map_append, List.count_append, ih,
      count_incoming_slots, List.count_cons]
    by_cases hv : v = s
    · subst hv
      rw [if_pos rfl]
      simp only [beq_self_eq_true, if_true]
      unfold neighbour_list
      ring
    · rw [if_neg hv]
      have : (v == s) = false := by simpa using hv
      rw [this]
      simp

/-- The source `s` occurs in the list of `d` of the transposed graph as often as `d`
occurs in the list of `s` of the input, the self-edges apart when bit 2 is set. -/
theorem count_csc_sources (csr : ll_400_graph) (flags d s : Nat) (hs : s < csr.vertices_count) :
    List.count s (csc_sources csr flags d) =
      if s = d ∧ flags &&& 4 ≠ 0 then 0 else List.count d (neighbour_list csr s) := by
  unfold csc_sources all_slots
  rw [count_flatMap_slots, List.count_eq_one_of_mem (List.nodup_range _) (List.mem_range.2 hs)]
  omega

theorem sum_incoming (csr : ll_400_graph) (flags n : Nat) (l : List (Nat × Nat))
    (h : ∀ x, x ∈ l → rd csr.edges_list x.2 < n) :
    ((List.range n).map (fun d => (l.filter (is_incoming_slot csr flags d)).length)).sum +
        (if flags &&& 4 ≠ 0 then (l.filter (is_self_slot csr)).length else 0) = l.length := by
  induction l with
  | nil => simp
  | cons x t ih =>
    have iht := ih (fun y hy => h y (List.mem_cons_of_mem _ hy))
    have hx := h x (List.mem_cons_self _ _)
    have hsplit : ∀ d, ((x :: t).filter (is_incoming_slot csr flags d)).length =
        (if rd csr.edges_list x.2 = d then
          (if x.1 = rd csr.edges_list x.2 ∧ flags &&& 4 ≠ 0 then 0 else 1) else 0) +
          (t.filter (is_incoming_slot csr flags d)).length := by
      intro d
      by_cases hin : is_incoming_slot csr flags d x = true
      · rw [List.filter_cons_of_pos hin, List.length_cons]
        have hin2 := (is_incoming_slot_iff csr flags d x.1 x.2).1 hin
        rw [if_pos hin2.1, if_neg (by rw [hin2.1]; exact hin2.2)]
        omega
      · rw [List.filter_cons_of_neg hin]
        have hin2 : ¬ (rd csr.edges_list x.2 = d ∧ ¬ (x.1 = d ∧ flags &&& 4 ≠ 0)) :=
          fun hh => hin ((is_incoming_slot_iff csr flags d x.1 x.2).2 hh)
        by_cases hd : rd csr.edges_list x.2 = d
        · rw [if_pos hd, if_pos (by
            rw [hd]
            by_contra hc
            exact hin2 ⟨hd, hc⟩)]
          omega
        · rw [if_neg hd]
          omega
    simp only [hsplit]
    rw [list_sum_range_eq, Finset.sum_add_distrib, Finset.sum_ite_eq,
      if_pos (Finset.mem_range.2 hx), ← list_sum_range_eq, List.length_cons]
    by_cases hself : is_self_slot csr x = true
    · rw [List.filter_cons_of_pos hself, List.length_cons]
      have hs2 : rd csr.edges_list x.2 = x.1 := by
        simpa [is_self_slot] using hself
      by_cases hf : flags &&& 4 ≠ 0
      · rw [if_pos hf] at iht ⊢
        rw [if_pos ⟨hs2.symm, hf⟩]
        omega
      · rw [if_neg hf] at iht ⊢
        rw [if_neg (fun hh => hf hh.2)]
        omega
    · rw [List.filter_cons_of_neg hself]
      have hs2 : ¬ rd csr.edges_list x.2 = x.1 := by
        simpa [is_self_slot] using hself
      rw [if_neg (fun hh => hs2 hh.1.symm)]
      omega

/-- The transposed graph has the edges of the input but the removed self-edges. -/
theorem csc_offset_total (csr : ll_400_graph) (hwf : well_formed csr) (flags : Nat) :
    csc_offset csr flags csr.vertices_count + removed_self_edges csr flags = csr.edges_count := by
  have h := sum_incoming csr flags csr.vertices_count (all_slots csr)
    (fun x hx => slot_dest_lt csr hwf x.1 x.2 hx)
  have hl : (all_slots csr).length = csr.edges_count := by
    rw [← List.length_map (all_slots csr) Prod.snd, map_snd_all_slots csr hwf, List.length_range]
  rw [hl] at h
  unfold csc_offset removed_self_edges csc_sources
  simp only [List.length_map]
  exact h

theorem or_eight_and_four (flags : Nat) : (flags ||| 8) &&& 4 = flags &&& 4 := by
  apply Nat.eq_of_testBit_eq
  intro i
  rw [Nat.testBit_and, Nat.testBit_and, Nat.testBit_or]
  have h8 : (8 : Nat) = 2 ^ 3 := rfl
  have h4 : (4 : Nat) = 2 ^ 2 := rfl
  rw [h8, h4, Nat.testBit_two_pow, Nat.testBit_two_pow]
  by_cases h : 2 = i
  · subst h
    simp
  · simp [h]

theorem csc_sources_or_eight (csr : ll_400_graph) (flags d : Nat) :
    csc_sources csr (flags ||| 8) d = csc_sources csr flags d := by
  unfold csc_sources is_incoming_slot
  rw [or_eight_and_four]

theorem csc_offset_or_eight (csr : ll_400_graph) (flags v : Nat) :
    csc_offset csr (flags ||| 8) v = csc_offset csr flags v := by
  unfold csc_offset
  simp only [csc_sources_or_eight]

theorem or_eight_and_eight (flags : Nat) : (flags ||| 8) &&& 8 ≠ 0 := by
  intro h
  have h1 : ((flags ||| 8) &&& 8).testBit 3 = true := by
    rw [Nat.testBit_and, Nat.testBit_or]
    have h8 : (8 : Nat) = 2 ^ 3 := rfl
    rw [h8, Nat.testBit_two_pow]
    simp
  rw [h] at h1
  simp at h1

/-! ## The validation block of `csr2csc` -/

theorem csc_sorted_segment (csr : ll_400_graph) (hwf : well_formed csr)
    (hsorted : sorted_neighbour_lists csr) (flags d : Nat) :
    ((csc_sources csr flags d).insertionSort (fun a b => a ≤ b)).Pairwise
      (fun a b => a < b) := by
  have h1 : ((csc_sources csr flags d).insertionSort (fun a b => a ≤ b)).Sorted
      (fun a b => a ≤ b) := List.sorted_insertionSort _ _
  have h2 : ((csc_sources csr flags d).insertionSort (fun a b => a ≤ b)).Nodup :=
    (List.perm_insertionSort _ _).nodup_iff.2 (csc_sources_nodup csr hwf hsorted flags d)
  exact h1.lt_of_le h2

/-- The validation block passes on the transposed graph of a sorted input whose lists
have been sorted. -/
theorem csr2csc_validate_spec (pe : par_env) (partitions csc_partitions : List Nat)
    (csr : ll_400_graph) (flags : Nat) (hwf : well_formed csr)
    (hsorted : sorted_neighbour_lists csr)
    (hcover : partitions_cover partitions (pe.threads_count * 64) csr.vertices_count)
    (hcover2 : partitions_cover csc_partitions (pe.threads_count * 64) csr.vertices_count)
    (hf : flags &&& 2 ≠ 0) (edges : List Nat)
    (hnl : ∀ d, d < csr.vertices_count →
      (edge_slots (csc_offsets csr flags) d).map (rd edges) =
        (csc_sources csr flags d).insertionSort (fun a b => a ≤ b)) :
    csr2csc_validate pe partitions csc_partitions csr
      (csc_offset csr flags csr.vertices_count) (csc_offsets csr flags) edges flags =
        Except.ok () := by
  have hout : ∀ d, d < csr.vertices_count →
      neighbour_list
        { vertices_count := csr.vertices_count,
          edges_count := csc_offset csr flags csr.vertices_count,
          offsets_list := csc_offsets csr flags,
          edges_list := edges } d =
        (csc_sources csr flags d).insertionSort (fun a b => a ≤ b) := hnl
  have hmem : ∀ d s, d < csr.vertices_count →
      (s ∈ (edge_slots (csc_offsets csr flags) d).map (rd edges) ↔
        s < csr.vertices_count ∧ d ∈ neighbour_list csr s ∧ ¬ (s = d ∧ flags &&& 4 ≠ 0)) := by
    intro d s hd
    rw [hnl d hd, (List.perm_insertionSort _ _).mem_iff, mem_csc_sources]
  have hv0 : for_partition_vertices partitions (pe.threads_count * 64)
      (csr2csc_check_sorted_vertex csr) () = Except.ok () := by
    rw [for_partition_vertices_eq partitions _ _ hcover]
    apply foldlM_unit_ok
    intro v hv
    rw [List.mem_range] at hv
    unfold csr2csc_check_sorted_vertex
    apply foldlM_unit_ok
    intro e he
    rw [mem_edge_slots] at he
    unfold csr2csc_check_sorted_edge
    rw [if_neg]
    rintro ⟨h1, h2⟩
    have := sorted_pointwise csr v (hsorted v hv) e (e + 1) he.1 (by omega) (by omega)
    omega
  have hv1 : for_partition_vertices csc_partitions (pe.threads_count * 64)
      (csr2csc_validate1_vertex csr (csc_offsets csr flags) edges flags) () = Except.ok () := by
    rw [for_partition_vertices_eq csc_partitions _ _ hcover2]
    apply foldlM_unit_ok
    intro v hv
    rw [List.mem_range] at hv
    unfold csr2csc_validate1_vertex
    rw [if_neg (by
      rw [rd_csc_offsets csr flags _ (by omega), rd_csc_offsets csr flags _ (by omega),
        csc_offset_succ]
      omega)]
    apply foldlM_unit_ok
    intro e he
    have hsrc : rd edges e ∈ (edge_slots (csc_offsets csr flags) v).map (rd edges) :=
      List.mem_map_of_mem _ he
    rw [hmem v _ hv] at hsrc
    unfold csr2csc_validate1_edge
    rw [if_neg (fun h => hsrc.2.2 ⟨h.2, h.1⟩)]
    have hb := (uint_binary_search_isSome csr (rd edges e) v (hsorted _ hsrc.1)).2 hsrc.2.1
    rw [Option.isSome_iff_exists] at hb
    obtain ⟨i, hi⟩ := hb
    rw [hi]
    rfl
  have hv2 : for_partition_vertices partitions (pe.threads_count * 64)
      (csr2csc_validate2_vertex csr (csc_offsets csr flags) edges flags) () = Except.ok () := by
    rw [for_partition_vertices_eq partitions _ _ hcover]
    apply foldlM_unit_ok
    intro v hv
    rw [List.mem_range] at hv
    unfold csr2csc_validate2_vertex
    apply foldlM_unit_ok
    intro e he
    have hdest : rd csr.edges_list e ∈ neighbour_list csr v := List.mem_map_of_mem _ he
    have hdn := mem_neighbour_list_lt csr hwf v _ hv hdest
    unfold csr2csc_validate2_edge
    by_cases h1 : flags &&& 4 ≠ 0 ∧ v = rd csr.edges_list e
    · rw [if_pos h1]
    · rw [if_neg h1]
      have hs1 := csc_sorted_segment csr hwf hsorted flags (rd csr.edges_list e)
      rw [← hout _ hdn] at hs1
      have hb := (uint_binary_search_isSome _ (rd csr.edges_list e) v hs1).2 (by
        show v ∈ (edge_slots (csc_offsets csr flags) (rd csr.edges_list e)).map (rd edges)
        rw [hmem _ _ hdn]
        exact ⟨hv, hdest, fun h => h1 ⟨h.2, h.1⟩⟩)
      rw [Option.isSome_iff_exists] at hb
      obtain ⟨i, hi⟩ := hb
      dsimp only at hi
      rw [hi]
      rfl
  have htot := csc_offset_total csr hwf flags
  unfold csr2csc_validate
  rw [if_neg (by rw [rd_csc_offsets csr flags 0 (by omega)]; simp [csc_offset]),
    if_neg (by rw [rd_csc_offsets csr flags _ (Nat.le_refl _)]; simp),
    if_neg (by omega), hv0]
  dsimp only
  rw [hv1]
  dsimp only
  rw [if_neg hf, hv2]

/-- Without bit 1 (sort) the validation block stops at one of its assertions. -/
theorem csr2csc_validate_unsorted (pe : par_env) (partitions csc_partitions : List Nat)
    (csr : ll_400_graph) (flags : Nat) (hf : flags &&& 2 = 0) (ec : Nat)
    (offs edges : List Nat) :
    ∃ msg, csr2csc_validate pe partitions csc_partitions csr ec offs edges flags =
      Except.error msg := by
  unfold csr2csc_validate
  split
  · exact ⟨_, rfl⟩
  · split
    · exact ⟨_, rfl⟩
    · split
      · exact ⟨_, rfl⟩
      · split
        · exact ⟨_, rfl⟩
        · split
          · exact ⟨_, rfl⟩
          · exact ⟨_, rfl⟩

/-- What `csr2csc` returns. -/
theorem csr2csc_facts (pe : par_env) (partitions csc_partitions : List Nat) (csr : ll_400_graph)
    (flags : Nat) (hwf : well_formed csr)
    (hcover : partitions_cover partitions (pe.threads_count * 64) csr.vertices_count)
    (hcover2 : partitions_cover csc_partitions (pe.threads_count * 64) csr.vertices_count)
    (out : ll_400_graph_ptr)
    (h : csr2csc pe partitions csc_partitions csr flags = Except.ok out) :
    out.vertices_count = csr.vertices_count ∧
    out.edges_count = csc_offset csr flags csr.vertices_count ∧
    out.offsets_list = csc_offsets csr flags ∧
    (flags &&& 8 ≠ 0 → out.edges_list = none) ∧
    (flags &&& 8 = 0 → ∃ edges, out.edges_list = some edges ∧
      edges.length = out.edges_count ∧
      ∀ d, d < csr.vertices_count →
        ((edge_slots out.offsets_list d).map (rd edges)).Perm (csc_sources csr flags d)) := by
  obtain ⟨written, hlen, hseg, heq⟩ := csr2csc_eq pe partitions csc_partitions csr flags hwf hcover
  rw [heq] at h
  by_cases h8 : flags &&& 8 ≠ 0
  · rw [if_pos h8] at h
    injection h with h
    subst h
    exact ⟨rfl, rfl, rfl, fun _ => rfl, fun hh => absurd hh h8⟩
  · rw [if_neg h8] at h
    generalize (if flags &&& 1 ≠ 0 then
        csr2csc_validate pe partitions csc_partitions csr
          (csc_offset csr flags csr.vertices_count) (csc_offsets csr flags)
          (if flags &&& 2 ≠ 0 then csr2csc_sort pe csc_partitions (csc_offsets csr flags) written
            else written) flags
        else Except.ok ()) = r at h
    cases r with
    | error msg => exact absurd h (by simp)
    | ok u =>
      dsimp only at h
      injection h with h
      subst h
      refine ⟨rfl, rfl, rfl, fun hh => absurd hh h8, fun _ => ⟨_, rfl, ?_, ?_⟩⟩
      · dsimp only
        by_cases hf : flags &&& 2 ≠ 0
        · rw [if_pos hf]
          rw [(csr2csc_sort_spec pe csc_partitions csr.vertices_count hcover2
            (csc_offsets csr flags) written (fun v hv => by
              rw [rd_csc_offsets csr flags _ (by omega), rd_csc_offsets csr flags _ (by omega)]
              exact csc_offset_mono csr flags _ _ (by omega))
            (by rw [rd_csc_offsets csr flags _ (Nat.le_refl _), hlen])).1, hlen]
        · rw [if_neg hf, hlen]
      · intro d hd
        dsimp only
        by_cases hf : flags &&& 2 ≠ 0
        · rw [if_pos hf, ← hseg d hd]
          exact (csr2csc_sort_spec pe csc_partitions csr.vertices_count hcover2
            (csc_offsets csr flags) written (fun v hv => by
              rw [rd_csc_offsets csr flags _ (by omega), rd_csc_offsets csr flags _ (by omega)]
              exact csc_offset_mono csr flags _ _ (by omega))
            (by rw [rd_csc_offsets csr flags _ (Nat.le_refl _), hlen])).2.1 d hd
        · rw [if_neg hf, hseg d hd]

/-- When `csr2csc` returns a graph: always with bit 3 (only offsets) or without bit 0
(validate); with bit 0, when the input lists are strictly increasing and bit 1 (sort) is
set. -/
theorem csr2csc_returns (pe : par_env) (partitions csc_partitions : List Nat)
    (csr : ll_400_graph) (flags : Nat) (hwf : well_formed csr)
    (hcover : partitions_cover partitions (pe.threads_count * 64) csr.vertices_count)
    (hcover2 : partitions_cover csc_partitions (pe.threads_count * 64) csr.vertices_count)
    (hflags : flags &&& 8 ≠ 0 ∨ flags &&& 1 = 0 ∨
      (flags &&& 2 ≠ 0 ∧ sorted_neighbour_lists csr)) :
    ∃ out, csr2csc pe partitions csc_partitions csr flags = Except.ok out := by
  obtain ⟨written, hlen, hseg, heq⟩ := csr2csc_eq pe partitions csc_partitions csr flags hwf hcover
  rw [heq]
  by_cases h8 : flags &&& 8 ≠ 0
  · rw [if_pos h8]
    exact ⟨_, rfl⟩
  · rw [if_neg h8]
    by_cases h1 : flags &&& 1 ≠ 0
    · rw [if_pos h1]
      rcases hflags with hh | hh | ⟨hf, hsorted⟩
      · exact absurd hh h8
      · exact absurd hh h1
      · rw [if_pos hf]
        rw [csr2csc_validate_spec pe partitions csc_partitions csr flags hwf hsorted hcover
          hcover2 hf _ (fun d hd => by
            rw [(csr2csc_sort_spec pe csc_partitions csr.vertices_count hcover2
              (csc_offsets csr flags) written (fun v hv => by
                rw [rd_csc_offsets csr flags _ (by omega),
                  rd_csc_offsets csr flags _ (by omega)]
                exact csc_offset_mono csr flags _ _ (by omega))
              (by rw [rd_csc_offsets csr flags _ (Nat.le_refl _), hlen])).2.2 (fun v hv => by
                rw [rd_csc_offsets csr flags _ (by omega),
                  rd_csc_offsets csr flags _ (by omega), csc_offset_succ]
                have := length_csc_sources_le csr hwf hsorted flags v
                have := hwf.2.2.2.2.2.2
                omega) d hd, hseg d hd])]
        exact ⟨_, rfl⟩
    · rw [if_neg h1]
      exact ⟨_, rfl⟩

/-! ## Claims on `csr2csc` -/

/-- C19: `csr2csc` transposes the graph with multiplicities.  For every well-formed CSR
input, in a graph returned with its `edges_list` the number of occurrences of `s` in the
neighbour-list of `d` equals the number of occurrences of `d` in the input neighbour-list
of `s`, except that self-edges (`s = d`) are dropped when bit 2 of `flags` is set; the
output `edges_count` is the input `edges_count` minus the removed self-edges, hence at
most the input `edges_count`.  The call returns a graph with bit 3 set, or bit 0 unset, or
bit 1 set and a sorted input. -/
theorem csr2csc_transposes (pe : par_env) (partitions csc_partitions : List Nat)
    (csr : ll_400_graph) (flags : Nat) (hwf : well_formed csr)
    (hcover : partitions_cover partitions (pe.threads_count * 64) csr.vertices_count)
    (hcover2 : partitions_cover csc_partitions (pe.threads_count * 64) csr.vertices_count) :
    ((flags &&& 8 ≠ 0 ∨ flags &&& 1 = 0 ∨ (flags &&& 2 ≠ 0 ∧ sorted_neighbour_lists csr)) →
      ∃ out, csr2csc pe partitions csc_partitions csr flags = Except.ok out) ∧
    ∀ out, csr2csc pe partitions csc_partitions csr flags = Except.ok out →
      out.vertices_count = csr.vertices_count ∧
      out.edges_count = csr.edges_count - removed_self_edges csr flags ∧
      removed_self_edges csr flags ≤ csr.edges_count ∧
      out.edges_count ≤ csr.edges_count ∧
      (flags &&& 8 = 0 → ∃ edges, out.edges_list = some edges ∧
        ∀ s d, s < csr.vertices_count → d < csr.vertices_count →
          List.count s ((edge_slots out.offsets_list d).map (rd edges)) =
            if s = d ∧ flags &&& 4 ≠ 0 then 0 else List.count d (neighbour_list csr s)) := by
  refine ⟨csr2csc_returns pe partitions csc_partitions csr flags hwf hcover hcover2, ?_⟩
  intro out h
  obtain ⟨f1, f2, _, _, f5⟩ :=
    csr2csc_facts pe partitions csc_partitions csr flags hwf hcover hcover2 out h
  have htot := csc_offset_total csr hwf flags
  refine ⟨f1, by omega, by omega, by omega, ?_⟩
  intro h8
  obtain ⟨edges, e1, _, e3⟩ := f5 h8
  refine ⟨edges, e1, ?_⟩
  intro s d hs hd
  rw [(e3 d hd).count_eq, count_csc_sources csr flags d s hs]

theorem csr2csc_transposes_witness :
    well_formed sample_csr ∧
    partitions_cover sample_partitions (sample_pe.threads_count * 64) sample_csr.vertices_count ∧
    (((((6 : Nat) &&& 8 ≠ 0 ∨ (6 : Nat) &&& 1 = 0 ∨
        ((6 : Nat) &&& 2 ≠ 0 ∧ sorted_neighbour_lists sample_csr)) →
      ∃ out, csr2csc sample_pe sample_partitions sample_partitions sample_csr 6 =
        Except.ok out)) ∧
    ∀ out, csr2csc sample_pe sample_partitions sample_partitions sample_csr 6 =
        Except.ok out →
      out.vertices_count = sample_csr.vertices_count ∧
      out.edges_count = sample_csr.edges_count - removed_self_edges sample_csr 6 ∧
      removed_self_edges sample_csr 6 ≤ sample_csr.edges_count ∧
      out.edges_count ≤ sample_csr.edges_count ∧
      ((6 : Nat) &&& 8 = 0 → ∃ edges, out.edges_list = some edges ∧
        ∀ s d, s < sample_csr.vertices_count → d < sample_csr.vertices_count →
          List.count s ((edge_slots out.offsets_list d).map (rd edges)) =
            if s = d ∧ (6 : Nat) &&& 4 ≠ 0 then 0
            else List.count d (neighbour_list sample_csr s))) :=
  ⟨by decide, by decide,
    csr2csc_transposes sample_pe sample_partitions sample_partitions sample_csr 6 (by decide)
      (by decide) (by decide)⟩

/-- C20: with bit 3 of `flags` (value 8) `csr2csc` creates only the offsets.  For every
well-formed CSR input the call with bit 3 returns a graph whose `edges_list` is NULL, and
its `vertices_count`, `edges_count` and whole `offsets_list` are equal to those of the graph
returned by the same call without bit 3, which has an `edges_list`: steps 4 and 5 restore
the offsets computed in step 3. -/
theorem csr2csc_only_offsets (pe : par_env) (partitions csc_partitions : List Nat)
    (csr : ll_400_graph) (flags : Nat) (hwf : well_formed csr)
    (hcover : partitions_cover partitions (pe.threads_count * 64) csr.vertices_count)
    (hcover2 : partitions_cover csc_partitions (pe.threads_count * 64) csr.vertices_count)
    (hbit : flags &&& 8 = 0) :
    ∃ offsets_only, csr2csc pe partitions csc_partitions csr (flags ||| 8) =
        Except.ok offsets_only ∧
      offsets_only.edges_list = none ∧
      ((flags &&& 1 = 0 ∨ (flags &&& 2 ≠ 0 ∧ sorted_neighbour_lists csr)) →
        ∃ out, csr2csc pe partitions csc_partitions csr flags = Except.ok out) ∧
      ∀ out, csr2csc pe partitions csc_partitions csr flags = Except.ok out →
        out.edges_list ≠ none ∧
        offsets_only.vertices_count = out.vertices_count ∧
        offsets_only.edges_count = out.edges_count ∧
        offsets_only.offsets_list = out.offsets_list := by
  obtain ⟨g8, hg8⟩ := csr2csc_returns pe partitions csc_partitions csr (flags ||| 8) hwf hcover
    hcover2 (Or.inl (or_eight_and_eight flags))
  obtain ⟨a1, a2, a3, a4, _⟩ :=
    csr2csc_facts pe partitions csc_partitions csr (flags ||| 8) hwf hcover hcover2 g8 hg8
  refine ⟨g8, hg8, a4 (or_eight_and_eight flags), ?_, ?_⟩
  · intro hf
    exact csr2csc_returns pe partitions csc_partitions csr flags hwf hcover hcover2 (Or.inr hf)
  · intro out h
    obtain ⟨b1, b2, b3, _, b5⟩ :=
      csr2csc_facts pe partitions csc_partitions csr flags hwf hcover hcover2 out h
    obtain ⟨edges, e1, _⟩ := b5 hbit
    refine ⟨by rw [e1]; simp, by rw [a1, b1], ?_, ?_⟩
    · rw [a2, b2, csc_offset_or_eight]
    · rw [a3, b3]
      unfold csc_offsets
      rw [funext (csc_offset_or_eight csr flags)]

theorem csr2csc_only_offsets_witness :
    well_formed sample_csr ∧
    partitions_cover sample_partitions (sample_pe.threads_count * 64) sample_csr.vertices_count ∧
    (3 : Nat) &&& 8 = 0 ∧
    ∃ offsets_only, csr2csc sample_pe sample_partitions sample_partitions sample_csr (3 ||| 8) =
        Except.ok offsets_only ∧
      offsets_only.edges_list = none ∧
      (((3 : Nat) &&& 1 = 0 ∨ ((3 : Nat) &&& 2 ≠ 0 ∧ sorted_neighbour_lists sample_csr)) →
        ∃ out, csr2csc sample_pe sample_partitions sample_partitions sample_csr 3 =
          Except.ok out) ∧
      ∀ out, csr2csc sample_pe sample_partitions sample_partitions sample_csr 3 =
          Except.ok out →
        out.edges_list ≠ none ∧
        offsets_only.vertices_count = out.vertices_count ∧
        offsets_only.edges_count = out.edges_count ∧
        offsets_only.offsets_list = out.offsets_list :=
  ⟨by decide, by decide, by decide,
    csr2csc_only_offsets sample_pe sample_partitions sample_partitions sample_csr 3 (by decide)
      (by decide) (by decide) (by decide)⟩

/-! ## The copy functions -/

theorem copy_words_spec (src : List Nat) (k : Nat) (dst : List Nat) :
    (copy_words k src dst).length = dst.length ∧
    ∀ j, rd (copy_words k src dst) j =
      if j < k ∧ j < dst.length then rd src j else rd dst j := by
  unfold copy_words
  exact copy_range_spec src k dst

/-- What `copy_ll_400_graph` returns on the graph `o` it writes to, allocated or
supplied with matching counts. -/
theorem copy_ll_400_graph_spec (pe : par_env) (inp : ll_400_graph)
    (out : Option ll_400_graph) (res : ll_400_graph)
    (h : copy_ll_400_graph pe inp out = Except.ok res) :
    ∃ o, (out = none ∧ o = ll_400_graph.mk inp.vertices_count inp.edges_count
            (List.replicate (1 + inp.vertices_count) 0) (List.replicate inp.edges_count 0) ∨
          out = some o ∧ o.vertices_count = inp.vertices_count ∧
            o.edges_count = inp.edges_count) ∧
      res.vertices_count = inp.vertices_count ∧ res.edges_count = inp.edges_count ∧
      res.offsets_list.length = o.offsets_list.length ∧
      res.edges_list.length = o.edges_list.length ∧
      (∀ j, rd res.offsets_list j =
        if j < offsets_trip_count inp.vertices_count ∧ j < o.offsets_list.length then
          rd inp.offsets_list j
        else rd o.offsets_list j) ∧
      (∀ j, rd res.edges_list j =
        if j < inp.edges_count ∧ j < o.edges_list.length then rd inp.edges_list j
        else rd o.edges_list j) := by
  unfold copy_ll_400_graph at h
  have key : ∀ o : ll_400_graph, o.vertices_count = inp.vertices_count →
      o.edges_count = inp.edges_count →
      res = ll_400_graph.mk o.vertices_count o.edges_count
        (copy_offsets_loop o.vertices_count inp.offsets_list o.offsets_list)
        (copy_words o.edges_count inp.edges_list o.edges_list) →
      res.vertices_count = inp.vertices_count ∧ res.edges_count = inp.edges_count ∧
      res.offsets_list.length = o.offsets_list.length ∧
      res.edges_list.length = o.edges_list.length ∧
      (∀ j, rd res.offsets_list j =
        if j < offsets_trip_count inp.vertices_count ∧ j < o.offsets_list.length then
          rd inp.offsets_list j
        else rd o.offsets_list j) ∧
      (∀ j, rd res.edges_list j =
        if j < inp.edges_count ∧ j < o.edges_list.length then rd inp.edges_list j
        else rd o.edges_list j) := by
    intro o hv he hres
    subst hres
    obtain ⟨l1, l2⟩ := copy_offsets_loop_spec o.vertices_count inp.offsets_list o.offsets_list
    obtain ⟨c1, c2⟩ := copy_words_spec inp.edges_list o.edges_count o.edges_list
    refine ⟨hv, he, l1, c1, ?_, ?_⟩
    · intro j
      show rd (copy_offsets_loop o.vertices_count inp.offsets_list o.offsets_list) j = _
      rw [l2 j, hv]
    · intro j
      show rd (copy_words o.edges_count inp.edges_list o.edges_list) j = _
      rw [c2 j, he]
  cases out with
  | none =>
    dsimp only at h
    simp only [Except.ok.injEq] at h
    exact ⟨_, Or.inl ⟨rfl, rfl⟩, key _ rfl rfl h.symm⟩
  | some o =>
    dsimp only at h
    by_cases hv : o.vertices_count ≠ inp.vertices_count
    · rw [if_pos hv] at h
      simp at h
    · rw [if_neg hv] at h
      by_cases he : o.edges_count ≠ inp.edges_count
      · rw [if_pos he] at h
        simp at h
      · rw [if_neg he] at h
        dsimp only at h
        simp only [Except.ok.injEq] at h
        exact ⟨o, Or.inr ⟨rfl, not_not.1 hv, not_not.1 he⟩,
          key o (not_not.1 hv) (not_not.1 he) h.symm⟩

/-- What `copy_ll_404_graph` returns on the graph `o` it writes to, allocated or
supplied with matching counts. -/
theorem copy_ll_404_graph_spec (pe : par_env) (inp : ll_404_graph)
    (out : Option ll_404_graph) (res : ll_404_graph)
    (h : copy_ll_404_graph pe inp out = Except.ok res) :
    ∃ o, (out = none ∧ o = ll_404_graph.mk inp.vertices_count inp.edges_count
            (List.replicate (1 + inp.vertices_count) 0) (List.replicate (2 * inp.edges_count) 0) ∨
          out = some o ∧ o.vertices_count = inp.vertices_count ∧
            o.edges_count = inp.edges_count) ∧
      res.vertices_count = inp.vertices_count ∧ res.edges_count = inp.edges_count ∧
      res.offsets_list.length = o.offsets_list.length ∧
      res.edges_list.length = o.edges_list.length ∧
      (∀ j, rd res.offsets_list j =
        if j < offsets_trip_count inp.vertices_count ∧ j < o.offsets_list.length then
          rd inp.offsets_list j
        else rd o.offsets_list j) ∧
      (∀ j, rd res.edges_list j =
        if j < 2 * inp.edges_count ∧ j < o.edges_list.length then rd inp.edges_list j
        else rd o.edges_list j) := by
  unfold copy_ll_404_graph at h
  have key : ∀ o : ll_404_graph, o.vertices_count = inp.vertices_count →
      o.edges_count = inp.edges_count →
      res = ll_404_graph.mk o.vertices_count o.edges_count
        (copy_offsets_loop o.vertices_count inp.offsets_list o.offsets_list)
        (copy_words (2 * o.edges_count) inp.edges_list o.edges_list) →
      res.vertices_count = inp.vertices_count ∧ res.edges_count = inp.edges_count ∧
      res.offsets_list.length = o.offsets_list.length ∧
      res.edges_list.length = o.edges_list.length ∧
      (∀ j, rd res.offsets_list j =
        if j < offsets_trip_count inp.vertices_count ∧ j < o.offsets_list.length then
          rd inp.offsets_list j
        else rd o.offsets_list j) ∧
      (∀ j, rd res.edges_list j =
        if j < 2 * inp.edges_count ∧ j < o.edges_list.length then rd inp.edges_list j
        else rd o.edges_list j) := by
    intro o hv he hres
    subst hres
    obtain ⟨l1, l2⟩ := copy_offsets_loop_spec o.vertices_count inp.offsets_list o.offsets_list
    obtain ⟨c1, c2⟩ := copy_words_spec inp.edges_list (2 * o.edges_count) o.edges_list
    refine ⟨hv, he, l1, c1, ?_, ?_⟩
    · intro j
      show rd (copy_offsets_loop o.vertices_count inp.offsets_list o.offsets_list) j = _
      rw [l2 j, hv]
    · intro j
      show rd (copy_words (2 * o.edges_count) inp.edges_list o.edges_list) j = _
      rw [c2 j, he]
  cases out with
  | none =>
    dsimp only at h
    simp only [Except.ok.injEq] at h
    exact ⟨_, Or.inl ⟨rfl, rfl⟩, key _ rfl rfl h.symm⟩
  | some o =>
    dsimp only at h
    by_cases hv : o.vertices_count ≠ inp.vertices_count
    · rw [if_pos hv] at h
      simp at h
    · rw [if_neg hv] at h
      by_cases he : o.edges_count ≠ inp.edges_count
      · rw [if_pos he] at h
        simp at h
      · rw [if_neg he] at h
        dsimp only at h
        simp only [Except.ok.injEq] at h
        exact ⟨o, Or.inr ⟨rfl, not_not.1 hv, not_not.1 he⟩,
          key o (not_not.1 hv) (not_not.1 he) h.symm⟩

/-- What `copy_ll_404_to_400_graph` returns, in general, on the graph `o` it writes to, allocated or
supplied with matching counts. -/
theorem copy_ll_404_to_400_graph_spec (pe : par_env) (inp : ll_404_graph)
    (out : Option ll_400_graph) (res : ll_400_graph)
    (h : copy_ll_404_to_400_graph pe inp out = Except.ok res) :
    ∃ o, (out = none ∧ o = ll_400_graph.mk inp.vertices_count inp.edges_count
            (List.replicate (1 + inp.vertices_count) 0) (List.replicate inp.edges_count 0) ∨
          out = some o ∧ o.vertices_count = inp.vertices_count ∧
            o.edges_count = inp.edges_count) ∧
      res.vertices_count = inp.vertices_count ∧ res.edges_count = inp.edges_count ∧
      res.offsets_list.length = o.offsets_list.length ∧
      res.edges_list.length = o.edges_list.length ∧
      (∀ j, rd res.offsets_list j =
        if j < offsets_trip_count inp.vertices_count ∧ j < o.offsets_list.length then
          rd inp.offsets_list j
        else rd o.offsets_list j) ∧
      (∀ j, rd res.edges_list j =
        if j < inp.edges_count ∧ j < o.edges_list.length then rd inp.edges_list (2 * j)
        else rd o.edges_list j) := by
  unfold copy_ll_404_to_400_graph at h
  have key : ∀ o : ll_400_graph, o.vertices_count = inp.vertices_count →
      o.edges_count = inp.edges_count →
      res = ll_400_graph.mk o.vertices_count o.edges_count
        (copy_offsets_loop o.vertices_count inp.offsets_list o.offsets_list)
        (copy_neighbour_words o.edges_count inp.edges_list o.edges_list) →
      res.vertices_count = inp.vertices_count ∧ res.edges_count = inp.edges_count ∧
      res.offsets_list.length = o.offsets_list.length ∧
      res.edges_list.length = o.edges_list.length ∧
      (∀ j, rd res.offsets_list j =
        if j < offsets_trip_count inp.vertices_count ∧ j < o.offsets_list.length then
          rd inp.offsets_list j
        else rd o.offsets_list j) ∧
      (∀ j, rd res.edges_list j =
        if j < inp.edges_count ∧ j < o.edges_list.length then rd inp.edges_list (2 * j)
        else rd o.edges_list j) := by
    intro o hv he hres
    subst hres
    obtain ⟨l1, l2⟩ := copy_offsets_loop_spec o.vertices_count inp.offsets_list o.offsets_list
    obtain ⟨c1, c2⟩ := copy_neighbour_words_spec inp.edges_list o.edges_count o.edges_list
    refine ⟨hv, he, l1, c1, ?_, ?_⟩
    · intro j
      show rd (copy_offsets_loop o.vertices_count inp.offsets_list o.offsets_list) j = _
      rw [l2 j, hv]
    · intro j
      show rd (copy_neighbour_words o.edges_count inp.edges_list o.edges_list) j = _
      rw [c2 j, he]
  cases out with
  | none =>
    dsimp only at h
    simp only [Except.ok.injEq] at h
    exact ⟨_, Or.inl ⟨rfl, rfl⟩, key _ rfl rfl h.symm⟩
  | some o =>
    dsimp only at h
    by_cases hv : o.vertices_count ≠ inp.vertices_count
    · rw [if_pos hv] at h
      simp at h
    · rw [if_neg hv] at h
      by_cases he : o.edges_count ≠ inp.edges_count
      · rw [if_pos he] at h
        simp at h
      · rw [if_neg he] at h
        dsimp only at h
        simp only [Except.ok.injEq] at h
        exact ⟨o, Or.inr ⟨rfl, not_not.1 hv, not_not.1 he⟩,
          key o (not_not.1 hv) (not_not.1 he) h.symm⟩

/-- The copy functions return whenever their assertions on `out` hold. -/
theorem copy_ll_400_graph_runs (pe : par_env) (inp : ll_400_graph)
    (out : Option ll_400_graph)
    (hout : ∀ o, out = some o →
      o.vertices_count = inp.vertices_count ∧ o.edges_count = inp.edges_count) :
    ∃ res, copy_ll_400_graph pe inp out = Except.ok res := by
  unfold copy_ll_400_graph
  cases out with
  | none => exact ⟨_, rfl⟩
  | some o =>
    obtain ⟨hv, he⟩ := hout o rfl
    dsimp only
    rw [if_neg (by rw [hv]; simp), if_neg (by rw [he]; simp)]
    exact ⟨_, rfl⟩

theorem copy_ll_404_graph_runs (pe : par_env) (inp : ll_404_graph)
    (out : Option ll_404_graph)
    (hout : ∀ o, out = some o →
      o.vertices_count = inp.vertices_count ∧ o.edges_count = inp.edges_count) :
    ∃ res, copy_ll_404_graph pe inp out = Except.ok res := by
  unfold copy_ll_404_graph
  cases out with
  | none => exact ⟨_, rfl⟩
  | some o =>
    obtain ⟨hv, he⟩ := hout o rfl
    dsimp only
    rw [if_neg (by rw [hv]; simp), if_neg (by rw [he]; simp)]
    exact ⟨_, rfl⟩

theorem copy_ll_404_to_400_graph_runs (pe : par_env) (inp : ll_404_graph)
    (out : Option ll_400_graph)
    (hout : ∀ o, out = some o →
      o.vertices_count = inp.vertices_count ∧ o.edges_count = inp.edges_count) :
    ∃ res, copy_ll_404_to_400_graph pe inp out = Except.ok res := by
  unfold copy_ll_404_to_400_graph
  cases out with
  | none => exact ⟨_, rfl⟩
  | some o =>
    obtain ⟨hv, he⟩ := hout o rfl
    dsimp only
    rw [if_neg (by rw [hv]; simp), if_neg (by rw [he]; simp)]
    exact ⟨_, rfl⟩

theorem rd_wide_offsets : rd (0 :: List.replicate (2 ^ 32 - 1) 1) 1 = 1 := by
  have e : (2 : Nat) ^ 32 - 1 = (2 ^ 32 - 2) + 1 := by norm_num
  rw [e, List.replicate_succ]
  rfl

theorem rd_replicate_one (n c : Nat) (hn : 1 < n) : rd (List.replicate n c) 1 = c := by
  unfold rd
  rw [List.getD_eq_getElem?_getD, List.getElem?_replicate, if_pos hn]
  rfl

/-- What `copy_ll_400_graph` returns on the graph `wide_400` of `2^32 - 1` vertices: the
edges of the input above the offsets that `out` held. -/
theorem copy_ll_400_graph_wide (pe : par_env) :
    copy_ll_400_graph pe wide_400 none =
      Except.ok { vertices_count := 2 ^ 32 - 1, edges_count := 1,
                  offsets_list := List.replicate (2 ^ 32) 0, edges_list := [1] } ∧
    copy_ll_400_graph pe wide_400 (some wide_stale_400) =
      Except.ok { vertices_count := 2 ^ 32 - 1, edges_count := 1,
                  offsets_list := List.replicate (2 ^ 32) 9, edges_list := [1] } := by
  constructor
  · unfold copy_ll_400_graph
    dsimp only
    have e1 : wide_400.vertices_count = 2 ^ 32 - 1 := rfl
    have e2 : wide_400.edges_count = 1 := rfl
    have e3 : wide_400.edges_list = [1] := rfl
    rw [e1, e2, e3, copy_offsets_loop_wrap]
    have e4 : 1 + ((2 : Nat) ^ 32 - 1) = 2 ^ 32 := by norm_num
    rw [e4]
    rfl
  · unfold copy_ll_400_graph
    dsimp only
    have e1 : wide_400.vertices_count = 2 ^ 32 - 1 := rfl
    have e2 : wide_400.edges_count = 1 := rfl
    have e3 : wide_400.edges_list = [1] := rfl
    have f1 : wide_stale_400.vertices_count = 2 ^ 32 - 1 := rfl
    have f2 : wide_stale_400.edges_count = 1 := rfl
    have f3 : wide_stale_400.offsets_list = List.replicate (2 ^ 32) 9 := rfl
    have f4 : wide_stale_400.edges_list = [5] := rfl
    rw [e1, e2, e3, f1, f2, if_neg (by simp), if_neg (by simp)]
    dsimp only
    rw [f1, f2, f3, f4, copy_offsets_loop_wrap]
    rfl

/-- What `copy_ll_404_graph` returns on the graph `wide_404` of `2^32 - 1` vertices. -/
theorem copy_ll_404_graph_wide (pe : par_env) :
    copy_ll_404_graph pe wide_404 none =
      Except.ok { vertices_count := 2 ^ 32 - 1, edges_count := 1,
                  offsets_list := List.replicate (2 ^ 32) 0, edges_list := [1, 7] } ∧
    copy_ll_404_graph pe wide_404 (some wide_stale_404) =
      Except.ok { vertices_count := 2 ^ 32 - 1, edges_count := 1,
                  offsets_list := List.replicate (2 ^ 32) 9, edges_list := [1, 7] } := by
  constructor
  · unfold copy_ll_404_graph
    dsimp only
    have e1 : wide_404.vertices_count = 2 ^ 32 - 1 := rfl
    have e2 : wide_404.edges_count = 1 := rfl
    have e3 : wide_404.edges_list = [1, 7] := rfl
    rw [e1, e2, e3, copy_offsets_loop_wrap]
    have e4 : 1 + ((2 : Nat) ^ 32 - 1) = 2 ^ 32 := by norm_num
    rw [e4]
    rfl
  · unfold copy_ll_404_graph
    dsimp only
    have e1 : wide_404.vertices_count = 2 ^ 32 - 1 := rfl
    have e2 : wide_404.edges_count = 1 := rfl
    have e3 : wide_404.edges_list = [1, 7] := rfl
    have f1 : wide_stale_404.vertices_count = 2 ^ 32 - 1 := rfl
    have f2 : wide_stale_404.edges_count = 1 := rfl
    have f3 : wide_stale_404.offsets_list = List.replicate (2 ^ 32) 9 := rfl
    have f4 : wide_stale_404.edges_list = [5, 5] := rfl
    rw [e1, e2, e3, f1, f2, if_neg (by simp), if_neg (by simp)]
    dsimp only
    rw [f1, f2, f3, f4, copy_offsets_loop_wrap]
    rfl

/-- What `copy_ll_404_to_400_graph` returns on the graph `wide_404` of `2^32 - 1`
vertices. -/
theorem copy_ll_404_to_400_graph_wide (pe : par_env) :
    copy_ll_404_to_400_graph pe wide_404 none =
      Except.ok { vertices_count := 2 ^ 32 - 1, edges_count := 1,
                  offsets_list := List.replicate (2 ^ 32) 0, edges_list := [1] } ∧
    copy_ll_404_to_400_graph pe wide_404 (some wide_stale_400) =
      Except.ok { vertices_count := 2 ^ 32 - 1, edges_count := 1,
                  offsets_list := List.replicate (2 ^ 32) 9, edges_list := [1] } := by
  constructor
  · unfold copy_ll_404_to_400_graph
    dsimp only
    have e1 : wide_404.vertices_count = 2 ^ 32 - 1 := rfl
    have e2 : wide_404.edges_count = 1 := rfl
    have e3 : wide_404.edges_list = [1, 7] := rfl
    rw [e1, e2, e3, copy_offsets_loop_wrap]
    have e4 : 1 + ((2 : Nat) ^ 32 - 1) = 2 ^ 32 := by norm_num
    rw [e4]
    rfl
  · unfold copy_ll_404_to_400_graph
    dsimp only
    have e1 : wide_404.vertices_count = 2 ^ 32 - 1 := rfl
    have e2 : wide_404.edges_count = 1 := rfl
    have e3 : wide_404.edges_list = [1, 7] := rfl
    have f1 : wide_stale_400.vertices_count = 2 ^ 32 - 1 := rfl
    have f2 : wide_stale_400.edges_count = 1 := rfl
    have f3 : wide_stale_400.offsets_list = List.replicate (2 ^ 32) 9 := rfl
    have f4 : wide_stale_400.edges_list = [5] := rfl
    rw [e1, e2, e3, f1, f2, if_neg (by simp), if_neg (by simp)]
    dsimp only
    rw [f1, f2, f3, f4, copy_offsets_loop_wrap]
    rfl

/-! ## Claims on the copy functions -/

/-- C21: `copy_ll_400_graph` and `copy_ll_404_graph` return an exact copy - for every input
graph with `vertices_count + 1 < 2^32`.  The graph returned - allocated when `out` is NULL,
or the supplied `out` (with arrays of the allocated sizes) when its counts match - has the
same `vertices_count` and `edges_count` and the same `edges_list` (`edges_count` words for
the 400 form, `2 * edges_count` words for the 404 form) for every input graph, and the same
`offsets_list[0 .. n]` when `vertices_count + 1 < 2^32`; it is then the input record itself
when the input arrays have the allocated sizes.  The functions write through `out` only: a
call with `out` = the input returns the input, and a call returns whenever the counts of
`out` match.  On the graph `wide_400` of `2^32 - 1` vertices with the edge `0 → 1`, and on
its weighted form `wide_404`, the claim fails: the loop over the offsets makes no
iteration, and the graph returned with `out` = NULL has `offsets_list[1] = 0` where the
input has `offsets_list[1] = 1`. -/
theorem copy_graph_exact (pe : par_env) (inp : ll_400_graph) (winp : ll_404_graph) :
    (∀ out res, (∀ o, out = some o → allocated_400 o) →
      copy_ll_400_graph pe inp out = Except.ok res →
      res.vertices_count = inp.vertices_count ∧ res.edges_count = inp.edges_count ∧
      (∀ e, e < inp.edges_count → rd res.edges_list e = rd inp.edges_list e) ∧
      (inp.vertices_count + 1 < 2 ^ 32 →
        (∀ v, v ≤ inp.vertices_count → rd res.offsets_list v = rd inp.offsets_list v) ∧
        (allocated_400 inp → res = inp))) ∧
    (∀ res, copy_ll_400_graph pe inp (some inp) = Except.ok res → res = inp) ∧
    (∀ out,
      (∀ o, out = some o →
        o.vertices_count = inp.vertices_count ∧ o.edges_count = inp.edges_count) →
      ∃ res, copy_ll_400_graph pe inp out = Except.ok res) ∧
    (∀ out res, (∀ o, out = some o → allocated_404 o) →
      copy_ll_404_graph pe winp out = Except.ok res →
      res.vertices_count = winp.vertices_count ∧ res.edges_count = winp.edges_count ∧
      (∀ e, e < 2 * winp.edges_count → rd res.edges_list e = rd winp.edges_list e) ∧
      (winp.vertices_count + 1 < 2 ^ 32 →
        (∀ v, v ≤ winp.vertices_count → rd res.offsets_list v = rd winp.offsets_list v) ∧
        (allocated_404 winp → res = winp))) ∧
    (∀ res, copy_ll_404_graph pe winp (some winp) = Except.ok res → res = winp) ∧
    (∀ out,
      (∀ o, out = some o →
        o.vertices_count = winp.vertices_count ∧ o.edges_count = winp.edges_count) →
      ∃ res, copy_ll_404_graph pe winp out = Except.ok res) ∧
    (copy_ll_400_graph pe wide_400 none =
        Except.ok { vertices_count := 2 ^ 32 - 1, edges_count := 1,
                    offsets_list := List.replicate (2 ^ 32) 0, edges_list := [1] } ∧
      copy_ll_404_graph pe wide_404 none =
        Except.ok { vertices_count := 2 ^ 32 - 1, edges_count := 1,
                    offsets_list := List.replicate (2 ^ 32) 0, edges_list := [1, 7] } ∧
      rd (List.replicate (2 ^ 32) 0) 1 = 0 ∧
      rd wide_400.offsets_list 1 = 1 ∧ rd wide_404.offsets_list 1 = 1) := by
  refine ⟨?_, ?_, fun out hout => copy_ll_400_graph_runs pe inp out hout, ?_, ?_,
    fun out hout => copy_ll_404_graph_runs pe winp out hout,
    (copy_ll_400_graph_wide pe).1, (copy_ll_404_graph_wide pe).1,
    rd_replicate_one _ _ (by norm_num), rd_wide_offsets, rd_wide_offsets⟩
  · intro out res halloc h
    obtain ⟨o, ho, r1, r2, r3, r4, r5, r6⟩ := copy_ll_400_graph_spec pe inp out res h
    have hsize : o.offsets_list.length = inp.vertices_count + 1 ∧
        o.edges_list.length = inp.edges_count := by
      rcases ho with ⟨_, rfl⟩ | ⟨h1, h2, h3⟩
      · simp
        omega
      · have := halloc o h1
        unfold allocated_400 at this
        rw [h2, h3] at this
        exact this
    have e2 : ∀ e, e < inp.edges_count → rd res.edges_list e = rd inp.edges_list e := by
      intro e he
      rw [r6 e, if_pos ⟨he, by omega⟩]
    refine ⟨r1, r2, e2, ?_⟩
    intro hn
    have e1 : ∀ v, v ≤ inp.vertices_count → rd res.offsets_list v = rd inp.offsets_list v := by
      intro v hv
      rw [r5 v, offsets_trip_count_small _ hn, if_pos ⟨by omega, by omega⟩]
    refine ⟨e1, ?_⟩
    rintro ⟨a1, a2⟩
    have l1 : res.offsets_list = inp.offsets_list := by
      apply ext_rd
      · rw [r3, hsize.1, a1]
      · intro j hj
        exact e1 j (by omega)
    have l2 : res.edges_list = inp.edges_list := by
      apply ext_rd
      · rw [r4, hsize.2, a2]
      · intro j hj
        exact e2 j (by omega)
    cases res
    cases inp
    simp only [ll_400_graph.mk.injEq]
    exact ⟨r1, r2, l1, l2⟩
  · intro res h
    obtain ⟨o, ho, r1, r2, r3, r4, r5, r6⟩ := copy_ll_400_graph_spec pe inp _ res h
    rcases ho with ⟨h0, _⟩ | ⟨h1, _, _⟩
    · simp at h0
    · simp only [Option.some.injEq] at h1
      subst h1
      have l1 : res.offsets_list = inp.offsets_list := by
        apply ext_rd _ _ r3
        intro j _
        rw [r5 j]
        simp
      have l2 : res.edges_list = inp.edges_list := by
        apply ext_rd _ _ r4
        intro j _
        rw [r6 j]
        simp
      cases res
      cases inp
      simp only [ll_400_graph.mk.injEq]
      exact ⟨r1, r2, l1, l2⟩
  · intro out res halloc h
    obtain ⟨o, ho, r1, r2, r3, r4, r5, r6⟩ := copy_ll_404_graph_spec pe winp out res h
    have hsize : o.offsets_list.length = winp.vertices_count + 1 ∧
        o.edges_list.length = 2 * winp.edges_count := by
      rcases ho with ⟨_, rfl⟩ | ⟨h1, h2, h3⟩
      · simp
        omega
      · have := halloc o h1
        unfold allocated_404 at this
        rw [h2, h3] at this
        exact this
    have e2 : ∀ e, e < 2 * winp.edges_count → rd res.edges_list e = rd winp.edges_list e := by
      intro e he
      rw [r6 e, if_pos ⟨he, by omega⟩]
    refine ⟨r1, r2, e2, ?_⟩
    intro hn
    have e1 : ∀ v, v ≤ winp.vertices_count →
        rd res.offsets_list v = rd winp.offsets_list v := by
      intro v hv
      rw [r5 v, offsets_trip_count_small _ hn, if_pos ⟨by omega, by omega⟩]
    refine ⟨e1, ?_⟩
    rintro ⟨a1, a2⟩
    have l1 : res.offsets_list = winp.offsets_list := by
      apply ext_rd
      · rw [r3, hsize.1, a1]
      · intro j hj
        exact e1 j (by omega)
    have l2 : res.edges_list = winp.edges_list := by
      apply ext_rd
      · rw [r4, hsize.2, a2]
      · intro j hj
        exact e2 j (by omega)
    cases res
    cases winp
    simp only [ll_404_graph.mk.injEq]
    exact ⟨r1, r2, l1, l2⟩
  · intro res h
    obtain ⟨o, ho, r1, r2, r3, r4, r5, r6⟩ := copy_ll_404_graph_spec pe winp _ res h
    rcases ho with ⟨h0, _⟩ | ⟨h1, _, _⟩
    · simp at h0
    · simp only [Option.some.injEq] at h1
      subst h1
      have l1 : res.offsets_list = winp.offsets_list := by
        apply ext_rd _ _ r3
        intro j _
        rw [r5 j]
        simp
      have l2 : res.edges_list = winp.edges_list := by
        apply ext_rd _ _ r4
        intro j _
        rw [r6 j]
        simp
      cases res
      cases winp
      simp only [ll_404_graph.mk.injEq]
      exact ⟨r1, r2, l1, l2⟩

theorem copy_graph_exact_witness :
    copy_ll_400_graph sample_pe sample_sym none = Except.ok sample_sym ∧
    copy_ll_400_graph sample_pe sample_sym (some stale_400) = Except.ok sample_sym ∧
    copy_ll_404_graph sample_pe sample_weighted none = Except.ok sample_weighted ∧
    copy_ll_404_graph sample_pe sample_weighted (some stale_404) =
      Except.ok sample_weighted ∧
    (∀ res, copy_ll_400_graph sample_pe sample_sym (some stale_400) = Except.ok res →
      res = sample_sym) :=
  ⟨rfl, rfl, rfl, rfl, fun res h =>
    (((copy_graph_exact sample_pe sample_sym sample_weighted).1 (some stale_400) res
      (fun o ho => by
        simp only [Option.some.injEq] at ho
        subst ho
        decide) h).2.2.2 (by decide)).2 (by decide)⟩

/-- C22: `copy_ll_404_to_400_graph` removes the weights and nothing else - for every
weighted graph with `vertices_count + 1 < 2^32`.  The graph returned - allocated when
`out` is NULL, or the supplied `out` (with arrays of the allocated sizes) when its counts
match - has the same `vertices_count` and `edges_count`, and `edges_list[e]` equals the
neighbour word `in.edges_list[2e]` for every `e < edges_count`, for every input graph; it
has the same `offsets_list[0 .. n]` (the same `offsets_list` when the input array has the
allocated size) when `vertices_count + 1 < 2^32`.  A call returns whenever the counts of
`out` match.  On the weighted graph `wide_404` of `2^32 - 1` vertices with the edge
`0 → 1` the claim fails: the loop over the offsets makes no iteration, and the graph
returned with `out` = NULL has `offsets_list[1] = 0` where the input has
`offsets_list[1] = 1`. -/
theorem copy_removes_weights (pe : par_env) (inp : ll_404_graph) :
    (∀ out res, (∀ o, out = some o → allocated_400 o) →
      copy_ll_404_to_400_graph pe inp out = Except.ok res →
      res.vertices_count = inp.vertices_count ∧ res.edges_count = inp.edges_count ∧
      res.edges_list.length = inp.edges_count ∧
      (∀ e, e < inp.edges_count → rd res.edges_list e = rd inp.edges_list (2 * e)) ∧
      (inp.vertices_count + 1 < 2 ^ 32 →
        (∀ v, v ≤ inp.vertices_count → rd res.offsets_list v = rd inp.offsets_list v) ∧
        (inp.offsets_list.length = inp.vertices_count + 1 →
          res.offsets_list = inp.offsets_list))) ∧
    (∀ out,
      (∀ o, out = some o →
        o.vertices_count = inp.vertices_count ∧ o.edges_count = inp.edges_count) →
      ∃ res, copy_ll_404_to_400_graph pe inp out = Except.ok res) ∧
    (copy_ll_404_to_400_graph pe wide_404 none =
        Except.ok { vertices_count := 2 ^ 32 - 1, edges_count := 1,
                    offsets_list := List.replicate (2 ^ 32) 0, edges_list := [1] } ∧
      rd (List.replicate (2 ^ 32) 0) 1 = 0 ∧ rd wide_404.offsets_list 1 = 1) := by
  refine ⟨?_, fun out hout => copy_ll_404_to_400_graph_runs pe inp out hout,
    (copy_ll_404_to_400_graph_wide pe).1, rd_replicate_one _ _ (by norm_num),
    rd_wide_offsets⟩
  intro out res halloc h
  obtain ⟨o, ho, r1, r2, r3, r4, r5, r6⟩ := copy_ll_404_to_400_graph_spec pe inp out res h
  have hsize : o.offsets_list.length = inp.vertices_count + 1 ∧
      o.edges_list.length = inp.edges_count := by
    rcases ho with ⟨_, rfl⟩ | ⟨h1, h2, h3⟩
    · simp
      omega
    · have := halloc o h1
      unfold allocated_400 at this
      rw [h2, h3] at this
      exact this
  refine ⟨r1, r2, by rw [r4, hsize.2], ?_, ?_⟩
  · intro e he
    rw [r6 e, if_pos ⟨he, by omega⟩]
  · intro hn
    have e1 : ∀ v, v ≤ inp.vertices_count → rd res.offsets_list v = rd inp.offsets_list v := by
      intro v hv
      rw [r5 v, offsets_trip_count_small _ hn, if_pos ⟨by omega, by omega⟩]
    refine ⟨e1, ?_⟩
    intro a1
    apply ext_rd
    · rw [r3, hsize.1, a1]
    · intro j hj
      exact e1 j (by omega)

theorem copy_removes_weights_witness :
    copy_ll_404_to_400_graph sample_pe sample_weighted none =
      Except.ok
        { vertices_count := 3, edges_count := 4,
          offsets_list := [0, 1, 3, 4], edges_list := [1, 0, 2, 1] } ∧
    (∀ res, copy_ll_404_to_400_graph sample_pe sample_weighted none = Except.ok res →
      ∀ v, v ≤ sample_weighted.vertices_count →
        rd res.offsets_list v = rd sample_weighted.offsets_list v) :=
  ⟨rfl, fun res h =>
    (((copy_removes_weights sample_pe sample_weighted).1 none res
      (fun o ho => by simp at ho) h).2.2.2.2 (by decide)).1⟩

/-! ## The loops over the offsets -/

/-- C28: the loops `for(unsigned int v=0; v <= vertices_count; v++)` over the offsets are
`#pragma omp parallel for` loops, whose iterations are counted in the 32 bits of `v` before
the loop starts.  For every `n` with `n + 1 < 2^32` the loop makes exactly `n + 1`
iterations, and the loop run by one thread with its wrapping counter, as
`add_4B_weight_to_ll_400_graph` is described, ends with the same array.  At
`n = 2^32 - 1`, which the claim includes, the count `n + 1` wraps to `0`: the loop makes
no iteration instead of `2^32`, and `copy_ll_400_graph`, `copy_ll_404_graph` and
`copy_ll_404_to_400_graph` return the offsets that `out` held.  The loop makes `n + 1`
iterations exactly when `n + 1 < 2^32`. -/
theorem offsets_loop_trip_count (pe : par_env) :
    (∀ n, n + 1 < 2 ^ 32 →
      offsets_trip_count n = n + 1 ∧
      (∀ src dst j, rd (copy_offsets_loop n src dst) j =
        if j ≤ n ∧ j < dst.length then rd src j else rd dst j) ∧
      ∀ src dst, set_offsets_loop n src (n + 2) 0 dst = some (copy_offsets_loop n src dst)) ∧
    (∀ n, offsets_trip_count n = n + 1 ↔ n + 1 < 2 ^ 32) ∧
    offsets_trip_count (2 ^ 32 - 1) = 0 ∧
    (∀ src dst, copy_offsets_loop (2 ^ 32 - 1) src dst = dst) ∧
    copy_ll_400_graph pe wide_400 (some wide_stale_400) =
      Except.ok { vertices_count := 2 ^ 32 - 1, edges_count := 1,
                  offsets_list := List.replicate (2 ^ 32) 9, edges_list := [1] } ∧
    copy_ll_404_graph pe wide_404 (some wide_stale_404) =
      Except.ok { vertices_count := 2 ^ 32 - 1, edges_count := 1,
                  offsets_list := List.replicate (2 ^ 32) 9, edges_list := [1, 7] } ∧
    copy_ll_404_to_400_graph pe wide_404 (some wide_stale_400) =
      Except.ok { vertices_count := 2 ^ 32 - 1, edges_count := 1,
                  offsets_list := List.replicate (2 ^ 32) 9, edges_list := [1] } := by
  refine ⟨?_, ?_, offsets_trip_count_wrap, copy_offsets_loop_wrap,
    (copy_ll_400_graph_wide pe).2, (copy_ll_404_graph_wide pe).2,
    (copy_ll_404_to_400_graph_wide pe).2⟩
  · intro n hn
    refine ⟨offsets_trip_count_small n hn, ?_,
      fun src dst => set_offsets_loop_eq n src hn (n + 2) (Nat.le_refl _) dst⟩
    intro src dst j
    rw [(copy_offsets_loop_spec n src dst).2 j, offsets_trip_count_small n hn]
    by_cases hj : j ≤ n ∧ j < dst.length
    · rw [if_pos hj, if_pos ⟨by omega, hj.2⟩]
    · rw [if_neg hj, if_neg (by omega)]
  · intro n
    unfold offsets_trip_count
    constructor
    · intro h
      by_contra hcon
      have := Nat.mod_lt (n + 1) (show 0 < 2 ^ 32 by norm_num)
      omega
    · intro h
      exact Nat.mod_eq_of_lt h

theorem offsets_loop_trip_count_witness :
    offsets_trip_count 3 = 4 ∧
    copy_offsets_loop 3 [0, 2, 4, 6] [9, 9, 9, 9] = [0, 2, 4, 6] ∧
    set_offsets_loop 3 [0, 2, 4, 6] 5 0 [9, 9, 9, 9] =
      some (copy_offsets_loop 3 [0, 2, 4, 6] [9, 9, 9, 9]) :=
  ⟨((offsets_loop_trip_count sample_pe).1 3 (by norm_num)).1, by decide,
    ((offsets_loop_trip_count sample_pe).1 3 (by norm_num)).2.2 [0, 2, 4, 6] [9, 9, 9, 9]⟩

/-! ## The bit array of `csr2sym` -/

theorem foldlM_congr_mem {α σ : Type} (f g : σ → α → Except String σ) (l : List α)
    (h : ∀ x, x ∈ l → ∀ s, f s x = g s x) (s : σ) : l.foldlM f s = l.foldlM g s := by
  induction l generalizing s with
  | nil => rfl
  | cons a t ih =>
    rw [List.foldlM_cons, List.foldlM_cons, h a (List.mem_cons_self _ _) s]
    cases g s a with
    | error msg => rfl
    | ok s' => exact ih (fun x hx => h x (List.mem_cons_of_mem _ hx)) s'

/-- Step 2 in terms of the slots of the input. -/
theorem csr2sym_step2_eq (pe : par_env) (partitions : List Nat) (csr : ll_400_graph)
    (hcover : partitions_cover partitions (pe.threads_count * 64) csr.vertices_count)
    (offs1 : List Nat) :
    csr2sym_step2 pe partitions csr offs1 =
      (all_slots csr).foldlM (fun s x => csr2sym_degree_edge csr x.1 s x.2)
        (offs1, List.replicate (1 + csr.edges_count / 8) 0) := by
  unfold csr2sym_step2
  rw [for_partition_vertices_eq partitions _ _ hcover]
  unfold csr2sym_degree_vertex
  rw [foldlM_all_slots csr (fun v => csr2sym_degree_edge csr v)]

/-- C26: the `edge_is_symmetric` bit array replaces the repeated search exactly.  Under
the precondition of `csr2sym`, steps 1 and 2 succeed and after step 2 bit `e` is set if and
only if `e` is an edge `v → dest` of the input with `dest != v` and `v` in the input
neighbour-list of `dest`, which is what the search in the list of `dest` finds; therefore
step 5 as written (testing the bit) and step 5 with the commented-out binary search make
the same writes: from every state they give the same result. -/
theorem csr2sym_bits_replace_search (pe : par_env) (partitions : List Nat) (csr : ll_400_graph)
    (flags : Nat) (hwf : well_formed csr) (hsorted : sorted_neighbour_lists csr)
    (hcover : partitions_cover partitions (pe.threads_count * 64) csr.vertices_count) :
    ∃ offs1 degs,
      csr2sym_step1 pe partitions csr flags = Except.ok offs1 ∧
      csr2sym_step2 pe partitions csr offs1 = Except.ok degs ∧
      (∀ e, edge_bit degs.2 e ↔ ∃ v, (v, e) ∈ all_slots csr ∧ rd csr.edges_list e ≠ v ∧
        v ∈ neighbour_list csr (rd csr.edges_list e)) ∧
      (∀ v e, (v, e) ∈ all_slots csr → (edge_bit degs.2 e ↔
        v ≠ rd csr.edges_list e ∧
        (uint_binary_search csr.edges_list (rd csr.offsets_list (rd csr.edges_list e))
          (rd csr.offsets_list (rd csr.edges_list e + 1)) v).isSome = true)) ∧
      (∀ st, csr2sym_step5 pe partitions csr degs.2 st =
        csr2sym_step5_search pe partitions csr st) := by
  obtain ⟨offs1, degs, st0, st, h1, h2, _, _, _, hbits, _, _⟩ :=
    steps_spec pe partitions csr flags hwf hsorted hcover
  have hlen1 : offs1.length = csr.vertices_count + 1 := by
    unfold csr2sym_step1 at h1
    rw [for_partition_vertices_eq partitions _ _ hcover] at h1
    rcases step1_range csr flags (List.replicate (1 + csr.vertices_count) 0)
      csr.vertices_count hwf.2.2.2.1 with ⟨_, herr⟩ | ⟨_, offs, hok, hl, _⟩
    · rw [herr] at h1
      simp at h1
    · rw [hok] at h1
      injection h1 with h1
      subst h1
      rw [hl]
      simp
      omega
  obtain ⟨st2, hs2, _, _, hall⟩ := step2_slots csr hwf hsorted offs1 hlen1
  rw [csr2sym_step2_eq pe partitions csr hcover, hs2] at h2
  injection h2 with h2
  subst h2
  have hfound : ∀ v e, (v, e) ∈ all_slots csr → (edge_bit st2.2 e ↔
      v ≠ rd csr.edges_list e ∧
      (uint_binary_search csr.edges_list (rd csr.offsets_list (rd csr.edges_list e))
        (rd csr.offsets_list (rd csr.edges_list e + 1)) v).isSome = true) := by
    intro v e hve
    rw [hbits v e hve, uint_binary_search_isSome csr (rd csr.edges_list e) v
      (hsorted _ (slot_dest_lt csr hwf v e hve))]
    constructor
    · rintro ⟨a, b⟩
      exact ⟨fun h => a h.symm, b⟩
    · rintro ⟨a, b⟩
      exact ⟨fun h => a h.symm, b⟩
  refine ⟨offs1, st2, h1, by rw [csr2sym_step2_eq pe partitions csr hcover, hs2], hall,
    hfound, ?_⟩
  intro st
  unfold csr2sym_step5 csr2sym_step5_search
  rw [for_partition_vertices_eq partitions _ _ hcover,
    for_partition_vertices_eq partitions _ _ hcover]
  unfold csr2sym_write_vertex csr2sym_write_vertex_search
  rw [foldlM_all_slots csr (fun v => csr2sym_write_edge csr st2.2 v),
    foldlM_all_slots csr (fun v => csr2sym_write_edge_search csr v)]
  apply foldlM_congr_mem
  rintro ⟨v, e⟩ hx s
  dsimp only
  unfold csr2sym_write_edge csr2sym_write_edge_search
  by_cases hv : v = rd csr.edges_list e
  · rw [if_pos hv, if_pos hv]
  · rw [if_neg hv, if_neg hv]
    have hb := hfound v e hx
    unfold edge_bit at hb
    by_cases hbit : rd st2.2 (e / 8) &&& (1 <<< (e % 8)) ≠ 0
    · rw [if_pos hbit, if_pos (hb.1 hbit).2]
    · rw [if_neg hbit, if_neg (fun h => hbit (hb.2 ⟨hv, h⟩))]

theorem csr2sym_bits_replace_search_witness :
    well_formed sample_csr ∧ sorted_neighbour_lists sample_csr ∧
    partitions_cover sample_partitions (sample_pe.threads_count * 64) sample_csr.vertices_count ∧
    ∃ offs1 degs,
      csr2sym_step1 sample_pe sample_partitions sample_csr 6 = Except.ok offs1 ∧
      csr2sym_step2 sample_pe sample_partitions sample_csr offs1 = Except.ok degs ∧
      (∀ e, edge_bit degs.2 e ↔ ∃ v, (v, e) ∈ all_slots sample_csr ∧
        rd sample_csr.edges_list e ≠ v ∧
        v ∈ neighbour_list sample_csr (rd sample_csr.edges_list e)) ∧
      (∀ v e, (v, e) ∈ all_slots sample_csr → (edge_bit degs.2 e ↔
        v ≠ rd sample_csr.edges_list e ∧
        (uint_binary_search sample_csr.edges_list
          (rd sample_csr.offsets_list (rd sample_csr.edges_list e))
          (rd sample_csr.offsets_list (rd sample_csr.edges_list e + 1)) v).isSome = true)) ∧
      (∀ st, csr2sym_step5 sample_pe sample_partitions sample_csr degs.2 st =
        csr2sym_step5_search sample_pe sample_partitions sample_csr st) :=
  ⟨by decide, by decide, by decide,
    csr2sym_bits_replace_search sample_pe sample_partitions sample_csr 6 (by decide)
      (by decide) (by decide)⟩

/-! ## The writes of a loop -/

theorem loop_writes_append {σ α : Type} (body : σ → α → Except String σ)
    (writes : σ → α → List Nat) (l1 l2 : List α) (s : σ) :
    loop_writes body writes s (l1 ++ l2) =
      loop_writes body writes s l1 ++
        (match l1.foldlM body s with
         | Except.error _ => []
         | Except.ok s' => loop_writes body writes s' l2) := by
  induction l1 generalizing s with
  | nil => rfl
  | cons a t ih =>
    rw [List.cons_append, loop_writes, loop_writes, List.foldlM_cons]
    cases h : body s a with
    | error msg =>
      change writes s a ++ [] = (writes s a ++ []) ++ []
      simp
    | ok s' =>
      change writes s a ++ loop_writes body writes s' (t ++ l2) =
        (writes s a ++ loop_writes body writes s' t) ++
          (match t.foldlM body s' with
           | Except.error _ => []
           | Except.ok s'' => loop_writes body writes s'' l2)
      rw [ih s', List.append_assoc]

theorem loop_writes_map {σ α β : Type} (body : σ → β → Except String σ)
    (writes : σ → β → List Nat) (f : α → β) (l : List α) (s : σ) :
    loop_writes body writes s (l.map f) =
      loop_writes (fun s a => body s (f a)) (fun s a => writes s (f a)) s l := by
  induction l generalizing s with
  | nil => rfl
  | cons a t ih =>
    rw [List.map_cons, loop_writes, loop_writes]
    cases h : body s (f a) with
    | error msg => rfl
    | ok s' =>
      simp only []
      rw [ih s']

theorem foldlM_map_except {σ α β : Type} (body : σ → β → Except String σ) (f : α → β)
    (l : List α) (s : σ) :
    (l.map f).foldlM body s = l.foldlM (fun s a => body s (f a)) s := by
  induction l generalizing s with
  | nil => rfl
  | cons a t ih =>
    rw [List.map_cons, List.foldlM_cons, List.foldlM_cons]
    cases h : body s (f a) with
    | error msg => rfl
    | ok s' => exact ih s'

/-- The writes of a loop nest are the writes of the loop over the pairs it visits. -/
theorem loop_writes_nested {σ α β : Type} (body : α → σ → β → Except String σ)
    (writes : α → σ → β → List Nat) (g : α → List β) (l : List α) (s : σ) :
    loop_writes (fun s a => (g a).foldlM (body a) s)
        (fun s a => loop_writes (body a) (writes a) s (g a)) s l =
      loop_writes (fun s x => body x.1 s x.2) (fun s x => writes x.1 s x.2) s
        (l.flatMap (fun a => (g a).map (fun b => (a, b)))) := by
  induction l generalizing s with
  | nil => rfl
  | cons a t ih =>
    rw [List.flatMap_cons, loop_writes_append, loop_writes, loop_writes_map,
      foldlM_map_except]
    cases h : (g a).foldlM (body a) s with
    | error msg => rfl
    | ok s' =>
      simp only []
      rw [ih s']

/-- The writes of a loop over partitions and their vertices are the writes of the loop
over the vertices. -/
theorem loop_writes_flat {σ α β : Type} (body : σ → β → Except String σ)
    (writes : σ → β → List Nat) (g : α → List β) (l : List α) (s : σ) :
    loop_writes (fun s a => (g a).foldlM body s)
        (fun s a => loop_writes body writes s (g a)) s l =
      loop_writes body writes s (l.flatMap g) := by
  induction l generalizing s with
  | nil => rfl
  | cons a t ih =>
    rw [List.flatMap_cons, loop_writes_append, loop_writes]
    cases h : (g a).foldlM body s with
    | error msg => rfl
    | ok s' =>
      simp only []
      rw [ih s']

theorem loop_writes_invariant {σ α : Type} (body : σ → α → Except String σ)
    (writes : σ → α → List Nat) (l : List α) (I : List α → σ → Prop)
    (J : List α → List Nat → Prop) (s0 : σ) (h0 : I [] s0) (j0 : J [] [])
    (hstep : ∀ pre x rest s w, l = pre ++ x :: rest → I pre s → J pre w →
      (∃ s', body s x = Except.ok s' ∧ I (pre ++ [x]) s') ∧ J (pre ++ [x]) (w ++ writes s x)) :
    J l (loop_writes body writes s0 l) := by
  have key : ∀ rest pre s w, l = pre ++ rest → I pre s → J pre w →
      J l (w ++ loop_writes body writes s rest) := by
    intro rest
    induction rest with
    | nil =>
      intro pre s w hl _ hJ
      rw [hl, List.append_nil]
      simpa [loop_writes] using hJ
    | cons x t ih =>
      intro pre s w hl hI hJ
      obtain ⟨⟨s1, hs1, hI1⟩, hJ1⟩ := hstep pre x t s w hl hI hJ
      have := ih (pre ++ [x]) s1 (w ++ writes s x) (by simp [hl]) hI1 hJ1
      rw [loop_writes, hs1]
      simp only []
      rw [← List.append_assoc]
      exact this
  simpa using key l [] s0 [] rfl h0 j0

/-! ## The writes of step 5 of `csr2sym` -/

theorem csr2sym_step5_writes_eq (pe : par_env) (partitions : List Nat) (csr : ll_400_graph)
    (hcover : partitions_cover partitions (pe.threads_count * 64) csr.vertices_count)
    (bits : List Nat) (st : sym_state) :
    csr2sym_step5_writes pe partitions csr bits st =
      loop_writes (fun s x => csr2sym_write_edge csr bits x.1 s x.2)
        (fun s x => csr2sym_write_edge_writes csr bits x.1 s x.2) st (all_slots csr) := by
  unfold csr2sym_step5_writes
  rw [loop_writes_flat]
  have hflat : (List.range (pe.threads_count * 64)).flatMap (partition_vertices partitions) =
      List.range csr.vertices_count := by
    obtain ⟨_, h0, hn, hmono⟩ := hcover
    unfold partition_vertices
    rw [flatMap_boundaries (fun p => rd partitions p) _ h0 hmono, hn]
  rw [hflat]
  unfold csr2sym_write_vertex csr2sym_write_vertex_writes all_slots
  exact loop_writes_nested (fun v => csr2sym_write_edge csr bits v)
    (fun v => csr2sym_write_edge_writes csr bits v) (edge_slots csr.offsets_list)
    (List.range csr.vertices_count) st

/-- The indices written by step 5: every slot behind the copied neighbours of a vertex,
each once. -/
theorem step5_writes_spec (pe : par_env) (partitions : List Nat) (csr : ll_400_graph)
    (flags : Nat) (hwf : well_formed csr)
    (hcover : partitions_cover partitions (pe.threads_count * 64) csr.vertices_count)
    (degs bits : List Nat)
    (hdegs : ∀ d, d < csr.vertices_count → rd degs d = sym_degree csr flags d)
    (hbits : ∀ v e, (v, e) ∈ all_slots csr → (edge_bit bits e ↔
      rd csr.edges_list e ≠ v ∧ v ∈ neighbour_list csr (rd csr.edges_list e)))
    (st0 : sym_state) (hinv : copy_invariant csr flags degs csr.vertices_count st0) :
    (csr2sym_step5_writes pe partitions csr bits st0).Nodup ∧
    ∀ i, i ∈ csr2sym_step5_writes pe partitions csr bits st0 ↔
      ∃ d, d < csr.vertices_count ∧
        prefix_sum degs d + (kept_neighbours csr flags d).length ≤ i ∧
        i < prefix_sum degs (d + 1) := by
  obtain ⟨l1, l2, l3, i1, i2, i3, i4, i5⟩ := hinv
  have hoffs : ∀ d, d ≤ csr.vertices_count → rd st0.offsets_list d = prefix_sum degs d := by
    intro d hd
    by_cases hdn : d = csr.vertices_count
    · subst hdn; exact i3
    · exact i1 d (by omega)
  rw [csr2sym_step5_writes_eq pe partitions csr hcover]
  have h := loop_writes_invariant (fun s x => csr2sym_write_edge csr bits x.1 s x.2)
    (fun s x => csr2sym_write_edge_writes csr bits x.1 s x.2) (all_slots csr)
    (write_invariant csr flags degs st0.offsets_list)
    (fun pre w => w.Nodup ∧ ∀ i, i ∈ w ↔ ∃ d, d < csr.vertices_count ∧
      prefix_sum degs d + (kept_neighbours csr flags d).length ≤ i ∧
      i < prefix_sum degs d + (kept_neighbours csr flags d).length +
        ((pre.filter (is_reverse_slot csr d)).map Prod.fst).length)
    st0
    ⟨rfl, l2, l3, fun d hd => by simpa using i4 d hd, i5, fun d hd i hi => by simp at hi⟩
    ⟨List.nodup_nil, fun i => by simp⟩
    (fun pre x rest s w hl hI hJ => by
      obtain ⟨v, e⟩ := x
      have hbody := write_edge_spec csr flags hwf degs bits st0.offsets_list hdegs hbits hoffs
        pre rest (v, e) hl s hI
      refine ⟨hbody, ?_⟩
      obtain ⟨s', hs', _⟩ := hbody
      dsimp only at hs' ⊢
      obtain ⟨i0, _, _, j1, _, _⟩ := hI
      obtain ⟨hnd, hmem⟩ := hJ
      have hslot : (v, e) ∈ all_slots csr := by rw [hl]; simp
      have hd := slot_dest_lt csr hwf v e hslot
      have hpre : ∀ d, ((pre.filter (is_reverse_slot csr d)).map Prod.fst).length +
          (if is_reverse_slot csr d (v, e) = true then 1 else 0) ≤
            (reverse_sources csr d).length :=
        fun d => length_filter_prefix (is_reverse_slot csr d) Prod.fst (all_slots csr) pre rest
          (v, e) hl
      have hother : ∀ d, d ≠ rd csr.edges_list e → ¬ (is_reverse_slot csr d (v, e) = true) := by
        intro d hne
        rw [is_reverse_slot_iff]
        exact fun h => hne h.1.symm
      by_cases hw : is_reverse_slot csr (rd csr.edges_list e) (v, e) = true
      · have hw' := (is_reverse_slot_iff csr _ v e).1 hw
        have h1 : ¬ (v = rd csr.edges_list e) := hw'.2.1
        have h2 : ¬ (rd bits (e / 8) &&& (1 <<< (e % 8)) ≠ 0) := by
          intro hb
          exact hw'.2.2 ((hbits v e hslot).1 hb).2
        have h3 : rd s.last_offsets (rd csr.edges_list e) <
            rd s.offsets_list (rd csr.edges_list e + 1) := by
          by_contra hcon
          unfold csr2sym_write_edge at hs'
          rw [if_neg h1, if_neg h2, if_neg hcon] at hs'
          simp at hs'
        have hwr : csr2sym_write_edge_writes csr bits v s e =
            [rd s.last_offsets (rd csr.edges_list e)] := by
          unfold csr2sym_write_edge_writes
          rw [if_neg h1, if_neg h2, if_pos h3]
        rw [hwr, j1 _ hd]
        have hp := hpre (rd csr.edges_list e)
        rw [if_pos hw] at hp
        have hbound : ∀ d, d < csr.vertices_count →
            prefix_sum degs d + (kept_neighbours csr flags d).length +
              ((pre.filter (is_reverse_slot csr d)).map Prod.fst).length ≤
            prefix_sum degs (d + 1) := by
          intro d hdn
          have := hpre d
          have := prefix_sum_succ degs d
          have := hdegs d hdn
          unfold sym_degree at this
          omega
        have hsucc := prefix_sum_succ degs (rd csr.edges_list e)
        have hdeg0 := hdegs _ hd
        unfold sym_degree at hdeg0
        constructor
        · rw [List.nodup_append]
          refine ⟨hnd, List.nodup_singleton _, ?_⟩
          intro i hi1 hi2
          rw [List.mem_singleton] at hi2
          subst hi2
          obtain ⟨d, hdn, a1, a2⟩ := (hmem _).1 hi1
          have hb := hbound d hdn
          rcases Nat.lt_trichotomy d (rd csr.edges_list e) with hlt | heq | hgt
          · have := prefix_sum_mono degs (d + 1) (rd csr.edges_list e) (by omega)
            omega
          · subst heq; omega
          · have := prefix_sum_mono degs (rd csr.edges_list e + 1) d (by omega)
            omega
        · intro i
          rw [List.mem_append, List.mem_singleton, hmem i]
          constructor
          · rintro (⟨d, hdn, a1, a2⟩ | rfl)
            · refine ⟨d, hdn, a1, ?_⟩
              rw [length_filter_snoc]
              omega
            · refine ⟨_, hd, by omega, ?_⟩
              rw [length_filter_snoc, if_pos hw]
              omega
          · rintro ⟨d, hdn, a1, a2⟩
            rw [length_filter_snoc] at a2
            by_cases hdd : d = rd csr.edges_list e
            · subst hdd
              rw [if_pos hw] at a2
              by_cases hlast : i = prefix_sum degs (rd csr.edges_list e) +
                  (kept_neighbours csr flags (rd csr.edges_list e)).length +
                  ((pre.filter (is_reverse_slot csr (rd csr.edges_list e))).map
                    Prod.fst).length
              · right; exact hlast
              · left
                exact ⟨_, hdn, a1, by omega⟩
            · rw [if_neg (hother d hdd)] at a2
              left
              exact ⟨d, hdn, a1, by omega⟩
      · have hwr : csr2sym_write_edge_writes csr bits v s e = [] := by
          unfold csr2sym_write_edge_writes
          by_cases h1 : v = rd csr.edges_list e
          · rw [if_pos h1]
          · rw [if_neg h1]
            by_cases h2 : rd bits (e / 8) &&& (1 <<< (e % 8)) ≠ 0
            · rw [if_pos h2]
            · exfalso
              apply hw
              rw [is_reverse_slot_iff]
              refine ⟨rfl, h1, ?_⟩
              intro hin
              exact h2 ((hbits v e hslot).2 ⟨fun h => h1 h.symm, hin⟩)
        rw [hwr, List.append_nil]
        refine ⟨hnd, ?_⟩
        intro i
        rw [hmem i]
        constructor
        · rintro ⟨d, hdn, a1, a2⟩
          refine ⟨d, hdn, a1, ?_⟩
          rw [length_filter_snoc]
          omega
        · rintro ⟨d, hdn, a1, a2⟩
          rw [length_filter_snoc] at a2
          by_cases hdd : d = rd csr.edges_list e
          · subst hdd
            rw [if_neg hw] at a2
            exact ⟨_, hdn, a1, by omega⟩
          · rw [if_neg (hother d hdd)] at a2
            exact ⟨d, hdn, a1, by omega⟩)
  obtain ⟨hnd, hmem⟩ := h
  refine ⟨hnd, ?_⟩
  intro i
  rw [hmem i]
  constructor
  · rintro ⟨d, hdn, a1, a2⟩
    refine ⟨d, hdn, a1, ?_⟩
    have := prefix_sum_succ degs d
    have := hdegs d hdn
    unfold sym_degree reverse_sources at this
    omega
  · rintro ⟨d, hdn, a1, a2⟩
    refine ⟨d, hdn, a1, ?_⟩
    have := prefix_sum_succ degs d
    have := hdegs d hdn
    unfold sym_degree reverse_sources at this
    omega

/-! ## The writes of step 4 of `csr2sym` -/

theorem copy_edge_writes_fold (csr : ll_400_graph) (flags v : Nat) (L : List Nat)
    (edges : List Nat) (pos : Nat) :
    pure_loop_writes (csr2sym_copy_edge csr flags v) (csr2sym_copy_edge_writes csr flags v)
        (edges, pos) L =
      List.range' pos ((L.map (rd csr.edges_list)).filter (keeps_neighbour flags v)).length := by
  induction L generalizing edges pos with
  | nil => rfl
  | cons e t ih =>
    rw [pure_loop_writes, List.map_cons]
    by_cases hskip : flags &&& 4 ≠ 0 ∧ rd csr.edges_list e = v
    · have hb : csr2sym_copy_edge csr flags v (edges, pos) e = (edges, pos) := by
        unfold csr2sym_copy_edge
        rw [if_pos hskip]
      have hw : csr2sym_copy_edge_writes csr flags v (edges, pos) e = [] := by
        unfold csr2sym_copy_edge_writes
        rw [if_pos hskip]
      rw [hb, hw, List.filter_cons_of_neg (by
        simp only [keeps_neighbour, decide_eq_true_eq]
        exact fun h => h hskip), List.nil_append]
      exact ih edges pos
    · have hb : csr2sym_copy_edge csr flags v (edges, pos) e =
          (edges.set pos (rd csr.edges_list e), pos + 1) := by
        unfold csr2sym_copy_edge
        rw [if_neg hskip]
      have hw : csr2sym_copy_edge_writes csr flags v (edges, pos) e = [pos] := by
        unfold csr2sym_copy_edge_writes
        rw [if_neg hskip]
      rw [hb, hw, List.filter_cons_of_pos (by
        simp only [keeps_neighbour, decide_eq_true_eq]
        exact hskip), List.length_cons, List.range'_succ, ih]
      rfl

/-- The slots of the vertex `v` that step 4 fills. -/
theorem copy_vertex_writes_eq (csr : ll_400_graph) (flags : Nat) (st : sym_state) (cur v : Nat) :
    csr2sym_copy_vertex_writes csr flags (st, cur) v =
      List.range' cur (kept_neighbours csr flags v).length := by
  unfold csr2sym_copy_vertex_writes kept_neighbours neighbour_list
  exact copy_edge_writes_fold csr flags v _ _ _

theorem loop_writes_singleton {σ α : Type} (body : σ → α → Except String σ)
    (writes : σ → α → List Nat) (s : σ) (a : α) :
    loop_writes body writes s [a] = writes s a := by
  rw [loop_writes]
  cases body s a <;> simp [loop_writes]

theorem copy_vertices_writes (csr : ll_400_graph) (flags : Nat) (degs : List Nat)
    (hkept : ∀ v, v < csr.vertices_count → (kept_neighbours csr flags v).length ≤ rd degs v)
    (a k : Nat) (hak : a + k ≤ csr.vertices_count) (st : sym_state)
    (hinv : copy_invariant csr flags degs a st) :
    loop_writes (csr2sym_copy_vertex csr flags) (csr2sym_copy_vertex_writes csr flags)
        (st, prefix_sum degs a) (List.range' a k) =
      (List.range' a k).flatMap
        (fun v => List.range' (prefix_sum degs v) (kept_neighbours csr flags v).length) := by
  induction k with
  | zero => rfl
  | succ k ih =>
    obtain ⟨st', hst', _⟩ := copy_vertices_spec csr flags degs hkept a k (by omega) st hinv
    rw [List.range'_concat, loop_writes_append, ih (by omega), hst', List.flatMap_append]
    simp only [Nat.one_mul, List.flatMap_cons, List.flatMap_nil, List.append_nil]
    rw [loop_writes_singleton, copy_vertex_writes_eq]

theorem copy_partition_writes (csr : ll_400_graph) (flags : Nat) (degs partitions : List Nat)
    (count : Nat) (pte : List Nat)
    (hkept : ∀ v, v < csr.vertices_count → (kept_neighbours csr flags v).length ≤ rd degs v)
    (hcover : partitions_cover partitions count csr.vertices_count)
    (hpte : ∀ q, q < count → rd pte q = prefix_sum degs (rd partitions q))
    (p : Nat) (hp : p < count) (st : sym_state)
    (hinv : copy_invariant csr flags degs (rd partitions p) st) :
    csr2sym_copy_partition_writes csr flags partitions pte st p =
      (partition_vertices partitions p).flatMap
        (fun v => List.range' (prefix_sum degs v) (kept_neighbours csr flags v).length) := by
  unfold csr2sym_copy_partition_writes partition_vertices
  rw [hpte p hp]
  obtain ⟨_, h0, hn, hmono⟩ := hcover
  have h1 := hmono p hp
  have h2 : rd partitions (p + 1) ≤ csr.vertices_count := by
    rw [← hn]
    exact boundaries_mono (fun q => rd partitions q) count hmono (p + 1) count (by omega)
      (Nat.le_refl _)
  exact copy_vertices_writes csr flags degs hkept _ _ (by omega) st hinv

theorem copy_partitions_writes (csr : ll_400_graph) (flags : Nat) (degs partitions : List Nat)
    (count : Nat) (pte : List Nat)
    (hkept : ∀ v, v < csr.vertices_count → (kept_neighbours csr flags v).length ≤ rd degs v)
    (hcover : partitions_cover partitions count csr.vertices_count)
    (hpte : ∀ q, q < count → rd pte q = prefix_sum degs (rd partitions q))
    (st : sym_state) (hinv : copy_invariant csr flags degs 0 st) (j : Nat) (hj : j ≤ count) :
    loop_writes (csr2sym_copy_partition csr flags partitions count pte)
        (csr2sym_copy_partition_writes csr flags partitions pte) st (List.range j) =
      (List.range j).flatMap (fun p => (partition_vertices partitions p).flatMap
        (fun v => List.range' (prefix_sum degs v) (kept_neighbours csr flags v).length)) := by
  induction j with
  | zero => rfl
  | succ j ih =>
    obtain ⟨st', hst', hinv'⟩ := copy_partitions_spec csr flags degs partitions count pte hkept
      hcover hpte st hinv j (by omega)
    rw [List.range_succ, loop_writes_append, ih (by omega), hst', List.flatMap_append]
    simp only [List.flatMap_cons, List.flatMap_nil, List.append_nil]
    rw [loop_writes_singleton, copy_partition_writes csr flags degs partitions count pte hkept
      hcover hpte j (by omega) st' hinv']

/-- The indices written by step 4: the first slots of every vertex, as many as it keeps
input neighbours, in order. -/
theorem step4_writes_spec (pe : par_env) (partitions : List Nat) (csr : ll_400_graph)
    (flags : Nat) (degs : List Nat) (hlen : degs.length = csr.vertices_count + 1)
    (hkept : ∀ v, v < csr.vertices_count → (kept_neighbours csr flags v).length ≤ rd degs v)
    (hcover : partitions_cover partitions (pe.threads_count * 64) csr.vertices_count) :
    csr2sym_step4_writes pe partitions csr flags degs (csr2sym_step3 pe partitions degs) =
      (List.range csr.vertices_count).flatMap
        (fun v => List.range' (prefix_sum degs v) (kept_neighbours csr flags v).length) := by
  obtain ⟨s1, s2⟩ := step3_spec pe partitions degs csr.vertices_count hcover
  unfold csr2sym_step4_writes
  rw [copy_partitions_writes csr flags degs partitions (pe.threads_count * 64)
    (csr2sym_step3 pe partitions degs).1 hkept hcover s2 _ (by
      refine ⟨by simp [hlen], by simp; omega, by simp [s1], ?_, ?_, ?_, ?_, ?_⟩
      · intro v hv; omega
      · intro v _ hv
        show rd (degs.set _ _) v = _
        rw [rd_set_ne _ _ _ _ (by omega)]
      · show rd (degs.set _ _) _ = _
        rw [rd_set_eq _ _ _ (by omega), s1]
      · intro v hv; omega
      · intro v hv; omega) (pe.threads_count * 64) (Nat.le_refl _)]
  rw [← List.flatMap_assoc]
  obtain ⟨_, h0, hn, hmono⟩ := hcover
  unfold partition_vertices
  rw [flatMap_boundaries (fun p => rd partitions p) _ h0 hmono, hn]

theorem exists_prefix_sum_slot (degs : List Nat) (n i : Nat) (hi : i < prefix_sum degs n) :
    ∃ d, d < n ∧ prefix_sum degs d ≤ i ∧ i < prefix_sum degs (d + 1) := by
  induction n with
  | zero => simp [prefix_sum] at hi
  | succ n ih =>
    by_cases hlt : i < prefix_sum degs n
    · obtain ⟨d, hd, h1, h2⟩ := ih hlt
      exact ⟨d, by omega, h1, h2⟩
    · exact ⟨n, by omega, by omega, hi⟩

/-! ## Every slot of the symmetric graph is written once -/

theorem steps_copy_invariant (pe : par_env) (partitions : List Nat) (csr : ll_400_graph)
    (flags : Nat) (hwf : well_formed csr) (hsorted : sorted_neighbour_lists csr)
    (hcover : partitions_cover partitions (pe.threads_count * 64) csr.vertices_count) :
    ∃ offs1 degs st0,
      csr2sym_step1 pe partitions csr flags = Except.ok offs1 ∧
      csr2sym_step2 pe partitions csr offs1 = Except.ok degs ∧
      degs.1.length = csr.vertices_count + 1 ∧
      (∀ d, d < csr.vertices_count → rd degs.1 d = sym_degree csr flags d) ∧
      (∀ v e, (v, e) ∈ all_slots csr → (edge_bit degs.2 e ↔
        rd csr.edges_list e ≠ v ∧ v ∈ neighbour_list csr (rd csr.edges_list e))) ∧
      (∀ v, v < csr.vertices_count → (kept_neighbours csr flags v).length ≤ rd degs.1 v) ∧
      csr2sym_step4 pe partitions csr flags degs.1 (csr2sym_step3 pe partitions degs.1) =
        Except.ok st0 ∧
      copy_invariant csr flags degs.1 csr.vertices_count st0 := by
  have h1 := step1_range csr flags (List.replicate (1 + csr.vertices_count) 0)
    csr.vertices_count hwf.2.2.2.1
  rcases h1 with h1 | h1
  · obtain ⟨⟨v, hv, hu⟩, _⟩ := h1
    exact absurd hu (not_unsorted_of_sorted csr v (hsorted v hv))
  obtain ⟨_, offs1, hs1, hlen1, hlow1, hhigh1⟩ := h1
  obtain ⟨degs, hs2, hlen2, hdeg2, hbit2⟩ := step2_slots csr hwf hsorted offs1
    (by rw [hlen1]; simp; omega)
  have hdegs : ∀ d, d < csr.vertices_count → rd degs.1 d = sym_degree csr flags d := by
    intro d hd
    rw [hdeg2 d, hlow1 d hd (by simp; omega)]
    rfl
  have hbits : ∀ v e, (v, e) ∈ all_slots csr → (edge_bit degs.2 e ↔
      rd csr.edges_list e ≠ v ∧ v ∈ neighbour_list csr (rd csr.edges_list e)) := by
    intro v e hslot
    rw [hbit2 e]
    constructor
    · rintro ⟨v', h1, h2⟩
      have := slot_source_unique csr hwf v v' e hslot h1
      subst this
      exact h2
    · intro h
      exact ⟨v, hslot, h⟩
  have hkept : ∀ v, v < csr.vertices_count →
      (kept_neighbours csr flags v).length ≤ rd degs.1 v := by
    intro v hv
    rw [hdegs v hv]
    unfold sym_degree
    omega
  obtain ⟨st0, hs4, hinv4⟩ := step4_spec pe partitions csr flags degs.1 hlen2 hkept hcover
  refine ⟨offs1, degs, st0, ?_, ?_, hlen2, hdegs, hbits, hkept, hs4, hinv4⟩
  · unfold csr2sym_step1
    rw [for_partition_vertices_eq partitions _ _ hcover]
    exact hs1
  · rw [csr2sym_step2_eq pe partitions csr hcover]
    exact hs2

/-- Steps 4 and 5 of `csr2sym` write every index below `edges_count` once. -/
theorem csr2sym_writes_perm (pe : par_env) (partitions : List Nat) (csr : ll_400_graph)
    (flags : Nat) (hwf : well_formed csr) (hsorted : sorted_neighbour_lists csr)
    (hcover : partitions_cover partitions (pe.threads_count * 64) csr.vertices_count) :
    (csr2sym_writes pe partitions csr flags).Perm
      (List.range (sym_offset csr flags csr.vertices_count)) := by
  obtain ⟨offs1, degs, st0, h1, h2, hlen, hdegs, hbits, hkept, h4, hinv⟩ :=
    steps_copy_invariant pe partitions csr flags hwf hsorted hcover
  have hw4 := step4_writes_spec pe partitions csr flags degs.1 hlen hkept hcover
  obtain ⟨nd5, mem5⟩ := step5_writes_spec pe partitions csr flags hwf hcover degs.1 degs.2
    hdegs hbits st0 hinv
  have hsucc : ∀ d, d < csr.vertices_count →
      prefix_sum degs.1 d + (kept_neighbours csr flags d).length ≤ prefix_sum degs.1 (d + 1) := by
    intro d hd
    have := prefix_sum_succ degs.1 d
    have := hkept d hd
    omega
  have mem4 : ∀ i, i ∈ csr2sym_step4_writes pe partitions csr flags degs.1
      (csr2sym_step3 pe partitions degs.1) ↔
      ∃ d, d < csr.vertices_count ∧ prefix_sum degs.1 d ≤ i ∧
        i < prefix_sum degs.1 d + (kept_neighbours csr flags d).length := by
    intro i
    rw [hw4]
    simp only [List.mem_flatMap, List.mem_range, List.mem_range'_1]
  have nd4 : (csr2sym_step4_writes pe partitions csr flags degs.1
      (csr2sym_step3 pe partitions degs.1)).Nodup := by
    rw [hw4, List.nodup_flatMap]
    refine ⟨fun v _ => List.nodup_range' _ _, ?_⟩
    have hp : (List.range csr.vertices_count).Pairwise (fun a b => a < b) :=
      List.pairwise_lt_range _
    have hp2 : (List.range csr.vertices_count).Pairwise
        (fun a b => a < csr.vertices_count ∧ b < csr.vertices_count ∧ a < b) := by
      rw [List.pairwise_iff_getElem] at hp ⊢
      intro i j hi hj hij
      have := hp i j hi hj hij
      simp only [List.getElem_range] at this ⊢
      simp only [List.length_range] at hi hj
      exact ⟨hi, hj, this⟩
    refine hp2.imp ?_
    rintro a b ⟨ha, hb, hab⟩
    intro i hi1 hi2
    rw [List.mem_range'_1] at hi1 hi2
    have := hsucc a ha
    have := prefix_sum_mono degs.1 (a + 1) b (by omega)
    omega
  have hsame : ∀ d d' i, d < csr.vertices_count → d' < csr.vertices_count →
      prefix_sum degs.1 d ≤ i → i < prefix_sum degs.1 (d + 1) →
      prefix_sum degs.1 d' ≤ i → i < prefix_sum degs.1 (d' + 1) → d = d' := by
    intro d d' i _ _ a1 a2 b1 b2
    rcases Nat.lt_trichotomy d d' with hlt | heq | hgt
    · have := prefix_sum_mono degs.1 (d + 1) d' (by omega)
      omega
    · exact heq
    · have := prefix_sum_mono degs.1 (d' + 1) d (by omega)
      omega
  have htotal : sym_offset csr flags csr.vertices_count =
      prefix_sum degs.1 csr.vertices_count :=
    (prefix_sum_eq_sym_offset csr flags degs.1 hdegs csr.vertices_count (Nat.le_refl _)).symm
  unfold csr2sym_writes
  rw [h1]
  simp only []
  rw [h2]
  simp only []
  rw [h4]
  simp only []
  rw [List.perm_ext_iff_of_nodup (by
    rw [List.nodup_append]
    refine ⟨nd4, nd5, ?_⟩
    intro i hi1 hi2
    obtain ⟨d, hd, a1, a2⟩ := (mem4 i).1 hi1
    obtain ⟨d', hd', b1, b2⟩ := (mem5 i).1 hi2
    have := hsucc d hd
    have := hsame d d' i hd hd' a1 (by omega) (by omega) b2
    subst this
    omega) (List.nodup_range _)]
  intro i
  rw [List.mem_append, mem4 i, mem5 i, List.mem_range, htotal]
  constructor
  · rintro (⟨d, hd, a1, a2⟩ | ⟨d, hd, a1, a2⟩)
    · have := hsucc d hd
      have := prefix_sum_mono degs.1 (d + 1) csr.vertices_count (by omega)
      omega
    · have := prefix_sum_mono degs.1 (d + 1) csr.vertices_count (by omega)
      omega
  · intro hi
    obtain ⟨d, hd, a1, a2⟩ := exists_prefix_sum_slot degs.1 csr.vertices_count i hi
    by_cases hk : i < prefix_sum degs.1 d + (kept_neighbours csr flags d).length
    · left; exact ⟨d, hd, a1, hk⟩
    · right; exact ⟨d, hd, by omega, a2⟩

/-- Validation asked for without sorting stops at the assertion on the flags, after the
first validation has passed. -/
theorem validate_without_sort (pe : par_env) (partitions : List Nat) (csr : ll_400_graph)
    (flags : Nat) (hwf : well_formed csr) (hsorted : sorted_neighbour_lists csr)
    (hcover : partitions_cover partitions (pe.threads_count * 64) csr.vertices_count)
    (hf : flags &&& 2 = 0) (out : ll_400_graph) (last : List Nat)
    (hn : out.vertices_count = csr.vertices_count)
    (hec : out.edges_count = sym_offset csr flags csr.vertices_count)
    (hoffs : ∀ d, d ≤ csr.vertices_count → rd out.offsets_list d = sym_offset csr flags d)
    (hlast : ∀ d, d < csr.vertices_count → rd last d = rd out.offsets_list (d + 1))
    (hnl : ∀ d, d < csr.vertices_count → neighbour_list out d = out_neighbours csr flags d) :
    csr2sym_validate pe partitions csr out last flags =
      Except.error "Neighbour-list should be sorted for the second evaluation." := by
  have hmem : ∀ d s, d < csr.vertices_count → (s ∈ neighbour_list out d ↔
      (s ∈ neighbour_list csr d ∨ d ∈ neighbour_list csr s) ∧ ¬ (flags &&& 4 ≠ 0 ∧ s = d)) := by
    intro d s hd
    rw [hnl d hd, mem_out_neighbours, mem_sym_neighbours csr hwf]
  have hv1 : for_partition_vertices partitions (pe.threads_count * 64)
      (csr2sym_validate1_vertex csr out last flags) () = Except.ok () := by
    rw [for_partition_vertices_eq partitions _ _ hcover]
    apply foldlM_unit_ok
    intro v hv
    rw [List.mem_range] at hv
    unfold csr2sym_validate1_vertex
    rw [if_neg (by rw [hlast v hv]; simp), if_neg (by
      rw [hoffs v (by omega), hoffs (v + 1) (by omega), sym_offset_succ]; omega)]
    apply foldlM_unit_ok
    intro e he
    have hsrc : rd out.edges_list e ∈ neighbour_list out v := List.mem_map_of_mem _ he
    have hsrcn : rd out.edges_list e < csr.vertices_count := by
      rw [hnl v hv, mem_out_neighbours] at hsrc
      exact mem_sym_neighbours_lt csr hwf flags v _ hv hsrc
    rw [hmem v _ hv] at hsrc
    unfold csr2sym_validate1_edge
    rw [if_neg hsrc.2]
    have hb1 := uint_binary_search_isSome csr (rd out.edges_list e) v (hsorted _ hsrcn)
    have hb2 := uint_binary_search_isSome csr v (rd out.edges_list e) (hsorted _ hv)
    by_cases h1 : v ∈ neighbour_list csr (rd out.edges_list e)
    · rw [if_pos (hb1.2 h1)]
    · rw [if_neg (fun h => h1 (hb1.1 h))]
      rcases hsrc.1 with h2 | h2
      · rw [if_pos (hb2.2 h2)]
      · exact absurd h2 h1
  unfold csr2sym_validate
  rw [if_neg (by rw [hn]; simp), if_neg (by rw [hoffs 0 (by omega)]; simp [sym_offset]),
    if_neg (by rw [hn, hoffs _ (Nat.le_refl _), hec]; simp), hv1]
  simp only []
  rw [if_pos hf]

/-! ## Claim on the assertions of `csr2sym` -/

/-- C25: under the precondition (well-formed CSR, strictly increasing neighbour-lists,
partitions covering `0 .. n` in order) none of the internal assertions of `csr2sym` can
fail - sorted lists, `degree >= 0`, symmetric bit not already set,
`last_offset <= current_offset`, partition running offset == next partition's start,
`prev_offset < offsets_list[dest+1]` -: steps 1 to 5 run to their end, and at the end
`last_offsets[v] == offsets_list[v+1]` for every `v`; the indices of the output
`edges_list` written by steps 4 and 5 are `0 .. edges_count - 1`, each exactly once.  The
validation block passes too, so that `csr2sym` returns the graph built, unless validation
is asked for without sorting, where the assertion on the flags stops it. -/
theorem csr2sym_assertions_hold (pe : par_env) (partitions : List Nat) (csr : ll_400_graph)
    (flags : Nat) (hwf : well_formed csr) (hsorted : sorted_neighbour_lists csr)
    (hcover : partitions_cover partitions (pe.threads_count * 64) csr.vertices_count) :
    ∃ out last,
      csr2sym_build pe partitions csr flags = Except.ok (out, last) ∧
      (∀ v, v < csr.vertices_count → rd last v = rd out.offsets_list (v + 1)) ∧
      out.edges_list.length = out.edges_count ∧
      (csr2sym_writes pe partitions csr flags).Perm (List.range out.edges_count) ∧
      ((flags &&& 1 = 0 ∨ flags &&& 2 ≠ 0) →
        csr2sym pe partitions csr flags = Except.ok out) ∧
      (flags &&& 1 ≠ 0 → flags &&& 2 = 0 →
        csr2sym pe partitions csr flags =
          Except.error "Neighbour-list should be sorted for the second evaluation.") := by
  obtain ⟨_, _, out, last, _, _, hb, _, f1, f2, f3, f4, f5, f6, f7⟩ :=
    build_spec pe partitions csr flags hwf hsorted hcover
  refine ⟨out, last, hb, f6, f4, ?_, ?_, ?_⟩
  · rw [f2]
    exact csr2sym_writes_perm pe partitions csr flags hwf hsorted hcover
  · intro hflags
    unfold csr2sym
    rw [hb]
    simp only []
    by_cases hf : flags &&& 1 ≠ 0
    · rw [if_pos hf]
      have hf2 : flags &&& 2 ≠ 0 := by
        rcases hflags with h | h
        · exact absurd h hf
        · exact h
      rw [validate_spec pe partitions csr flags hwf hsorted hcover hf2 out last f1 f2 f5 f6 f7]
    · rw [if_neg hf]
  · intro hf1 hf2
    unfold csr2sym
    rw [hb]
    simp only []
    rw [if_pos hf1, validate_without_sort pe partitions csr flags hwf hsorted hcover hf2 out
      last f1 f2 f5 f6 f7]

theorem csr2sym_assertions_hold_witness :
    well_formed sample_csr ∧ sorted_neighbour_lists sample_csr ∧
    partitions_cover sample_partitions (sample_pe.threads_count * 64) sample_csr.vertices_count ∧
    csr2sym_writes sample_pe sample_partitions sample_csr 6 = [0, 2, 4, 6, 7, 5, 1, 3] ∧
    ∃ out last,
      csr2sym_build sample_pe sample_partitions sample_csr 6 = Except.ok (out, last) ∧
      (∀ v, v < sample_csr.vertices_count → rd last v = rd out.offsets_list (v + 1)) ∧
      out.edges_list.length = out.edges_count ∧
      (csr2sym_writes sample_pe sample_partitions sample_csr 6).Perm
        (List.range out.edges_count) ∧
      (((6 : Nat) &&& 1 = 0 ∨ (6 : Nat) &&& 2 ≠ 0) →
        csr2sym sample_pe sample_partitions sample_csr 6 = Except.ok out) ∧
      ((6 : Nat) &&& 1 ≠ 0 → (6 : Nat) &&& 2 = 0 →
        csr2sym sample_pe sample_partitions sample_csr 6 =
          Except.error "Neighbour-list should be sorted for the second evaluation.") :=
  ⟨by decide, by decide, by decide, by decide,
    csr2sym_assertions_hold sample_pe sample_partitions sample_csr 6 (by decide) (by decide)
      (by decide)⟩

/-! ## The slots written by `add_4B_weight_to_ll_400_graph` -/

theorem mirror_edges_succ (g : ll_400_graph) (v k e : Nat) (st : List Nat × List Nat) :
    add_4B_weight_mirror_edges g v (k + 1) e st =
      if rd g.edges_list e ≥ v then st
      else add_4B_weight_mirror_edges g v k (e + 1) (add_4B_weight_mirror_edge g v e st) := by
  rw [add_4B_weight_mirror_edges]
  rfl

/-- One iteration of step 2 on the slot `e` of `v`: the cursor of the neighbour stands on
the slot of `v` in the list of the neighbour, which is the slot written. -/
theorem mirror_edge_step (g : ll_400_graph) (hwf : well_formed g)
    (hsorted : sorted_neighbour_lists g) (hsym : symmetric_graph g)
    (cursor1 edges1 : List Nat)
    (hc1 : ∀ u, u < g.vertices_count → boundary g u (rd cursor1 u) (u + 1))
    (v : Nat) (hv : v < g.vertices_count) (e : Nat)
    (he1 : rd g.offsets_list v ≤ e) (he2 : e < rd g.offsets_list (v + 1))
    (hbreak : ¬ rd g.edges_list e ≥ v)
    (st : List Nat × List Nat) (h : mirror_inner g cursor1 edges1 v e st) :
    mirror_inner g cursor1 edges1 v (e + 1) (add_4B_weight_mirror_edge g v e st) ∧
    rd g.offsets_list (rd g.edges_list e) ≤ rd st.1 (rd g.edges_list e) ∧
    rd st.1 (rd g.edges_list e) < rd g.offsets_list (rd g.edges_list e + 1) ∧
    rd g.edges_list (rd st.1 (rd g.edges_list e)) = v := by
  have hsv := hsorted v hv
  -- one iteration of the loop
  obtain ⟨⟨l1, l2, k1, k2⟩, hb1, hb2⟩ := h
  have hu : rd g.edges_list e < g.vertices_count :=
    slot_dest_lt g hwf v e ((mem_all_slots g v e).2 ⟨hv, he1, by omega⟩)
  have hsu := hsorted _ hu
  have huv : rd g.edges_list e < v := by omega
  have hbu := hb1 _ hu ⟨e, Nat.le_refl _, by omega, rfl, huv⟩
  have emax : max v (rd g.edges_list e + 1) = v := by omega
  rw [emax] at hbu
  -- the slot of `v` in the list of the neighbour is where its cursor stands
  have hmem : v ∈ neighbour_list g (rd g.edges_list e) :=
    hsym v hv _ hu ((mem_neighbour_list g v _).2 ⟨e, he1, by omega, rfl⟩)
  rw [mem_neighbour_list] at hmem
  obtain ⟨p, p1, p2, p3⟩ := hmem
  have hpc := boundary_slot g _ _ v p hsu hbu p1 p2 p3
  have hcursor : rd st.1 (rd g.edges_list e) = p := hpc.symm
  rw [← hpc] at hbu
  have hc1u := hc1 _ hu
  have hc1le := boundary_le g _ _ _ _ _ (by omega) hc1u hbu
  have hpec : p < g.edges_count := by
    have := offsets_mono g hwf (rd g.edges_list e + 1) g.vertices_count (by omega)
      (Nat.le_refl _)
    rw [hwf.2.2.2.2.1] at this
    omega
  -- the slot `e` is below the cursor that step 1 left for `v`
  have helow : e < rd cursor1 v := by
    by_contra hge
    have := (hc1 v hv).2.2.2 e (by omega) (by omega)
    omega
  have hread : rd (st.2.set (2 * p) v) (2 * e + 1) = rd edges1 (2 * e + 1) := by
    rw [rd_set_ne _ _ _ _ (by omega)]
    exact (k1 v hv e he1 helow).2
  have hkeep : ∀ i, i ≠ p →
      rd ((st.2.set (2 * p) v).set (2 * p + 1) (rd edges1 (2 * e + 1))) (2 * i) =
        rd st.2 (2 * i) ∧
      rd ((st.2.set (2 * p) v).set (2 * p + 1) (rd edges1 (2 * e + 1))) (2 * i + 1) =
        rd st.2 (2 * i + 1) := by
    intro i hi
    rw [rd_set_ne _ _ _ _ (by omega), rd_set_ne _ _ _ _ (by omega),
      rd_set_ne _ _ _ _ (by omega), rd_set_ne _ _ _ _ (by omega)]
    exact ⟨rfl, rfl⟩
  refine ⟨?_, by rw [hcursor]; exact p1, by rw [hcursor]; exact p2, by rw [hcursor]; exact p3⟩
  unfold add_4B_weight_mirror_edge
  rw [hcursor, hread]
  refine ⟨⟨by simp [l1], by simp [l2], ?_, ?_⟩, ?_, ?_⟩
  · -- the slots settled by step 1
    intro u' hu' i i1 i2
    have hne : i ≠ p := by
      rintro rfl
      have hb' := hc1 u' hu'
      have := slots_disjoint g hwf u' (rd g.edges_list e) i hu' hu i1
        (by have := hb'.2.1; omega) p1 p2
      subst this
      omega
    show rd _ (2 * i) = _ ∧ rd _ (2 * i + 1) = _
    rw [(hkeep i hne).1, (hkeep i hne).2]
    exact k1 u' hu' i i1 i2
  · -- the slots settled by step 2
    intro u' hu' i i1 i2
    show rd _ (2 * i) = _ ∧ ∃ e', _ ∧ _ ∧ _ ∧ rd _ (2 * i + 1) = _
    by_cases hip : i = p
    · rw [hip] at i1 i2 ⊢
      have huu : u' = rd g.edges_list e := by
        have hb' := hc1 u' hu'
        by_contra hne
        have hcur : rd (st.1.set (rd g.edges_list e) (p + 1)) u'
            = rd st.1 u' := rd_set_ne _ _ _ _ (fun h => hne h.symm)
        rw [hcur] at i2
        have hbnd : boundary g u' (rd st.1 u') (max (v + 1) (u' + 1)) ∨
            boundary g u' (rd st.1 u') (max v (u' + 1)) := by
          by_cases hp : ∃ i, e ≤ i ∧ i < rd g.offsets_list (v + 1) ∧
              rd g.edges_list i = u' ∧ u' < v
          · right; exact hb1 u' hu' hp
          · left; exact hb2 u' hu' hp
        have hle : rd st.1 u' ≤ rd g.offsets_list (u' + 1) := by
          rcases hbnd with hh | hh <;> exact hh.2.1
        exact hne (slots_disjoint g hwf u' (rd g.edges_list e) p hu' hu
          (by have := hb'.1; omega) (by omega) p1 p2)
      subst huu
      refine ⟨?_, e, ?_, ?_, rfl, ?_⟩
      · rw [rd_set_ne _ _ _ _ (by omega), rd_set_eq _ _ _ (by rw [l2]; omega), p3]
      · rw [p3]; exact he1
      · rw [p3]; omega
      · rw [rd_set_eq _ _ _ (by simp; rw [l2]; omega)]
    · have hcur : i < rd st.1 u' := by
        by_cases huu : rd g.edges_list e = u'
        · subst huu
          have : rd (st.1.set (rd g.edges_list e) (p + 1))
              (rd g.edges_list e) = p + 1 :=
            rd_set_eq _ _ _ (by omega)
          rw [this] at i2
          omega
        · have : rd (st.1.set (rd g.edges_list e) (p + 1)) u'
              = rd st.1 u' := rd_set_ne _ _ _ _ huu
          rw [this] at i2
          exact i2
      rw [(hkeep i hip).1, (hkeep i hip).2]
      exact k2 u' hu' i i1 hcur
  · -- the cursors of the neighbours still to come
    intro u' hu' hpend
    obtain ⟨i, i1, i2, i3, i4⟩ := hpend
    have hne : rd g.edges_list e ≠ u' := by
      intro heq
      have := sorted_pointwise g v hsv e i he1 (by omega) i2
      omega
    show boundary g u' (rd (st.1.set _ _) u') _
    rw [rd_set_ne _ _ _ _ hne]
    exact hb1 u' hu' ⟨i, by omega, i2, i3, i4⟩
  · -- the cursors that are final for `v`
    intro u' hu' hnp
    show boundary g u' (rd (st.1.set _ _) u') _
    by_cases huu : rd g.edges_list e = u'
    · subst huu
      rw [rd_set_eq _ _ _ (by omega)]
      have emax' : max (v + 1) (rd g.edges_list e + 1) = v + 1 := by omega
      rw [emax']
      obtain ⟨b1, b2, b3, b4⟩ := hbu
      refine ⟨by omega, by omega, ?_, ?_⟩
      · intro i i1 i2
        by_cases hip : i = p
        · rw [hip, p3]; omega
        · have := b3 i i1 (by omega)
          omega
      · intro i i1 i2
        have := sorted_pointwise g _ hsu p i p1 (by omega) i2
        omega
    · rw [rd_set_ne _ _ _ _ huu]
      apply hb2 u' hu'
      rintro ⟨i, i1, i2, i3, i4⟩
      by_cases hie : i = e
      · subst hie; exact huu i3
      · exact hnp ⟨i, by omega, i2, i3, i4⟩

theorem mirror_writes_finish (g : ll_400_graph) (hsym : symmetric_graph g)
    (v : Nat) (hv : v < g.vertices_count) (e : Nat)
    (hdone : ∀ i, e ≤ i → i < rd g.offsets_list (v + 1) → v ≤ rd g.edges_list i)
    (w : List (Nat × Nat)) (h : mirror_writes_inner g v e w) :
    mirror_writes_outer g (v + 1) w := by
  obtain ⟨hnd, hmem⟩ := h
  refine ⟨hnd, ?_⟩
  intro u p
  rw [hmem u p]
  constructor
  · rintro ⟨a1, a2, a3, a4, a5⟩
    refine ⟨a1, a2, a3, a4, ?_⟩
    rcases a5 with a5 | ⟨a5, _⟩ <;> omega
  · rintro ⟨a1, a2, a3, a4, a5⟩
    refine ⟨a1, a2, a3, a4, ?_⟩
    by_cases hlt : rd g.edges_list p < v
    · left; exact hlt
    · right
      have hpv : rd g.edges_list p = v := by omega
      refine ⟨hpv, ?_⟩
      have hmemv : u ∈ neighbour_list g v := by
        apply hsym u a1 v hv
        rw [mem_neighbour_list]
        exact ⟨p, a2, a3, hpv⟩
      rw [mem_neighbour_list] at hmemv
      obtain ⟨i, i1, i2, i3⟩ := hmemv
      refine ⟨i, i1, ?_, i3⟩
      by_contra hge
      have := hdone i (by omega) i2
      omega

/-- The slots written by the loop of step 2 over the edges of `v`. -/
theorem mirror_edges_writes_spec (g : ll_400_graph) (hwf : well_formed g)
    (hsorted : sorted_neighbour_lists g) (hsym : symmetric_graph g)
    (cursor1 edges1 : List Nat)
    (hc1 : ∀ u, u < g.vertices_count → boundary g u (rd cursor1 u) (u + 1))
    (v : Nat) (hv : v < g.vertices_count) (k e : Nat)
    (he1 : rd g.offsets_list v ≤ e) (he2 : e + k = rd g.offsets_list (v + 1))
    (st : List Nat × List Nat) (h : mirror_inner g cursor1 edges1 v e st)
    (w : List (Nat × Nat)) (hw : mirror_writes_inner g v e w) :
    mirror_writes_outer g (v + 1) (w ++ add_4B_weight_mirror_edges_writes g v k e st) := by
  induction k generalizing e st w with
  | zero =>
    rw [add_4B_weight_mirror_edges_writes, List.append_nil]
    exact mirror_writes_finish g hsym v hv e (fun i i1 i2 => by omega) w hw
  | succ k ih =>
    rw [add_4B_weight_mirror_edges_writes]
    have hsv := hsorted v hv
    by_cases hbreak : rd g.edges_list e ≥ v
    · rw [if_pos hbreak, List.append_nil]
      refine mirror_writes_finish g hsym v hv e ?_ w hw
      intro i i1 i2
      by_cases hie : i = e
      · subst hie; exact hbreak
      · have := sorted_pointwise g v hsv e i he1 (by omega) i2
        omega
    · rw [if_neg hbreak]
      obtain ⟨hstep, c1, c2, c3⟩ := mirror_edge_step g hwf hsorted hsym cursor1 edges1 hc1 v hv
        e he1 (by omega) hbreak st h
      have hu : rd g.edges_list e < g.vertices_count :=
        slot_dest_lt g hwf v e ((mem_all_slots g v e).2 ⟨hv, he1, by omega⟩)
      have := ih (e + 1) (by omega) (by omega) _ hstep
        (w ++ [(rd g.edges_list e, rd st.1 (rd g.edges_list e))]) (by
          obtain ⟨hnd, hmem⟩ := hw
          constructor
          · rw [List.nodup_append]
            refine ⟨hnd, List.nodup_singleton _, ?_⟩
            intro x hx1 hx2
            rw [List.mem_singleton] at hx2
            subst hx2
            obtain ⟨_, _, _, _, a5⟩ := (hmem _ _).1 hx1
            rcases a5 with a5 | ⟨_, i, i1, i2, i3⟩
            · omega
            · have := sorted_pointwise g v hsv i e i1 i2 (by omega)
              omega
          · intro u p
            rw [List.mem_append, List.mem_singleton, hmem u p, Prod.mk.injEq]
            constructor
            · rintro (⟨a1, a2, a3, a4, a5⟩ | ⟨rfl, rfl⟩)
              · refine ⟨a1, a2, a3, a4, ?_⟩
                rcases a5 with a5 | ⟨a5, i, i1, i2, i3⟩
                · left; exact a5
                · right; exact ⟨a5, i, i1, by omega, i3⟩
              · exact ⟨hu, c1, c2, by omega, Or.inr ⟨c3, e, he1, by omega, rfl⟩⟩
            · rintro ⟨a1, a2, a3, a4, a5⟩
              rcases a5 with a5 | ⟨a5, i, i1, i2, i3⟩
              · left; exact ⟨a1, a2, a3, a4, Or.inl a5⟩
              · by_cases hie : i = e
                · right
                  subst hie
                  subst i3
                  refine ⟨rfl, ?_⟩
                  exact slot_value_unique g _ p _ (hsorted _ hu) a2 a3 c1 c2 (by rw [a5, c3])
                · left
                  exact ⟨a1, a2, a3, a4, Or.inr ⟨a5, i, i1, by omega, i3⟩⟩)
      rw [List.append_assoc] at this
      exact this

/-- The state and the slots written by step 2 once the vertices below `b` are done. -/
theorem mirror_vertices_writes (g : ll_400_graph) (hwf : well_formed g)
    (hsorted : sorted_neighbour_lists g) (hsym : symmetric_graph g)
    (cursor1 edges1 : List Nat)
    (hc1 : ∀ u, u < g.vertices_count → boundary g u (rd cursor1 u) (u + 1))
    (st : List Nat × List Nat) (h : mirror_outer g cursor1 edges1 0 st)
    (b : Nat) (hb : b ≤ g.vertices_count) :
    ((List.range b).foldl (add_4B_weight_mirror_vertex_logged g) (st, [])).1 =
      (List.range b).foldl (add_4B_weight_mirror_vertex g) st ∧
    mirror_writes_outer g b
      ((List.range b).foldl (add_4B_weight_mirror_vertex_logged g) (st, [])).2 := by
  induction b with
  | zero =>
    refine ⟨rfl, List.nodup_nil, ?_⟩
    intro u p
    simp
  | succ b ih =>
    obtain ⟨i1, i2⟩ := ih (by omega)
    rw [List.range_succ, List.foldl_append, List.foldl_append]
    simp only [List.foldl_cons, List.foldl_nil]
    generalize (List.range b).foldl (add_4B_weight_mirror_vertex_logged g) (st, []) = acc
      at i1 i2 ⊢
    obtain ⟨s, w⟩ := acc
    dsimp only at i1 i2
    subst i1
    refine ⟨rfl, ?_⟩
    show mirror_writes_outer g (b + 1)
      (w ++ add_4B_weight_mirror_edges_writes g b
        (rd g.offsets_list (b + 1) - rd g.offsets_list b) (rd g.offsets_list b)
        ((List.range b).foldl (add_4B_weight_mirror_vertex g) st))
    have hout := mirror_vertices_spec g hwf hsorted hsym cursor1 edges1 hc1 st h b (by omega)
    have hmono := hwf.2.2.2.1 b (by omega)
    refine mirror_edges_writes_spec g hwf hsorted hsym cursor1 edges1 hc1 b (by omega) _ _
      (Nat.le_refl _) (by omega) _
      (mirror_inner_of_outer g hsym cursor1 edges1 b (by omega) _ hout) _ ?_
    obtain ⟨hnd, hmem⟩ := i2
    refine ⟨hnd, ?_⟩
    intro u p
    rw [hmem u p]
    constructor
    · rintro ⟨a1, a2, a3, a4, a5⟩
      exact ⟨a1, a2, a3, a4, Or.inl a5⟩
    · rintro ⟨a1, a2, a3, a4, a5⟩
      rcases a5 with a5 | ⟨_, i, j1, j2, _⟩
      · exact ⟨a1, a2, a3, a4, a5⟩
      · omega

/-! ## Every slot of the weighted graph is written once -/

theorem assign_edges_writes_spec (g : ll_400_graph) (v k e c : Nat) (hc1 : e ≤ c)
    (hc2 : c ≤ e + k) (hlow : ∀ i, e ≤ i → i < c → rd g.edges_list i ≤ v)
    (hhigh : c < e + k → rd g.edges_list c > v) :
    add_4B_weight_assign_edges_writes g v k e =
      (List.range' e (c - e)).map (fun i => (v, i)) := by
  induction k generalizing e with
  | zero =>
    have : c - e = 0 := by omega
    rw [this]
    rfl
  | succ k ih =>
    rw [add_4B_weight_assign_edges_writes]
    by_cases hce : c = e
    · subst hce
      rw [if_pos (hhigh (by omega)), Nat.sub_self]
      rfl
    · rw [if_neg (by have := hlow e (Nat.le_refl _) (by omega); omega),
        ih (e + 1) (by omega) (by omega) (fun i i1 i2 => hlow i (by omega) i2)
          (fun h => hhigh (by omega))]
      have : c - e = (c - (e + 1)) + 1 := by omega
      rw [this, List.range'_succ, List.map_cons]

/-- The slots written by step 1: the slots whose neighbour is not above the vertex. -/
theorem step1_writes_spec (pe : par_env) (partitions : List Nat) (g : ll_400_graph)
    (hwf : well_formed g) (hsorted : sorted_neighbour_lists g)
    (hcover : partitions_cover partitions (pe.threads_count * 64) g.vertices_count)
    (max_weight : Nat) (h1 : 1 ≤ max_weight) (h2 : max_weight < 2 ^ 32) :
    (add_4B_weight_step1_writes pe partitions g).Nodup ∧
    ∀ u p, (u, p) ∈ add_4B_weight_step1_writes pe partitions g ↔
      u < g.vertices_count ∧ rd g.offsets_list u ≤ p ∧ p < rd g.offsets_list (u + 1) ∧
        rd g.edges_list p ≤ u := by
  obtain ⟨_, _, a3, _⟩ := add_4B_weight_step1_spec pe partitions g hwf hsorted hcover
    max_weight h1 h2
  have hflat : add_4B_weight_step1_writes pe partitions g =
      (List.range g.vertices_count).flatMap (fun v =>
        add_4B_weight_assign_edges_writes g v
          (rd g.offsets_list (v + 1) - rd g.offsets_list v) (rd g.offsets_list v)) := by
    unfold add_4B_weight_step1_writes
    rw [← List.flatMap_assoc]
    obtain ⟨_, h0, hn, hmono⟩ := hcover
    unfold partition_vertices
    rw [flatMap_boundaries (fun p => rd partitions p) _ h0 hmono, hn]
  have hvertex : ∀ v, v < g.vertices_count →
      add_4B_weight_assign_edges_writes g v
        (rd g.offsets_list (v + 1) - rd g.offsets_list v) (rd g.offsets_list v) =
      ((edge_slots g.offsets_list v).map (fun e => (v, e))).filter
        (fun x => decide (rd g.edges_list x.2 ≤ x.1)) := by
    intro v hv
    obtain ⟨b1, b2, b3, b4⟩ := a3 v hv
    rw [assign_edges_writes_spec g v _ _ (rd (add_4B_weight_step1 pe partitions g max_weight).1 v)
      b1 (by omega) (fun i i1 i2 => by have := b3 i i1 i2; omega)
      (fun h => by have := b4 _ (Nat.le_refl _) (by omega); omega)]
    rw [List.filter_map]
    congr 1
    have := lower_slots_eq g v _ ⟨b1, b2, b3, b4⟩
    unfold lower_slots at this
    rw [← this]
    rfl
  have hall : add_4B_weight_step1_writes pe partitions g =
      (all_slots g).filter (fun x => decide (rd g.edges_list x.2 ≤ x.1)) := by
    rw [hflat]
    unfold all_slots
    rw [List.filter_flatMap]
    apply List.flatMap_congr
    intro v hv
    rw [List.mem_range] at hv
    exact hvertex v hv
  rw [hall]
  refine ⟨(all_slots_nodup g hwf).filter _, ?_⟩
  intro u p
  rw [List.mem_filter, mem_all_slots, decide_eq_true_iff]
  constructor
  · rintro ⟨⟨a, b, c⟩, d⟩
    exact ⟨a, b, c, d⟩
  · rintro ⟨a, b, c, d⟩
    exact ⟨⟨a, b, c⟩, d⟩

/-- The slots written by steps 1 and 2 are the slots of the graph, each once, and each
write goes to the list of the vertex it is meant for. -/
theorem add_4B_weight_writes_perm (pe : par_env) (partitions : List Nat) (g : ll_400_graph)
    (hwf : well_formed g) (hsorted : sorted_neighbour_lists g) (hsym : symmetric_graph g)
    (hcover : partitions_cover partitions (pe.threads_count * 64) g.vertices_count)
    (max_weight : Nat) (h1 : 1 ≤ max_weight) (h2 : max_weight < 2 ^ 32) :
    (add_4B_weight_writes pe partitions g max_weight).Perm (all_slots g) := by
  obtain ⟨nd1, mem1⟩ := step1_writes_spec pe partitions g hwf hsorted hcover max_weight h1 h2
  obtain ⟨a1, a2, a3, a4⟩ := add_4B_weight_step1_spec pe partitions g hwf hsorted hcover
    max_weight h1 h2
  have hout0 : mirror_outer g (add_4B_weight_step1 pe partitions g max_weight).1
      (add_4B_weight_step1 pe partitions g max_weight).2 0
      (add_4B_weight_step1 pe partitions g max_weight) := by
    refine ⟨⟨a1, a2, ?_, ?_⟩, ?_⟩
    · intro u hu i i1 i2
      exact ⟨(a4 u hu i i1 i2).1, rfl⟩
    · intro u hu i i1 i2
      omega
    · intro u hu
      have e : max 0 (u + 1) = u + 1 := by omega
      rw [e]
      exact a3 u hu
  obtain ⟨_, nd2, mem2⟩ := mirror_vertices_writes g hwf hsorted hsym _ _ a3 _ hout0
    g.vertices_count (Nat.le_refl _)
  unfold add_4B_weight_writes add_4B_weight_step2_writes
  rw [List.perm_ext_iff_of_nodup (by
    rw [List.nodup_append]
    refine ⟨nd1, nd2, ?_⟩
    rintro ⟨u, p⟩ hx1 hx2
    have b1 := (mem1 u p).1 hx1
    have b2 := (mem2 u p).1 hx2
    omega) (all_slots_nodup g hwf)]
  rintro ⟨u, p⟩
  rw [List.mem_append, mem1 u p, mem2 u p, mem_all_slots]
  constructor
  · rintro (⟨b1, b2, b3, _⟩ | ⟨b1, b2, b3, _⟩)
    · exact ⟨b1, b2, b3⟩
    · exact ⟨b1, b2, b3⟩
  · rintro ⟨b1, b2, b3⟩
    by_cases hle : rd g.edges_list p ≤ u
    · left; exact ⟨b1, b2, b3, hle⟩
    · right
      have := slot_dest_lt g hwf u p ((mem_all_slots g u p).2 ⟨b1, b2, b3⟩)
      exact ⟨b1, b2, b3, by omega, this⟩

/-! ## Claim on the cursors of `add_4B_weight_to_ll_400_graph` -/

/-- C27: for every symmetric input graph with strictly increasing neighbour-lists, after
step 2 of `add_4B_weight_to_ll_400_graph` the per-vertex write cursor
`graph->offsets_list[v]` equals `g->offsets_list[v+1]` for every vertex `v`, so that the
assertion of the validation block holds.  Each vertex's list is filled completely: the
slots written by steps 1 and 2, taken with the vertex in whose list the write is meant to
land, are exactly the slots of the graph, each once - no slot is left unwritten and no
write lands in another vertex's list. -/
theorem add_4B_weight_cursors_complete (pe : par_env) (partitions : List Nat)
    (g : ll_400_graph) (max_weight flags : Nat) (hwf : well_formed g)
    (hsorted : sorted_neighbour_lists g) (hsym : symmetric_graph g)
    (hcover : partitions_cover partitions (pe.threads_count * 64) g.vertices_count)
    (h1 : 1 ≤ max_weight) (h2 : max_weight ≤ 2 ^ 32 - 1) :
    (∀ v, v < g.vertices_count →
      rd (add_4B_weight_step2 g (add_4B_weight_step1 pe partitions g max_weight)).1 v =
        rd g.offsets_list (v + 1)) ∧
    (add_4B_weight_writes pe partitions g max_weight).Perm (all_slots g) ∧
    (∀ u p, (u, p) ∈ add_4B_weight_writes pe partitions g max_weight →
      u < g.vertices_count ∧ rd g.offsets_list u ≤ p ∧ p < rd g.offsets_list (u + 1)) ∧
    ((add_4B_weight_writes pe partitions g max_weight).map Prod.snd).Perm
      (List.range g.edges_count) ∧
    (if flags &&& 1 ≠ 0 then
        add_4B_weight_validate g
          (add_4B_weight_step2 g (add_4B_weight_step1 pe partitions g max_weight))
      else Except.ok ()) = Except.ok () := by
  have h2' : max_weight < 2 ^ 32 := by omega
  obtain ⟨_, _, f3, _, _, _⟩ := add_4B_weight_steps_spec pe partitions g hwf hsorted hsym
    hcover max_weight h1 h2'
  have hperm := add_4B_weight_writes_perm pe partitions g hwf hsorted hsym hcover max_weight
    h1 h2'
  refine ⟨f3, hperm, ?_, ?_,
    add_4B_weight_validation_passes pe partitions g max_weight flags hwf hsorted hsym hcover
      h1 h2'⟩
  · intro u p hmem
    exact (mem_all_slots g u p).1 (hperm.mem_iff.1 hmem)
  · rw [← map_snd_all_slots g hwf]
    exact hperm.map _

theorem add_4B_weight_cursors_complete_witness :
    well_formed sample_sym ∧ sorted_neighbour_lists sample_sym ∧ symmetric_graph sample_sym ∧
    partitions_cover sample_partitions (sample_pe.threads_count * 64) sample_sym.vertices_count ∧
    add_4B_weight_writes sample_pe sample_partitions sample_sym 102400 =
      [(2, 4), (2, 5), (3, 6), (3, 7), (0, 0), (1, 2), (0, 1), (1, 3)] ∧
    ((∀ v, v < sample_sym.vertices_count →
      rd (add_4B_weight_step2 sample_sym
          (add_4B_weight_step1 sample_pe sample_partitions sample_sym 102400)).1 v =
        rd sample_sym.offsets_list (v + 1)) ∧
    (add_4B_weight_writes sample_pe sample_partitions sample_sym 102400).Perm
      (all_slots sample_sym) ∧
    (∀ u p, (u, p) ∈ add_4B_weight_writes sample_pe sample_partitions sample_sym 102400 →
      u < sample_sym.vertices_count ∧ rd sample_sym.offsets_list u ≤ p ∧
        p < rd sample_sym.offsets_list (u + 1)) ∧
    ((add_4B_weight_writes sample_pe sample_partitions sample_sym 102400).map Prod.snd).Perm
      (List.range sample_sym.edges_count) ∧
    (if (1 : Nat) &&& 1 ≠ 0 then
        add_4B_weight_validate sample_sym
          (add_4B_weight_step2 sample_sym
            (add_4B_weight_step1 sample_pe sample_partitions sample_sym 102400))
      else Except.ok ()) = Except.ok ()) :=
  ⟨by decide, by decide, by decide, by decide, by decide,
    add_4B_weight_cursors_complete sample_pe sample_partitions sample_sym 102400 1 (by decide)
      (by decide) (by decide) (by decide) (by decide) (by decide)⟩

/-! ## Connectivity in edge lists -/

theorem msf_adjacent_symm (L : List (Nat × Nat × Nat)) (x y : Nat)
    (h : msf_adjacent L x y) : msf_adjacent L y x := by
  obtain ⟨w, h | h⟩ := h
  · exact ⟨w, Or.inr h⟩
  · exact ⟨w, Or.inl h⟩

theorem msf_connected_refl (L : List (Nat × Nat × Nat)) (x : Nat) : msf_connected L x x :=
  Relation.ReflTransGen.refl

theorem msf_connected_trans (L : List (Nat × Nat × Nat)) (x y z : Nat)
    (h1 : msf_connected L x y) (h2 : msf_connected L y z) : msf_connected L x z :=
  Relation.ReflTransGen.trans h1 h2

theorem msf_connected_symm (L : List (Nat × Nat × Nat)) (x y : Nat)
    (h : msf_connected L x y) : msf_connected L y x := by
  unfold msf_connected at h ⊢
  induction h with
  | refl => exact Relation.ReflTransGen.refl
  | tail _ hbc ih =>
    exact Relation.ReflTransGen.head (msf_adjacent_symm L _ _ hbc) ih

theorem msf_connected_of_mem (L : List (Nat × Nat × Nat)) (f : Nat × Nat × Nat) (hf : f ∈ L) :
    msf_connected L f.1 f.2.1 :=
  Relation.ReflTransGen.single ⟨f.2.2, Or.inl hf⟩

theorem msf_connected_mono (L L' : List (Nat × Nat × Nat)) (hsub : ∀ f ∈ L, f ∈ L')
    (x y : Nat) (h : msf_connected L x y) : msf_connected L' x y := by
  unfold msf_connected at h ⊢
  refine Relation.ReflTransGen.mono ?_ h
  rintro a b ⟨w, h | h⟩
  · exact ⟨w, Or.inl (hsub _ h)⟩
  · exact ⟨w, Or.inr (hsub _ h)⟩

/-- A set of vertices that no edge of `L` leaves is closed under connectivity. -/
theorem msf_connected_closed (L : List (Nat × Nat × Nat)) (S : Nat → Prop)
    (hS : ∀ f ∈ L, (S f.1 ↔ S f.2.1)) (x y : Nat) (h : msf_connected L x y) :
    (S x ↔ S y) := by
  unfold msf_connected at h
  induction h with
  | refl => exact Iff.rfl
  | tail _ hbc ih =>
    obtain ⟨w, h | h⟩ := hbc
    · exact ih.trans (hS _ h)
    · exact ih.trans (hS _ h).symm

/-- A path that leaves a set of vertices uses an edge that leaves it. -/
theorem msf_connected_crossing (L : List (Nat × Nat × Nat)) (S : Nat → Prop)
    (x y : Nat) (h : msf_connected L x y) (hx : S x) (hy : ¬ S y) :
    ∃ f ∈ L, (S f.1 ∧ ¬ S f.2.1) ∨ (S f.2.1 ∧ ¬ S f.1) := by
  by_contra hne
  have hS : ∀ f ∈ L, (S f.1 ↔ S f.2.1) := by
    intro f hf
    by_cases h1 : S f.1 <;> by_cases h2 : S f.2.1
    · exact ⟨fun _ => h2, fun _ => h1⟩
    · exact absurd ⟨f, hf, Or.inl ⟨h1, h2⟩⟩ hne
    · exact absurd ⟨f, hf, Or.inr ⟨h2, h1⟩⟩ hne
    · exact ⟨fun h => absurd h h1, fun h => absurd h h2⟩
  exact hy ((msf_connected_closed L S hS x y h).1 hx)

theorem msf_adjacent_append (L : List (Nat × Nat × Nat)) (f : Nat × Nat × Nat) (x y : Nat)
    (h : msf_adjacent (L ++ [f]) x y) :
    msf_adjacent L x y ∨ (x = f.1 ∧ y = f.2.1) ∨ (x = f.2.1 ∧ y = f.1) := by
  obtain ⟨w, h | h⟩ := h
  · rcases List.mem_append.1 h with h | h
    · exact Or.inl ⟨w, Or.inl h⟩
    · rw [List.mem_singleton] at h
      right; left
      rw [← h]
      exact ⟨rfl, rfl⟩
  · rcases List.mem_append.1 h with h | h
    · exact Or.inl ⟨w, Or.inr h⟩
    · rw [List.mem_singleton] at h
      right; right
      rw [← h]
      exact ⟨rfl, rfl⟩

/-- A path through `L` and one more edge `f` is a path through `L`, or runs through `L`
to one end of `f` and from the other end on. -/
theorem msf_connected_append (L : List (Nat × Nat × Nat)) (f : Nat × Nat × Nat) (x y : Nat)
    (h : msf_connected (L ++ [f]) x y) :
    msf_connected L x y ∨ (msf_connected L x f.1 ∧ msf_connected L f.2.1 y) ∨
      (msf_connected L x f.2.1 ∧ msf_connected L f.1 y) := by
  unfold msf_connected at h
  induction h with
  | refl => exact Or.inl (msf_connected_refl L x)
  | @tail c d _ hcd ih =>
    rcases msf_adjacent_append L f c d hcd with hadj | ⟨hc, hd⟩ | ⟨hc, hd⟩
    · have hstep : msf_connected L c d := Relation.ReflTransGen.single hadj
      rcases ih with h1 | ⟨h1, h2⟩ | ⟨h1, h2⟩
      · exact Or.inl (msf_connected_trans L _ _ _ h1 hstep)
      · exact Or.inr (Or.inl ⟨h1, msf_connected_trans L _ _ _ h2 hstep⟩)
      · exact Or.inr (Or.inr ⟨h1, msf_connected_trans L _ _ _ h2 hstep⟩)
    · subst hc hd
      rcases ih with h1 | ⟨h1, _⟩ | ⟨h1, _⟩
      · exact Or.inr (Or.inl ⟨h1, msf_connected_refl L _⟩)
      · exact Or.inr (Or.inl ⟨h1, msf_connected_refl L _⟩)
      · exact Or.inl h1
    · subst hc hd
      rcases ih with h1 | ⟨h1, _⟩ | ⟨h1, _⟩
      · exact Or.inr (Or.inr ⟨h1, msf_connected_refl L _⟩)
      · exact Or.inl h1
      · exact Or.inr (Or.inr ⟨h1, msf_connected_refl L _⟩)

theorem msf_connected_append_iff (L : List (Nat × Nat × Nat)) (f : Nat × Nat × Nat) (x y : Nat) :
    msf_connected (L ++ [f]) x y ↔
    (msf_connected L x y ∨ (msf_connected L x f.1 ∧ msf_connected L f.2.1 y) ∨
      (msf_connected L x f.2.1 ∧ msf_connected L f.1 y)) := by
  constructor
  · exact msf_connected_append L f x y
  · have hsub : ∀ g ∈ L, g ∈ L ++ [f] := fun g hg => List.mem_append_left _ hg
    have hf : msf_connected (L ++ [f]) f.1 f.2.1 :=
      msf_connected_of_mem _ f (List.mem_append_right _ (List.mem_singleton.2 rfl))
    rintro (h | ⟨h1, h2⟩ | ⟨h1, h2⟩)
    · exact msf_connected_mono L _ hsub x y h
    · exact msf_connected_trans _ _ _ _ (msf_connected_mono L _ hsub _ _ h1)
        (msf_connected_trans _ _ _ _ hf (msf_connected_mono L _ hsub _ _ h2))
    · exact msf_connected_trans _ _ _ _ (msf_connected_mono L _ hsub _ _ h1)
        (msf_connected_trans _ _ _ _ (msf_connected_symm _ _ _ hf)
          (msf_connected_mono L _ hsub _ _ h2))

/-- Connected vertices are equal or both endpoints of edges. -/
theorem msf_connected_bound (L : List (Nat × Nat × Nat)) (n : Nat)
    (hL : ∀ f ∈ L, f.1 < n ∧ f.2.1 < n) (x y : Nat) (h : msf_connected L x y) :
    x = y ∨ (x < n ∧ y < n) := by
  unfold msf_connected at h
  induction h with
  | refl => exact Or.inl rfl
  | @tail c d _ hcd ih =>
    have hc : c < n ∧ d < n := by
      obtain ⟨w, h | h⟩ := hcd
      · exact hL _ h
      · exact (hL _ h).symm
    rcases ih with h1 | h1
    · subst h1; exact Or.inr hc
    · exact Or.inr ⟨h1.1, hc.2⟩

theorem msf_connected_nil (x y : Nat) (h : msf_connected [] x y) : x = y := by
  rcases msf_connected_bound [] 0 (by simp) x y h with h | h
  · exact h
  · omega

/-! ## Forests -/

theorem msf_forest_nil : msf_forest [] := by
  intro pre f post h
  simp at h

theorem msf_forest_append (L : List (Nat × Nat × Nat)) (f : Nat × Nat × Nat) :
    msf_forest (L ++ [f]) ↔ msf_forest L ∧ ¬ msf_connected L f.1 f.2.1 := by
  constructor
  · intro h
    refine ⟨?_, h L f [] rfl⟩
    intro pre g post hL
    exact h pre g (post ++ [f]) (by rw [hL]; simp)
  · rintro ⟨h1, h2⟩ pre g post hL
    rcases List.eq_nil_or_concat post with hp | ⟨post', z, hp⟩
    · subst hp
      have := List.append_inj_left' hL (by simp)
      have h3 : g = f := by
        have h4 := List.append_inj_right' hL (by simp)
        simpa using h4.symm
      subst h3
      rw [← this]
      exact h2
    · subst hp
      have h3 : L = pre ++ g :: post' := by
        have h4 : L ++ [f] = (pre ++ g :: post') ++ [z] := by rw [hL]; simp
        exact List.append_inj_left' h4 (by simp)
      exact h1 pre g post' h3

theorem msf_forest_filter (L : List (Nat × Nat × Nat)) (p : Nat × Nat × Nat → Bool)
    (h : msf_forest L) : msf_forest (L.filter p) := by
  intro pre f post hL
  obtain ⟨l1, l2, h1, h2, h3⟩ := List.filter_eq_append_iff.1 hL
  obtain ⟨m1, m2, h4, h5, h6, h7⟩ := List.filter_eq_cons_iff.1 h3
  intro hc
  refine h (l1 ++ m1) f m2 (by rw [h1, h4]; simp) ?_
  refine msf_connected_mono _ _ ?_ _ _ hc
  intro g hg
  rw [← h2] at hg
  exact List.mem_append_left _ (List.mem_filter.1 hg).1

/-! ## Component labels -/

theorem rd_map_lt (l : List Nat) (g : Nat → Nat) (x : Nat) (hx : x < l.length) :
    rd (l.map g) x = g (rd l x) := by
  rw [rd_eq_getElem _ _ (by simpa using hx), rd_eq_getElem _ _ hx]
  simp

theorem rd_msf_relabel (l : List Nat) (a b x : Nat) (hx : x < l.length) :
    rd (msf_relabel l a b) x = if rd l x = a then b else rd l x := by
  unfold msf_relabel
  rw [rd_map_lt _ _ _ hx]

theorem length_msf_relabel (l : List Nat) (a b : Nat) :
    (msf_relabel l a b).length = l.length := by
  simp [msf_relabel]

theorem msf_labels_start (n : Nat) : msf_labels n [] (List.range n) := by
  have hr : ∀ x, x < n → rd (List.range n) x = x := by
    intro x hx
    rw [rd_eq_getElem _ _ (by simpa using hx)]
    simp
  refine ⟨by simp, ?_, ?_, ?_⟩
  · intro x hx; rw [hr x hx]; exact hx
  · intro x hx; rw [hr x hx, hr x hx]
  · intro x y hx hy
    rw [hr x hx, hr y hy]
    constructor
    · intro h; subst h; exact msf_connected_refl _ _
    · exact msf_connected_nil x y

theorem filter_remove_one (l : List Nat) (a : Nat) (p q : Nat → Bool) (hnd : l.Nodup)
    (ha : a ∈ l) (hp : p a = true) (hq : ∀ x, q x = (p x && decide (x ≠ a))) :
    (l.filter q).length + 1 = (l.filter p).length := by
  induction l with
  | nil => simp at ha
  | cons x l ih =>
    rw [List.nodup_cons] at hnd
    by_cases hxa : x = a
    · subst hxa
      have h1 : l.filter q = l.filter p := by
        apply List.filter_congr
        intro y hy
        rw [hq y]
        have : y ≠ x := fun h => hnd.1 (h ▸ hy)
        simp [this]
      have h2 : q x = false := by rw [hq x]; simp
      rw [List.filter_cons_of_neg (by simp [h2]), List.filter_cons_of_pos hp, h1]
      simp
    · have ha' : a ∈ l := by
        rcases List.mem_cons.1 ha with h | h
        · exact absurd h.symm hxa
        · exact h
      have h3 := ih hnd.2 ha'
      have h4 : q x = p x := by rw [hq x]; simp [hxa]
      by_cases hpx : p x = true
      · rw [List.filter_cons_of_pos (by rw [h4]; exact hpx), List.filter_cons_of_pos hpx]
        simp only [List.length_cons]
        omega
      · rw [List.filter_cons_of_neg (by rw [h4]; exact hpx), List.filter_cons_of_neg hpx]
        exact h3

/-- Merging the components of the two ends of a new edge, in either direction, yields the
labels of the longer edge list and removes one root. -/
theorem msf_labels_relabel (n : Nat) (L : List (Nat × Nat × Nat)) (lab : List Nat)
    (f : Nat × Nat × Nat) (a b : Nat) (h : msf_labels n L lab) (hu : f.1 < n) (hv : f.2.1 < n)
    (hab : (a = rd lab f.1 ∧ b = rd lab f.2.1) ∨ (a = rd lab f.2.1 ∧ b = rd lab f.1))
    (hne : rd lab f.1 ≠ rd lab f.2.1) :
    msf_labels n (L ++ [f]) (msf_relabel lab a b) ∧
    (msf_roots n (msf_relabel lab a b)).length + 1 = (msf_roots n lab).length := by
  obtain ⟨hlen, hlt, hidem, hker⟩ := h
  have hr : ∀ x, x < n → rd (msf_relabel lab a b) x = if rd lab x = a then b else rd lab x :=
    fun x hx => rd_msf_relabel lab a b x (by omega)
  have ha : a < n ∧ rd lab a = a := by
    rcases hab with ⟨h1, _⟩ | ⟨h1, _⟩ <;> rw [h1]
    · exact ⟨hlt _ hu, hidem _ hu⟩
    · exact ⟨hlt _ hv, hidem _ hv⟩
  have hb : b < n ∧ rd lab b = b := by
    rcases hab with ⟨_, h1⟩ | ⟨_, h1⟩ <;> rw [h1]
    · exact ⟨hlt _ hv, hidem _ hv⟩
    · exact ⟨hlt _ hu, hidem _ hu⟩
  have hne' : a ≠ b := by
    rcases hab with ⟨h1, h2⟩ | ⟨h1, h2⟩ <;> rw [h1, h2]
    · exact hne
    · exact fun h => hne h.symm
  refine ⟨⟨by rw [length_msf_relabel]; exact hlen, ?_, ?_, ?_⟩, ?_⟩
  · intro x hx
    rw [hr x hx]
    split
    · exact hb.1
    · exact hlt x hx
  · intro x hx
    rw [hr x hx]
    by_cases h1 : rd lab x = a
    · rw [if_pos h1, hr b hb.1, hb.2, if_neg (fun h => hne' h.symm)]
    · rw [if_neg h1, hr _ (hlt x hx), hidem x hx, if_neg h1]
  · intro x y hx hy
    rw [hr x hx, hr y hy, msf_connected_append_iff, ← hker x y hx hy, ← hker x f.1 hx hu,
      ← hker f.2.1 y hv hy, ← hker x f.2.1 hx hv, ← hker f.1 y hu hy]
    clear hr ha hb hker hidem hlt
    generalize rd lab x = lx at *
    generalize rd lab y = ly at *
    generalize rd lab f.1 = lu at *
    generalize rd lab f.2.1 = lv at *
    rcases hab with ⟨h1, h2⟩ | ⟨h1, h2⟩ <;> subst h1 h2 <;> split_ifs <;> omega
  · unfold msf_roots
    apply filter_remove_one (List.range n) a _ _ (List.nodup_range n) (List.mem_range.2 ha.1)
      (by simp [ha.2])
    intro x
    by_cases hx : x < n
    · rw [hr x hx]
      by_cases h1 : rd lab x = a
      · rw [if_pos h1]
        by_cases h2 : x = a
        · subst h2; simp [hne'.symm]
        · have : ¬ b = x := by
            intro h3
            rw [← h3, hb.2] at h1
            exact hne' h1.symm
          simp [h1, h2, this, Ne.symm h2]
      · rw [if_neg h1]
        have : x ≠ a := by
          intro h2
          rw [h2, ha.2] at h1
          exact h1 rfl
        simp [this]
    · have h1 : rd (msf_relabel lab a b) x = 0 :=
        rd_of_le _ _ (by rw [length_msf_relabel]; omega)
      have h2 : rd lab x = 0 := rd_of_le _ _ (by omega)
      rw [h1, h2]
      have : x ≠ a := by omega
      simp [this]

/-! ## The disjoint-set replay and the size of a forest -/

theorem msf_roots_start (n : Nat) : (msf_roots n (List.range n)).length = n := by
  unfold msf_roots
  have : (List.range n).filter (fun x => decide (rd (List.range n) x = x)) = List.range n := by
    apply List.filter_eq_self.2
    intro x hx
    have hx' : x < n := List.mem_range.1 hx
    rw [rd_eq_getElem _ _ (by simpa using hx')]
    simp
  rw [this]
  simp

/-- The replay of a forest succeeds; it ends with the labels of the components, and a
forest on `n` vertices with `k` edges has `n - k` components. -/
theorem msf_replay_spec (n : Nat) (L : List (Nat × Nat × Nat))
    (hL : ∀ f ∈ L, f.1 < n ∧ f.2.1 < n) (hf : msf_forest L) :
    ∃ lab, msf_replay n L = some lab ∧ msf_labels n L lab ∧
      (msf_roots n lab).length + L.length = n := by
  induction L using List.reverseRecOn with
  | nil =>
    exact ⟨List.range n, rfl, msf_labels_start n, by simp [msf_roots_start]⟩
  | append_singleton l f ih =>
    obtain ⟨hf1, hf2⟩ := (msf_forest_append l f).1 hf
    obtain ⟨lab, h1, h2, h3⟩ := ih (fun g hg => hL g (List.mem_append_left _ hg)) hf1
    have hfn := hL f (List.mem_append_right _ (List.mem_singleton.2 rfl))
    have hne : rd lab f.1 ≠ rd lab f.2.1 := by
      intro h
      exact hf2 ((h2.2.2.2 f.1 f.2.1 hfn.1 hfn.2).1 h)
    obtain ⟨h4, h5⟩ := msf_labels_relabel n l lab f (rd lab f.1) (rd lab f.2.1) h2 hfn.1 hfn.2
      (Or.inl ⟨rfl, rfl⟩) hne
    refine ⟨msf_relabel lab (rd lab f.1) (rd lab f.2.1), ?_, h4, ?_⟩
    · unfold msf_replay at h1 ⊢
      rw [List.foldl_append, h1]
      simp only [List.foldl_cons, List.foldl_nil, msf_replay_edge]
      rw [if_neg hne]
    · simp only [List.length_append, List.length_singleton]
      omega

theorem msf_roots_le (n : Nat) (lab1 lab2 : List Nat)
    (h2lt : ∀ x, x < n → rd lab2 x < n)
    (h2idem : ∀ x, x < n → rd lab2 (rd lab2 x) = rd lab2 x)
    (hker : ∀ x y, x < n → y < n → rd lab2 x = rd lab2 y → rd lab1 x = rd lab1 y) :
    (msf_roots n lab1).length ≤ (msf_roots n lab2).length := by
  have hnd : ((msf_roots n lab1).map (rd lab2)).Nodup := by
    apply List.Nodup.map_on
    · intro x hx y hy hxy
      unfold msf_roots at hx hy
      rw [List.mem_filter, List.mem_range] at hx hy
      have h1 := hker x y hx.1 hy.1 hxy
      have hx2 := of_decide_eq_true hx.2
      have hy2 := of_decide_eq_true hy.2
      rw [hx2, hy2] at h1
      exact h1
    · unfold msf_roots
      exact (List.nodup_range n).filter _
  have hsub : (msf_roots n lab1).map (rd lab2) ⊆ msf_roots n lab2 := by
    intro y hy
    rw [List.mem_map] at hy
    obtain ⟨x, hx, rfl⟩ := hy
    unfold msf_roots at hx ⊢
    rw [List.mem_filter, List.mem_range] at hx ⊢
    exact ⟨h2lt x hx.1, decide_eq_true (h2idem x hx.1)⟩
  have := (List.subperm_of_subset hnd hsub).length_le
  simpa using this

/-- Two forests on the same vertices that connect the same pairs have the same number of
edges. -/
theorem msf_forest_length (n : Nat) (L1 L2 : List (Nat × Nat × Nat))
    (h1 : ∀ f ∈ L1, f.1 < n ∧ f.2.1 < n) (h2 : ∀ f ∈ L2, f.1 < n ∧ f.2.1 < n)
    (hf1 : msf_forest L1) (hf2 : msf_forest L2)
    (hconn : ∀ x y, x < n → y < n → (msf_connected L1 x y ↔ msf_connected L2 x y)) :
    L1.length = L2.length := by
  obtain ⟨lab1, _, l1, c1⟩ := msf_replay_spec n L1 h1 hf1
  obtain ⟨lab2, _, l2, c2⟩ := msf_replay_spec n L2 h2 hf2
  have a1 := msf_roots_le n lab1 lab2 l2.2.1 l2.2.2.1 (by
    intro x y hx hy h
    exact (l1.2.2.2 x y hx hy).2 ((hconn x y hx hy).2 ((l2.2.2.2 x y hx hy).1 h)))
  have a2 := msf_roots_le n lab2 lab1 l1.2.1 l1.2.2.1 (by
    intro x y hx hy h
    exact (l2.2.2.2 x y hx hy).2 ((hconn x y hx hy).1 ((l1.2.2.2 x y hx hy).1 h)))
  omega

/-! ## The weight of a forest from its light parts -/

theorem sum_range_indicator (W w : Nat) (h : w ≤ W) :
    ((List.range W).map (fun t => if t < w then 1 else 0)).sum = w := by
  induction W generalizing w with
  | zero =>
    have : w = 0 := by omega
    subst this
    simp
  | succ W ih =>
    rw [List.range_succ, List.map_append, List.sum_append]
    by_cases hw : w ≤ W
    · rw [ih w hw, List.map_singleton, List.sum_singleton, if_neg (by omega)]
      rfl
    · have hW : w = W + 1 := by omega
      have h1 : (List.range W).map (fun t => if t < w then 1 else 0) =
          (List.range W).map (fun t => if t < W then 1 else 0) := by
        apply List.map_congr_left
        intro t ht
        have := List.mem_range.1 ht
        rw [if_pos (by omega), if_pos this]
      rw [h1, ih W (le_refl W), List.map_singleton, List.sum_singleton, if_pos (by omega)]
      omega

/-- The edges of `L` heavier than `t`. -/
theorem msf_heavy_length (L : List (Nat × Nat × Nat)) (t : Nat) :
    (L.filter (fun f => decide (t < f.2.2))).length + (msf_light L t).length = L.length := by
  unfold msf_light
  induction L with
  | nil => rfl
  | cons f L ih =>
    by_cases h : t < f.2.2
    · rw [List.filter_cons_of_pos (by simpa using h),
        List.filter_cons_of_neg (by simp; omega)]
      simp only [List.length_cons]
      omega
    · rw [List.filter_cons_of_neg (by simpa using h),
        List.filter_cons_of_pos (by simp; omega)]
      simp only [List.length_cons]
      omega

theorem list_sum_map_add (l : List Nat) (f g : Nat → Nat) :
    (l.map (fun t => f t + g t)).sum = (l.map f).sum + (l.map g).sum := by
  induction l with
  | nil => rfl
  | cons a l ih =>
    simp only [List.map_cons, List.sum_cons, ih]
    omega

/-- The weight of an edge list is the sum over the thresholds `t` of the number of edges
heavier than `t`. -/
theorem msf_weight_layers (L : List (Nat × Nat × Nat)) (W : Nat)
    (hW : ∀ f ∈ L, f.2.2 ≤ W) :
    msf_weight L =
      ((List.range W).map (fun t => L.length - (msf_light L t).length)).sum := by
  have key : msf_weight L =
      ((List.range W).map (fun t => (L.filter (fun f => decide (t < f.2.2))).length)).sum := by
    induction L with
    | nil => simp [msf_weight]
    | cons f L ih =>
      have h1 := ih (fun g hg => hW g (List.mem_cons_of_mem _ hg))
      have h2 : (List.range W).map
            (fun t => ((f :: L).filter (fun f => decide (t < f.2.2))).length) =
          (List.range W).map (fun t => (if t < f.2.2 then 1 else 0) +
            (L.filter (fun f => decide (t < f.2.2))).length) := by
        apply List.map_congr_left
        intro t _
        by_cases h : t < f.2.2
        · rw [List.filter_cons_of_pos (by simpa using h), if_pos h]
          simp only [List.length_cons]
          omega
        · rw [List.filter_cons_of_neg (by simpa using h), if_neg h]
          omega
      rw [h2, list_sum_map_add, sum_range_indicator W f.2.2 (hW f (List.mem_cons_self _ _)),
        ← h1]
      simp [msf_weight]
  rw [key]
  congr 1
  apply List.map_congr_left
  intro t _
  have := msf_heavy_length L t
  omega

theorem msf_light_all (L : List (Nat × Nat × Nat)) (W : Nat) (hW : ∀ f ∈ L, f.2.2 ≤ W) :
    msf_light L W = L := by
  unfold msf_light
  apply List.filter_eq_self.2
  intro f hf
  simpa using hW f hf

theorem mem_msf_light (L : List (Nat × Nat × Nat)) (t : Nat) (f : Nat × Nat × Nat) :
    f ∈ msf_light L t ↔ f ∈ L ∧ f.2.2 ≤ t := by
  unfold msf_light
  rw [List.mem_filter]
  simp

/-! ## Bottleneck-optimal forests have the same weight -/

/-- In a bottleneck-optimal part `T` of the graph edges `G`, the edges of weight at most
`t` connect what the graph edges of weight at most `t` connect. -/
theorem msf_bottleneck_light (G T : List (Nat × Nat × Nat)) (hsub : ∀ f ∈ T, f ∈ G)
    (hb : msf_bottleneck G T) (t x y : Nat) :
    msf_connected (msf_light T t) x y ↔ msf_connected (msf_light G t) x y := by
  constructor
  · apply msf_connected_mono
    intro f hf
    rw [mem_msf_light] at hf ⊢
    exact ⟨hsub f hf.1, hf.2⟩
  · intro h
    unfold msf_connected at h
    induction h with
    | refl => exact msf_connected_refl _ _
    | @tail c d _ hcd ih =>
      refine msf_connected_trans _ _ _ _ ih ?_
      have hstep : ∀ f, f ∈ msf_light G t → msf_connected (msf_light T t) f.1 f.2.1 := by
        intro f hf
        rw [mem_msf_light] at hf
        refine msf_connected_mono _ _ ?_ _ _ (hb f hf.1)
        intro g hg
        rw [mem_msf_light] at hg ⊢
        exact ⟨hg.1, by omega⟩
      obtain ⟨w, h | h⟩ := hcd
      · exact hstep _ h
      · exact msf_connected_symm _ _ _ (hstep _ h)

/-- Two forests of graph edges that are both bottleneck-optimal have the same weight. -/
theorem msf_bottleneck_weight (n : Nat) (G T1 T2 : List (Nat × Nat × Nat))
    (hG : ∀ f ∈ G, f.1 < n ∧ f.2.1 < n)
    (hsub1 : ∀ f ∈ T1, f ∈ G) (hsub2 : ∀ f ∈ T2, f ∈ G)
    (hf1 : msf_forest T1) (hf2 : msf_forest T2)
    (hb1 : msf_bottleneck G T1) (hb2 : msf_bottleneck G T2) :
    msf_weight T1 = msf_weight T2 := by
  have hlen : ∀ t, (msf_light T1 t).length = (msf_light T2 t).length := by
    intro t
    apply msf_forest_length n
    · intro f hf; exact hG f (hsub1 f ((mem_msf_light _ _ _).1 hf).1)
    · intro f hf; exact hG f (hsub2 f ((mem_msf_light _ _ _).1 hf).1)
    · exact msf_forest_filter _ _ hf1
    · exact msf_forest_filter _ _ hf2
    · intro x y _ _
      rw [msf_bottleneck_light G T1 hsub1 hb1, msf_bottleneck_light G T2 hsub2 hb2]
  obtain ⟨W, hW⟩ : ∃ W, ∀ f ∈ G, f.2.2 ≤ W := by
    refine ⟨(G.map (fun f => f.2.2)).sum, ?_⟩
    intro f hf
    exact List.single_le_sum (by simp) _ (List.mem_map.2 ⟨f, hf, rfl⟩)
  have hW1 : ∀ f ∈ T1, f.2.2 ≤ W := fun f hf => hW f (hsub1 f hf)
  have hW2 : ∀ f ∈ T2, f.2.2 ≤ W := fun f hf => hW f (hsub2 f hf)
  have hall : T1.length = T2.length := by
    have := hlen W
    rwa [msf_light_all T1 W hW1, msf_light_all T2 W hW2] at this
  rw [msf_weight_layers T1 W hW1, msf_weight_layers T2 W hW2, hall]
  congr 1
  apply List.map_congr_left
  intro t _
  rw [hlen t]

/-! ## Edges chosen as the lightest ones across a cut -/

/-- Two connected vertices that are not the same become connected at some edge of the
list. -/
theorem msf_connected_first (L : List (Nat × Nat × Nat)) (a b : Nat)
    (h : msf_connected L a b) (hab : a ≠ b) :
    ∃ pre f post, L = pre ++ f :: post ∧ ¬ msf_connected pre a b ∧
      msf_connected (pre ++ [f]) a b := by
  induction L using List.reverseRecOn with
  | nil => exact absurd (msf_connected_nil a b h) hab
  | append_singleton l f ih =>
    by_cases hl : msf_connected l a b
    · obtain ⟨pre, g, post, h1, h2, h3⟩ := ih hl
      exact ⟨pre, g, post ++ [f], by rw [h1]; simp, h2, h3⟩
    · exact ⟨l, f, [], rfl, hl, h⟩

/-- The cut lemma in the form used for the contraction rounds.  Every entry `x` of `A`
carries an edge `e x` and a set of vertices `S x` that the edge leaves, no graph edge that
leaves `S x` is lighter than `e x`, and the entries are listed so that the edges of the
entries before `x` are not heavier than `e x` and do not leave `S x`.  If the edges of `A`
connect the two ends of every graph edge, they connect them by edges that are not
heavier. -/
theorem msf_certified_bottleneck {α : Type} (G : List (Nat × Nat × Nat)) (A : List α)
    (e : α → Nat × Nat × Nat) (S : α → Nat → Prop)
    (hsymG : ∀ g ∈ G, (g.2.1, g.1, g.2.2) ∈ G)
    (hspan : ∀ g ∈ G, msf_connected (A.map e) g.1 g.2.1)
    (hcross : ∀ x ∈ A, S x (e x).1 ∧ ¬ S x (e x).2.1)
    (hmin : ∀ x ∈ A, ∀ g ∈ G, S x g.1 → ¬ S x g.2.1 → (e x).2.2 ≤ g.2.2)
    (horder : A.Pairwise (fun y x => (e y).2.2 ≤ (e x).2.2 ∧ (S x (e y).1 ↔ S x (e y).2.1))) :
    msf_bottleneck G (A.map e) := by
  intro g hg
  by_cases hab : g.1 = g.2.1
  · rw [← hab]; exact msf_connected_refl _ _
  by_contra hnc
  obtain ⟨pre, f, post, h1, h2, h3⟩ := msf_connected_first (A.map e) g.1 g.2.1 (hspan g hg) hab
  obtain ⟨A1, A2', h4, h5, h6⟩ := List.map_eq_append_iff.1 h1
  obtain ⟨x, A2, h7, h8, _⟩ := List.map_eq_cons_iff.1 h6
  subst h7
  rw [h4, List.pairwise_append] at horder
  have hbefore : ∀ y ∈ A1, (e y).2.2 ≤ (e x).2.2 ∧ (S x (e y).1 ↔ S x (e y).2.1) :=
    fun y hy => horder.2.2 y hy x (List.mem_cons_self _ _)
  have hxA : x ∈ A := by rw [h4]; simp
  have hclosed : ∀ p q, msf_connected pre p q → (S x p ↔ S x q) := by
    intro p q hpq
    apply msf_connected_closed pre (S x) _ p q hpq
    intro k hk
    rw [← h5, List.mem_map] at hk
    obtain ⟨y, hy, rfl⟩ := hk
    exact (hbefore y hy).2
  have hw : (e x).2.2 ≤ g.2.2 := by
    have hcases := msf_connected_append pre f g.1 g.2.1 h3
    rw [← h8] at hcases
    have hside : (S x g.1 ∧ ¬ S x g.2.1) ∨ (S x g.2.1 ∧ ¬ S x g.1) := by
      rcases hcases with c | ⟨c1, c2⟩ | ⟨c1, c2⟩
      · exact absurd c h2
      · have i1 := hclosed _ _ c1
        have i2 := hclosed _ _ c2
        exact Or.inl ⟨i1.2 (hcross x hxA).1, fun h => (hcross x hxA).2 (i2.2 h)⟩
      · have i1 := hclosed _ _ c1
        have i2 := hclosed _ _ c2
        exact Or.inr ⟨i2.1 (hcross x hxA).1, fun h => (hcross x hxA).2 (i1.1 h)⟩
    rcases hside with ⟨s1, s2⟩ | ⟨s1, s2⟩
    · exact hmin x hxA g hg s1 s2
    · exact hmin x hxA (g.2.1, g.1, g.2.2) (hsymG g hg) s1 s2
  apply hnc
  refine msf_connected_mono (pre ++ [f]) _ ?_ _ _ h3
  intro k hk
  rw [mem_msf_light]
  rcases List.mem_append.1 hk with hk | hk
  · rw [← h5, List.mem_map] at hk
    obtain ⟨y, hy, rfl⟩ := hk
    refine ⟨List.mem_map.2 ⟨y, by rw [h4]; exact List.mem_append_left _ hy, rfl⟩, ?_⟩
    have := (hbefore y hy).1
    omega
  · rw [List.mem_singleton] at hk
    subst hk
    rw [← h8]
    exact ⟨List.mem_map.2 ⟨x, hxA, rfl⟩, hw⟩

/-! ## Slots of a weighted graph -/

theorem weighted_offsets_mono (g : ll_404_graph) (hwf : well_formed_weighted g) (i j : Nat)
    (hij : i ≤ j) (hj : j ≤ g.vertices_count) : rd g.offsets_list i ≤ rd g.offsets_list j :=
  boundaries_mono (fun v => rd g.offsets_list v) g.vertices_count hwf.2.2.2.1 i j hij hj

theorem weighted_slot_lt (g : ll_404_graph) (hwf : well_formed_weighted g) (v e : Nat)
    (hv : v < g.vertices_count) (he : e ∈ edge_slots g.offsets_list v) :
    e < g.edges_count := by
  rw [mem_edge_slots] at he
  have := weighted_offsets_mono g hwf (v + 1) g.vertices_count (by omega) (Nat.le_refl _)
  have hn := hwf.2.2.2.2.1
  omega

theorem weighted_slot_dest_lt (g : ll_404_graph) (hwf : well_formed_weighted g) (v e : Nat)
    (hv : v < g.vertices_count) (he : e ∈ edge_slots g.offsets_list v) :
    rd g.edges_list (2 * e) < g.vertices_count :=
  hwf.2.2.2.2.2 e (weighted_slot_lt g hwf v e hv he)

theorem weighted_slot_owner (g : ll_404_graph) (hwf : well_formed_weighted g) (v v' e : Nat)
    (hv : v < g.vertices_count) (hv' : v' < g.vertices_count)
    (he : e ∈ edge_slots g.offsets_list v) (he' : e ∈ edge_slots g.offsets_list v') :
    v = v' := by
  rw [mem_edge_slots] at he he'
  by_contra hne
  rcases Nat.lt_or_gt_of_ne hne with hlt | hlt
  · have := weighted_offsets_mono g hwf (v + 1) v' (by omega) (by omega)
    omega
  · have := weighted_offsets_mono g hwf (v' + 1) v (by omega) (by omega)
    omega

theorem mem_weighted_edges (g : ll_404_graph) (f : Nat × Nat × Nat) :
    f ∈ weighted_edges g ↔
      f.1 < g.vertices_count ∧ ∃ e, e ∈ edge_slots g.offsets_list f.1 ∧
        rd g.edges_list (2 * e) = f.2.1 ∧ rd g.edges_list (2 * e + 1) = f.2.2 := by
  unfold weighted_edges
  simp only [List.mem_flatMap, List.mem_range, List.mem_map]
  constructor
  · rintro ⟨u, hu, e, he, rfl⟩
    exact ⟨hu, e, he, rfl, rfl⟩
  · rintro ⟨hu, e, he, h1, h2⟩
    refine ⟨f.1, hu, e, he, ?_⟩
    rw [h1, h2]

theorem weighted_edges_bound (g : ll_404_graph) (hwf : well_formed_weighted g)
    (f : Nat × Nat × Nat) (hf : f ∈ weighted_edges g) :
    f.1 < g.vertices_count ∧ f.2.1 < g.vertices_count := by
  rw [mem_weighted_edges] at hf
  obtain ⟨hu, e, he, h1, _⟩ := hf
  exact ⟨hu, h1 ▸ weighted_slot_dest_lt g hwf f.1 e hu he⟩

theorem slot_mem_weighted_edges (g : ll_404_graph) (v e : Nat) (hv : v < g.vertices_count)
    (he : e ∈ edge_slots g.offsets_list v) :
    (v, rd g.edges_list (2 * e), rd g.edges_list (2 * e + 1)) ∈ weighted_edges g :=
  (mem_weighted_edges g _).2 ⟨hv, e, he, rfl, rfl⟩

/-! ## The order of the tie-break rule -/

/-- The key `(w, min(c,cd), max(c,cd))` as one number triple compared lexicographically. -/
theorem msf_key_lt_iff (a b : msf_candidate) :
    msf_key_lt a b = true ↔
      (a.weight < b.weight ∨
        (a.weight = b.weight ∧
          (min a.comp a.other < min b.comp b.other ∨
            (min a.comp a.other = min b.comp b.other ∧
              max a.comp a.other < max b.comp b.other)))) := by
  unfold msf_key_lt
  simp

theorem msf_key_lt_irrefl (a : msf_candidate) : msf_key_lt a a = false := by
  rw [← Bool.not_eq_true, msf_key_lt_iff]
  omega

/-- An entry that is not below `b` is not below an entry below `b`. -/
theorem msf_key_not_lt_trans (a b c : msf_candidate) (h1 : msf_key_lt a b = false)
    (h2 : msf_key_lt c b = true) : msf_key_lt a c = false := by
  rw [← Bool.not_eq_true, msf_key_lt_iff] at h1 ⊢
  rw [msf_key_lt_iff] at h2
  omega

/-! ## Loops over index ranges -/

theorem foldl_range'_invariant {σ : Type} (f : σ → Nat → σ) (k : Nat) (I : Nat → σ → Prop) :
    ∀ (a : Nat) (s0 : σ), I a s0 →
      (∀ i s, a ≤ i → i < a + k → I i s → I (i + 1) (f s i)) →
      I (a + k) ((List.range' a k).foldl f s0) := by
  induction k with
  | zero => intro a s0 h0 _; simpa using h0
  | succ k ih =>
    intro a s0 h0 hstep
    rw [List.range'_succ, List.foldl_cons]
    have := ih (a + 1) (f s0 a) (hstep a s0 (Nat.le_refl _) (by omega) h0)
      (fun i s h1 h2 hI => hstep i s (by omega) (by omega) hI)
    rwa [show a + 1 + k = a + (k + 1) by omega] at this

theorem foldl_range_invariant {σ : Type} (f : σ → Nat → σ) (n : Nat) (I : Nat → σ → Prop)
    (s0 : σ) (h0 : I 0 s0) (hstep : ∀ i s, i < n → I i s → I (i + 1) (f s i)) :
    I n ((List.range n).foldl f s0) := by
  rw [List.range_eq_range']
  have := foldl_range'_invariant f n I 0 s0 h0 (fun i s _ h2 hI => hstep i s (by omega) hI)
  rwa [Nat.zero_add] at this

theorem getD_set {α : Type} (l : List α) (i j : Nat) (a d : α) :
    (l.set i a).getD j d = if i = j ∧ i < l.length then a else l.getD j d := by
  simp only [List.getD_eq_getElem?_getD, List.getElem?_set]
  by_cases h : i = j
  · subst h
    by_cases h2 : i < l.length
    · simp [h2]
    · have h3 : l.length ≤ i := by omega
      simp [h2, List.getElem?_eq_none h3]
  · simp [h]

/-! ## The minimum-edge selector -/

/-- One slot of the selector: `best` stays valid, the liveness invariant is kept, the
slots taken into account before stay so, and the scanned slot is taken into account. -/
theorem msf_scan_slot_spec (g : ll_404_graph) (hwf : well_formed_weighted g)
    (component : List Nat) (hcomp : ∀ x, x < g.vertices_count → rd component x < g.vertices_count)
    (v e : Nat) (hv : v < g.vertices_count) (he : e ∈ edge_slots g.offsets_list v)
    (s : msf_selection) (hvalid : msf_best_valid g component s.best)
    (hlive : msf_live g component s.dead s.cursor) (hlen : s.cursor.length = g.vertices_count) :
    msf_best_valid g component (msf_scan_slot g component v s e).best ∧
    msf_live g component (msf_scan_slot g component v s e).dead
      (msf_scan_slot g component v s e).cursor ∧
    (msf_scan_slot g component v s e).cursor.length = g.vertices_count ∧
    (∀ v' e', msf_best_covers g component s.best v' e' →
      msf_best_covers g component (msf_scan_slot g component v s e).best v' e') ∧
    msf_best_covers g component (msf_scan_slot g component v s e).best v e := by
  -- the cursor update keeps the liveness invariant once the slot is intra-component
  have hcursor : ∀ dead : List Bool,
      rd component (rd g.edges_list (2 * e)) = rd component v →
      msf_live g component dead s.cursor →
      msf_live g component dead
        (if rd s.cursor v = e then s.cursor.set v (e + 1) else s.cursor) := by
    intro dead hintra hl
    by_cases hc : rd s.cursor v = e
    · rw [if_pos hc]
      intro v' hv'
      by_cases hvv : v = v'
      · subst hvv
        rw [rd_set_eq _ _ _ (by omega)]
        refine ⟨by have := (hl v hv).1; omega, ?_⟩
        intro e' he' hd
        by_cases hee : e' = e
        · subst hee; exact hintra
        · exact (hl v hv).2 e' he' (by
            rcases hd with hd | hd
            · exact Or.inl hd
            · exact Or.inr (by omega))
      · rw [rd_set_ne _ _ _ _ hvv]
        exact hl v' hv'
    · rw [if_neg hc]; exact hl
  have hclen : (if rd s.cursor v = e then s.cursor.set v (e + 1) else s.cursor).length =
      g.vertices_count := by
    split
    · rw [List.length_set]; exact hlen
    · exact hlen
  -- publishing the slot as the entry of its component
  have hpublish : rd component (rd g.edges_list (2 * e)) ≠ rd component v →
      (∀ b, s.best.getD (rd component v) none = some b →
        msf_key_lt (msf_slot_candidate g component v e) b = true) →
      msf_best_valid g component
        (s.best.set (rd component v) (some (msf_slot_candidate g component v e))) ∧
      (∀ v' e', msf_best_covers g component s.best v' e' →
        msf_best_covers g component
          (s.best.set (rd component v) (some (msf_slot_candidate g component v e))) v' e') ∧
      msf_best_covers g component
        (s.best.set (rd component v) (some (msf_slot_candidate g component v e))) v e := by
    intro hcross hbelow
    have hc := hcomp v hv
    refine ⟨⟨by rw [List.length_set]; exact hvalid.1, ?_⟩, ?_, ?_⟩
    · intro c cand hcand
      rw [getD_set] at hcand
      by_cases h1 : rd component v = c ∧ rd component v < s.best.length
      · rw [if_pos h1] at hcand
        have h2 : msf_slot_candidate g component v e = cand := Option.some.inj hcand
        subst h2
        exact ⟨hv, he, rfl, h1.1, hcross.trans_eq h1.1⟩
      · rw [if_neg h1] at hcand
        exact hvalid.2 c cand hcand
    · intro v' e' hcov hcross'
      obtain ⟨cand, h1, h2⟩ := hcov hcross'
      rw [getD_set]
      by_cases h3 : rd component v = rd component v' ∧ rd component v < s.best.length
      · rw [if_pos h3]
        refine ⟨_, rfl, ?_⟩
        rw [← h3.1] at h1
        exact msf_key_not_lt_trans _ _ _ h2 (hbelow cand h1)
      · rw [if_neg h3]
        exact ⟨cand, h1, h2⟩
    · intro _
      rw [getD_set, if_pos ⟨rfl, by rw [hvalid.1]; exact hc⟩]
      exact ⟨_, rfl, msf_key_lt_irrefl _⟩
  unfold msf_scan_slot
  by_cases hdead : s.dead.getD e false = true
  · rw [if_pos hdead]
    have hintra := (hlive v hv).2 e he (Or.inl hdead)
    exact ⟨hvalid, hcursor s.dead hintra hlive, hclen, fun _ _ h => h,
      fun h => absurd hintra h⟩
  · rw [if_neg hdead]
    by_cases hintra : rd component (rd g.edges_list (2 * e)) = rd component v
    · rw [if_pos hintra]
      refine ⟨hvalid, hcursor _ hintra ?_, hclen, fun _ _ h => h, fun h => absurd hintra h⟩
      intro v' hv'
      refine ⟨(hlive v' hv').1, ?_⟩
      intro e' he' hd
      rw [getD_set] at hd
      by_cases hee : e = e' ∧ e < s.dead.length
      · have hown := weighted_slot_owner g hwf v v' e hv hv' he (hee.1 ▸ he')
        rw [← hee.1, ← hown]
        exact hintra
      · rw [if_neg hee] at hd
        exact (hlive v' hv').2 e' he' hd
    · rw [if_neg hintra]
      cases hb : s.best.getD (rd component v) none with
      | none =>
        obtain ⟨p1, p2, p3⟩ := hpublish hintra (by intro b hb2; rw [hb] at hb2; cases hb2)
        exact ⟨p1, hlive, hlen, p2, p3⟩
      | some b =>
        by_cases hlt : msf_key_lt (msf_slot_candidate g component v e) b = true
        · simp only [hlt, if_true]
          obtain ⟨p1, p2, p3⟩ := hpublish hintra (by
            intro b' hb2
            rw [hb] at hb2
            cases hb2
            exact hlt)
          exact ⟨p1, hlive, hlen, p2, p3⟩
        · simp only [hlt]
          refine ⟨hvalid, hlive, hlen, fun _ _ h => h, ?_⟩
          intro _
          exact ⟨b, hb, by simpa using hlt⟩

/-- The selector on one vertex: all its slots are taken into account. -/
theorem msf_scan_vertex_spec (g : ll_404_graph) (hwf : well_formed_weighted g)
    (component : List Nat) (hcomp : ∀ x, x < g.vertices_count → rd component x < g.vertices_count)
    (v : Nat) (hv : v < g.vertices_count)
    (s : msf_selection) (hvalid : msf_best_valid g component s.best)
    (hlive : msf_live g component s.dead s.cursor) (hlen : s.cursor.length = g.vertices_count) :
    msf_best_valid g component (msf_scan_vertex g component s v).best ∧
    msf_live g component (msf_scan_vertex g component s v).dead
      (msf_scan_vertex g component s v).cursor ∧
    (msf_scan_vertex g component s v).cursor.length = g.vertices_count ∧
    (∀ v' e', msf_best_covers g component s.best v' e' →
      msf_best_covers g component (msf_scan_vertex g component s v).best v' e') ∧
    (∀ e, e ∈ edge_slots g.offsets_list v →
      msf_best_covers g component (msf_scan_vertex g component s v).best v e) := by
  have hoff := (hlive v hv).1
  have key := foldl_range'_invariant (msf_scan_slot g component v)
    (rd g.offsets_list (v + 1) - rd s.cursor v)
    (fun i s' => msf_best_valid g component s'.best ∧
      msf_live g component s'.dead s'.cursor ∧ s'.cursor.length = g.vertices_count ∧
      (∀ v' e', msf_best_covers g component s.best v' e' →
        msf_best_covers g component s'.best v' e') ∧
      (∀ e, e ∈ edge_slots g.offsets_list v → e < i → msf_best_covers g component s'.best v e))
    (rd s.cursor v) s
    ⟨hvalid, hlive, hlen, fun _ _ h => h, fun e he hlt hcross =>
      absurd ((hlive v hv).2 e he (Or.inr hlt)) hcross⟩
    (by
      intro i s' h1 h2 ⟨i1, i2, i3, i4, i5⟩
      have hi : i ∈ edge_slots g.offsets_list v := by
        rw [mem_edge_slots]; omega
      obtain ⟨j1, j2, j3, j4, j5⟩ := msf_scan_slot_spec g hwf component hcomp v i hv hi s' i1 i2 i3
      refine ⟨j1, j2, j3, fun v' e' h => j4 v' e' (i4 v' e' h), ?_⟩
      intro e he hlt
      by_cases hei : e = i
      · subst hei; exact j5
      · exact j4 v e (i5 e he (by omega)))
  obtain ⟨k1, k2, k3, k4, k5⟩ := key
  refine ⟨k1, k2, k3, k4, ?_⟩
  intro e he
  apply k5 e he
  rw [mem_edge_slots] at he
  omega

theorem getD_replicate_none {α : Type} (n c : Nat) :
    (List.replicate n (none : Option α)).getD c none = none := by
  simp only [List.getD_eq_getElem?_getD, List.getElem?_replicate]
  split <;> rfl

/-- One pass of the selector: `best` holds, for every component that an edge leaves, an
edge that leaves it and that no edge leaving it is below. -/
theorem msf_select_spec (g : ll_404_graph) (hwf : well_formed_weighted g) (st : msf_state)
    (hcomp : ∀ x, x < g.vertices_count → rd st.component x < g.vertices_count)
    (hlive : msf_live g st.component st.dead st.cursor)
    (hlen : st.cursor.length = g.vertices_count) :
    msf_best_valid g st.component (msf_select g st).best ∧
    msf_live g st.component (msf_select g st).dead (msf_select g st).cursor ∧
    (msf_select g st).cursor.length = g.vertices_count ∧
    (∀ v, v < g.vertices_count → ∀ e, e ∈ edge_slots g.offsets_list v →
      msf_best_covers g st.component (msf_select g st).best v e) := by
  unfold msf_select
  apply foldl_range_invariant (msf_scan_vertex g st.component) g.vertices_count
    (fun b s => msf_best_valid g st.component s.best ∧
      msf_live g st.component s.dead s.cursor ∧ s.cursor.length = g.vertices_count ∧
      (∀ v, v < b → ∀ e, e ∈ edge_slots g.offsets_list v →
        msf_best_covers g st.component s.best v e))
  · refine ⟨⟨by simp, ?_⟩, hlive, hlen, fun v hv => absurd hv (Nat.not_lt_zero v)⟩
    intro c cand h
    rw [getD_replicate_none] at h
    cases h
  · intro i s hi ⟨i1, i2, i3, i4⟩
    obtain ⟨j1, j2, j3, j4, j5⟩ := msf_scan_vertex_spec g hwf st.component hcomp i hi s i1 i2 i3
    refine ⟨j1, j2, j3, ?_⟩
    intro v hv e he
    by_cases hvi : v = i
    · subst hvi; exact j5 e he
    · exact j4 v e (i4 v (by omega) e he)

/-! ## The contraction engine -/

theorem msf_contract_none (g : ll_404_graph) (best : List (Option msf_candidate))
    (st : msf_state) (c : Nat) (h : best.getD c none = none) :
    msf_contract_component g best st c = st := by
  unfold msf_contract_component
  rw [h]

theorem msf_contract_same (g : ll_404_graph) (best : List (Option msf_candidate))
    (st : msf_state) (c : Nat) (cand : msf_candidate) (h : best.getD c none = some cand)
    (heq : rd st.component cand.src = rd st.component cand.dest) :
    msf_contract_component g best st c =
      { st with dead := msf_mark_dead g st.dead cand } := by
  unfold msf_contract_component
  rw [h]
  simp only [msf_union, if_pos heq]
  rfl

theorem msf_contract_merge (g : ll_404_graph) (best : List (Option msf_candidate))
    (st : msf_state) (c : Nat) (cand : msf_candidate) (h : best.getD c none = some cand)
    (hne : rd st.component cand.src ≠ rd st.component cand.dest) :
    ∃ a b, ((a = rd st.component cand.src ∧ b = rd st.component cand.dest) ∨
        (a = rd st.component cand.dest ∧ b = rd st.component cand.src)) ∧
      msf_contract_component g best st c =
        { component := msf_relabel st.component a b,
          rank_or_size := st.rank_or_size,
          dead := msf_mark_dead g st.dead cand,
          cursor := st.cursor,
          edges := st.edges ++ [(cand.src, cand.dest, cand.weight)],
          total_weight := st.total_weight + cand.weight } := by
  unfold msf_contract_component
  rw [h]
  by_cases hc : rd st.rank_or_size (rd st.component cand.src) <
        rd st.rank_or_size (rd st.component cand.dest) ∨
      (rd st.rank_or_size (rd st.component cand.src) =
        rd st.rank_or_size (rd st.component cand.dest) ∧
        rd st.component cand.src < rd st.component cand.dest)
  · refine ⟨_, _, Or.inl ⟨rfl, rfl⟩, ?_⟩
    simp only [msf_union, if_neg hne, msf_link, if_pos hc]
    rfl
  · refine ⟨_, _, Or.inr ⟨rfl, rfl⟩, ?_⟩
    simp only [msf_union, if_neg hne, msf_link, if_neg hc]
    rfl

theorem msf_live_coarser (g : ll_404_graph) (hwf : well_formed_weighted g)
    (comp comp' : List Nat) (dead : List Bool) (cursor : List Nat)
    (h : msf_live g comp dead cursor) (hc : msf_coarser g.vertices_count comp comp') :
    msf_live g comp' dead cursor := by
  intro v hv
  refine ⟨(h v hv).1, ?_⟩
  intro e he hd
  exact hc _ _ (weighted_slot_dest_lt g hwf v e hv he) hv ((h v hv).2 e he hd)

theorem msf_live_set (g : ll_404_graph) (hwf : well_formed_weighted g)
    (comp : List Nat) (dead : List Bool) (cursor : List Nat)
    (h : msf_live g comp dead cursor) (v e : Nat) (hv : v < g.vertices_count)
    (he : e ∈ edge_slots g.offsets_list v)
    (hintra : rd comp (rd g.edges_list (2 * e)) = rd comp v) :
    msf_live g comp (dead.set e true) cursor := by
  intro v' hv'
  refine ⟨(h v' hv').1, ?_⟩
  intro e' he' hd
  rw [getD_set] at hd
  by_cases hee : e = e' ∧ e < dead.length
  · have hown := weighted_slot_owner g hwf v v' e hv hv' he (hee.1 ▸ he')
    rw [← hee.1, ← hown]
    exact hintra
  · rw [if_neg hee] at hd
    exact (h v' hv').2 e' he' hd

theorem msf_reverse_slot_some (g : ll_404_graph) (u v e : Nat)
    (h : msf_reverse_slot g u v = some e) :
    e ∈ edge_slots g.offsets_list v ∧ rd g.edges_list (2 * e) = u := by
  unfold msf_reverse_slot at h
  exact ⟨List.mem_of_find?_eq_some h, by simpa using List.find?_some h⟩

theorem msf_live_mark (g : ll_404_graph) (hwf : well_formed_weighted g)
    (comp : List Nat) (dead : List Bool) (cursor : List Nat)
    (h : msf_live g comp dead cursor) (cand : msf_candidate)
    (hsrc : cand.src < g.vertices_count)
    (hedge : cand.edge ∈ edge_slots g.offsets_list cand.src)
    (hdest : cand.dest = rd g.edges_list (2 * cand.edge))
    (hintra : rd comp cand.dest = rd comp cand.src) :
    msf_live g comp (msf_mark_dead g dead cand) cursor := by
  have h1 := msf_live_set g hwf comp dead cursor h cand.src cand.edge hsrc hedge
    (by rw [← hdest]; exact hintra)
  have hd : cand.dest < g.vertices_count := by
    rw [hdest]; exact weighted_slot_dest_lt g hwf _ _ hsrc hedge
  unfold msf_mark_dead
  cases hr : msf_reverse_slot g cand.src cand.dest with
  | none => exact h1
  | some e =>
    obtain ⟨r1, r2⟩ := msf_reverse_slot_some g _ _ e hr
    exact msf_live_set g hwf comp _ cursor h1 cand.dest e hd r1 (by rw [r2]; exact hintra.symm)

theorem msf_coarser_relabel (n : Nat) (lab : List Nat) (a b : Nat) (hlen : lab.length = n) :
    msf_coarser n lab (msf_relabel lab a b) := by
  intro x y hx hy h
  rw [rd_msf_relabel _ _ _ _ (by omega), rd_msf_relabel _ _ _ _ (by omega), h]

theorem msf_coarser_trans (n : Nat) (l1 l2 l3 : List Nat) (h1 : msf_coarser n l1 l2)
    (h2 : msf_coarser n l2 l3) : msf_coarser n l1 l3 :=
  fun x y hx hy h => h2 x y hx hy (h1 x y hx hy h)

theorem msf_coarser_refl (n : Nat) (l : List Nat) : msf_coarser n l l :=
  fun _ _ _ _ h => h

theorem msf_weight_append (L : List (Nat × Nat × Nat)) (f : Nat × Nat × Nat) :
    msf_weight (L ++ [f]) = msf_weight L + f.2.2 := by
  simp [msf_weight]

/-- The labels of the two ends of a selected edge agree. -/
theorem msf_labels_mem (n : Nat) (L : List (Nat × Nat × Nat)) (lab : List Nat)
    (h : msf_labels n L lab) (hL : ∀ f ∈ L, f.1 < n ∧ f.2.1 < n) (f : Nat × Nat × Nat)
    (hf : f ∈ L) : rd lab f.1 = rd lab f.2.1 :=
  (h.2.2.2 f.1 f.2.1 (hL f hf).1 (hL f hf).2).2 (msf_connected_of_mem L f hf)

/-- A successful `union` in the contraction engine: the invariant is kept with one more
edge and one root less. -/
theorem msf_contract_merge_invariant (g : ll_404_graph) (hwf : well_formed_weighted g)
    (st : msf_state) (hinv : msf_invariant g st) (cand : msf_candidate) (a b : Nat)
    (hsrc : cand.src < g.vertices_count)
    (hedge : cand.edge ∈ edge_slots g.offsets_list cand.src)
    (hdest : cand.dest = rd g.edges_list (2 * cand.edge))
    (hweight : cand.weight = rd g.edges_list (2 * cand.edge + 1))
    (hne : rd st.component cand.src ≠ rd st.component cand.dest)
    (hab : (a = rd st.component cand.src ∧ b = rd st.component cand.dest) ∨
        (a = rd st.component cand.dest ∧ b = rd st.component cand.src)) :
    msf_invariant g
      { component := msf_relabel st.component a b,
        rank_or_size := st.rank_or_size,
        dead := msf_mark_dead g st.dead cand,
        cursor := st.cursor,
        edges := st.edges ++ [(cand.src, cand.dest, cand.weight)],
        total_weight := st.total_weight + cand.weight } ∧
    (msf_roots g.vertices_count (msf_relabel st.component a b)).length + 1 =
      (msf_roots g.vertices_count st.component).length := by
  obtain ⟨i1, i2, i3, i4, i5, i6, i7⟩ := hinv
  have hd : cand.dest < g.vertices_count := by
    rw [hdest]; exact weighted_slot_dest_lt g hwf _ _ hsrc hedge
  obtain ⟨l1, l2⟩ := msf_labels_relabel g.vertices_count st.edges st.component
    (cand.src, cand.dest, cand.weight) a b i1 hsrc hd hab hne
  have hco := msf_coarser_relabel g.vertices_count st.component a b i1.1
  refine ⟨⟨l1, ?_, ?_, ?_, ?_, ?_, i7⟩, l2⟩
  · rw [msf_forest_append]
    exact ⟨i2, fun h => hne ((i1.2.2.2 _ _ hsrc hd).2 h)⟩
  · simp only [List.length_append, List.length_singleton]
    omega
  · intro f hf
    rcases List.mem_append.1 hf with hf | hf
    · exact i4 f hf
    · rw [List.mem_singleton] at hf
      subst hf
      rw [hdest, hweight]
      exact slot_mem_weighted_edges g _ _ hsrc hedge
  · show st.total_weight + cand.weight = msf_weight (st.edges ++ [(cand.src, cand.dest, cand.weight)])
    rw [msf_weight_append, i5]
  · apply msf_live_mark g hwf _ _ _ (msf_live_coarser g hwf _ _ _ _ i6 hco) cand hsrc hedge hdest
    have := (l1.2.2.2 cand.src cand.dest hsrc hd).2
      (msf_connected_of_mem _ (cand.src, cand.dest, cand.weight)
        (List.mem_append_right _ (List.mem_singleton.2 rfl)))
    exact this.symm

/-- A failed `union` in the contraction engine: only the liveness bitset changes. -/
theorem msf_contract_same_invariant (g : ll_404_graph) (hwf : well_formed_weighted g)
    (st : msf_state) (hinv : msf_invariant g st) (cand : msf_candidate)
    (hsrc : cand.src < g.vertices_count)
    (hedge : cand.edge ∈ edge_slots g.offsets_list cand.src)
    (hdest : cand.dest = rd g.edges_list (2 * cand.edge))
    (heq : rd st.component cand.src = rd st.component cand.dest) :
    msf_invariant g { st with dead := msf_mark_dead g st.dead cand } := by
  obtain ⟨i1, i2, i3, i4, i5, i6, i7⟩ := hinv
  exact ⟨i1, i2, i3, i4, i5, msf_live_mark g hwf _ _ _ i6 cand hsrc hedge hdest heq.symm, i7⟩

/-- The fields of an entry of `best`. -/
theorem msf_best_valid_fields (g : ll_404_graph) (component : List Nat)
    (best : List (Option msf_candidate)) (hvalid : msf_best_valid g component best)
    (c : Nat) (cand : msf_candidate) (h : best.getD c none = some cand) :
    cand.src < g.vertices_count ∧ cand.edge ∈ edge_slots g.offsets_list cand.src ∧
    cand.dest = rd g.edges_list (2 * cand.edge) ∧
    cand.weight = rd g.edges_list (2 * cand.edge + 1) ∧
    rd component cand.src = c ∧ rd component cand.dest ≠ c := by
  obtain ⟨h1, h2, h3, h4, h5⟩ := hvalid.2 c cand h
  have d1 : cand.dest = rd g.edges_list (2 * cand.edge) := by
    conv_lhs => rw [h3]
    rfl
  have d2 : cand.weight = rd g.edges_list (2 * cand.edge + 1) := by
    conv_lhs => rw [h3]
    rfl
  have d3 : cand.comp = rd component cand.src := by
    conv_lhs => rw [h3]
    rfl
  have d4 : cand.other = rd component (rd g.edges_list (2 * cand.edge)) := by
    conv_lhs => rw [h3]
    rfl
  refine ⟨h1, h2, d1, d2, by rw [← d3]; exact h4, ?_⟩
  rw [d1, ← d4]
  exact h5

/-- The edge of an entry of `best` is a lightest edge leaving its component. -/
theorem msf_best_cut_lightest (g : ll_404_graph) (component : List Nat)
    (best : List (Option msf_candidate)) (hvalid : msf_best_valid g component best)
    (hcov : ∀ v, v < g.vertices_count → ∀ e, e ∈ edge_slots g.offsets_list v →
      msf_best_covers g component best v e)
    (c : Nat) (cand : msf_candidate) (h : best.getD c none = some cand) :
    msf_cut_lightest (weighted_edges g) component (cand.src, cand.dest, cand.weight) := by
  obtain ⟨h1, h2, h3, h4, h5, h6⟩ := msf_best_valid_fields g component best hvalid c cand h
  have hc3 := (hvalid.2 c cand h).2.2.1
  refine ⟨?_, ?_, ?_⟩
  · rw [h3, h4]; exact slot_mem_weighted_edges g _ _ h1 h2
  · show rd component cand.src ≠ rd component cand.dest
    rw [h5]; exact fun h => h6 h.symm
  · intro k hk hk1 hk2
    rw [mem_weighted_edges] at hk
    obtain ⟨kv, e, he, e1, e2⟩ := hk
    have hcross : rd component (rd g.edges_list (2 * e)) ≠ rd component k.1 := by
      rw [e1, hk1]; exact hk2
    obtain ⟨cand', c1, c2⟩ := hcov k.1 kv e he hcross
    have hkc : rd component k.1 = c := hk1.trans h5
    rw [hkc, h] at c1
    have hcc : cand = cand' := Option.some.inj c1
    subst hcc
    rw [← Bool.not_eq_true, msf_key_lt_iff] at c2
    have f1 : (msf_slot_candidate g component k.1 e).weight = k.2.2 := e2
    have f2 : (msf_slot_candidate g component k.1 e).comp = rd component k.1 := rfl
    have f3 : (msf_slot_candidate g component k.1 e).other = rd component k.2.1 := by
      show rd component (rd g.edges_list (2 * e)) = _
      rw [e1]
    have f4 : cand.comp = rd component cand.src := by
      conv_lhs => rw [hc3]
      rfl
    have f5 : cand.other = rd component cand.dest := by
      conv_lhs => rw [hc3]
      rw [h3]
      rfl
    rw [f1, f2, f3, f4, f5] at c2
    exact c2

/-- The contraction engine over all components: the invariant is kept, components are
merged only, the new edges are lightest edges across the cuts of the round, and the
number of roots goes down when there is a candidate. -/
theorem msf_contract_spec (g : ll_404_graph) (hwf : well_formed_weighted g) (st0 : msf_state)
    (hinv : msf_invariant g st0) (best : List (Option msf_candidate))
    (hvalid : msf_best_valid g st0.component best)
    (hcov : ∀ v, v < g.vertices_count → ∀ e, e ∈ edge_slots g.offsets_list v →
      msf_best_covers g st0.component best v e)
    (dead : List Bool) (cursor : List Nat) (hlive : msf_live g st0.component dead cursor)
    (hlen : cursor.length = g.vertices_count) (st1 : msf_state)
    (hst1 : st1 = (List.range g.vertices_count).foldl (msf_contract_component g best)
      { st0 with dead := dead, cursor := cursor }) :
    msf_invariant g st1 ∧ msf_coarser g.vertices_count st0.component st1.component ∧
    (∃ new, st1.edges = st0.edges ++ new ∧
      msf_round_edges (weighted_edges g) st0.component new) ∧
    ((∃ c, c < g.vertices_count ∧ best.getD c none ≠ none) →
      (msf_roots g.vertices_count st1.component).length <
        (msf_roots g.vertices_count st0.component).length) := by
  have key := foldl_range_invariant (msf_contract_component g best) g.vertices_count
    (fun b st => msf_invariant g st ∧ msf_coarser g.vertices_count st0.component st.component ∧
      (∃ new, st.edges = st0.edges ++ new ∧
        msf_round_edges (weighted_edges g) st0.component new) ∧
      (((∀ c, c < b → best.getD c none = none) ∧ st.component = st0.component) ∨
        (msf_roots g.vertices_count st.component).length <
          (msf_roots g.vertices_count st0.component).length))
    { st0 with dead := dead, cursor := cursor }
    (by
      obtain ⟨i1, i2, i3, i4, i5, _, _⟩ := hinv
      exact ⟨⟨i1, i2, i3, i4, i5, hlive, hlen⟩, msf_coarser_refl _ _,
        ⟨[], by simp, by simp [msf_round_edges]⟩,
        Or.inl ⟨fun c hc => absurd hc (Nat.not_lt_zero c), rfl⟩⟩)
    (by
      intro c st hc ⟨j1, j2, ⟨new, j3, j4⟩, j5⟩
      cases hb : best.getD c none with
      | none =>
        rw [msf_contract_none g best st c hb]
        refine ⟨j1, j2, ⟨new, j3, j4⟩, ?_⟩
        rcases j5 with ⟨k1, k2⟩ | k
        · left
          refine ⟨?_, k2⟩
          intro c' hc'
          by_cases h : c' = c
          · subst h; exact hb
          · exact k1 c' (by omega)
        · exact Or.inr k
      | some cand =>
        obtain ⟨h1, h2, h3, h4, h5, h6⟩ :=
          msf_best_valid_fields g st0.component best hvalid c cand hb
        have hd : cand.dest < g.vertices_count := by
          rw [h3]; exact weighted_slot_dest_lt g hwf _ _ h1 h2
        by_cases heq : rd st.component cand.src = rd st.component cand.dest
        · rw [msf_contract_same g best st c cand hb heq]
          refine ⟨msf_contract_same_invariant g hwf st j1 cand h1 h2 h3 heq, j2,
            ⟨new, j3, j4⟩, ?_⟩
          rcases j5 with ⟨_, k2⟩ | k
          · rw [k2, h5] at heq
            exact absurd heq.symm h6
          · exact Or.inr k
        · obtain ⟨a, b, hab, hres⟩ := msf_contract_merge g best st c cand hb heq
          rw [hres]
          obtain ⟨m1, m2⟩ := msf_contract_merge_invariant g hwf st j1 cand a b h1 h2 h3 h4 heq hab
          refine ⟨m1, ?_, ⟨new ++ [(cand.src, cand.dest, cand.weight)], ?_, ?_, ?_⟩, ?_⟩
          · exact msf_coarser_trans _ _ _ _ j2 (msf_coarser_relabel _ _ a b j1.1.1)
          · show st.edges ++ [_] = st0.edges ++ (new ++ [_])
            rw [j3, List.append_assoc]
          · intro f hf
            rcases List.mem_append.1 hf with hf | hf
            · exact j4.1 f hf
            · rw [List.mem_singleton] at hf
              subst hf
              exact msf_best_cut_lightest g st0.component best hvalid hcov c cand hb
          · rw [List.pairwise_append]
            refine ⟨j4.2, List.pairwise_singleton _ _, ?_⟩
            intro x hx y hy
            rw [List.mem_singleton] at hy
            subst hy
            intro hpair
            have hxe : x ∈ st.edges := by rw [j3]; exact List.mem_append_right _ hx
            have hxb := weighted_edges_bound g hwf x (j1.2.2.2.1 x hxe)
            have hxl := msf_labels_mem _ _ _ j1.1
              (fun f hf => weighted_edges_bound g hwf f (j1.2.2.2.1 f hf)) x hxe
            unfold msf_pair at hpair
            simp only [Prod.mk.injEq] at hpair
            have hcases : (rd st0.component cand.src = rd st0.component x.1 ∧
                  rd st0.component cand.dest = rd st0.component x.2.1) ∨
                (rd st0.component cand.src = rd st0.component x.2.1 ∧
                  rd st0.component cand.dest = rd st0.component x.1) := by
              omega
            apply heq
            rcases hcases with ⟨c1, c2⟩ | ⟨c1, c2⟩
            · rw [j2 _ _ h1 hxb.1 c1, j2 _ _ hd hxb.2 c2]; exact hxl
            · rw [j2 _ _ h1 hxb.2 c1, j2 _ _ hd hxb.1 c2]; exact hxl.symm
          · right
            show (msf_roots g.vertices_count (msf_relabel st.component a b)).length < _
            rcases j5 with ⟨_, k2⟩ | k
            · rw [← k2]; omega
            · omega)
  rw [← hst1] at key
  obtain ⟨k1, k2, k3, k4⟩ := key
  refine ⟨k1, k2, k3, ?_⟩
  rintro ⟨c, hc, hne⟩
  rcases k4 with ⟨k5, _⟩ | k
  · exact absurd (k5 c hc) hne
  · exact k

/-! ## The rounds -/

theorem all_isNone_iff (best : List (Option msf_candidate)) :
    best.all (fun b => b.isNone) = true ↔ ∀ c, best.getD c none = none := by
  rw [List.all_eq_true]
  constructor
  · intro h c
    by_cases hc : c < best.length
    · have h1 : best.getD c none = best[c] := by
        simp [List.getD_eq_getElem?_getD, List.getElem?_eq_getElem hc]
      rw [h1]
      have := h best[c] (List.getElem_mem hc)
      cases hb : best[c] with
      | none => rfl
      | some x => rw [hb] at this; simp at this
    · simp [List.getD_eq_getElem?_getD, List.getElem?_eq_none (by omega : best.length ≤ c)]
  · intro h b hb
    obtain ⟨i, hi, rfl⟩ := List.getElem_of_mem hb
    have h1 : best.getD i none = best[i] := by
      simp [List.getD_eq_getElem?_getD, List.getElem?_eq_getElem hi]
    rw [← h1, h i]
    rfl

theorem msf_invariant_comp_lt (g : ll_404_graph) (st : msf_state) (h : msf_invariant g st) :
    ∀ x, x < g.vertices_count → rd st.component x < g.vertices_count := h.1.2.1

/-- A round without a candidate: no graph edge joins two components. -/
theorem msf_round_none (g : ll_404_graph) (hwf : well_formed_weighted g) (st : msf_state)
    (hinv : msf_invariant g st) (h : msf_round g st = none) :
    ∀ f ∈ weighted_edges g, rd st.component f.1 = rd st.component f.2.1 := by
  obtain ⟨s1, s2, s3, s4⟩ := msf_select_spec g hwf st (msf_invariant_comp_lt g st hinv)
    hinv.2.2.2.2.2.1 hinv.2.2.2.2.2.2
  unfold msf_round at h
  by_cases hall : (msf_select g st).best.all (fun b => b.isNone) = true
  · rw [all_isNone_iff] at hall
    intro f hf
    rw [mem_weighted_edges] at hf
    obtain ⟨hv, e, he, e1, _⟩ := hf
    by_contra hne
    obtain ⟨cand, c1, _⟩ := s4 f.1 hv e he (by rw [e1]; exact fun h => hne h.symm)
    rw [hall] at c1
    cases c1
  · rw [if_neg hall] at h
    cases h

/-- A round with a candidate: the invariant is kept, components are merged, the new edges
are lightest edges across the cuts of the round, and there are fewer roots. -/
theorem msf_round_some (g : ll_404_graph) (hwf : well_formed_weighted g) (st st1 : msf_state)
    (hinv : msf_invariant g st) (h : msf_round g st = some st1) :
    msf_invariant g st1 ∧ msf_coarser g.vertices_count st.component st1.component ∧
    (∃ new, st1.edges = st.edges ++ new ∧
      msf_round_edges (weighted_edges g) st.component new) ∧
    (msf_roots g.vertices_count st1.component).length <
      (msf_roots g.vertices_count st.component).length := by
  obtain ⟨s1, s2, s3, s4⟩ := msf_select_spec g hwf st (msf_invariant_comp_lt g st hinv)
    hinv.2.2.2.2.2.1 hinv.2.2.2.2.2.2
  unfold msf_round at h
  by_cases hall : (msf_select g st).best.all (fun b => b.isNone) = true
  · rw [if_pos hall] at h
    cases h
  · rw [if_neg hall] at h
    have hst1 := (Option.some.inj h).symm
    obtain ⟨c1, c2, c3, c4⟩ := msf_contract_spec g hwf st hinv (msf_select g st).best s1 s4
      (msf_select g st).dead (msf_select g st).cursor s2 s3 st1 hst1
    refine ⟨c1, c2, c3, c4 ?_⟩
    rw [all_isNone_iff] at hall
    push_neg at hall
    obtain ⟨c, hc⟩ := hall
    refine ⟨c, ?_, hc⟩
    by_contra hge
    apply hc
    simp [List.getD_eq_getElem?_getD, List.getElem?_eq_none (by rw [s1.1]; omega :
      (msf_select g st).best.length ≤ c)]

/-- The loop of rounds ends within as many rounds as there are roots, plus the round that
finds no candidate; the invariant holds at the end and no graph edge joins two
components. -/
theorem msf_rounds_spec (g : ll_404_graph) (hwf : well_formed_weighted g) :
    ∀ (fuel : Nat) (st : msf_state), msf_invariant g st →
      (msf_roots g.vertices_count st.component).length < fuel →
      ∃ st', msf_rounds g fuel st = some st' ∧ msf_invariant g st' ∧
        ∀ f ∈ weighted_edges g, rd st'.component f.1 = rd st'.component f.2.1 := by
  intro fuel
  induction fuel with
  | zero => intro st _ h; omega
  | succ fuel ih =>
    intro st hinv hfuel
    unfold msf_rounds
    cases hr : msf_round g st with
    | none => exact ⟨st, rfl, hinv, msf_round_none g hwf st hinv hr⟩
    | some st1 =>
      obtain ⟨r1, _, _, r4⟩ := msf_round_some g hwf st st1 hinv hr
      exact ih st1 r1 (by omega)

theorem msf_start_invariant (g : ll_404_graph) : msf_invariant g (msf_start g) := by
  refine ⟨msf_labels_start _, msf_forest_nil, ?_, ?_, rfl, ?_, ?_⟩
  · show (msf_roots g.vertices_count (List.range g.vertices_count)).length + 0 = _
    rw [msf_roots_start, Nat.add_zero]
  · intro f hf; cases hf
  · intro v hv
    have hc : rd ((List.range g.vertices_count).map (rd g.offsets_list)) v =
        rd g.offsets_list v := by
      rw [rd_map_lt _ _ _ (by simpa using hv)]
      congr 1
      rw [rd_eq_getElem _ _ (by simpa using hv)]
      simp
    refine ⟨by show _ ≤ rd ((List.range g.vertices_count).map (rd g.offsets_list)) v; omega, ?_⟩
    intro e he hd
    exfalso
    rcases hd with hd | hd
    · have : (List.replicate g.edges_count false).getD e false = false := by
        simp only [List.getD_eq_getElem?_getD, List.getElem?_replicate]
        split <;> rfl
      change (List.replicate g.edges_count false).getD e false = true at hd
      rw [this] at hd
      cases hd
    · change e < rd ((List.range g.vertices_count).map (rd g.offsets_list)) v at hd
      rw [hc] at hd
      rw [mem_edge_slots] at he
      omega
  · show ((List.range g.vertices_count).map (rd g.offsets_list)).length = _
    simp

/-- With more rounds allowed than there are vertices, `msf_mastiff` returns; the state at
the end satisfies the invariant, and no graph edge joins two components. -/
theorem msf_mastiff_spec (g : ll_404_graph) (hwf : well_formed_weighted g) (fuel : Nat)
    (hfuel : g.vertices_count < fuel) (pe : par_env) (exec_info : List Nat) (flags : Nat) :
    ∃ st, msf_rounds g fuel (msf_start g) = some st ∧
      msf_mastiff fuel pe g exec_info flags =
        some { edges := st.edges, total_weight := st.total_weight } ∧
      msf_invariant g st ∧
      ∀ f ∈ weighted_edges g, rd st.component f.1 = rd st.component f.2.1 := by
  have h0 := msf_start_invariant g
  obtain ⟨st, h1, h2, h3⟩ := msf_rounds_spec g hwf fuel (msf_start g) h0 (by
    have := h0.2.2.1
    have h4 : (msf_start g).edges.length = 0 := rfl
    omega)
  refine ⟨st, h1, ?_, h2, h3⟩
  unfold msf_mastiff
  rw [h1]

/-! ## The validator on the result of `msf_mastiff` -/

theorem weighting_well_formed (g : ll_400_graph) (w : ll_404_graph) (hwf : well_formed g)
    (hw : weighting_of g w) : well_formed_weighted w := by
  obtain ⟨h1, h2, h3, h4, h5, h6, _⟩ := hwf
  obtain ⟨w1, w2, w3, w4, w5⟩ := hw
  refine ⟨by rw [w3, w1]; exact h1, by rw [w4, w2], by rw [w3]; exact h3, ?_, ?_, ?_⟩
  · intro v hv; rw [w3]; exact h4 v (by omega)
  · rw [w3, w1, w2]; exact h5
  · intro e he
    rw [w5 e (by omega), w1]
    exact h6 e (by omega)

theorem weighting_neighbour (g : ll_400_graph) (w : ll_404_graph) (hwf : well_formed g)
    (hw : weighting_of g w) (f : Nat × Nat × Nat) (hf : f ∈ weighted_edges w) :
    f.1 < g.vertices_count ∧ f.2.1 ∈ neighbour_list g f.1 := by
  have hww := weighting_well_formed g w hwf hw
  rw [mem_weighted_edges] at hf
  obtain ⟨hv, e, he, e1, _⟩ := hf
  have hlt := weighted_slot_lt w hww f.1 e hv he
  obtain ⟨w1, w2, w3, _, w5⟩ := hw
  refine ⟨by omega, ?_⟩
  unfold neighbour_list
  rw [List.mem_map]
  refine ⟨e, by rw [← w3]; exact he, ?_⟩
  rw [← w5 e (by omega), e1]

theorem neighbour_weighting (g : ll_400_graph) (w : ll_404_graph) (hwf : well_formed g)
    (hw : weighting_of g w) (v d : Nat) (hv : v < g.vertices_count)
    (hd : d ∈ neighbour_list g v) : ∃ x, (v, d, x) ∈ weighted_edges w := by
  have hww := weighting_well_formed g w hwf hw
  obtain ⟨w1, w2, w3, _, w5⟩ := hw
  unfold neighbour_list at hd
  rw [List.mem_map] at hd
  obtain ⟨e, he, e1⟩ := hd
  rw [← w3] at he
  have hlt := weighted_slot_lt w hww v e (by omega) he
  refine ⟨rd w.edges_list (2 * e + 1), ?_⟩
  rw [mem_weighted_edges]
  exact ⟨by show v < w.vertices_count; omega, e, he, by rw [w5 e (by omega)]; exact e1, rfl⟩

/-- Two different connected vertices: an edge of the list ends at the first. -/
theorem msf_connected_incident (L : List (Nat × Nat × Nat)) (x y : Nat)
    (h : msf_connected L x y) (hne : x ≠ y) : ∃ f ∈ L, f.1 = x ∨ f.2.1 = x := by
  unfold msf_connected at h
  rcases Relation.ReflTransGen.cases_head h with h1 | ⟨c, ⟨w, h1 | h1⟩, _⟩
  · exact absurd h1 hne
  · exact ⟨_, h1, Or.inl rfl⟩
  · exact ⟨_, h1, Or.inr rfl⟩

/-- C24: for every well-formed graph `g` without self-loops (the symmetric graphs of the
data model are among them) and every weighting `w` of it, `msf_mastiff` returns a forest
when more rounds are allowed than there are vertices, and `msf_validate` on `g` and this
result returns 1: every MSF edge is an edge of `g`, the disjoint-set replay of the edges
finds no cycle (no edge joins two vertices that the edges before it connect), and every
vertex with a neighbour is an end of an MSF edge. -/
theorem msf_mastiff_passes_validator (pe : par_env) (g : ll_400_graph) (w : ll_404_graph)
    (exec_info : List Nat) (flags vflags fuel : Nat) (hwf : well_formed g)
    (hno : no_self_edges g) (hw : weighting_of g w) (hfuel : g.vertices_count < fuel) :
    ∃ m, msf_mastiff fuel pe w exec_info flags = some m ∧
      msf_validate pe g m vflags = 1 ∧
      (∀ f ∈ m.edges, f.1 < g.vertices_count ∧ f.2.1 ∈ neighbour_list g f.1) ∧
      (msf_replay g.vertices_count m.edges).isSome = true ∧ msf_forest m.edges ∧
      (∀ v, v < g.vertices_count → neighbour_list g v ≠ [] →
        ∃ f ∈ m.edges, f.1 = v ∨ f.2.1 = v) := by
  have hww := weighting_well_formed g w hwf hw
  have hn : w.vertices_count = g.vertices_count := hw.1
  obtain ⟨st, _, h2, h3, h4⟩ := msf_mastiff_spec w hww fuel (by omega) pe exec_info flags
  obtain ⟨i1, i2, _, i4, _, _, _⟩ := h3
  have hbound : ∀ f ∈ st.edges, f.1 < g.vertices_count ∧ f.2.1 < g.vertices_count := by
    intro f hf
    have := weighted_edges_bound w hww f (i4 f hf)
    omega
  have p1 : ∀ f ∈ st.edges, f.1 < g.vertices_count ∧ f.2.1 ∈ neighbour_list g f.1 :=
    fun f hf => weighting_neighbour g w hwf hw f (i4 f hf)
  have p2 : (msf_replay g.vertices_count st.edges).isSome = true := by
    obtain ⟨lab, hlab, _, _⟩ := msf_replay_spec g.vertices_count st.edges hbound i2
    rw [hlab]; rfl
  have p3 : ∀ v, v < g.vertices_count → neighbour_list g v ≠ [] →
      ∃ f ∈ st.edges, f.1 = v ∨ f.2.1 = v := by
    intro v hv hne
    obtain ⟨d, hd⟩ := List.exists_mem_of_ne_nil _ hne
    have hvd : v ≠ d := fun h => hno v hv (h ▸ hd)
    obtain ⟨x, hx⟩ := neighbour_weighting g w hwf hw v d hv hd
    have hsame := h4 _ hx
    have hdn := (weighted_edges_bound w hww _ hx).2
    have hconn := (i1.2.2.2 v d (by omega) hdn).1 hsame
    exact msf_connected_incident st.edges v d hconn hvd
  refine ⟨_, h2, ?_, p1, p2, i2, p3⟩
  unfold msf_validate
  rw [if_pos ⟨p1, p2, p3⟩]

theorem msf_mastiff_passes_validator_witness :
    well_formed sample_sym ∧ no_self_edges sample_sym ∧
    weighting_of sample_sym sample_sym_weighted ∧
    ∃ m, msf_mastiff 5 sample_pe sample_sym_weighted [] 1 = some m ∧
      msf_validate sample_pe sample_sym m 0 = 1 ∧
      (∀ f ∈ m.edges, f.1 < sample_sym.vertices_count ∧ f.2.1 ∈ neighbour_list sample_sym f.1) ∧
      (msf_replay sample_sym.vertices_count m.edges).isSome = true ∧ msf_forest m.edges ∧
      (∀ v, v < sample_sym.vertices_count → neighbour_list sample_sym v ≠ [] →
        ∃ f ∈ m.edges, f.1 = v ∨ f.2.1 = v) :=
  ⟨by decide, by decide, by decide,
    msf_mastiff_passes_validator sample_pe sample_sym sample_sym_weighted [] 1 0 5
      (by decide) (by decide) (by decide) (by decide)⟩

/-! ## The selected edges are bottleneck-optimal -/

theorem msf_history_start (g : ll_404_graph) : msf_history g (msf_start g) [] 0 := by
  refine ⟨rfl, ?_, List.Pairwise.nil⟩
  intro x hx
  cases hx

/-- A round extends the history by its new edges, with the labels at its start. -/
theorem msf_history_round (g : ll_404_graph) (hwf : well_formed_weighted g)
    (st st1 : msf_state) (A : List ((Nat × Nat × Nat) × List Nat × Nat)) (r : Nat)
    (hinv : msf_invariant g st) (hA : msf_history g st A r) (h : msf_round g st = some st1) :
    ∃ A1, msf_history g st1 A1 (r + 1) := by
  obtain ⟨_, r2, ⟨new, r3, r4, r5⟩, _⟩ := msf_round_some g hwf st st1 hinv h
  obtain ⟨a1, a2, a3⟩ := hA
  refine ⟨A ++ new.map (fun f => (f, st.component, r)), ?_, ?_, ?_⟩
  · rw [List.map_append, a1, r3, List.map_map]
    congr 1
    simp [Function.comp_def]
  · intro x hx
    rcases List.mem_append.1 hx with hx | hx
    · obtain ⟨b1, b2, b3⟩ := a2 x hx
      exact ⟨by omega, b2, msf_coarser_trans _ _ _ _ b3 r2⟩
    · rw [List.mem_map] at hx
      obtain ⟨f, hf, rfl⟩ := hx
      exact ⟨Nat.lt_succ_self r, r4 f hf, r2⟩
  · rw [List.pairwise_append]
    refine ⟨a3, ?_, ?_⟩
    · rw [List.pairwise_map]
      refine r5.imp ?_
      intro x y hxy
      exact ⟨Nat.le_refl _, fun h => absurd h (Nat.lt_irrefl _), fun _ => ⟨rfl, hxy⟩⟩
    · intro x hx y hy
      rw [List.mem_map] at hy
      obtain ⟨f, hf, rfl⟩ := hy
      obtain ⟨b1, _, _⟩ := a2 x hx
      refine ⟨by show x.2.2 ≤ r; omega, ?_, ?_⟩
      · intro _
        show rd st.component x.1.1 = rd st.component x.1.2.1
        have hxe : x.1 ∈ st.edges := by
          rw [← a1]; exact List.mem_map.2 ⟨x, hx, rfl⟩
        exact msf_labels_mem _ _ _ hinv.1
          (fun k hk => weighted_edges_bound g hwf k (hinv.2.2.2.1 k hk)) x.1 hxe
      · intro heq
        have : x.2.2 = r := heq
        omega

theorem msf_rounds_history (g : ll_404_graph) (hwf : well_formed_weighted g) :
    ∀ (fuel : Nat) (st st' : msf_state) (A : List ((Nat × Nat × Nat) × List Nat × Nat))
      (r : Nat), msf_invariant g st → msf_history g st A r →
      msf_rounds g fuel st = some st' → ∃ A' r', msf_history g st' A' r' := by
  intro fuel
  induction fuel with
  | zero => intro st st' A r _ _ h; cases h
  | succ fuel ih =>
    intro st st' A r hinv hA h
    unfold msf_rounds at h
    cases hr : msf_round g st with
    | none =>
      rw [hr] at h
      have : st = st' := Option.some.inj h
      subst this
      exact ⟨A, r, hA⟩
    | some st1 =>
      rw [hr] at h
      obtain ⟨A1, hA1⟩ := msf_history_round g hwf st st1 A r hinv hA hr
      exact ih st1 st' A1 (r + 1) (msf_round_some g hwf st st1 hinv hr).1 hA1 h

theorem msf_bottleneck_congr (G T T' : List (Nat × Nat × Nat)) (h : ∀ f, f ∈ T → f ∈ T')
    (hb : msf_bottleneck G T) : msf_bottleneck G T' := by
  intro f hf
  refine msf_connected_mono _ _ ?_ _ _ (hb f hf)
  intro k hk
  rw [mem_msf_light] at hk ⊢
  exact ⟨h k hk.1, hk.2⟩

/-- An edge of the history that leaves the component of another entry is not below the
edge of that entry. -/
theorem msf_history_crossing (G : List (Nat × Nat × Nat))
    (hsymG : ∀ k ∈ G, (k.2.1, k.1, k.2.2) ∈ G) (snap : List Nat) (f k : Nat × Nat × Nat)
    (hf : msf_cut_lightest G snap f) (hk : k ∈ G)
    (hcross : ¬ (rd snap k.1 = rd snap f.1 ↔ rd snap k.2.1 = rd snap f.1)) :
    f.2.2 ≤ k.2.2 ∧
    (f.2.2 = k.2.2 →
      (msf_pair snap f).1 < (msf_pair snap k).1 ∨
        ((msf_pair snap f).1 = (msf_pair snap k).1 ∧
          (msf_pair snap f).2 ≤ (msf_pair snap k).2)) := by
  obtain ⟨_, _, h3⟩ := hf
  by_cases h1 : rd snap k.1 = rd snap f.1
  · have h2 : rd snap k.2.1 ≠ rd snap f.1 := fun h => hcross ⟨fun _ => h, fun _ => h1⟩
    have := h3 k hk h1 h2
    unfold msf_below at this
    unfold msf_pair
    dsimp only
    omega
  · have h2 : rd snap k.2.1 = rd snap f.1 := by
      by_contra h
      exact hcross ⟨fun h' => absurd h' h1, fun h' => absurd h' h⟩
    have := h3 (k.2.1, k.1, k.2.2) (hsymG k hk) h2 h1
    unfold msf_below at this
    unfold msf_pair
    dsimp only at this ⊢
    omega

/-- The edges of a history that connect the two ends of every graph edge connect them by
edges that are not heavier. -/
theorem msf_history_bottleneck (g : ll_404_graph)
    (hsym : symmetric_weights g) (st : msf_state)
    (A : List ((Nat × Nat × Nat) × List Nat × Nat)) (r : Nat) (hA : msf_history g st A r)
    (hspan : ∀ f ∈ weighted_edges g, msf_connected st.edges f.1 f.2.1) :
    msf_bottleneck (weighted_edges g) st.edges := by
  obtain ⟨a1, a2, a3⟩ := hA
  have hperm : (A.insertionSort msf_rank_le).Perm A := List.perm_insertionSort _ _
  have hsorted : (A.insertionSort msf_rank_le).Pairwise msf_rank_le :=
    List.sorted_insertionSort _ _
  have hmem : ∀ x, x ∈ A.insertionSort msf_rank_le ↔ x ∈ A := fun x => hperm.mem_iff
  have hnodup : A.Nodup := by
    refine a3.imp ?_
    intro x y hxy heq
    subst heq
    exact (hxy.2.2 rfl).2 rfl
  have hnodup' : (A.insertionSort msf_rank_le).Nodup := hperm.nodup_iff.2 hnodup
  have htime : ∀ x, x ∈ A → ∀ y, y ∈ A → x ≠ y →
      ((x.2.2 ≤ y.2.2 ∧ (x.2.2 < y.2.2 → rd y.2.1 x.1.1 = rd y.2.1 x.1.2.1) ∧
          (x.2.2 = y.2.2 → x.2.1 = y.2.1 ∧ msf_pair x.2.1 x.1 ≠ msf_pair y.2.1 y.1)) ∨
        (y.2.2 ≤ x.2.2 ∧ (y.2.2 < x.2.2 → rd x.2.1 y.1.1 = rd x.2.1 y.1.2.1) ∧
          (y.2.2 = x.2.2 → y.2.1 = x.2.1 ∧ msf_pair y.2.1 y.1 ≠ msf_pair x.2.1 x.1))) := by
    have hsymm : Symmetric (fun x y : (Nat × Nat × Nat) × List Nat × Nat =>
        (x.2.2 ≤ y.2.2 ∧ (x.2.2 < y.2.2 → rd y.2.1 x.1.1 = rd y.2.1 x.1.2.1) ∧
          (x.2.2 = y.2.2 → x.2.1 = y.2.1 ∧ msf_pair x.2.1 x.1 ≠ msf_pair y.2.1 y.1)) ∨
        (y.2.2 ≤ x.2.2 ∧ (y.2.2 < x.2.2 → rd x.2.1 y.1.1 = rd x.2.1 y.1.2.1) ∧
          (y.2.2 = x.2.2 → y.2.1 = x.2.1 ∧ msf_pair y.2.1 y.1 ≠ msf_pair x.2.1 x.1))) :=
      fun x y h => h.symm
    have := (a3.imp (fun {x y} h => (Or.inl h : _ ∨ _))).forall hsymm
    intro x hx y hy hne
    exact this hx hy hne
  have hglobal : ∀ y, y ∈ A → ∀ x, x ∈ A → y ≠ x → msf_rank_le y x →
      y.1.2.2 ≤ x.1.2.2 ∧
        (rd x.2.1 y.1.1 = rd x.2.1 x.1.1 ↔ rd x.2.1 y.1.2.1 = rd x.2.1 x.1.1) := by
    intro y hy x hx hne hle
    refine ⟨by unfold msf_rank_le at hle; omega, ?_⟩
    by_contra hcross
    obtain ⟨c1, c2⟩ := msf_history_crossing (weighted_edges g) hsym x.2.1 x.1 y.1
      (a2 x hx).2.1 (a2 y hy).2.1.1 hcross
    have hsame : x.2.2 = y.2.2 → x.2.1 = y.2.1 →
        msf_pair x.2.1 x.1 ≠ msf_pair y.2.1 y.1 → False := by
      intro e1 e2 hp
      apply hp
      unfold msf_rank_le at hle
      rw [← e2] at hle ⊢
      have h3 : x.1.2.2 = y.1.2.2 := by omega
      have c3 := c2 h3
      apply Prod.ext <;> omega
    rcases htime y hy x hx hne with ⟨t1, t2, t3⟩ | ⟨t1, t2, t3⟩
    · rcases Nat.lt_or_ge y.2.2 x.2.2 with hlt | hge
      · have := t2 hlt
        exact hcross (by rw [this])
      · have heq : y.2.2 = x.2.2 := by omega
        obtain ⟨e2, hp⟩ := t3 heq
        exact hsame heq.symm e2.symm (fun h => hp h.symm)
    · rcases Nat.lt_or_ge x.2.2 y.2.2 with hlt | hge
      · unfold msf_rank_le at hle
        omega
      · have heq : x.2.2 = y.2.2 := by omega
        obtain ⟨e2, hp⟩ := t3 heq
        exact hsame heq e2 hp
  have hcert := msf_certified_bottleneck (weighted_edges g) (A.insertionSort msf_rank_le)
    (fun x => x.1) (fun x z => rd x.2.1 z = rd x.2.1 x.1.1) hsym
    (by
      intro k hk
      refine msf_connected_mono _ _ ?_ _ _ (hspan k hk)
      intro f hf
      rw [← a1, List.mem_map] at hf
      obtain ⟨x, hx, rfl⟩ := hf
      exact List.mem_map.2 ⟨x, (hmem x).2 hx, rfl⟩)
    (by
      intro x hx
      have := (a2 x ((hmem x).1 hx)).2.1.2.1
      exact ⟨rfl, fun h => this h.symm⟩)
    (by
      intro x hx k hk s1 s2
      have := (a2 x ((hmem x).1 hx)).2.1.2.2 k hk s1 s2
      unfold msf_below at this
      show x.1.2.2 ≤ k.2.2
      omega)
    (by
      have h1 : (A.insertionSort msf_rank_le).Pairwise (fun y x => msf_rank_le y x ∧ y ≠ x) :=
        hsorted.and hnodup'
      refine h1.imp_of_mem ?_
      intro y x hy hx hyx
      exact hglobal y ((hmem y).1 hy) x ((hmem x).1 hx) hyx.2 hyx.1)
  refine msf_bottleneck_congr _ _ _ ?_ hcert
  intro f hf
  rw [List.mem_map] at hf
  obtain ⟨x, hx, rfl⟩ := hf
  rw [← a1]
  exact List.mem_map.2 ⟨x, (hmem x).1 hx, rfl⟩

/-- What `msf_mastiff` returns on a well-formed graph with mirrored weights: a forest of
graph edges with the reported weight that joins the two ends of every graph edge by edges
that are not heavier. -/
theorem msf_mastiff_optimal (g : ll_404_graph) (hwf : well_formed_weighted g)
    (hsym : symmetric_weights g) (fuel : Nat) (hfuel : g.vertices_count < fuel)
    (pe : par_env) (exec_info : List Nat) (flags : Nat) :
    ∃ m, msf_mastiff fuel pe g exec_info flags = some m ∧
      m.total_weight = msf_weight m.edges ∧ msf_forest m.edges ∧
      (∀ f ∈ m.edges, f ∈ weighted_edges g) ∧
      msf_bottleneck (weighted_edges g) m.edges := by
  obtain ⟨st, h1, h2, h3, h4⟩ := msf_mastiff_spec g hwf fuel hfuel pe exec_info flags
  obtain ⟨A, r, hA⟩ := msf_rounds_history g hwf fuel (msf_start g) st [] 0
    (msf_start_invariant g) (msf_history_start g) h1
  refine ⟨_, h2, h3.2.2.2.2.1, h3.2.1, h3.2.2.2.1, ?_⟩
  apply msf_history_bottleneck g hsym st A r hA
  intro f hf
  have hb := weighted_edges_bound g hwf f hf
  exact (h3.1.2.2.2 f.1 f.2.1 hb.1 hb.2).1 (h4 f hf)

/-! ## The serial Prim oracle -/

/-- One slot of the scan for a lightest edge: the edge kept leaves the reached vertices,
stays at most as heavy as before, and is at most as heavy as the scanned slot when this
slot leaves the reached vertices. -/
theorem prim_scan_slot_spec (g : ll_404_graph) (visited : List Bool) (v e : Nat)
    (hv : v < g.vertices_count) (hvis : visited.getD v false = true)
    (he : e ∈ edge_slots g.offsets_list v) (best : Option (Nat × Nat × Nat))
    (hvalid : ∀ f, best = some f → f ∈ weighted_edges g ∧ visited.getD f.1 false = true ∧
      visited.getD f.2.1 false ≠ true) :
    (∀ f, prim_scan_slot g visited v best e = some f →
      f ∈ weighted_edges g ∧ visited.getD f.1 false = true ∧
      visited.getD f.2.1 false ≠ true) ∧
    (∀ w0, (∃ f, best = some f ∧ f.2.2 ≤ w0) →
      ∃ f, prim_scan_slot g visited v best e = some f ∧ f.2.2 ≤ w0) ∧
    (visited.getD (rd g.edges_list (2 * e)) false ≠ true →
      ∃ f, prim_scan_slot g visited v best e = some f ∧
        f.2.2 ≤ rd g.edges_list (2 * e + 1)) := by
  unfold prim_scan_slot
  by_cases hd : visited.getD (rd g.edges_list (2 * e)) false = true
  · rw [if_pos hd]
    exact ⟨hvalid, fun _ h => h, fun h => absurd hd h⟩
  · rw [if_neg hd]
    have hslot : ∀ f, f = (v, rd g.edges_list (2 * e), rd g.edges_list (2 * e + 1)) →
        f ∈ weighted_edges g ∧ visited.getD f.1 false = true ∧
        visited.getD f.2.1 false ≠ true := by
      intro f hf
      subst hf
      exact ⟨slot_mem_weighted_edges g v e hv he, hvis, hd⟩
    cases best with
    | none =>
      refine ⟨?_, ?_, ?_⟩
      · intro f hf
        exact hslot f (Option.some.inj hf).symm
      · rintro w0 ⟨f, hf, _⟩
        cases hf
      · intro _
        exact ⟨_, rfl, Nat.le_refl _⟩
    | some b =>
      by_cases hlt : rd g.edges_list (2 * e + 1) < b.2.2
      · simp only [if_pos hlt]
        refine ⟨?_, ?_, ?_⟩
        · intro f hf
          exact hslot f (Option.some.inj hf).symm
        · rintro w0 ⟨f, hf, hw⟩
          cases hf
          exact ⟨_, rfl, by show rd g.edges_list (2 * e + 1) ≤ w0; omega⟩
        · intro _
          exact ⟨_, rfl, Nat.le_refl _⟩
      · simp only [if_neg hlt]
        refine ⟨hvalid, fun _ h => h, ?_⟩
        intro _
        exact ⟨b, rfl, by omega⟩

theorem prim_scan_vertex_spec (g : ll_404_graph) (visited : List Bool) (v : Nat)
    (hv : v < g.vertices_count) (best : Option (Nat × Nat × Nat))
    (hvalid : ∀ f, best = some f → f ∈ weighted_edges g ∧ visited.getD f.1 false = true ∧
      visited.getD f.2.1 false ≠ true) :
    (∀ f, prim_scan_vertex g visited best v = some f →
      f ∈ weighted_edges g ∧ visited.getD f.1 false = true ∧
      visited.getD f.2.1 false ≠ true) ∧
    (∀ w0, (∃ f, best = some f ∧ f.2.2 ≤ w0) →
      ∃ f, prim_scan_vertex g visited best v = some f ∧ f.2.2 ≤ w0) ∧
    (visited.getD v false = true → ∀ e, e ∈ edge_slots g.offsets_list v →
      visited.getD (rd g.edges_list (2 * e)) false ≠ true →
      ∃ f, prim_scan_vertex g visited best v = some f ∧
        f.2.2 ≤ rd g.edges_list (2 * e + 1)) := by
  unfold prim_scan_vertex
  by_cases hvis : visited.getD v false = true
  · rw [if_pos hvis]
    have key := foldl_range'_invariant (prim_scan_slot g visited v)
      (rd g.offsets_list (v + 1) - rd g.offsets_list v)
      (fun i b => (∀ f, b = some f → f ∈ weighted_edges g ∧ visited.getD f.1 false = true ∧
          visited.getD f.2.1 false ≠ true) ∧
        (∀ w0, (∃ f, best = some f ∧ f.2.2 ≤ w0) → ∃ f, b = some f ∧ f.2.2 ≤ w0) ∧
        (∀ e, e ∈ edge_slots g.offsets_list v → e < i →
          visited.getD (rd g.edges_list (2 * e)) false ≠ true →
          ∃ f, b = some f ∧ f.2.2 ≤ rd g.edges_list (2 * e + 1)))
      (rd g.offsets_list v) best
      ⟨hvalid, fun _ h => h, fun e he hlt => (by rw [mem_edge_slots] at he; omega)⟩
      (by
        intro i b h1 h2 ⟨i1, i2, i3⟩
        have hi : i ∈ edge_slots g.offsets_list v := by rw [mem_edge_slots]; omega
        obtain ⟨j1, j2, j3⟩ := prim_scan_slot_spec g visited v i hv hvis hi b i1
        refine ⟨j1, fun w0 h => j2 w0 (i2 w0 h), ?_⟩
        intro e he hlt hd
        by_cases hei : e = i
        · subst hei; exact j3 hd
        · exact j2 _ (i3 e he (by omega) hd))
    obtain ⟨k1, k2, k3⟩ := key
    refine ⟨k1, k2, ?_⟩
    intro _ e he hd
    apply k3 e he _ hd
    rw [mem_edge_slots] at he
    omega
  · rw [if_neg hvis]
    exact ⟨hvalid, fun _ h => h, fun h => absurd h hvis⟩

/-- The choice of Prim's algorithm: a lightest graph edge from a reached vertex to a
vertex not reached yet, and `none` exactly when there is no such edge. -/
theorem prim_lightest_spec (g : ll_404_graph) (visited : List Bool) :
    (∀ f, prim_lightest g visited = some f →
      f ∈ weighted_edges g ∧ visited.getD f.1 false = true ∧
      visited.getD f.2.1 false ≠ true) ∧
    (∀ k, k ∈ weighted_edges g → visited.getD k.1 false = true →
      visited.getD k.2.1 false ≠ true →
      ∃ f, prim_lightest g visited = some f ∧ f.2.2 ≤ k.2.2) := by
  unfold prim_lightest
  have key := foldl_range_invariant (prim_scan_vertex g visited) g.vertices_count
    (fun b best => (∀ f, best = some f → f ∈ weighted_edges g ∧
        visited.getD f.1 false = true ∧ visited.getD f.2.1 false ≠ true) ∧
      (∀ v, v < b → visited.getD v false = true → ∀ e, e ∈ edge_slots g.offsets_list v →
        visited.getD (rd g.edges_list (2 * e)) false ≠ true →
        ∃ f, best = some f ∧ f.2.2 ≤ rd g.edges_list (2 * e + 1)))
    none
    ⟨fun f hf => (by cases hf), fun v hv => absurd hv (Nat.not_lt_zero v)⟩
    (by
      intro i best hi ⟨i1, i2⟩
      obtain ⟨j1, j2, j3⟩ := prim_scan_vertex_spec g visited i hi best i1
      refine ⟨j1, ?_⟩
      intro v hv hvis e he hd
      by_cases hvi : v = i
      · subst hvi; exact j3 hvis e he hd
      · exact j2 _ (i2 v (by omega) hvis e he hd))
  obtain ⟨k1, k2⟩ := key
  refine ⟨k1, ?_⟩
  intro k hk hv hd
  rw [mem_weighted_edges] at hk
  obtain ⟨kv, e, he, e1, e2⟩ := hk
  have := k2 k.1 kv hv e he (by rw [e1]; exact hd)
  rw [e2] at this
  exact this

theorem prim_unvisited_set (n : Nat) (visited : List Bool) (v : Nat) (hv : v < n)
    (hlen : visited.length = n) (hnot : visited.getD v false ≠ true) :
    (prim_unvisited n (visited.set v true)).length + 1 = (prim_unvisited n visited).length := by
  unfold prim_unvisited
  apply filter_remove_one (List.range n) v _ _ (List.nodup_range n) (List.mem_range.2 hv)
  · simpa using hnot
  · intro x
    rw [getD_set]
    by_cases h : v = x
    · subst h
      simp [hlen, hv]
    · have : ¬ (v = x ∧ v < visited.length) := fun h' => h h'.1
      rw [if_neg this]
      simp [Ne.symm h]

theorem prim_visited_set (visited : List Bool) (v x : Nat) (hv : v < visited.length) :
    (visited.set v true).getD x false = true ↔ (visited.getD x false = true ∨ x = v) := by
  rw [getD_set]
  by_cases h : v = x
  · subst h; simp [hv]
  · have : ¬ (v = x ∧ v < visited.length) := fun h' => h h'.1
    rw [if_neg this]
    constructor
    · exact Or.inl
    · rintro (h1 | h1)
      · exact h1
      · exact absurd h1.symm h

theorem prim_visited_lt (visited : List Bool) (x : Nat) (h : visited.getD x false = true) :
    x < visited.length := by
  by_contra hge
  simp [List.getD_eq_getElem?_getD, List.getElem?_eq_none (by omega : visited.length ≤ x)] at h

/-- A graph path from a reached vertex to a vertex not reached uses a graph edge from a
reached vertex to a vertex not reached. -/
theorem prim_crossing (g : ll_404_graph) (hsym : symmetric_weights g) (visited : List Bool)
    (t a b : Nat) (h : msf_connected (msf_light (weighted_edges g) t) a b)
    (ha : visited.getD a false = true) (hb : visited.getD b false ≠ true) :
    ∃ k, k ∈ weighted_edges g ∧ k.2.2 ≤ t ∧ visited.getD k.1 false = true ∧
      visited.getD k.2.1 false ≠ true := by
  obtain ⟨k, hk, hc⟩ := msf_connected_crossing _ (fun x => visited.getD x false = true) a b h ha hb
  rw [mem_msf_light] at hk
  rcases hc with ⟨c1, c2⟩ | ⟨c1, c2⟩
  · exact ⟨k, hk.1, hk.2, c1, c2⟩
  · exact ⟨(k.2.1, k.1, k.2.2), hsym k hk.1, hk.2, c1, c2⟩

/-- One step of the oracle keeps the invariant and reaches one more vertex. -/
theorem prim_step_some (g : ll_404_graph) (hwf : well_formed_weighted g)
    (hsym : symmetric_weights g) (st st' : prim_state) (hinv : prim_invariant g st)
    (h : prim_step g st = some st') :
    prim_invariant g st' ∧
    (prim_unvisited g.vertices_count st'.visited).length + 1 =
      (prim_unvisited g.vertices_count st.visited).length := by
  obtain ⟨i1, i2, i3, i4, i5, i6⟩ := hinv
  obtain ⟨l1, l2⟩ := prim_lightest_spec g st.visited
  unfold prim_step at h
  cases hl : prim_lightest g st.visited with
  | some f =>
    rw [hl] at h
    have hst := (Option.some.inj h).symm
    subst hst
    obtain ⟨f1, f2, f3⟩ := l1 f hl
    have hfb := weighted_edges_bound g hwf f f1
    have hvis := prim_visited_set st.visited f.2.1
    have hlt : f.2.1 < st.visited.length := by omega
    have hmin : ∀ t a, st.visited.getD a false = true →
        msf_connected (msf_light (weighted_edges g) t) a f.2.1 →
        msf_connected (msf_light (st.edges ++ [f]) t) a f.2.1 := by
      intro t a ha hc
      obtain ⟨k, k1, k2, k3, k4⟩ := prim_crossing g hsym st.visited t a f.2.1 hc ha f3
      obtain ⟨f', e1, e2⟩ := l2 k k1 k3 k4
      rw [hl] at e1
      have : f = f' := Option.some.inj e1
      subst this
      have hft : f.2.2 ≤ t := by omega
      have hfG : msf_connected (msf_light (weighted_edges g) t) f.1 f.2.1 :=
        msf_connected_of_mem _ f ((mem_msf_light _ _ _).2 ⟨f1, hft⟩)
      have hau : msf_connected (msf_light st.edges t) a f.1 :=
        i6 a f.1 t ha f2 (msf_connected_trans _ _ _ _ hc (msf_connected_symm _ _ _ hfG))
      refine msf_connected_trans _ _ _ _ (msf_connected_mono _ _ ?_ _ _ hau) ?_
      · intro k hk
        rw [mem_msf_light] at hk ⊢
        exact ⟨List.mem_append_left _ hk.1, hk.2⟩
      · exact msf_connected_of_mem _ f ((mem_msf_light _ _ _).2
          ⟨List.mem_append_right _ (List.mem_singleton.2 rfl), hft⟩)
    refine ⟨⟨by show (st.visited.set f.2.1 true).length = _; rw [List.length_set]; exact i1,
      ?_, ?_, ?_, ?_, ?_⟩, prim_unvisited_set _ _ _ hfb.2 i1 f3⟩
    · rw [msf_forest_append]
      refine ⟨i2, ?_⟩
      intro hc
      have hne : f.2.1 ≠ f.1 := by
        intro heq
        rw [heq] at f3
        exact f3 f2
      obtain ⟨k, hk, hk2⟩ := msf_connected_incident st.edges f.2.1 f.1
        (msf_connected_symm _ _ _ hc) hne
      rcases hk2 with hk2 | hk2
      · exact f3 (hk2 ▸ (i5 k hk).1)
      · exact f3 (hk2 ▸ (i5 k hk).2)
    · intro k hk
      rcases List.mem_append.1 hk with hk | hk
      · exact i3 k hk
      · rw [List.mem_singleton] at hk
        subst hk; exact f1
    · show st.total_weight + f.2.2 = msf_weight (st.edges ++ [f])
      rw [msf_weight_append, i4]
    · intro k hk
      show (st.visited.set f.2.1 true).getD k.1 false = true ∧
        (st.visited.set f.2.1 true).getD k.2.1 false = true
      rw [hvis _ hlt, hvis _ hlt]
      rcases List.mem_append.1 hk with hk | hk
      · exact ⟨Or.inl (i5 k hk).1, Or.inl (i5 k hk).2⟩
      · rw [List.mem_singleton] at hk
        subst hk
        exact ⟨Or.inl f2, Or.inr rfl⟩
    · intro a b t ha hb hc
      change (st.visited.set f.2.1 true).getD a false = true at ha
      change (st.visited.set f.2.1 true).getD b false = true at hb
      show msf_connected (msf_light (st.edges ++ [f]) t) a b
      rw [hvis _ hlt] at ha hb
      rcases ha with ha | ha <;> rcases hb with hb | hb
      · refine msf_connected_mono _ _ ?_ _ _ (i6 a b t ha hb hc)
        intro k hk
        rw [mem_msf_light] at hk ⊢
        exact ⟨List.mem_append_left _ hk.1, hk.2⟩
      · subst hb
        exact hmin t a ha hc
      · subst ha
        exact msf_connected_symm _ _ _ (hmin t b hb (msf_connected_symm _ _ _ hc))
      · subst ha hb
        exact msf_connected_refl _ _
  | none =>
    rw [hl] at h
    simp only [] at h
    cases hfind : (List.range g.vertices_count).find? (fun v => !(st.visited.getD v false)) with
    | none => rw [hfind] at h; cases h
    | some s =>
      rw [hfind] at h
      have hst := (Option.some.inj h).symm
      subst hst
      have hs1 : s < g.vertices_count := List.mem_range.1 (List.mem_of_find?_eq_some hfind)
      have hs2 : st.visited.getD s false ≠ true := by
        have := List.find?_some hfind
        simpa using this
      have hvis := prim_visited_set st.visited s
      have hlt : s < st.visited.length := by omega
      have hno : ∀ t a, st.visited.getD a false = true →
          ¬ msf_connected (msf_light (weighted_edges g) t) a s := by
        intro t a ha hc
        obtain ⟨k, k1, _, k3, k4⟩ := prim_crossing g hsym st.visited t a s hc ha hs2
        obtain ⟨f', e1, _⟩ := l2 k k1 k3 k4
        rw [hl] at e1
        cases e1
      refine ⟨⟨by show (st.visited.set s true).length = _; rw [List.length_set]; exact i1,
        i2, i3, i4, ?_, ?_⟩, prim_unvisited_set _ _ _ hs1 i1 hs2⟩
      · intro k hk
        show (st.visited.set s true).getD k.1 false = true ∧
          (st.visited.set s true).getD k.2.1 false = true
        rw [hvis _ hlt, hvis _ hlt]
        exact ⟨Or.inl (i5 k hk).1, Or.inl (i5 k hk).2⟩
      · intro a b t ha hb hc
        change (st.visited.set s true).getD a false = true at ha
        change (st.visited.set s true).getD b false = true at hb
        show msf_connected (msf_light st.edges t) a b
        rw [hvis _ hlt] at ha hb
        rcases ha with ha | ha <;> rcases hb with hb | hb
        · exact i6 a b t ha hb hc
        · subst hb
          exact absurd hc (hno t a ha)
        · subst ha
          exact absurd (msf_connected_symm _ _ _ hc) (hno t b hb)
        · subst ha hb
          exact msf_connected_refl _ _

/-- The oracle stops when every vertex has been reached. -/
theorem prim_step_none (g : ll_404_graph) (st : prim_state) (h : prim_step g st = none) :
    ∀ v, v < g.vertices_count → st.visited.getD v false = true := by
  unfold prim_step at h
  cases hl : prim_lightest g st.visited with
  | some f => rw [hl] at h; cases h
  | none =>
    rw [hl] at h
    simp only [] at h
    cases hfind : (List.range g.vertices_count).find? (fun v => !(st.visited.getD v false)) with
    | some s => rw [hfind] at h; cases h
    | none =>
      intro v hv
      have := List.find?_eq_none.1 hfind v (List.mem_range.2 hv)
      simpa using this

theorem prim_steps_spec (g : ll_404_graph) (hwf : well_formed_weighted g)
    (hsym : symmetric_weights g) :
    ∀ (fuel : Nat) (st : prim_state), prim_invariant g st →
      (prim_unvisited g.vertices_count st.visited).length < fuel →
      ∃ st', prim_steps g fuel st = some st' ∧ prim_invariant g st' ∧
        ∀ v, v < g.vertices_count → st'.visited.getD v false = true := by
  intro fuel
  induction fuel with
  | zero => intro st _ h; omega
  | succ fuel ih =>
    intro st hinv hfuel
    unfold prim_steps
    cases hs : prim_step g st with
    | none => exact ⟨st, rfl, hinv, prim_step_none g st hs⟩
    | some st1 =>
      obtain ⟨s1, s2⟩ := prim_step_some g hwf hsym st st1 hinv hs
      exact ih st1 s1 (by omega)

/-- What the serial Prim oracle returns on a well-formed graph with mirrored weights: a
forest of graph edges with the reported weight that joins the two ends of every graph
edge by edges that are not heavier. -/
theorem msf_prim_serial_optimal (g : ll_404_graph) (hwf : well_formed_weighted g)
    (hsym : symmetric_weights g) (fuel : Nat) (hfuel : g.vertices_count < fuel)
    (pe : par_env) (flags : Nat) :
    ∃ m, msf_prim_serial fuel pe g flags = some m ∧
      m.total_weight = msf_weight m.edges ∧ msf_forest m.edges ∧
      (∀ f ∈ m.edges, f ∈ weighted_edges g) ∧
      msf_bottleneck (weighted_edges g) m.edges := by
  have h0 : prim_invariant g
      { visited := List.replicate g.vertices_count false, edges := [], total_weight := 0 } := by
    have hfalse : ∀ x, (List.replicate g.vertices_count false).getD x false ≠ true := by
      intro x
      simp only [List.getD_eq_getElem?_getD, List.getElem?_replicate]
      split <;> simp
    refine ⟨by simp, msf_forest_nil, fun f hf => (by cases hf), rfl,
      fun f hf => (by cases hf), ?_⟩
    intro a b t ha
    exact absurd ha (hfalse a)
  have hlen : (prim_unvisited g.vertices_count
      (List.replicate g.vertices_count false)).length ≤ g.vertices_count := by
    unfold prim_unvisited
    exact (List.length_filter_le _ _).trans (by simp)
  obtain ⟨st, h1, h2, h3⟩ := prim_steps_spec g hwf hsym fuel _ h0 (by
    show (prim_unvisited g.vertices_count (List.replicate g.vertices_count false)).length < fuel
    omega)
  refine ⟨{ edges := st.edges, total_weight := st.total_weight }, ?_, h2.2.2.2.1, h2.2.1,
    h2.2.2.1, ?_⟩
  · unfold msf_prim_serial
    rw [h1]
  · intro k hk
    have hb := weighted_edges_bound g hwf k hk
    exact h2.2.2.2.2.2 k.1 k.2.1 k.2.2 (h3 _ hb.1) (h3 _ hb.2)
      (msf_connected_of_mem _ k ((mem_msf_light _ _ _).2 ⟨hk, Nat.le_refl _⟩))

/-- C23: on every well-formed weighted graph with mirrored weights (the undirected graphs
of the data model; the connected graphs with positive integer weights are among them),
`msf_mastiff` and the serial Prim oracle both return when they are allowed more rounds,
respectively steps, than there are vertices, and the total weights they report are
equal. -/
theorem msf_mastiff_weight_equals_prim (pe : par_env) (g : ll_404_graph)
    (exec_info : List Nat) (flags pflags fuel pfuel : Nat) (hwf : well_formed_weighted g)
    (hsym : symmetric_weights g) (hfuel : g.vertices_count < fuel)
    (hpfuel : g.vertices_count < pfuel) :
    ∃ mastiff prim, msf_mastiff fuel pe g exec_info flags = some mastiff ∧
      msf_prim_serial pfuel pe g pflags = some prim ∧
      mastiff.total_weight = prim.total_weight := by
  obtain ⟨m, m1, m2, m3, m4, m5⟩ := msf_mastiff_optimal g hwf hsym fuel hfuel pe exec_info flags
  obtain ⟨p, p1, p2, p3, p4, p5⟩ := msf_prim_serial_optimal g hwf hsym pfuel hpfuel pe pflags
  refine ⟨m, p, m1, p1, ?_⟩
  rw [m2, p2]
  exact msf_bottleneck_weight g.vertices_count (weighted_edges g) m.edges p.edges
    (weighted_edges_bound g hwf) m4 p4 m3 p3 m5 p5

theorem msf_mastiff_weight_equals_prim_witness :
    well_formed_weighted sample_sym_weighted ∧ symmetric_weights sample_sym_weighted ∧
    ∃ mastiff prim, msf_mastiff 5 sample_pe sample_sym_weighted [] 1 = some mastiff ∧
      msf_prim_serial 5 sample_pe sample_sym_weighted 0 = some prim ∧
      mastiff.total_weight = prim.total_weight :=
  ⟨by decide, by decide,
    msf_mastiff_weight_equals_prim sample_pe sample_sym_weighted [] 1 0 5 5
      (by decide) (by decide) (by decide) (by decide)⟩

/-- The concrete scenarios of the spec, run on the model: the edges selected by
`msf_mastiff` and the weights reported by it and by the oracle. -/
theorem msf_scenarios :
    msf_mastiff 5 sample_pe scenario_empty [] 1 = some { edges := [], total_weight := 0 } ∧
    msf_mastiff 3 sample_pe scenario_single_edge [] 1 =
      some { edges := [(0, 1, 7)], total_weight := 7 } ∧
    msf_mastiff 4 sample_pe scenario_triangle [] 1 =
      some { edges := [(0, 1, 2), (2, 0, 3)], total_weight := 5 } ∧
    msf_mastiff 5 sample_pe scenario_square [] 1 =
      some { edges := [(0, 1, 1), (2, 1, 2), (3, 2, 3)], total_weight := 6 } ∧
    msf_mastiff 7 sample_pe scenario_two_triangles [] 1 =
      some { edges := [(0, 1, 1), (2, 1, 2), (3, 4, 4), (5, 4, 5)], total_weight := 12 } ∧
    msf_mastiff 5 sample_pe scenario_ties [] 1 =
      some { edges := [(0, 1, 1), (2, 0, 1), (3, 0, 1)], total_weight := 3 } ∧
    (msf_prim_serial 5 sample_pe scenario_empty 0).map (fun m => m.total_weight) = some 0 ∧
    (msf_prim_serial 3 sample_pe scenario_single_edge 0).map (fun m => m.total_weight) =
      some 7 ∧
    (msf_prim_serial 4 sample_pe scenario_triangle 0).map (fun m => m.total_weight) = some 5 ∧
    (msf_prim_serial 5 sample_pe scenario_square 0).map (fun m => m.total_weight) = some 6 ∧
    (msf_prim_serial 7 sample_pe scenario_two_triangles 0).map (fun m => m.total_weight) =
      some 12 ∧
    (msf_prim_serial 5 sample_pe scenario_ties 0).map (fun m => m.total_weight) = some 3 := by
  refine ⟨?_, ?_, ?_, ?_, ?_, ?_, ?_, ?_, ?_, ?_, ?_, ?_⟩ <;> decide

/-- A graph whose only edge is a self-loop: the vertex has a neighbour and no MSF edge ends
at it, so the validator returns 0; the data model excludes such graphs. -/
theorem msf_validate_self_loop :
    msf_mastiff 2 sample_pe
      { vertices_count := 1, edges_count := 1, offsets_list := [0, 1], edges_list := [0, 3] }
      [] 1 = some { edges := [], total_weight := 0 } ∧
    msf_validate sample_pe
      { vertices_count := 1, edges_count := 1, offsets_list := [0, 1], edges_list := [0] }
      { edges := [], total_weight := 0 } 0 = 0 := by
  constructor <;> decide

/-! ## The assertions of the driver -/

/-- The graph returned by `add_4B_weight_to_ll_400_graph` on a symmetric graph without
self-loops is a weighting of it with mirrored weights. -/
theorem add_4B_weight_output_weighting (pe : par_env) (partitions : List Nat)
    (g : ll_400_graph) (max_weight flags : Nat) (hwf : well_formed g)
    (hsorted : sorted_neighbour_lists g) (hsym : symmetric_graph g) (hno : no_self_edges g)
    (hcover : partitions_cover partitions (pe.threads_count * 64) g.vertices_count)
    (h1 : 1 ≤ max_weight) (h2 : max_weight < 2 ^ 32) (fuel : Nat) (w : ll_404_graph)
    (h : add_4B_weight_to_ll_400_graph fuel pe partitions g max_weight flags =
      some (Except.ok w)) :
    weighting_of g w ∧ symmetric_weights w := by
  obtain ⟨_, f2, _, f4, _, f6⟩ := add_4B_weight_steps_spec pe partitions g hwf hsorted hsym
    hcover max_weight h1 h2
  obtain ⟨o1, o2, o3, o4⟩ := add_4B_weight_facts pe partitions g max_weight flags hwf hsorted
    hsym hcover h1 h2 fuel w h
  have hw : weighting_of g w :=
    ⟨o1, o2, o3, by rw [o4]; exact f2, fun e he => by rw [o4]; exact f4 e he⟩
  refine ⟨hw, ?_⟩
  intro f hf
  rw [mem_weighted_edges] at hf ⊢
  obtain ⟨hu, e, he, e1, e2⟩ := hf
  rw [o1] at hu
  rw [o3, mem_edge_slots] at he
  have hall := (mem_all_slots g f.1 e).2 ⟨hu, he.1, he.2⟩
  have hec := slot_lt_edges_count g hwf f.1 e hall
  have hd := slot_dest_lt g hwf f.1 e hall
  have hnbr : rd g.edges_list e = f.2.1 := by rw [← hw.2.2.2.2 e hec]; exact e1
  have hne : rd g.edges_list e ≠ f.1 := by
    intro heq
    exact hno f.1 hu ((mem_neighbour_list g f.1 f.1).2 ⟨e, he.1, he.2, heq⟩)
  obtain ⟨j, j1, j2, j3, j4⟩ := f6 f.1 hu e he.1 he.2 hne
  rw [hnbr] at j1 j2 hd
  have hjc := slot_lt_edges_count g hwf f.2.1 j ((mem_all_slots g f.2.1 j).2 ⟨hd, j1, j2⟩)
  refine ⟨by show f.2.1 < w.vertices_count; rw [o1]; exact hd, j, ?_, ?_, ?_⟩
  · show j ∈ edge_slots w.offsets_list f.2.1
    rw [o3, mem_edge_slots]; exact ⟨j1, j2⟩
  · show rd w.edges_list (2 * j) = f.1
    rw [hw.2.2.2.2 j hjc]; exact j3
  · show rd w.edges_list (2 * j + 1) = f.2.2
    rw [← e2, o4]; exact j4

/-- A copy of a weighted graph with arrays of the allocated sizes, made into a fresh
record, is the graph itself. -/
theorem copy_ll_404_graph_same (pe : par_env) (inp : ll_404_graph)
    (hn : inp.vertices_count + 1 < 2 ^ 32)
    (res : ll_404_graph) (halloc : allocated_404 inp)
    (h : copy_ll_404_graph pe inp none = Except.ok res) : res = inp := by
  obtain ⟨o, ho, r1, r2, r3, r4, r5, r6⟩ := copy_ll_404_graph_spec pe inp none res h
  rw [offsets_trip_count_small _ hn] at r5
  have ho' : o = ll_404_graph.mk inp.vertices_count inp.edges_count
      (List.replicate (1 + inp.vertices_count) 0) (List.replicate (2 * inp.edges_count) 0) := by
    rcases ho with ⟨_, ho⟩ | ⟨ho, _⟩
    · exact ho
    · cases ho
  subst ho'
  simp only [List.length_replicate] at r3 r4 r5 r6
  have e1 : res.offsets_list = inp.offsets_list := by
    apply ext_rd
    · rw [r3, halloc.1]; omega
    · intro j hj
      rw [r5 j, if_pos (by omega)]
  have e2 : res.edges_list = inp.edges_list := by
    apply ext_rd
    · rw [r4, halloc.2]
    · intro j hj
      rw [r6 j, if_pos (by omega)]
  cases res
  cases inp
  simp only [ll_404_graph.mk.injEq]
  exact ⟨r1, r2, e1, e2⟩

/-- A forest of graph edges that joins the two ends of every graph edge passes the
validator on a graph without self-loops. -/
theorem msf_validate_spanning (pe : par_env) (g : ll_400_graph) (w : ll_404_graph)
    (vflags : Nat) (hwf : well_formed g) (hno : no_self_edges g) (hw : weighting_of g w)
    (m : msf) (hforest : msf_forest m.edges) (hsub : ∀ f ∈ m.edges, f ∈ weighted_edges w)
    (hspan : ∀ f ∈ weighted_edges w, msf_connected m.edges f.1 f.2.1) :
    msf_validate pe g m vflags = 1 := by
  have hww := weighting_well_formed g w hwf hw
  have hn : w.vertices_count = g.vertices_count := hw.1
  have hbound : ∀ f ∈ m.edges, f.1 < g.vertices_count ∧ f.2.1 < g.vertices_count := by
    intro f hf
    have := weighted_edges_bound w hww f (hsub f hf)
    omega
  have p1 : ∀ f ∈ m.edges, f.1 < g.vertices_count ∧ f.2.1 ∈ neighbour_list g f.1 :=
    fun f hf => weighting_neighbour g w hwf hw f (hsub f hf)
  have p2 : (msf_replay g.vertices_count m.edges).isSome = true := by
    obtain ⟨lab, hlab, _, _⟩ := msf_replay_spec g.vertices_count m.edges hbound hforest
    rw [hlab]; rfl
  have p3 : ∀ v, v < g.vertices_count → neighbour_list g v ≠ [] →
      ∃ f ∈ m.edges, f.1 = v ∨ f.2.1 = v := by
    intro v hv hne
    obtain ⟨d, hd⟩ := List.exists_mem_of_ne_nil _ hne
    have hvd : v ≠ d := fun h => hno v hv (h ▸ hd)
    obtain ⟨x, hx⟩ := neighbour_weighting g w hwf hw v d hv hd
    exact msf_connected_incident m.edges v d (hspan _ hx) hvd
  unfold msf_validate
  rw [if_pos ⟨p1, p2, p3⟩]

/-- The assertions of `main` after the MSF computation (lines 64 to 82 of
`alg3_mastiff.c`), on the models of `msf_mastiff`, `msf_prim_serial` and `msf_validate`:
for every well-formed CSR graph with strictly increasing neighbour-lists, with `sym_graph`
and `wgraph` as the driver computes them and `cwg` the copy handed to the oracle, both
results pass the validator and the two total weights are equal. -/
theorem driver_msf_assertions (pe : par_env) (partitions sym_partitions : List Nat)
    (csr : ll_400_graph) (hwf : well_formed csr) (hsorted : sorted_neighbour_lists csr)
    (hcover : partitions_cover partitions (pe.threads_count * 64) csr.vertices_count)
    (hcover2 : partitions_cover sym_partitions (pe.threads_count * 64) csr.vertices_count)
    (sym_graph : ll_400_graph) (wgraph cwg : ll_404_graph) (exec_info : List Nat)
    (fuel mfuel pfuel : Nat)
    (hsym : csr2sym pe partitions csr (2 + 4) = Except.ok sym_graph)
    (hweight : add_4B_weight_to_ll_400_graph fuel pe sym_partitions sym_graph (1024 * 100) 0 =
      some (Except.ok wgraph))
    (hcopy : copy_ll_404_graph pe wgraph none = Except.ok cwg)
    (hmfuel : csr.vertices_count < mfuel) (hpfuel : csr.vertices_count < pfuel) :
    ∃ res_mastiff res_prim,
      msf_mastiff mfuel pe wgraph exec_info 1 = some res_mastiff ∧
      msf_validate pe sym_graph res_mastiff 0 = 1 ∧
      msf_prim_serial pfuel pe cwg 0 = some res_prim ∧
      msf_validate pe sym_graph res_prim 0 = 1 ∧
      res_mastiff.total_weight = res_prim.total_weight := by
  obtain ⟨w1, w2, w3, w4⟩ := csr2sym_output_well_formed pe partitions csr (2 + 4) hwf hsorted
    hcover sym_graph hsym
  have hn := (csr2sym_facts pe partitions csr (2 + 4) hwf hsorted hcover sym_graph hsym).1
  have hno : no_self_edges sym_graph := w4 (by decide)
  have hc : partitions_cover sym_partitions (pe.threads_count * 64)
      sym_graph.vertices_count := by
    rw [hn]; exact hcover2
  obtain ⟨a1, a2⟩ := add_4B_weight_output_weighting pe sym_partitions sym_graph (1024 * 100) 0
    w1 (w3 (by decide)) w2 hno hc (by norm_num) (by norm_num) fuel wgraph hweight
  have hww := weighting_well_formed sym_graph wgraph w1 a1
  have hbound := add_4B_weight_bound fuel pe sym_partitions sym_graph (1024 * 100) 0 _ hweight
    ⟨wgraph, rfl⟩
  have hcw : cwg = wgraph := copy_ll_404_graph_same pe wgraph (by rw [a1.1]; exact hbound) cwg
    ⟨hww.1, hww.2.1⟩ hcopy
  subst hcw
  have hnw : cwg.vertices_count = csr.vertices_count := by rw [a1.1, hn]
  obtain ⟨m, m1, m2, m3, m4, m5⟩ := msf_mastiff_optimal cwg hww a2 mfuel (by omega) pe
    exec_info 1
  obtain ⟨p, p1, p2, p3, p4, p5⟩ := msf_prim_serial_optimal cwg hww a2 pfuel (by omega) pe 0
  have hspan : ∀ (T : List (Nat × Nat × Nat)), msf_bottleneck (weighted_edges cwg) T →
      ∀ f ∈ weighted_edges cwg, msf_connected T f.1 f.2.1 := by
    intro T hb f hf
    refine msf_connected_mono _ _ ?_ _ _ (hb f hf)
    intro k hk
    exact ((mem_msf_light _ _ _).1 hk).1
  refine ⟨m, p, m1, ?_, p1, ?_, ?_⟩
  · exact msf_validate_spanning pe sym_graph cwg 0 w1 hno a1 m m3 m4 (hspan _ m5)
  · exact msf_validate_spanning pe sym_graph cwg 0 w1 hno a1 p p3 p4 (hspan _ p5)
  · rw [m2, p2]
    exact msf_bottleneck_weight cwg.vertices_count (weighted_edges cwg) m.edges p.edges
      (weighted_edges_bound cwg hww) m4 p4 m3 p3 m5 p5

/-! ## Step 2 of `add_4B_weight_to_ll_400_graph` under any interleaving -/

theorem mirror_edges_eq_iterations (g : ll_400_graph) (v : Nat) (k e : Nat)
    (st : List Nat × List Nat) :
    add_4B_weight_mirror_edges g v k e st =
      (add_4B_weight_mirror_iterations g v k e).foldl
        (fun st it => add_4B_weight_mirror_edge g it.1 it.2 st) st := by
  induction k generalizing e st with
  | zero => rfl
  | succ k ih =>
    unfold add_4B_weight_mirror_edges add_4B_weight_mirror_iterations
    by_cases h : rd g.edges_list e ≥ v
    · rw [if_pos h, if_pos h]
      rfl
    · rw [if_neg h, if_neg h, List.foldl_cons]
      exact ih (e + 1) _

/-- Step 2 as the source orders it is the schedule `add_4B_weight_step2_iterations`. -/
theorem add_4B_weight_step2_eq_interleaved (g : ll_400_graph) (st : List Nat × List Nat) :
    add_4B_weight_step2 g st =
      add_4B_weight_step2_interleaved g (add_4B_weight_step2_iterations g) st := by
  unfold add_4B_weight_step2 add_4B_weight_step2_interleaved add_4B_weight_step2_iterations
  generalize List.range g.vertices_count = l
  induction l generalizing st with
  | nil => rfl
  | cons v l ih =>
    rw [List.foldl_cons, List.flatMap_cons, List.foldl_append, ih]
    congr 1
    exact mirror_edges_eq_iterations g v _ _ st

theorem mem_mirror_iterations (g : ll_400_graph) (v : Nat) (k e0 : Nat) (it : Nat × Nat)
    (h : it ∈ add_4B_weight_mirror_iterations g v k e0) :
    it.1 = v ∧ e0 ≤ it.2 ∧ it.2 < e0 + k ∧ rd g.edges_list it.2 < v := by
  induction k generalizing e0 with
  | zero => simp [add_4B_weight_mirror_iterations] at h
  | succ k ih =>
    unfold add_4B_weight_mirror_iterations at h
    by_cases hb : rd g.edges_list e0 ≥ v
    · rw [if_pos hb] at h
      simp at h
    · rw [if_neg hb, List.mem_cons] at h
      rcases h with h | h
      · subst h
        exact ⟨rfl, Nat.le_refl _, by show e0 < e0 + (k + 1); omega,
          by show rd g.edges_list e0 < v; omega⟩
      · obtain ⟨a, b, c, d⟩ := ih (e0 + 1) h
        exact ⟨a, by omega, by omega, d⟩

theorem mirror_iterations_mem (g : ll_400_graph) (v : Nat) (k e0 e : Nat) (h1 : e0 ≤ e)
    (h2 : e < e0 + k) (h3 : ∀ j, e0 ≤ j → j ≤ e → rd g.edges_list j < v) :
    (v, e) ∈ add_4B_weight_mirror_iterations g v k e0 := by
  induction k generalizing e0 with
  | zero => omega
  | succ k ih =>
    unfold add_4B_weight_mirror_iterations
    have := h3 e0 (Nat.le_refl _) h1
    rw [if_neg (by omega), List.mem_cons]
    by_cases he : e = e0
    · left
      rw [he]
    · right
      exact ih (e0 + 1) (by omega) (by omega) (fun j hj1 hj2 => h3 j (by omega) hj2)

/-- The iterations of step 2: the slots `e` of the vertices `v` whose neighbour is below
`v`. -/
theorem mem_step2_iterations (g : ll_400_graph) (hsorted : sorted_neighbour_lists g)
    (it : Nat × Nat) :
    it ∈ add_4B_weight_step2_iterations g ↔
      it.1 < g.vertices_count ∧ rd g.offsets_list it.1 ≤ it.2 ∧
        it.2 < rd g.offsets_list (it.1 + 1) ∧ rd g.edges_list it.2 < it.1 := by
  unfold add_4B_weight_step2_iterations
  rw [List.mem_flatMap]
  constructor
  · rintro ⟨v, hv, hmem⟩
    rw [List.mem_range] at hv
    obtain ⟨a, b, c, d⟩ := mem_mirror_iterations g v _ _ it hmem
    rw [a]
    exact ⟨hv, b, by omega, d⟩
  · rintro ⟨hv, h1, h2, h3⟩
    refine ⟨it.1, List.mem_range.2 hv, ?_⟩
    have := mirror_iterations_mem g it.1
      (rd g.offsets_list (it.1 + 1) - rd g.offsets_list it.1) (rd g.offsets_list it.1) it.2 h1
      (by omega) (by
        intro j hj1 hj2
        by_cases hje : j = it.2
        · rw [hje]; exact h3
        · have := sorted_pointwise g it.1 (hsorted it.1 hv) j it.2 hj1 (by omega) h2
          omega)
    exact this

theorem mirror_iterations_nodup (g : ll_400_graph) (v : Nat) (k e0 : Nat) :
    (add_4B_weight_mirror_iterations g v k e0).Nodup := by
  induction k generalizing e0 with
  | zero => simp [add_4B_weight_mirror_iterations]
  | succ k ih =>
    unfold add_4B_weight_mirror_iterations
    by_cases hb : rd g.edges_list e0 ≥ v
    · rw [if_pos hb]
      exact List.nodup_nil
    · rw [if_neg hb, List.nodup_cons]
      refine ⟨?_, ih (e0 + 1)⟩
      intro hmem
      have := (mem_mirror_iterations g v k (e0 + 1) _ hmem).2.1
      simp at this

theorem step2_iterations_nodup (g : ll_400_graph) :
    (add_4B_weight_step2_iterations g).Nodup := by
  unfold add_4B_weight_step2_iterations
  rw [List.nodup_flatMap]
  refine ⟨fun v _ => mirror_iterations_nodup g v _ _, ?_⟩
  apply List.Pairwise.imp _ (List.nodup_range g.vertices_count)
  intro a b hab
  show List.Disjoint _ _
  intro it h1 h2
  have e1 := (mem_mirror_iterations g a _ _ it h1).1
  have e2 := (mem_mirror_iterations g b _ _ it h2).1
  exact hab (e1.symm.trans e2)

/-- What one iteration of step 2 leaves in the two arrays. -/
theorem mirror_edge_reads (g : ll_400_graph) (v e : Nat) (st : List Nat × List Nat)
    (hu : rd g.edges_list e < st.1.length)
    (hc : 2 * rd st.1 (rd g.edges_list e) + 1 < st.2.length) :
    (add_4B_weight_mirror_edge g v e st).1.length = st.1.length ∧
    (add_4B_weight_mirror_edge g v e st).2.length = st.2.length ∧
    (∀ x, rd (add_4B_weight_mirror_edge g v e st).1 x =
      if x = rd g.edges_list e then rd st.1 (rd g.edges_list e) + 1 else rd st.1 x) ∧
    (∀ i, rd (add_4B_weight_mirror_edge g v e st).2 (2 * i) =
      if i = rd st.1 (rd g.edges_list e) then v else rd st.2 (2 * i)) ∧
    (∀ i, rd (add_4B_weight_mirror_edge g v e st).2 (2 * i + 1) =
      if i = rd st.1 (rd g.edges_list e) then rd st.2 (2 * e + 1) else rd st.2 (2 * i + 1)) := by
  unfold add_4B_weight_mirror_edge
  refine ⟨by simp, by simp, ?_, ?_, ?_⟩
  · intro x
    show rd (st.1.set _ _) x = _
    rw [rd_set]
    by_cases hx : x = rd g.edges_list e
    · rw [if_pos ⟨hx.symm, hu⟩, if_pos hx]
    · rw [if_neg (by intro h; exact hx h.1.symm), if_neg hx]
  · intro i
    show rd ((st.2.set _ _).set _ _) (2 * i) = _
    rw [rd_set_ne _ _ _ _ (by omega), rd_set]
    by_cases hi : i = rd st.1 (rd g.edges_list e)
    · rw [if_pos ⟨by omega, by omega⟩, if_pos hi]
    · rw [if_neg (by omega), if_neg hi]
  · intro i
    show rd ((st.2.set _ _).set _ _) (2 * i + 1) = _
    rw [rd_set, List.length_set]
    by_cases hi : i = rd st.1 (rd g.edges_list e)
    · rw [if_pos ⟨by omega, by omega⟩, if_pos hi, rd_set_ne _ _ _ _ (by omega)]
    · rw [if_neg (by omega), if_neg hi, rd_set_ne _ _ _ _ (by omega)]

/-- The iteration `(v, e)` of step 2 has a slot of its own above the cursor that step 1
left on its neighbour: the slot of `v` in the list of the neighbour. -/
theorem upper_slot_of_iteration (g : ll_400_graph)
    (hsorted : sorted_neighbour_lists g) (hsym : symmetric_graph g) (cursor1 : List Nat)
    (hc1 : ∀ u, u < g.vertices_count → boundary g u (rd cursor1 u) (u + 1))
    (it : Nat × Nat) (hit : it ∈ add_4B_weight_step2_iterations g) :
    rd g.edges_list it.2 < g.vertices_count ∧
    ∃ j, rd cursor1 (rd g.edges_list it.2) ≤ j ∧
      j < rd g.offsets_list (rd g.edges_list it.2 + 1) ∧ rd g.edges_list j = it.1 := by
  obtain ⟨hv, h1, h2, h3⟩ := (mem_step2_iterations g hsorted it).1 hit
  have hu : rd g.edges_list it.2 < g.vertices_count := by omega
  refine ⟨hu, ?_⟩
  have hmem : rd g.edges_list it.2 ∈ neighbour_list g it.1 :=
    (mem_neighbour_list g it.1 _).2 ⟨it.2, h1, h2, rfl⟩
  obtain ⟨j, j1, j2, j3⟩ := (mem_neighbour_list g _ _).1 (hsym it.1 hv _ hu hmem)
  refine ⟨j, ?_, j2, j3⟩
  by_contra hlt
  have := (hc1 _ hu).2.2.1 j j1 (by omega)
  omega

/-- A slot of `v` whose neighbour is below `v` lies below the cursor that step 1 left on
`v`. -/
theorem iteration_slot_lower (g : ll_400_graph) (hsorted : sorted_neighbour_lists g)
    (cursor1 : List Nat)
    (hc1 : ∀ u, u < g.vertices_count → boundary g u (rd cursor1 u) (u + 1))
    (it : Nat × Nat) (hit : it ∈ add_4B_weight_step2_iterations g) :
    rd g.offsets_list it.1 ≤ it.2 ∧ it.2 < rd cursor1 it.1 := by
  obtain ⟨hv, h1, h2, h3⟩ := (mem_step2_iterations g hsorted it).1 hit
  refine ⟨h1, ?_⟩
  by_contra hge
  have := (hc1 _ hv).2.2.2 it.2 (by omega) h2
  omega

/-- Two iterations of the same vertex on the same neighbour are one iteration. -/
theorem iteration_unique (g : ll_400_graph) (hsorted : sorted_neighbour_lists g)
    (v e e' : Nat) (h : (v, e) ∈ add_4B_weight_step2_iterations g)
    (h' : (v, e') ∈ add_4B_weight_step2_iterations g)
    (heq : rd g.edges_list e' = rd g.edges_list e) : e' = e := by
  obtain ⟨hv, h1, h2, _⟩ := (mem_step2_iterations g hsorted _).1 h
  obtain ⟨_, h1', h2', _⟩ := (mem_step2_iterations g hsorted _).1 h'
  exact slot_value_unique g v e' e (hsorted v hv) h1' h2' h1 h2 heq

/-- The cursor of a neighbour has room for an iteration that has not run yet. -/
theorem interleaved_room (g : ll_400_graph)
    (hsorted : sorted_neighbour_lists g) (hsym : symmetric_graph g)
    (cursor1 edges1 : List Nat)
    (hc1 : ∀ u, u < g.vertices_count → boundary g u (rd cursor1 u) (u + 1))
    (done : List (Nat × Nat)) (hdone : ∀ d, d ∈ done → d ∈ add_4B_weight_step2_iterations g)
    (st : List Nat × List Nat) (hK : interleaved_invariant g cursor1 edges1 done st)
    (it : Nat × Nat) (hit : it ∈ add_4B_weight_step2_iterations g) (hnew : it ∉ done) :
    rd st.1 (rd g.edges_list it.2) < rd g.offsets_list (rd g.edges_list it.2 + 1) := by
  obtain ⟨v, e⟩ := it
  obtain ⟨_, _, k1, _, k3, _, k5⟩ := hK
  obtain ⟨hu, j, j1, j2, j3⟩ := upper_slot_of_iteration g hsorted hsym cursor1 hc1 _ hit
  dsimp only at hu j1 j2 j3 ⊢
  generalize hudef : rd g.edges_list e = u at *
  have hL : ((List.range' (rd cursor1 u) (rd st.1 u - rd cursor1 u)).map
      (fun i => rd st.2 (2 * i))).Nodup := by
    apply List.Nodup.map_on _ (List.nodup_range' _ _)
    intro x hx y hy hxy
    rw [List.mem_range'_1] at hx hy
    exact k5 u hu x y hx.1 (by omega) hy.1 (by omega) hxy
  have hvL : v ∉ (List.range' (rd cursor1 u) (rd st.1 u - rd cursor1 u)).map
      (fun i => rd st.2 (2 * i)) := by
    intro hmem
    rw [List.mem_map] at hmem
    obtain ⟨i, hi, hiv⟩ := hmem
    rw [List.mem_range'_1] at hi
    obtain ⟨e', m1, m2, _⟩ := k3 u hu i hi.1 (by omega)
    rw [hiv] at m1
    have := iteration_unique g hsorted v e e' hit (hdone _ m1) (by rw [m2, hudef])
    rw [this] at m1
    exact hnew m1
  have hsub : (v :: (List.range' (rd cursor1 u) (rd st.1 u - rd cursor1 u)).map
      (fun i => rd st.2 (2 * i))) ⊆
      (List.range' (rd cursor1 u) (rd g.offsets_list (u + 1) - rd cursor1 u)).map
        (rd g.edges_list) := by
    intro x hx
    rw [List.mem_cons] at hx
    rcases hx with hx | hx
    · rw [hx, List.mem_map]
      exact ⟨j, by rw [List.mem_range'_1]; omega, j3⟩
    · rw [List.mem_map] at hx
      obtain ⟨i, hi, hix⟩ := hx
      rw [List.mem_range'_1] at hi
      obtain ⟨e', m1, m2, _⟩ := k3 u hu i hi.1 (by omega)
      rw [hix] at m1
      obtain ⟨_, j', a1, a2, a3⟩ := upper_slot_of_iteration g hsorted hsym cursor1 hc1 _
        (hdone _ m1)
      dsimp only at a1 a2 a3
      rw [m2] at a1 a2
      rw [List.mem_map]
      exact ⟨j', by rw [List.mem_range'_1]; omega, a3⟩
  have hlen := (List.subperm_of_subset (List.nodup_cons.2 ⟨hvL, hL⟩) hsub).length_le
  simp only [List.length_cons, List.length_map, List.length_range'] at hlen
  have := (k1 u hu).1
  omega

/-- One iteration of step 2 that has not run yet keeps the invariant of the
interleaved run. -/
theorem interleaved_step (g : ll_400_graph) (hwf : well_formed g)
    (hsorted : sorted_neighbour_lists g) (hsym : symmetric_graph g)
    (cursor1 edges1 : List Nat)
    (hc1 : ∀ u, u < g.vertices_count → boundary g u (rd cursor1 u) (u + 1))
    (done : List (Nat × Nat)) (hdone : ∀ d, d ∈ done → d ∈ add_4B_weight_step2_iterations g)
    (st : List Nat × List Nat) (hK : interleaved_invariant g cursor1 edges1 done st)
    (it : Nat × Nat) (hit : it ∈ add_4B_weight_step2_iterations g) (hnew : it ∉ done) :
    interleaved_invariant g cursor1 edges1 (it :: done)
      (add_4B_weight_mirror_edge g it.1 it.2 st) := by
  have hroom := interleaved_room g hsorted hsym cursor1 edges1 hc1 done hdone st hK it hit hnew
  obtain ⟨hu, j, j1, j2, j3⟩ := upper_slot_of_iteration g hsorted hsym cursor1 hc1 _ hit
  obtain ⟨hlow1, hlow2⟩ := iteration_slot_lower g hsorted cursor1 hc1 it hit
  obtain ⟨hv, _, _, huv⟩ := (mem_step2_iterations g hsorted it).1 hit
  obtain ⟨v, e⟩ := it
  obtain ⟨k0a, k0b, k1, k2, k3, k4, k5⟩ := hK
  dsimp only at hu j1 j2 j3 hroom hlow1 hlow2 hv huv ⊢
  have hcu := (k1 _ hu).1
  have hou := (hc1 _ hu).1
  have hcm : rd st.1 (rd g.edges_list e) < g.edges_count :=
    slot_lt_edges_count g hwf (rd g.edges_list e) _
      ((mem_all_slots g _ _).2 ⟨hu, by omega, hroom⟩)
  obtain ⟨r0a, r0b, r1, r2, r3⟩ := mirror_edge_reads g v e st (by omega) (by omega)
  have hw : rd st.2 (2 * e + 1) = rd edges1 (2 * e + 1) := (k2 v hv e hlow1 hlow2).2
  have hother : ∀ x, x < g.vertices_count → x ≠ rd g.edges_list e → ∀ i,
      rd g.offsets_list x ≤ i → i < rd g.offsets_list (x + 1) →
      i ≠ rd st.1 (rd g.edges_list e) := by
    intro x hx hxu i i1 i2 hi
    apply hxu
    exact slots_disjoint g hwf x _ i hx hu i1 i2 (by omega) (by omega)
  generalize hudef : rd g.edges_list e = u at *
  generalize hcdef : rd st.1 u = c at *
  refine ⟨by rw [r0a, k0a], by rw [r0b, k0b], ?_, ?_, ?_, ?_, ?_⟩
  · intro x hx
    rw [r1 x]
    by_cases hxu : x = u
    · rw [if_pos hxu, hxu]
      omega
    · rw [if_neg hxu]
      exact k1 x hx
  · intro x hx i i1 i2
    have hic : i ≠ c := by
      by_cases hxu : x = u
      · rw [hxu] at i2
        omega
      · exact hother x hx hxu i i1 (by have := (hc1 x hx).2.1; omega)
    rw [r2 i, r3 i, if_neg hic, if_neg hic]
    exact k2 x hx i i1 i2
  · intro x hx i i1 i2
    rw [r1 x] at i2
    rw [r2 i, r3 i]
    by_cases hic : i = c
    · rw [if_pos hic, if_pos hic]
      have hxu : x = u := by
        by_contra hxu
        rw [if_neg hxu] at i2
        exact hother x hx hxu i (by have := (hc1 x hx).1; omega)
          (by have := (k1 x hx).2; omega) hic
      exact ⟨e, List.mem_cons_self _ _, by rw [hudef, hxu], hw⟩
    · rw [if_neg hic, if_neg hic]
      have i2' : i < rd st.1 x := by
        by_cases hxu : x = u
        · rw [if_pos hxu] at i2
          rw [hxu, hcdef]
          omega
        · rw [if_neg hxu] at i2
          exact i2
      obtain ⟨e', m1, m2, m3⟩ := k3 x hx i i1 i2'
      exact ⟨e', List.mem_cons_of_mem _ m1, m2, m3⟩
  · intro d hd
    rw [List.mem_cons] at hd
    rcases hd with hd | hd
    · rw [hd]
      dsimp only
      rw [hudef]
      refine ⟨c, by omega, ?_, ?_⟩
      · rw [r1 u, if_pos rfl]
        omega
      · rw [r2 c, if_pos rfl]
    · obtain ⟨i, i1, i2, i3⟩ := k4 d hd
      obtain ⟨hud, _⟩ := upper_slot_of_iteration g hsorted hsym cursor1 hc1 _ (hdone d hd)
      have hic : i ≠ c := by
        by_cases hxu : rd g.edges_list d.2 = u
        · rw [hxu, hcdef] at i2
          omega
        · exact hother _ hud hxu i (by have := (hc1 _ hud).1; omega)
            (by have := (k1 _ hud).2; omega)
      refine ⟨i, i1, ?_, ?_⟩
      · rw [r1]
        by_cases hxu : rd g.edges_list d.2 = u
        · rw [if_pos hxu]
          rw [hxu, hcdef] at i2
          omega
        · rw [if_neg hxu]
          exact i2
      · rw [r2 i, if_neg hic]
        exact i3
  · intro x hx i j' i1 i2 j1' j2' hij
    rw [r1 x] at i2 j2'
    rw [r2 i, r2 j'] at hij
    have hfresh : ∀ a, rd cursor1 u ≤ a → a < c → rd st.2 (2 * a) ≠ v := by
      intro a a1 a2 hav
      obtain ⟨e', m1, m2, _⟩ := k3 u hu a a1 (by rw [hcdef]; exact a2)
      rw [hav] at m1
      have := iteration_unique g hsorted v e e' hit (hdone _ m1) (by rw [m2, hudef])
      rw [this] at m1
      exact hnew m1
    by_cases hxu : x = u
    · rw [if_pos hxu] at i2 j2'
      rw [hxu] at i1 j1'
      by_cases hic : i = c
      · by_cases hjc : j' = c
        · omega
        · rw [if_pos hic, if_neg hjc] at hij
          exact absurd hij.symm (hfresh j' j1' (by omega))
      · by_cases hjc : j' = c
        · rw [if_neg hic, if_pos hjc] at hij
          exact absurd hij (hfresh i i1 (by omega))
        · rw [if_neg hic, if_neg hjc] at hij
          exact k5 u hu i j' i1 (by rw [hcdef]; omega) j1' (by rw [hcdef]; omega) hij
    · rw [if_neg hxu] at i2 j2'
      have hic : i ≠ c := hother x hx hxu i (by have := (hc1 x hx).1; omega)
        (by have := (k1 x hx).2; omega)
      have hjc : j' ≠ c := hother x hx hxu j' (by have := (hc1 x hx).1; omega)
        (by have := (k1 x hx).2; omega)
      rw [if_neg hic, if_neg hjc] at hij
      exact k5 x hx i j' i1 i2 j1' j2' hij

/-- The iterations of step 2 taking effect one after the other, in any order without
repetition, keep the invariant of the interleaved run. -/
theorem interleaved_run (g : ll_400_graph) (hwf : well_formed g)
    (hsorted : sorted_neighbour_lists g) (hsym : symmetric_graph g)
    (cursor1 edges1 : List Nat)
    (hc1 : ∀ u, u < g.vertices_count → boundary g u (rd cursor1 u) (u + 1))
    (rest : List (Nat × Nat)) (hrest : ∀ r, r ∈ rest → r ∈ add_4B_weight_step2_iterations g)
    (hnodup : rest.Nodup)
    (done : List (Nat × Nat)) (hdone : ∀ d, d ∈ done → d ∈ add_4B_weight_step2_iterations g)
    (hnew : ∀ r, r ∈ rest → r ∉ done)
    (st : List Nat × List Nat) (hK : interleaved_invariant g cursor1 edges1 done st) :
    interleaved_invariant g cursor1 edges1 (rest.reverse ++ done)
      (add_4B_weight_step2_interleaved g rest st) := by
  induction rest generalizing done st with
  | nil => exact hK
  | cons it tl ih =>
    rw [List.nodup_cons] at hnodup
    have hstep := interleaved_step g hwf hsorted hsym cursor1 edges1 hc1 done hdone st hK it
      (hrest it (List.mem_cons_self _ _)) (hnew it (List.mem_cons_self _ _))
    have := ih (fun r hr => hrest r (List.mem_cons_of_mem _ hr)) hnodup.2 (it :: done)
      (by
        intro d hd
        rw [List.mem_cons] at hd
        rcases hd with hd | hd
        · rw [hd]; exact hrest it (List.mem_cons_self _ _)
        · exact hdone d hd)
      (by
        intro r hr hmem
        rw [List.mem_cons] at hmem
        rcases hmem with hmem | hmem
        · rw [hmem] at hr; exact hnodup.1 hr
        · exact hnew r (List.mem_cons_of_mem _ hr) hmem)
      _ hstep
    rw [List.reverse_cons, List.append_assoc]
    exact this

/-- The arrays left by step 1 satisfy the invariant of the interleaved run. -/
theorem interleaved_start (g : ll_400_graph) (max_weight : Nat) (st : List Nat × List Nat)
    (h : assign_invariant g max_weight g.vertices_count st) :
    interleaved_invariant g st.1 st.2 [] st := by
  obtain ⟨a1, a2, a3, _⟩ := h
  refine ⟨a1, a2, ?_, ?_, ?_, ?_, ?_⟩
  · intro u hu
    exact ⟨Nat.le_refl _, (a3 u hu).2.1⟩
  · intro u _ i _ _
    exact ⟨rfl, rfl⟩
  · intro u _ i i1 i2
    omega
  · intro it hit
    simp at hit
  · intro u _ i j i1 i2
    omega

/-- Once every iteration has run, the cursor of every vertex stands at the end of its
list. -/
theorem interleaved_full (g : ll_400_graph) (hwf : well_formed g)
    (hsorted : sorted_neighbour_lists g) (hsym : symmetric_graph g)
    (cursor1 edges1 : List Nat)
    (hc1 : ∀ u, u < g.vertices_count → boundary g u (rd cursor1 u) (u + 1))
    (done : List (Nat × Nat))
    (hall : ∀ it, it ∈ add_4B_weight_step2_iterations g → it ∈ done)
    (st : List Nat × List Nat) (hK : interleaved_invariant g cursor1 edges1 done st)
    (u : Nat) (hu : u < g.vertices_count) :
    rd st.1 u = rd g.offsets_list (u + 1) := by
  obtain ⟨_, _, k1, _, _, k4, _⟩ := hK
  have hb := hc1 u hu
  have hU : ((List.range' (rd cursor1 u) (rd g.offsets_list (u + 1) - rd cursor1 u)).map
      (rd g.edges_list)).Nodup := by
    apply List.Nodup.map_on _ (List.nodup_range' _ _)
    intro x hx y hy hxy
    rw [List.mem_range'_1] at hx hy
    exact slot_value_unique g u x y (hsorted u hu) (by have := hb.1; omega) (by omega)
      (by have := hb.1; omega) (by omega) hxy
  have hsub : (List.range' (rd cursor1 u) (rd g.offsets_list (u + 1) - rd cursor1 u)).map
      (rd g.edges_list) ⊆
      (List.range' (rd cursor1 u) (rd st.1 u - rd cursor1 u)).map
        (fun i => rd st.2 (2 * i)) := by
    intro x hx
    rw [List.mem_map] at hx
    obtain ⟨j, hj, hjx⟩ := hx
    rw [List.mem_range'_1] at hj
    have hj1 : rd g.offsets_list u ≤ j := by have := hb.1; omega
    have hj2 : j < rd g.offsets_list (u + 1) := by omega
    have hxu : u + 1 ≤ x := by rw [← hjx]; exact hb.2.2.2 j hj.1 hj2
    have hxn : x < g.vertices_count := by
      rw [← hjx]
      exact slot_dest_lt g hwf u j ((mem_all_slots g u j).2 ⟨hu, hj1, hj2⟩)
    have hmem : x ∈ neighbour_list g u := (mem_neighbour_list g u x).2 ⟨j, hj1, hj2, hjx⟩
    obtain ⟨e, e1, e2, e3⟩ := (mem_neighbour_list g x u).1 (hsym u hu x hxn hmem)
    have hit : (x, e) ∈ add_4B_weight_step2_iterations g :=
      (mem_step2_iterations g hsorted (x, e)).2 ⟨hxn, e1, e2, by show rd g.edges_list e < x; omega⟩
    obtain ⟨i, i1, i2, i3⟩ := k4 _ (hall _ hit)
    dsimp only at i1 i2 i3
    rw [e3] at i1 i2
    rw [List.mem_map]
    exact ⟨i, by rw [List.mem_range'_1]; omega, i3⟩
  have hlen := (List.subperm_of_subset hU hsub).length_le
  simp only [List.length_map, List.length_range'] at hlen
  have := k1 u hu
  omega

/-- The weighted edges left by an interleaved run of step 2: every slot holding a
neighbour not above its vertex keeps the weight of step 1, and every edge `u - v` with
`u < v` carries in the list of `u` the weight that step 1 gave it in the list of `v`. -/
theorem interleaved_weighted_edges (g : ll_400_graph) (hwf : well_formed g)
    (hsorted : sorted_neighbour_lists g) (hsym : symmetric_graph g)
    (cursor1 edges1 : List Nat)
    (hc1 : ∀ u, u < g.vertices_count → boundary g u (rd cursor1 u) (u + 1))
    (hs1 : ∀ u, u < g.vertices_count → ∀ i, rd g.offsets_list u ≤ i → i < rd cursor1 u →
      rd edges1 (2 * i) = rd g.edges_list i)
    (done : List (Nat × Nat))
    (hall : ∀ it, it ∈ done ↔ it ∈ add_4B_weight_step2_iterations g)
    (st : List Nat × List Nat) (hK : interleaved_invariant g cursor1 edges1 done st)
    (f : Nat × Nat × Nat) :
    f ∈ weighted_edges
        { vertices_count := g.vertices_count, edges_count := g.edges_count,
          offsets_list := g.offsets_list, edges_list := st.2 } ↔
      f.1 < g.vertices_count ∧
      ((∃ i, rd g.offsets_list f.1 ≤ i ∧ i < rd g.offsets_list (f.1 + 1) ∧
          rd g.edges_list i ≤ f.1 ∧ f.2.1 = rd g.edges_list i ∧
          f.2.2 = rd edges1 (2 * i + 1)) ∨
        (∃ e, f.2.1 < g.vertices_count ∧ rd g.offsets_list f.2.1 ≤ e ∧
          e < rd g.offsets_list (f.2.1 + 1) ∧ rd g.edges_list e = f.1 ∧ f.1 < f.2.1 ∧
          f.2.2 = rd edges1 (2 * e + 1))) := by
  have hfull := interleaved_full g hwf hsorted hsym cursor1 edges1 hc1 done
    (fun it h => (hall it).2 h) st hK
  obtain ⟨_, _, k1, k2, k3, k4, _⟩ := hK
  rw [mem_weighted_edges]
  obtain ⟨u, v, w⟩ := f
  dsimp only
  constructor
  · rintro ⟨hu, i, hi, hv, hw⟩
    rw [mem_edge_slots] at hi
    refine ⟨hu, ?_⟩
    have hb := hc1 u hu
    by_cases hlow : i < rd cursor1 u
    · left
      obtain ⟨q1, q2⟩ := k2 u hu i hi.1 hlow
      have hnb := hs1 u hu i hi.1 hlow
      refine ⟨i, hi.1, hi.2, ?_, ?_, ?_⟩
      · have := hb.2.2.1 i hi.1 hlow
        omega
      · rw [← hv, q1, hnb]
      · rw [← hw, q2]
    · right
      obtain ⟨e, m1, m2, m3⟩ := k3 u hu i (by omega) (by rw [hfull u hu]; exact hi.2)
      rw [hv] at m1
      obtain ⟨a1, a2, a3, a4⟩ := (mem_step2_iterations g hsorted _).1 ((hall _).1 m1)
      dsimp only at a1 a2 a3 a4
      exact ⟨e, a1, a2, a3, m2, by omega, by rw [← hw, m3]⟩
  · rintro ⟨hu, h | h⟩
    · obtain ⟨i, i1, i2, i3, i4, i5⟩ := h
      have hb := hc1 u hu
      have hlow : i < rd cursor1 u := by
        by_contra hge
        have := hb.2.2.2 i (by omega) i2
        omega
      obtain ⟨q1, q2⟩ := k2 u hu i i1 hlow
      refine ⟨hu, i, (mem_edge_slots _ _ _).2 ⟨i1, i2⟩, ?_, ?_⟩
      · show rd st.2 (2 * i) = v
        rw [q1, hs1 u hu i i1 hlow, i4]
      · show rd st.2 (2 * i + 1) = w
        rw [q2, i5]
    · obtain ⟨e, e0, e1, e2, e3, e4, e5⟩ := h
      have hit : (v, e) ∈ add_4B_weight_step2_iterations g :=
        (mem_step2_iterations g hsorted (v, e)).2
          ⟨e0, e1, e2, by show rd g.edges_list e < v; omega⟩
      obtain ⟨i, i1, i2, i3⟩ := k4 _ ((hall _).2 hit)
      dsimp only at i1 i2 i3
      rw [e3] at i1 i2
      obtain ⟨e', m1, m2, m3⟩ := k3 u hu i i1 i2
      rw [i3] at m1
      have hee := iteration_unique g hsorted v e e' hit ((hall _).1 m1) (by rw [m2, e3])
      have hb := hc1 u hu
      refine ⟨hu, i, (mem_edge_slots _ _ _).2 ⟨by have := hb.1; omega,
        by have := (k1 u hu).2; omega⟩, i3, ?_⟩
      show rd st.2 (2 * i + 1) = w
      rw [m3, hee, e5]

/-- The weighted edges of the graph that steps 1 and 2 leave when the iterations of step 2
take effect in the order `schedule`: they are settled by the weights of step 1. -/
theorem add_4B_weight_interleaved_edges (pe : par_env) (partitions : List Nat)
    (g : ll_400_graph) (hwf : well_formed g) (hsorted : sorted_neighbour_lists g)
    (hsym : symmetric_graph g)
    (hcover : partitions_cover partitions (pe.threads_count * 64) g.vertices_count)
    (max_weight : Nat) (h1 : 1 ≤ max_weight) (h2 : max_weight < 2 ^ 32)
    (schedule : List (Nat × Nat))
    (hperm : schedule.Perm (add_4B_weight_step2_iterations g)) (f : Nat × Nat × Nat) :
    f ∈ weighted_edges
        { vertices_count := g.vertices_count, edges_count := g.edges_count,
          offsets_list := g.offsets_list,
          edges_list := (add_4B_weight_step2_interleaved g schedule
            (add_4B_weight_step1 pe partitions g max_weight)).2 } ↔
      f.1 < g.vertices_count ∧
      ((∃ i, rd g.offsets_list f.1 ≤ i ∧ i < rd g.offsets_list (f.1 + 1) ∧
          rd g.edges_list i ≤ f.1 ∧ f.2.1 = rd g.edges_list i ∧
          f.2.2 = rd (add_4B_weight_step1 pe partitions g max_weight).2 (2 * i + 1)) ∨
        (∃ e, f.2.1 < g.vertices_count ∧ rd g.offsets_list f.2.1 ≤ e ∧
          e < rd g.offsets_list (f.2.1 + 1) ∧ rd g.edges_list e = f.1 ∧ f.1 < f.2.1 ∧
          f.2.2 = rd (add_4B_weight_step1 pe partitions g max_weight).2 (2 * e + 1))) := by
  have hinv := add_4B_weight_step1_spec pe partitions g hwf hsorted hcover max_weight h1 h2
  have hc1 := hinv.2.2.1
  have hs1 : ∀ u, u < g.vertices_count → ∀ i, rd g.offsets_list u ≤ i →
      i < rd (add_4B_weight_step1 pe partitions g max_weight).1 u →
      rd (add_4B_weight_step1 pe partitions g max_weight).2 (2 * i) = rd g.edges_list i :=
    fun u hu i i1 i2 => (hinv.2.2.2 u hu i i1 i2).1
  have hrun := interleaved_run g hwf hsorted hsym _ _ hc1 schedule
    (fun r hr => hperm.mem_iff.1 hr) (hperm.nodup_iff.2 (step2_iterations_nodup g)) []
    (by simp) (by simp) _ (interleaved_start g max_weight _ hinv)
  exact interleaved_weighted_edges g hwf hsorted hsym _ _ hc1 hs1 _
    (by
      intro it
      rw [List.append_nil, List.mem_reverse]
      exact hperm.mem_iff) _ hrun f

/-- C14 (amended): the weight of every edge is determined by the graph, `max_weight` and the
partitioning.  For the same symmetric input graph with strictly increasing
neighbour-lists and the same `max_weight`, take two runs of
`add_4B_weight_to_ll_400_graph`, whatever their `threads_count`, in which every non-empty
partition of the first run is the partition with the same index and the same boundaries
of the second run.  Whatever the orders in which the iterations of step 2 take effect in
the two runs, the two graphs hold the same weighted edges: every edge `u → v` has the
same weight in both.  So do the graphs that the two calls return, and the calls return
when the 32-bit counter of the final loop can pass `vertices_count`. -/
theorem add_4B_weight_same_partitions (pe1 pe2 : par_env) (partitions1 partitions2 : List Nat)
    (g : ll_400_graph) (max_weight flags : Nat) (hwf : well_formed g)
    (hsorted : sorted_neighbour_lists g) (hsym : symmetric_graph g)
    (hcover1 : partitions_cover partitions1 (pe1.threads_count * 64) g.vertices_count)
    (hcover2 : partitions_cover partitions2 (pe2.threads_count * 64) g.vertices_count)
    (h1 : 1 ≤ max_weight) (h2 : max_weight ≤ 2 ^ 32 - 1)
    (hsame : ∀ p, p < pe1.threads_count * 64 → rd partitions1 p < rd partitions1 (p + 1) →
      p < pe2.threads_count * 64 ∧ rd partitions2 p = rd partitions1 p ∧
      rd partitions2 (p + 1) = rd partitions1 (p + 1)) :
    (∀ schedule1 schedule2 : List (Nat × Nat),
      schedule1.Perm (add_4B_weight_step2_iterations g) →
      schedule2.Perm (add_4B_weight_step2_iterations g) →
      ∀ f, f ∈ weighted_edges
          { vertices_count := g.vertices_count, edges_count := g.edges_count,
            offsets_list := g.offsets_list,
            edges_list := (add_4B_weight_step2_interleaved g schedule1
              (add_4B_weight_step1 pe1 partitions1 g max_weight)).2 } ↔
        f ∈ weighted_edges
          { vertices_count := g.vertices_count, edges_count := g.edges_count,
            offsets_list := g.offsets_list,
            edges_list := (add_4B_weight_step2_interleaved g schedule2
              (add_4B_weight_step1 pe2 partitions2 g max_weight)).2 }) ∧
    (∀ fuel1 fuel2 out1 out2,
      add_4B_weight_to_ll_400_graph fuel1 pe1 partitions1 g max_weight flags =
        some (Except.ok out1) →
      add_4B_weight_to_ll_400_graph fuel2 pe2 partitions2 g max_weight flags =
        some (Except.ok out2) →
      ∀ f, f ∈ weighted_edges out1 ↔ f ∈ weighted_edges out2) ∧
    (g.vertices_count + 1 < 2 ^ 32 →
      ∃ out1 out2,
        add_4B_weight_to_ll_400_graph (g.vertices_count + 2) pe1 partitions1 g max_weight
          flags = some (Except.ok out1) ∧
        add_4B_weight_to_ll_400_graph (g.vertices_count + 2) pe2 partitions2 g max_weight
          flags = some (Except.ok out2)) := by
  have h2' : max_weight < 2 ^ 32 := by omega
  have hlow := add_4B_weight_step1_same pe1 pe2 partitions1 partitions2 g hwf hsorted hcover1
    hcover2 max_weight h1 h2' hsame
  have hmain : ∀ schedule1 schedule2 : List (Nat × Nat),
      schedule1.Perm (add_4B_weight_step2_iterations g) →
      schedule2.Perm (add_4B_weight_step2_iterations g) →
      ∀ f, f ∈ weighted_edges
          { vertices_count := g.vertices_count, edges_count := g.edges_count,
            offsets_list := g.offsets_list,
            edges_list := (add_4B_weight_step2_interleaved g schedule1
              (add_4B_weight_step1 pe1 partitions1 g max_weight)).2 } ↔
        f ∈ weighted_edges
          { vertices_count := g.vertices_count, edges_count := g.edges_count,
            offsets_list := g.offsets_list,
            edges_list := (add_4B_weight_step2_interleaved g schedule2
              (add_4B_weight_step1 pe2 partitions2 g max_weight)).2 } := by
    intro schedule1 schedule2 hp1 hp2 f
    rw [add_4B_weight_interleaved_edges pe1 partitions1 g hwf hsorted hsym hcover1 max_weight
        h1 h2' schedule1 hp1 f,
      add_4B_weight_interleaved_edges pe2 partitions2 g hwf hsorted hsym hcover2 max_weight
        h1 h2' schedule2 hp2 f]
    constructor
    · rintro ⟨hu, h | h⟩
      · obtain ⟨i, i1, i2, i3, i4, i5⟩ := h
        exact ⟨hu, Or.inl ⟨i, i1, i2, i3, i4, by rw [i5]; exact hlow f.1 hu i i1 i2 i3⟩⟩
      · obtain ⟨e, e0, e1, e2, e3, e4, e5⟩ := h
        exact ⟨hu, Or.inr ⟨e, e0, e1, e2, e3, e4,
          by rw [e5]; exact hlow f.2.1 e0 e e1 e2 (by omega)⟩⟩
    · rintro ⟨hu, h | h⟩
      · obtain ⟨i, i1, i2, i3, i4, i5⟩ := h
        exact ⟨hu, Or.inl ⟨i, i1, i2, i3, i4, by rw [i5]; exact (hlow f.1 hu i i1 i2 i3).symm⟩⟩
      · obtain ⟨e, e0, e1, e2, e3, e4, e5⟩ := h
        exact ⟨hu, Or.inr ⟨e, e0, e1, e2, e3, e4,
          by rw [e5]; exact (hlow f.2.1 e0 e e1 e2 (by omega)).symm⟩⟩
  refine ⟨hmain, ?_, ?_⟩
  · intro fuel1 fuel2 out1 out2 r1 r2 f
    obtain ⟨a1, a2, a3, a4⟩ := add_4B_weight_facts pe1 partitions1 g max_weight flags hwf
      hsorted hsym hcover1 h1 h2' fuel1 out1 r1
    obtain ⟨b1, b2, b3, b4⟩ := add_4B_weight_facts pe2 partitions2 g max_weight flags hwf
      hsorted hsym hcover2 h1 h2' fuel2 out2 r2
    have e1 : out1 = ll_404_graph.mk g.vertices_count g.edges_count g.offsets_list
        (add_4B_weight_step2_interleaved g (add_4B_weight_step2_iterations g)
          (add_4B_weight_step1 pe1 partitions1 g max_weight)).2 := by
      rw [← add_4B_weight_step2_eq_interleaved]
      cases out1
      simp only [ll_404_graph.mk.injEq]
      exact ⟨a1, a2, a3, a4⟩
    have e2 : out2 = ll_404_graph.mk g.vertices_count g.edges_count g.offsets_list
        (add_4B_weight_step2_interleaved g (add_4B_weight_step2_iterations g)
          (add_4B_weight_step1 pe2 partitions2 g max_weight)).2 := by
      rw [← add_4B_weight_step2_eq_interleaved]
      cases out2
      simp only [ll_404_graph.mk.injEq]
      exact ⟨b1, b2, b3, b4⟩
    rw [e1, e2]
    exact hmain _ _ (List.Perm.refl _) (List.Perm.refl _) f
  · intro hn
    obtain ⟨out1, r1⟩ := add_4B_weight_returns pe1 partitions1 g max_weight flags hwf hsorted
      hsym hcover1 h1 h2' hn
    obtain ⟨out2, r2⟩ := add_4B_weight_returns pe2 partitions2 g max_weight flags hwf hsorted
      hsym hcover2 h1 h2' hn
    exact ⟨out1, out2, r1, r2⟩

theorem add_4B_weight_same_partitions_witness :
    well_formed sample_sym ∧ sorted_neighbour_lists sample_sym ∧ symmetric_graph sample_sym ∧
    partitions_cover sample_partitions (sample_pe.threads_count * 64) sample_sym.vertices_count ∧
    partitions_cover sample_partitions_padded (two_threads.threads_count * 64)
      sample_sym.vertices_count ∧
    1 ≤ 102400 ∧ 102400 ≤ 2 ^ 32 - 1 ∧
    (∀ p, p < sample_pe.threads_count * 64 →
      rd sample_partitions p < rd sample_partitions (p + 1) →
      p < two_threads.threads_count * 64 ∧
      rd sample_partitions_padded p = rd sample_partitions p ∧
      rd sample_partitions_padded (p + 1) = rd sample_partitions (p + 1)) ∧
    add_4B_weight_step2_iterations sample_sym = [(2, 4), (2, 5), (3, 6), (3, 7)] ∧
    (add_4B_weight_step2_interleaved sample_sym [(2, 4), (2, 5), (3, 6), (3, 7)]
      (add_4B_weight_step1 sample_pe sample_partitions sample_sym 102400)).2 =
        [2, 65854, 3, 36884, 2, 102196, 3, 43104, 0, 65854, 1, 102196, 0, 36884, 1, 43104] ∧
    (add_4B_weight_step2_interleaved sample_sym [(3, 7), (3, 6), (2, 5), (2, 4)]
      (add_4B_weight_step1 two_threads sample_partitions_padded sample_sym 102400)).2 =
        [3, 36884, 2, 65854, 3, 43104, 2, 102196, 0, 65854, 1, 102196, 0, 36884, 1, 43104] ∧
    (∀ f, f ∈ weighted_edges
        { vertices_count := sample_sym.vertices_count, edges_count := sample_sym.edges_count,
          offsets_list := sample_sym.offsets_list,
          edges_list := (add_4B_weight_step2_interleaved sample_sym
            [(2, 4), (2, 5), (3, 6), (3, 7)]
            (add_4B_weight_step1 sample_pe sample_partitions sample_sym 102400)).2 } ↔
      f ∈ weighted_edges
        { vertices_count := sample_sym.vertices_count, edges_count := sample_sym.edges_count,
          offsets_list := sample_sym.offsets_list,
          edges_list := (add_4B_weight_step2_interleaved sample_sym
            [(3, 7), (3, 6), (2, 5), (2, 4)]
            (add_4B_weight_step1 two_threads sample_partitions_padded sample_sym
              102400)).2 }) := by
  set_option maxRecDepth 8000 in
  exact ⟨(by decide), (by decide), (by decide), (by decide), (by decide), (by decide),
    (by decide), (by decide), (by decide), (by decide), (by decide),
    (add_4B_weight_same_partitions sample_pe two_threads sample_partitions
      sample_partitions_padded sample_sym 102400 0 (by decide) (by decide) (by decide)
      (by decide) (by decide) (by decide) (by decide) (by decide)).1
      [(2, 4), (2, 5), (3, 6), (3, 7)] [(3, 7), (3, 6), (2, 5), (2, 4)]
      (by decide) (by decide)⟩

end LaganLighter
